import Mathlib

/-!
# bgen: a shallow embedding of the B-tree engine of `bgen.h`

The development models the tree engine of `src/bgen.h` for the build
configuration

* `BGEN_COMPARE` given (the comparator is the parameter `cmp`), linear search,
  no `BGEN_MAYBELESSEQUAL`, no path hint;
* `BGEN_COW` and `BGEN_SPATIAL` not defined;
* `BGEN_FANOUT`, `BGEN_COUNTED`, `BGEN_NOORDER` are the fields of `Config`.

Modelling conventions.

* A node is a value; the fixed-size arrays `items`, `children`, `counts` are the
  lists of their live prefix (`len` is `items.length`).  Slots past `len` hold
  stale data in C that no code path reads on a tree satisfying the invariants.
* A mutation through a pointer returns the updated node.
* The allocator is a script `List Bool`: every call of `alloc_node` consumes
  the head, `false` meaning that `BGEN_MALLOC` returned null; an exhausted
  script allocates successfully.
* An output parameter (`olditem`, `item_out`) is an `Option`: `none` means that
  the function did not write through the pointer.
* `while (1)` loops that descend or re-descend the tree take a fuel argument;
  the public operations supply fuel computed from the tree, and the theorems
  show that it suffices on every tree satisfying the invariants (the status
  `FUEL`, which has no counterpart in C, is never returned there).
* `size_t` / `short` arithmetic is over `Nat`; no count of a tree that fits in
  memory reaches the word size.
-/

namespace Bgen

/-- Build-time knobs of one tree type: `BGEN_FANOUT` (`none` when the symbol is
not defined), `BGEN_COUNTED`, `BGEN_NOORDER`. -/
structure Config where
  fanout : Option Nat
  counted : Bool
  noorder : Bool

/-- The macro `BGEN_FANOUTUSED` (bgen.h 47-57). -/
def FANOUTUSED (cfg : Config) : Nat :=
  match cfg.fanout with
  | none => 16
  | some f =>
    if f < 4 then 4
    else if f > 4096 then 4096
    else if f % 2 = 1 then f - 1
    else f

/-- The macro `BGEN_MAXITEMS` (bgen.h 61). -/
def MAXITEMS (cfg : Config) : Nat := FANOUTUSED cfg - 1

/-- The macro `BGEN_MINITEMS` (bgen.h 62). -/
def MINITEMS (cfg : Config) : Nat := MAXITEMS cfg / 2

/-- Status codes (bgen.h 170-180), the private `BGEN_MUSTSPLIT`, `NONE` for the
value 0 with which a fast path declines, and `FUEL` for an exhausted loop budget
of the model. -/
inductive Status where
  | NONE
  | INSERTED
  | REPLACED
  | DELETED
  | FOUND
  | NOTFOUND
  | OUTOFORDER
  | FINISHED
  | STOPPED
  | COPIED
  | NOMEM
  | UNSUPPORTED
  | MUSTSPLIT
  | FUEL
deriving DecidableEq, Repr

/-- The struct `BGEN_NODE` (bgen.h 490-507) without `rc` and `rects`. -/
inductive Node (α : Type) where
  | mk (items : List α) (height : Nat) (isleaf : Bool)
      (children : List (Node α)) (counts : List Nat)

namespace Node

variable {α : Type}

/-- Live items of the node. -/
def items : Node α → List α
  | mk i _ _ _ _ => i

/-- The field `height`. -/
def height : Node α → Nat
  | mk _ h _ _ _ => h

/-- The field `isleaf`. -/
def isleaf : Node α → Bool
  | mk _ _ l _ _ => l

/-- Live child pointers. -/
def children : Node α → List (Node α)
  | mk _ _ _ c _ => c

/-- Live child counts. -/
def counts : Node α → List Nat
  | mk _ _ _ _ k => k

/-- The field `len`. -/
def len (n : Node α) : Nat := n.items.length

/-- A node as `alloc_node` leaves it (bgen.h 589-603). -/
def fresh (isleaf : Bool) : Node α := mk [] 0 isleaf [] []

/-- The read `node->children[i]`; an index past the live children yields a blank
leaf (in C: a stale or null pointer). -/
def child (n : Node α) (i : Nat) : Node α := n.children.getD i (fresh true)

/-- Replace the item array. -/
def setItems (n : Node α) (its : List α) : Node α :=
  mk its n.height n.isleaf n.children n.counts

/-- Replace the child array. -/
def setChildren (n : Node α) (cs : List (Node α)) : Node α :=
  mk n.items n.height n.isleaf cs n.counts

/-- Replace the count array. -/
def setCounts (n : Node α) (ks : List Nat) : Node α :=
  mk n.items n.height n.isleaf n.children ks

/-- The write `node->children[i] = c`. -/
def setChild (n : Node α) (i : Nat) (c : Node α) : Node α :=
  n.setChildren (n.children.set i c)

/-- The write `node->counts[i] = k`. -/
def setCount (n : Node α) (i k : Nat) : Node α :=
  n.setCounts (n.counts.set i k)

/-- The read `node->counts[i]`. -/
def count (n : Node α) (i : Nat) : Nat := n.counts.getD i 0

end Node

open Node

variable {α : Type}

/-- The function `alloc_node` (bgen.h 589-603) against the allocator script. -/
def alloc_node (isleaf : Bool) (mem : List Bool) : Option (Node α) × List Bool :=
  match mem with
  | [] => (some (fresh isleaf), [])
  | true :: rest => (some (fresh isleaf), rest)
  | false :: rest => (none, rest)

mutual
/-- The function `deepcount` (bgen.h 606-614). -/
def deepcount : Node α → Nat
  | mk items _ isleaf children _ =>
    items.length + (if isleaf then 0 else deepcountL children (items.length + 1))
/-- The loop of `deepcount` over the first `n` children. -/
def deepcountL : List (Node α) → Nat → Nat
  | [], _ => 0
  | _ :: _, 0 => 0
  | c :: cs, n + 1 => deepcount c + deepcountL cs n
end

mutual
/-- The function `deepheight` (bgen.h 617-626): the length of the leftmost
spine. -/
def deepheight : Node α → Nat
  | mk _ _ isleaf children _ => if isleaf then 1 else 1 + deepheightL children
/-- The step `node = node->children[0]` of `deepheight`. -/
def deepheightL : List (Node α) → Nat
  | [] => 0
  | c :: _ => deepheight c
end

mutual
/-- Number of levels below and including the node along its deepest path; the
loop budget handed to the descending loops. -/
def depth : Node α → Nat
  | mk _ _ isleaf children _ => if isleaf then 1 else 1 + depthL children
/-- Maximum of `depth` over a child array. -/
def depthL : List (Node α) → Nat
  | [] => 0
  | c :: cs => max (depth c) (depthL cs)
end

mutual
/-- In-order item sequence of a subtree: the order in which `node_scan` visits
the items. -/
def flat : Node α → List α
  | mk items _ isleaf children _ => if isleaf then items else flatL children items
/-- In-order sequence of a child array interleaved with the separators. -/
def flatL : List (Node α) → List α → List α
  | [], _ => []
  | c :: _, [] => flat c
  | c :: cs, s :: ss => flat c ++ s :: flatL cs ss
end

/-- The function `count0` (bgen.h 811-823). -/
def count0 (cfg : Config) (node : Node α) : Nat :=
  if cfg.counted then
    node.len + (if node.isleaf then 0 else (node.counts.take (node.len + 1)).sum)
  else deepcount node

/-- The function `count` (bgen.h 826-829). -/
def count (cfg : Config) (root : Option (Node α)) : Nat :=
  match root with
  | none => 0
  | some r => count0 cfg r

/-- The function `height` (bgen.h 832-835). -/
def height (root : Option (Node α)) : Nat :=
  match root with
  | none => 0
  | some r => r.height

/-- The function `node_count` (bgen.h 839-845). -/
def node_count (cfg : Config) (branch : Node α) (i : Nat) : Nat :=
  if cfg.counted then branch.count i else count0 cfg (branch.child i)

/-- The function `search_linear` for `BGEN_COMPARE` (bgen.h 897-936): the first
index whose item is not below the key, and whether that item compares equal. -/
def search_linear (cmp : α → α → Int) : List α → α → Nat × Bool
  | [], _ => (0, false)
  | x :: xs, key =>
    if cmp key x ≤ 0 then (0, decide (cmp key x = 0))
    else ((search_linear cmp xs key).1 + 1, (search_linear cmp xs key).2)

/-- The function `search` without path hint (bgen.h 940-949). -/
def search (cmp : α → α → Int) (node : Node α) (key : α) : Nat × Bool :=
  search_linear cmp node.items key

/-- The function `less` for `BGEN_COMPARE` (bgen.h 380-382). -/
def less (cmp : α → α → Int) (a b : α) : Bool := decide (cmp a b < 0)

/-- The function `shift_right` with `n = 1` (bgen.h 1820-1838), together with
the write `node->items[i] = x` that every caller performs next.  The child and
count arrays get a gap after slot `i`: slot `i + 1` repeats slot `i`. -/
def shift_right (cfg : Config) (node : Node α) (i : Nat) (x : α) : Node α :=
  if node.isleaf then node.setItems (node.items.take i ++ x :: node.items.drop i)
  else
    Node.mk (node.items.take i ++ x :: node.items.drop i) node.height node.isleaf
      (node.children.take (i + 1) ++ node.children.drop i)
      (if cfg.counted then node.counts.take (i + 1) ++ node.counts.drop i
       else node.counts)

/-- The function `split` (bgen.h 1952-1985): the truncated left node, the
separator and the new right node, or `none` when the allocation fails.  A node
with no item at `mid` (never passed by a caller) also yields `none`. -/
def split (cfg : Config) (left : Node α) (mem : List Bool) :
    Option (Node α × α × Node α) × List Bool :=
  match (alloc_node left.isleaf mem : Option (Node α) × List Bool) with
  | (none, mem1) => (none, mem1)
  | (some right, mem1) =>
    match left.items.drop (MAXITEMS cfg / 2) with
    | [] => (none, mem1)
    | mitem :: ritems =>
      if left.isleaf then
        (some (left.setItems (left.items.take (MAXITEMS cfg / 2)), mitem,
          Node.mk ritems left.height right.isleaf right.children right.counts), mem1)
      else
        (some (Node.mk (left.items.take (MAXITEMS cfg / 2)) left.height left.isleaf
            (left.children.take (MAXITEMS cfg / 2 + 1))
            (if cfg.counted then left.counts.take (MAXITEMS cfg / 2 + 1) else left.counts),
          mitem,
          Node.mk ritems left.height right.isleaf
            (left.children.drop (MAXITEMS cfg / 2 + 1))
            (if cfg.counted then left.counts.drop (MAXITEMS cfg / 2 + 1) else right.counts)),
          mem1)

/-- The function `split_root` (bgen.h 1987-2012): the new root, or `none` when
an allocation fails (the old root is then untouched). -/
def split_root (cfg : Config) (root : Node α) (mem : List Bool) :
    Option (Node α) × List Bool :=
  match (alloc_node false mem : Option (Node α) × List Bool) with
  | (none, mem1) => (none, mem1)
  | (some newroot, mem1) =>
    match split cfg root mem1 with
    | (none, mem2) => (none, mem2)
    | (some (l, m, r), mem2) =>
      (some (Node.mk [m] (root.height + 1) newroot.isleaf [l, r]
        (if cfg.counted then [count0 cfg l, count0 cfg r] else newroot.counts)), mem2)

/-- The function `split_child_at` (bgen.h 2015-2035). -/
def split_child_at (cfg : Config) (node : Node α) (i : Nat) (mem : List Bool) :
    Option (Node α) × List Bool :=
  match split cfg (node.child i) mem with
  | (none, mem1) => (none, mem1)
  | (some (l, m, r), mem1) =>
    if cfg.counted then
      (some (((((shift_right cfg node i m).setChild i l).setChild (i + 1) r).setCount i
        (count0 cfg l)).setCount (i + 1) (count0 cfg r)), mem1)
    else
      (some (((shift_right cfg node i m).setChild i l).setChild (i + 1) r), mem1)

/-- The number of items `give_left` / `give_right` move (bgen.h 2051, 2083);
the callers pass a giver at least as long as the taker. -/
def give_n (balance : Bool) (giver taker : Nat) : Nat :=
  if balance then (giver - taker) / 2 else giver - taker

/-- The function `give_left` (bgen.h 2037-2068): `n` items travel from child
`index` through the separator `index - 1` to child `index - 1`.  A read outside
the live items (no caller causes one) leaves the node as it is. -/
def give_left (cfg : Config) (node : Node α) (index : Nat) (balance : Bool) : Node α :=
  let left := node.child (index - 1)
  let right := node.child index
  let n := give_n balance right.len left.len
  match node.items[index - 1]?, right.items[n - 1]? with
  | some sep, some newsep =>
    let left1 := left.setItems (left.items ++ sep :: right.items.take (n - 1))
    let right1 := right.setItems (right.items.drop n)
    let node1 := ((node.setItems (node.items.set (index - 1) newsep)).setChild
      (index - 1) left1).setChild index right1
    if cfg.counted then (node1.setCount (index - 1) left1.len).setCount index right1.len
    else node1
  | _, _ => node

/-- The function `give_right` (bgen.h 2070-2100): `n` items travel from child
`index` through the separator `index` to child `index + 1`; expects `n >= 1`.
A read outside the live items leaves the node as it is. -/
def give_right (cfg : Config) (node : Node α) (index : Nat) (balance : Bool) : Node α :=
  let left := node.child index
  let right := node.child (index + 1)
  let n := give_n balance left.len right.len
  match node.items[index]?, left.items[left.len - n]? with
  | some sep, some newsep =>
    let left1 := left.setItems (left.items.take (left.len - n))
    let right1 := right.setItems (left.items.drop (left.len - n + 1) ++ sep :: right.items)
    let node1 := ((node.setItems (node.items.set index newsep)).setChild
      index left1).setChild (index + 1) right1
    if cfg.counted then (node1.setCount index left1.len).setCount (index + 1) right1.len
    else node1
  | _, _ => node

/-- The insertion actions `BGEN_INSITEM` .. `BGEN_PUSHBACK` (bgen.h 2103-2107). -/
inductive InsAct where
  | INSITEM
  | INSAT
  | REPAT
  | PUSHFRONT
  | PUSHBACK
deriving DecidableEq, Repr

/-- What an insertion routine leaves behind: the returned status, the node after
the call, the value written through `olditem` (if any) and the rest of the
allocator script. -/
structure InsRes (α : Type) where
  ret : Status
  node : Node α
  old : Option α
  mem : List Bool

/-- The loop `for (; i < node->len; i++)` over the child counts shared by
`insert1`, `delete1` and the positional seeks (bgen.h 2134-2142): `k` is the
number of iterations left; the result is `(i, found, index)`. -/
def index_walk (cfg : Config) (node : Node α) : Nat → Nat → Nat → Nat × Bool × Nat
  | 0, i, index => (i, false, index)
  | k + 1, i, index =>
    if index ≤ node_count cfg node i then (i, decide (index = node_count cfg node i), index)
    else index_walk cfg node k (i + 1) (index - (node_count cfg node i + 1))

mutual
/-- The loop `child = child->children[child->len]` down to a leaf
(bgen.h 2150-2160, 2973-2988). -/
def last_leaf : Node α → Node α
  | mk items h isleaf children counts =>
    if isleaf then mk items h isleaf children counts
    else last_leafL children items.length
/-- The step to child `n` of `last_leaf`. -/
def last_leafL : List (Node α) → Nat → Node α
  | [], _ => fresh true
  | c :: _, 0 => last_leaf c
  | _ :: cs, n + 1 => last_leafL cs n
end

mutual
/-- The loop `child = child->children[0]` down to a leaf
(bgen.h 2162-2170, 2930-2945). -/
def first_leaf : Node α → Node α
  | mk items h isleaf children counts =>
    if isleaf then mk items h isleaf children counts
    else first_leafL children
/-- The step to child 0 of `first_leaf`. -/
def first_leafL : List (Node α) → Node α
  | [] => fresh true
  | c :: _ => first_leaf c
end

/-- The guard `less(a, b)` of an order check where `a` is read from an array
slot: a slot outside the live items fails the check. -/
def less_slot_item (cmp : α → α → Int) (a : Option α) (b : α) : Bool :=
  match a with
  | some x => less cmp x b
  | none => false

/-- The guard `less(a, b)` of an order check where `b` is read from an array
slot. -/
def less_item_slot (cmp : α → α → Int) (a : α) (b : Option α) : Bool :=
  match b with
  | some y => less cmp a y
  | none => false

/-- Outcome of the `switch (act)` at the label `retry` of `insert1`: an early
return, or the slot `i`, the flag `found` and the updated `index`. -/
inductive Locate where
  | exit (ret : Status)
  | slot (i : Nat) (found : Bool) (index : Nat)

/-- The order check of `insert1` for `BGEN_INSAT` / `BGEN_REPAT`
(bgen.h 2144-2185); `true` means in order. -/
def insert1_order (cmp : α → α → Int) (node : Node α) (act : InsAct) (i : Nat)
    (found : Bool) (item : α) : Bool :=
  if act = InsAct.REPAT ∧ node.isleaf = false ∧ found = true then
    less_slot_item cmp (last_leaf (node.child i)).items.getLast? item &&
    less_item_slot cmp item (first_leaf (node.child (i + 1))).items.head?
  else
    (i = 0 || less_slot_item cmp node.items[i - 1]? item) &&
    (if act = InsAct.REPAT ∧ node.isleaf = true then
      (node.len ≤ i + 1 || less_item_slot cmp item node.items[i + 1]?)
     else (node.len ≤ i || less_item_slot cmp item node.items[i]?))

/-- The `switch (act)` of `insert1` (bgen.h 2116-2214). -/
def insert1_locate (cfg : Config) (cmp : α → α → Int) (node : Node α) (act : InsAct)
    (index : Nat) (item : α) : Locate :=
  match act with
  | InsAct.INSITEM => Locate.slot (search cmp node item).1 (search cmp node item).2 index
  | InsAct.PUSHFRONT =>
    if node.isleaf = true ∧ cfg.noorder = false ∧
        less_item_slot cmp item node.items.head? = false then
      Locate.exit Status.OUTOFORDER
    else Locate.slot 0 false index
  | InsAct.PUSHBACK =>
    if node.isleaf = true ∧ cfg.noorder = false ∧
        less_slot_item cmp node.items.getLast? item = false then
      Locate.exit Status.OUTOFORDER
    else Locate.slot node.len false index
  | act =>
    if node.isleaf = true ∧
        (index > node.len ∨ (index = node.len ∧ act = InsAct.REPAT)) then
      Locate.exit Status.NOTFOUND
    else
      let w := if node.isleaf then (index, true, index)
        else index_walk cfg node node.len 0 index
      if cfg.noorder = false ∧ insert1_order cmp node act w.1 w.2.1 item = false then
        Locate.exit Status.OUTOFORDER
      else Locate.slot w.1 (if act = InsAct.INSAT then false else w.2.1) w.2.2

/-- The bookkeeping of `insert1` after the recursive call returned without a
split to do (bgen.h 2245-2260). -/
def insert1_wrap (cfg : Config) (node : Node α) (i : Nat) (r : InsRes α) : InsRes α :=
  if r.ret = Status.INSERTED ∧ cfg.counted = true then
    InsRes.mk r.ret ((node.setChild i r.node).setCount i (node.count i + 1)) r.old r.mem
  else InsRes.mk r.ret (node.setChild i r.node) r.old r.mem

/-- The `while (1)` loop of `insert1` (bgen.h 2215-2278) entered at slot `i` with
the flag `found`; `oindex` is the index saved at `retry`.  The recursive call
on the child and the jump back to `retry` run the `switch` first
(`insert1_locate`) and then this loop again. -/
def insert1_loop (cfg : Config) (cmp : α → α → Int) (act : InsAct) (item : α) :
    Nat → Node α → Nat → Nat → Nat → Bool → List Bool → InsRes α
  | 0, node, _, _, _, _, mem => InsRes.mk Status.FUEL node none mem
  | fuel + 1, node, index, oindex, i, found, mem =>
    if found then
      InsRes.mk Status.REPLACED (node.setItems (node.items.set i item)) node.items[i]? mem
    else if node.isleaf then
      if node.len = MAXITEMS cfg then InsRes.mk Status.MUSTSPLIT node none mem
      else InsRes.mk Status.INSERTED (shift_right cfg node i item) none mem
    else
      let r := match insert1_locate cfg cmp (node.child i) act index item with
        | Locate.exit ret => InsRes.mk ret (node.child i) none mem
        | Locate.slot ci cfound cindex =>
          insert1_loop cfg cmp act item fuel (node.child i) cindex index ci cfound mem
      if r.ret ≠ Status.MUSTSPLIT ∨ node.len = MAXITEMS cfg then insert1_wrap cfg node i r
      else
        match split_child_at cfg (node.setChild i r.node) i r.mem with
        | (none, mem1) => InsRes.mk Status.NOMEM (node.setChild i r.node) r.old mem1
        | (some node1, mem1) =>
          if act = InsAct.INSITEM then
            match node1.items[i]? with
            | some s =>
              if cmp item s ≤ 0 then
                insert1_loop cfg cmp act item fuel node1 index oindex i
                  (decide (cmp item s = 0)) mem1
              else insert1_loop cfg cmp act item fuel node1 index oindex (i + 1) false mem1
            | none => InsRes.mk Status.FUEL node1 r.old mem1
          else
            match insert1_locate cfg cmp node1 act
                (if act = InsAct.INSAT then oindex else index) item with
            | Locate.exit ret => InsRes.mk ret node1 r.old mem1
            | Locate.slot ci cfound cindex =>
              insert1_loop cfg cmp act item fuel node1 cindex
                (if act = InsAct.INSAT then oindex else index) ci cfound mem1

/-- The function `insert1` (bgen.h 2109-2279). -/
def insert1 (cfg : Config) (cmp : α → α → Int) (fuel : Nat) (node : Node α) (act : InsAct)
    (index : Nat) (item : α) (mem : List Bool) : InsRes α :=
  match insert1_locate cfg cmp node act index item with
  | Locate.exit ret => InsRes.mk ret node none mem
  | Locate.slot i found cindex =>
    insert1_loop cfg cmp act item fuel node cindex index i found mem

/-- What a public operation leaves behind: the returned status, the root
pointer after the call, the value written through the output parameter (if
any) and the rest of the allocator script. -/
structure TreeRes (α : Type) where
  ret : Status
  root : Option (Node α)
  old : Option α
  mem : List Bool

/-- The `while (1)` loop of `insert0` (bgen.h 2300-2308); `k` bounds the number
of iterations (two suffice on a tree satisfying the invariants). -/
def insert0_loop (cfg : Config) (cmp : α → α → Int) (act : InsAct) (index : Nat) (item : α) :
    Nat → Node α → List Bool → TreeRes α
  | 0, root, mem => TreeRes.mk Status.FUEL (some root) none mem
  | k + 1, root, mem =>
    match insert1 cfg cmp (2 * depth root) root act index item mem with
    | InsRes.mk ret node old mem1 =>
      if ret ≠ Status.MUSTSPLIT then TreeRes.mk ret (some node) old mem1
      else
        match split_root cfg node mem1 with
        | (none, mem2) => TreeRes.mk Status.NOMEM (some node) old mem2
        | (some newroot, mem2) => insert0_loop cfg cmp act index item k newroot mem2

/-- The function `insert0` (bgen.h 2281-2309). -/
def insert0 (cfg : Config) (cmp : α → α → Int) (root : Option (Node α)) (act : InsAct)
    (index : Nat) (item : α) (mem : List Bool) : TreeRes α :=
  match root with
  | none =>
    if act = InsAct.REPAT ∨ (act = InsAct.INSAT ∧ index > 0) then
      TreeRes.mk Status.NOTFOUND none none mem
    else
      match (alloc_node true mem : Option (Node α) × List Bool) with
      | (none, mem1) => TreeRes.mk Status.NOMEM none none mem1
      | (some n, mem1) =>
        TreeRes.mk Status.INSERTED (some (Node.mk [item] 1 n.isleaf n.children n.counts))
          none mem1
  | some r => insert0_loop cfg cmp act index item 2 r mem

/-- The write `node->counts[i]++` under `BGEN_COUNTED`. -/
def inc_count (cfg : Config) (node : Node α) (i : Nat) : Node α :=
  if cfg.counted then node.setCount i (node.count i + 1) else node

/-- The write `node->counts[i]--` under `BGEN_COUNTED`. -/
def dec_count (cfg : Config) (node : Node α) (i : Nat) : Node α :=
  if cfg.counted then node.setCount i (node.count i - 1) else node

/-- How the loop of a fast path leaves a subtree.
* `done`: the loop executed `return` with status `ret`; the counts on the path
  keep their forward update.
* `brk`: the loop executed `break` with `ret`, and the rollback loop behind it
  has restored the counts at and below this node.
* `full`: the node is a leaf that cannot take the operation by itself (full on
  insertion, minimal on deletion); the test on `parent` that the C loop makes
  next is made by the caller, which is that parent. -/
inductive FastRes (α : Type) where
  | done (ret : Status) (node : Node α) (old : Option α) (mem : List Bool)
  | brk (ret : Status) (node : Node α) (old : Option α) (mem : List Bool)
  | full

mutual
/-- One iteration of the loop of `insert_fastpath` at `node`, from the search
on (bgen.h 2333-2387). -/
def insert_fast_loop (cfg : Config) (cmp : α → α → Int) (item : α) :
    Nat → Node α → List Bool → FastRes α
  | 0, node, mem => FastRes.brk Status.FUEL node none mem
  | fuel + 1, node, mem =>
    if (search cmp node item).2 then
      FastRes.brk Status.REPLACED
        (node.setItems (node.items.set (search cmp node item).1 item))
        node.items[(search cmp node item).1]? mem
    else if node.isleaf then
      if node.len = MAXITEMS cfg then FastRes.full
      else FastRes.done Status.INSERTED
        (shift_right cfg node (search cmp node item).1 item) none mem
    else insert_fast_down cfg cmp item fuel node (search cmp node item).1 mem
/-- The descent of `insert_fastpath` from `node` into child `i`
(bgen.h 2388-2405), the iteration on that child, and what the loop does at
`node` when the child turns out to be a full leaf (bgen.h 2346-2381). -/
def insert_fast_down (cfg : Config) (cmp : α → α → Int) (item : α) :
    Nat → Node α → Nat → List Bool → FastRes α
  | 0, node, _, mem => FastRes.brk Status.FUEL node none mem
  | fuel + 1, node, i, mem =>
    match insert_fast_loop cfg cmp item fuel ((inc_count cfg node i).child i) mem with
    | FastRes.done ret c old mem1 =>
      FastRes.done ret ((inc_count cfg node i).setChild i c) old mem1
    | FastRes.brk ret c old mem1 =>
      FastRes.brk ret (dec_count cfg ((inc_count cfg node i).setChild i c) i) old mem1
    | FastRes.full =>
      if node.len = MAXITEMS cfg then
        FastRes.brk Status.NONE (dec_count cfg (inc_count cfg node i) i) none mem
      else if 0 < i ∧ ((dec_count cfg (inc_count cfg node i) i).child (i - 1)).len
          < MINITEMS cfg + 1 then
        insert_fast_loop cfg cmp item fuel
          (give_left cfg (dec_count cfg (inc_count cfg node i) i) i false) mem
      else
        match split_child_at cfg (dec_count cfg (inc_count cfg node i) i) i mem with
        | (none, mem1) =>
          FastRes.brk Status.NOMEM (dec_count cfg (inc_count cfg node i) i) none mem1
        | (some node1, mem1) =>
          match node1.items[i]? with
          | some s =>
            insert_fast_down cfg cmp item fuel node1 (if cmp item s > 0 then i + 1 else i) mem1
          | none => FastRes.brk Status.FUEL node1 none mem1
end

/-- The function `insert_fastpath` (bgen.h 2312-2421); `NONE` is the return
value 0. -/
def insert_fastpath (cfg : Config) (cmp : α → α → Int) (root : Option (Node α)) (item : α)
    (mem : List Bool) : TreeRes α :=
  match root with
  | none => TreeRes.mk Status.NONE none none mem
  | some r =>
    match insert_fast_loop cfg cmp item (2 * depth r + 2 * FANOUTUSED cfg) r mem with
    | FastRes.done ret node old mem1 => TreeRes.mk ret (some node) old mem1
    | FastRes.brk ret node old mem1 => TreeRes.mk ret (some node) old mem1
    | FastRes.full => TreeRes.mk Status.NONE (some r) none mem

/-- The function `insert` (bgen.h 2425-2438). -/
def insert (cfg : Config) (cmp : α → α → Int) (root : Option (Node α)) (item : α)
    (mem : List Bool) : TreeRes α :=
  if cfg.noorder then TreeRes.mk Status.UNSUPPORTED root none mem
  else
    match insert_fastpath cfg cmp root item mem with
    | TreeRes.mk ret root1 old mem1 =>
      if ret ≠ Status.NONE then TreeRes.mk ret root1 old mem1
      else insert0 cfg cmp root1 InsAct.INSITEM 0 item mem1

/-- The tail of the leaf case of `push_front_fastpath` (bgen.h 3328-3336) on
the leaf `node`: order check, then the insertion at slot 0. -/
def push_front_leaf (cfg : Config) (cmp : α → α → Int) (item : α) (node : Node α)
    (mem : List Bool) : FastRes α :=
  if cfg.noorder = false ∧ less_item_slot cmp item node.items.head? = false then
    FastRes.brk Status.OUTOFORDER node none mem
  else FastRes.done Status.INSERTED (shift_right cfg node 0 item) none mem

/-- The leaf case of `push_front_fastpath` continued at the parent `p` once
room has been made in child 0 (bgen.h 3323-3336). -/
def push_front_finish (cfg : Config) (cmp : α → α → Int) (item : α) (p : Node α)
    (mem : List Bool) : FastRes α :=
  match push_front_leaf cfg cmp item ((inc_count cfg p 0).child 0) mem with
  | FastRes.done ret c old mem1 =>
    FastRes.done ret ((inc_count cfg p 0).setChild 0 c) old mem1
  | FastRes.brk ret c old mem1 =>
    FastRes.brk ret (dec_count cfg ((inc_count cfg p 0).setChild 0 c) 0) old mem1
  | FastRes.full => FastRes.full

/-- The loop of `push_front_fastpath` (bgen.h 3301-3348). -/
def push_front_fast_loop (cfg : Config) (cmp : α → α → Int) (item : α) :
    Nat → Node α → List Bool → FastRes α
  | 0, node, mem => FastRes.brk Status.FUEL node none mem
  | fuel + 1, node, mem =>
    if node.isleaf then
      if node.len = MAXITEMS cfg then FastRes.full
      else push_front_leaf cfg cmp item node mem
    else
      match push_front_fast_loop cfg cmp item fuel ((inc_count cfg node 0).child 0) mem with
      | FastRes.done ret c old mem1 =>
        FastRes.done ret ((inc_count cfg node 0).setChild 0 c) old mem1
      | FastRes.brk ret c old mem1 =>
        FastRes.brk ret (dec_count cfg ((inc_count cfg node 0).setChild 0 c) 0) old mem1
      | FastRes.full =>
        if node.len = MAXITEMS cfg then
          FastRes.brk Status.NONE (dec_count cfg (inc_count cfg node 0) 0) none mem
        else if ((inc_count cfg node 0).child 1).len < MAXITEMS cfg then
          push_front_finish cfg cmp item (give_right cfg (inc_count cfg node 0) 0 false) mem
        else
          match split_child_at cfg (inc_count cfg node 0) 0 mem with
          | (none, mem1) =>
            FastRes.brk Status.NOMEM (dec_count cfg (inc_count cfg node 0) 0) none mem1
          | (some p, mem1) => push_front_finish cfg cmp item p mem1

/-- Turn the outcome of a fast-path loop at the root into the value the fast
path returns. -/
def fast_result (r : Node α) (mem : List Bool) (res : FastRes α) : TreeRes α :=
  match res with
  | FastRes.done ret node old mem1 => TreeRes.mk ret (some node) old mem1
  | FastRes.brk ret node old mem1 => TreeRes.mk ret (some node) old mem1
  | FastRes.full => TreeRes.mk Status.NONE (some r) none mem

/-- The function `push_front_fastpath` (bgen.h 3286-3357). -/
def push_front_fastpath (cfg : Config) (cmp : α → α → Int) (root : Option (Node α))
    (item : α) (mem : List Bool) : TreeRes α :=
  match root with
  | none => TreeRes.mk Status.NONE none none mem
  | some r => fast_result r mem (push_front_fast_loop cfg cmp item (depth r) r mem)

/-- The function `push_front` (bgen.h 3360-3368). -/
def push_front (cfg : Config) (cmp : α → α → Int) (root : Option (Node α)) (item : α)
    (mem : List Bool) : TreeRes α :=
  match push_front_fastpath cfg cmp root item mem with
  | TreeRes.mk ret root1 old mem1 =>
    if ret ≠ Status.NONE then TreeRes.mk ret root1 old mem1
    else insert0 cfg cmp root1 InsAct.PUSHFRONT 0 item mem1

/-- The tail of the leaf case of `push_back_fastpath` (bgen.h 3417-3424) on the
leaf `node`: order check, then `node->items[node->len++] = item`. -/
def push_back_leaf (cfg : Config) (cmp : α → α → Int) (item : α) (node : Node α)
    (mem : List Bool) : FastRes α :=
  if cfg.noorder = false ∧ less_slot_item cmp node.items.getLast? item = false then
    FastRes.brk Status.OUTOFORDER node none mem
  else FastRes.done Status.INSERTED (node.setItems (node.items ++ [item])) none mem

/-- The leaf case of `push_back_fastpath` continued at the parent `p` once room
has been made in the last child (bgen.h 3412-3424). -/
def push_back_finish (cfg : Config) (cmp : α → α → Int) (item : α) (p : Node α)
    (mem : List Bool) : FastRes α :=
  match push_back_leaf cfg cmp item ((inc_count cfg p p.len).child p.len) mem with
  | FastRes.done ret c old mem1 =>
    FastRes.done ret ((inc_count cfg p p.len).setChild p.len c) old mem1
  | FastRes.brk ret c old mem1 =>
    FastRes.brk ret (dec_count cfg ((inc_count cfg p p.len).setChild p.len c) p.len) old mem1
  | FastRes.full => FastRes.full

/-- The loop of `push_back_fastpath` (bgen.h 3386-3436). -/
def push_back_fast_loop (cfg : Config) (cmp : α → α → Int) (item : α) :
    Nat → Node α → List Bool → FastRes α
  | 0, node, mem => FastRes.brk Status.FUEL node none mem
  | fuel + 1, node, mem =>
    if node.isleaf then
      if node.len = MAXITEMS cfg then FastRes.full
      else push_back_leaf cfg cmp item node mem
    else
      match push_back_fast_loop cfg cmp item fuel
          ((inc_count cfg node node.len).child node.len) mem with
      | FastRes.done ret c old mem1 =>
        FastRes.done ret ((inc_count cfg node node.len).setChild node.len c) old mem1
      | FastRes.brk ret c old mem1 =>
        FastRes.brk ret
          (dec_count cfg ((inc_count cfg node node.len).setChild node.len c) node.len) old mem1
      | FastRes.full =>
        if node.len = MAXITEMS cfg then
          FastRes.brk Status.NONE (dec_count cfg (inc_count cfg node node.len) node.len)
            none mem
        else if ((inc_count cfg node node.len).child (node.len - 1)).len < MAXITEMS cfg then
          push_back_finish cfg cmp item
            (give_left cfg (inc_count cfg node node.len) node.len false) mem
        else
          match split_child_at cfg (inc_count cfg node node.len) node.len mem with
          | (none, mem1) =>
            FastRes.brk Status.NOMEM (dec_count cfg (inc_count cfg node node.len) node.len)
              none mem1
          | (some p, mem1) => push_back_finish cfg cmp item p mem1

/-- The function `push_back_fastpath` (bgen.h 3371-3445). -/
def push_back_fastpath (cfg : Config) (cmp : α → α → Int) (root : Option (Node α))
    (item : α) (mem : List Bool) : TreeRes α :=
  match root with
  | none => TreeRes.mk Status.NONE none none mem
  | some r => fast_result r mem (push_back_fast_loop cfg cmp item (depth r) r mem)

/-- The function `push_back` (bgen.h 3448-3456). -/
def push_back (cfg : Config) (cmp : α → α → Int) (root : Option (Node α)) (item : α)
    (mem : List Bool) : TreeRes α :=
  match push_back_fastpath cfg cmp root item mem with
  | TreeRes.mk ret root1 old mem1 =>
    if ret ≠ Status.NONE then TreeRes.mk ret root1 old mem1
    else insert0 cfg cmp root1 InsAct.PUSHBACK 0 item mem1

/-- The function `insert_at` (bgen.h 3463-3467). -/
def insert_at (cfg : Config) (cmp : α → α → Int) (root : Option (Node α)) (index : Nat)
    (item : α) (mem : List Bool) : TreeRes α :=
  insert0 cfg cmp root InsAct.INSAT index item mem

/-- The function `replace_at` (bgen.h 3109-3113). -/
def replace_at (cfg : Config) (cmp : α → α → Int) (root : Option (Node α)) (index : Nat)
    (item : α) (mem : List Bool) : TreeRes α :=
  insert0 cfg cmp root InsAct.REPAT index item mem

/-- Closing one slot of an array whose live part shrinks to `newlen` entries:
the loop `a[j] = a[j+1]` from slot `k` on, as in `shift_left`. -/
def close_slot {β : Type} (l : List β) (k newlen : Nat) : List β :=
  (l.eraseIdx k).take newlen

/-- The function `shift_left` with `n = 1` (bgen.h 2440-2465). -/
def shift_left (cfg : Config) (node : Node α) (i : Nat) (for_merge : Bool) : Node α :=
  if node.isleaf then node.setItems (close_slot node.items i (node.len - 1))
  else
    Node.mk (close_slot node.items i (node.len - 1)) node.height node.isleaf
      (close_slot node.children (if for_merge then i + 1 else i) node.len)
      (if cfg.counted then close_slot node.counts (if for_merge then i + 1 else i) node.len
       else node.counts)

/-- The function `join` (bgen.h 2467-2492): `right` is appended to `left`. -/
def join (cfg : Config) (left right : Node α) : Node α :=
  if left.isleaf then left.setItems (left.items ++ right.items)
  else
    Node.mk (left.items ++ right.items) left.height left.isleaf
      (left.children ++ right.children)
      (if cfg.counted then left.counts ++ right.counts else left.counts)

/-- The merge of the children `i` and `i + 1` of `node` around the separator
`i`, written out twice in C: in `rebalance` (bgen.h 2507-2530) and in
`delete_fastpath` (bgen.h 2815-2831). -/
def merge_children (cfg : Config) (node : Node α) (i : Nat) : Node α :=
  match node.items[i]? with
  | none => node
  | some sep =>
    if cfg.counted then
      (shift_left cfg (node.setChild i
        (join cfg ((node.child i).setItems ((node.child i).items ++ [sep])) (node.child (i + 1))))
        i true).setCount i (node.count i + 1 + node.count (i + 1))
    else
      shift_left cfg (node.setChild i
        (join cfg ((node.child i).setItems ((node.child i).items ++ [sep])) (node.child (i + 1))))
        i true

/-- The branch case of `rebalance`, "move right to left" (bgen.h 2543-2557). -/
def rotate_left (cfg : Config) (node : Node α) (i : Nat) : Node α :=
  match node.items[i]?, (node.child (i + 1)).items.head? with
  | some sep, some first =>
    ((node.setItems (node.items.set i first)).setChild i
      (Node.mk ((node.child i).items ++ [sep]) (node.child i).height (node.child i).isleaf
        ((node.child i).children ++ [(node.child (i + 1)).child 0])
        (if cfg.counted then (node.child i).counts ++ [(node.child (i + 1)).count 0]
         else (node.child i).counts))).setChild (i + 1)
      (shift_left cfg (node.child (i + 1)) 0 false)
  | _, _ => node

/-- The branch case of `rebalance`, "move left to right" (bgen.h 2558-2573). -/
def rotate_right (cfg : Config) (node : Node α) (i : Nat) : Node α :=
  match node.items[i]?, (node.child i).items.getLast? with
  | some sep, some last =>
    ((node.setItems (node.items.set i last)).setChild i
      (Node.mk ((node.child i).items.take ((node.child i).len - 1)) (node.child i).height
        (node.child i).isleaf ((node.child i).children.take (node.child i).len)
        (if cfg.counted then (node.child i).counts.take (node.child i).len
         else (node.child i).counts))).setChild (i + 1)
      (if cfg.counted then
        ((shift_right cfg (node.child (i + 1)) 0 sep).setChild 0
          ((node.child i).child (node.child i).len)).setCount 0
          ((node.child i).count (node.child i).len)
       else
        (shift_right cfg (node.child (i + 1)) 0 sep).setChild 0
          ((node.child i).child (node.child i).len))
  | _, _ => node

/-- The tail of `rebalance` under `BGEN_COUNTED` (bgen.h 2575-2578). -/
def recount (cfg : Config) (node : Node α) (i : Nat) : Node α :=
  if cfg.counted then
    (node.setCount i (count0 cfg (node.child i))).setCount (i + 1)
      (count0 cfg (node.child (i + 1)))
  else node

/-- The function `rebalance` (bgen.h 2494-2584) once `i` has been moved off the
last child. -/
def rebalance_at (cfg : Config) (node : Node α) (i : Nat) : Node α :=
  if (node.child i).len + (node.child (i + 1)).len < MAXITEMS cfg then
    merge_children cfg node i
  else if (node.child i).isleaf then
    if (node.child i).len < (node.child (i + 1)).len then
      recount cfg (give_left cfg node (i + 1) true) i
    else recount cfg (give_right cfg node i true) i
  else if (node.child i).len < (node.child (i + 1)).len then
    recount cfg (rotate_left cfg node i) i
  else recount cfg (rotate_right cfg node i) i

/-- The function `rebalance` (bgen.h 2494-2584). -/
def rebalance (cfg : Config) (node : Node α) (i : Nat) : Node α :=
  rebalance_at cfg node (if i = node.len then i - 1 else i)

/-- The deletion actions `BGEN_DELKEY` .. `BGEN_DELAT` (bgen.h 2587-2591). -/
inductive DelAct where
  | DELKEY
  | POPMAX
  | POPFRONT
  | POPBACK
  | DELAT
deriving DecidableEq, Repr

/-- What `delete1` leaves behind: the status, the node after the call and the
value written through `prev` (if any). -/
structure DelRes (α : Type) where
  ret : Status
  node : Node α
  prev : Option α

/-- The `switch (act)` of `delete1` (bgen.h 2597-2632): `(i, found, index)`. -/
def delete1_locate (cfg : Config) (cmp : α → α → Int) (node : Node α) (act : DelAct)
    (key : α) (index : Nat) : Nat × Bool × Nat :=
  match act with
  | DelAct.DELKEY => ((search cmp node key).1, (search cmp node key).2, index)
  | DelAct.POPMAX => (if node.isleaf then node.len - 1 else node.len, true, index)
  | DelAct.POPFRONT => (0, node.isleaf, index)
  | DelAct.POPBACK => (if node.isleaf then node.len - 1 else node.len, node.isleaf, index)
  | DelAct.DELAT =>
    if node.isleaf then
      if index < node.len then (index, true, index) else (0, false, index)
    else index_walk cfg node node.len 0 index

/-- The tail of `delete1` after the recursive call returned `BGEN_DELETED`
(bgen.h 2681-2693). -/
def delete1_fix (cfg : Config) (node : Node α) (i : Nat) : Node α :=
  if ((dec_count cfg node i).child i).len < MINITEMS cfg then
    rebalance cfg (dec_count cfg node i) i
  else dec_count cfg node i

/-- The function `delete1` (bgen.h 2593-2694).  When the item is found in a
branch the recursive call runs as `BGEN_POPMAX` with `prev` pointing at the
branch slot, so the popped maximum lands in `node->items[i]`. -/
def delete1 (cfg : Config) (cmp : α → α → Int) (key : α) :
    Nat → Node α → DelAct → Nat → DelRes α
  | 0, node, _, _ => DelRes.mk Status.FUEL node none
  | fuel + 1, node, act, index =>
    match delete1_locate cfg cmp node act key index with
    | (i, found, index1) =>
      if node.isleaf then
        if found then DelRes.mk Status.DELETED (shift_left cfg node i false) node.items[i]?
        else DelRes.mk Status.NOTFOUND node none
      else if found = true ∧ act ≠ DelAct.POPMAX then
        match delete1 cfg cmp key fuel (node.child i) DelAct.POPMAX index1 with
        | DelRes.mk ret c popped =>
          if ret ≠ Status.DELETED then DelRes.mk ret (node.setChild i c) node.items[i]?
          else
            DelRes.mk Status.DELETED
              (delete1_fix cfg
                ((match popped with
                  | some m => node.setItems (node.items.set i m)
                  | none => node).setChild i c) i)
              node.items[i]?
      else
        match delete1 cfg cmp key fuel (node.child i) act index1 with
        | DelRes.mk ret c popped =>
          if ret ≠ Status.DELETED then DelRes.mk ret (node.setChild i c) popped
          else DelRes.mk Status.DELETED (delete1_fix cfg (node.setChild i c) i) popped

/-- The function `delete0` (bgen.h 2696-2715); `old` is the value left in
`*olditem`. -/
def delete0 (cfg : Config) (cmp : α → α → Int) (root : Option (Node α)) (act : DelAct)
    (key : α) (index : Nat) (mem : List Bool) : TreeRes α :=
  match root with
  | none => TreeRes.mk Status.NOTFOUND none none mem
  | some r =>
    match delete1 cfg cmp key (depth r) r act index with
    | DelRes.mk ret node prev =>
      if ret ≠ Status.DELETED then TreeRes.mk ret (some node) prev mem
      else if node.len = 0 then
        TreeRes.mk Status.DELETED (if node.isleaf then none else node.children.head?) prev mem
      else TreeRes.mk Status.DELETED (some node) prev mem

/-- The pattern shared by `delete`, `delete_at`, `pop_front`, `pop_back`
(bgen.h 2916-2924): the spare item reaches `*olditem` only on `BGEN_DELETED`. -/
def copy_spare (r : TreeRes α) : TreeRes α :=
  if r.ret = Status.DELETED then r else TreeRes.mk r.ret r.root none r.mem

/-- The leaf case of `delete_fastpath` when the leaf `parent->children[ci]` has
exactly `BGEN_MINITEMS` items and holds the key at slot `li`
(bgen.h 2769-2834).  `parent` carries the decremented count of the path. -/
def delete_fast_minleaf (cfg : Config) (parent : Node α) (ci li : Nat) (mem : List Bool) :
    FastRes α :=
  if 0 < ci ∧ (parent.child (ci - 1)).len > MINITEMS cfg then
    FastRes.done Status.DELETED
      (give_right cfg (parent.setChild ci (shift_left cfg (parent.child ci) li false))
        (ci - 1) true)
      (parent.child ci).items[li]? mem
  else if ci = 0 ∧ (parent.child (ci + 1)).len > MINITEMS cfg then
    FastRes.done Status.DELETED
      (give_left cfg (parent.setChild ci (shift_left cfg (parent.child ci) li false))
        (ci + 1) true)
      (parent.child ci).items[li]? mem
  else if parent.len > MINITEMS cfg then
    FastRes.done Status.DELETED
      (merge_children cfg (parent.setChild ci (shift_left cfg (parent.child ci) li false))
        (if 0 < ci then ci - 1 else ci))
      (parent.child ci).items[li]? mem
  else FastRes.brk Status.NONE (inc_count cfg parent ci) none mem

/-- The branch case of `delete_fastpath` when the key is the separator `i` of
`node` (bgen.h 2837-2877). -/
def delete_fast_branch (cfg : Config) (node : Node α) (i : Nat) (mem : List Bool) :
    FastRes α :=
  if node.height = 2 then
    if (node.child i).len > MINITEMS cfg then
      match (node.child i).items.getLast? with
      | some last =>
        FastRes.done Status.DELETED
          (dec_count cfg ((node.setItems (node.items.set i last)).setChild i
            ((node.child i).setItems ((node.child i).items.take ((node.child i).len - 1)))) i)
          node.items[i]? mem
      | none => FastRes.brk Status.FUEL node none mem
    else if (node.child (i + 1)).len > MINITEMS cfg then
      match (node.child (i + 1)).items.head? with
      | some first =>
        FastRes.done Status.DELETED
          (dec_count cfg ((node.setItems (node.items.set i first)).setChild (i + 1)
            ((node.child (i + 1)).setItems ((node.child (i + 1)).items.drop 1))) (i + 1))
          node.items[i]? mem
      | none => FastRes.brk Status.FUEL node none mem
    else FastRes.brk Status.NONE node none mem
  else FastRes.brk Status.NONE node none mem

/-- The loop of `delete_fastpath` (bgen.h 2757-2888). -/
def delete_fast_loop (cfg : Config) (cmp : α → α → Int) (key : α) :
    Nat → Node α → List Bool → FastRes α
  | 0, node, mem => FastRes.brk Status.FUEL node none mem
  | fuel + 1, node, mem =>
    if node.isleaf then
      if (search cmp node key).2 = false then FastRes.brk Status.NOTFOUND node none mem
      else if node.len = MINITEMS cfg then FastRes.full
      else
        FastRes.done Status.DELETED (shift_left cfg node (search cmp node key).1 false)
          node.items[(search cmp node key).1]? mem
    else if (search cmp node key).2 then delete_fast_branch cfg node (search cmp node key).1 mem
    else
      match delete_fast_loop cfg cmp key fuel
          ((dec_count cfg node (search cmp node key).1).child (search cmp node key).1) mem with
      | FastRes.done ret c old mem1 =>
        FastRes.done ret
          ((dec_count cfg node (search cmp node key).1).setChild (search cmp node key).1 c)
          old mem1
      | FastRes.brk ret c old mem1 =>
        FastRes.brk ret
          (inc_count cfg
            ((dec_count cfg node (search cmp node key).1).setChild (search cmp node key).1 c)
            (search cmp node key).1) old mem1
      | FastRes.full =>
        delete_fast_minleaf cfg (dec_count cfg node (search cmp node key).1)
          (search cmp node key).1
          (search cmp (node.child (search cmp node key).1) key).1 mem

/-- The function `delete_fastpath` (bgen.h 2741-2898). -/
def delete_fastpath (cfg : Config) (cmp : α → α → Int) (root : Option (Node α)) (key : α)
    (mem : List Bool) : TreeRes α :=
  match root with
  | none => TreeRes.mk Status.NONE none none mem
  | some r =>
    if r.isleaf then TreeRes.mk Status.NONE (some r) none mem
    else fast_result r mem (delete_fast_loop cfg cmp key (depth r) r mem)

/-- The function `delete` (bgen.h 2902-2926). -/
def delete (cfg : Config) (cmp : α → α → Int) (root : Option (Node α)) (key : α)
    (mem : List Bool) : TreeRes α :=
  if cfg.noorder then TreeRes.mk Status.UNSUPPORTED root none mem
  else
    match delete_fastpath cfg cmp root key mem with
    | TreeRes.mk ret root1 old mem1 =>
      if ret ≠ Status.NONE then TreeRes.mk ret root1 old mem1
      else copy_spare (delete0 cfg cmp root1 DelAct.DELKEY key 0 mem1)

/-- The function `delete_at` (bgen.h 3095-3107); `key` stands for the zeroed
spare item that `delete0` receives and never reads for `BGEN_DELAT`. -/
def delete_at (cfg : Config) (cmp : α → α → Int) (root : Option (Node α)) (index : Nat)
    (key : α) (mem : List Bool) : TreeRes α :=
  copy_spare (delete0 cfg cmp root DelAct.DELAT key index mem)

/-- The leaf case of `pop_front_fastpath` on a leaf that can spare an item
(bgen.h 3148-3155). -/
def pop_front_leaf (node : Node α) (mem : List Bool) : FastRes α :=
  FastRes.done Status.DELETED (node.setItems (node.items.drop 1)) node.items.head? mem

/-- The leaf case of `pop_front_fastpath` continued at the parent `p` after
`give_left` has refilled child 0 (bgen.h 3141-3155). -/
def pop_front_finish (cfg : Config) (p : Node α) (mem : List Bool) : FastRes α :=
  FastRes.done Status.DELETED
    ((dec_count cfg p 0).setChild 0
      (((dec_count cfg p 0).child 0).setItems (((dec_count cfg p 0).child 0).items.drop 1)))
    ((dec_count cfg p 0).child 0).items.head? mem

/-- The loop of `pop_front_fastpath` (bgen.h 3131-3167). -/
def pop_front_fast_loop (cfg : Config) : Nat → Node α → List Bool → FastRes α
  | 0, node, mem => FastRes.brk Status.FUEL node none mem
  | fuel + 1, node, mem =>
    if node.isleaf then
      if node.len ≤ MINITEMS cfg then FastRes.full else pop_front_leaf node mem
    else
      match pop_front_fast_loop cfg fuel ((dec_count cfg node 0).child 0) mem with
      | FastRes.done ret c old mem1 =>
        FastRes.done ret ((dec_count cfg node 0).setChild 0 c) old mem1
      | FastRes.brk ret c old mem1 =>
        FastRes.brk ret (inc_count cfg ((dec_count cfg node 0).setChild 0 c) 0) old mem1
      | FastRes.full =>
        if ((dec_count cfg node 0).child 1).len > MINITEMS cfg + 1 then
          pop_front_finish cfg (give_left cfg (dec_count cfg node 0) 1 true) mem
        else FastRes.brk Status.NONE (inc_count cfg (dec_count cfg node 0) 0) none mem

/-- The function `pop_front_fastpath` (bgen.h 3116-3176). -/
def pop_front_fastpath (cfg : Config) (root : Option (Node α)) (mem : List Bool) :
    TreeRes α :=
  match root with
  | none => TreeRes.mk Status.NONE none none mem
  | some r => fast_result r mem (pop_front_fast_loop cfg (depth r) r mem)

/-- The function `pop_front` (bgen.h 3179-3198); `key` stands for the zeroed
spare item. -/
def pop_front (cfg : Config) (cmp : α → α → Int) (root : Option (Node α)) (key : α)
    (mem : List Bool) : TreeRes α :=
  match pop_front_fastpath cfg root mem with
  | TreeRes.mk ret root1 old mem1 =>
    if ret ≠ Status.NONE then TreeRes.mk ret root1 old mem1
    else copy_spare (delete0 cfg cmp root1 DelAct.POPFRONT key 0 mem1)

/-- The leaf case of `pop_back_fastpath` on a leaf that can spare an item
(bgen.h 3237-3241). -/
def pop_back_leaf (node : Node α) (mem : List Bool) : FastRes α :=
  FastRes.done Status.DELETED (node.setItems (node.items.take (node.len - 1)))
    node.items.getLast? mem

/-- The leaf case of `pop_back_fastpath` continued at the parent `p` after
`give_right` has refilled the last child (bgen.h 3230-3241). -/
def pop_back_finish (cfg : Config) (p : Node α) (mem : List Bool) : FastRes α :=
  FastRes.done Status.DELETED
    ((dec_count cfg p p.len).setChild p.len
      (((dec_count cfg p p.len).child p.len).setItems
        (((dec_count cfg p p.len).child p.len).items.take
          (((dec_count cfg p p.len).child p.len).len - 1))))
    ((dec_count cfg p p.len).child p.len).items.getLast? mem

/-- The loop of `pop_back_fastpath` (bgen.h 3216-3253). -/
def pop_back_fast_loop (cfg : Config) : Nat → Node α → List Bool → FastRes α
  | 0, node, mem => FastRes.brk Status.FUEL node none mem
  | fuel + 1, node, mem =>
    if node.isleaf then
      if node.len ≤ MINITEMS cfg then FastRes.full else pop_back_leaf node mem
    else
      match pop_back_fast_loop cfg fuel ((dec_count cfg node node.len).child node.len) mem with
      | FastRes.done ret c old mem1 =>
        FastRes.done ret ((dec_count cfg node node.len).setChild node.len c) old mem1
      | FastRes.brk ret c old mem1 =>
        FastRes.brk ret
          (inc_count cfg ((dec_count cfg node node.len).setChild node.len c) node.len) old mem1
      | FastRes.full =>
        if ((dec_count cfg node node.len).child (node.len - 1)).len > MINITEMS cfg + 1 then
          pop_back_finish cfg
            (give_right cfg (dec_count cfg node node.len) (node.len - 1) true) mem
        else
          FastRes.brk Status.NONE (inc_count cfg (dec_count cfg node node.len) node.len) none mem

/-- The function `pop_back_fastpath` (bgen.h 3201-3262). -/
def pop_back_fastpath (cfg : Config) (root : Option (Node α)) (mem : List Bool) :
    TreeRes α :=
  match root with
  | none => TreeRes.mk Status.NONE none none mem
  | some r => fast_result r mem (pop_back_fast_loop cfg (depth r) r mem)

/-- The function `pop_back` (bgen.h 3265-3283); `key` stands for the zeroed
spare item. -/
def pop_back (cfg : Config) (cmp : α → α → Int) (root : Option (Node α)) (key : α)
    (mem : List Bool) : TreeRes α :=
  match pop_back_fastpath cfg root mem with
  | TreeRes.mk ret root1 old mem1 =>
    if ret ≠ Status.NONE then TreeRes.mk ret root1 old mem1
    else copy_spare (delete0 cfg cmp root1 DelAct.POPBACK key 0 mem1)

/-- The loop of `get` (bgen.h 1892-1905). -/
def get_loop (cmp : α → α → Int) (key : α) : Nat → Node α → Status × Option α
  | 0, _ => (Status.FUEL, none)
  | fuel + 1, node =>
    if (search cmp node key).2 then (Status.FOUND, node.items[(search cmp node key).1]?)
    else if node.isleaf then (Status.NOTFOUND, none)
    else get_loop cmp key fuel (node.child (search cmp node key).1)

/-- The function `get` (bgen.h 1880-1907): the status and the value written to
`item_out`. -/
def get (cfg : Config) (cmp : α → α → Int) (root : Option (Node α)) (key : α) :
    Status × Option α :=
  if cfg.noorder then (Status.UNSUPPORTED, none)
  else
    match root with
    | none => (Status.NOTFOUND, none)
    | some r => get_loop cmp key (depth r) r

/-- The function `contains` (bgen.h 1948-1950). -/
def contains (cfg : Config) (cmp : α → α → Int) (root : Option (Node α)) (key : α) : Bool :=
  decide ((get cfg cmp root key).1 = Status.FOUND)

/-- The loop of `index_of` (bgen.h 1853-1875); `index` is the running sum. -/
def index_of_loop (cfg : Config) (cmp : α → α → Int) (key : α) :
    Nat → Node α → Nat → Status × Option Nat
  | 0, _, _ => (Status.FUEL, none)
  | fuel + 1, node, index =>
    if (search cmp node key).2 then
      (Status.FOUND, some (index + (search cmp node key).1 +
        (if node.isleaf then 0
         else ((List.range ((search cmp node key).1 + 1)).map (node_count cfg node)).sum)))
    else if node.isleaf then (Status.NOTFOUND, none)
    else
      index_of_loop cfg cmp key fuel (node.child (search cmp node key).1)
        (index + (search cmp node key).1 +
          ((List.range (search cmp node key).1).map (node_count cfg node)).sum)

/-- The function `index_of` (bgen.h 1840-1877): the status and the value
written to `index_out`. -/
def index_of (cfg : Config) (cmp : α → α → Int) (root : Option (Node α)) (key : α) :
    Status × Option Nat :=
  if cfg.noorder then (Status.UNSUPPORTED, none)
  else
    match root with
    | none => (Status.NOTFOUND, none)
    | some r => index_of_loop cfg cmp key (depth r) r 0

/-- The inner `for` loop of `get_at` (bgen.h 3035-3048) with `k` iterations
left: `Sum.inl i` when the item is the separator `i`, otherwise `Sum.inr`
of the child to enter and the index inside it. -/
def get_at_walk (cfg : Config) (node : Node α) : Nat → Nat → Nat → Nat ⊕ (Nat × Nat)
  | 0, i, index => Sum.inr (i, index)
  | k + 1, i, index =>
    if index < node_count cfg node i then Sum.inr (i, index)
    else if index = node_count cfg node i then Sum.inl i
    else get_at_walk cfg node k (i + 1) (index - (node_count cfg node i + 1))

/-- The loop of `get_at` (bgen.h 3025-3050). -/
def get_at_loop (cfg : Config) : Nat → Node α → Nat → Status × Option α
  | 0, _, _ => (Status.FUEL, none)
  | fuel + 1, node, index =>
    if node.isleaf then
      if index ≥ node.len then (Status.NOTFOUND, none) else (Status.FOUND, node.items[index]?)
    else
      match get_at_walk cfg node node.len 0 index with
      | Sum.inl i => (Status.FOUND, node.items[i]?)
      | Sum.inr (i, index1) => get_at_loop cfg fuel (node.child i) index1

/-- The function `get_at` (bgen.h 3017-3051): the status and the value written
to `item`. -/
def get_at (cfg : Config) (root : Option (Node α)) (index : Nat) : Status × Option α :=
  match root with
  | none => (Status.NOTFOUND, none)
  | some r => get_at_loop cfg (depth r) r index

/-- The leaf loop of `node_scan` (bgen.h 1200-1205): the callback threads the
user data `σ` and answers whether to go on. -/
def scan_items {σ : Type} (iter : α → σ → Bool × σ) : List α → σ → Bool × σ
  | [], s => (true, s)
  | x :: xs, s => if (iter x s).1 then scan_items iter xs (iter x s).2 else (false, (iter x s).2)

mutual
/-- The function `node_scan` (bgen.h 1196-1216). -/
def node_scan {σ : Type} (iter : α → σ → Bool × σ) : Node α → σ → Bool × σ
  | mk items _ isleaf children _, s =>
    if isleaf then scan_items iter items s else node_scanL iter children items s
/-- The branch loop of `node_scan` over the children and separators left. -/
def node_scanL {σ : Type} (iter : α → σ → Bool × σ) :
    List (Node α) → List α → σ → Bool × σ
  | [], _, s => (true, s)
  | c :: _, [], s => node_scan iter c s
  | c :: cs, x :: xs, s =>
    if (node_scan iter c s).1 then
      if (iter x (node_scan iter c s).2).1 then
        node_scanL iter cs xs (iter x (node_scan iter c s).2).2
      else (false, (iter x (node_scan iter c s).2).2)
    else (false, (node_scan iter c s).2)
end

/-- The function `scan` (bgen.h 1218-1228): the status and the final user
data. -/
def scan {σ : Type} (root : Option (Node α)) (iter : α → σ → Bool × σ) (s : σ) : Status × σ :=
  match root with
  | none => (Status.FINISHED, s)
  | some r =>
    if (node_scan iter r s).1 then (Status.FINISHED, (node_scan iter r s).2)
    else (Status.STOPPED, (node_scan iter r s).2)

mutual
/-- The function `node_scan_desc` (bgen.h 1278-1301). -/
def node_scan_desc {σ : Type} (iter : α → σ → Bool × σ) : Node α → σ → Bool × σ
  | mk items _ isleaf children _, s =>
    if isleaf then scan_items iter items.reverse s else node_scan_descL iter children items s
/-- The branch part of `node_scan_desc`: the children and separators from slot
`i` on are visited (last child first) before separator `i - 1`. -/
def node_scan_descL {σ : Type} (iter : α → σ → Bool × σ) :
    List (Node α) → List α → σ → Bool × σ
  | [], _, s => (true, s)
  | c :: _, [], s => node_scan_desc iter c s
  | c :: cs, x :: xs, s =>
    if (node_scan_descL iter cs xs s).1 then
      if (iter x (node_scan_descL iter cs xs s).2).1 then
        node_scan_desc iter c (iter x (node_scan_descL iter cs xs s).2).2
      else (false, (iter x (node_scan_descL iter cs xs s).2).2)
    else (false, (node_scan_descL iter cs xs s).2)
end

/-- The function `scan_desc` (bgen.h 1303-1313). -/
def scan_desc {σ : Type} (root : Option (Node α)) (iter : α → σ → Bool × σ) (s : σ) :
    Status × σ :=
  match root with
  | none => (Status.FINISHED, s)
  | some r =>
    if (node_scan_desc iter r s).1 then (Status.FINISHED, (node_scan_desc iter r s).2)
    else (Status.STOPPED, (node_scan_desc iter r s).2)

/-- The check of adjacent items in `sane0` (bgen.h 748-752). -/
def items_ascending (cmp : α → α → Int) : List α → Bool
  | [] => true
  | [_] => true
  | a :: b :: rest => decide (cmp a b < 0) && items_ascending cmp (b :: rest)

/-- The check of every separator against the last item of the child on its left
and the first item of the child on its right in `sane0` (bgen.h 759-774). -/
def seps_ordered (cfg : Config) (cmp : α → α → Int) : List (Node α) → List α → Bool
  | c0 :: c1 :: cs, x :: xs =>
    (if 0 < c0.len ∧ c0.len ≤ MAXITEMS cfg ∧ 0 < c1.len ∧ c1.len ≤ MAXITEMS cfg then
      match c0.items.getLast?, c1.items.head? with
      | some a, some b => decide (cmp a x < 0) && decide (cmp x b < 0)
      | _, _ => true
     else true) && seps_ordered cfg cmp (c1 :: cs) xs
  | _, _ => true

mutual
/-- The function `sane0` (bgen.h 724-800). -/
def sane0 (cfg : Config) (cmp : α → α → Int) : Node α → Nat → Bool
  | mk items height isleaf children counts, depth =>
    (if depth = 0 then decide (1 ≤ items.length ∧ items.length ≤ MAXITEMS cfg)
     else decide (MINITEMS cfg ≤ items.length ∧ items.length ≤ MAXITEMS cfg)) &&
    (!isleaf || decide (height = 1)) &&
    (isleaf || decide (2 ≤ height)) &&
    decide (height = deepheight (mk items height isleaf children counts)) &&
    (cfg.noorder || items_ascending cmp items) &&
    (isleaf ||
      ((cfg.noorder || seps_ordered cfg cmp children items) &&
        sane0L cfg cmp children counts (items.length + 1) (depth + 1)))
/-- The loop of `sane0` over the first `n` children (bgen.h 777-797). -/
def sane0L (cfg : Config) (cmp : α → α → Int) :
    List (Node α) → List Nat → Nat → Nat → Bool
  | _, _, 0, _ => true
  | [], _, _ + 1, _ => false
  | c :: cs, ks, n + 1, depth =>
    (!cfg.counted || decide (deepcount c = ks.headD 0)) &&
    sane0 cfg cmp c depth && sane0L cfg cmp cs ks.tail n depth
end

/-- The function `sane` (bgen.h 803-809). -/
def sane (cfg : Config) (cmp : α → α → Int) (root : Option (Node α)) : Bool :=
  match root with
  | none => true
  | some r => sane0 cfg cmp r 0

/-! ## Specification vocabulary -/

/-- The comparator is a consistent total preorder: the sign of `cmp b a` mirrors
the sign of `cmp a b`, and "not above" is transitive. -/
structure OrdCmp (cmp : α → α → Int) : Prop where
  symm : ∀ a b, cmp a b < 0 ↔ 0 < cmp b a
  le_trans : ∀ a b c, cmp a b ≤ 0 → cmp b c ≤ 0 → cmp a c ≤ 0

/-- The strict order induced by the comparator. -/
def lt (cmp : α → α → Int) (a b : α) : Prop := cmp a b < 0

/-- Every allocation of the script succeeds. -/
def AllocOK (mem : List Bool) : Prop := ∀ b ∈ mem, b = true

/-- In-order sequence of `cs.length` children each followed by its separator. -/
def flatP : List (Node α) → List α → List α
  | c :: cs, s :: ss => flat c ++ s :: flatP cs ss
  | _, _ => []

/-- In-order sequence of the separators `ss` each followed by its right child. -/
def tailL (cs : List (Node α)) (ss : List α) : List α :=
  match ss with
  | [] => []
  | s :: ss1 => s :: flatL cs ss1

/-- Shape invariants of a subtree of height `h`: the height fields, the leaf
flags, at most `BGEN_MAXITEMS` items per node, one child more than items in a
branch, at least `BGEN_MINITEMS` items in every node below this one, all leaves
at depth `h`, and (counted trees) every stored count equal to the size of the
child subtree. -/
def WF (cfg : Config) : Nat → Node α → Prop
  | 0, _ => False
  | h + 1, n =>
    n.height = h + 1 ∧ n.items.length ≤ MAXITEMS cfg ∧ (n.isleaf = true ↔ h = 0) ∧
    (n.isleaf = false →
      n.children.length = n.items.length + 1 ∧
      (cfg.counted = true → n.counts = n.children.map (fun c => (flat c).length)) ∧
      ∀ c ∈ n.children, MINITEMS cfg ≤ c.items.length ∧ WF cfg h c)

/-- The invariants of a tree handle: an empty tree, or a root with at least one
item whose subtree is well shaped and, on an ordered tree, whose in-order
sequence is strictly ascending. -/
def Inv (cfg : Config) (cmp : α → α → Int) (root : Option (Node α)) : Prop :=
  match root with
  | none => True
  | some r =>
    WF cfg r.height r ∧ 1 ≤ r.items.length ∧
    (cfg.noorder = false → (flat r).Pairwise (lt cmp))

/-- The item sequence of a tree handle. -/
def items_of (root : Option (Node α)) : List α :=
  match root with
  | none => []
  | some r => flat r

/-- The callbacks of a scan over the list `l`, stopping after the first call
that answers `false`. -/
def visit {σ : Type} (iter : α → σ → Bool × σ) : List α → σ → Bool × σ
  | [], s => (true, s)
  | x :: xs, s => if (iter x s).1 then visit iter xs (iter x s).2 else (false, (iter x s).2)

/-! ## Concrete inputs of the witnesses -/

/-- The comparator `a < b ? -1 : a > b` of the test-suite, as a difference. -/
def icmp (a b : Int) : Int := a - b

/-- Fanout 4 (three items per node at most, one at least), counted, ordered. -/
def cfgW : Config := Config.mk (some 4) true false

/-- A leaf holding the given items. -/
def leafW (l : List Int) : Node Int := Node.mk l 1 true [] []

/-- The tree `[10] 20 [30, 40]` of height 2. -/
def treeW : Node Int := Node.mk [20] 2 false [leafW [10], leafW [30, 40]] [1, 2]

/-- The node `n` is a branch of height field `ht` with the given live items and
children whose stored counts (counted trees) are the sizes of those children. -/
structure BranchOf (cfg : Config) (n : Node α) (ht : Nat) (items : List α)
    (children : List (Node α)) : Prop where
  height_eq : n.height = ht
  isleaf_eq : n.isleaf = false
  items_eq : n.items = items
  children_eq : n.children = children
  counts_eq : cfg.counted = true → n.counts = children.map (fun c => (flat c).length)

/-- The list `l` with `x` put in at position `p`. -/
def insert_pos (l : List α) (p : Nat) (x : α) : List α := l.take p ++ x :: l.drop p

/-- On an ordered tree, `x` fits at position `p` of the ascending list `l`:
everything before is below it and everything from `p` on is above it. -/
def Fits (cfg : Config) (cmp : α → α → Int) (l : List α) (p : Nat) (x : α) : Prop :=
  p ≤ l.length ∧
  (cfg.noorder = false → (∀ a ∈ l.take p, lt cmp a x) ∧ (∀ b ∈ l.drop p, lt cmp x b))

/-- On an ordered tree, `x` may replace the element at position `p` of the
ascending list `l`: everything before is below it and everything after is above
it. -/
def FitsRep (cfg : Config) (cmp : α → α → Int) (l : List α) (p : Nat) (x : α) : Prop :=
  cfg.noorder = false → (∀ a ∈ l.take p, lt cmp a x) ∧ (∀ b ∈ l.drop (p + 1), lt cmp x b)

/-- The item sequence is strictly ascending when the tree is ordered. -/
def Sorted (cfg : Config) (cmp : α → α → Int) (l : List α) : Prop :=
  cfg.noorder = false → l.Pairwise (lt cmp)

/-- The comparator is a consistent total preorder when the tree is ordered. -/
def OrdOK (cfg : Config) (cmp : α → α → Int) : Prop :=
  cfg.noorder = false → OrdCmp cmp

/-- The position in the item sequence `l` that a positional insertion action
names: `index` for `BGEN_INSAT`, the front for `BGEN_PUSHFRONT`, the end for
`BGEN_PUSHBACK`; `BGEN_REPAT` never inserts. -/
def PosOf (act : InsAct) (index : Nat) (l : List α) (p : Nat) : Prop :=
  (act = InsAct.INSAT → p = index) ∧ (act = InsAct.PUSHFRONT → p = 0) ∧
  (act = InsAct.PUSHBACK → p = l.length) ∧ act ≠ InsAct.REPAT

/-- On an ordered tree, the item fits where the positional action puts it in
the ascending list `l`: for `BGEN_INSAT` everything before `index` is below it
and everything from `index` on is above it; for `BGEN_REPAT` the same with the
item at `index` left out; for `BGEN_PUSHFRONT` / `BGEN_PUSHBACK` it is below /
above every item. -/
def ActFits (cmp : α → α → Int) (act : InsAct) (item : α) (index : Nat) (l : List α) : Prop :=
  match act with
  | InsAct.INSITEM => True
  | InsAct.INSAT => (∀ a ∈ l.take index, lt cmp a item) ∧ (∀ b ∈ l.drop index, lt cmp item b)
  | InsAct.REPAT =>
    (∀ a ∈ l.take index, lt cmp a item) ∧ (∀ b ∈ l.drop (index + 1), lt cmp item b)
  | InsAct.PUSHFRONT => ∀ b ∈ l, lt cmp item b
  | InsAct.PUSHBACK => ∀ a ∈ l, lt cmp a item

/-- Why an insertion-type action on the item sequence `l` was turned down with
the status `ret`: `BGEN_OUTOFORDER` only on an ordered tree whose (non-empty)
sequence the item does not fit into, `BGEN_NOTFOUND` only for an index beyond
the end (`BGEN_INSAT`) or at or beyond the end (`BGEN_REPAT`). -/
def Rej (cfg : Config) (cmp : α → α → Int) (act : InsAct) (item : α) (index : Nat)
    (l : List α) (ret : Status) : Prop :=
  (ret = Status.OUTOFORDER →
    cfg.noorder = false ∧ (l ≠ [] → ¬ ActFits cmp act item index l)) ∧
  (ret = Status.NOTFOUND →
    (act = InsAct.INSAT ∧ l.length < index) ∨ (act = InsAct.REPAT ∧ l.length ≤ index))

/-- What `insert1` may leave behind on a subtree `n` of height `h`. -/
inductive InsOut (cfg : Config) (cmp : α → α → Int) (act : InsAct) (item : α) (index : Nat)
    (h : Nat) (n : Node α) (mem : List Bool) : InsRes α → Prop where
  | inserted (n1 : Node α) (mem1 : List Bool) (p : Nat) :
    WF cfg h n1 → n.items.length ≤ n1.items.length →
    flat n1 = insert_pos (flat n) p item → Fits cfg cmp (flat n) p item →
    PosOf act index (flat n) p → (AllocOK mem → AllocOK mem1) →
    InsOut cfg cmp act item index h n mem (InsRes.mk Status.INSERTED n1 none mem1)
  | replaced (n1 : Node α) (mem1 : List Bool) (p : Nat) (y : α) :
    WF cfg h n1 → n.items.length ≤ n1.items.length →
    (flat n)[p]? = some y → flat n1 = (flat n).set p item →
    FitsRep cfg cmp (flat n) p item → (act = InsAct.INSITEM → cmp item y = 0) →
    (act = InsAct.REPAT → p = index) → (act = InsAct.INSITEM ∨ act = InsAct.REPAT) →
    (AllocOK mem → AllocOK mem1) →
    InsOut cfg cmp act item index h n mem (InsRes.mk Status.REPLACED n1 (some y) mem1)
  | mustsplit :
    n.items.length = MAXITEMS cfg → act ≠ InsAct.REPAT →
    (act = InsAct.INSAT → index ≤ (flat n).length) →
    InsOut cfg cmp act item index h n mem (InsRes.mk Status.MUSTSPLIT n none mem)
  | nomem (n1 : Node α) (mem1 : List Bool) :
    WF cfg h n1 → n.items.length ≤ n1.items.length → flat n1 = flat n → ¬ AllocOK mem →
    InsOut cfg cmp act item index h n mem (InsRes.mk Status.NOMEM n1 none mem1)
  | rejected (ret : Status) (n1 : Node α) (mem1 : List Bool) :
    (ret = Status.OUTOFORDER ∨ ret = Status.NOTFOUND) → act ≠ InsAct.INSITEM →
    WF cfg h n1 → n.items.length ≤ n1.items.length → flat n1 = flat n →
    (AllocOK mem → AllocOK mem1) → Rej cfg cmp act item index (flat n) ret →
    InsOut cfg cmp act item index h n mem (InsRes.mk ret n1 none mem1)

/-- What the `switch` of `insert1` establishes at a leaf `n` when it selects
the slot `i` with the flag `found`. -/
def LeafLoc (cfg : Config) (cmp : α → α → Int) (act : InsAct) (item : α) (index : Nat)
    (n : Node α) (i : Nat) (found : Bool) : Prop :=
  (found = true → ∃ y, n.items[i]? = some y ∧ FitsRep cfg cmp n.items i item ∧
    (act = InsAct.INSITEM → cmp item y = 0) ∧ (act = InsAct.REPAT → i = index) ∧
    (act = InsAct.INSITEM ∨ act = InsAct.REPAT)) ∧
  (found = false → act ≠ InsAct.REPAT ∧ Fits cfg cmp n.items i item ∧
    PosOf act index n.items i)

/-- What the `switch` of `insert1` establishes at a branch `n` of height
`h + 2` when it selects the slot `i` with the flag `found` and hands `cindex`
to the child: the branch decomposes around child `i`, the item lies between
the two sides, the positions add up, and unless the child is the last one the
index handed down lies inside it. -/
def BranchLoc (cfg : Config) (cmp : α → α → Int) (act : InsAct) (item : α) (index : Nat)
    (h : Nat) (n : Node α) (i : Nat) (found : Bool) (cindex : Nat) : Prop :=
  ∃ A c B S T, BranchOf cfg n (h + 2) (S ++ T) (A ++ c :: B) ∧ A.length = i ∧
    S.length = i ∧ B.length = T.length ∧
    flat n = flatP A S ++ (flat c ++ tailL B T) ∧ WF cfg (h + 1) c ∧
    MINITEMS cfg ≤ c.items.length ∧
    (∀ x ∈ A, MINITEMS cfg ≤ x.items.length ∧ WF cfg (h + 1) x) ∧
    (∀ x ∈ B, MINITEMS cfg ≤ x.items.length ∧ WF cfg (h + 1) x) ∧
    (S ++ T).length ≤ MAXITEMS cfg ∧
    (cfg.noorder = false → act ≠ InsAct.PUSHBACK → ∀ a ∈ flatP A S, lt cmp a item) ∧
    (cfg.noorder = false → act ≠ InsAct.PUSHFRONT → found = false →
      ∀ b ∈ tailL B T, lt cmp item b) ∧
    (act = InsAct.INSAT ∨ act = InsAct.REPAT → found = false →
      index = (flatP A S).length + cindex) ∧
    (act = InsAct.PUSHFRONT → S = []) ∧ (act = InsAct.PUSHBACK → T = []) ∧
    (found = true → ∃ y T1, T = y :: T1 ∧ (act = InsAct.INSITEM → cmp item y = 0) ∧
      (act = InsAct.INSITEM ∨ act = InsAct.REPAT) ∧
      (act = InsAct.REPAT → index = (flatP A S).length + (flat c).length) ∧
      (cfg.noorder = false → (∀ a ∈ flat c, lt cmp a item) ∧
        (∀ b ∈ flatL B T1, lt cmp item b))) ∧
    (act = InsAct.INSAT ∨ act = InsAct.REPAT → found = false → T ≠ [] →
      cindex ≤ (flat c).length ∧ (act = InsAct.REPAT → cindex < (flat c).length))

/-- Number of items in front of child `j` when child `t` holds `f t` items:
the children before it, each followed by its separator. -/
def psum (f : Nat → Nat) (j : Nat) : Nat := ((List.range j).map (fun t => f t + 1)).sum

/-- What an insertion-type public operation (`insert`, `push_front`, `push_back`,
`insert_at`, `replace_at`) may leave behind on the tree `root`: the invariants
hold again, and the status tells what happened to the item sequence. -/
def TreeOut (cfg : Config) (cmp : α → α → Int) (act : InsAct) (item : α) (index : Nat)
    (root : Option (Node α)) (mem : List Bool) (t : TreeRes α) : Prop :=
  Inv cfg cmp t.root ∧ (AllocOK mem → AllocOK t.mem) ∧
  ((t.ret = Status.INSERTED ∧ t.old = none ∧
      ∃ p, items_of t.root = insert_pos (items_of root) p item ∧
        Fits cfg cmp (items_of root) p item ∧ PosOf act index (items_of root) p) ∨
   (t.ret = Status.REPLACED ∧
      ∃ p y, t.old = some y ∧ (items_of root)[p]? = some y ∧
        items_of t.root = (items_of root).set p item ∧
        FitsRep cfg cmp (items_of root) p item ∧ (act = InsAct.INSITEM → cmp item y = 0) ∧
        (act = InsAct.REPAT → p = index) ∧ (act = InsAct.INSITEM ∨ act = InsAct.REPAT)) ∨
   (t.ret = Status.NOMEM ∧ t.old = none ∧ items_of t.root = items_of root ∧ ¬ AllocOK mem) ∨
   ((t.ret = Status.OUTOFORDER ∨ t.ret = Status.NOTFOUND) ∧ act ≠ InsAct.INSITEM ∧
      t.old = none ∧ items_of t.root = items_of root ∧
      Rej cfg cmp act item index (items_of root) t.ret))

/-- What the loop of an insertion fast path may leave behind on a subtree `n`
of height `h`. -/
def FastOut (cfg : Config) (cmp : α → α → Int) (act : InsAct) (item : α) (h : Nat)
    (n : Node α) (mem : List Bool) (res : FastRes α) : Prop :=
  match res with
  | FastRes.done ret n1 old mem1 =>
    ret = Status.INSERTED ∧ InsOut cfg cmp act item 0 h n mem (InsRes.mk ret n1 old mem1)
  | FastRes.brk ret n1 old mem1 =>
    (ret = Status.NONE ∧ old = none ∧ WF cfg h n1 ∧ n.items.length ≤ n1.items.length ∧
      flat n1 = flat n ∧ (AllocOK mem → AllocOK mem1)) ∨
    (ret ≠ Status.INSERTED ∧ ret ≠ Status.MUSTSPLIT ∧
      InsOut cfg cmp act item 0 h n mem (InsRes.mk ret n1 old mem1))
  | FastRes.full =>
    n.isleaf = true ∧ n.items.length = MAXITEMS cfg ∧
      (act = InsAct.INSITEM → ∀ x ∈ n.items, cmp item x ≠ 0)

/-- The position `p` of the item sequence `l` holds the item `y` that the
deletion action names: an item equal to the key for `BGEN_DELKEY`, the last
item for `BGEN_POPMAX` / `BGEN_POPBACK`, the first for `BGEN_POPFRONT`, the item
at `index` for `BGEN_DELAT`. -/
def DelTarget (cmp : α → α → Int) (act : DelAct) (key : α) (index : Nat) (l : List α)
    (p : Nat) (y : α) : Prop :=
  l[p]? = some y ∧ (act = DelAct.DELKEY → cmp key y = 0) ∧
  (act = DelAct.POPMAX ∨ act = DelAct.POPBACK → p + 1 = l.length) ∧
  (act = DelAct.POPFRONT → p = 0) ∧ (act = DelAct.DELAT → p = index)

/-- The item sequence `l` holds no item that the deletion action names. -/
def DelNone (cmp : α → α → Int) (act : DelAct) (key : α) (index : Nat) (l : List α) : Prop :=
  (act = DelAct.DELKEY → ∀ y ∈ l, cmp key y ≠ 0) ∧ (act = DelAct.DELAT → l.length ≤ index) ∧
  (act = DelAct.POPMAX ∨ act = DelAct.POPFRONT ∨ act = DelAct.POPBACK → l = [])

/-- What `delete1` may leave behind on a subtree `n` of height `h`: the named
item is gone and handed out through `prev` (the node may then be one item
short), or nothing was found and the node is as before. -/
def DelOut (cfg : Config) (cmp : α → α → Int) (act : DelAct) (key : α) (index : Nat)
    (h : Nat) (n : Node α) (r : DelRes α) : Prop :=
  (r.ret = Status.DELETED ∧ WF cfg h r.node ∧ n.items.length ≤ r.node.items.length + 1 ∧
    ∃ p y, DelTarget cmp act key index (flat n) p y ∧ r.prev = some y ∧
      flat r.node = (flat n).eraseIdx p) ∨
  (r.ret = Status.NOTFOUND ∧ r.node = n ∧ r.prev = none ∧
    DelNone cmp act key index (flat n))

/-- What the `switch` of `delete1` establishes at a branch `n` of height
`h + 2`: the branch decomposes around child `i`; either the named item is the
separator behind that child, or the search continues in the child with
`cindex` and what is found or missed there is found or missed in `n`. -/
def DelLoc (cfg : Config) (cmp : α → α → Int) (act : DelAct) (key : α) (index : Nat)
    (h : Nat) (n : Node α) (i : Nat) (found : Bool) (cindex : Nat) : Prop :=
  ∃ A c B S T, BranchOf cfg n (h + 2) (S ++ T) (A ++ c :: B) ∧ A.length = i ∧
    S.length = i ∧ B.length = T.length ∧
    flat n = flatP A S ++ (flat c ++ tailL B T) ∧ WF cfg (h + 1) c ∧
    MINITEMS cfg ≤ c.items.length ∧
    (∀ x ∈ A, MINITEMS cfg ≤ x.items.length ∧ WF cfg (h + 1) x) ∧
    (∀ x ∈ B, MINITEMS cfg ≤ x.items.length ∧ WF cfg (h + 1) x) ∧
    (S ++ T).length ≤ MAXITEMS cfg ∧
    (found = true ∧ act ≠ DelAct.POPMAX → ∃ y T1, T = y :: T1 ∧
      DelTarget cmp act key index (flat n) ((flatP A S).length + (flat c).length) y) ∧
    (¬ (found = true ∧ act ≠ DelAct.POPMAX) →
      (∀ q z, DelTarget cmp act key cindex (flat c) q z →
        DelTarget cmp act key index (flat n) ((flatP A S).length + q) z) ∧
      (DelNone cmp act key cindex (flat c) → DelNone cmp act key index (flat n)))

/-- What a deletion-type public operation (`delete`, `delete_at`, `pop_front`,
`pop_back`) may leave behind on the tree `root`: the named item is gone, handed
out through the old-item output, and the invariants hold again; or nothing was
found and the tree is as before.  The allocator is not used. -/
def DelTreeOut (cfg : Config) (cmp : α → α → Int) (act : DelAct) (key : α) (index : Nat)
    (root : Option (Node α)) (mem : List Bool) (t : TreeRes α) : Prop :=
  t.mem = mem ∧
  ((t.ret = Status.DELETED ∧ Inv cfg cmp t.root ∧
    ∃ p y, DelTarget cmp act key index (items_of root) p y ∧ t.old = some y ∧
      items_of t.root = (items_of root).eraseIdx p) ∨
   (t.ret = Status.NOTFOUND ∧ t.root = root ∧ t.old = none ∧
    DelNone cmp act key index (items_of root)))

/-- What the loop of a deletion fast path may leave behind on a subtree `n` of
height `h`: the named item is gone without the node falling below its minimum
(`done`), the node is exactly as before (`brk`), or the node is a leaf that
cannot spare an item (`full`). -/
def DelFastOut (cfg : Config) (cmp : α → α → Int) (act : DelAct) (key : α) (h : Nat)
    (n : Node α) (mem : List Bool) (res : FastRes α) : Prop :=
  match res with
  | FastRes.done ret n1 old mem1 =>
    mem1 = mem ∧ ret = Status.DELETED ∧ WF cfg h n1 ∧
      (MINITEMS cfg ≤ n.items.length → MINITEMS cfg ≤ n1.items.length) ∧
      (1 ≤ n.items.length → 1 ≤ n1.items.length) ∧
      ∃ p y, DelTarget cmp act key 0 (flat n) p y ∧ old = some y ∧
        flat n1 = (flat n).eraseIdx p
  | FastRes.brk ret n1 old mem1 =>
    mem1 = mem ∧ n1 = n ∧ old = none ∧
      (ret = Status.NONE ∨ (ret = Status.NOTFOUND ∧ DelNone cmp act key 0 (flat n)))
  | FastRes.full =>
    n.isleaf = true ∧ n.items.length ≤ MINITEMS cfg ∧
      (act = DelAct.DELKEY → (search cmp n key).2 = true)

/-- Insert the items of `xs` one after the other, threading the tree and the
allocator script; returns the statuses, the final tree and the final script. -/
def insert_all (cfg : Config) (cmp : α → α → Int) :
    List α → Option (Node α) → List Bool → List Status × Option (Node α) × List Bool
  | [], root, mem => ([], root, mem)
  | x :: xs, root, mem =>
    ((insert cfg cmp root x mem).ret ::
        (insert_all cfg cmp xs (insert cfg cmp root x mem).root
          (insert cfg cmp root x mem).mem).1,
      (insert_all cfg cmp xs (insert cfg cmp root x mem).root
        (insert cfg cmp root x mem).mem).2)

/-- Delete the keys of `ys` one after the other; returns for every deletion its
status and old-item output, and the final tree. -/
def delete_all (cfg : Config) (cmp : α → α → Int) :
    List α → Option (Node α) → List Bool → List (Status × Option α) × Option (Node α)
  | [], root, _ => ([], root)
  | y :: ys, root, mem =>
    (((delete cfg cmp root y mem).ret, (delete cfg cmp root y mem).old) ::
        (delete_all cfg cmp ys (delete cfg cmp root y mem).root
          (delete cfg cmp root y mem).mem).1,
      (delete_all cfg cmp ys (delete cfg cmp root y mem).root
        (delete cfg cmp root y mem).mem).2)

mutual
/-- Every node strictly below `n`: the non-root nodes of the tree rooted at `n`
(a leaf has no children). -/
def descendants : Node α → List (Node α)
  | Node.mk _ _ isleaf children _ => if isleaf then [] else descendantsL children
/-- Every node of the subtrees of a child array. -/
def descendantsL : List (Node α) → List (Node α)
  | [] => []
  | c :: cs => c :: (descendants c ++ descendantsL cs)
end

/-- The non-root nodes of a tree handle. -/
def nonroot_nodes (root : Option (Node α)) : List (Node α) :=
  match root with
  | none => []
  | some r => descendants r

/-- The occupancy bounds of a tree: the root holds between 1 and `BGEN_MAXITEMS`
items and every non-root node between `lo` and `BGEN_MAXITEMS`. -/
def Occupancy (cfg : Config) (lo : Nat) (root : Option (Node α)) : Prop :=
  match root with
  | none => True
  | some r =>
    1 ≤ r.len ∧ r.len ≤ MAXITEMS cfg ∧
    ∀ x ∈ descendants r, lo ≤ x.len ∧ x.len ≤ MAXITEMS cfg

/-! ## Seeking callbacks and cursors -/

/-- The function `cow` (bgen.h 1180-1194) without `BGEN_COW`: no node is shared,
the pointer is left as it is and the answer is `true`. -/
def cow (_node : Node α) : Bool := true

mutual
/-- The function `node_scan_mut` (bgen.h 1230-1259): the answer, the user data
and `*status`. -/
def node_scan_mut {σ : Type} (iter : α → σ → Bool × σ) :
    Node α → σ → Status → Bool × σ × Status
  | mk items _ isleaf children _, s, st =>
    if isleaf then ((scan_items iter items s).1, (scan_items iter items s).2, st)
    else node_scan_mutL iter children items s st
/-- The branch loop of `node_scan_mut` over the children and separators left. -/
def node_scan_mutL {σ : Type} (iter : α → σ → Bool × σ) :
    List (Node α) → List α → σ → Status → Bool × σ × Status
  | [], _, s, st => (true, s, st)
  | c :: _, [], s, st =>
    if cow c then node_scan_mut iter c s st else (false, s, Status.NOMEM)
  | c :: cs, x :: xs, s, st =>
    if cow c then
      if (node_scan_mut iter c s st).1 then
        if (iter x (node_scan_mut iter c s st).2.1).1 then
          node_scan_mutL iter cs xs (iter x (node_scan_mut iter c s st).2.1).2
            (node_scan_mut iter c s st).2.2
        else (false, (iter x (node_scan_mut iter c s st).2.1).2, (node_scan_mut iter c s st).2.2)
      else (false, (node_scan_mut iter c s st).2)
    else (false, s, Status.NOMEM)
end

mutual
/-- The function `node_scan_desc_mut` (bgen.h 1315-1350). -/
def node_scan_desc_mut {σ : Type} (iter : α → σ → Bool × σ) :
    Node α → σ → Status → Bool × σ × Status
  | mk items _ isleaf children _, s, st =>
    if isleaf then
      ((scan_items iter items.reverse s).1, (scan_items iter items.reverse s).2, st)
    else node_scan_desc_mutL iter children items s st
/-- The branch part of `node_scan_desc_mut`: the children and separators from
slot `i` on are visited (last child first) before separator `i - 1`. -/
def node_scan_desc_mutL {σ : Type} (iter : α → σ → Bool × σ) :
    List (Node α) → List α → σ → Status → Bool × σ × Status
  | [], _, s, st => (true, s, st)
  | c :: _, [], s, st =>
    if cow c then node_scan_desc_mut iter c s st else (false, s, Status.NOMEM)
  | c :: cs, x :: xs, s, st =>
    if (node_scan_desc_mutL iter cs xs s st).1 then
      if (iter x (node_scan_desc_mutL iter cs xs s st).2.1).1 then
        if cow c then
          node_scan_desc_mut iter c (iter x (node_scan_desc_mutL iter cs xs s st).2.1).2
            (node_scan_desc_mutL iter cs xs s st).2.2
        else (false, (iter x (node_scan_desc_mutL iter cs xs s st).2.1).2, Status.NOMEM)
      else (false, (iter x (node_scan_desc_mutL iter cs xs s st).2.1).2,
        (node_scan_desc_mutL iter cs xs s st).2.2)
    else (false, (node_scan_desc_mutL iter cs xs s st).2)
end

/-- The loop `for (; i < node->len; i++)` of `node_seek` (bgen.h 1383-1392)
over the items from slot `i` on and the children from slot `i + 1` on. -/
def node_seek_rest {σ : Type} (iter : α → σ → Bool × σ) (isleaf : Bool) :
    List α → List (Node α) → σ → Bool × σ
  | [], _, s => (true, s)
  | x :: xs, cs, s =>
    if (iter x s).1 then
      if isleaf then node_seek_rest iter isleaf xs cs (iter x s).2
      else if (node_scan iter (cs.headD (fresh true)) (iter x s).2).1 then
        node_seek_rest iter isleaf xs cs.tail
          (node_scan iter (cs.headD (fresh true)) (iter x s).2).2
      else (false, (node_scan iter (cs.headD (fresh true)) (iter x s).2).2)
    else (false, (iter x s).2)

/-- The function `node_seek` (bgen.h 1369-1394); `none` when the loop budget of
the model is exhausted. -/
def node_seek {σ : Type} (cmp : α → α → Int) (key : α) (iter : α → σ → Bool × σ) :
    Nat → Node α → σ → Option (Bool × σ)
  | 0, _, _ => none
  | fuel + 1, node, s =>
    if (search cmp node key).2 = false ∧ node.isleaf = false then
      match node_seek cmp key iter fuel (node.child (search cmp node key).1) s with
      | none => none
      | some (false, s1) => some (false, s1)
      | some (true, s1) =>
        some (node_seek_rest iter node.isleaf (node.items.drop (search cmp node key).1)
          (node.children.drop ((search cmp node key).1 + 1)) s1)
    else
      some (node_seek_rest iter node.isleaf (node.items.drop (search cmp node key).1)
        (node.children.drop ((search cmp node key).1 + 1)) s)

/-- The function `seek` (bgen.h 1396-1406): the status and the final user
data. -/
def seek {σ : Type} (cmp : α → α → Int) (root : Option (Node α)) (key : α)
    (iter : α → σ → Bool × σ) (s : σ) : Status × σ :=
  match root with
  | none => (Status.FINISHED, s)
  | some r =>
    match node_seek cmp key iter (depth r) r s with
    | none => (Status.FUEL, s)
    | some (true, s1) => (Status.FINISHED, s1)
    | some (false, s1) => (Status.STOPPED, s1)

/-- The loop `for (; i < node->len; i++)` of `node_seek_mut` (bgen.h
1682-1698). -/
def node_seek_mut_rest {σ : Type} (iter : α → σ → Bool × σ) (isleaf : Bool) :
    List α → List (Node α) → σ → Status → Bool × σ × Status
  | [], _, s, st => (true, s, st)
  | x :: xs, cs, s, st =>
    if (iter x s).1 then
      if isleaf then node_seek_mut_rest iter isleaf xs cs (iter x s).2 st
      else if cow (cs.headD (fresh true)) then
        if (node_scan_mut iter (cs.headD (fresh true)) (iter x s).2 st).1 then
          node_seek_mut_rest iter isleaf xs cs.tail
            (node_scan_mut iter (cs.headD (fresh true)) (iter x s).2 st).2.1
            (node_scan_mut iter (cs.headD (fresh true)) (iter x s).2 st).2.2
        else (false, (node_scan_mut iter (cs.headD (fresh true)) (iter x s).2 st).2)
      else (false, (iter x s).2, Status.NOMEM)
    else (false, (iter x s).2, st)

/-- The function `node_seek_mut` (bgen.h 1664-1700). -/
def node_seek_mut {σ : Type} (cmp : α → α → Int) (key : α) (iter : α → σ → Bool × σ) :
    Nat → Node α → σ → Status → Option (Bool × σ × Status)
  | 0, _, _, _ => none
  | fuel + 1, node, s, st =>
    if (search cmp node key).2 = false ∧ node.isleaf = false then
      if cow (node.child (search cmp node key).1) then
        match node_seek_mut cmp key iter fuel (node.child (search cmp node key).1) s st with
        | none => none
        | some (false, r) => some (false, r)
        | some (true, s1, st1) =>
          some (node_seek_mut_rest iter node.isleaf (node.items.drop (search cmp node key).1)
            (node.children.drop ((search cmp node key).1 + 1)) s1 st1)
      else some (false, s, Status.NOMEM)
    else
      some (node_seek_mut_rest iter node.isleaf (node.items.drop (search cmp node key).1)
        (node.children.drop ((search cmp node key).1 + 1)) s st)

/-- The function `seek_mut` (bgen.h 1702-1717). -/
def seek_mut {σ : Type} (cmp : α → α → Int) (root : Option (Node α)) (key : α)
    (iter : α → σ → Bool × σ) (s : σ) : Status × σ :=
  match root with
  | none => (Status.FINISHED, s)
  | some r =>
    if cow r then
      match node_seek_mut cmp key iter (depth r) r s Status.FINISHED with
      | none => (Status.FUEL, s)
      | some (true, s1, st1) => (st1, s1)
      | some (false, s1, st1) => (if st1 = Status.FINISHED then Status.STOPPED else st1, s1)
    else (Status.NOMEM, s)

/-- A callback on the array slot `x`; a slot past `len` is never read on a tree
satisfying the invariants, and the model stops there. -/
def call_slot {σ : Type} (iter : α → σ → Bool × σ) (x : Option α) (s : σ) : Bool × σ :=
  match x with
  | some y => iter y s
  | none => (false, s)

/-- One round of the loop `while (1)` of `node_seek_desc` (bgen.h 1738-1751)
at slot `i`, up to the test `i == 0`. -/
def node_seek_desc_body {σ : Type} (iter : α → σ → Bool × σ) (node : Node α) (i : Nat)
    (s : σ) : Bool × σ :=
  if (call_slot iter node.items[i]? s).1 then
    if node.isleaf then (true, (call_slot iter node.items[i]? s).2)
    else node_scan_desc iter (node.child i) (call_slot iter node.items[i]? s).2
  else (false, (call_slot iter node.items[i]? s).2)

/-- The loop `while (1)` of `node_seek_desc` (bgen.h 1738-1751) from slot `i`
down to slot 0. -/
def node_seek_desc_loop {σ : Type} (iter : α → σ → Bool × σ) (node : Node α) :
    Nat → σ → Bool × σ
  | 0, s => node_seek_desc_body iter node 0 s
  | i + 1, s =>
    if (node_seek_desc_body iter node (i + 1) s).1 then
      node_seek_desc_loop iter node i (node_seek_desc_body iter node (i + 1) s).2
    else (false, (node_seek_desc_body iter node (i + 1) s).2)

/-- The function `node_seek_desc` (bgen.h 1719-1753); `none` when the loop
budget of the model is exhausted. -/
def node_seek_desc {σ : Type} (cmp : α → α → Int) (key : α) (iter : α → σ → Bool × σ) :
    Nat → Node α → σ → Option (Bool × σ)
  | 0, _, _ => none
  | fuel + 1, node, s =>
    if (search cmp node key).2 then
      some (node_seek_desc_loop iter node (search cmp node key).1 s)
    else if node.isleaf then
      if (search cmp node key).1 = 0 then some (true, s)
      else some (node_seek_desc_loop iter node ((search cmp node key).1 - 1) s)
    else
      match node_seek_desc cmp key iter fuel (node.child (search cmp node key).1) s with
      | none => none
      | some (false, s1) => some (false, s1)
      | some (true, s1) =>
        if (search cmp node key).1 = 0 then some (true, s1)
        else some (node_seek_desc_loop iter node ((search cmp node key).1 - 1) s1)

/-- The function `seek_desc` (bgen.h 1755-1765). -/
def seek_desc {σ : Type} (cmp : α → α → Int) (root : Option (Node α)) (key : α)
    (iter : α → σ → Bool × σ) (s : σ) : Status × σ :=
  match root with
  | none => (Status.FINISHED, s)
  | some r =>
    match node_seek_desc cmp key iter (depth r) r s with
    | none => (Status.FUEL, s)
    | some (true, s1) => (Status.FINISHED, s1)
    | some (false, s1) => (Status.STOPPED, s1)

/-- One round of the loop `while (1)` of `node_seek_desc_mut` (bgen.h
1773-1798) at slot `i`, up to the test `i == 0`; `seek_child` is the recursive
call on a child. -/
def node_seek_desc_mut_body {σ : Type} (iter : α → σ → Bool × σ)
    (seek_child : Node α → σ → Status → Option (Bool × σ × Status)) (node : Node α) (i : Nat)
    (found : Bool) (s : σ) (st : Status) : Option (Bool × σ × Status) :=
  if found then
    if (call_slot iter node.items[i]? s).1 then
      if node.isleaf then some (true, (call_slot iter node.items[i]? s).2, st)
      else if cow (node.child i) then
        some (node_scan_desc_mut iter (node.child i) (call_slot iter node.items[i]? s).2 st)
      else some (false, (call_slot iter node.items[i]? s).2, Status.NOMEM)
    else some (false, (call_slot iter node.items[i]? s).2, st)
  else
    if node.isleaf then some (true, s, st)
    else if cow (node.child i) then seek_child (node.child i) s st
    else some (false, s, Status.NOMEM)

/-- The loop `while (1)` of `node_seek_desc_mut` (bgen.h 1773-1798) from slot
`i` down to slot 0; after the first round `found` is `true`. -/
def node_seek_desc_mut_loop {σ : Type} (iter : α → σ → Bool × σ)
    (seek_child : Node α → σ → Status → Option (Bool × σ × Status)) (node : Node α) :
    Nat → Bool → σ → Status → Option (Bool × σ × Status)
  | 0, found, s, st => node_seek_desc_mut_body iter seek_child node 0 found s st
  | i + 1, found, s, st =>
    match node_seek_desc_mut_body iter seek_child node (i + 1) found s st with
    | none => none
    | some (false, r) => some (false, r)
    | some (true, s1, st1) => node_seek_desc_mut_loop iter seek_child node i true s1 st1

/-- The function `node_seek_desc_mut` (bgen.h 1767-1799). -/
def node_seek_desc_mut {σ : Type} (cmp : α → α → Int) (key : α) (iter : α → σ → Bool × σ) :
    Nat → Node α → σ → Status → Option (Bool × σ × Status)
  | 0, _, _, _ => none
  | fuel + 1, node, s, st =>
    node_seek_desc_mut_loop iter (fun c s1 st1 => node_seek_desc_mut cmp key iter fuel c s1 st1)
      node (search cmp node key).1 (search cmp node key).2 s st

/-- The function `seek_desc_mut` (bgen.h 1801-1816). -/
def seek_desc_mut {σ : Type} (cmp : α → α → Int) (root : Option (Node α)) (key : α)
    (iter : α → σ → Bool × σ) (s : σ) : Status × σ :=
  match root with
  | none => (Status.FINISHED, s)
  | some r =>
    if cow r then
      match node_seek_desc_mut cmp key iter (depth r) r s Status.FINISHED with
      | none => (Status.FUEL, s)
      | some (true, s1, st1) => (st1, s1)
      | some (false, s1, st1) => (if st1 = Status.FINISHED then Status.STOPPED else st1, s1)
    else (Status.NOMEM, s)

/-- The struct `BGEN_SNODE` (bgen.h 3653-3656): a node of the path and the
index of the current item (or of the child in use) in it. -/
structure SNode (α : Type) where
  node : Node α
  index : Int

/-- The kinds of cursor (bgen.h 3658-3661). -/
inductive Kind where
  | SCAN
  | SCANDESC
  | INTERSECTS
  | NEARBY
deriving DecidableEq, Repr

/-- The struct `BGEN_ITER` (bgen.h 3663-3688) without `udata` and the spatial
fields.  `stack` holds the `nstack` live frames, the top of the stack
(`stack[nstack-1]`) first; `status` is `NONE` for the value 0; `is_mut` is the
field `mut`. -/
structure Iter (α : Type) where
  root : Option (Node α)
  kind : Kind
  is_mut : Bool
  valid : Bool
  status : Status
  stack : List (SNode α)

/-- The function `iter_init` (bgen.h 3690-3696); the fields that C leaves
uninitialised start as status 0 and an empty stack. -/
def iter_init (root : Option (Node α)) : Iter α :=
  Iter.mk root Kind.SCAN false false Status.NONE []

/-- The function `iter_init_mut` (bgen.h 3698-3703). -/
def iter_init_mut (root : Option (Node α)) : Iter α :=
  { iter_init root with is_mut := true }

/-- The function `iter_reset` (bgen.h 3705-3723). -/
def iter_reset (iter : Iter α) (kind : Kind) : Iter α :=
  { iter with valid := true, status := Status.NONE, stack := [], kind := kind }

/-- The function `iter_valid` (bgen.h 3734-3736). -/
def iter_valid (iter : Iter α) : Bool := iter.valid

/-- The function `iter_status` (bgen.h 3738-3740). -/
def iter_status (iter : Iter α) : Status := iter.status

/-- The function `iter_item` (bgen.h 4227-4236): the value written to `item`,
`none` when there is no frame or the index is no slot of the node. -/
def iter_item (iter : Iter α) : Option α :=
  match iter.stack with
  | [] => none
  | f :: _ => if f.index < 0 then none else f.node.items[f.index.toNat]?

/-- The loop `while (iter->nstack > 1)` of `iter_next_asc` (bgen.h 3784-3790)
with `top` the frame on top and the frames below it: whether it left through
`goto next_item`, and the stack. -/
def iter_pop_asc (top : SNode α) : List (SNode α) → Bool × List (SNode α)
  | [] => (false, [top])
  | g :: rest => if g.index < (g.node.len : Int) then (true, g :: rest) else iter_pop_asc g rest

/-- The loop of `iter_next_asc` (bgen.h 3766-3810) with a budget of rounds. -/
def iter_next_asc_loop : Nat → Iter α → Iter α
  | 0, iter => { iter with valid := false, status := Status.FUEL }
  | fuel + 1, iter =>
    match iter.stack with
    | [] => { iter with valid := false, status := Status.FUEL }
    | f :: rest =>
      if f.node.isleaf = true ∧ f.index + 1 < (f.node.len : Int) then
        { iter with stack := SNode.mk f.node (f.index + 1) :: rest }
      else if f.node.isleaf = true ∨ f.index + 1 = (f.node.len : Int) + 1 then
        if (iter_pop_asc (SNode.mk f.node (f.index + 1)) rest).1 then
          { iter with stack := (iter_pop_asc (SNode.mk f.node (f.index + 1)) rest).2 }
        else
          { iter with stack := (iter_pop_asc (SNode.mk f.node (f.index + 1)) rest).2,
                      valid := false }
      else if iter.is_mut && !cow (f.node.child (f.index + 1).toNat) then
        { iter with stack := SNode.mk f.node (f.index + 1) :: rest,
                    status := Status.NOMEM, valid := false }
      else
        iter_next_asc_loop fuel
          { iter with stack := SNode.mk (f.node.child (f.index + 1).toNat) (-1) ::
              SNode.mk f.node (f.index + 1) :: rest }

/-- The budget of the descending loops of a cursor: the levels below the node
on top of the stack. -/
def iter_fuel (iter : Iter α) : Nat :=
  match iter.stack with
  | [] => 1
  | f :: _ => depth f.node

/-- The function `iter_next_asc` (bgen.h 3766-3810). -/
def iter_next_asc (iter : Iter α) : Iter α := iter_next_asc_loop (iter_fuel iter) iter

/-- The loop `while (iter->nstack > 1)` of `iter_next_desc` (bgen.h 3824-3832)
with `top` the frame on top and the frames below it: whether it left with an
item, and the stack. -/
def iter_pop_desc (top : SNode α) : List (SNode α) → Bool × List (SNode α)
  | [] => (false, [top])
  | g :: rest =>
    if g.index - 1 > -1 then (true, SNode.mk g.node (g.index - 1) :: rest)
    else iter_pop_desc (SNode.mk g.node (g.index - 1)) rest

/-- The loop of `iter_next_desc` (bgen.h 3814-3849) with a budget of rounds. -/
def iter_next_desc_loop : Nat → Iter α → Iter α
  | 0, iter => { iter with valid := false, status := Status.FUEL }
  | fuel + 1, iter =>
    match iter.stack with
    | [] => { iter with valid := false, status := Status.FUEL }
    | f :: rest =>
      if f.node.isleaf = true ∧ f.index - 1 > -1 then
        { iter with stack := SNode.mk f.node (f.index - 1) :: rest }
      else if f.node.isleaf = true then
        if (iter_pop_desc (SNode.mk f.node (f.index - 1)) rest).1 then
          { iter with stack := (iter_pop_desc (SNode.mk f.node (f.index - 1)) rest).2 }
        else
          { iter with stack := (iter_pop_desc (SNode.mk f.node (f.index - 1)) rest).2,
                      valid := false }
      else if iter.is_mut && !cow (f.node.child f.index.toNat) then
        { iter with status := Status.NOMEM, valid := false }
      else
        iter_next_desc_loop fuel
          { iter with stack :=
              SNode.mk (f.node.child f.index.toNat) ((f.node.child f.index.toNat).len : Int) ::
                f :: rest }

/-- The function `iter_next_desc` (bgen.h 3814-3849). -/
def iter_next_desc (iter : Iter α) : Iter α := iter_next_desc_loop (iter_fuel iter) iter

/-- The function `iter_next` (bgen.h 3914-3937) without `BGEN_SPATIAL`: the
kinds `BGEN_INTERSECTS` and `BGEN_NEARBY` have no branch. -/
def iter_next (iter : Iter α) : Iter α :=
  match iter.kind with
  | Kind.SCAN =>
    match iter.stack with
    | [] => iter_next_asc iter
    | f :: rest =>
      if f.node.isleaf = true ∧ f.index + 1 < (f.node.len : Int) then
        { iter with stack := SNode.mk f.node (f.index + 1) :: rest }
      else iter_next_asc iter
  | Kind.SCANDESC => iter_next_desc iter
  | Kind.INTERSECTS => iter
  | Kind.NEARBY => iter

/-- The loop `while (1)` of `iter_scan` (bgen.h 3953-3964). -/
def iter_scan_loop : Nat → Iter α → Node α → Iter α
  | 0, iter, _ => { iter with valid := false, status := Status.FUEL }
  | fuel + 1, iter, node =>
    if node.isleaf then { iter with stack := SNode.mk node 0 :: iter.stack }
    else if iter.is_mut && !cow (node.child 0) then
      { iter with stack := SNode.mk node 0 :: iter.stack, status := Status.NOMEM,
                  valid := false }
    else iter_scan_loop fuel { iter with stack := SNode.mk node 0 :: iter.stack } (node.child 0)

/-- The function `iter_scan` (bgen.h 3940-3965). -/
def iter_scan (iter : Iter α) : Iter α :=
  match iter.root with
  | none => { iter_reset iter Kind.SCAN with valid := false }
  | some r =>
    if iter.is_mut && !cow r then
      { iter_reset iter Kind.SCAN with status := Status.NOMEM, valid := false }
    else iter_scan_loop (depth r) (iter_reset iter Kind.SCAN) r

/-- The loop `while (1)` of `iter_scan_desc` (bgen.h 3980-3995). -/
def iter_scan_desc_loop : Nat → Iter α → Node α → Iter α
  | 0, iter, _ => { iter with valid := false, status := Status.FUEL }
  | fuel + 1, iter, node =>
    if node.isleaf then
      { iter with stack := SNode.mk node ((node.len : Int) - 1) :: iter.stack }
    else if iter.is_mut && !cow (node.child node.len) then
      { iter with stack := SNode.mk node (node.len : Int) :: iter.stack,
                  status := Status.NOMEM, valid := false }
    else
      iter_scan_desc_loop fuel { iter with stack := SNode.mk node (node.len : Int) :: iter.stack }
        (node.child node.len)

/-- The function `iter_scan_desc` (bgen.h 3967-3996). -/
def iter_scan_desc (iter : Iter α) : Iter α :=
  match iter.root with
  | none => { iter_reset iter Kind.SCANDESC with valid := false }
  | some r =>
    if iter.is_mut && !cow r then
      { iter_reset iter Kind.SCANDESC with status := Status.NOMEM, valid := false }
    else iter_scan_desc_loop (depth r) (iter_reset iter Kind.SCANDESC) r

/-- The loop `while (1)` of `iter_seek` (bgen.h 4047-4067). -/
def iter_seek_loop (cmp : α → α → Int) (key : α) : Nat → Iter α → Node α → Iter α
  | 0, iter, _ => { iter with valid := false, status := Status.FUEL }
  | fuel + 1, iter, node =>
    if (search cmp node key).2 then
      { iter with stack := SNode.mk node ((search cmp node key).1 : Int) :: iter.stack }
    else if node.isleaf then
      iter_next
        { iter with stack := SNode.mk node (((search cmp node key).1 : Int) - 1) :: iter.stack }
    else if iter.is_mut && !cow (node.child (search cmp node key).1) then
      { iter with stack := SNode.mk node ((search cmp node key).1 : Int) :: iter.stack,
                  status := Status.NOMEM, valid := false }
    else
      iter_seek_loop cmp key fuel
        { iter with stack := SNode.mk node ((search cmp node key).1 : Int) :: iter.stack }
        (node.child (search cmp node key).1)

/-- The function `iter_seek` (bgen.h 4030-4069). -/
def iter_seek (cfg : Config) (cmp : α → α → Int) (iter : Iter α) (key : α) : Iter α :=
  if cfg.noorder then { iter with valid := false, status := Status.UNSUPPORTED }
  else
    match iter.root with
    | none => { iter_reset iter Kind.SCAN with valid := false }
    | some r =>
      if iter.is_mut && !cow r then
        { iter_reset iter Kind.SCAN with status := Status.NOMEM, valid := false }
      else iter_seek_loop cmp key (depth r) (iter_reset iter Kind.SCAN) r

/-- The function `iter_seek_desc` (bgen.h 4238-4258). -/
def iter_seek_desc (cfg : Config) (cmp : α → α → Int) (iter : Iter α) (key : α) : Iter α :=
  if cfg.noorder then { iter with valid := false, status := Status.UNSUPPORTED }
  else
    if iter_valid (iter_seek cfg cmp iter key) = false then
      if iter_status (iter_seek cfg cmp iter key) = Status.NONE then
        { iter_scan_desc (iter_seek cfg cmp iter key) with kind := Kind.SCANDESC }
      else { iter_seek cfg cmp iter key with kind := Kind.SCANDESC }
    else
      match iter_item (iter_seek cfg cmp iter key) with
      | none => { iter_seek cfg cmp iter key with kind := Kind.SCANDESC }
      | some item =>
        if cmp item key > 0 then
          { iter_next_desc (iter_seek cfg cmp iter key) with kind := Kind.SCANDESC }
        else { iter_seek cfg cmp iter key with kind := Kind.SCANDESC }

/-- The cursor loop of a client (test_base.h 2070-2077): while the cursor is
valid, read the item, hand it to the callback, stop when it answers `false`,
otherwise advance.  The result is whether the loop ran until the cursor was
invalid, and the user data; `none` when the budget of rounds is exhausted. -/
def cursor_loop {σ : Type} (f : α → σ → Bool × σ) : Nat → Iter α → σ → Option (Bool × σ)
  | 0, _, _ => none
  | fuel + 1, iter, s =>
    if iter_valid iter then
      match iter_item iter with
      | none => none
      | some x =>
        if (f x s).1 then cursor_loop f fuel (iter_next iter) (f x s).2
        else some (false, (f x s).2)
    else some (true, s)

/-- The in-order items of a branch that precede its child `i`. -/
def Node.before (n : Node α) (i : Nat) : List α :=
  flatP (n.children.take i) (n.items.take i)

/-- The in-order items of a branch that follow its child `i`. -/
def Node.after (n : Node α) (i : Nat) : List α :=
  tailL (n.children.drop (i + 1)) (n.items.drop i)

/-- The items before the subtree in use, over the frames below the top of a
cursor stack (nearest frame first). -/
def pre_frames : List (SNode α) → List α
  | [] => []
  | f :: fs => pre_frames fs ++ f.node.before f.index.toNat

/-- The items after the subtree in use, over the frames below the top of a
cursor stack (nearest frame first). -/
def post_frames : List (SNode α) → List α
  | [] => []
  | f :: fs => f.node.after f.index.toNat ++ post_frames fs

/-- The frames below the top of a cursor stack form the path to the node `c`:
each is a well-shaped branch whose index names the child in use. -/
def Path (cfg : Config) : Node α → List (SNode α) → Prop
  | _, [] => True
  | c, f :: fs =>
    (∃ h, WF cfg (h + 2) f.node) ∧ 0 ≤ f.index ∧ f.index.toNat ≤ f.node.len ∧
      f.node.child f.index.toNat = c ∧ Path cfg f.node fs

/-- A cursor stack that stands on an item: the top frame is a well-shaped node
whose index is one of its item slots, above a path to it. -/
def OnItem (cfg : Config) (stack : List (SNode α)) : Prop :=
  match stack with
  | [] => False
  | f :: fs =>
    (∃ h, WF cfg h f.node) ∧ 0 ≤ f.index ∧ f.index.toNat < f.node.len ∧ Path cfg f.node fs

/-- The items of the tree before the item a cursor stack stands on. -/
def items_before (stack : List (SNode α)) : List α :=
  match stack with
  | [] => []
  | f :: fs =>
    pre_frames fs ++
      (if f.node.isleaf then f.node.items.take f.index.toNat
       else f.node.before f.index.toNat ++ flat (f.node.child f.index.toNat))

/-- The items of the tree from the item a cursor stack stands on. -/
def items_from (stack : List (SNode α)) : List α :=
  match stack with
  | [] => []
  | f :: fs =>
    (if f.node.isleaf then f.node.items.drop f.index.toNat
     else f.node.after f.index.toNat) ++ post_frames fs

/-- The loop of `get_mut` (bgen.h 1925-1941). -/
def get_mut_loop (cmp : α → α → Int) (key : α) : Nat → Node α → Status × Option α
  | 0, _ => (Status.FUEL, none)
  | fuel + 1, node =>
    if (search cmp node key).2 then (Status.FOUND, node.items[(search cmp node key).1]?)
    else if node.isleaf then (Status.NOTFOUND, none)
    else if !cow (node.child (search cmp node key).1) then (Status.NOMEM, none)
    else get_mut_loop cmp key fuel (node.child (search cmp node key).1)

/-- The function `get_mut` (bgen.h 1910-1943): the status and the value written
to `item_out`. -/
def get_mut (cfg : Config) (cmp : α → α → Int) (root : Option (Node α)) (key : α) :
    Status × Option α :=
  if cfg.noorder then (Status.UNSUPPORTED, none)
  else
    match root with
    | none => (Status.NOTFOUND, none)
    | some r => if !cow r then (Status.NOMEM, none) else get_mut_loop cmp key (depth r) r

/-- The function `intersects` (bgen.h 4300-4320) without `BGEN_SPATIAL`: the
block between `#ifdef BGEN_SPATIAL` and `#endif` is compiled out, so the
arguments are unused and the initial status is returned.  `min` and `max` are
the coordinate arrays. -/
def intersects {σ : Type} (_root : Option (Node α)) (_min _max : List Int)
    (_iter : α → σ → Bool × σ) (s : σ) : Status × σ :=
  (Status.FINISHED, s)

/-- The function `intersects_mut` (bgen.h 4370-4399) without `BGEN_SPATIAL`. -/
def intersects_mut {σ : Type} (_root : Option (Node α)) (_min _max : List Int)
    (_iter : α → σ → Bool × σ) (s : σ) : Status × σ :=
  (Status.FINISHED, s)

/-- The function `iter_intersects` (bgen.h 4164-4187) without `BGEN_SPATIAL`. -/
def iter_intersects (iter : Iter α) (_min _max : List Int) : Iter α :=
  { iter_reset iter Kind.INTERSECTS with valid := false }

mutual
/-- The node and every node below it that `sane0` visits: in a branch the
children in the slots `0 .. len`. -/
def subnodes : Node α → List (Node α)
  | mk items height isleaf children counts =>
    mk items height isleaf children counts ::
      (if isleaf then [] else subnodesL children (items.length + 1))
/-- The nodes of `subnodes` below the first `n` children of a child array. -/
def subnodesL : List (Node α) → Nat → List (Node α)
  | _, 0 => []
  | [], _ + 1 => []
  | c :: cs, n + 1 => subnodes c ++ subnodesL cs n
end

/-- What `sane0` establishes about one node `x` and its child slots: at most
`BGEN_MAXITEMS` items; height field 1 in a leaf, at least 2 in a branch, and in
both equal to the length of the leftmost path down to a leaf; on an ordered tree
adjacent items strictly ascending; in a branch all `len + 1` children present
with at least `BGEN_MINITEMS` items each, on a counted tree every stored count
equal to the size of the child subtree, and on an ordered tree every separator
strictly above the last item of the child node on its left and strictly below
the first item of the child node on its right. -/
def NodeChecked (cfg : Config) (cmp : α → α → Int) (x : Node α) : Prop :=
  x.len ≤ MAXITEMS cfg ∧
  (x.isleaf = true → x.height = 1) ∧ (x.isleaf = false → 2 ≤ x.height) ∧
  x.height = deepheight x ∧
  (cfg.noorder = false →
    ∀ i a b, x.items[i]? = some a → x.items[i + 1]? = some b → lt cmp a b) ∧
  (x.isleaf = false →
    x.len + 1 ≤ x.children.length ∧
    (∀ i, i ≤ x.len → MINITEMS cfg ≤ (x.child i).len) ∧
    (cfg.counted = true → ∀ i, i ≤ x.len → x.count i = deepcount (x.child i)) ∧
    (cfg.noorder = false → ∀ i s a b, x.items[i]? = some s →
      (x.child i).items.getLast? = some a → (x.child (i + 1)).items.head? = some b →
      lt cmp a s ∧ lt cmp s b))

/-- A tree of height 3 whose separators are in order against the boundary items
of their child nodes while the item 99 of a leaf is above the root separator
50. -/
def treeDeepOrder : Node Int :=
  Node.mk [50] 3 false
    [Node.mk [20] 2 false [leafW [10], leafW [30, 99]] [1, 2],
     Node.mk [70] 2 false [leafW [60], leafW [80]] [1, 1]] [4, 3]

/-- A tree whose root has a leaf as first child and a branch as second
child. -/
def treeUneven : Node Int :=
  Node.mk [20] 2 false
    [leafW [10], Node.mk [40] 2 false [leafW [30], leafW [50]] [1, 1]] [1, 3]

/-- The function `node_seek_at` (bgen.h 1408-1444); `none` when the loop budget
of the model is exhausted. -/
def node_seek_at {σ : Type} (cfg : Config) (iter : α → σ → Bool × σ) :
    Nat → Node α → Nat → σ → Option (Bool × σ)
  | 0, _, _, _ => none
  | fuel + 1, node, index, s =>
    if node.isleaf then some (scan_items iter (node.items.drop index) s)
    else if (index_walk cfg node node.len 0 index).2.1 then
      some (node_seek_rest iter node.isleaf
        (node.items.drop (index_walk cfg node node.len 0 index).1)
        (node.children.drop ((index_walk cfg node node.len 0 index).1 + 1)) s)
    else
      match node_seek_at cfg iter fuel (node.child (index_walk cfg node node.len 0 index).1)
          (index_walk cfg node node.len 0 index).2.2 s with
      | none => none
      | some (false, s1) => some (false, s1)
      | some (true, s1) =>
        some (node_seek_rest iter node.isleaf
          (node.items.drop (index_walk cfg node node.len 0 index).1)
          (node.children.drop ((index_walk cfg node node.len 0 index).1 + 1)) s1)

/-- The function `seek_at` (bgen.h 1446-1456). -/
def seek_at {σ : Type} (cfg : Config) (root : Option (Node α)) (index : Nat)
    (iter : α → σ → Bool × σ) (s : σ) : Status × σ :=
  match root with
  | none => (Status.FINISHED, s)
  | some r =>
    match node_seek_at cfg iter (depth r) r index s with
    | none => (Status.FUEL, s)
    | some (true, s1) => (Status.FINISHED, s1)
    | some (false, s1) => (Status.STOPPED, s1)

/-- The loop `for (; i >= 0; i--)` of `node_seek_at_desc` (bgen.h 1497-1506)
with `k = i + 1` rounds left: the callback on the item of slot `i`, then in a
branch the descending scan of child `i`. -/
def node_seek_at_desc_for {σ : Type} (iter : α → σ → Bool × σ) (node : Node α) :
    Nat → σ → Bool × σ
  | 0, s => (true, s)
  | k + 1, s =>
    if (node_seek_desc_body iter node k s).1 then
      node_seek_at_desc_for iter node k (node_seek_desc_body iter node k s).2
    else (false, (node_seek_desc_body iter node k s).2)

/-- The function `node_seek_at_desc` (bgen.h 1458-1508); `none` when the loop
budget of the model is exhausted. -/
def node_seek_at_desc {σ : Type} (cfg : Config) (iter : α → σ → Bool × σ) :
    Nat → Node α → Nat → σ → Option (Bool × σ)
  | 0, _, _, _ => none
  | fuel + 1, node, index, s =>
    if node.isleaf then
      some (scan_items iter
        (node.items.take (if index ≥ node.len then node.len else index + 1)).reverse s)
    else if (index_walk cfg node node.len 0 index).2.1 then
      some (node_seek_at_desc_for iter node ((index_walk cfg node node.len 0 index).1 + 1) s)
    else
      match node_seek_at_desc cfg iter fuel
          (node.child (index_walk cfg node node.len 0 index).1)
          (index_walk cfg node node.len 0 index).2.2 s with
      | none => none
      | some (false, s1) => some (false, s1)
      | some (true, s1) =>
        some (node_seek_at_desc_for iter node (index_walk cfg node node.len 0 index).1 s1)

/-- The function `seek_at_desc` (bgen.h 1510-1520). -/
def seek_at_desc {σ : Type} (cfg : Config) (root : Option (Node α)) (index : Nat)
    (iter : α → σ → Bool × σ) (s : σ) : Status × σ :=
  match root with
  | none => (Status.FINISHED, s)
  | some r =>
    match node_seek_at_desc cfg iter (depth r) r index s with
    | none => (Status.FUEL, s)
    | some (true, s1) => (Status.FINISHED, s1)
    | some (false, s1) => (Status.STOPPED, s1)

/-- The loop `while (1)` of `iter_seek_at` (bgen.h 4084-4115). -/
def iter_seek_at_loop (cfg : Config) : Nat → Iter α → Node α → Nat → Iter α
  | 0, iter, _, _ => { iter with valid := false, status := Status.FUEL }
  | fuel + 1, iter, node, index =>
    if node.isleaf then
      iter_next
        { iter with stack :=
            (SNode.mk node ((if index ≥ node.len then (node.len : Int) else (index : Int)) - 1) ::
              iter.stack) }
    else if (index_walk cfg node node.len 0 index).2.1 then
      { iter with stack :=
          (SNode.mk node ((index_walk cfg node node.len 0 index).1 : Int) :: iter.stack) }
    else if iter.is_mut && !cow (node.child (index_walk cfg node node.len 0 index).1) then
      { iter with stack :=
          (SNode.mk node ((index_walk cfg node node.len 0 index).1 : Int) :: iter.stack),
                  status := Status.NOMEM, valid := false }
    else
      iter_seek_at_loop cfg fuel
        { iter with stack :=
            (SNode.mk node ((index_walk cfg node node.len 0 index).1 : Int) :: iter.stack) }
        (node.child (index_walk cfg node node.len 0 index).1)
        (index_walk cfg node node.len 0 index).2.2

/-- The function `iter_seek_at` (bgen.h 4072-4116). -/
def iter_seek_at (cfg : Config) (iter : Iter α) (index : Nat) : Iter α :=
  match iter.root with
  | none => { iter_reset iter Kind.SCAN with valid := false }
  | some r =>
    if iter.is_mut && !cow r then
      { iter_reset iter Kind.SCAN with status := Status.NOMEM, valid := false }
    else iter_seek_at_loop cfg (depth r) (iter_reset iter Kind.SCAN) r index

/-- The loop `while (1)` of `iter_seek_at_desc` (bgen.h 4130-4160). -/
def iter_seek_at_desc_loop (cfg : Config) : Nat → Iter α → Node α → Nat → Iter α
  | 0, iter, _, _ => { iter with valid := false, status := Status.FUEL }
  | fuel + 1, iter, node, index =>
    if node.isleaf then
      { iter with stack :=
          (SNode.mk node (if index ≥ node.len then (node.len : Int) - 1 else (index : Int)) ::
            iter.stack) }
    else if (index_walk cfg node node.len 0 index).2.1 then
      { iter with stack :=
          (SNode.mk node ((index_walk cfg node node.len 0 index).1 : Int) :: iter.stack) }
    else if iter.is_mut && !cow (node.child (index_walk cfg node node.len 0 index).1) then
      { iter with stack :=
          (SNode.mk node ((index_walk cfg node node.len 0 index).1 : Int) :: iter.stack),
                  status := Status.NOMEM, valid := false }
    else
      iter_seek_at_desc_loop cfg fuel
        { iter with stack :=
            (SNode.mk node ((index_walk cfg node node.len 0 index).1 : Int) :: iter.stack) }
        (node.child (index_walk cfg node node.len 0 index).1)
        (index_walk cfg node node.len 0 index).2.2

/-- The function `iter_seek_at_desc` (bgen.h 4118-4162). -/
def iter_seek_at_desc (cfg : Config) (iter : Iter α) (index : Nat) : Iter α :=
  match iter.root with
  | none => { iter_reset iter Kind.SCANDESC with valid := false }
  | some r =>
    if iter.is_mut && !cow r then
      { iter_reset iter Kind.SCANDESC with status := Status.NOMEM, valid := false }
    else iter_seek_at_desc_loop cfg (depth r) (iter_reset iter Kind.SCANDESC) r index

/-! ## The build with `BGEN_SPATIAL`

The nodes of a spatial build carry one rectangle per child.  The coordinates
(`BGEN_RTYPE`) are only compared and copied by the code; they are integers
here.  `dims` is `BGEN_DIMS`; `itemrect` is what the user macro
`BGEN_ITEMRECT` writes to `min` and `max` for an item. -/

namespace Spatial

/-- The struct `BGEN_RECT` (bgen.h 413-416). -/
structure Rect where
  min : List Int
  max : List Int
deriving DecidableEq, Repr

/-- The read `rect.min[i]`. -/
def Rect.lo (r : Rect) (i : Nat) : Int := r.min.getD i 0

/-- The read `rect.max[i]`. -/
def Rect.hi (r : Rect) (i : Nat) : Int := r.max.getD i 0

/-- A rectangle with all coordinates zero (`(BGEN_RECT){ 0 }`). -/
def Rect.zero (dims : Nat) : Rect := Rect.mk (List.replicate dims 0) (List.replicate dims 0)

/-- The struct `BGEN_NODE` (bgen.h 490-507) with the field `rects`, without
`rc` and `counts`.  The lists hold the live slots. -/
inductive Node (α : Type) where
  | mk (items : List α) (height : Nat) (isleaf : Bool)
      (children : List (Node α)) (rects : List Rect)

namespace Node

variable {α : Type}

/-- Live items `items[0..len)`. -/
def items : Node α → List α
  | mk i _ _ _ _ => i

/-- The field `height`. -/
def height : Node α → Nat
  | mk _ h _ _ _ => h

/-- The field `isleaf`. -/
def isleaf : Node α → Bool
  | mk _ _ l _ _ => l

/-- Live child pointers. -/
def children : Node α → List (Node α)
  | mk _ _ _ c _ => c

/-- Live child rectangles. -/
def rects : Node α → List Rect
  | mk _ _ _ _ r => r

/-- The field `len`. -/
def len (n : Node α) : Nat := n.items.length

/-- The read `node->children[i]`; an index past the live children yields a blank
leaf (in C: a stale or null pointer). -/
def child (n : Node α) (i : Nat) : Node α := n.children.getD i (mk [] 0 true [] [])

/-- The read `node->rects[i]`; an index past the live rectangles yields zeros. -/
def rect (n : Node α) (i : Nat) : Rect := n.rects.getD i (Rect.mk [] [])

end Node

mutual
/-- Number of levels below and including the node along its deepest path. -/
def depth : Node α → Nat
  | Node.mk _ _ isleaf children _ => if isleaf then 1 else 1 + depthL children
/-- Maximum of `depth` over a child array. -/
def depthL : List (Node α) → Nat
  | [] => 0
  | c :: cs => max (depth c) (depthL cs)
end

mutual
/-- In-order item sequence of a subtree: the order in which `node_scan` visits
the items. -/
def flat : Node α → List α
  | Node.mk items _ isleaf children _ => if isleaf then items else flatL children items
/-- In-order sequence of a child array interleaved with the separators. -/
def flatL : List (Node α) → List α → List α
  | [], _ => []
  | c :: _, [] => flat c
  | c :: cs, s :: ss => flat c ++ s :: flatL cs ss
end

/-- The item sequence of a tree handle. -/
def items_of (root : Option (Node α)) : List α :=
  match root with
  | none => []
  | some r => flat r

mutual
/-- The function `node_scan` (bgen.h 1196-1216), which does not read the
rectangles. -/
def node_scan {σ : Type} (iter : α → σ → Bool × σ) : Node α → σ → Bool × σ
  | Node.mk items _ isleaf children _, s =>
    if isleaf then scan_items iter items s else node_scanL iter children items s
/-- The branch loop of `node_scan` over the children and separators left. -/
def node_scanL {σ : Type} (iter : α → σ → Bool × σ) :
    List (Node α) → List α → σ → Bool × σ
  | [], _, s => (true, s)
  | c :: _, [], s => node_scan iter c s
  | c :: cs, x :: xs, s =>
    if (node_scan iter c s).1 then
      if (iter x (node_scan iter c s).2).1 then
        node_scanL iter cs xs (iter x (node_scan iter c s).2).2
      else (false, (iter x (node_scan iter c s).2).2)
    else (false, (node_scan iter c s).2)
end

/-- The function `scan` (bgen.h 1218-1228): the status and the final user
data. -/
def scan {σ : Type} (root : Option (Node α)) (iter : α → σ → Bool × σ) (s : σ) : Status × σ :=
  match root with
  | none => (Status.FINISHED, s)
  | some r =>
    if (node_scan iter r s).1 then (Status.FINISHED, (node_scan iter r s).2)
    else (Status.STOPPED, (node_scan iter r s).2)

/-- The function `item_rect` (bgen.h 418-433): the arrays that `BGEN_ITEMRECT`
fills, copied over the `dims` coordinates. -/
def item_rect (dims : Nat) (itemrect : α → List Int × List Int) (item : α) : Rect :=
  Rect.mk ((List.range dims).map (fun i => (itemrect item).1.getD i 0))
    ((List.range dims).map (fun i => (itemrect item).2.getD i 0))

/-- The function `rect_intersects` (bgen.h 630-637). -/
def rect_intersects (dims : Nat) (a b : Rect) : Bool :=
  (List.range dims).foldl
    (fun bits i => bits || decide (b.lo i > a.hi i) || decide (b.hi i < a.lo i)) false == false

/-- The function `rect_join` (bgen.h 639-647). -/
def rect_join (dims : Nat) (a b : Rect) : Rect :=
  Rect.mk ((List.range dims).map (fun i => if a.lo i < b.lo i then a.lo i else b.lo i))
    ((List.range dims).map (fun i => if a.hi i > b.hi i then a.hi i else b.hi i))

/-- The leaf loop of `node_intersects` (bgen.h 4265-4274). -/
def intersects_items {σ : Type} (dims : Nat) (itemrect : α → List Int × List Int)
    (target : Rect) (iter : α → σ → Bool × σ) : List α → σ → Bool × σ
  | [], s => (true, s)
  | x :: xs, s =>
    if rect_intersects dims target (item_rect dims itemrect x) then
      if (iter x s).1 then intersects_items dims itemrect target iter xs (iter x s).2
      else (false, (iter x s).2)
    else intersects_items dims itemrect target iter xs s

mutual
/-- The function `node_intersects` (bgen.h 4261-4298). -/
def node_intersects {σ : Type} (dims : Nat) (itemrect : α → List Int × List Int)
    (target : Rect) (iter : α → σ → Bool × σ) : Node α → σ → Bool × σ
  | Node.mk items _ isleaf children rects, s =>
    if isleaf then intersects_items dims itemrect target iter items s
    else node_intersectsL dims itemrect target iter children rects items s
/-- The branch part of `node_intersects` over the children, rectangles and
separators left: the loop `for (i = 0; i < len; i++)` (4276-4289) and then the
last child (4290-4295). -/
def node_intersectsL {σ : Type} (dims : Nat) (itemrect : α → List Int × List Int)
    (target : Rect) (iter : α → σ → Bool × σ) :
    List (Node α) → List Rect → List α → σ → Bool × σ
  | [], _, _, s => (true, s)
  | c :: _, rects, [], s =>
    if rect_intersects dims target (rects.headD (Rect.mk [] [])) then
      node_intersects dims itemrect target iter c s
    else (true, s)
  | c :: cs, rects, x :: xs, s =>
    if rect_intersects dims target (rects.headD (Rect.mk [] [])) then
      if (node_intersects dims itemrect target iter c s).1 then
        if rect_intersects dims target (item_rect dims itemrect x) then
          if (iter x (node_intersects dims itemrect target iter c s).2).1 then
            node_intersectsL dims itemrect target iter cs rects.tail xs
              (iter x (node_intersects dims itemrect target iter c s).2).2
          else (false, (iter x (node_intersects dims itemrect target iter c s).2).2)
        else
          node_intersectsL dims itemrect target iter cs rects.tail xs
            (node_intersects dims itemrect target iter c s).2
      else (false, (node_intersects dims itemrect target iter c s).2)
    else node_intersectsL dims itemrect target iter cs rects.tail xs s
end

/-- The copy of the arguments `min[]` and `max[]` into a rectangle (bgen.h
4306-4312, 4171-4174). -/
def target_rect (dims : Nat) (min max : List Int) : Rect :=
  Rect.mk ((List.range dims).map (fun i => min.getD i 0))
    ((List.range dims).map (fun i => max.getD i 0))

/-- The function `intersects` (bgen.h 4300-4320) with `BGEN_SPATIAL`: the status
and the final user data. -/
def intersects {σ : Type} (dims : Nat) (itemrect : α → List Int × List Int)
    (root : Option (Node α)) (min max : List Int) (iter : α → σ → Bool × σ) (s : σ) :
    Status × σ :=
  match root with
  | none => (Status.FINISHED, s)
  | some r =>
    if (node_intersects dims itemrect (target_rect dims min max) iter r s).1 then
      (Status.FINISHED, (node_intersects dims itemrect (target_rect dims min max) iter r s).2)
    else (Status.STOPPED, (node_intersects dims itemrect (target_rect dims min max) iter r s).2)

/-- The loop `rect = rect_join(rect, ...)` over the rectangles left (bgen.h
4515-4517, 4520-4523). -/
def join_all (dims : Nat) (rect : Rect) : List Rect → Rect
  | [] => rect
  | r :: rs => join_all dims (rect_join dims rect r) rs

/-- The function `rect` (bgen.h 4505-4537) with `BGEN_SPATIAL`: the arrays
written to `min` and `max`.  The reads `rects[0]` and `items[0]` of a node
without them yield zeros. -/
def rect (dims : Nat) (itemrect : α → List Int × List Int) (root : Option (Node α)) :
    List Int × List Int :=
  match root with
  | some node =>
    if !node.isleaf then
      ((List.range dims).map (fun i =>
          (join_all dims (node.rect 0) ((node.rects.take (node.len + 1)).drop 1)).lo i),
       (List.range dims).map (fun i =>
          (join_all dims (node.rect 0) ((node.rects.take (node.len + 1)).drop 1)).hi i))
    else
      ((List.range dims).map (fun i =>
          (join_all dims
            (match node.items.head? with
              | some x => item_rect dims itemrect x
              | none => Rect.mk [] [])
            ((node.items.drop 1).map (item_rect dims itemrect))).lo i),
       (List.range dims).map (fun i =>
          (join_all dims
            (match node.items.head? with
              | some x => item_rect dims itemrect x
              | none => Rect.mk [] [])
            ((node.items.drop 1).map (item_rect dims itemrect))).hi i))
  | none => ((List.range dims).map (fun _ => 0), (List.range dims).map (fun _ => 0))

/-! ### The cursor of a spatial build -/

/-- The struct `BGEN_SNODE` (bgen.h 3653-3656). -/
structure SNode (α : Type) where
  node : Node α
  index : Int

/-- The struct `BGEN_ITER` (bgen.h 3663-3688) without `udata` and the fields of
the `BGEN_NEARBY` kind (target, distance function, queue, current item).
`stack` holds the `nstack` live frames, top first; `status` is `NONE` for the
value 0; `is_mut` is the field `mut`. -/
structure Iter (α : Type) where
  root : Option (Node α)
  kind : Kind
  is_mut : Bool
  valid : Bool
  status : Status
  itarget : Rect
  stack : List (SNode α)

/-- The function `iter_init` (bgen.h 3690-3696); the fields that C leaves
uninitialised start as status 0, an empty target and an empty stack. -/
def iter_init (root : Option (Node α)) : Iter α :=
  Iter.mk root Kind.SCAN false false Status.NONE (Rect.mk [] []) []

/-- The function `iter_init_mut` (bgen.h 3698-3703). -/
def iter_init_mut (root : Option (Node α)) : Iter α :=
  { iter_init root with is_mut := true }

/-- The function `iter_reset` (bgen.h 3705-3723); the queue of the kind
`BGEN_NEARBY` is not a field of the model. -/
def iter_reset (iter : Iter α) (kind : Kind) : Iter α :=
  { iter with valid := true, status := Status.NONE, stack := [], kind := kind }

/-- The function `iter_valid` (bgen.h 3735-3737). -/
def iter_valid (iter : Iter α) : Bool := iter.valid

/-- The function `iter_status` (bgen.h 3739-3741). -/
def iter_status (iter : Iter α) : Status := iter.status

/-- The function `iter_item` (bgen.h 4227-4236) for the kinds that use the
stack: the value written to `item`, `none` when there is no frame or the index
is no slot of the node. -/
def iter_item (iter : Iter α) : Option α :=
  match iter.stack with
  | [] => none
  | f :: _ => if f.index < 0 then none else f.node.items[f.index.toNat]?

/-- The function `cow` (bgen.h 1170-1194) without `BGEN_COW`: always `true`. -/
def cow (_node : Node α) : Bool := true

/-- The function `iter_skip_item` (bgen.h 3744-3753); an index that is no slot
of the node skips nothing. -/
def iter_skip_item (dims : Nat) (itemrect : α → List Int × List Int) (iter : Iter α)
    (snode : SNode α) : Bool :=
  if iter.kind = Kind.INTERSECTS then
    match snode.node.items[snode.index.toNat]? with
    | some x => !rect_intersects dims iter.itarget (item_rect dims itemrect x)
    | none => false
  else false

/-- The function `iter_skip_node` (bgen.h 3754-3763). -/
def iter_skip_node (dims : Nat) (iter : Iter α) (snode : SNode α) : Bool :=
  if iter.kind = Kind.INTERSECTS then
    !rect_intersects dims iter.itarget (snode.node.rect snode.index.toNat)
  else false

/-- The loop `while (iter->nstack > 1)` of `iter_next_asc` (bgen.h 3784-3790)
with `top` the frame on top and the frames below it: whether it left through
`goto next_item`, and the stack. -/
def iter_pop_asc (top : SNode α) : List (SNode α) → Bool × List (SNode α)
  | [] => (false, [top])
  | g :: rest => if g.index < (g.node.len : Int) then (true, g :: rest) else iter_pop_asc g rest

/-- The loop of `iter_next_asc` (bgen.h 3766-3810) with `BGEN_SPATIAL` and a
budget of rounds. -/
def iter_next_asc_loop (dims : Nat) (itemrect : α → List Int × List Int) :
    Nat → Iter α → Iter α
  | 0, iter => { iter with valid := false, status := Status.FUEL }
  | fuel + 1, iter =>
    match iter.stack with
    | [] => { iter with valid := false, status := Status.FUEL }
    | f :: rest =>
      if f.node.isleaf = true ∧ f.index + 1 < (f.node.len : Int) then
        if iter_skip_item dims itemrect iter (SNode.mk f.node (f.index + 1)) then
          iter_next_asc_loop dims itemrect fuel
            { iter with stack := SNode.mk f.node (f.index + 1) :: rest }
        else { iter with stack := SNode.mk f.node (f.index + 1) :: rest }
      else if f.node.isleaf = true ∨ f.index + 1 = (f.node.len : Int) + 1 then
        if (iter_pop_asc (SNode.mk f.node (f.index + 1)) rest).1 then
          match (iter_pop_asc (SNode.mk f.node (f.index + 1)) rest).2 with
          | [] => { iter with valid := false, status := Status.FUEL }
          | g :: below =>
            if iter_skip_item dims itemrect iter g then
              iter_next_asc_loop dims itemrect fuel { iter with stack := g :: below }
            else { iter with stack := g :: below }
        else
          { iter with stack := (iter_pop_asc (SNode.mk f.node (f.index + 1)) rest).2,
                      valid := false }
      else if iter_skip_node dims iter (SNode.mk f.node (f.index + 1)) then
        iter_next_asc_loop dims itemrect fuel
          { iter with stack := SNode.mk f.node (f.index + 1) :: rest }
      else if iter.is_mut && !cow (f.node.child (f.index + 1).toNat) then
        { iter with stack := SNode.mk f.node (f.index + 1) :: rest,
                    status := Status.NOMEM, valid := false }
      else
        iter_next_asc_loop dims itemrect fuel
          { iter with stack := SNode.mk (f.node.child (f.index + 1).toNat) (-1) ::
              SNode.mk f.node (f.index + 1) :: rest }

mutual
/-- The rounds that the loop of `iter_next_asc` can make inside a subtree: one
per item slot of a leaf and one to leave it; in a branch one per child slot, the
rounds inside each child, and one to leave it. -/
def rounds : Node α → Nat
  | Node.mk items _ isleaf children _ =>
    if isleaf then items.length + 1 else roundsL children + 1
/-- The rounds over a child array. -/
def roundsL : List (Node α) → Nat
  | [] => 0
  | c :: cs => 1 + rounds c + roundsL cs
end

/-- The rounds left in a node whose next slot is `k`. -/
def rounds_from (n : Node α) (k : Nat) : Nat :=
  if n.isleaf then (n.len - k) + 1 else roundsL (n.children.drop k) + 1

/-- The rounds left in the frames of a cursor stack. -/
def stack_rounds : List (SNode α) → Nat
  | [] => 0
  | f :: rest => rounds_from f.node (f.index + 1).toNat + stack_rounds rest

/-- The budget of the loop of `iter_next_asc`: the rounds left in the frames of
the stack. -/
def iter_fuel (iter : Iter α) : Nat := stack_rounds iter.stack + 1

/-- The function `iter_next_asc` (bgen.h 3766-3810). -/
def iter_next_asc (dims : Nat) (itemrect : α → List Int × List Int) (iter : Iter α) : Iter α :=
  iter_next_asc_loop dims itemrect (iter_fuel iter) iter

/-- The loop `while (iter->nstack > 1)` of `iter_next_desc` (bgen.h 3824-3832). -/
def iter_pop_desc (top : SNode α) : List (SNode α) → Bool × List (SNode α)
  | [] => (false, [top])
  | g :: rest =>
    if g.index - 1 > -1 then (true, SNode.mk g.node (g.index - 1) :: rest)
    else iter_pop_desc (SNode.mk g.node (g.index - 1)) rest

/-- The loop of `iter_next_desc` (bgen.h 3814-3849) with a budget of rounds. -/
def iter_next_desc_loop : Nat → Iter α → Iter α
  | 0, iter => { iter with valid := false, status := Status.FUEL }
  | fuel + 1, iter =>
    match iter.stack with
    | [] => { iter with valid := false, status := Status.FUEL }
    | f :: rest =>
      if f.node.isleaf = true ∧ f.index - 1 > -1 then
        { iter with stack := SNode.mk f.node (f.index - 1) :: rest }
      else if f.node.isleaf = true then
        if (iter_pop_desc (SNode.mk f.node (f.index - 1)) rest).1 then
          { iter with stack := (iter_pop_desc (SNode.mk f.node (f.index - 1)) rest).2 }
        else
          { iter with stack := (iter_pop_desc (SNode.mk f.node (f.index - 1)) rest).2,
                      valid := false }
      else if iter.is_mut && !cow (f.node.child f.index.toNat) then
        { iter with status := Status.NOMEM, valid := false }
      else
        iter_next_desc_loop fuel
          { iter with stack :=
              SNode.mk (f.node.child f.index.toNat) ((f.node.child f.index.toNat).len : Int) ::
                f :: rest }

/-- The function `iter_next_desc` (bgen.h 3814-3849); the budget of its loop is
the levels below the node on top of the stack. -/
def iter_next_desc (iter : Iter α) : Iter α :=
  iter_next_desc_loop
    (match iter.stack with
      | [] => 1
      | f :: _ => depth f.node) iter

/-- The function `iter_next` (bgen.h 3914-3937) with `BGEN_SPATIAL`.  The kind
`BGEN_NEARBY` works on the queue, which is not part of this cursor model; its
branch leaves the cursor as it is. -/
def iter_next (dims : Nat) (itemrect : α → List Int × List Int) (iter : Iter α) : Iter α :=
  match iter.kind with
  | Kind.INTERSECTS => iter_next_asc dims itemrect iter
  | Kind.NEARBY => iter
  | Kind.SCAN =>
    match iter.stack with
    | [] => iter_next_asc dims itemrect iter
    | f :: rest =>
      if f.node.isleaf = true ∧ f.index + 1 < (f.node.len : Int) then
        { iter with stack := SNode.mk f.node (f.index + 1) :: rest }
      else iter_next_asc dims itemrect iter
  | Kind.SCANDESC => iter_next_desc iter

/-- The leaf loop of `iter_intersects_first` (bgen.h 4000-4008): the index of
the first item from slot `i` on whose rectangle meets the target. -/
def first_item (dims : Nat) (itemrect : α → List Int × List Int) (target : Rect) :
    List α → Nat → Option Nat
  | [], _ => none
  | x :: xs, i =>
    if rect_intersects dims target (item_rect dims itemrect x) then some i
    else first_item dims itemrect target xs (i + 1)

/-- The write `iter->stack[depth].index = i`, with the stack top first. -/
def set_index (stack : List (SNode α)) (depth : Nat) (i : Nat) : List (SNode α) :=
  match stack[stack.length - 1 - depth]? with
  | some f => stack.set (stack.length - 1 - depth) (SNode.mk f.node (i : Int))
  | none => stack

mutual
/-- The function `iter_intersects_first` (bgen.h 3996-4027): whether an item was
found, and the cursor (on `false` the frame pushed is popped again). -/
def iter_intersects_first (dims : Nat) (itemrect : α → List Int × List Int) (iter : Iter α) :
    Node α → Bool × Iter α
  | Node.mk items height isleaf children rects =>
    if isleaf then
      match first_item dims itemrect iter.itarget items 0 with
      | some i =>
        (true, { iter with stack :=
          (set_index (SNode.mk (Node.mk items height isleaf children rects) 0 :: iter.stack)
            iter.stack.length i) })
      | none => (false, iter)
    else
      iter_intersects_firstL dims itemrect iter (Node.mk items height isleaf children rects)
        children rects items 0
/-- The branch loop `for (i = 0; i <= len; i++)` of `iter_intersects_first`
(bgen.h 4010-4023) from slot `i` on, over the children, rectangles and
separators left; `iter` is the cursor before the frame of `node` is pushed. -/
def iter_intersects_firstL (dims : Nat) (itemrect : α → List Int × List Int) (iter : Iter α)
    (node : Node α) : List (Node α) → List Rect → List α → Nat → Bool × Iter α
  | [], _, _, _ => (false, iter)
  | c :: cs, rects, items, i =>
    if rect_intersects dims iter.itarget (rects.headD (Rect.mk [] [])) then
      if (iter_intersects_first dims itemrect
          { iter with stack := SNode.mk node 0 :: iter.stack } c).1 then
        (true, { iter with stack :=
          (set_index (iter_intersects_first dims itemrect
            { iter with stack := SNode.mk node 0 :: iter.stack } c).2.stack
            iter.stack.length i) })
      else
        match items with
        | [] => iter_intersects_firstL dims itemrect iter node cs rects.tail [] (i + 1)
        | x :: xs =>
          if rect_intersects dims iter.itarget (item_rect dims itemrect x) then
            (true, { iter with stack :=
              (set_index (SNode.mk node 0 :: iter.stack) iter.stack.length i) })
          else iter_intersects_firstL dims itemrect iter node cs rects.tail xs (i + 1)
    else iter_intersects_firstL dims itemrect iter node cs rects.tail items.tail (i + 1)
end

/-- The function `iter_intersects` (bgen.h 4164-4187) with `BGEN_SPATIAL`. -/
def iter_intersects (dims : Nat) (itemrect : α → List Int × List Int) (iter : Iter α)
    (min max : List Int) : Iter α :=
  match iter.root with
  | none =>
    { iter_reset iter Kind.INTERSECTS with itarget := target_rect dims min max, valid := false }
  | some r =>
    if iter.is_mut && !cow r then
      { iter_reset iter Kind.INTERSECTS with
        itarget := (target_rect dims min max), status := Status.NOMEM, valid := false }
    else
      { (iter_intersects_first dims itemrect
          { iter_reset iter Kind.INTERSECTS with itarget := target_rect dims min max } r).2 with
        valid := ((iter_intersects_first dims itemrect
          { iter_reset iter Kind.INTERSECTS with itarget := target_rect dims min max } r).1) }

/-- The loop of a client of the cursor: while `iter_valid`, read `iter_item`,
call back, `iter_next`; `none` when the budget of rounds is exhausted. -/
def cursor_loop {σ : Type} (dims : Nat) (itemrect : α → List Int × List Int)
    (f : α → σ → Bool × σ) : Nat → Iter α → σ → Option (Bool × σ)
  | 0, _, _ => none
  | fuel + 1, iter, s =>
    if iter_valid iter then
      match iter_item iter with
      | none => none
      | some x =>
        if (f x s).1 then cursor_loop dims itemrect f fuel (iter_next dims itemrect iter) (f x s).2
        else some (false, (f x s).2)
    else some (true, s)

end Spatial

namespace Spatial

/-- The rectangle `r` is the tight cover of the items `l`: in every dimension
its `min` is the least `min` of the item rectangles and its `max` the greatest
`max`. -/
def IsBox (dims : Nat) (itemrect : α → List Int × List Int) (l : List α) (r : Rect) : Prop :=
  ∀ i, i < dims →
    (∀ x ∈ l, r.lo i ≤ (item_rect dims itemrect x).lo i ∧
      (item_rect dims itemrect x).hi i ≤ r.hi i) ∧
    (∃ x ∈ l, (item_rect dims itemrect x).lo i = r.lo i) ∧
    (∃ x ∈ l, (item_rect dims itemrect x).hi i = r.hi i)

/-- Every rectangle of the list is the tight cover of its child subtree and of
the separator of the same slot, if there is one. -/
def TightL (dims : Nat) (itemrect : α → List Int × List Int) :
    List (Node α) → List Rect → List α → Prop
  | [], _, _ => True
  | _ :: _, [], _ => False
  | c :: cs, r :: rs, items =>
    IsBox dims itemrect (flat c ++ items.head?.toList) r ∧ TightL dims itemrect cs rs items.tail

/-- The rectangles stored in the root are tight covers: a leaf root holds an
item; a branch root has one child and one rectangle more than items, and the
rectangle of every slot is the tight cover of the child subtree and the
separator of that slot. -/
def TightRoot (dims : Nat) (itemrect : α → List Int × List Int) (n : Node α) : Prop :=
  if n.isleaf then n.items ≠ []
  else n.children.length = n.items.length + 1 ∧ TightL dims itemrect n.children n.rects n.items

/-- The item rectangle of an integer item `x` in two dimensions: the point
`(x, 0)`. -/
def pointW (x : Int) : List Int × List Int := ([x, 0], [x, 0])

/-- A spatial leaf holding the given items. -/
def leafS (l : List Int) : Node Int := Node.mk l 1 true [] []

/-- The spatial tree `[10] 20 [30, 40]` of height 2 over the points `(x, 0)`,
with the tight rectangles `[10, 20] x [0, 0]` and `[30, 40] x [0, 0]`. -/
def treeS : Node Int :=
  Node.mk [20] 2 false [leafS [10], leafS [30, 40]]
    [Rect.mk [10, 0] [20, 0], Rect.mk [30, 0] [40, 0]]

end Spatial

namespace Spatial

mutual
/-- The items that `node_intersects` hands to the callback, in its order. -/
def hits (dims : Nat) (itemrect : α → List Int × List Int) (target : Rect) : Node α → List α
  | Node.mk items _ isleaf children rects =>
    if isleaf then
      items.filter (fun x => rect_intersects dims target (item_rect dims itemrect x))
    else hitsL dims itemrect target children rects items
/-- The items that the branch part of `node_intersects` hands to the callback
over the children, rectangles and separators left. -/
def hitsL (dims : Nat) (itemrect : α → List Int × List Int) (target : Rect) :
    List (Node α) → List Rect → List α → List α
  | [], _, _ => []
  | c :: _, rects, [] =>
    if rect_intersects dims target (rects.headD (Rect.mk [] [])) then
      hits dims itemrect target c
    else []
  | c :: cs, rects, x :: xs =>
    (if rect_intersects dims target (rects.headD (Rect.mk [] [])) then
      hits dims itemrect target c ++
        [x].filter (fun x => rect_intersects dims target (item_rect dims itemrect x))
     else []) ++ hitsL dims itemrect target cs rects.tail xs
end

/-- The rectangle `q` lies inside the rectangle `r`. -/
def Inside (dims : Nat) (q r : Rect) : Prop :=
  ∀ i, i < dims → r.lo i ≤ q.lo i ∧ q.hi i ≤ r.hi i

mutual
/-- The stored child rectangles cover their subtrees and slot items: every
branch has one child more than items, and the rectangle of every slot contains
the rectangle of every item of the child subtree and of the separator of that
slot, if there is one. -/
def Covered (dims : Nat) (itemrect : α → List Int × List Int) : Node α → Prop
  | Node.mk items _ isleaf children rects =>
    if isleaf then True
    else children.length = items.length + 1 ∧ CoveredL dims itemrect children rects items
/-- The cover property over a child array with its rectangles and separators. -/
def CoveredL (dims : Nat) (itemrect : α → List Int × List Int) :
    List (Node α) → List Rect → List α → Prop
  | [], _, _ => True
  | _ :: _, [], _ => False
  | c :: cs, r :: rs, items =>
    (∀ x ∈ flat c ++ items.head?.toList, Inside dims (item_rect dims itemrect x) r) ∧
      Covered dims itemrect c ∧ CoveredL dims itemrect cs rs items.tail
end

/-- The items that a cursor of kind `BGEN_INTERSECTS` still emits from a node
whose next slot is `k`. -/
def hits_after (dims : Nat) (itemrect : α → List Int × List Int) (target : Rect) (n : Node α)
    (k : Nat) : List α :=
  if n.isleaf then
    (n.items.drop k).filter (fun x => rect_intersects dims target (item_rect dims itemrect x))
  else hitsL dims itemrect target (n.children.drop k) (n.rects.drop k) (n.items.drop k)

/-- The items that a cursor of kind `BGEN_INTERSECTS` still emits from the
frames below the top of its stack: for each frame the separator of the child in
use and what follows it in the node. -/
def pending_below (dims : Nat) (itemrect : α → List Int × List Int) (target : Rect) :
    List (SNode α) → List α
  | [] => []
  | g :: rest =>
    ((g.node.items[g.index.toNat]?).toList).filter
        (fun x => rect_intersects dims target (item_rect dims itemrect x)) ++
      hits_after dims itemrect target g.node (g.index + 1).toNat ++
      pending_below dims itemrect target rest

/-- The items that a cursor of kind `BGEN_INTERSECTS` emits after the item it
stands on. -/
def pending (dims : Nat) (itemrect : α → List Int × List Int) (target : Rect) :
    List (SNode α) → List α
  | [] => []
  | f :: rest =>
    hits_after dims itemrect target f.node (f.index + 1).toNat ++
      pending_below dims itemrect target rest

/-- The frames of a cursor stack are nodes with covering rectangles; the index
of a frame is at least -1 and, in a branch, at most `len`; the frames below the
top have an index from 0 on. -/
def FramesOK (dims : Nat) (itemrect : α → List Int × List Int) (top : Bool) :
    List (SNode α) → Prop
  | [] => True
  | f :: rest =>
    Covered dims itemrect f.node ∧ (if top then -1 ≤ f.index else 0 ≤ f.index) ∧
      (f.node.isleaf = false → f.index ≤ (f.node.len : Int)) ∧
      FramesOK dims itemrect false rest

/-- A cursor stack that stands on an item: the frames are in order and the
index of the top frame is one of its item slots. -/
def Standing (dims : Nat) (itemrect : α → List Int × List Int) (stack : List (SNode α)) : Prop :=
  match stack with
  | [] => False
  | f :: rest =>
    FramesOK dims itemrect true (f :: rest) ∧ 0 ≤ f.index ∧ f.index < (f.node.len : Int)

/-- What a round of the loop of `iter_next_asc` leaves, for a cursor of kind
`BGEN_INTERSECTS`: the cursor is invalid when nothing is pending, and stands on
the first pending item otherwise. -/
def NextOut (dims : Nat) (itemrect : α → List Int × List Int) (iter out : Iter α) : Prop :=
  (pending dims itemrect iter.itarget iter.stack = [] ∧
    ∃ S, out = { iter with stack := S, valid := false }) ∨
  (∃ S x, out = { iter with stack := S } ∧ Standing dims itemrect S ∧
    iter_item { iter with stack := S } = some x ∧
    pending dims itemrect iter.itarget iter.stack = x :: pending dims itemrect iter.itarget S)

end Spatial

namespace Spatial

/-! ### The priority queue of `nearby` -/

/-- The constant `UINT64_MAX`. -/
def UINT64_MAX : Nat := 2 ^ 64 - 1

/-- The struct `BGEN_PITEM` (bgen.h 3508-3515): the distance, the index (the
push counter for a node, `UINT64_MAX` for an item) and the union of an item and
a node pointer, here with the member that was not written absent. -/
structure PItem (α : Type) where
  dist : Int
  index : Nat
  item : Option α
  node : Option (Node α)

/-- An entry read past the live entries of the queue. -/
def PItem.blank : PItem α := PItem.mk 0 0 none none

/-- The struct `BGEN_PQUEUE` (bgen.h 3517-3522): `items` holds the `len` live
entries; `index` is the 64-bit push counter. -/
structure PQueue (α : Type) where
  items : List (PItem α)
  cap : Nat
  index : Nat

/-- The function `pqueue_init` (bgen.h 3524-3529). -/
def pqueue_init : PQueue α := PQueue.mk [] 0 0

/-- The last step of `pcompare` (bgen.h 3546-3549): the comparison of the item
members.  The source asserts that both entries are items; an entry without an
item is ordered after the items here. -/
def item_compare (cmp : α → α → Int) : Option α → Option α → Int
  | some x, some y => cmp x y
  | some _, none => -1
  | none, some _ => 1
  | none, none => 0

/-- The comparison of `pcompare` on two entries (bgen.h 3532-3550). -/
def pitem_compare (cmp : α → α → Int) (a b : PItem α) : Int :=
  if (if a.dist < b.dist then (-1 : Int) else if a.dist > b.dist then 1 else 0) ≠ 0 then
    (if a.dist < b.dist then (-1 : Int) else if a.dist > b.dist then 1 else 0)
  else if (if a.index < b.index then (-1 : Int) else if a.index > b.index then 1 else 0) ≠ 0 then
    (if a.index < b.index then (-1 : Int) else if a.index > b.index then 1 else 0)
  else item_compare cmp a.item b.item

/-- The function `pcompare` (bgen.h 3532-3550) on the entries `i` and `j` of
the queue. -/
def pcompare (cmp : α → α → Int) (q : List (PItem α)) (i j : Nat) : Int :=
  pitem_compare cmp (q.getD i PItem.blank) (q.getD j PItem.blank)

/-- The function `pswap` (bgen.h 3559-3563). -/
def pswap (q : List (PItem α)) (i j : Nat) : List (PItem α) :=
  (q.set i (q.getD j PItem.blank)).set j (q.getD i PItem.blank)

/-- The function `pswap_remove` (bgen.h 3566-3571): the entry removed and the
entries left. -/
def pswap_remove (q : List (PItem α)) (i : Nat) : PItem α × List (PItem α) :=
  (q.getD i PItem.blank, (q.set i (q.getD (q.length - 1) PItem.blank)).take (q.length - 1))

/-- The loop `while (i != 0)` of `ppush0` (bgen.h 3595-3602) with a budget of
rounds. -/
def sift_up (cmp : α → α → Int) : Nat → List (PItem α) → Nat → List (PItem α)
  | 0, q, _ => q
  | fuel + 1, q, i =>
    if i = 0 then q
    else if !(decide (pcompare cmp q ((i - 1) / 2) i > 0)) then q
    else sift_up cmp fuel (pswap q ((i - 1) / 2) i) ((i - 1) / 2)

/-- The function `ppush0` (bgen.h 3574-3604) against the allocator script: the
status (0 is `NONE`), the queue and the script left. -/
def ppush0 (cmp : α → α → Int) (queue : PQueue α) (item : PItem α) (mem : List Bool) :
    Status × PQueue α × List Bool :=
  if queue.items.length = queue.cap then
    match mem with
    | false :: rest =>
      (Status.NOMEM, { queue with cap := if queue.cap = 0 then 8 else queue.cap * 2 }, rest)
    | _ :: rest =>
      (Status.NONE,
        { queue with
          cap := (if queue.cap = 0 then 8 else queue.cap * 2),
          items := (sift_up cmp (queue.items.length + 1) (queue.items ++ [item])
            queue.items.length) },
        rest)
    | [] =>
      (Status.NONE,
        { queue with
          cap := (if queue.cap = 0 then 8 else queue.cap * 2),
          items := (sift_up cmp (queue.items.length + 1) (queue.items ++ [item])
            queue.items.length) },
        [])
  else
    (Status.NONE,
      { queue with
        items := (sift_up cmp (queue.items.length + 1) (queue.items ++ [item])
          queue.items.length) },
      mem)

/-- The index `smallest` of a round of `ppop` after its two comparisons (bgen.h
3610-3622): first the left child against entry `i`, then the right child
against the smaller of the two. -/
def ppop_smallest (cmp : α → α → Int) (q : List (PItem α)) (i : Nat) : Nat :=
  if i * 2 + 2 < q.length ∧
      pcompare cmp q (i * 2 + 2)
        (if i * 2 + 1 < q.length ∧ pcompare cmp q (i * 2 + 1) i ≤ 0 then i * 2 + 1 else i) ≤ 0
  then i * 2 + 2
  else (if i * 2 + 1 < q.length ∧ pcompare cmp q (i * 2 + 1) i ≤ 0 then i * 2 + 1 else i)

/-- The loop `while (1)` of `ppop` (bgen.h 3609-3627) with a budget of rounds. -/
def sift_down (cmp : α → α → Int) : Nat → List (PItem α) → Nat → List (PItem α)
  | 0, q, _ => q
  | fuel + 1, q, i =>
    if ppop_smallest cmp q i = i then q
    else sift_down cmp fuel (pswap q (ppop_smallest cmp q i) i) (ppop_smallest cmp q i)

/-- The function `ppop` (bgen.h 3606-3629): the entry removed and the queue. -/
def ppop (cmp : α → α → Int) (queue : PQueue α) : PItem α × PQueue α :=
  ((pswap_remove queue.items 0).1,
    { queue with
      items := (sift_down cmp (queue.items.length) (pswap_remove queue.items 0).2 0) })

/-- The function `ppush_item` (bgen.h 3631-3637). -/
def ppush_item (cmp : α → α → Int) (queue : PQueue α) (item : α) (dist : Int)
    (mem : List Bool) : Status × PQueue α × List Bool :=
  ppush0 cmp { queue with index := (queue.index + 1) % 2 ^ 64 }
    (PItem.mk dist UINT64_MAX (some item) none) mem

/-- The function `ppush_node` (bgen.h 3639-3645). -/
def ppush_node (cmp : α → α → Int) (queue : PQueue α) (node : Node α) (dist : Int)
    (mem : List Bool) : Status × PQueue α × List Bool :=
  ppush0 cmp { queue with index := (queue.index + 1) % 2 ^ 64 }
    (PItem.mk dist ((queue.index + 1) % 2 ^ 64) none (some node)) mem

/-- The loop over the items of `nearby_addnodecontents` (bgen.h 3860-3867);
`dist` is the distance callback with the target. -/
def nearby_additems (cmp : α → α → Int) (dims : Nat) (itemrect : α → List Int × List Int)
    (dist : List Int → List Int → Int) :
    List α → PQueue α → List Bool → Status × PQueue α × List Bool
  | [], queue, mem => (Status.NONE, queue, mem)
  | x :: xs, queue, mem =>
    if (ppush_item cmp queue x
          (dist (item_rect dims itemrect x).min (item_rect dims itemrect x).max) mem).1
        ≠ Status.NONE then
      ppush_item cmp queue x
        (dist (item_rect dims itemrect x).min (item_rect dims itemrect x).max) mem
    else
      nearby_additems cmp dims itemrect dist xs
        (ppush_item cmp queue x
          (dist (item_rect dims itemrect x).min (item_rect dims itemrect x).max) mem).2.1
        (ppush_item cmp queue x
          (dist (item_rect dims itemrect x).min (item_rect dims itemrect x).max) mem).2.2

/-- The loop over the children of `nearby_addnodecontents` (bgen.h 3868-3881)
over the children and rectangles left. -/
def nearby_addchildren (cmp : α → α → Int) (dist : List Int → List Int → Int) (is_mut : Bool) :
    List (Node α) → List Rect → PQueue α → List Bool → Status × PQueue α × List Bool
  | [], _, queue, mem => (Status.NONE, queue, mem)
  | c :: cs, rects, queue, mem =>
    if is_mut && !cow c then (Status.NOMEM, queue, mem)
    else if (ppush_node cmp queue c
          (dist (rects.headD (Rect.mk [] [])).min (rects.headD (Rect.mk [] [])).max) mem).1
        ≠ Status.NONE then
      ppush_node cmp queue c
        (dist (rects.headD (Rect.mk [] [])).min (rects.headD (Rect.mk [] [])).max) mem
    else
      nearby_addchildren cmp dist is_mut cs rects.tail
        (ppush_node cmp queue c
          (dist (rects.headD (Rect.mk [] [])).min (rects.headD (Rect.mk [] [])).max) mem).2.1
        (ppush_node cmp queue c
          (dist (rects.headD (Rect.mk [] [])).min (rects.headD (Rect.mk [] [])).max) mem).2.2

/-- The function `nearby_addnodecontents` (bgen.h 3854-3883). -/
def nearby_addnodecontents (cmp : α → α → Int) (dims : Nat)
    (itemrect : α → List Int × List Int) (dist : List Int → List Int → Int)
    (queue : PQueue α) (node : Node α) (is_mut : Bool) (mem : List Bool) :
    Status × PQueue α × List Bool :=
  if (nearby_additems cmp dims itemrect dist node.items queue mem).1 ≠ Status.NONE then
    nearby_additems cmp dims itemrect dist node.items queue mem
  else if !node.isleaf then
    nearby_addchildren cmp dist is_mut (node.children.take (node.len + 1)) node.rects
      (nearby_additems cmp dims itemrect dist node.items queue mem).2.1
      (nearby_additems cmp dims itemrect dist node.items queue mem).2.2
  else nearby_additems cmp dims itemrect dist node.items queue mem

/-- The loop `while (queue.len > 0)` of `nearby0` (bgen.h 4425-4443) with a
budget of rounds: the status (0 is `NONE`) and the user data.  An entry whose
index says item or node but whose union holds the other member (in C: the union
read through the wrong member) ends the model with `FUEL`. -/
def nearby_loop {σ : Type} (cmp : α → α → Int) (dims : Nat)
    (itemrect : α → List Int × List Int) (dist : List Int → List Int → Int)
    (iter : α → σ → Bool × σ) (is_mut : Bool) :
    Nat → PQueue α → List Bool → σ → Status × σ
  | 0, _, _, s => (Status.FUEL, s)
  | fuel + 1, queue, mem, s =>
    if queue.items.length > 0 then
      if (ppop cmp queue).1.index = UINT64_MAX then
        match (ppop cmp queue).1.item with
        | some x =>
          if (iter x s).1 then
            nearby_loop cmp dims itemrect dist iter is_mut fuel (ppop cmp queue).2 mem (iter x s).2
          else (Status.STOPPED, (iter x s).2)
        | none => (Status.FUEL, s)
      else
        match (ppop cmp queue).1.node with
        | some n =>
          if (nearby_addnodecontents cmp dims itemrect dist (ppop cmp queue).2 n is_mut mem).1
              ≠ Status.NONE then
            ((nearby_addnodecontents cmp dims itemrect dist (ppop cmp queue).2 n is_mut mem).1, s)
          else
            nearby_loop cmp dims itemrect dist iter is_mut fuel
              (nearby_addnodecontents cmp dims itemrect dist (ppop cmp queue).2 n is_mut mem).2.1
              (nearby_addnodecontents cmp dims itemrect dist (ppop cmp queue).2 n is_mut mem).2.2
              s
        | none => (Status.FUEL, s)
    else (Status.NONE, s)

mutual
/-- The queue entries that the contents of a node give rise to: its items and,
in a branch, its children with their contents. -/
def entries : Node α → Nat
  | Node.mk items _ isleaf children _ =>
    items.length + (if isleaf then 0 else entriesL children)
/-- The entries of a child array. -/
def entriesL : List (Node α) → Nat
  | [] => 0
  | c :: cs => 1 + entries c + entriesL cs
end

/-- The function `nearby0` (bgen.h 4404-4452) with `BGEN_SPATIAL`: the status
and the user data.  The budget of its loop is one round per entry of the tree
and one to find the queue empty. -/
def nearby0 {σ : Type} (cmp : α → α → Int) (dims : Nat) (itemrect : α → List Int × List Int)
    (root : Option (Node α)) (dist : List Int → List Int → Int) (iter : α → σ → Bool × σ)
    (s : σ) (is_mut : Bool) (mem : List Bool) : Status × σ :=
  match root with
  | none => (Status.FINISHED, s)
  | some r =>
    if is_mut && !cow r then (Status.NOMEM, s)
    else if (nearby_addnodecontents cmp dims itemrect dist pqueue_init r is_mut mem).1
        ≠ Status.NONE then
      ((nearby_addnodecontents cmp dims itemrect dist pqueue_init r is_mut mem).1, s)
    else if (nearby_loop cmp dims itemrect dist iter is_mut (entries r + 1)
        (nearby_addnodecontents cmp dims itemrect dist pqueue_init r is_mut mem).2.1
        (nearby_addnodecontents cmp dims itemrect dist pqueue_init r is_mut mem).2.2 s).1
        = Status.NONE then
      (Status.FINISHED, (nearby_loop cmp dims itemrect dist iter is_mut (entries r + 1)
        (nearby_addnodecontents cmp dims itemrect dist pqueue_init r is_mut mem).2.1
        (nearby_addnodecontents cmp dims itemrect dist pqueue_init r is_mut mem).2.2 s).2)
    else
      nearby_loop cmp dims itemrect dist iter is_mut (entries r + 1)
        (nearby_addnodecontents cmp dims itemrect dist pqueue_init r is_mut mem).2.1
        (nearby_addnodecontents cmp dims itemrect dist pqueue_init r is_mut mem).2.2 s

/-- The function `nearby` (bgen.h 4468-4474). -/
def nearby {σ : Type} (cmp : α → α → Int) (dims : Nat) (itemrect : α → List Int × List Int)
    (root : Option (Node α)) (dist : List Int → List Int → Int) (iter : α → σ → Bool × σ)
    (s : σ) (mem : List Bool) : Status × σ :=
  nearby0 cmp dims itemrect root dist iter s false mem

/-- The function `nearby_mut` (bgen.h 4476-4482). -/
def nearby_mut {σ : Type} (cmp : α → α → Int) (dims : Nat) (itemrect : α → List Int × List Int)
    (root : Option (Node α)) (dist : List Int → List Int → Int) (iter : α → σ → Bool × σ)
    (s : σ) (mem : List Bool) : Status × σ :=
  nearby0 cmp dims itemrect root dist iter s true mem

end Spatial

namespace Spatial

/-- The order of the queue: the first entry does not come after the second. -/
def PLe (cmp : α → α → Int) (a b : PItem α) : Prop := pitem_compare cmp a b ≤ 0

/-- The read `queue->items[i]`. -/
def pget (q : List (PItem α)) (i : Nat) : PItem α := q.getD i PItem.blank

/-- The binary-heap property of the entry array: no entry comes before its
parent. -/
def IsHeap (cmp : α → α → Int) (q : List (PItem α)) : Prop :=
  ∀ j, 0 < j → j < q.length → PLe cmp (pget q ((j - 1) / 2)) (pget q j)

/-- The heap property but at entry `i`, which may come before its parent; the
children of `i` do not come before the parent of `i`. -/
def UpInv (cmp : α → α → Int) (q : List (PItem α)) (i : Nat) : Prop :=
  (∀ j, 0 < j → j < q.length → j ≠ i → PLe cmp (pget q ((j - 1) / 2)) (pget q j)) ∧
  (∀ j, 0 < j → j < q.length → (j - 1) / 2 = i → 0 < i →
    PLe cmp (pget q ((i - 1) / 2)) (pget q j))

/-- The heap property but at the children of entry `i`, which may come before
it; they do not come before the parent of `i`. -/
def DownInv (cmp : α → α → Int) (q : List (PItem α)) (i : Nat) : Prop :=
  (∀ j, 0 < j → j < q.length → (j - 1) / 2 ≠ i → PLe cmp (pget q ((j - 1) / 2)) (pget q j)) ∧
  (∀ j, 0 < j → j < q.length → (j - 1) / 2 = i → 0 < i →
    PLe cmp (pget q ((i - 1) / 2)) (pget q j))

end Spatial

namespace Spatial

/-- The distance of an item: the distance callback on its rectangle. -/
def item_dist (dims : Nat) (itemrect : α → List Int × List Int)
    (dist : List Int → List Int → Int) (x : α) : Int :=
  dist (item_rect dims itemrect x).min (item_rect dims itemrect x).max

/-- The order of the output of `nearby`: by distance, and by the comparator
among items at one distance. -/
def KeyLe (cmp : α → α → Int) (dims : Nat) (itemrect : α → List Int × List Int)
    (dist : List Int → List Int → Int) (x y : α) : Prop :=
  item_dist dims itemrect dist x < item_dist dims itemrect dist y ∨
    (item_dist dims itemrect dist x = item_dist dims itemrect dist y ∧ cmp x y ≤ 0)

mutual
/-- The distance function never gives a stored child rectangle a larger
distance than an item it covers (an item of the child subtree or the separator
of the slot); every branch has one child more than items. -/
def DistCovered (dims : Nat) (itemrect : α → List Int × List Int)
    (dist : List Int → List Int → Int) : Node α → Prop
  | Node.mk items _ isleaf children rects =>
    if isleaf then True
    else children.length = items.length + 1 ∧
      DistCoveredL dims itemrect dist children rects items
/-- The property over a child array with its rectangles and separators. -/
def DistCoveredL (dims : Nat) (itemrect : α → List Int × List Int)
    (dist : List Int → List Int → Int) : List (Node α) → List Rect → List α → Prop
  | [], _, _ => True
  | _ :: _, [], _ => False
  | c :: cs, r :: rs, items =>
    (∀ x ∈ flat c ++ items.head?.toList, dist r.min r.max ≤ item_dist dims itemrect dist x) ∧
      DistCovered dims itemrect dist c ∧ DistCoveredL dims itemrect dist cs rs items.tail
end

/-- The items of the subtrees of a child array. -/
def flats : List (Node α) → List α
  | [] => []
  | c :: cs => flat c ++ flats cs

/-- The items that a queue entry stands for: the item of an item entry, the
subtree of a node entry. -/
def entry_items (e : PItem α) : List α :=
  e.item.toList ++
    (match e.node with
      | some n => flat n
      | none => [])

/-- The items that the entries of a queue stand for. -/
def queue_items : List (PItem α) → List α
  | [] => []
  | e :: q => entry_items e ++ queue_items q

/-- The entries that a queue entry still gives rise to. -/
def entry_pend (e : PItem α) : Nat :=
  match e.node with
  | some n => entries n
  | none => 0

/-- The entries that the entries of a queue still give rise to. -/
def queue_pend : List (PItem α) → Nat
  | [] => 0
  | e :: q => entry_pend e + queue_pend q

/-- A queue entry as `ppush_item` and `ppush_node` make it: an item with its
distance and the index `UINT64_MAX`, or a node with a smaller index and a
distance that is at most the distance of every item below it. -/
def EntryOK (dims : Nat) (itemrect : α → List Int × List Int)
    (dist : List Int → List Int → Int) (e : PItem α) : Prop :=
  (e.index = UINT64_MAX ∧ e.node = none ∧
    ∃ x, e.item = some x ∧ e.dist = item_dist dims itemrect dist x) ∨
  (e.index < UINT64_MAX ∧ e.item = none ∧
    ∃ n, e.node = some n ∧ DistCovered dims itemrect dist n ∧
      ∀ x ∈ flat n, e.dist ≤ item_dist dims itemrect dist x)

/-- The distance of a point item `(x, 0)` to the point `(25, 0)`, squared, as
the distance of its rectangle `[min, max]` along the first axis. -/
def distW (min max : List Int) : Int :=
  if min.getD 0 0 > 25 then (min.getD 0 0 - 25) * (min.getD 0 0 - 25)
  else if max.getD 0 0 < 25 then (25 - max.getD 0 0) * (25 - max.getD 0 0)
  else 0

end Spatial

/-! ### The height bound `BGEN_MAXHEIGHT` -/

/-- The function `compare` of a build with `BGEN_LESS` (bgen.h 361-365). -/
def compare_of_less (less : α → α → Bool) (a b : α) : Int :=
  if less a b then -1 else if less b a then 1 else 0

/-- The loop of `search_bsearch` (bgen.h 879-891) from the bounds `i` and `n`
with a budget of rounds; a budget of `n - i` rounds is used up only when
`i < n` no longer holds.  A read past the live items (never made: `j < n`)
ends the loop. -/
def search_bsearch_loop (cmp : α → α → Int) (items : List α) (key : α) :
    Nat → Nat → Nat → Nat × Bool
  | 0, i, _ => (i, false)
  | fuel + 1, i, n =>
    if i < n then
      match items[(i + n) / 2]? with
      | none => (i, false)
      | some x =>
        if cmp key x < 0 then search_bsearch_loop cmp items key fuel i ((i + n) / 2)
        else if cmp key x > 0 then search_bsearch_loop cmp items key fuel ((i + n) / 2 + 1) n
        else ((i + n) / 2, true)
    else (i, false)

/-- The function `search_bsearch` (bgen.h 874-894). -/
def search_bsearch (cmp : α → α → Int) (items : List α) (key : α) : Nat × Bool :=
  search_bsearch_loop cmp items key items.length 0 items.length

/-- The loop of `search_linear` for `BGEN_LESS` (bgen.h 910-922). -/
def search_linear_less (less : α → α → Bool) : List α → α → Nat × Bool
  | [], _ => (0, false)
  | x :: xs, key =>
    if less key x then (0, false)
    else if !less x key then (0, true)
    else ((search_linear_less less xs key).1 + 1, (search_linear_less less xs key).2)

/-- The first loop of `search_linear` under `BGEN_MAYBELESSEQUAL` (bgen.h
903-909): the number of leading items that the filter turns away. -/
def skip_maybelessequal (mle : α → α → Bool) : List α → α → Nat
  | [], _ => 0
  | x :: xs, key => if mle key x then 0 else skip_maybelessequal mle xs key + 1

/-- The function `search_linear` under `BGEN_MAYBELESSEQUAL` (bgen.h 897-936):
the first loop jumps into the comparing loop `second` at the first item that
the filter lets pass. -/
def search_linear_mle (second : List α → α → Nat × Bool) (mle : α → α → Bool)
    (items : List α) (key : α) : Nat × Bool :=
  ((second (items.drop (skip_maybelessequal mle items key)) key).1 +
      skip_maybelessequal mle items key,
    (second (items.drop (skip_maybelessequal mle items key)) key).2)

/-- The label `okhint` of `search` (bgen.h 1003-1005): the index is stored in
the hint of this depth as a `uint8_t`. -/
def okhint (ghint : List Nat) (depth : Nat) (r : Nat × Bool) : (Nat × Bool) × List Nat :=
  (r, ghint.set depth (r.1 % 256))

/-- The clamped hint of `search` (bgen.h 955-958): `j = ghint[depth]`, and
`j = len - 1` when it is not below `len`. -/
def hint_at (ghint : List Nat) (depth len : Nat) : Nat :=
  if ghint.getD depth 0 ≥ len then len - 1 else ghint.getD depth 0

/-- The body of `search` under `BGEN_PATHHINT` from the clamped hint `j` on
(bgen.h 959-1006): the result and the hint array afterwards.  `inner` is
`search_bsearch` or `search_linear`, run on `nitems` items from `items + i`.
On a node without items (the C code then reads `items[-1]`) the model answers
`(0, false)`. -/
def search_from_hint (inner : List α → α → Nat × Bool) (cmp : α → α → Int) (node : Node α)
    (key : α) (ghint : List Nat) (depth j : Nat) : (Nat × Bool) × List Nat :=
  match node.items[j]? with
  | none => ((0, false), ghint)
  | some x =>
    if cmp key x = 0 then ((j, true), ghint)
    else if cmp key x < 0 then
      if j = 0 then ((0, false), ghint)
      else
        match node.items[j - 1]? with
        | none => ((0, false), ghint)
        | some y =>
          if cmp y key = 0 then ((j - 1, true), ghint)
          else if cmp y key < 0 then ((j, false), ghint)
          else okhint ghint depth (inner (node.items.take j) key)
    else
      if j = node.len - 1 then okhint ghint depth (node.len, false)
      else
        match node.items[j + 1]? with
        | none => ((0, false), ghint)
        | some z =>
          if cmp key z = 0 then okhint ghint depth (j + 1, true)
          else if cmp key z < 0 then okhint ghint depth (j + 1, false)
          else
            okhint ghint depth
              (j + (inner (node.items.drop j) key).1, (inner (node.items.drop j) key).2)

/-- The function `search` under `BGEN_PATHHINT` (bgen.h 950-1006). -/
def search_hint (inner : List α → α → Nat × Bool) (cmp : α → α → Int) (node : Node α)
    (key : α) (ghint : List Nat) (depth : Nat) : (Nat × Bool) × List Nat :=
  search_from_hint inner cmp node key ghint depth (hint_at ghint depth node.len)

/-- The parent `[20]` over the leaves `[10]` and `[30, 40, 50]` (fanout 4: the
right leaf is full). -/
def treeGive : Node Int := Node.mk [20] 2 false [leafW [10], leafW [30, 40, 50]] [1, 3]

/-! ### The cursor of a spatial build with its queue

The struct `BGEN_ITER` keeps the fields of the kind `BGEN_NEARBY` (distance
function, queue, current item) and the fields of the other kinds (target
rectangle, stack) in one union.  Here they are separate fields: a write to one
member does not change the other.  The target of `iter_nearby` is the closure
argument of the distance function. -/

namespace Nearby
open Spatial

/-- The struct `BGEN_ITER` (bgen.h 3663-3688) of a spatial build: the fields of
`Spatial.Iter`, the distance function, the queue and the current item of the
kind `BGEN_NEARBY`.  `mem` is the allocator script left for the pushes of the
queue. -/
structure Iter (α : Type) extends Spatial.Iter α where
  dist : List Int → List Int → Int
  queue : PQueue α
  nitem : Option α
  mem : List Bool

/-- The function `iter_init` (bgen.h 3690-3696); the fields that C leaves
uninitialised start as zeros. -/
def iter_init (root : Option (Spatial.Node α)) (mem : List Bool) : Iter α :=
  Iter.mk (Spatial.iter_init root) (fun _ _ => 0) pqueue_init none mem

/-- The function `iter_init_mut` (bgen.h 3698-3703). -/
def iter_init_mut (root : Option (Spatial.Node α)) (mem : List Bool) : Iter α :=
  Iter.mk (Spatial.iter_init_mut root) (fun _ _ => 0) pqueue_init none mem

/-- The function `pclear` (bgen.h 3554-3559). -/
def pclear (_queue : PQueue α) : PQueue α := pqueue_init

/-- The function `iter_reset` (bgen.h 3705-3723): the queue is cleared when the
cursor leaves the kind `BGEN_NEARBY`, initialised when it enters it, and left
as it is otherwise. -/
def iter_reset (iter : Iter α) (kind : Kind) : Iter α :=
  { iter with
    valid := true, status := Status.NONE,
    queue := (if iter.kind = Kind.NEARBY ∧ kind ≠ Kind.NEARBY then pclear iter.queue
      else if iter.kind ≠ Kind.NEARBY ∧ kind = Kind.NEARBY then pqueue_init
      else iter.queue),
    stack := [], kind := kind }

/-- The function `iter_release` (bgen.h 3726-3733). -/
def iter_release (iter : Iter α) : Iter α :=
  if iter.kind = Kind.NEARBY then { iter with queue := pclear iter.queue } else iter

/-- The function `iter_valid` (bgen.h 3735-3737). -/
def iter_valid (iter : Iter α) : Bool := iter.valid

/-- The function `iter_status` (bgen.h 3739-3741). -/
def iter_status (iter : Iter α) : Status := iter.status

/-- The loop of `iter_next_nearby` (bgen.h 3886-3907) with a budget of rounds.
An entry whose index says item or node but whose union holds the other member
ends the model with `FUEL`, as an exhausted budget does. -/
def iter_next_nearby_loop (cmp : α → α → Int) (dims : Nat)
    (itemrect : α → List Int × List Int) : Nat → Iter α → Iter α
  | 0, iter => { iter with valid := false, status := Status.FUEL }
  | fuel + 1, iter =>
    if iter.queue.items.length > 0 then
      if (ppop cmp iter.queue).1.index = UINT64_MAX then
        { iter with queue := (ppop cmp iter.queue).2, nitem := (ppop cmp iter.queue).1.item }
      else
        match (ppop cmp iter.queue).1.node with
        | some n =>
          if (nearby_addnodecontents cmp dims itemrect iter.dist (ppop cmp iter.queue).2 n
              iter.is_mut iter.mem).1 ≠ Status.NONE then
            { iter with
              queue := (nearby_addnodecontents cmp dims itemrect iter.dist (ppop cmp iter.queue).2
                n iter.is_mut iter.mem).2.1,
              mem := (nearby_addnodecontents cmp dims itemrect iter.dist (ppop cmp iter.queue).2
                n iter.is_mut iter.mem).2.2,
              valid := false,
              status := (nearby_addnodecontents cmp dims itemrect iter.dist
                (ppop cmp iter.queue).2 n iter.is_mut iter.mem).1 }
          else
            iter_next_nearby_loop cmp dims itemrect fuel
              { iter with
                queue := (nearby_addnodecontents cmp dims itemrect iter.dist
                  (ppop cmp iter.queue).2 n iter.is_mut iter.mem).2.1,
                mem := (nearby_addnodecontents cmp dims itemrect iter.dist
                  (ppop cmp iter.queue).2 n iter.is_mut iter.mem).2.2 }
        | none => { iter with valid := false, status := Status.FUEL }
    else { iter with valid := false }

/-- The function `iter_next_nearby` (bgen.h 3886-3907): one round per entry of
the queue and per entry that the nodes in it still give rise to, and one to find
the queue empty. -/
def iter_next_nearby (cmp : α → α → Int) (dims : Nat) (itemrect : α → List Int × List Int)
    (iter : Iter α) : Iter α :=
  iter_next_nearby_loop cmp dims itemrect
    (iter.queue.items.length + queue_pend iter.queue.items + 1) iter

/-- The function `iter_nearby` (bgen.h 4190-4223) with `BGEN_SPATIAL`. -/
def iter_nearby (cmp : α → α → Int) (dims : Nat) (itemrect : α → List Int × List Int)
    (iter : Iter α) (dist : List Int → List Int → Int) : Iter α :=
  match iter.root with
  | none => { iter_reset iter Kind.NEARBY with dist := dist, valid := false }
  | some r =>
    if iter.is_mut && !Spatial.cow r then
      { iter_reset iter Kind.NEARBY with dist := dist, status := Status.NOMEM, valid := false }
    else if (nearby_addnodecontents cmp dims itemrect dist (iter_reset iter Kind.NEARBY).queue r
        iter.is_mut iter.mem).1 ≠ Status.NONE then
      { iter_reset iter Kind.NEARBY with
        dist := dist,
        queue := (nearby_addnodecontents cmp dims itemrect dist
          (iter_reset iter Kind.NEARBY).queue r iter.is_mut iter.mem).2.1,
        mem := (nearby_addnodecontents cmp dims itemrect dist
          (iter_reset iter Kind.NEARBY).queue r iter.is_mut iter.mem).2.2,
        status := (nearby_addnodecontents cmp dims itemrect dist
          (iter_reset iter Kind.NEARBY).queue r iter.is_mut iter.mem).1,
        valid := false }
    else
      iter_next_nearby cmp dims itemrect
        { iter_reset iter Kind.NEARBY with
          dist := dist,
          queue := (nearby_addnodecontents cmp dims itemrect dist
            (iter_reset iter Kind.NEARBY).queue r iter.is_mut iter.mem).2.1,
          mem := (nearby_addnodecontents cmp dims itemrect dist
            (iter_reset iter Kind.NEARBY).queue r iter.is_mut iter.mem).2.2 }

/-- The function `iter_intersects` (bgen.h 4164-4187) with `BGEN_SPATIAL`. -/
def iter_intersects (dims : Nat) (itemrect : α → List Int × List Int) (iter : Iter α)
    (min max : List Int) : Iter α :=
  match iter.root with
  | none =>
    { iter_reset iter Kind.INTERSECTS with itarget := target_rect dims min max, valid := false }
  | some r =>
    if iter.is_mut && !Spatial.cow r then
      { iter_reset iter Kind.INTERSECTS with
        itarget := (target_rect dims min max), status := Status.NOMEM, valid := false }
    else
      { iter_reset iter Kind.INTERSECTS with
        toIter :=
          { (iter_intersects_first dims itemrect
              { (iter_reset iter Kind.INTERSECTS).toIter with
                itarget := target_rect dims min max } r).2 with
            valid := ((iter_intersects_first dims itemrect
              { (iter_reset iter Kind.INTERSECTS).toIter with
                itarget := target_rect dims min max } r).1) } }

/-- The function `iter_item` (bgen.h 4227-4236) with `BGEN_SPATIAL`. -/
def iter_item (iter : Iter α) : Option α :=
  if iter.kind = Kind.NEARBY then iter.nitem else Spatial.iter_item iter.toIter

/-- The function `iter_next` (bgen.h 3914-3937) with `BGEN_SPATIAL`; the kinds
that use the stack run on the fields of `Spatial.Iter`. -/
def iter_next (cmp : α → α → Int) (dims : Nat) (itemrect : α → List Int × List Int)
    (iter : Iter α) : Iter α :=
  if iter.kind = Kind.NEARBY then iter_next_nearby cmp dims itemrect iter
  else { iter with toIter := Spatial.iter_next dims itemrect iter.toIter }

/-- The loop of a client of the cursor: while `iter_valid`, read `iter_item`,
call back, `iter_next`; `none` when the budget of rounds is exhausted. -/
def cursor_loop {σ : Type} (cmp : α → α → Int) (dims : Nat)
    (itemrect : α → List Int × List Int) (f : α → σ → Bool × σ) :
    Nat → Iter α → σ → Option (Bool × σ)
  | 0, _, _ => none
  | fuel + 1, iter, s =>
    if iter_valid iter then
      match iter_item iter with
      | none => none
      | some x =>
        if (f x s).1 then
          cursor_loop cmp dims itemrect f fuel (iter_next cmp dims itemrect iter) (f x s).2
        else some (false, (f x s).2)
    else some (true, s)

/-- The items a client reads off the cursor. -/
def cursor_items (cmp : α → α → Int) (dims : Nat) (itemrect : α → List Int × List Int)
    (fuel : Nat) (iter : Iter α) : Option (Bool × List α) :=
  cursor_loop cmp dims itemrect (fun y (acc : List α) => (true, acc ++ [y])) fuel iter []

end Nearby

/-! ### The build with `BGEN_COW`: nodes in a heap, reference counts

With `BGEN_COW` (and `BGEN_COUNTED`) a node carries the counter `rc` of the
owners it has beyond the first, and a child may belong to several parents.  The
nodes live in a heap here: an address is a position of the list, a child is an
address.  The callback of a traversal also receives the heap and the address of
the node that holds the item (two arguments of the model only), so that a
theorem can speak about the moment of the call. -/

namespace Cow

/-- The struct `BGEN_NODE` (bgen.h 490-507) with `rc` and `counts`; `children`
holds addresses. -/
structure HNode (α : Type) where
  items : List α
  rc : Int
  height : Nat
  isleaf : Bool
  children : List Nat
  counts : List Nat

/-- The field `len`. -/
def HNode.len (n : HNode α) : Nat := n.items.length

/-- The heap: the block at every address, `none` once it is freed. -/
abbrev Heap (α : Type) := List (Option (HNode α))

/-- The read of the node at an address; a freed or unknown address (in C: a
dangling pointer) reads as an empty leaf. -/
def node_at (h : Heap α) (p : Nat) : HNode α :=
  (h.getD p none).getD (HNode.mk [] 0 0 true [] [])

/-- The write of a node at an address. -/
def store (h : Heap α) (p : Nat) (n : HNode α) : Heap α := h.set p (some n)

/-- The function `alloc_node` (bgen.h 589-603) against the allocator script: the
new address is the next free position. -/
def alloc_node (isleaf : Bool) (h : Heap α) (mem : List Bool) :
    Option Nat × Heap α × List Bool :=
  match mem with
  | false :: rest => (none, h, rest)
  | _ :: rest => (some h.length, h ++ [some (HNode.mk [] 0 0 isleaf [] [])], rest)
  | [] => (some h.length, h ++ [some (HNode.mk [] 0 0 isleaf [] [])], [])

/-- The function `rc_load` (bgen.h 458-460). -/
def rc_load (h : Heap α) (p : Nat) : Int := (node_at h p).rc

/-- The function `rc_fetch_add` (bgen.h 466-470): the old value and the heap. -/
def rc_fetch_add (h : Heap α) (p : Nat) (delta : Int) : Int × Heap α :=
  ((node_at h p).rc, store h p { node_at h p with rc := (node_at h p).rc + delta })

/-- The function `rc_fetch_sub` (bgen.h 461-465): the old value and the heap. -/
def rc_fetch_sub (h : Heap α) (p : Nat) (delta : Int) : Int × Heap α :=
  ((node_at h p).rc, store h p { node_at h p with rc := (node_at h p).rc - delta })

/-- The function `shared` (bgen.h 1169-1176). -/
def shared (h : Heap α) (p : Nat) : Bool := decide (rc_load h p > 0)

/-- The loop `rc_fetch_add(&node2->children[i]->rc, 1)` of `node_copy` (bgen.h
1126-1130) over the children left. -/
def share_children (h : Heap α) : List Nat → Heap α
  | [] => h
  | c :: cs => share_children (rc_fetch_add h c 1).2 cs

/-- The function `node_copy` (bgen.h 1104-1166) for `deep = false`, the call
that `cow` makes, without `BGEN_ITEMCOPY`: the address of the copy (`none` when
the allocation fails), the heap and the allocator script left. -/
def node_copy (h : Heap α) (p : Nat) (mem : List Bool) : Option Nat × Heap α × List Bool :=
  match alloc_node (node_at h p).isleaf h mem with
  | (none, h1, mem1) => (none, h1, mem1)
  | (some q, h1, mem1) =>
    if (node_at h p).isleaf then
      (some q,
        store h1 q (HNode.mk (node_at h p).items 0 (node_at h p).height true [] []), mem1)
    else
      (some q,
        store (share_children h1 ((node_at h p).children.take ((node_at h p).len + 1))) q
          (HNode.mk (node_at h p).items 0 (node_at h p).height false
            ((node_at h p).children.take ((node_at h p).len + 1))
            ((node_at h p).counts.take ((node_at h p).len + 1))),
        mem1)

/-- The function `free` (bgen.h 847-862) with a budget of nested calls. -/
def free : Nat → Heap α → Nat → Heap α
  | 0, h, _ => h
  | fuel + 1, h, p =>
    if (rc_fetch_sub h p 1).1 > 0 then (rc_fetch_sub h p 1).2
    else if (node_at h p).isleaf then ((rc_fetch_sub h p 1).2).set p none
    else
      (((node_at h p).children.take ((node_at h p).len + 1)).foldl
        (fun acc c => free fuel acc c) (rc_fetch_sub h p 1).2).set p none

/-- The function `cow` (bgen.h 1180-1194) on a pointer that holds the address
`p`: whether it succeeded, the address the pointer holds afterwards, the heap
and the allocator script left. -/
def cow (h : Heap α) (p : Nat) (mem : List Bool) : Bool × Nat × Heap α × List Bool :=
  if shared h p then
    match node_copy h p mem with
    | (none, h1, mem1) => (false, p, h1, mem1)
    | (some q, h1, mem1) => (true, q, free (h1.length + 1) h1 p, mem1)
  else (true, p, h, mem)

/-- The call `cow(&node->children[i])` for the node at the address `p`: the
pointer is the slot `i` of its child array. -/
def cow_child (h : Heap α) (p i : Nat) (mem : List Bool) : Bool × Heap α × List Bool :=
  match cow h ((node_at h p).children.getD i 0) mem with
  | (ok, q, h1, mem1) =>
    (ok, store h1 p { node_at h1 p with children := (node_at h1 p).children.set i q }, mem1)

/-- The function `clone` (bgen.h 3486-3498) with `BGEN_COW`: the new handle and
the heap. -/
def clone (h : Heap α) (root : Option Nat) : Option Nat × Heap α :=
  match root with
  | none => (none, h)
  | some r => (some r, (rc_fetch_add h r 1).2)

/-- The function `node_count` (bgen.h 839-845) with `BGEN_COUNTED`. -/
def node_count (n : HNode α) (i : Nat) : Nat := n.counts.getD i 0

/-- The loop `for (i = len-1; i >= 0; i--)` over the items of a leaf (bgen.h
1282-1286, 1593-1604): the first `k` items, last first. -/
def leaf_desc {σ : Type} (iter : Heap α → Nat → α → σ → Bool × σ) (h : Heap α) (p : Nat)
    (items : List α) : Nat → σ → Bool × σ
  | 0, s => (true, s)
  | k + 1, s =>
    match items[k]? with
    | none => leaf_desc iter h p items k s
    | some x =>
      if (iter h p x s).1 then leaf_desc iter h p items k (iter h p x s).2
      else (false, (iter h p x s).2)

/-- The loop `for (i = len-1; i >= 0; i--)` of `node_scan_desc` on a branch
(bgen.h 1292-1299) from slot `k - 1` down; `below` is the nested call on a
child.  `none` stands for an exhausted budget. -/
def branch_desc {σ : Type} (iter : Heap α → Nat → α → σ → Bool × σ) (h : Heap α) (p : Nat)
    (below : Nat → σ → Option (Bool × σ)) : Nat → σ → Option (Bool × σ)
  | 0, s => some (true, s)
  | k + 1, s =>
    match (node_at h p).items[k]? with
    | none => none
    | some x =>
      if (iter h p x s).1 then
        match below ((node_at h p).children.getD k 0) (iter h p x s).2 with
        | some (true, s1) => branch_desc iter h p below k s1
        | r => r
      else some (false, (iter h p x s).2)

/-- The function `node_scan_desc` (bgen.h 1278-1301) with a budget of nested
calls; `none` stands for an exhausted budget. -/
def node_scan_desc {σ : Type} (iter : Heap α → Nat → α → σ → Bool × σ) (h : Heap α) :
    Nat → Nat → σ → Option (Bool × σ)
  | 0, _, _ => none
  | fuel + 1, p, s =>
    if (node_at h p).isleaf then
      some (leaf_desc iter h p (node_at h p).items (node_at h p).len s)
    else
      match node_scan_desc iter h fuel ((node_at h p).children.getD (node_at h p).len 0) s with
      | some (true, s1) =>
        branch_desc iter h p (node_scan_desc iter h fuel) (node_at h p).len s1
      | r => r

/-- What a traversal that may copy nodes leaves behind: whether it ran to the
end, the user data, the heap, the allocator script and the value of `*status`
(`FUEL` for an exhausted budget of the model). -/
structure MutRes (α σ : Type) where
  ok : Bool
  udata : σ
  heap : Heap α
  mem : List Bool
  status : Status

/-- The loop `for (i = len-1; i >= 0; i--)` of `node_scan_desc_mut` on a branch
(bgen.h 1337-1349) from slot `k - 1` down; `below` is the nested call on a
child. -/
def branch_desc_mut {σ : Type} (iter : Heap α → Nat → α → σ → Bool × σ) (p : Nat)
    (below : Heap α → List Bool → Nat → σ → Status → MutRes α σ) :
    Nat → Heap α → List Bool → σ → Status → MutRes α σ
  | 0, h, mem, s, st => MutRes.mk true s h mem st
  | k + 1, h, mem, s, st =>
    match (node_at h p).items[k]? with
    | none => MutRes.mk false s h mem Status.FUEL
    | some x =>
      match iter h p x s with
      | (false, s1) => MutRes.mk false s1 h mem st
      | (true, s1) =>
        match cow_child h p k mem with
        | (false, h1, mem1) => MutRes.mk false s1 h1 mem1 Status.NOMEM
        | (true, h1, mem1) =>
          match below h1 mem1 ((node_at h1 p).children.getD k 0) s1 st with
          | MutRes.mk true s2 h2 mem2 st2 => branch_desc_mut iter p below k h2 mem2 s2 st2
          | r => r

/-- The function `node_scan_desc_mut` (bgen.h 1315-1350) with a budget of nested
calls. -/
def node_scan_desc_mut {σ : Type} (iter : Heap α → Nat → α → σ → Bool × σ) :
    Nat → Heap α → List Bool → Nat → σ → Status → MutRes α σ
  | 0, h, mem, _, s, _ => MutRes.mk false s h mem Status.FUEL
  | fuel + 1, h, mem, p, s, st =>
    if (node_at h p).isleaf then
      MutRes.mk (leaf_desc iter h p (node_at h p).items (node_at h p).len s).1
        (leaf_desc iter h p (node_at h p).items (node_at h p).len s).2 h mem st
    else
      match cow_child h p (node_at h p).len mem with
      | (false, h1, mem1) => MutRes.mk false s h1 mem1 Status.NOMEM
      | (true, h1, mem1) =>
        match node_scan_desc_mut iter fuel h1 mem1
            ((node_at h1 p).children.getD (node_at h p).len 0) s st with
        | MutRes.mk true s2 h2 mem2 st2 =>
          branch_desc_mut iter p (node_scan_desc_mut iter fuel) (node_at h p).len h2 mem2 s2 st2
        | r => r

/-- The function `scan_desc_mut` (bgen.h 1352-1366): the status, the user data,
the root handle, the heap and the allocator script left. -/
def scan_desc_mut {σ : Type} (h : Heap α) (root : Option Nat)
    (iter : Heap α → Nat → α → σ → Bool × σ) (s : σ) (mem : List Bool) :
    Status × σ × Option Nat × Heap α × List Bool :=
  match root with
  | none => (Status.FINISHED, s, none, h, mem)
  | some r =>
    match cow h r mem with
    | (false, _, h1, mem1) => (Status.NOMEM, s, some r, h1, mem1)
    | (true, r1, h1, mem1) =>
      match node_scan_desc_mut iter (h1.length + 1) h1 mem1 r1 s Status.FINISHED with
      | MutRes.mk ok s2 h2 mem2 st2 =>
        (if !ok && st2 = Status.FINISHED then Status.STOPPED else st2, s2, some r1, h2, mem2)

/-- The loop of `node_seek_at_desc_mut` that finds the slot of an index (bgen.h
1606-1615) from slot `i` on: `(i, found, index)`. -/
def seek_walk (n : HNode α) : Nat → Nat → Nat → Nat × Bool × Nat
  | 0, i, index => (i, false, index)
  | k + 1, i, index =>
    if index ≤ node_count n i then (i, decide (index = node_count n i), index)
    else seek_walk n k (i + 1) (index - (node_count n i + 1))

/-- The loop `for (; i >= 0; i--)` at the end of `node_seek_at_desc_mut` (bgen.h
1628-1641) from slot `k - 1` down: the item, `cow` on the child, and
`node_scan_desc` on it. -/
def seek_at_desc_rest {σ : Type} (iter : Heap α → Nat → α → σ → Bool × σ) (p fuel : Nat) :
    Nat → Heap α → List Bool → σ → Status → MutRes α σ
  | 0, h, mem, s, st => MutRes.mk true s h mem st
  | k + 1, h, mem, s, st =>
    match (node_at h p).items[k]? with
    | none => MutRes.mk false s h mem Status.FUEL
    | some x =>
      match iter h p x s with
      | (false, s1) => MutRes.mk false s1 h mem st
      | (true, s1) =>
        match cow_child h p k mem with
        | (false, h1, mem1) => MutRes.mk false s1 h1 mem1 Status.NOMEM
        | (true, h1, mem1) =>
          match node_scan_desc iter h1 fuel ((node_at h1 p).children.getD k 0) s1 with
          | none => MutRes.mk false s1 h1 mem1 Status.FUEL
          | some (false, s2) => MutRes.mk false s2 h1 mem1 st
          | some (true, s2) => seek_at_desc_rest iter p fuel k h1 mem1 s2 st

/-- The function `node_seek_at_desc_mut` (bgen.h 1589-1643) with a budget of
nested calls. -/
def node_seek_at_desc_mut {σ : Type} (iter : Heap α → Nat → α → σ → Bool × σ) :
    Nat → Heap α → List Bool → Nat → Nat → σ → Status → MutRes α σ
  | 0, h, mem, _, _, s, _ => MutRes.mk false s h mem Status.FUEL
  | fuel + 1, h, mem, p, index, s, st =>
    if (node_at h p).isleaf then
      MutRes.mk
        (leaf_desc iter h p (node_at h p).items
          (if index ≥ (node_at h p).len then (node_at h p).len else index + 1) s).1
        (leaf_desc iter h p (node_at h p).items
          (if index ≥ (node_at h p).len then (node_at h p).len else index + 1) s).2 h mem st
    else
      match seek_walk (node_at h p) (node_at h p).len 0 index with
      | (i, true, _) => seek_at_desc_rest iter p fuel (i + 1) h mem s st
      | (i, false, index1) =>
        match cow_child h p i mem with
        | (false, h1, mem1) => MutRes.mk false s h1 mem1 Status.NOMEM
        | (true, h1, mem1) =>
          match node_seek_at_desc_mut iter fuel h1 mem1 ((node_at h1 p).children.getD i 0)
              index1 s st with
          | MutRes.mk true s2 h2 mem2 st2 => seek_at_desc_rest iter p fuel i h2 mem2 s2 st2
          | r => r

/-- The function `seek_at_desc_mut` (bgen.h 1645-1662): the status, the user
data, the root handle, the heap and the allocator script left. -/
def seek_at_desc_mut {σ : Type} (h : Heap α) (root : Option Nat) (index : Nat)
    (iter : Heap α → Nat → α → σ → Bool × σ) (s : σ) (mem : List Bool) :
    Status × σ × Option Nat × Heap α × List Bool :=
  match root with
  | none => (Status.FINISHED, s, none, h, mem)
  | some r =>
    match cow h r mem with
    | (false, _, h1, mem1) => (Status.NOMEM, s, some r, h1, mem1)
    | (true, r1, h1, mem1) =>
      match node_seek_at_desc_mut iter (h1.length + 1) h1 mem1 r1 index s Status.FINISHED with
      | MutRes.mk ok s2 h2 mem2 st2 =>
        (if !ok && st2 = Status.FINISHED then Status.STOPPED else st2, s2, some r1, h2, mem2)

/-- A callback that records every item with the address of the node that holds
it and the reference count of that node at the moment of the call. -/
def log_rc (h : Heap Int) (p : Nat) (x : Int) (acc : List (Int × Nat × Int)) :
    Bool × List (Int × Nat × Int) :=
  (true, acc ++ [(x, p, rc_load h p)])

/-- A leaf at height 1 that no clone shares. -/
def hleaf (l : List Int) : Option (HNode Int) := some (HNode.mk l 0 1 true [] [])

/-- The tree of height 3 with the items 1 to 7 and fanout 4 in a heap: the root
`[4]` at address 0 over the branches `[2]` and `[6]` at 1 and 2, over the leaves
`[1]`, `[3]`, `[5]`, `[7]` at 3 to 6; no node is shared. -/
def heapC : Heap Int :=
  [some (HNode.mk [4] 0 3 false [1, 2] [3, 3]),
   some (HNode.mk [2] 0 2 false [3, 4] [1, 1]),
   some (HNode.mk [6] 0 2 false [5, 6] [1, 1]),
   hleaf [1], hleaf [3], hleaf [5], hleaf [7]]

end Cow

/-! ### Deletion in a spatial build

With `BGEN_SPATIAL` the fast paths of `delete`, `pop_front` and `pop_back` are
compiled out; every deletion runs `delete0` / `delete1`.  The build modelled
here has no `BGEN_COUNTED`: `node_count` counts the subtree. -/

namespace Spatial

namespace Node

/-- Replace the item array. -/
def setItems (n : Node α) (its : List α) : Node α :=
  mk its n.height n.isleaf n.children n.rects

/-- The write `node->children[i] = c`. -/
def setChild (n : Node α) (i : Nat) (c : Node α) : Node α :=
  mk n.items n.height n.isleaf (n.children.set i c) n.rects

/-- The write `node->rects[i] = r`. -/
def setRect (n : Node α) (i : Nat) (r : Rect) : Node α :=
  mk n.items n.height n.isleaf n.children (n.rects.set i r)

end Node

/-- The function `feq` (bgen.h 649-651). -/
def feq (a b : Int) : Bool := !(decide (a < b) || decide (a > b))

/-- The function `rect_onedge` (bgen.h 664-673). -/
def rect_onedge (dims : Nat) (rect other : Rect) : Bool :=
  (List.range dims).any (fun i => feq (rect.lo i) (other.lo i) || feq (rect.hi i) (other.hi i))

/-- The first part of `rect_calc` (bgen.h 683-695): the rectangle of a child
from its own rectangles (a branch) or from its items (a leaf).  The reads
`rects[0]` and `items[0]` of a child without them (in C: a stale slot) yield
zeros. -/
def child_rect (dims : Nat) (itemrect : α → List Int × List Int) (child : Node α) : Rect :=
  if !child.isleaf then
    join_all dims (child.rect 0) ((child.rects.take (child.len + 1)).drop 1)
  else
    join_all dims
      (match child.items.head? with
        | some x => item_rect dims itemrect x
        | none => Rect.mk [] [])
      ((child.items.drop 1).map (item_rect dims itemrect))

/-- The function `rect_calc` (bgen.h 676-703): the rectangle of child `i` joined
with the rectangle of item `i`, if `i < len`. -/
def rect_calc (dims : Nat) (itemrect : α → List Int × List Int) (node : Node α) (i : Nat) :
    Rect :=
  match node.items[i]? with
  | some x =>
    rect_join dims (child_rect dims itemrect (node.child i)) (item_rect dims itemrect x)
  | none => child_rect dims itemrect (node.child i)

/-- The function `shift_left` with `n = 1` (bgen.h 2440-2465). -/
def shift_left (node : Node α) (i : Nat) (for_merge : Bool) : Node α :=
  if node.isleaf then node.setItems (close_slot node.items i (node.len - 1))
  else
    Node.mk (close_slot node.items i (node.len - 1)) node.height node.isleaf
      (close_slot node.children (if for_merge then i + 1 else i) node.len)
      (close_slot node.rects (if for_merge then i + 1 else i) node.len)

/-- The function `join` (bgen.h 2467-2492): `right` is appended to `left`, whose
last item is the separator that the caller has just stored; the rectangle of
the slot of that separator is computed anew. -/
def join (dims : Nat) (itemrect : α → List Int × List Int) (left right : Node α) : Node α :=
  if left.isleaf then left.setItems (left.items ++ right.items)
  else
    Node.mk (left.items ++ right.items) left.height left.isleaf
      (left.children ++ right.children)
      ((left.rects ++ right.rects).set (left.len - 1)
        (rect_calc dims itemrect left (left.len - 1)))

/-- The merge of the children `i` and `i + 1` of `node` around the separator
`i` in `rebalance` (bgen.h 2507-2530). -/
def merge_children (dims : Nat) (itemrect : α → List Int × List Int) (node : Node α)
    (i : Nat) : Node α :=
  match node.items[i]? with
  | none => node
  | some sep =>
    (shift_left (node.setChild i
        (join dims itemrect ((node.child i).setItems ((node.child i).items ++ [sep]))
          (node.child (i + 1)))) i true).setRect i
      (rect_calc dims itemrect
        (shift_left (node.setChild i
          (join dims itemrect ((node.child i).setItems ((node.child i).items ++ [sep]))
            (node.child (i + 1)))) i true) i)

/-- The function `give_left` (bgen.h 2037-2068), which does not touch the
rectangles: `n` items travel from child `index` through the separator
`index - 1` to child `index - 1`. -/
def give_left (node : Node α) (index : Nat) (balance : Bool) : Node α :=
  match node.items[index - 1]?,
      (node.child index).items[give_n balance (node.child index).len
        (node.child (index - 1)).len - 1]? with
  | some sep, some newsep =>
    ((node.setItems (node.items.set (index - 1) newsep)).setChild (index - 1)
      ((node.child (index - 1)).setItems
        ((node.child (index - 1)).items ++ sep ::
          (node.child index).items.take
            (give_n balance (node.child index).len (node.child (index - 1)).len - 1)))).setChild
      index
      ((node.child index).setItems
        ((node.child index).items.drop
          (give_n balance (node.child index).len (node.child (index - 1)).len)))
  | _, _ => node

/-- The function `give_right` (bgen.h 2070-2100), which does not touch the
rectangles: `n` items travel from child `index` through the separator `index`
to child `index + 1`; expects `n >= 1`. -/
def give_right (node : Node α) (index : Nat) (balance : Bool) : Node α :=
  match node.items[index]?,
      (node.child index).items[(node.child index).len -
        give_n balance (node.child index).len (node.child (index + 1)).len]? with
  | some sep, some newsep =>
    ((node.setItems (node.items.set index newsep)).setChild index
      ((node.child index).setItems
        ((node.child index).items.take
          ((node.child index).len -
            give_n balance (node.child index).len (node.child (index + 1)).len)))).setChild
      (index + 1)
      ((node.child (index + 1)).setItems
        ((node.child index).items.drop
          ((node.child index).len -
            give_n balance (node.child index).len (node.child (index + 1)).len + 1) ++
          sep :: (node.child (index + 1)).items))
  | _, _ => node

/-- The function `shift_right` with `n = 1` (bgen.h 1820-1838), together with
the write `node->items[i] = x` that every caller performs next.  The child and
rectangle arrays get a gap after slot `i`: slot `i + 1` repeats slot `i`. -/
def shift_right (node : Node α) (i : Nat) (x : α) : Node α :=
  if node.isleaf then node.setItems (node.items.take i ++ x :: node.items.drop i)
  else
    Node.mk (node.items.take i ++ x :: node.items.drop i) node.height node.isleaf
      (node.children.take (i + 1) ++ node.children.drop i)
      (node.rects.take (i + 1) ++ node.rects.drop i)

/-- The rectangles of the slots `i` and `i + 1` are computed anew, one after the
other: the tail of `rebalance` under `BGEN_SPATIAL` (bgen.h 2579-2582), and the
same two writes in `rebalance` (2552-2555), `split_root` (2006-2009),
`split_child_at` (2030-2033) and `insert_fastpath` (2370-2373). -/
def recalc_pair (dims : Nat) (itemrect : α → List Int × List Int) (node : Node α) (i : Nat) :
    Node α :=
  (node.setRect i (rect_calc dims itemrect node i)).setRect (i + 1)
    (rect_calc dims itemrect (node.setRect i (rect_calc dims itemrect node i)) (i + 1))

/-- The left child after "move right to left" in `rebalance` (bgen.h 2545-2556):
it takes the separator and the first child of `right`; the rectangles of its
last two slots are computed anew. -/
def rotate_left_taker (dims : Nat) (itemrect : α → List Int × List Int) (left right : Node α)
    (sep : α) : Node α :=
  recalc_pair dims itemrect
    (Node.mk (left.items ++ [sep]) left.height left.isleaf
      (left.children ++ [right.child 0]) (left.rects ++ [Rect.mk [] []])) left.len

/-- The branch case of `rebalance`, "move right to left" (bgen.h 2543-2557). -/
def rotate_left (dims : Nat) (itemrect : α → List Int × List Int) (node : Node α) (i : Nat) :
    Node α :=
  match node.items[i]?, (node.child (i + 1)).items.head? with
  | some sep, some first =>
    ((node.setItems (node.items.set i first)).setChild i
      (rotate_left_taker dims itemrect (node.child i) (node.child (i + 1)) sep)).setChild (i + 1)
      (shift_left (node.child (i + 1)) 0 false)
  | _, _ => node

/-- The right child after "move left to right" in `rebalance` (bgen.h
2559-2570): it takes the separator and the last child of `left` in front; the
rectangle of its first slot is computed anew. -/
def rotate_right_taker (dims : Nat) (itemrect : α → List Int × List Int) (left right : Node α)
    (sep : α) : Node α :=
  ((shift_right right 0 sep).setChild 0 (left.child left.len)).setRect 0
    (rect_calc dims itemrect ((shift_right right 0 sep).setChild 0 (left.child left.len)) 0)

/-- The left child after "move left to right" in `rebalance` (bgen.h
2566-2572): it loses its last item and its last child; the rectangle of its new
last slot is computed anew. -/
def rotate_right_giver (dims : Nat) (itemrect : α → List Int × List Int) (left : Node α) :
    Node α :=
  (Node.mk (left.items.take (left.len - 1)) left.height left.isleaf
      (left.children.take left.len) (left.rects.take left.len)).setRect (left.len - 1)
    (rect_calc dims itemrect
      (Node.mk (left.items.take (left.len - 1)) left.height left.isleaf
        (left.children.take left.len) (left.rects.take left.len)) (left.len - 1))

/-- The branch case of `rebalance`, "move left to right" (bgen.h 2558-2573). -/
def rotate_right (dims : Nat) (itemrect : α → List Int × List Int) (node : Node α) (i : Nat) :
    Node α :=
  match node.items[i]?, (node.child i).items.getLast? with
  | some sep, some last =>
    ((node.setItems (node.items.set i last)).setChild i
      (rotate_right_giver dims itemrect (node.child i))).setChild (i + 1)
      (rotate_right_taker dims itemrect (node.child i) (node.child (i + 1)) sep)
  | _, _ => node

/-- The function `rebalance` (bgen.h 2494-2584) once `i` has been moved off the
last child. -/
def rebalance_at (cfg : Config) (dims : Nat) (itemrect : α → List Int × List Int)
    (node : Node α) (i : Nat) : Node α :=
  if (node.child i).len + (node.child (i + 1)).len < MAXITEMS cfg then
    merge_children dims itemrect node i
  else if (node.child i).isleaf then
    if (node.child i).len < (node.child (i + 1)).len then
      recalc_pair dims itemrect (give_left node (i + 1) true) i
    else recalc_pair dims itemrect (give_right node i true) i
  else if (node.child i).len < (node.child (i + 1)).len then
    recalc_pair dims itemrect (rotate_left dims itemrect node i) i
  else recalc_pair dims itemrect (rotate_right dims itemrect node i) i

/-- The function `rebalance` (bgen.h 2494-2584). -/
def rebalance (cfg : Config) (dims : Nat) (itemrect : α → List Int × List Int)
    (node : Node α) (i : Nat) : Node α :=
  rebalance_at cfg dims itemrect node (if i = node.len then i - 1 else i)

mutual
/-- The function `deepcount` (bgen.h 606-614). -/
def deepcount : Node α → Nat
  | Node.mk items _ isleaf children _ =>
    items.length + (if isleaf then 0 else deepcountL children (items.length + 1))
/-- The loop of `deepcount` over the first `n` children. -/
def deepcountL : List (Node α) → Nat → Nat
  | [], _ => 0
  | _ :: _, 0 => 0
  | c :: cs, n + 1 => deepcount c + deepcountL cs n
end

/-- The function `node_count` (bgen.h 839-845) without `BGEN_COUNTED`:
`count0` on the child, which counts the subtree (bgen.h 811-823). -/
def node_count (branch : Node α) (i : Nat) : Nat := deepcount (branch.child i)

/-- The loop `for (; i < node->len; i++)` over the child counts (bgen.h
2620-2629): `k` is the number of iterations left; the result is
`(i, found, index)`. -/
def index_walk (node : Node α) : Nat → Nat → Nat → Nat × Bool × Nat
  | 0, i, index => (i, false, index)
  | k + 1, i, index =>
    if index ≤ node_count node i then (i, decide (index = node_count node i), index)
    else index_walk node k (i + 1) (index - (node_count node i + 1))

/-- The function `search` without path hint (bgen.h 940-949). -/
def search (cmp : α → α → Int) (node : Node α) (key : α) : Nat × Bool :=
  search_linear cmp node.items key

/-- What `delete1` leaves behind: the status, the node after the call and the
value written through `prev` (if any). -/
structure DelRes (α : Type) where
  ret : Status
  node : Node α
  prev : Option α

/-- The `switch (act)` of `delete1` (bgen.h 2597-2632): `(i, found, index)`. -/
def delete1_locate (cmp : α → α → Int) (node : Node α) (act : DelAct) (key : α)
    (index : Nat) : Nat × Bool × Nat :=
  match act with
  | DelAct.DELKEY => ((search cmp node key).1, (search cmp node key).2, index)
  | DelAct.POPMAX => (if node.isleaf then node.len - 1 else node.len, true, index)
  | DelAct.POPFRONT => (0, node.isleaf, index)
  | DelAct.POPBACK => (if node.isleaf then node.len - 1 else node.len, node.isleaf, index)
  | DelAct.DELAT =>
    if node.isleaf then
      if index < node.len then (index, true, index) else (0, false, index)
    else index_walk node node.len 0 index

/-- The test of `delete1` under `BGEN_SPATIAL` (bgen.h 2684-2686) whether the
rectangle of slot `i` is computed anew: the action is `BGEN_POPMAX`, or the
rectangle of the item `*prev` touches an edge of the stored rectangle.  With no
value behind `prev` (not the case after `BGEN_DELETED`) only the action
counts. -/
def delete1_recalc (dims : Nat) (itemrect : α → List Int × List Int) (node : Node α)
    (i : Nat) (popmax : Bool) (prev : Option α) : Bool :=
  popmax ||
    (match prev with
      | some d => rect_onedge dims (item_rect dims itemrect d) (node.rect i)
      | none => false)

/-- The tail of `delete1` after the recursive call returned `BGEN_DELETED`
(bgen.h 2681-2693). -/
def delete1_fix (cfg : Config) (dims : Nat) (itemrect : α → List Int × List Int)
    (node : Node α) (i : Nat) (popmax : Bool) (prev : Option α) : Node α :=
  if ((if delete1_recalc dims itemrect node i popmax prev then
        node.setRect i (rect_calc dims itemrect node i) else node).child i).len
      < MINITEMS cfg then
    rebalance cfg dims itemrect
      (if delete1_recalc dims itemrect node i popmax prev then
        node.setRect i (rect_calc dims itemrect node i) else node) i
  else
    (if delete1_recalc dims itemrect node i popmax prev then
      node.setRect i (rect_calc dims itemrect node i) else node)

/-- The function `delete1` (bgen.h 2593-2694).  When the item is found in a
branch the recursive call runs as `BGEN_POPMAX` with `prev` pointing at the
branch slot, so the popped maximum lands in `node->items[i]`. -/
def delete1 (cfg : Config) (cmp : α → α → Int) (dims : Nat)
    (itemrect : α → List Int × List Int) (key : α) :
    Nat → Node α → DelAct → Nat → DelRes α
  | 0, node, _, _ => DelRes.mk Status.FUEL node none
  | fuel + 1, node, act, index =>
    match delete1_locate cmp node act key index with
    | (i, found, index1) =>
      if node.isleaf then
        if found then DelRes.mk Status.DELETED (shift_left node i false) node.items[i]?
        else DelRes.mk Status.NOTFOUND node none
      else if found = true ∧ act ≠ DelAct.POPMAX then
        match delete1 cfg cmp dims itemrect key fuel (node.child i) DelAct.POPMAX index1 with
        | DelRes.mk ret c popped =>
          if ret ≠ Status.DELETED then DelRes.mk ret (node.setChild i c) node.items[i]?
          else
            DelRes.mk Status.DELETED
              (delete1_fix cfg dims itemrect
                ((match popped with
                  | some m => node.setItems (node.items.set i m)
                  | none => node).setChild i c) i true popped)
              node.items[i]?
      else
        match delete1 cfg cmp dims itemrect key fuel (node.child i) act index1 with
        | DelRes.mk ret c popped =>
          if ret ≠ Status.DELETED then DelRes.mk ret (node.setChild i c) popped
          else
            DelRes.mk Status.DELETED
              (delete1_fix cfg dims itemrect (node.setChild i c) i
                (decide (act = DelAct.POPMAX)) popped)
              popped

/-- What a public operation leaves behind: the returned status, the root
pointer after the call and the value written through the output parameter (if
any). -/
structure TreeRes (α : Type) where
  ret : Status
  root : Option (Node α)
  old : Option α

/-- The function `delete0` (bgen.h 2696-2715); `old` is the value left in
`*olditem`. -/
def delete0 (cfg : Config) (cmp : α → α → Int) (dims : Nat)
    (itemrect : α → List Int × List Int) (root : Option (Node α)) (act : DelAct)
    (key : α) (index : Nat) : TreeRes α :=
  match root with
  | none => TreeRes.mk Status.NOTFOUND none none
  | some r =>
    match delete1 cfg cmp dims itemrect key (depth r) r act index with
    | DelRes.mk ret node prev =>
      if ret ≠ Status.DELETED then TreeRes.mk ret (some node) prev
      else if node.len = 0 then
        TreeRes.mk Status.DELETED (if node.isleaf then none else node.children.head?) prev
      else TreeRes.mk Status.DELETED (some node) prev

/-- The pattern shared by `delete`, `delete_at`, `pop_front`, `pop_back`
(bgen.h 2916-2924): the spare item reaches `*olditem` only on `BGEN_DELETED`. -/
def copy_spare (r : TreeRes α) : TreeRes α :=
  if r.ret = Status.DELETED then r else TreeRes.mk r.ret r.root none

/-- The function `delete` (bgen.h 2902-2926) with `BGEN_SPATIAL` on an ordered
tree. -/
def delete (cfg : Config) (cmp : α → α → Int) (dims : Nat)
    (itemrect : α → List Int × List Int) (root : Option (Node α)) (key : α) : TreeRes α :=
  copy_spare (delete0 cfg cmp dims itemrect root DelAct.DELKEY key 0)

/-- The function `delete_at` (bgen.h 3095-3107); `key` stands for the zeroed
spare item that `delete0` receives and never reads for `BGEN_DELAT`. -/
def delete_at (cfg : Config) (cmp : α → α → Int) (dims : Nat)
    (itemrect : α → List Int × List Int) (root : Option (Node α)) (index : Nat) (key : α) :
    TreeRes α :=
  copy_spare (delete0 cfg cmp dims itemrect root DelAct.DELAT key index)

/-- The function `pop_front` (bgen.h 3179-3198) with `BGEN_SPATIAL`; `key`
stands for the zeroed spare item. -/
def pop_front (cfg : Config) (cmp : α → α → Int) (dims : Nat)
    (itemrect : α → List Int × List Int) (root : Option (Node α)) (key : α) : TreeRes α :=
  copy_spare (delete0 cfg cmp dims itemrect root DelAct.POPFRONT key 0)

/-- The function `pop_back` (bgen.h 3265-3283) with `BGEN_SPATIAL`; `key`
stands for the zeroed spare item. -/
def pop_back (cfg : Config) (cmp : α → α → Int) (dims : Nat)
    (itemrect : α → List Int × List Int) (root : Option (Node α)) (key : α) : TreeRes α :=
  copy_spare (delete0 cfg cmp dims itemrect root DelAct.POPBACK key 0)

end Spatial

/-! ### Insertion in a spatial build

`insert` on a build with `BGEN_SPATIAL` and without `BGEN_COUNTED`: the fast
path `insert_fastpath` first, then `insert0` / `insert1` with the action
`BGEN_INSITEM`, the only action that `insert` passes. -/

namespace Spatial

/-- A node as `alloc_node` returns it: no items, no children. -/
def fresh (isleaf : Bool) : Node α := Node.mk [] 0 isleaf [] []

/-- The function `alloc_node` (bgen.h 589-603) against the allocator script. -/
def alloc_node (isleaf : Bool) (mem : List Bool) : Option (Node α) × List Bool :=
  match mem with
  | [] => (some (fresh isleaf), [])
  | true :: rest => (some (fresh isleaf), rest)
  | false :: rest => (none, rest)

/-- The function `split` (bgen.h 1952-1985): the truncated left node, the
separator and the new right node, or `none` when the allocation fails.  The
rectangle of the last slot of the left node is computed anew.  A node with no
item at `mid` (never passed by a caller) also yields `none`. -/
def split (cfg : Config) (dims : Nat) (itemrect : α → List Int × List Int) (left : Node α)
    (mem : List Bool) : Option (Node α × α × Node α) × List Bool :=
  match (alloc_node left.isleaf mem : Option (Node α) × List Bool) with
  | (none, mem1) => (none, mem1)
  | (some right, mem1) =>
    match left.items.drop (MAXITEMS cfg / 2) with
    | [] => (none, mem1)
    | mitem :: ritems =>
      if left.isleaf then
        (some (left.setItems (left.items.take (MAXITEMS cfg / 2)), mitem,
          Node.mk ritems left.height right.isleaf right.children right.rects), mem1)
      else
        (some ((Node.mk (left.items.take (MAXITEMS cfg / 2)) left.height left.isleaf
              (left.children.take (MAXITEMS cfg / 2 + 1))
              (left.rects.take (MAXITEMS cfg / 2 + 1))).setRect (MAXITEMS cfg / 2)
            (rect_calc dims itemrect
              (Node.mk (left.items.take (MAXITEMS cfg / 2)) left.height left.isleaf
                (left.children.take (MAXITEMS cfg / 2 + 1))
                (left.rects.take (MAXITEMS cfg / 2 + 1))) (MAXITEMS cfg / 2)),
          mitem,
          Node.mk ritems left.height right.isleaf
            (left.children.drop (MAXITEMS cfg / 2 + 1))
            (left.rects.drop (MAXITEMS cfg / 2 + 1))),
          mem1)

/-- The function `split_root` (bgen.h 1987-2012): the new root, or `none` when
an allocation fails (the old root is then untouched). -/
def split_root (cfg : Config) (dims : Nat) (itemrect : α → List Int × List Int)
    (root : Node α) (mem : List Bool) : Option (Node α) × List Bool :=
  match (alloc_node false mem : Option (Node α) × List Bool) with
  | (none, mem1) => (none, mem1)
  | (some newroot, mem1) =>
    match split cfg dims itemrect root mem1 with
    | (none, mem2) => (none, mem2)
    | (some (l, m, r), mem2) =>
      (some (recalc_pair dims itemrect
        (Node.mk [m] (root.height + 1) newroot.isleaf [l, r] [Rect.mk [] [], Rect.mk [] []]) 0),
        mem2)

/-- The function `split_child_at` (bgen.h 2015-2035): the rectangles of the
slots `i` and `i + 1` are computed anew. -/
def split_child_at (cfg : Config) (dims : Nat) (itemrect : α → List Int × List Int)
    (node : Node α) (i : Nat) (mem : List Bool) : Option (Node α) × List Bool :=
  match split cfg dims itemrect (node.child i) mem with
  | (none, mem1) => (none, mem1)
  | (some (l, m, r), mem1) =>
    (some (recalc_pair dims itemrect
      (((shift_right node i m).setChild i l).setChild (i + 1) r) i), mem1)

/-- What an insertion routine leaves behind: the returned status, the node after
the call, the value written through `olditem` (if any) and the rest of the
allocator script. -/
structure InsRes (α : Type) where
  ret : Status
  node : Node α
  old : Option α
  mem : List Bool

/-- The bookkeeping of `insert1` after the recursive call returned without a
split to do (bgen.h 2245-2260): after `BGEN_INSERTED` the rectangle of the slot
is joined with the rectangle of the item, after `BGEN_REPLACED` it is computed
anew. -/
def insert1_wrap (dims : Nat) (itemrect : α → List Int × List Int) (node : Node α) (i : Nat)
    (item : α) (r : InsRes α) : InsRes α :=
  if r.ret = Status.INSERTED then
    InsRes.mk r.ret
      ((node.setChild i r.node).setRect i
        (rect_join dims ((node.setChild i r.node).rect i) (item_rect dims itemrect item)))
      r.old r.mem
  else if r.ret = Status.REPLACED then
    InsRes.mk r.ret
      ((node.setChild i r.node).setRect i (rect_calc dims itemrect (node.setChild i r.node) i))
      r.old r.mem
  else InsRes.mk r.ret (node.setChild i r.node) r.old r.mem

/-- The `while (1)` loop of `insert1` for `BGEN_INSITEM` (bgen.h 2215-2278)
entered at slot `i` with the flag `found`.  The recursive call on the child
runs the search first and then this loop again.  An item replaced in a branch
slot has the rectangle of that slot computed anew (bgen.h 2221-2226). -/
def insert1_loop (cfg : Config) (cmp : α → α → Int) (dims : Nat)
    (itemrect : α → List Int × List Int) (item : α) :
    Nat → Node α → Nat → Bool → List Bool → InsRes α
  | 0, node, _, _, mem => InsRes.mk Status.FUEL node none mem
  | fuel + 1, node, i, found, mem =>
    if found then
      InsRes.mk Status.REPLACED
        (if node.isleaf then node.setItems (node.items.set i item)
         else
          (node.setItems (node.items.set i item)).setRect i
            (rect_calc dims itemrect (node.setItems (node.items.set i item)) i))
        node.items[i]? mem
    else if node.isleaf then
      if node.len = MAXITEMS cfg then InsRes.mk Status.MUSTSPLIT node none mem
      else InsRes.mk Status.INSERTED (shift_right node i item) none mem
    else
      if (insert1_loop cfg cmp dims itemrect item fuel (node.child i)
            (search cmp (node.child i) item).1 (search cmp (node.child i) item).2 mem).ret
            ≠ Status.MUSTSPLIT ∨ node.len = MAXITEMS cfg then
        insert1_wrap dims itemrect node i item
          (insert1_loop cfg cmp dims itemrect item fuel (node.child i)
            (search cmp (node.child i) item).1 (search cmp (node.child i) item).2 mem)
      else
        match split_child_at cfg dims itemrect
            (node.setChild i
              (insert1_loop cfg cmp dims itemrect item fuel (node.child i)
                (search cmp (node.child i) item).1 (search cmp (node.child i) item).2
                mem).node) i
            (insert1_loop cfg cmp dims itemrect item fuel (node.child i)
              (search cmp (node.child i) item).1 (search cmp (node.child i) item).2
              mem).mem with
        | (none, mem1) =>
          InsRes.mk Status.NOMEM
            (node.setChild i
              (insert1_loop cfg cmp dims itemrect item fuel (node.child i)
                (search cmp (node.child i) item).1 (search cmp (node.child i) item).2
                mem).node)
            none mem1
        | (some node1, mem1) =>
          match node1.items[i]? with
          | some s =>
            if cmp item s ≤ 0 then
              insert1_loop cfg cmp dims itemrect item fuel node1 i (decide (cmp item s = 0)) mem1
            else insert1_loop cfg cmp dims itemrect item fuel node1 (i + 1) false mem1
          | none => InsRes.mk Status.FUEL node1 none mem1

/-- The function `insert1` for `BGEN_INSITEM` (bgen.h 2109-2279). -/
def insert1 (cfg : Config) (cmp : α → α → Int) (dims : Nat)
    (itemrect : α → List Int × List Int) (fuel : Nat) (node : Node α) (item : α)
    (mem : List Bool) : InsRes α :=
  insert1_loop cfg cmp dims itemrect item fuel node (search cmp node item).1
    (search cmp node item).2 mem

/-- What `insert` leaves behind: the returned status, the root pointer after the
call, the value written through `olditem` (if any) and the rest of the
allocator script. -/
structure InsTree (α : Type) where
  ret : Status
  root : Option (Node α)
  old : Option α
  mem : List Bool

/-- The `while (1)` loop of `insert0` (bgen.h 2300-2308); `k` bounds the number
of iterations. -/
def insert0_loop (cfg : Config) (cmp : α → α → Int) (dims : Nat)
    (itemrect : α → List Int × List Int) (item : α) :
    Nat → Node α → List Bool → InsTree α
  | 0, root, mem => InsTree.mk Status.FUEL (some root) none mem
  | k + 1, root, mem =>
    match insert1 cfg cmp dims itemrect (2 * depth root) root item mem with
    | InsRes.mk ret node old mem1 =>
      if ret ≠ Status.MUSTSPLIT then InsTree.mk ret (some node) old mem1
      else
        match split_root cfg dims itemrect node mem1 with
        | (none, mem2) => InsTree.mk Status.NOMEM (some node) old mem2
        | (some newroot, mem2) => insert0_loop cfg cmp dims itemrect item k newroot mem2

/-- The function `insert0` for `BGEN_INSITEM` (bgen.h 2281-2309). -/
def insert0 (cfg : Config) (cmp : α → α → Int) (dims : Nat)
    (itemrect : α → List Int × List Int) (root : Option (Node α)) (item : α)
    (mem : List Bool) : InsTree α :=
  match root with
  | none =>
    match (alloc_node true mem : Option (Node α) × List Bool) with
    | (none, mem1) => InsTree.mk Status.NOMEM none none mem1
    | (some n, mem1) =>
      InsTree.mk Status.INSERTED (some (Node.mk [item] 1 n.isleaf n.children n.rects)) none mem1
  | some r => insert0_loop cfg cmp dims itemrect item 2 r mem

/-- How the loop of `insert_fastpath` leaves a subtree.
* `done`: the loop executed `return` with status `ret`; the rectangles on the
  path keep their forward update.
* `brk`: the loop executed `break` with `ret`, and the rollback loop behind it
  (bgen.h 2407-2418) has written the saved rectangles back at and below this
  node.
* `full`: the node is a full leaf; the test on `parent` that the C loop makes
  next is made by the caller, which is that parent. -/
inductive FastRes (α : Type) where
  | done (ret : Status) (node : Node α) (old : Option α) (mem : List Bool)
  | brk (ret : Status) (node : Node α) (old : Option α) (mem : List Bool)
  | full

mutual
/-- One iteration of the loop of `insert_fastpath` at `node`, from the search
on (bgen.h 2333-2387).  When the search reports `found` the item is written and
the loop is left by `break`: no rectangle is computed. -/
def insert_fast_loop (cfg : Config) (cmp : α → α → Int) (dims : Nat)
    (itemrect : α → List Int × List Int) (item : α) :
    Nat → Node α → List Bool → FastRes α
  | 0, node, mem => FastRes.brk Status.FUEL node none mem
  | fuel + 1, node, mem =>
    if (search cmp node item).2 then
      FastRes.brk Status.REPLACED
        (node.setItems (node.items.set (search cmp node item).1 item))
        node.items[(search cmp node item).1]? mem
    else if node.isleaf then
      if node.len = MAXITEMS cfg then FastRes.full
      else FastRes.done Status.INSERTED
        (shift_right node (search cmp node item).1 item) none mem
    else insert_fast_down cfg cmp dims itemrect item fuel node (search cmp node item).1 mem
/-- The descent of `insert_fastpath` from `node` into child `i`
(bgen.h 2388-2405): the rectangle of slot `i` is saved and joined with the
rectangle of the item; then the iteration on that child, and what the loop does
at `node` when the child turns out to be a full leaf (bgen.h 2346-2381), where
the saved rectangle is written back first. -/
def insert_fast_down (cfg : Config) (cmp : α → α → Int) (dims : Nat)
    (itemrect : α → List Int × List Int) (item : α) :
    Nat → Node α → Nat → List Bool → FastRes α
  | 0, node, _, mem => FastRes.brk Status.FUEL node none mem
  | fuel + 1, node, i, mem =>
    match insert_fast_loop cfg cmp dims itemrect item fuel
        ((node.setRect i (rect_join dims (node.rect i) (item_rect dims itemrect item))).child i)
        mem with
    | FastRes.done ret c old mem1 =>
      FastRes.done ret
        ((node.setRect i (rect_join dims (node.rect i) (item_rect dims itemrect item))).setChild
          i c) old mem1
    | FastRes.brk ret c old mem1 =>
      FastRes.brk ret
        (((node.setRect i (rect_join dims (node.rect i) (item_rect dims itemrect item))).setChild
          i c).setRect i (node.rect i)) old mem1
    | FastRes.full =>
      if node.len = MAXITEMS cfg then
        FastRes.brk Status.NONE
          ((node.setRect i (rect_join dims (node.rect i) (item_rect dims itemrect item))).setRect
            i (node.rect i)) none mem
      else if 0 < i ∧
          (((node.setRect i (rect_join dims (node.rect i)
            (item_rect dims itemrect item))).setRect i (node.rect i)).child (i - 1)).len
            < MINITEMS cfg + 1 then
        insert_fast_loop cfg cmp dims itemrect item fuel
          (recalc_pair dims itemrect
            (give_left
              ((node.setRect i (rect_join dims (node.rect i)
                (item_rect dims itemrect item))).setRect i (node.rect i)) i false) (i - 1)) mem
      else
        match split_child_at cfg dims itemrect
            ((node.setRect i (rect_join dims (node.rect i)
              (item_rect dims itemrect item))).setRect i (node.rect i)) i mem with
        | (none, mem1) =>
          FastRes.brk Status.NOMEM
            ((node.setRect i (rect_join dims (node.rect i)
              (item_rect dims itemrect item))).setRect i (node.rect i)) none mem1
        | (some node1, mem1) =>
          match node1.items[i]? with
          | some s =>
            insert_fast_down cfg cmp dims itemrect item fuel node1
              (if cmp item s > 0 then i + 1 else i) mem1
          | none => FastRes.brk Status.FUEL node1 none mem1
end

/-- The function `insert_fastpath` (bgen.h 2312-2421); `NONE` is the return
value 0. -/
def insert_fastpath (cfg : Config) (cmp : α → α → Int) (dims : Nat)
    (itemrect : α → List Int × List Int) (root : Option (Node α)) (item : α)
    (mem : List Bool) : InsTree α :=
  match root with
  | none => InsTree.mk Status.NONE none none mem
  | some r =>
    match insert_fast_loop cfg cmp dims itemrect item (2 * depth r + 2 * FANOUTUSED cfg) r
        mem with
    | FastRes.done ret node old mem1 => InsTree.mk ret (some node) old mem1
    | FastRes.brk ret node old mem1 => InsTree.mk ret (some node) old mem1
    | FastRes.full => InsTree.mk Status.NONE (some r) none mem

/-- The function `insert` (bgen.h 2425-2438). -/
def insert (cfg : Config) (cmp : α → α → Int) (dims : Nat)
    (itemrect : α → List Int × List Int) (root : Option (Node α)) (item : α)
    (mem : List Bool) : InsTree α :=
  if cfg.noorder then InsTree.mk Status.UNSUPPORTED root none mem
  else
    match insert_fastpath cfg cmp dims itemrect root item mem with
    | InsTree.mk ret root1 old mem1 =>
      if ret ≠ Status.NONE then InsTree.mk ret root1 old mem1
      else insert0 cfg cmp dims itemrect root1 item mem1

/-- Fanout 4 (three items per node at most, one at least), not counted,
ordered: the configuration of the spatial witnesses. -/
def cfgS : Config := Config.mk (some 4) false false

/-- The comparator of the items `(key, x)`: by key only. -/
def kcmp (a b : Int × Int) : Int := a.1 - b.1

/-- The item rectangle of `(key, x)` in two dimensions: the point `(x, 0)`. -/
def krect (a : Int × Int) : List Int × List Int := ([a.2, 0], [a.2, 0])

/-- The callback that collects the items it is called with. -/
def collectK (x : Int × Int) (s : List (Int × Int)) : Bool × List (Int × Int) :=
  (true, s ++ [x])

/-- The spatial tree `[(10, 10)] (20, 20) [(30, 30), (40, 40)]` of height 2 with
the tight rectangles `[10, 20] x [0, 0]` and `[30, 40] x [0, 0]`. -/
def treeK : Node (Int × Int) :=
  Node.mk [(20, 20)] 2 false
    [Node.mk [(10, 10)] 1 true [] [], Node.mk [(30, 30), (40, 40)] 1 true [] []]
    [Rect.mk [10, 0] [20, 0], Rect.mk [30, 0] [40, 0]]

end Spatial

namespace Spatial

/-- The subtree of `n` is a well-shaped spatial subtree of `h` levels whose
stored rectangles are tight covers: no node holds more than `MAXITEMS` items,
the leaves are exactly the nodes of the last level, and every branch has one
child and one rectangle more than items, every child holds at least `MINITEMS`
items, and the rectangle of every slot is the tight cover of the items of the
child subtree of that slot and of the separator of that slot. -/
def STight (cfg : Config) (dims : Nat) (itemrect : α → List Int × List Int) :
    Nat → Node α → Prop
  | 0, _ => False
  | h + 1, n =>
    n.items.length ≤ MAXITEMS cfg ∧ (n.isleaf = true ↔ h = 0) ∧
    (n.isleaf = false →
      n.children.length = n.items.length + 1 ∧ n.rects.length = n.items.length + 1 ∧
      TightL dims itemrect n.children n.rects n.items ∧
      ∀ c ∈ n.children, MINITEMS cfg ≤ c.items.length ∧ STight cfg dims itemrect h c)

/-- The invariants of a spatial tree handle: an empty tree, or a root with at
least one item whose subtree is well shaped with tight rectangles at every
branch. -/
def SInv (cfg : Config) (dims : Nat) (itemrect : α → List Int × List Int)
    (root : Option (Node α)) : Prop :=
  match root with
  | none => True
  | some r => 1 ≤ r.items.length ∧ ∃ h, STight cfg dims itemrect (h + 1) r

/-- What `delete1` leaves of a subtree `n` of `h + 1` levels: the status is
`DELETED` or `NOTFOUND`, and after `DELETED` the subtree is well shaped with
tight rectangles again, the node has lost at most one item of its own, and the
value `d` behind `prev` is an item of the old subtree such that the new subtree
holds the old items without `d`. -/
def DelTight (cfg : Config) (dims : Nat) (itemrect : α → List Int × List Int) (h : Nat)
    (n : Node α) (res : DelRes α) : Prop :=
  (res.ret = Status.DELETED ∨ res.ret = Status.NOTFOUND) ∧
  (res.ret = Status.DELETED →
    STight cfg dims itemrect (h + 1) res.node ∧
    n.items.length ≤ res.node.items.length + 1 ∧
    ∃ d, res.prev = some d ∧ d ∈ flat n ∧ (∀ x ∈ flat res.node, x ∈ flat n) ∧
      ∀ x ∈ flat n, x = d ∨ x ∈ flat res.node)

end Spatial

namespace Spatial

/-- The item rectangle of an integer item `x` in one dimension: the point `x`. -/
def lineW (x : Int) : List Int × List Int := ([x], [x])

/-- The spatial tree `[10] 20 [30, 35, 40]` of height 2 over the points `x` of
the line, with the tight rectangles `[10, 20]` and `[30, 40]`. -/
def treeT : Node Int :=
  Node.mk [20] 2 false [leafS [10], leafS [30, 35, 40]] [Rect.mk [10] [20], Rect.mk [30] [40]]

end Spatial

/-- The index of the left child of the pair that `rebalance` works on: `i`,
moved off the last child (bgen.h 2497-2499). -/
def rebalance_index (node : Node α) (i : Nat) : Nat := if i = node.len then i - 1 else i

/-- A branch `[] 20 [30, 40, 50]` of height 2 whose child 0 has just lost its
only item; the counts are those of the children. -/
def treeR : Node Int := Node.mk [20] 2 false [leafW [], leafW [30, 40, 50]] [0, 3]

namespace Spatial

/-- The spatial branch `[] 20 [30, 40, 50]` over the points `x` of the line: the
rectangle `[30, 50]` of slot 1 is tight, the rectangle of slot 0 is the one from
before child 0 lost its only item. -/
def treeRS : Node Int :=
  Node.mk [20] 2 false [leafS [], leafS [30, 40, 50]] [Rect.mk [10] [20], Rect.mk [30] [50]]

end Spatial

/-! ### The sanity checker in a spatial build

With `BGEN_SPATIAL` the loop of `sane0` over the children also compares every
stored rectangle with the one that `deeprect` computes from the items of the
child subtree, joined with the rectangle of the separator of the slot. -/

namespace Spatial

mutual
/-- The function `deepheight` (bgen.h 617-626) on the nodes of a spatial
build. -/
def deepheight : Node α → Nat
  | Node.mk _ _ isleaf children _ => if isleaf then 1 else 1 + deepheightL children
/-- The step `node = node->children[0]` of `deepheight`. -/
def deepheightL : List (Node α) → Nat
  | [] => 0
  | c :: _ => deepheight c
end

/-- The function `recteq` (bgen.h 653-662). -/
def recteq (dims : Nat) (a b : Rect) : Bool :=
  (List.range dims).all (fun i => feq (a.lo i) (b.lo i) && feq (a.hi i) (b.hi i))

mutual
/-- The function `deeprect` (bgen.h 705-721): the rectangle of `items[0]`
joined with the rectangles of all items of the node and, in a branch, with
`deeprect` of the children `0 .. len`; zeros for a node with more than
`BGEN_MAXITEMS` items.  The read `items[0]` of a node without items (in C: a
stale slot) yields zeros. -/
def deeprect (cfg : Config) (dims : Nat) (itemrect : α → List Int × List Int) :
    Node α → Rect
  | Node.mk items _ isleaf children _ =>
    if items.length ≤ MAXITEMS cfg then
      if isleaf then
        join_all dims
          (match items.head? with
            | some x => item_rect dims itemrect x
            | none => Rect.mk [] [])
          (items.map (item_rect dims itemrect))
      else
        deeprectL cfg dims itemrect children (items.length + 1)
          (join_all dims
            (match items.head? with
              | some x => item_rect dims itemrect x
              | none => Rect.mk [] [])
            (items.map (item_rect dims itemrect)))
    else Rect.zero dims
/-- The loop of `deeprect` over the first `n` children left (bgen.h 714-717); a
child missing from the array (in C: a stale pointer) ends the loop. -/
def deeprectL (cfg : Config) (dims : Nat) (itemrect : α → List Int × List Int) :
    List (Node α) → Nat → Rect → Rect
  | _, 0, rect => rect
  | [], _ + 1, rect => rect
  | c :: cs, n + 1, rect =>
    deeprectL cfg dims itemrect cs n (rect_join dims rect (deeprect cfg dims itemrect c))
end

/-- The check of every separator against the last item of the child on its left
and the first item of the child on its right in `sane0` (bgen.h 759-774), on
the nodes of a spatial build. -/
def seps_ordered (cfg : Config) (cmp : α → α → Int) : List (Node α) → List α → Bool
  | c0 :: c1 :: cs, x :: xs =>
    (if 0 < c0.len ∧ c0.len ≤ MAXITEMS cfg ∧ 0 < c1.len ∧ c1.len ≤ MAXITEMS cfg then
      match c0.items.getLast?, c1.items.head? with
      | some a, some b => decide (cmp a x < 0) && decide (cmp x b < 0)
      | _, _ => true
     else true) && seps_ordered cfg cmp (c1 :: cs) xs
  | _, _ => true

mutual
/-- The function `sane0` (bgen.h 724-800) with `BGEN_SPATIAL` and without
`BGEN_COUNTED`. -/
def sane0 (cfg : Config) (cmp : α → α → Int) (dims : Nat)
    (itemrect : α → List Int × List Int) : Node α → Nat → Bool
  | Node.mk items height isleaf children rects, depth =>
    (if depth = 0 then decide (1 ≤ items.length ∧ items.length ≤ MAXITEMS cfg)
     else decide (MINITEMS cfg ≤ items.length ∧ items.length ≤ MAXITEMS cfg)) &&
    (!isleaf || decide (height = 1)) &&
    (isleaf || decide (2 ≤ height)) &&
    decide (height = deepheight (Node.mk items height isleaf children rects)) &&
    (cfg.noorder || items_ascending cmp items) &&
    (isleaf ||
      ((cfg.noorder || seps_ordered cfg cmp children items) &&
        sane0L cfg cmp dims itemrect children rects items (items.length + 1) (depth + 1)))
/-- The loop of `sane0` over the first `n` children left, with their rectangles
and the separators from the same slot on (bgen.h 777-797): the stored rectangle
of the slot against `deeprect` of the child, joined with the rectangle of the
separator while `i < len`, and then `sane0` on the child. -/
def sane0L (cfg : Config) (cmp : α → α → Int) (dims : Nat)
    (itemrect : α → List Int × List Int) :
    List (Node α) → List Rect → List α → Nat → Nat → Bool
  | _, _, _, 0, _ => true
  | [], _, _, _ + 1, _ => false
  | c :: cs, rs, xs, n + 1, depth =>
    recteq dims (rs.headD (Rect.mk [] []))
      (match xs.head? with
        | some x => rect_join dims (deeprect cfg dims itemrect c) (item_rect dims itemrect x)
        | none => deeprect cfg dims itemrect c) &&
    sane0 cfg cmp dims itemrect c depth &&
    sane0L cfg cmp dims itemrect cs rs.tail xs.tail n depth
end

/-- The function `sane` (bgen.h 803-809) with `BGEN_SPATIAL`. -/
def sane (cfg : Config) (cmp : α → α → Int) (dims : Nat)
    (itemrect : α → List Int × List Int) (root : Option (Node α)) : Bool :=
  match root with
  | none => true
  | some r => sane0 cfg cmp dims itemrect r 0

mutual
/-- The node of a spatial build without its rectangles: the node of the build
without `BGEN_SPATIAL` and `BGEN_COUNTED` with the same items, height field,
leaf flag and children. -/
def forget : Node α → Bgen.Node α
  | Node.mk items height isleaf children _ =>
    Bgen.Node.mk items height isleaf (forgetL children) []
/-- The children of a spatial node without their rectangles. -/
def forgetL : List (Node α) → List (Bgen.Node α)
  | [] => []
  | c :: cs => forget c :: forgetL cs
end

/-- The tree handle of a spatial build without the rectangles. -/
def forget_root (root : Option (Node α)) : Option (Bgen.Node α) :=
  match root with
  | none => none
  | some r => some (forget r)

mutual
/-- The node and every node below it that `sane0` visits: in a branch the
children in the slots `0 .. len`. -/
def subnodes : Node α → List (Node α)
  | Node.mk items height isleaf children rects =>
    Node.mk items height isleaf children rects ::
      (if isleaf then [] else subnodesL children (items.length + 1))
/-- The nodes of `subnodes` below the first `n` children of a child array. -/
def subnodesL : List (Node α) → Nat → List (Node α)
  | _, 0 => []
  | [], _ + 1 => []
  | c :: cs, n + 1 => subnodes c ++ subnodesL cs n
end

/-- The rectangle that `sane0` computes for slot `i` of a branch (bgen.h
784-789): `deeprect` of child `i`, joined with the rectangle of separator `i` if
there is one. -/
def slot_rect (cfg : Config) (dims : Nat) (itemrect : α → List Int × List Int)
    (x : Node α) (i : Nat) : Rect :=
  match x.items[i]? with
  | some s => rect_join dims (deeprect cfg dims itemrect (x.child i)) (item_rect dims itemrect s)
  | none => deeprect cfg dims itemrect (x.child i)

/-- What `sane0` establishes about the rectangles of one node `x`: in a branch
the stored rectangle of every slot `0 .. len` agrees in all `dims` coordinates
with the rectangle recomputed from the child subtree and the separator of the
slot. -/
def RectChecked (cfg : Config) (dims : Nat) (itemrect : α → List Int × List Int)
    (x : Node α) : Prop :=
  x.isleaf = false → ∀ i, i ≤ x.len → ∀ d, d < dims →
    (x.rect i).lo d = (slot_rect cfg dims itemrect x i).lo d ∧
    (x.rect i).hi d = (slot_rect cfg dims itemrect x i).hi d

/-- The invariants of a spatial tree handle: the tree without its rectangles
satisfies the invariants of the data model, and the rectangles stored at every
branch are tight covers. -/
def SpatialInv (cfg : Config) (cmp : α → α → Int) (dims : Nat)
    (itemrect : α → List Int × List Int) (root : Option (Node α)) : Prop :=
  Inv cfg cmp (forget_root root) ∧ SInv cfg dims itemrect root

end Spatial

/-! ### The positional insertions in a spatial build

With `BGEN_SPATIAL` the fast paths of `push_front` and `push_back` are compiled
out (bgen.h 3284, 3370): both run `insert0` / `insert1` with their action, as
`insert_at` and `replace_at` do.  `insert1_act_loop` is `insert1` with the
action as a parameter. -/

namespace Spatial

mutual
/-- The loop `child = child->children[child->len]` down to a leaf
(bgen.h 2150-2160). -/
def last_leaf : Node α → Node α
  | Node.mk items h isleaf children rects =>
    if isleaf then Node.mk items h isleaf children rects
    else last_leafL children items.length
/-- The step to child `n` of `last_leaf`. -/
def last_leafL : List (Node α) → Nat → Node α
  | [], _ => Node.mk [] 0 true [] []
  | c :: _, 0 => last_leaf c
  | _ :: cs, n + 1 => last_leafL cs n
end

mutual
/-- The loop `child = child->children[0]` down to a leaf (bgen.h 2162-2170). -/
def first_leaf : Node α → Node α
  | Node.mk items h isleaf children rects =>
    if isleaf then Node.mk items h isleaf children rects
    else first_leafL children
/-- The step to child 0 of `first_leaf`. -/
def first_leafL : List (Node α) → Node α
  | [] => Node.mk [] 0 true [] []
  | c :: _ => first_leaf c
end

/-- The order check of `insert1` for `BGEN_INSAT` / `BGEN_REPAT`
(bgen.h 2144-2185); `true` means in order. -/
def insert1_order (cmp : α → α → Int) (node : Node α) (act : InsAct) (i : Nat)
    (found : Bool) (item : α) : Bool :=
  if act = InsAct.REPAT ∧ node.isleaf = false ∧ found = true then
    less_slot_item cmp (last_leaf (node.child i)).items.getLast? item &&
    less_item_slot cmp item (first_leaf (node.child (i + 1))).items.head?
  else
    (i = 0 || less_slot_item cmp node.items[i - 1]? item) &&
    (if act = InsAct.REPAT ∧ node.isleaf = true then
      (node.len ≤ i + 1 || less_item_slot cmp item node.items[i + 1]?)
     else (node.len ≤ i || less_item_slot cmp item node.items[i]?))

/-- The `switch (act)` of `insert1` (bgen.h 2116-2214). -/
def insert1_locate (cfg : Config) (cmp : α → α → Int) (node : Node α) (act : InsAct)
    (index : Nat) (item : α) : Locate :=
  match act with
  | InsAct.INSITEM => Locate.slot (search cmp node item).1 (search cmp node item).2 index
  | InsAct.PUSHFRONT =>
    if node.isleaf = true ∧ cfg.noorder = false ∧
        less_item_slot cmp item node.items.head? = false then
      Locate.exit Status.OUTOFORDER
    else Locate.slot 0 false index
  | InsAct.PUSHBACK =>
    if node.isleaf = true ∧ cfg.noorder = false ∧
        less_slot_item cmp node.items.getLast? item = false then
      Locate.exit Status.OUTOFORDER
    else Locate.slot node.len false index
  | act =>
    if node.isleaf = true ∧
        (index > node.len ∨ (index = node.len ∧ act = InsAct.REPAT)) then
      Locate.exit Status.NOTFOUND
    else
      let w := if node.isleaf then (index, true, index)
        else index_walk node node.len 0 index
      if cfg.noorder = false ∧ insert1_order cmp node act w.1 w.2.1 item = false then
        Locate.exit Status.OUTOFORDER
      else Locate.slot w.1 (if act = InsAct.INSAT then false else w.2.1) w.2.2

/-- The `while (1)` loop of `insert1` (bgen.h 2215-2278) entered at slot `i` with
the flag `found`, for every action; `oindex` is the index saved at `retry`.  The
recursive call on the child and the jump back to `retry` run the `switch` first
(`insert1_locate`) and then this loop again.  An item replaced in a branch slot
has the rectangle of that slot computed anew (bgen.h 2221-2226). -/
def insert1_act_loop (cfg : Config) (cmp : α → α → Int) (dims : Nat)
    (itemrect : α → List Int × List Int) (act : InsAct) (item : α) :
    Nat → Node α → Nat → Nat → Nat → Bool → List Bool → InsRes α
  | 0, node, _, _, _, _, mem => InsRes.mk Status.FUEL node none mem
  | fuel + 1, node, index, oindex, i, found, mem =>
    if found then
      InsRes.mk Status.REPLACED
        (if node.isleaf then node.setItems (node.items.set i item)
         else
          (node.setItems (node.items.set i item)).setRect i
            (rect_calc dims itemrect (node.setItems (node.items.set i item)) i))
        node.items[i]? mem
    else if node.isleaf then
      if node.len = MAXITEMS cfg then InsRes.mk Status.MUSTSPLIT node none mem
      else InsRes.mk Status.INSERTED (shift_right node i item) none mem
    else
      let r := match insert1_locate cfg cmp (node.child i) act index item with
        | Locate.exit ret => InsRes.mk ret (node.child i) none mem
        | Locate.slot ci cfound cindex =>
          insert1_act_loop cfg cmp dims itemrect act item fuel (node.child i) cindex index ci
            cfound mem
      if r.ret ≠ Status.MUSTSPLIT ∨ node.len = MAXITEMS cfg then
        insert1_wrap dims itemrect node i item r
      else
        match split_child_at cfg dims itemrect (node.setChild i r.node) i r.mem with
        | (none, mem1) => InsRes.mk Status.NOMEM (node.setChild i r.node) none mem1
        | (some node1, mem1) =>
          if act = InsAct.INSITEM then
            match node1.items[i]? with
            | some s =>
              if cmp item s ≤ 0 then
                insert1_act_loop cfg cmp dims itemrect act item fuel node1 index oindex i
                  (decide (cmp item s = 0)) mem1
              else
                insert1_act_loop cfg cmp dims itemrect act item fuel node1 index oindex (i + 1)
                  false mem1
            | none => InsRes.mk Status.FUEL node1 none mem1
          else
            match insert1_locate cfg cmp node1 act
                (if act = InsAct.INSAT then oindex else index) item with
            | Locate.exit ret => InsRes.mk ret node1 none mem1
            | Locate.slot ci cfound cindex =>
              insert1_act_loop cfg cmp dims itemrect act item fuel node1 cindex
                (if act = InsAct.INSAT then oindex else index) ci cfound mem1

/-- The function `insert1` (bgen.h 2109-2279) for every action. -/
def insert1_act (cfg : Config) (cmp : α → α → Int) (dims : Nat)
    (itemrect : α → List Int × List Int) (fuel : Nat) (node : Node α) (act : InsAct)
    (index : Nat) (item : α) (mem : List Bool) : InsRes α :=
  match insert1_locate cfg cmp node act index item with
  | Locate.exit ret => InsRes.mk ret node none mem
  | Locate.slot i found cindex =>
    insert1_act_loop cfg cmp dims itemrect act item fuel node cindex index i found mem

/-- The `while (1)` loop of `insert0` (bgen.h 2300-2308) for every action; `k`
bounds the number of iterations. -/
def insert0_act_loop (cfg : Config) (cmp : α → α → Int) (dims : Nat)
    (itemrect : α → List Int × List Int) (act : InsAct) (index : Nat) (item : α) :
    Nat → Node α → List Bool → InsTree α
  | 0, root, mem => InsTree.mk Status.FUEL (some root) none mem
  | k + 1, root, mem =>
    match insert1_act cfg cmp dims itemrect (2 * depth root) root act index item mem with
    | InsRes.mk ret node old mem1 =>
      if ret ≠ Status.MUSTSPLIT then InsTree.mk ret (some node) old mem1
      else
        match split_root cfg dims itemrect node mem1 with
        | (none, mem2) => InsTree.mk Status.NOMEM (some node) old mem2
        | (some newroot, mem2) =>
          insert0_act_loop cfg cmp dims itemrect act index item k newroot mem2

/-- The function `insert0` (bgen.h 2281-2309) for every action. -/
def insert0_act (cfg : Config) (cmp : α → α → Int) (dims : Nat)
    (itemrect : α → List Int × List Int) (root : Option (Node α)) (act : InsAct)
    (index : Nat) (item : α) (mem : List Bool) : InsTree α :=
  match root with
  | none =>
    if act = InsAct.REPAT ∨ (act = InsAct.INSAT ∧ index > 0) then
      InsTree.mk Status.NOTFOUND none none mem
    else
      match (alloc_node true mem : Option (Node α) × List Bool) with
      | (none, mem1) => InsTree.mk Status.NOMEM none none mem1
      | (some n, mem1) =>
        InsTree.mk Status.INSERTED (some (Node.mk [item] 1 n.isleaf n.children n.rects))
          none mem1
  | some r => insert0_act_loop cfg cmp dims itemrect act index item 2 r mem

/-- The function `push_front` (bgen.h 3360-3368) with `BGEN_SPATIAL`: no fast
path. -/
def push_front (cfg : Config) (cmp : α → α → Int) (dims : Nat)
    (itemrect : α → List Int × List Int) (root : Option (Node α)) (item : α)
    (mem : List Bool) : InsTree α :=
  insert0_act cfg cmp dims itemrect root InsAct.PUSHFRONT 0 item mem

/-- The function `push_back` (bgen.h 3448-3456) with `BGEN_SPATIAL`: no fast
path. -/
def push_back (cfg : Config) (cmp : α → α → Int) (dims : Nat)
    (itemrect : α → List Int × List Int) (root : Option (Node α)) (item : α)
    (mem : List Bool) : InsTree α :=
  insert0_act cfg cmp dims itemrect root InsAct.PUSHBACK 0 item mem

/-- The function `insert_at` (bgen.h 3463-3467) with `BGEN_SPATIAL`. -/
def insert_at (cfg : Config) (cmp : α → α → Int) (dims : Nat)
    (itemrect : α → List Int × List Int) (root : Option (Node α)) (index : Nat)
    (item : α) (mem : List Bool) : InsTree α :=
  insert0_act cfg cmp dims itemrect root InsAct.INSAT index item mem

/-- The function `replace_at` (bgen.h 3109-3113) with `BGEN_SPATIAL`. -/
def replace_at (cfg : Config) (cmp : α → α → Int) (dims : Nat)
    (itemrect : α → List Int × List Int) (root : Option (Node α)) (index : Nat)
    (item : α) (mem : List Bool) : InsTree α :=
  insert0_act cfg cmp dims itemrect root InsAct.REPAT index item mem

/-- The spatial tree `[10, 15] 20 [30, 40, 50]` of height 2 over the points `x`
of the line, with the tight rectangles `[10, 20]` and `[30, 50]`: child 1 is a
full leaf and child 0 is too long to take items from it. -/
def treeN : Node Int :=
  Node.mk [20] 2 false [leafS [10, 15], leafS [30, 40, 50]]
    [Rect.mk [10] [20], Rect.mk [30] [50]]

end Spatial

/-- The counted tree `[10, 15] 20 [30, 40, 50]` of height 2: child 1 is a full
leaf and child 0 is too long to take items from it. -/
def treeN : Node Int := Node.mk [20] 2 false [leafW [10, 15], leafW [30, 40, 50]] [2, 3]

namespace Spatial

/-- The outcome `b` of an insertion routine on a node without rectangles agrees
with the outcome `s` of the routine of the spatial build: same status, same
allocator script left, and the node of `b` is the node of `s` without its
rectangles. -/
def InsSim (b : Bgen.InsRes α) (s : InsRes α) : Prop :=
  b.ret = s.ret ∧ b.node = forget s.node ∧ b.mem = s.mem

/-- The outcome `b` of an operation on a tree without rectangles agrees with the
outcome `s` of the operation of the spatial build. -/
def TreeSim (b : Bgen.TreeRes α) (s : InsTree α) : Prop :=
  b.ret = s.ret ∧ b.root = forget_root s.root ∧ b.mem = s.mem

/-- The outcome `b` of a fast-path loop on a node without rectangles agrees with
the outcome `s` of the loop of the spatial build. -/
def FastSim (b : Bgen.FastRes α) (s : FastRes α) : Prop :=
  match b, s with
  | Bgen.FastRes.done bret bnode bold bmem, FastRes.done ret node old mem =>
    bret = ret ∧ bnode = forget node ∧ bold = old ∧ bmem = mem
  | Bgen.FastRes.brk bret bnode bold bmem, FastRes.brk ret node old mem =>
    bret = ret ∧ bnode = forget node ∧ bold = old ∧ bmem = mem
  | Bgen.FastRes.full, FastRes.full => True
  | _, _ => False

end Spatial

namespace Spatial

/-- What `insert1` leaves of a subtree `n` of `h + 1` levels when it returns
`ret` with the node `node`: after `MUSTSPLIT` or `NOMEM` the subtree is well
shaped with tight rectangles, holds the items it held, and its root node has
lost no item; after `MUSTSPLIT` that node is full. -/
def InsTight (cfg : Config) (dims : Nat) (itemrect : α → List Int × List Int) (h : Nat)
    (n : Node α) (ret : Status) (node : Node α) : Prop :=
  ret = Status.MUSTSPLIT ∨ ret = Status.NOMEM →
    STight cfg dims itemrect (h + 1) node ∧ (∀ x, x ∈ flat node ↔ x ∈ flat n) ∧
    n.items.length ≤ node.items.length ∧
    (ret = Status.MUSTSPLIT → node.items.length = MAXITEMS cfg)

/-- What the loop of `insert_fastpath` leaves of a subtree `n` of `h + 1`
levels: a `return` only after an insertion; after a `break` with `NOMEM` or with
the value 0 the subtree is well shaped with tight rectangles, holds the items it
held, and its root node has lost no item; and only a full leaf is handed to the
parent. -/
def FastTight (cfg : Config) (dims : Nat) (itemrect : α → List Int × List Int) (h : Nat)
    (n : Node α) (res : FastRes α) : Prop :=
  match res with
  | FastRes.done ret _ _ _ => ret = Status.INSERTED
  | FastRes.brk ret node _ _ =>
    ret = Status.NOMEM ∨ ret = Status.NONE →
      STight cfg dims itemrect (h + 1) node ∧ (∀ x, x ∈ flat node ↔ x ∈ flat n) ∧
      n.items.length ≤ node.items.length
  | FastRes.full => n.isleaf = true ∧ n.len = MAXITEMS cfg

end Spatial

/-! ## Theorems -/

section accessors
variable {α : Type} (i : List α) (h : Nat) (l : Bool) (c : List (Node α)) (k : List Nat)

@[simp] theorem Node.items_mk : (Node.mk i h l c k).items = i := rfl
@[simp] theorem Node.height_mk : (Node.mk i h l c k).height = h := rfl
@[simp] theorem Node.isleaf_mk : (Node.mk i h l c k).isleaf = l := rfl
@[simp] theorem Node.children_mk : (Node.mk i h l c k).children = c := rfl
@[simp] theorem Node.counts_mk : (Node.mk i h l c k).counts = k := rfl
@[simp] theorem Node.len_mk : (Node.mk i h l c k).len = i.length := rfl

end accessors

theorem max_eq (cfg : Config) : MAXITEMS cfg = 2 * MINITEMS cfg + 1 := by
  unfold MINITEMS MAXITEMS FANOUTUSED
  split
  · rfl
  · split_ifs <;> omega

theorem min_pos (cfg : Config) : 1 ≤ MINITEMS cfg := by
  unfold MINITEMS MAXITEMS FANOUTUSED
  split
  · decide
  · split_ifs <;> omega

theorem flat_leaf (n : Node α) (h : n.isleaf = true) : flat n = n.items := by
  cases n; simp_all [flat]

theorem flat_branch (n : Node α) (h : n.isleaf = false) : flat n = flatL n.children n.items := by
  cases n; simp_all [flat]

theorem flatL_cons (c : Node α) (B : List (Node α)) (T : List α) :
    flatL (c :: B) T = flat c ++ tailL B T := by
  cases T <;> simp [flatL, tailL]

theorem flatL_app (A : List (Node α)) (S : List α) (B : List (Node α)) (T : List α)
    (h : A.length = S.length) : flatL (A ++ B) (S ++ T) = flatP A S ++ flatL B T := by
  induction A generalizing S with
  | nil => cases S <;> simp_all [flatP]
  | cons a A ih =>
    cases S with
    | nil => simp at h
    | cons s S =>
      simp only [List.length_cons, Nat.add_right_cancel_iff] at h
      simp [flatL, flatP, ih S h]

theorem flatP_app (A : List (Node α)) (S : List α) (B : List (Node α)) (T : List α)
    (h : A.length = S.length) : flatP (A ++ B) (S ++ T) = flatP A S ++ flatP B T := by
  induction A generalizing S with
  | nil => cases S <;> simp_all [flatP]
  | cons a A ih =>
    cases S with
    | nil => simp at h
    | cons s S =>
      simp only [List.length_cons, Nat.add_right_cancel_iff] at h
      simp [flatP, ih S h]

theorem scan_items_eq {σ : Type} (iter : α → σ → Bool × σ) (l : List α) (s : σ) :
    scan_items iter l s = visit iter l s := by
  induction l generalizing s with
  | nil => rfl
  | cons x xs ih => simp [scan_items, visit, ih]

theorem visit_append {σ : Type} (iter : α → σ → Bool × σ) (l1 l2 : List α) (s : σ) :
    visit iter (l1 ++ l2) s =
      if (visit iter l1 s).1 then visit iter l2 (visit iter l1 s).2 else (false, (visit iter l1 s).2) := by
  induction l1 generalizing s with
  | nil => simp [visit]
  | cons x xs ih =>
    simp only [List.cons_append, visit]
    split
    · exact ih _
    · simp

theorem visit_false_fst {σ : Type} (iter : α → σ → Bool × σ) (l : List α) (s : σ)
    (h : (visit iter l s).1 = false) : visit iter l s = (false, (visit iter l s).2) := by
  rw [← h]

mutual
theorem node_scan_eq {σ : Type} (iter : α → σ → Bool × σ) :
    ∀ (n : Node α) (s : σ), node_scan iter n s = visit iter (flat n) s
  | mk items _ isleaf children _, s => by
    rw [node_scan, flat]
    cases isleaf
    · simp only [Bool.false_eq_true, if_false]
      exact node_scanL_eq iter children items s
    · simp only [if_true]
      exact scan_items_eq iter items s
theorem node_scanL_eq {σ : Type} (iter : α → σ → Bool × σ) :
    ∀ (cs : List (Node α)) (ss : List α) (s : σ),
      node_scanL iter cs ss s = visit iter (flatL cs ss) s
  | [], _, s => by simp [node_scanL, flatL, visit]
  | c :: _, [], s => by
    rw [node_scanL, flatL]
    exact node_scan_eq iter c s
  | c :: cs, x :: xs, s => by
    rw [node_scanL, flatL, visit_append, node_scan_eq iter c s]
    simp only [visit]
    rw [node_scanL_eq iter cs xs]
end

theorem split_at_lt {β : Type} (l : List β) (i : Nat) (h : i < l.length) :
    ∃ A c B, l = A ++ c :: B ∧ A.length = i := by
  refine ⟨l.take i, l[i], l.drop (i + 1), ?_, ?_⟩
  · rw [← List.drop_eq_getElem_cons h, List.take_append_drop]
  · simp; omega

theorem split_at_le {β : Type} (l : List β) (i : Nat) (h : i ≤ l.length) :
    ∃ S T, l = S ++ T ∧ S.length = i :=
  ⟨l.take i, l.drop i, (List.take_append_drop i l).symm, by simp; omega⟩

section app
variable {β : Type} {A B : List β} {c d e : β} {i : Nat}

theorem app_get (h : A.length = i) : (A ++ c :: B)[i]? = some c := by
  subst h; rw [List.getElem?_append_right (le_refl _)]; simp
theorem app_get1 (h : A.length = i) : (A ++ c :: d :: B)[i + 1]? = some d := by
  subst h; rw [List.getElem?_append_right (by omega)]; simp
theorem app_getD (h : A.length = i) : (A ++ c :: B).getD i e = c := by
  rw [List.getD_eq_getElem?_getD, app_get h]; rfl
theorem app_getD1 (h : A.length = i) : (A ++ c :: d :: B).getD (i + 1) e = d := by
  rw [List.getD_eq_getElem?_getD, app_get1 h]; rfl
theorem app_set (h : A.length = i) : (A ++ c :: B).set i d = A ++ d :: B := by
  subst h; simp
theorem app_set1 (h : A.length = i) : (A ++ c :: d :: B).set (i + 1) e = A ++ c :: e :: B := by
  subst h; rw [List.set_append]; simp
theorem app_take (h : A.length = i) : (A ++ B).take i = A := by
  subst h; simp
theorem app_drop (h : A.length = i) : (A ++ B).drop i = B := by
  subst h; simp
theorem app_take1 (h : A.length = i) : (A ++ c :: B).take (i + 1) = A ++ [c] := by
  subst h; rw [List.take_append]; simp
theorem app_drop1 (h : A.length = i) : (A ++ c :: B).drop (i + 1) = B := by
  subst h; simp
theorem app_erase (h : A.length = i) : (A ++ c :: B).eraseIdx i = A ++ B := by
  subst h; rw [List.eraseIdx_append_of_length_le (le_refl _)]; simp
theorem app_erase1 (h : A.length = i) : (A ++ c :: d :: B).eraseIdx (i + 1) = A ++ c :: B := by
  subst h; rw [List.eraseIdx_append_of_length_le (by omega)]; simp
theorem app_get_none (h : A.length = i) : (A ++ ([] : List β))[i]? = none := by
  subst h; simp
end app

section ord
variable {cmp : α → α → Int}

theorem OrdCmp.eq_symm (ho : OrdCmp cmp) {a b : α} (h : cmp a b = 0) : cmp b a = 0 := by
  have h1 := ho.symm a b
  have h2 := ho.symm b a
  omega

theorem OrdCmp.lt_of_lt_of_le (ho : OrdCmp cmp) {a b c : α} (h1 : cmp a b < 0)
    (h2 : cmp b c ≤ 0) : cmp a c < 0 := by
  have h3 := ho.le_trans a b c (by omega) h2
  rcases lt_or_eq_of_le h3 with h | h
  · exact h
  · have h4 := ho.eq_symm h
    have h5 := ho.le_trans b c a h2 (by omega)
    have h6 := (ho.symm a b).1 h1
    omega

theorem OrdCmp.lt_of_le_of_lt (ho : OrdCmp cmp) {a b c : α} (h1 : cmp a b ≤ 0)
    (h2 : cmp b c < 0) : cmp a c < 0 := by
  have h3 := ho.le_trans a b c h1 (by omega)
  rcases lt_or_eq_of_le h3 with h | h
  · exact h
  · have h4 := ho.eq_symm h
    have h5 := ho.le_trans c a b (by omega) h1
    have h6 := (ho.symm b c).1 h2
    omega

theorem OrdCmp.lt_trans (ho : OrdCmp cmp) {a b c : α} (h1 : lt cmp a b) (h2 : lt cmp b c) :
    lt cmp a c :=
  ho.lt_of_lt_of_le h1 (by unfold lt at h2; omega)

theorem OrdCmp.gt_iff (ho : OrdCmp cmp) (a b : α) : 0 < cmp a b ↔ lt cmp b a :=
  (ho.symm b a).symm

theorem OrdCmp.ne_of_lt (ho : OrdCmp cmp) {a b : α} (h : lt cmp a b) : cmp b a ≠ 0 := by
  have := (ho.symm a b).1 h
  omega

theorem search_linear_spec (cmp : α → α → Int) (l : List α) (key : α) :
    ∃ S T, l = S ++ T ∧ S.length = (search_linear cmp l key).1 ∧
      (∀ x ∈ S, 0 < cmp key x) ∧
      ((search_linear cmp l key).2 = true → ∃ y T1, T = y :: T1 ∧ cmp key y = 0) ∧
      ((search_linear cmp l key).2 = false → ∀ y T1, T = y :: T1 → cmp key y < 0) := by
  induction l with
  | nil => exact ⟨[], [], rfl, rfl, by simp, by simp [search_linear], by simp⟩
  | cons x xs ih =>
    by_cases hx : cmp key x ≤ 0
    · refine ⟨[], x :: xs, rfl, by simp [search_linear, hx], by simp, ?_, ?_⟩
      · simp only [search_linear, hx, if_true, decide_eq_true_eq]
        intro h; exact ⟨x, xs, rfl, h⟩
      · simp only [search_linear, hx, if_true, decide_eq_false_iff_not]
        intro h y T1 hT
        simp only [List.cons.injEq] at hT
        obtain ⟨rfl, _⟩ := hT
        omega
    · obtain ⟨S, T, h1, h2, h3, h4, h5⟩ := ih
      refine ⟨x :: S, T, by simp [h1], by simp [search_linear, hx, h2], ?_, ?_, ?_⟩
      · intro y hy
        simp only [List.mem_cons] at hy
        rcases hy with rfl | hy
        · omega
        · exact h3 y hy
      · simpa [search_linear, hx] using h4
      · simpa [search_linear, hx] using h5

theorem flatP_lt (ho : OrdCmp cmp) (key : α) (A : List (Node α)) (S : List α)
    (hp : (flatP A S).Pairwise (lt cmp)) (hS : ∀ x ∈ S, lt cmp x key) :
    ∀ x ∈ flatP A S, lt cmp x key := by
  induction A generalizing S with
  | nil => simp [flatP]
  | cons a A ih =>
    cases S with
    | nil => simp [flatP]
    | cons s S =>
      simp only [flatP, List.pairwise_append, List.pairwise_cons, List.mem_cons] at hp
      intro x hx
      simp only [flatP, List.mem_append, List.mem_cons] at hx
      have hs : lt cmp s key := hS s (by simp)
      rcases hx with hx | rfl | hx
      · exact ho.lt_trans (hp.2.2 x hx s (Or.inl rfl)) hs
      · exact hs
      · exact ih S hp.2.1.2 (fun y hy => hS y (by simp [hy])) x hx

theorem tailL_gt (ho : OrdCmp cmp) (key : α) (B : List (Node α)) (T : List α)
    (hp : (tailL B T).Pairwise (lt cmp)) (hT : ∀ y T1, T = y :: T1 → lt cmp key y) :
    ∀ x ∈ tailL B T, lt cmp key x := by
  cases T with
  | nil => simp [tailL]
  | cons t T =>
    simp only [tailL, List.pairwise_cons] at hp
    intro x hx
    simp only [tailL, List.mem_cons] at hx
    have ht := hT t T rfl
    rcases hx with rfl | hx
    · exact ht
    · exact ho.lt_trans ht (hp.1 x hx)
end ord

theorem branch_decomp (n : Node α) (i : Nat) (hi : i ≤ n.items.length)
    (hlen : n.children.length = n.items.length + 1) :
    ∃ A c B S T, n.children = A ++ c :: B ∧ n.items = S ++ T ∧ A.length = i ∧ S.length = i ∧
      B.length = T.length := by
  obtain ⟨A, c, B, h1, h2⟩ := split_at_lt n.children i (by omega)
  obtain ⟨S, T, h3, h4⟩ := split_at_le n.items i hi
  refine ⟨A, c, B, S, T, h1, h3, h2, h4, ?_⟩
  have := congrArg List.length h1
  have := congrArg List.length h3
  simp at *
  omega

section wf
variable {cfg : Config} {cmp : α → α → Int}

theorem wf_leaf {n : Node α} (hw : WF cfg 1 n) :
    n.isleaf = true ∧ n.height = 1 ∧ n.items.length ≤ MAXITEMS cfg := by
  simp only [WF] at hw
  exact ⟨hw.2.2.1.2 trivial, hw.1, hw.2.1⟩

theorem wf_branch {h : Nat} {n : Node α} (hw : WF cfg (h + 2) n) :
    n.isleaf = false ∧ n.height = h + 2 ∧ n.items.length ≤ MAXITEMS cfg ∧
      n.children.length = n.items.length + 1 ∧
      (cfg.counted = true → n.counts = n.children.map (fun c => (flat c).length)) ∧
      ∀ c ∈ n.children, MINITEMS cfg ≤ c.items.length ∧ WF cfg (h + 1) c := by
  simp only [WF] at hw
  have hl : n.isleaf = false := by
    cases hb : n.isleaf
    · rfl
    · have := hw.2.2.1.1 hb; omega
  exact ⟨hl, hw.1, hw.2.1, (hw.2.2.2 hl).1, (hw.2.2.2 hl).2.1, (hw.2.2.2 hl).2.2⟩

theorem wf_mk_leaf {items : List α} {children : List (Node α)} {counts : List Nat}
    (hlen : items.length ≤ MAXITEMS cfg) : WF cfg 1 (Node.mk items 1 true children counts) := by
  simp [WF, hlen]

theorem wf_mk_branch {h : Nat} {items : List α} {children : List (Node α)} {counts : List Nat}
    (hlen : items.length ≤ MAXITEMS cfg) (hc : children.length = items.length + 1)
    (hk : cfg.counted = true → counts = children.map (fun c => (flat c).length))
    (hch : ∀ c ∈ children, MINITEMS cfg ≤ c.items.length ∧ WF cfg (h + 1) c) :
    WF cfg (h + 2) (Node.mk items (h + 2) false children counts) := by
  simp only [WF, Node.height, Node.items, Node.isleaf, Node.children, Node.counts]
  exact ⟨trivial, hlen, by simp, fun _ => ⟨hc, hk, hch⟩⟩

theorem wf_height {h : Nat} {n : Node α} (hw : WF cfg h n) : n.height = h := by
  cases h with
  | zero => exact absurd hw (by simp [WF])
  | succ h => simp only [WF] at hw; exact hw.1

theorem wf_len_le {h : Nat} {n : Node α} (hw : WF cfg h n) : n.items.length ≤ MAXITEMS cfg := by
  cases h with
  | zero => exact absurd hw (by simp [WF])
  | succ h => simp only [WF] at hw; exact hw.2.1

theorem wf_pos {h : Nat} {n : Node α} (hw : WF cfg h n) : 1 ≤ h := by
  cases h with
  | zero => exact absurd hw (by simp [WF])
  | succ h => omega

theorem wf_isleaf {h : Nat} {n : Node α} (hw : WF cfg h n) : n.isleaf = decide (h = 1) := by
  cases h with
  | zero => exact absurd hw (by simp [WF])
  | succ h =>
    cases h with
    | zero => simp [(wf_leaf hw).1]
    | succ h => simp [(wf_branch hw).1]

theorem depthL_const (cs : List (Node α)) (h : Nat) (hne : cs ≠ [])
    (hall : ∀ c ∈ cs, depth c = h) : depthL cs = h := by
  induction cs with
  | nil => exact absurd rfl hne
  | cons c cs ih =>
    cases cs with
    | nil => simp [depthL, hall c (by simp)]
    | cons d ds =>
      have := ih (by simp) (fun x hx => hall x (by simp [hx]))
      rw [depthL, this, hall c (by simp)]
      simp

theorem wf_depth : ∀ (h : Nat) (n : Node α), WF cfg h n → depth n = h
  | 0, _, hw => absurd hw (by simp [WF])
  | 1, n, hw => by
    have := (wf_leaf hw).1
    cases n; simp_all [depth]
  | h + 2, n, hw => by
    obtain ⟨hl, _, _, hc, _, hch⟩ := wf_branch hw
    have ih : ∀ c ∈ n.children, depth c = h + 1 := fun c hc => wf_depth (h + 1) c (hch c hc).2
    have hne : n.children ≠ [] := by
      intro h0; rw [h0] at hc; simp at hc
    have := depthL_const n.children (h + 1) hne ih
    cases n; simp_all [depth]; omega

theorem flatL_length (cs : List (Node α)) (ss : List α) (h : cs.length = ss.length + 1) :
    (flatL cs ss).length = (cs.map (fun c => (flat c).length)).sum + ss.length := by
  induction cs generalizing ss with
  | nil => simp at h
  | cons c cs ih =>
    cases ss with
    | nil =>
      have : cs = [] := by simpa using h
      subst this
      simp [flatL]
    | cons s ss =>
      simp only [List.length_cons, Nat.add_right_cancel_iff] at h
      simp [flatL, ih ss h]; omega

theorem deepcountL_eq (cs : List (Node α)) (n : Nat) (h : cs.length ≤ n) :
    deepcountL cs n = (cs.map deepcount).sum := by
  induction cs generalizing n with
  | nil => simp [deepcountL]
  | cons c cs ih =>
    cases n with
    | zero => simp at h
    | succ n =>
      simp only [List.length_cons, Nat.add_le_add_iff_right] at h
      simp [deepcountL, ih n h]

theorem wf_deepcount : ∀ (h : Nat) (n : Node α), WF cfg h n → deepcount n = (flat n).length
  | 0, _, hw => absurd hw (by simp [WF])
  | 1, n, hw => by
    have := (wf_leaf hw).1
    cases n; simp_all [deepcount, flat]
  | h + 2, n, hw => by
    obtain ⟨hl, _, _, hc, _, hch⟩ := wf_branch hw
    have ih : ∀ c ∈ n.children, deepcount c = (flat c).length :=
      fun c hc => wf_deepcount (h + 1) c (hch c hc).2
    have h1 : n.children.map deepcount = n.children.map (fun c => (flat c).length) :=
      List.map_congr_left ih
    have h2 := flatL_length n.children n.items hc
    have h3 := deepcountL_eq n.children (n.items.length + 1) (by omega)
    cases n
    simp only [Node.isleaf, Node.children, Node.items] at hl hc h1 h2 h3
    simp only [deepcount, flat, hl, h3, h1, h2]
    simp; omega

theorem wf_count0 {h : Nat} {n : Node α} (hw : WF cfg h n) : count0 cfg n = (flat n).length := by
  unfold count0
  cases hk : cfg.counted
  · simp [wf_deepcount h n hw]
  · cases h with
    | zero => exact absurd hw (by simp [WF])
    | succ h =>
      cases h with
      | zero =>
        have := (wf_leaf hw).1
        simp [this, flat_leaf n this, Node.len]
      | succ h =>
        obtain ⟨hl, _, _, hc, hcnt, hch⟩ := wf_branch hw
        have h2 := flatL_length n.children n.items hc
        rw [flat_branch n hl, h2]
        have h5 : List.take n.children.length (List.map (fun c => (flat c).length) n.children)
            = List.map (fun c => (flat c).length) n.children :=
          List.take_of_length_le (by simp)
        simp [hl, Node.len, hcnt hk, ← hc, h5]
        omega

theorem wf_child {h : Nat} {n : Node α} (hw : WF cfg (h + 2) n) {i : Nat}
    (hi : i ≤ n.items.length) :
    WF cfg (h + 1) (n.child i) ∧ MINITEMS cfg ≤ (n.child i).items.length := by
  obtain ⟨_, _, _, hc, _, hch⟩ := wf_branch hw
  have hlt : i < n.children.length := by omega
  have : n.child i ∈ n.children := by
    unfold Node.child
    rw [List.getD_eq_getElem _ _ hlt]
    exact List.getElem_mem hlt
  exact ⟨(hch _ this).2, (hch _ this).1⟩

theorem wf_node_count {h : Nat} {n : Node α} (hw : WF cfg (h + 2) n) {i : Nat}
    (hi : i ≤ n.items.length) : node_count cfg n i = (flat (n.child i)).length := by
  unfold node_count
  cases hk : cfg.counted
  · simp [wf_count0 (wf_child hw hi).1]
  · obtain ⟨_, _, _, hc, hcnt, _⟩ := wf_branch hw
    have hlt : i < n.children.length := by omega
    simp only [if_true, Node.count, Node.child, hcnt hk]
    rw [List.getD_eq_getElem _ _ (by simpa using hlt), List.getD_eq_getElem _ _ hlt]
    simp

end wf

section get
variable {cfg : Config} {cmp : α → α → Int}

theorem pairwise_cmp_unique (ho : OrdCmp cmp) (key : α) :
    ∀ (l : List α), l.Pairwise (lt cmp) → ∀ y ∈ l, ∀ z ∈ l, cmp key y = 0 → cmp key z = 0 → y = z
  | [], _, y, hy, _, _, _, _ => by simp at hy
  | a :: l, hp, y, hy, z, hz, h1, h2 => by
    simp only [List.pairwise_cons] at hp
    simp only [List.mem_cons] at hy hz
    have key_lemma : ∀ u ∈ l, cmp key a = 0 → cmp key u = 0 → False := by
      intro u hu ha hu0
      have h3 := hp.1 u hu
      have h4 := ho.le_trans u key a (by have := ho.eq_symm hu0; omega) (by omega)
      have h5 := (ho.symm a u).1 h3
      omega
    rcases hy with rfl | hy <;> rcases hz with rfl | hz
    · rfl
    · exact absurd (key_lemma z hz h1 h2) id
    · exact absurd (key_lemma y hy h2 h1) id
    · exact pairwise_cmp_unique ho key l hp.2 y hy z hz h1 h2

/-- Decomposition of a branch around the slot `i` with `i ≤ len`. -/
theorem branch_flat {h : Nat} {n : Node α} (hw : WF cfg (h + 2) n) {i : Nat}
    (hi : i ≤ n.items.length) :
    ∃ A c B S T, n.children = A ++ c :: B ∧ n.items = S ++ T ∧ A.length = i ∧ S.length = i ∧
      B.length = T.length ∧ n.child i = c ∧
      flat n = flatP A S ++ (flat c ++ tailL B T) := by
  obtain ⟨hl, _, _, hc, _, _⟩ := wf_branch hw
  obtain ⟨A, c, B, S, T, h1, h2, h3, h4, h5⟩ := branch_decomp n i hi hc
  refine ⟨A, c, B, S, T, h1, h2, h3, h4, h5, ?_, ?_⟩
  · unfold Node.child; rw [h1]; exact app_getD h3
  · rw [flat_branch n hl, h1, h2, flatL_app A S _ T (by omega), flatL_cons]

/-- What the search in a node says about the sorted item array. -/
theorem search_items (ho : OrdCmp cmp) (n : Node α) (key : α)
    (hp : n.items.Pairwise (lt cmp)) :
    ∃ S T, n.items = S ++ T ∧ S.length = (search cmp n key).1 ∧
      (∀ x ∈ S, lt cmp x key) ∧
      ((search cmp n key).2 = true → ∃ y T1, T = y :: T1 ∧ cmp key y = 0) ∧
      ((search cmp n key).2 = false → ∀ x ∈ T, lt cmp key x) := by
  obtain ⟨S, T, h1, h2, h3, h4, h5⟩ := search_linear_spec cmp n.items key
  refine ⟨S, T, h1, h2, fun x hx => (ho.gt_iff key x).1 (h3 x hx), h4, ?_⟩
  intro hf x hx
  cases T with
  | nil => simp at hx
  | cons t T =>
    have ht : lt cmp key t := h5 hf t T rfl
    rw [h1] at hp
    simp only [List.pairwise_append, List.pairwise_cons] at hp
    simp only [List.mem_cons] at hx
    rcases hx with rfl | hx
    · exact ht
    · exact ho.lt_trans ht (hp.2.1.1 x hx)

theorem items_sublist_flatL : ∀ (cs : List (Node α)) (ss : List α),
    cs.length = ss.length + 1 → ss.Sublist (flatL cs ss)
  | [], _, h => by simp at h
  | c :: cs, [], _ => by simp
  | c :: cs, s :: ss, h => by
    rw [flatL]
    have ih := items_sublist_flatL cs ss (by simpa using h)
    exact List.Sublist.trans (List.Sublist.cons₂ s ih) (List.sublist_append_right _ _)

theorem wf_items_sublist {h : Nat} {n : Node α} (hw : WF cfg h n) : n.items.Sublist (flat n) := by
  cases h with
  | zero => exact absurd hw (by simp [WF])
  | succ h =>
    cases h with
    | zero => rw [flat_leaf n (wf_leaf hw).1]
    | succ h =>
      obtain ⟨hl, _, _, hc, _, _⟩ := wf_branch hw
      rw [flat_branch n hl]
      exact items_sublist_flatL _ _ hc

/-- The search in a branch of a sorted tree: everything left of child `i` is
below the key, and when the key is not in the node everything right of child
`i` is above it. -/
theorem search_branch (ho : OrdCmp cmp) {h : Nat} {n : Node α} (hw : WF cfg (h + 2) n)
    (key : α) (hp : (flat n).Pairwise (lt cmp)) :
    ∃ A c B S T, n.children = A ++ c :: B ∧ n.items = S ++ T ∧
      A.length = (search cmp n key).1 ∧ S.length = (search cmp n key).1 ∧
      B.length = T.length ∧ n.child (search cmp n key).1 = c ∧
      flat n = flatP A S ++ (flat c ++ tailL B T) ∧
      (∀ x ∈ flatP A S, lt cmp x key) ∧
      ((search cmp n key).2 = true → ∃ y T1, T = y :: T1 ∧ cmp key y = 0) ∧
      ((search cmp n key).2 = false → ∀ x ∈ tailL B T, lt cmp key x) := by
  have hpi : n.items.Pairwise (lt cmp) := hp.sublist (wf_items_sublist hw)
  obtain ⟨S0, T0, e1, e2, e3, e4, e5⟩ := search_items ho n key hpi
  have hi : (search cmp n key).1 ≤ n.items.length := by
    rw [e1, ← e2]; simp
  obtain ⟨A, c, B, S, T, h1, h2, h3, h4, h5, h6, h7⟩ := branch_flat hw hi
  have hS : S = S0 := by
    have := congrArg (List.take (search cmp n key).1) (h2.symm.trans e1)
    rwa [app_take h4, app_take e2] at this
  have hT : T = T0 := by
    have := congrArg (List.drop (search cmp n key).1) (h2.symm.trans e1)
    rwa [app_drop h4, app_drop e2] at this
  subst hS hT
  rw [h7] at hp
  simp only [List.pairwise_append] at hp
  refine ⟨A, c, B, S, T, h1, h2, h3, h4, h5, h6, h7, ?_, e4, ?_⟩
  · exact flatP_lt ho key A S hp.1 e3
  · intro hf
    exact tailL_gt ho key B T hp.2.1.2.1 (fun y T1 hT => e5 hf y (by simp [hT]))

theorem get_loop_spec (ho : OrdCmp cmp) (key : α) :
    ∀ (h fuel : Nat) (n : Node α), WF cfg h n → h ≤ fuel → (flat n).Pairwise (lt cmp) →
      (∀ y ∈ flat n, cmp key y = 0 → get_loop cmp key fuel n = (Status.FOUND, some y)) ∧
      ((∀ y ∈ flat n, cmp key y ≠ 0) → get_loop cmp key fuel n = (Status.NOTFOUND, none))
  | 0, _, _, hw, _, _ => absurd hw (by simp [WF])
  | 1, fuel, n, hw, hf, hp => by
    obtain ⟨f, rfl⟩ : ∃ f, fuel = f + 1 := ⟨fuel - 1, by omega⟩
    have hl := (wf_leaf hw).1
    rw [flat_leaf n hl] at hp ⊢
    obtain ⟨S, T, e1, e2, e3, e4, e5⟩ := search_items ho n key hp
    rw [get_loop]
    cases hfound : (search cmp n key).2
    · simp only [Bool.false_eq_true, if_false, hl, if_true]
      have hno : ∀ y ∈ n.items, cmp key y ≠ 0 := by
        intro y hy
        rw [e1, List.mem_append] at hy
        rcases hy with hy | hy
        · have := (ho.symm y key).1 (e3 y hy); omega
        · have := e5 hfound y hy; unfold lt at this; omega
      exact ⟨fun y hy h0 => absurd h0 (hno y hy), fun _ => trivial⟩
    · obtain ⟨y0, T1, hT, h0⟩ := e4 hfound
      have hy0 : n.items[(search cmp n key).1]? = some y0 := by
        rw [e1, hT]; exact app_get e2
      have hmem : y0 ∈ n.items := by rw [e1, hT]; simp
      simp only [if_true, hy0]
      exact ⟨fun y hy h1 => by rw [pairwise_cmp_unique ho key _ hp y hy y0 hmem h1 h0],
        fun hno => absurd h0 (hno y0 hmem)⟩
  | h + 2, fuel, n, hw, hf, hp => by
    obtain ⟨f, rfl⟩ : ∃ f, fuel = f + 1 := ⟨fuel - 1, by omega⟩
    obtain ⟨A, c, B, S, T, h1, h2, h3, h4, h5, h6, h7, h8, h9, h10⟩ := search_branch ho hw key hp
    have hl := (wf_branch hw).1
    have hi : (search cmp n key).1 ≤ n.items.length := by rw [h2, ← h4]; simp
    have hwc := (wf_child hw hi).1
    rw [h6] at hwc
    have hpc : (flat c).Pairwise (lt cmp) := by
      rw [h7] at hp
      simp only [List.pairwise_append] at hp
      exact hp.2.1.1
    have ih := get_loop_spec ho key (h + 1) f c hwc (by omega) hpc
    rw [get_loop]
    cases hfound : (search cmp n key).2
    · simp only [Bool.false_eq_true, if_false, hl, h6]
      have hside : ∀ y ∈ flat n, cmp key y = 0 → y ∈ flat c := by
        intro y hy h0
        rw [h7] at hy
        simp only [List.mem_append] at hy
        rcases hy with hy | hy | hy
        · have := (ho.symm y key).1 (h8 y hy); omega
        · exact hy
        · have := h10 hfound y hy; unfold lt at this; omega
      refine ⟨fun y hy h0 => ih.1 y (hside y hy h0) h0, fun hno => ih.2 (fun y hy => hno y ?_)⟩
      rw [h7]; simp [hy]
    · obtain ⟨y0, T1, hT, h0⟩ := h9 hfound
      have hy0 : n.items[(search cmp n key).1]? = some y0 := by
        rw [h2, hT]; exact app_get h4
      have hmem : y0 ∈ flat n := by rw [h7, hT]; simp [tailL]
      simp only [if_true, hy0]
      exact ⟨fun y hy h1 => by rw [pairwise_cmp_unique ho key _ hp y hy y0 hmem h1 h0],
        fun hno => absurd h0 (hno y0 hmem)⟩

end get

mutual
theorem node_scan_desc_eq {σ : Type} (iter : α → σ → Bool × σ) :
    ∀ (n : Node α) (s : σ), node_scan_desc iter n s = visit iter (flat n).reverse s
  | mk items _ isleaf children _, s => by
    rw [node_scan_desc, flat]
    cases isleaf
    · simp only [Bool.false_eq_true, if_false]
      exact node_scan_descL_eq iter children items s
    · simp only [if_true]
      exact scan_items_eq iter items.reverse s
theorem node_scan_descL_eq {σ : Type} (iter : α → σ → Bool × σ) :
    ∀ (cs : List (Node α)) (ss : List α) (s : σ),
      node_scan_descL iter cs ss s = visit iter (flatL cs ss).reverse s
  | [], _, s => by simp [node_scan_descL, flatL, visit]
  | c :: _, [], s => by
    rw [node_scan_descL, flatL]
    exact node_scan_desc_eq iter c s
  | c :: cs, x :: xs, s => by
    rw [node_scan_descL, flatL, List.reverse_append, List.reverse_cons, List.append_assoc,
      visit_append, node_scan_descL_eq iter cs xs s]
    simp only [List.singleton_append, visit]
    rw [node_scan_desc_eq iter c]
    rfl
end

theorem scan_eq {σ : Type} (root : Option (Node α)) (iter : α → σ → Bool × σ) (s : σ) :
    scan root iter s =
      (if (visit iter (items_of root) s).1 then Status.FINISHED else Status.STOPPED,
        (visit iter (items_of root) s).2) := by
  cases root with
  | none => simp [scan, items_of, visit]
  | some r =>
    simp only [scan, items_of, node_scan_eq]
    split <;> rfl

theorem scan_desc_eq {σ : Type} (root : Option (Node α)) (iter : α → σ → Bool × σ) (s : σ) :
    scan_desc root iter s =
      (if (visit iter (items_of root).reverse s).1 then Status.FINISHED else Status.STOPPED,
        (visit iter (items_of root).reverse s).2) := by
  cases root with
  | none => simp [scan_desc, items_of, visit]
  | some r =>
    simp only [scan_desc, items_of, node_scan_desc_eq]
    split <;> rfl

theorem inv_sorted {cfg : Config} {cmp : α → α → Int} {root : Option (Node α)}
    (hinv : Inv cfg cmp root) (hord : cfg.noorder = false) :
    (items_of root).Pairwise (lt cmp) := by
  cases root with
  | none => simp [items_of]
  | some r => exact hinv.2.2 hord

section getat
variable {cfg : Config} {cmp : α → α → Int}

theorem child_eq_getElem (n : Node α) (i : Nat) (h : i < n.children.length) :
    n.child i = n.children[i] := by
  unfold Node.child; exact List.getD_eq_getElem _ _ h

theorem get_at_walk_spec {h : Nat} {n : Node α} (hw : WF cfg (h + 2) n) :
    ∀ (k i index : Nat), i + k = n.items.length →
      (∀ j, get_at_walk cfg n k i index = Sum.inl j →
        j < n.items.length ∧ n.items[j]? = (flatL (n.children.drop i) (n.items.drop i))[index]? ∧
          index < (flatL (n.children.drop i) (n.items.drop i)).length) ∧
      (∀ j index1, get_at_walk cfg n k i index = Sum.inr (j, index1) →
        j ≤ n.items.length ∧
          (flat (n.child j))[index1]? = (flatL (n.children.drop i) (n.items.drop i))[index]? ∧
          (index1 < (flat (n.child j)).length ↔
            index < (flatL (n.children.drop i) (n.items.drop i)).length))
  | 0, i, index, hik => by
    obtain ⟨_, _, _, hc, _, _⟩ := wf_branch hw
    simp only [Nat.add_zero] at hik
    have hlt : i < n.children.length := by omega
    have hd : n.children.drop i = [n.child i] := by
      rw [List.drop_eq_getElem_cons hlt, child_eq_getElem n i hlt]
      have : n.children.drop (i + 1) = [] := List.drop_of_length_le (by omega)
      rw [this]
    have hd2 : n.items.drop i = [] := by simp; omega
    simp only [get_at_walk, hd, hd2, flatL]
    refine ⟨by simp, ?_⟩
    intro j index1 hj
    simp only [Sum.inr.injEq, Prod.mk.injEq] at hj
    obtain ⟨rfl, rfl⟩ := hj
    exact ⟨by omega, rfl, Iff.rfl⟩
  | k + 1, i, index, hik => by
    obtain ⟨_, _, _, hc, _, _⟩ := wf_branch hw
    have hlt : i < n.children.length := by omega
    have hlt2 : i < n.items.length := by omega
    have hd : n.children.drop i = n.child i :: n.children.drop (i + 1) := by
      rw [List.drop_eq_getElem_cons hlt, child_eq_getElem n i hlt]
    have hd2 : n.items.drop i = n.items[i] :: n.items.drop (i + 1) :=
      List.drop_eq_getElem_cons hlt2
    have hcnt := wf_node_count hw (Nat.le_of_lt hlt2)
    have ih := get_at_walk_spec hw k (i + 1) (index - (node_count cfg n i + 1)) (by omega)
    rw [hd, hd2, flatL, get_at_walk]
    by_cases h1 : index < node_count cfg n i
    · simp only [h1, if_true]
      refine ⟨by simp, ?_⟩
      intro j index1 hj
      simp only [Sum.inr.injEq, Prod.mk.injEq] at hj
      obtain ⟨rfl, rfl⟩ := hj
      rw [hcnt] at h1
      refine ⟨by omega, ?_, ?_⟩
      · rw [List.getElem?_append_left h1]
      · simp; omega
    · simp only [h1, if_false]
      by_cases h2 : index = node_count cfg n i
      · simp only [h2, if_true]
        refine ⟨?_, by simp⟩
        intro j hj
        simp only [Sum.inl.injEq] at hj
        subst hj
        rw [hcnt]
        refine ⟨hlt2, ?_, by simp⟩
        rw [List.getElem?_append_right (le_refl _)]
        simp
      · simp only [h2, if_false]
        have hge : (flat (n.child i)).length + 1 ≤ index := by rw [← hcnt]; omega
        have hget : (flat (n.child i) ++ n.items[i] :: flatL (List.drop (i + 1) n.children)
            (List.drop (i + 1) n.items))[index]? =
            (flatL (List.drop (i + 1) n.children) (List.drop (i + 1) n.items))[index -
              (node_count cfg n i + 1)]? := by
          rw [List.getElem?_append_right (by omega), hcnt]
          have : index - (flat (n.child i)).length =
              (index - ((flat (n.child i)).length + 1)) + 1 := by omega
          rw [this, List.getElem?_cons_succ]
        refine ⟨?_, ?_⟩
        · intro j hj
          obtain ⟨a, b, c⟩ := ih.1 j hj
          refine ⟨a, by rw [hget]; exact b, ?_⟩
          simp only [List.length_append, List.length_cons]
          rw [hcnt] at c; omega
        · intro j index1 hj
          obtain ⟨a, b, c⟩ := ih.2 j index1 hj
          refine ⟨a, by rw [hget]; exact b, ?_⟩
          simp only [List.length_append, List.length_cons]
          rw [hcnt] at c; omega

theorem get_at_loop_spec :
    ∀ (h fuel : Nat) (n : Node α) (index : Nat), WF cfg h n → h ≤ fuel →
      get_at_loop cfg fuel n index =
        if index < (flat n).length then (Status.FOUND, (flat n)[index]?)
        else (Status.NOTFOUND, none)
  | 0, _, _, _, hw, _ => absurd hw (by simp [WF])
  | 1, fuel, n, index, hw, hf => by
    obtain ⟨f, rfl⟩ : ∃ f, fuel = f + 1 := ⟨fuel - 1, by omega⟩
    have hl := (wf_leaf hw).1
    rw [get_at_loop, flat_leaf n hl]
    simp only [hl, if_true, Node.len, ge_iff_le]
    by_cases hi : index < n.items.length
    · simp [hi, Nat.not_le.2 hi]
    · simp [hi, Nat.le_of_not_lt hi]
  | h + 2, fuel, n, index, hw, hf => by
    obtain ⟨f, rfl⟩ : ∃ f, fuel = f + 1 := ⟨fuel - 1, by omega⟩
    have hl := (wf_branch hw).1
    have hsp := get_at_walk_spec hw n.items.length 0 index (by omega)
    simp only [List.drop_zero] at hsp
    rw [get_at_loop, flat_branch n hl]
    simp only [hl, Bool.false_eq_true, if_false, Node.len]
    cases hwk : get_at_walk cfg n n.items.length 0 index with
    | inl j =>
      obtain ⟨a, b, c⟩ := hsp.1 j hwk
      simp [c, b]
    | inr p =>
      obtain ⟨j, index1⟩ := p
      obtain ⟨a, b, c⟩ := hsp.2 j index1 hwk
      have hwc := (wf_child hw a).1
      simp only
      rw [get_at_loop_spec (h + 1) f (n.child j) index1 hwc (by omega), b]
      by_cases hlt : index < (flatL n.children n.items).length
      · simp [hlt, c.2 hlt]
      · have : ¬ index1 < (flat (n.child j)).length := fun hh => hlt (c.1 hh)
        simp [hlt, this]

end getat

section indexof
variable {cfg : Config} {cmp : α → α → Int}

theorem flatP_length (A : List (Node α)) (S : List α) (h : A.length = S.length) :
    (flatP A S).length = (A.map (fun a => (flat a).length)).sum + S.length := by
  induction A generalizing S with
  | nil => cases S <;> simp_all [flatP]
  | cons a A ih =>
    cases S with
    | nil => simp at h
    | cons s S =>
      simp only [List.length_cons, Nat.add_right_cancel_iff] at h
      simp [flatP, ih S h]; omega

theorem range_sum_counts {h : Nat} {n : Node α} (hw : WF cfg (h + 2) n)
    {A B : List (Node α)} {c : Node α} (hc : n.children = A ++ c :: B)
    (hA : A.length ≤ n.items.length) :
    ((List.range A.length).map (node_count cfg n)).sum =
      (A.map (fun a => (flat a).length)).sum := by
  congr 1
  apply List.ext_getElem
  · simp
  · intro j h1 h2
    simp only [List.length_map, List.length_range] at h1
    simp only [List.getElem_map, List.getElem_range]
    rw [wf_node_count hw (by omega)]
    have hlt : j < n.children.length := by rw [hc]; simp; omega
    rw [child_eq_getElem n j hlt]
    congr 2
    simp only [hc]
    rw [List.getElem_append_left h1]

theorem pairwise_pos_unique (ho : OrdCmp cmp) (key : α) (l : List α) (hp : l.Pairwise (lt cmp))
    {p q : Nat} {y z : α} (hy : l[p]? = some y) (hz : l[q]? = some z)
    (h1 : cmp key y = 0) (h2 : cmp key z = 0) : p = q := by
  rw [List.pairwise_iff_getElem] at hp
  obtain ⟨hp1, rfl⟩ := List.getElem?_eq_some_iff.1 hy
  obtain ⟨hq1, rfl⟩ := List.getElem?_eq_some_iff.1 hz
  have key_lemma : ∀ (a b : α), lt cmp a b → cmp key a = 0 → cmp key b = 0 → False := by
    intro a b hab ha hb
    have h4 := ho.le_trans b key a (by have := ho.eq_symm hb; omega) (by omega)
    have h5 := (ho.symm a b).1 hab
    omega
  rcases Nat.lt_trichotomy p q with h | h | h
  · exact absurd (key_lemma _ _ (hp p q hp1 hq1 h) h1 h2) id
  · exact h
  · exact absurd (key_lemma _ _ (hp q p hq1 hp1 h) h2 h1) id

theorem index_of_loop_spec (ho : OrdCmp cmp) (key : α) :
    ∀ (h fuel : Nat) (n : Node α) (acc : Nat), WF cfg h n → h ≤ fuel →
      (flat n).Pairwise (lt cmp) →
      (∀ p y, (flat n)[p]? = some y → cmp key y = 0 →
        index_of_loop cfg cmp key fuel n acc = (Status.FOUND, some (acc + p))) ∧
      ((∀ y ∈ flat n, cmp key y ≠ 0) →
        index_of_loop cfg cmp key fuel n acc = (Status.NOTFOUND, none))
  | 0, _, _, _, hw, _, _ => absurd hw (by simp [WF])
  | 1, fuel, n, acc, hw, hf, hp => by
    obtain ⟨f, rfl⟩ : ∃ f, fuel = f + 1 := ⟨fuel - 1, by omega⟩
    have hl := (wf_leaf hw).1
    rw [flat_leaf n hl] at hp ⊢
    obtain ⟨S, T, e1, e2, e3, e4, e5⟩ := search_items ho n key hp
    rw [index_of_loop]
    cases hfound : (search cmp n key).2
    · simp only [Bool.false_eq_true, if_false, hl, if_true]
      have hno : ∀ y ∈ n.items, cmp key y ≠ 0 := by
        intro y hy
        rw [e1, List.mem_append] at hy
        rcases hy with hy | hy
        · have := (ho.symm y key).1 (e3 y hy); omega
        · have := e5 hfound y hy; unfold lt at this; omega
      exact ⟨fun p y hy h0 => absurd h0 (hno y (List.getElem?_mem hy)), fun _ => trivial⟩
    · obtain ⟨y0, T1, hT, h0⟩ := e4 hfound
      have hy0 : n.items[(search cmp n key).1]? = some y0 := by
        rw [e1, hT]; exact app_get e2
      simp only [if_true, hl, Nat.add_zero]
      refine ⟨fun p y hy h1 => ?_, fun hno => absurd h0 (hno y0 (List.getElem?_mem hy0))⟩
      rw [pairwise_pos_unique ho key _ hp hy hy0 h1 h0]
  | h + 2, fuel, n, acc, hw, hf, hp => by
    obtain ⟨f, rfl⟩ : ∃ f, fuel = f + 1 := ⟨fuel - 1, by omega⟩
    obtain ⟨A, c, B, S, T, h1, h2, h3, h4, h5, h6, h7, h8, h9, h10⟩ := search_branch ho hw key hp
    have hl := (wf_branch hw).1
    have hi : (search cmp n key).1 ≤ n.items.length := by rw [h2, ← h4]; simp
    have hwc := (wf_child hw hi).1
    have hcnt := wf_node_count hw hi
    rw [h6] at hwc hcnt
    have hpc : (flat c).Pairwise (lt cmp) := by
      rw [h7] at hp
      simp only [List.pairwise_append] at hp
      exact hp.2.1.1
    have hsum := range_sum_counts hw h1 (by omega)
    rw [h3] at hsum
    have hPlen := flatP_length A S (by omega)
    rw [index_of_loop]
    cases hfound : (search cmp n key).2
    · simp only [Bool.false_eq_true, if_false, hl, h6, hsum]
      have ih := index_of_loop_spec ho key (h + 1) f c
        (acc + (search cmp n key).1 + (A.map (fun a => (flat a).length)).sum) hwc (by omega) hpc
      refine ⟨fun p y hy h0 => ?_, fun hno => ih.2 (fun y hy => hno y ?_)⟩
      · rw [h7] at hy
        by_cases hlt : p < (flatP A S).length
        · rw [List.getElem?_append_left hlt] at hy
          have := (ho.symm y key).1 (h8 y (List.getElem?_mem hy)); omega
        · rw [List.getElem?_append_right (by omega)] at hy
          by_cases hlt2 : p - (flatP A S).length < (flat c).length
          · rw [List.getElem?_append_left hlt2] at hy
            rw [ih.1 _ y hy h0]
            congr 2; omega
          · rw [List.getElem?_append_right (by omega)] at hy
            have := h10 hfound y (List.getElem?_mem hy); unfold lt at this; omega
      · rw [h7]; simp [hy]
    · obtain ⟨y0, T1, hT, h0⟩ := h9 hfound
      have hy0 : (flat n)[(flatP A S).length + (flat c).length]? = some y0 := by
        rw [h7, hT, List.getElem?_append_right (by omega), List.getElem?_append_right (by omega)]
        simp [tailL]
      simp only [if_true, hl, Bool.false_eq_true, if_false, List.range_succ, List.map_append,
        List.sum_append, hsum, List.map_cons, List.map_nil, List.sum_cons, List.sum_nil, hcnt]
      refine ⟨fun p y hy h1 => ?_, fun hno => absurd h0 (hno y0 (List.getElem?_mem hy0))⟩
      rw [pairwise_pos_unique ho key _ hp hy hy0 h1 h0]
      congr 2; omega

end indexof

theorem icmp_ord : OrdCmp icmp :=
  ⟨fun a b => by unfold icmp; omega, fun a b c => by unfold icmp; omega⟩

theorem treeW_inv : Inv cfgW icmp (some treeW) := by
  refine ⟨?_, by decide, fun _ => ?_⟩
  · simp [treeW, leafW, WF, cfgW, MAXITEMS, MINITEMS, FANOUTUSED, flat]
  · simp [treeW, leafW, flat, flatL, lt, icmp]

theorem leafW_inv : Inv cfgW icmp (some (leafW [10, 20, 30])) := by
  refine ⟨?_, by decide, fun _ => ?_⟩
  · simp [leafW, WF, cfgW, MAXITEMS, MINITEMS, FANOUTUSED]
  · simp [leafW, flat, lt, icmp]

theorem OrdCmp.refl {cmp : α → α → Int} (ho : OrdCmp cmp) (a : α) : cmp a a = 0 := by
  have := ho.symm a a
  omega

theorem inv_depth {cfg : Config} {cmp : α → α → Int} {r : Node α}
    (hinv : Inv cfg cmp (some r)) : depth r = r.height :=
  wf_depth _ _ hinv.1

/-- C8: on an ordered tree satisfying the invariants, `get` returns `FOUND`
with the stored item comparing equal to the key exactly when such an item
occurs in the item sequence, and otherwise `NOTFOUND` with the output
untouched; `contains` is true exactly when `get` returns `FOUND`; on the empty
tree both report absence. -/
theorem get_contains_correct (cfg : Config) (cmp : α → α → Int) (root : Option (Node α))
    (key : α) (ho : OrdCmp cmp) (hord : cfg.noorder = false) (hinv : Inv cfg cmp root) :
    (∀ y ∈ items_of root, cmp key y = 0 → get cfg cmp root key = (Status.FOUND, some y)) ∧
    ((∀ y ∈ items_of root, cmp key y ≠ 0) →
      get cfg cmp root key = (Status.NOTFOUND, none)) ∧
    ((get cfg cmp root key).1 = Status.FOUND ↔ ∃ y ∈ items_of root, cmp key y = 0) ∧
    (contains cfg cmp root key = true ↔ (get cfg cmp root key).1 = Status.FOUND) ∧
    get cfg cmp none key = (Status.NOTFOUND, none) ∧ contains cfg cmp none key = false := by
  have hnone : get cfg cmp none key = (Status.NOTFOUND, none) := by simp [get, hord]
  have hmain : (∀ y ∈ items_of root, cmp key y = 0 →
        get cfg cmp root key = (Status.FOUND, some y)) ∧
      ((∀ y ∈ items_of root, cmp key y ≠ 0) →
        get cfg cmp root key = (Status.NOTFOUND, none)) := by
    cases root with
    | none => exact ⟨fun y hy => by simp [items_of] at hy, fun _ => hnone⟩
    | some r =>
      have := get_loop_spec ho key r.height (depth r) r hinv.1 (by rw [inv_depth hinv])
        (hinv.2.2 hord)
      simpa [get, hord, items_of] using this
  refine ⟨hmain.1, hmain.2, ?_, by simp [contains], hnone, by simp [contains, hnone]⟩
  constructor
  · intro hf
    by_contra hno
    have := hmain.2 (fun y hy h0 => hno ⟨y, hy, h0⟩)
    rw [this] at hf
    cases hf
  · rintro ⟨y, hy, h0⟩
    rw [hmain.1 y hy h0]

theorem get_contains_correct_witness :
    OrdCmp icmp ∧ cfgW.noorder = false ∧ Inv cfgW icmp (some treeW) ∧
      get cfgW icmp (some treeW) 30 = (Status.FOUND, some 30) ∧
      get cfgW icmp (some treeW) 25 = (Status.NOTFOUND, none) :=
  ⟨icmp_ord, rfl, treeW_inv,
    (get_contains_correct cfgW icmp (some treeW) 30 icmp_ord rfl treeW_inv).1 30
      (by decide) (by decide),
    (get_contains_correct cfgW icmp (some treeW) 25 icmp_ord rfl treeW_inv).2.1
      (by decide)⟩

theorem visit_log (p : α → Bool) (l : List α) (log : List α) :
    visit (fun x (acc : List α) => (p x, acc ++ [x])) l log =
      (l.all p, log ++ (l.takeWhile p ++ (l.dropWhile p).take 1)) := by
  induction l generalizing log with
  | nil => simp [visit]
  | cons x xs ih =>
    cases hx : p x
    · simp [visit, hx, List.takeWhile, List.dropWhile]
    · simp [visit, hx, List.takeWhile, List.dropWhile, ih]

theorem inv_count {cfg : Config} {cmp : α → α → Int} {root : Option (Node α)}
    (hinv : Inv cfg cmp root) : count cfg root = (items_of root).length := by
  cases root with
  | none => rfl
  | some r => exact wf_count0 hinv.1

/-- C9: on a tree satisfying the invariants the item sequence is strictly
ascending; `scan` runs the callback over it front to back and `scan_desc` over
its reverse, each stopping right after the first call that answers `false` and
then returning `STOPPED`, and returning `FINISHED` when no call answered
`false` (also on the empty tree).  The calls made are spelled out for a
callback that logs its argument.  Neither function has a tree among its
results: the tree is not touched. -/
theorem scan_order (cfg : Config) (cmp : α → α → Int) (root : Option (Node α)) {σ : Type}
    (iter : α → σ → Bool × σ) (s : σ) (p : α → Bool) (hord : cfg.noorder = false)
    (hinv : Inv cfg cmp root) :
    (items_of root).Pairwise (lt cmp) ∧
    scan root iter s =
      (if (visit iter (items_of root) s).1 then Status.FINISHED else Status.STOPPED,
        (visit iter (items_of root) s).2) ∧
    scan_desc root iter s =
      (if (visit iter (items_of root).reverse s).1 then Status.FINISHED else Status.STOPPED,
        (visit iter (items_of root).reverse s).2) ∧
    scan root (fun x (acc : List α) => (p x, acc ++ [x])) [] =
      (if (items_of root).all p then Status.FINISHED else Status.STOPPED,
        (items_of root).takeWhile p ++ ((items_of root).dropWhile p).take 1) ∧
    scan_desc root (fun x (acc : List α) => (p x, acc ++ [x])) [] =
      (if (items_of root).reverse.all p then Status.FINISHED else Status.STOPPED,
        (items_of root).reverse.takeWhile p ++ ((items_of root).reverse.dropWhile p).take 1) ∧
    scan (none : Option (Node α)) iter s = (Status.FINISHED, s) ∧
    scan_desc (none : Option (Node α)) iter s = (Status.FINISHED, s) := by
  refine ⟨inv_sorted hinv hord, scan_eq root iter s, scan_desc_eq root iter s, ?_, ?_, rfl, rfl⟩
  · rw [scan_eq, visit_log]; simp
  · rw [scan_desc_eq, visit_log]; simp

theorem scan_order_witness :
    cfgW.noorder = false ∧ Inv cfgW icmp (some treeW) ∧
      scan (some treeW) (fun x (acc : List Int) => (decide (x < 30), acc ++ [x])) [] =
        (Status.STOPPED, [10, 20, 30]) ∧
      scan_desc (some treeW) (fun x (acc : List Int) => (decide (x < 30), acc ++ [x])) [] =
        (Status.STOPPED, [40]) :=
  ⟨rfl, treeW_inv,
    (scan_order cfgW icmp (some treeW) (fun x (acc : List Int) => (decide (x < 30), acc ++ [x]))
      [] (fun x => decide (x < 30)) rfl treeW_inv).2.2.2.1,
    (scan_order cfgW icmp (some treeW) (fun x (acc : List Int) => (decide (x < 30), acc ++ [x]))
      [] (fun x => decide (x < 30)) rfl treeW_inv).2.2.2.2.1⟩

/-- C10: on an ordered tree satisfying the invariants (counted or not: without
stored counts `node_count` recounts the subtree), `count` is the length of the
item sequence; for every `i < count`, `get_at i` returns `FOUND` with an item
whose `index_of` is `FOUND` with index `i`; for every key comparing equal to a
stored item, `index_of` returns `FOUND` with a position at which `get_at`
returns `FOUND` with that stored item; `index_of` of an absent key returns
`NOTFOUND` and writes no index. -/
theorem index_rank_duality (cfg : Config) (cmp : α → α → Int) (root : Option (Node α))
    (ho : OrdCmp cmp) (hord : cfg.noorder = false) (hinv : Inv cfg cmp root) :
    count cfg root = (items_of root).length ∧
    (∀ i, i < count cfg root →
      ∃ x, (items_of root)[i]? = some x ∧ get_at cfg root i = (Status.FOUND, some x) ∧
        index_of cfg cmp root x = (Status.FOUND, some i)) ∧
    (∀ k y, y ∈ items_of root → cmp k y = 0 →
      ∃ p, index_of cfg cmp root k = (Status.FOUND, some p) ∧
        get_at cfg root p = (Status.FOUND, some y)) ∧
    (∀ k, (∀ y ∈ items_of root, cmp k y ≠ 0) →
      index_of cfg cmp root k = (Status.NOTFOUND, none)) := by
  refine ⟨inv_count hinv, ?_⟩
  cases root with
  | none =>
    refine ⟨fun i hi => by simp [count] at hi, fun k y hy => by simp [items_of] at hy,
      fun k _ => by simp [index_of, hord]⟩
  | some r =>
    have hfuel : r.height ≤ depth r := by rw [inv_depth hinv]
    have hget := @get_at_loop_spec α cfg r.height (depth r) r
    have hidx := fun key => @index_of_loop_spec α cfg cmp ho key r.height (depth r) r 0 hinv.1
      hfuel (hinv.2.2 hord)
    simp only [items_of, get_at, index_of, hord, Bool.false_eq_true, if_false]
    refine ⟨fun i hi => ?_, fun k y hy h0 => ?_, fun k hno => (hidx k).2 hno⟩
    · rw [inv_count hinv] at hi
      simp only [items_of] at hi
      refine ⟨(flat r)[i], List.getElem?_eq_getElem hi, ?_, ?_⟩
      · rw [hget i hinv.1 hfuel]; simp [hi]
      · have := (hidx (flat r)[i]).1 i _ (List.getElem?_eq_getElem hi) (ho.refl _)
        simpa using this
    · obtain ⟨p, hp, hpy⟩ := List.getElem_of_mem hy
      have h1 := (hidx k).1 p y (by rw [List.getElem?_eq_getElem hp, hpy]) h0
      refine ⟨p, by simpa using h1, ?_⟩
      rw [hget p hinv.1 hfuel]; simp [hp, hpy]

theorem index_rank_duality_witness :
    OrdCmp icmp ∧ cfgW.noorder = false ∧ Inv cfgW icmp (some treeW) ∧
      count cfgW (some treeW) = 4 ∧
      (∃ x, (items_of (some treeW))[2]? = some x ∧
        get_at cfgW (some treeW) 2 = (Status.FOUND, some x) ∧
        index_of cfgW icmp (some treeW) x = (Status.FOUND, some 2)) :=
  ⟨icmp_ord, rfl, treeW_inv,
    (index_rank_duality cfgW icmp (some treeW) icmp_ord rfl treeW_inv).1,
    (index_rank_duality cfgW icmp (some treeW) icmp_ord rfl treeW_inv).2.1 2 (by decide)⟩

section setters
variable (n : Node α) (its : List α) (cs : List (Node α)) (ks : List Nat) (i k : Nat) (c : Node α)

@[simp] theorem setItems_items : (n.setItems its).items = its := rfl
@[simp] theorem setItems_height : (n.setItems its).height = n.height := rfl
@[simp] theorem setItems_isleaf : (n.setItems its).isleaf = n.isleaf := rfl
@[simp] theorem setItems_children : (n.setItems its).children = n.children := rfl
@[simp] theorem setItems_counts : (n.setItems its).counts = n.counts := rfl
@[simp] theorem setItems_len : (n.setItems its).len = its.length := rfl
@[simp] theorem setChildren_items : (n.setChildren cs).items = n.items := rfl
@[simp] theorem setChildren_height : (n.setChildren cs).height = n.height := rfl
@[simp] theorem setChildren_isleaf : (n.setChildren cs).isleaf = n.isleaf := rfl
@[simp] theorem setChildren_children : (n.setChildren cs).children = cs := rfl
@[simp] theorem setChildren_counts : (n.setChildren cs).counts = n.counts := rfl
@[simp] theorem setChildren_len : (n.setChildren cs).len = n.len := rfl
@[simp] theorem setCounts_items : (n.setCounts ks).items = n.items := rfl
@[simp] theorem setCounts_height : (n.setCounts ks).height = n.height := rfl
@[simp] theorem setCounts_isleaf : (n.setCounts ks).isleaf = n.isleaf := rfl
@[simp] theorem setCounts_children : (n.setCounts ks).children = n.children := rfl
@[simp] theorem setCounts_counts : (n.setCounts ks).counts = ks := rfl
@[simp] theorem setCounts_len : (n.setCounts ks).len = n.len := rfl
@[simp] theorem setChild_items : (n.setChild i c).items = n.items := rfl
@[simp] theorem setChild_height : (n.setChild i c).height = n.height := rfl
@[simp] theorem setChild_isleaf : (n.setChild i c).isleaf = n.isleaf := rfl
@[simp] theorem setChild_children : (n.setChild i c).children = n.children.set i c := rfl
@[simp] theorem setChild_counts : (n.setChild i c).counts = n.counts := rfl
@[simp] theorem setChild_len : (n.setChild i c).len = n.len := rfl
@[simp] theorem setCount_items : (n.setCount i k).items = n.items := rfl
@[simp] theorem setCount_height : (n.setCount i k).height = n.height := rfl
@[simp] theorem setCount_isleaf : (n.setCount i k).isleaf = n.isleaf := rfl
@[simp] theorem setCount_children : (n.setCount i k).children = n.children := rfl
@[simp] theorem setCount_counts : (n.setCount i k).counts = n.counts.set i k := rfl
@[simp] theorem setCount_len : (n.setCount i k).len = n.len := rfl
@[simp] theorem setCount_child (j : Nat) : (n.setCount i k).child j = n.child j := rfl
@[simp] theorem setCounts_child (j : Nat) : (n.setCounts ks).child j = n.child j := rfl
@[simp] theorem setItems_child (j : Nat) : (n.setItems its).child j = n.child j := rfl
@[simp] theorem len_eq : n.len = n.items.length := rfl

theorem node_eta : Node.mk n.items n.height n.isleaf n.children n.counts = n := by
  cases n; rfl

theorem node_ext {m : Node α} (h1 : n.items = m.items) (h2 : n.height = m.height)
    (h3 : n.isleaf = m.isleaf) (h4 : n.children = m.children) (h5 : n.counts = m.counts) :
    n = m := by
  cases n; cases m; simp_all

end setters

section branchof
variable {cfg : Config} {n : Node α} {ht : Nat} {items : List α} {children : List (Node α)}

theorem wf_branchOf {h : Nat} (hw : WF cfg (h + 2) n) :
    BranchOf cfg n (h + 2) n.items n.children := by
  obtain ⟨hl, hh, _, _, hk, _⟩ := wf_branch hw
  exact ⟨hh, hl, rfl, rfl, hk⟩

theorem BranchOf.wf {h : Nat} (hb : BranchOf cfg n (h + 2) items children)
    (hlen : items.length ≤ MAXITEMS cfg) (hc : children.length = items.length + 1)
    (hch : ∀ c ∈ children, MINITEMS cfg ≤ c.items.length ∧ WF cfg (h + 1) c) :
    WF cfg (h + 2) n := by
  have := @wf_mk_branch α cfg h items children n.counts hlen hc hb.counts_eq hch
  rw [← hb.items_eq, ← hb.children_eq] at this
  have e : Node.mk n.items (h + 2) false n.children n.counts = n := by
    rw [← hb.height_eq, ← hb.isleaf_eq]; exact node_eta n
  rwa [e] at this

theorem BranchOf.flat (hb : BranchOf cfg n ht items children) :
    flat n = flatL children items := by
  rw [flat_branch n hb.isleaf_eq, hb.items_eq, hb.children_eq]

theorem BranchOf.child {A B : List (Node α)} {c : Node α} {i : Nat}
    (hb : BranchOf cfg n ht items (A ++ c :: B)) (hA : A.length = i) : n.child i = c := by
  unfold Node.child; rw [hb.children_eq]; exact app_getD hA

theorem BranchOf.child1 {A B : List (Node α)} {c d : Node α} {i : Nat}
    (hb : BranchOf cfg n ht items (A ++ c :: d :: B)) (hA : A.length = i) :
    n.child (i + 1) = d := by
  unfold Node.child; rw [hb.children_eq]; exact app_getD1 hA

theorem BranchOf.count {A B : List (Node α)} {c : Node α} {i : Nat}
    (hb : BranchOf cfg n ht items (A ++ c :: B)) (hA : A.length = i)
    (hk : cfg.counted = true) : n.count i = (Bgen.flat c).length := by
  unfold Node.count; rw [hb.counts_eq hk, List.map_append, List.map_cons]
  exact app_getD (by simpa using hA)

theorem BranchOf.count1 {A B : List (Node α)} {c d : Node α} {i : Nat}
    (hb : BranchOf cfg n ht items (A ++ c :: d :: B)) (hA : A.length = i)
    (hk : cfg.counted = true) : n.count (i + 1) = (Bgen.flat d).length := by
  unfold Node.count; rw [hb.counts_eq hk, List.map_append, List.map_cons, List.map_cons]
  exact app_getD1 (by simpa using hA)

end branchof

section alloc

theorem alloc_node_eq (isleaf : Bool) (mem : List Bool) :
    (alloc_node isleaf mem : Option (Node α) × List Bool) =
      (if mem.head? = some false then none else some (fresh isleaf), mem.tail) := by
  cases mem with
  | nil => rfl
  | cons b rest => cases b <;> rfl

theorem AllocOK.tail {mem : List Bool} (h : AllocOK mem) : AllocOK mem.tail :=
  fun b hb => h b (List.mem_of_mem_tail hb)

theorem AllocOK.head {mem : List Bool} (h : AllocOK mem) : ¬ mem.head? = some false := by
  cases mem with
  | nil => simp
  | cons b rest =>
    have := h b (by simp)
    simp [this]

theorem not_allocOK_of_head {mem : List Bool} (h : mem.head? = some false) : ¬ AllocOK mem :=
  fun hok => hok.head h

end alloc

section split
variable {cfg : Config}

theorem half_lt (cfg : Config) : MAXITEMS cfg / 2 = MINITEMS cfg := rfl

theorem split_spec {h : Nat} {c : Node α} (hw : WF cfg h c)
    (hfull : c.items.length = MAXITEMS cfg) (mem : List Bool) :
    ∃ l m r, split cfg c mem =
        (if mem.head? = some false then none else some (l, m, r), mem.tail) ∧
      WF cfg h l ∧ WF cfg h r ∧ l.items.length = MINITEMS cfg ∧
      r.items.length = MINITEMS cfg ∧ flat c = flat l ++ m :: flat r := by
  have hmax := max_eq cfg
  obtain ⟨L, m, R, hit, hL⟩ := split_at_lt c.items (MINITEMS cfg) (by omega)
  have hR : R.length = MINITEMS cfg := by
    have := congrArg List.length hit
    simp at this; omega
  have hdrop : c.items.drop (MAXITEMS cfg / 2) = m :: R := by
    rw [half_lt, hit]; exact app_drop hL
  have htake : c.items.take (MAXITEMS cfg / 2) = L := by
    rw [half_lt, hit]; exact app_take hL
  cases h with
  | zero => exact absurd hw (by simp [WF])
  | succ h =>
    cases h with
    | zero =>
      obtain ⟨hl, hh, _⟩ := wf_leaf hw
      refine ⟨c.setItems L, m, Node.mk R c.height true [] [], ?_, ?_, ?_, hL, hR, ?_⟩
      · unfold split
        rw [alloc_node_eq]
        by_cases hm : mem.head? = some false
        · simp [hm]
        · simp [hm, hdrop, htake, hl, fresh]
      · show WF cfg 1 (Node.mk L c.height c.isleaf c.children c.counts)
        rw [hh, hl]
        exact wf_mk_leaf (by omega)
      · rw [hh]; exact wf_mk_leaf (by omega)
      · rw [flat_leaf c hl, flat_leaf _ (by simp [hl]), flat_leaf _ (by simp)]
        simp [hit]
    | succ h =>
      obtain ⟨hl, hh, _, hc, hk, hch⟩ := wf_branch hw
      obtain ⟨CA, CB, hcs, hCA⟩ := split_at_le c.children (MINITEMS cfg + 1) (by omega)
      have hCB : CB.length = MINITEMS cfg + 1 := by
        have := congrArg List.length hcs
        simp at this; omega
      have hcd : c.children.drop (MAXITEMS cfg / 2 + 1) = CB := by
        rw [half_lt, hcs]; exact app_drop hCA
      have hct : c.children.take (MAXITEMS cfg / 2 + 1) = CA := by
        rw [half_lt, hcs]; exact app_take hCA
      have hkd : cfg.counted = true → c.counts.drop (MAXITEMS cfg / 2 + 1) =
          CB.map (fun c => (flat c).length) := by
        intro hcnt
        rw [hk hcnt, ← List.map_drop, hcd]
      have hkt : cfg.counted = true → c.counts.take (MAXITEMS cfg / 2 + 1) =
          CA.map (fun c => (flat c).length) := by
        intro hcnt
        rw [hk hcnt, ← List.map_take, hct]
      refine ⟨Node.mk L c.height false CA
          (if cfg.counted then c.counts.take (MAXITEMS cfg / 2 + 1) else c.counts), m,
        Node.mk R c.height false CB
          (if cfg.counted then c.counts.drop (MAXITEMS cfg / 2 + 1) else []), ?_, ?_, ?_, hL, hR, ?_⟩
      · unfold split
        rw [alloc_node_eq]
        by_cases hm : mem.head? = some false
        · simp [hm]
        · simp [hm, hdrop, htake, hl, fresh, hcd, hct]
      · rw [hh]
        refine wf_mk_branch (by omega) (by omega) ?_ ?_
        · intro hcnt; simp [hcnt, hkt hcnt]
        · intro x hx; exact hch x (by rw [hcs]; simp [hx])
      · rw [hh]
        refine wf_mk_branch (by omega) (by omega) ?_ ?_
        · intro hcnt; simp [hcnt, hkd hcnt]
        · intro x hx; exact hch x (by rw [hcs]; simp [hx])
      · obtain ⟨CA1, x, hx, hCA1⟩ : ∃ CA1 x, CA = CA1 ++ [x] ∧ CA1.length = MINITEMS cfg := by
          refine ⟨CA.dropLast, CA.getLast (by intro h0; rw [h0] at hCA; simp at hCA),
            (List.dropLast_append_getLast _).symm, by simp; omega⟩
        rw [flat_branch c hl, flat_branch _ (by simp), flat_branch _ (by simp)]
        simp only [Node.children_mk, Node.items_mk]
        rw [hcs, hit, hx, List.append_assoc, flatL_app CA1 L _ _ (by omega)]
        have e1 : flatL (CA1 ++ [x]) L = flatP CA1 L ++ flat x := by
          have := flatL_app CA1 L [x] [] (by omega)
          simpa [flatL] using this
        rw [e1]
        simp [flatL]

end split

section splitchild
variable {cfg : Config}

theorem dup_set_set {β : Type} {A B : List β} {c l r : β} {i : Nat} (hA : A.length = i) :
    (((A ++ c :: B).take (i + 1) ++ (A ++ c :: B).drop i).set i l).set (i + 1) r =
      A ++ l :: r :: B := by
  rw [app_take1 hA, app_drop hA, List.append_assoc, List.singleton_append, app_set hA,
    app_set1 hA]

theorem split_child_at_spec {h i ht : Nat} {n c : Node α} {S T : List α}
    {A B : List (Node α)} (hb : BranchOf cfg n ht (S ++ T) (A ++ c :: B))
    (hA : A.length = i) (hS : S.length = i) (hw : WF cfg h c)
    (hfull : c.items.length = MAXITEMS cfg) (mem : List Bool) :
    ∃ l m r n1, WF cfg h l ∧ WF cfg h r ∧ l.items.length = MINITEMS cfg ∧
      r.items.length = MINITEMS cfg ∧ flat c = flat l ++ m :: flat r ∧
      split_child_at cfg n i mem =
        (if mem.head? = some false then none else some n1, mem.tail) ∧
      BranchOf cfg n1 ht (S ++ m :: T) (A ++ l :: r :: B) := by
  obtain ⟨l, m, r, hsp, hwl, hwr, hl, hr, hfl⟩ := split_spec hw hfull mem
  have hchild := hb.child hA
  have hits : (shift_right cfg n i m).items = S ++ m :: T := by
    simp [shift_right, hb.isleaf_eq, hb.items_eq, app_take hS, app_drop hS]
  have hcs : (((shift_right cfg n i m).children.set i l).set (i + 1) r) = A ++ l :: r :: B := by
    simp only [shift_right, hb.isleaf_eq, hb.children_eq, Bool.false_eq_true, if_false,
      Node.children_mk]
    exact dup_set_set hA
  have hht : (shift_right cfg n i m).height = ht := by
    simp [shift_right, hb.isleaf_eq, hb.height_eq]
  have hlf : (shift_right cfg n i m).isleaf = false := by
    simp [shift_right, hb.isleaf_eq]
  cases hk : cfg.counted
  · refine ⟨l, m, r, ((shift_right cfg n i m).setChild i l).setChild (i + 1) r, hwl, hwr, hl, hr,
      hfl, ?_, ?_⟩
    · unfold split_child_at
      rw [hchild, hsp]
      by_cases hm : mem.head? = some false
      · simp [hm]
      · simp [hm, hk]
    · exact ⟨by simpa using hht, by simpa using hlf, by simpa using hits, by simpa using hcs,
        fun hc => by rw [hk] at hc; cases hc⟩
  · refine ⟨l, m, r, ((((shift_right cfg n i m).setChild i l).setChild (i + 1) r).setCount i
        (count0 cfg l)).setCount (i + 1) (count0 cfg r), hwl, hwr, hl, hr, hfl, ?_, ?_⟩
    · unfold split_child_at
      rw [hchild, hsp]
      by_cases hm : mem.head? = some false
      · simp [hm]
      · simp [hm, hk]
    · refine ⟨by simpa using hht, by simpa using hlf, by simpa using hits, by simpa using hcs,
        fun _ => ?_⟩
      simp only [setCount_counts, setChild_counts, shift_right, hb.isleaf_eq,
        Bool.false_eq_true, if_false, Node.counts_mk, hk, if_true, hb.counts_eq hk,
        List.map_append, List.map_cons, wf_count0 hwl, wf_count0 hwr]
      exact dup_set_set (by simpa using hA)

theorem split_root_spec {h : Nat} {root : Node α} (hw : WF cfg (h + 1) root)
    (hfull : root.items.length = MAXITEMS cfg) (mem : List Bool) :
    ∃ nr, split_root cfg root mem =
        (if mem.head? = some false ∨ mem.tail.head? = some false then none else some nr,
          if mem.head? = some false then mem.tail else mem.tail.tail) ∧
      WF cfg (h + 2) nr ∧ nr.items.length = 1 ∧ flat nr = flat root := by
  obtain ⟨l, m, r, hsp, hwl, hwr, hl, hr, hfl⟩ := split_spec hw hfull mem.tail
  have hh := wf_height hw
  refine ⟨Node.mk [m] (h + 2) false [l, r]
    (if cfg.counted then [count0 cfg l, count0 cfg r] else []), ?_, ?_, rfl, ?_⟩
  · unfold split_root
    rw [alloc_node_eq]
    by_cases hm : mem.head? = some false
    · simp [hm]
    · simp only [hm, if_false, hsp, false_or]
      by_cases hm2 : mem.tail.head? = some false
      · rw [if_pos hm2, if_pos hm2]
      · rw [if_neg hm2, if_neg hm2]
        simp [hh, fresh]
  · refine wf_mk_branch (by have := max_eq cfg; simp; omega) rfl ?_ ?_
    · intro hk; simp [hk, wf_count0 hwl, wf_count0 hwr]
    · intro c hc
      simp only [List.mem_cons, List.mem_singleton, List.not_mem_nil, or_false] at hc
      rcases hc with rfl | rfl
      · exact ⟨by omega, hwl⟩
      · exact ⟨by omega, hwr⟩
  · simp [flat, flatL, hfl]

theorem shift_right_leaf {n : Node α} (hw : WF cfg 1 n) (i : Nat) (x : α)
    (hlt : n.items.length < MAXITEMS cfg) :
    WF cfg 1 (shift_right cfg n i x) ∧
      flat (shift_right cfg n i x) = insert_pos (flat n) i x ∧
      (shift_right cfg n i x).items.length = n.items.length + 1 := by
  obtain ⟨hl, hh, _⟩ := wf_leaf hw
  have e : shift_right cfg n i x =
      Node.mk (n.items.take i ++ x :: n.items.drop i) 1 true n.children n.counts := by
    simp [shift_right, hl, Node.setItems, hh]
  have hlen : (n.items.take i ++ x :: n.items.drop i).length = n.items.length + 1 := by
    simp; omega
  rw [e]
  refine ⟨wf_mk_leaf (by omega), ?_, by simpa using hlen⟩
  rw [flat_leaf _ (by simp), flat_leaf n hl]
  rfl

end splitchild

section fits
variable {cfg : Config} {cmp : α → α → Int}

theorem insert_pos_mid (P M Q : List α) (p : Nat) (x : α) (hp : p ≤ M.length) :
    insert_pos (P ++ (M ++ Q)) (P.length + p) x = P ++ (insert_pos M p x ++ Q) := by
  unfold insert_pos
  rw [List.take_append, List.drop_append, List.take_append_of_le_length hp,
    List.drop_append_of_le_length hp]
  simp

theorem set_mid (P M Q : List α) (p : Nat) (x : α) (hp : p < M.length) :
    (P ++ (M ++ Q)).set (P.length + p) x = P ++ (M.set p x ++ Q) := by
  rw [List.set_append, if_neg (by omega), List.set_append, if_pos (by omega)]
  simp

theorem getElem?_mid (P M Q : List α) (p : Nat) (hp : p < M.length) :
    (P ++ (M ++ Q))[P.length + p]? = M[p]? := by
  rw [List.getElem?_append_right (by omega), List.getElem?_append_left (by omega)]
  simp

theorem take_mem_of_lt {l : List α} {p : Nat} (hp : 0 < p) (hl : p ≤ l.length) :
    ∃ y, y ∈ l.take p ∧ l[p - 1]? = some y := by
  have h1 : p - 1 < l.length := by omega
  refine ⟨l[p - 1], ?_, List.getElem?_eq_getElem h1⟩
  rw [List.mem_take_iff_getElem]
  exact ⟨p - 1, by omega, rfl⟩

theorem pairwise_before {R : α → α → Prop} {P M Q : List α}
    (hs : (P ++ (M ++ Q)).Pairwise R) {a b : α} (ha : a ∈ P) (hb : b ∈ M) : R a b := by
  rw [List.pairwise_append] at hs
  exact hs.2.2 a ha b (by simp [hb])

theorem pairwise_after {R : α → α → Prop} {P M Q : List α}
    (hs : (P ++ (M ++ Q)).Pairwise R) {a b : α} (ha : a ∈ M) (hb : b ∈ Q) : R a b := by
  rw [List.pairwise_append, List.pairwise_append] at hs
  exact hs.2.1.2.2 a ha b hb

theorem fits_lift (ho : OrdOK cfg cmp) {P M Q : List α} {p : Nat} {x : α}
    (hs : Sorted cfg cmp (P ++ (M ++ Q))) (hf : Fits cfg cmp M p x)
    (hl : cfg.noorder = false → p = 0 → ∀ a ∈ P, lt cmp a x)
    (hr : cfg.noorder = false → p = M.length → ∀ b ∈ Q, lt cmp x b) :
    Fits cfg cmp (P ++ (M ++ Q)) (P.length + p) x := by
  obtain ⟨hp, hf⟩ := hf
  refine ⟨by simp; omega, fun hord => ?_⟩
  have hoc := ho hord
  have hsp := hs hord
  obtain ⟨hfl, hfr⟩ := hf hord
  rw [List.take_append, List.drop_append, List.take_append_of_le_length hp,
    List.drop_append_of_le_length hp]
  constructor
  · intro a ha
    simp only [List.mem_append] at ha
    rcases ha with ha | ha
    · by_cases h0 : p = 0
      · exact hl hord h0 a ha
      · obtain ⟨y, hy1, hy2⟩ := take_mem_of_lt (Nat.pos_of_ne_zero h0) hp
        exact hoc.lt_trans (pairwise_before hsp ha (List.mem_of_mem_take hy1)) (hfl y hy1)
    · exact hfl a ha
  · intro b hb
    simp only [List.mem_append] at hb
    rcases hb with hb | hb
    · exact hfr b hb
    · by_cases h0 : p = M.length
      · exact hr hord h0 b hb
      · have hlt : p < M.length := by omega
        have hy : M[p] ∈ M.drop p := by
          have := List.drop_eq_getElem_cons hlt
          rw [this]; exact List.mem_cons_self _ _
        exact hoc.lt_trans (hfr _ hy) (pairwise_after hsp (List.mem_of_mem_drop hy) hb)

theorem fitsRep_lift (ho : OrdOK cfg cmp) {P M Q : List α} {p : Nat} {x : α}
    (hs : Sorted cfg cmp (P ++ (M ++ Q))) (hp : p < M.length) (hf : FitsRep cfg cmp M p x)
    (hl : cfg.noorder = false → p = 0 → ∀ a ∈ P, lt cmp a x)
    (hr : cfg.noorder = false → p + 1 = M.length → ∀ b ∈ Q, lt cmp x b) :
    FitsRep cfg cmp (P ++ (M ++ Q)) (P.length + p) x := by
  intro hord
  have hoc := ho hord
  have hsp := hs hord
  obtain ⟨hfl, hfr⟩ := hf hord
  rw [List.take_append, Nat.add_assoc, List.drop_append,
    List.take_append_of_le_length (Nat.le_of_lt hp),
    List.drop_append_of_le_length (by omega)]
  constructor
  · intro a ha
    simp only [List.mem_append] at ha
    rcases ha with ha | ha
    · by_cases h0 : p = 0
      · exact hl hord h0 a ha
      · obtain ⟨y, hy1, hy2⟩ := take_mem_of_lt (Nat.pos_of_ne_zero h0) (Nat.le_of_lt hp)
        exact hoc.lt_trans (pairwise_before hsp ha (List.mem_of_mem_take hy1)) (hfl y hy1)
    · exact hfl a ha
  · intro b hb
    simp only [List.mem_append] at hb
    rcases hb with hb | hb
    · exact hfr b hb
    · by_cases h0 : p + 1 = M.length
      · exact hr hord h0 b hb
      · have hlt : p + 1 < M.length := by omega
        have hy : M[p + 1] ∈ M.drop (p + 1) := by
          have := List.drop_eq_getElem_cons hlt
          rw [this]; exact List.mem_cons_self _ _
        exact hoc.lt_trans (hfr _ hy) (pairwise_after hsp (List.mem_of_mem_drop hy) hb)

theorem sorted_insert {l : List α} {p : Nat} {x : α} (hs : Sorted cfg cmp l)
    (hf : Fits cfg cmp l p x) : Sorted cfg cmp (insert_pos l p x) := by
  intro hord
  have hsp := hs hord
  obtain ⟨hfl, hfr⟩ := hf.2 hord
  rw [← List.take_append_drop p l] at hsp
  rw [List.pairwise_append] at hsp
  unfold insert_pos
  rw [List.pairwise_append, List.pairwise_cons]
  refine ⟨hsp.1, ⟨hfr, hsp.2.1⟩, ?_⟩
  intro a ha b hb
  simp only [List.mem_cons] at hb
  rcases hb with rfl | hb
  · exact hfl a ha
  · exact hsp.2.2 a ha b hb

theorem sorted_set {l : List α} {p : Nat} {x : α} (hs : Sorted cfg cmp l)
    (hp : p < l.length) (hf : FitsRep cfg cmp l p x) : Sorted cfg cmp (l.set p x) := by
  intro hord
  have hsp := hs hord
  obtain ⟨hfl, hfr⟩ := hf hord
  obtain ⟨A, y, B, hl, hA⟩ := split_at_lt l p hp
  subst hl
  rw [app_take hA] at hfl
  rw [app_drop1 hA] at hfr
  rw [app_set hA]
  rw [List.pairwise_append, List.pairwise_cons] at hsp
  rw [List.pairwise_append, List.pairwise_cons]
  refine ⟨hsp.1, ⟨hfr, hsp.2.1.2⟩, ?_⟩
  intro a ha b hb
  simp only [List.mem_cons] at hb
  rcases hb with rfl | hb
  · exact hfl a ha
  · exact hsp.2.2 a ha b (by simp [hb])

theorem Sorted.mid {P M Q : List α} (hs : Sorted cfg cmp (P ++ (M ++ Q))) :
    Sorted cfg cmp M := by
  intro hord
  have := hs hord
  rw [List.pairwise_append, List.pairwise_append] at this
  exact this.2.1.1

end fits

section rej
variable {cfg : Config} {cmp : α → α → Int}

theorem rej_of_ne {act : InsAct} {item : α} {index : Nat} {l : List α} {ret : Status}
    (h1 : ret ≠ Status.OUTOFORDER) (h2 : ret ≠ Status.NOTFOUND) :
    Rej cfg cmp act item index l ret :=
  ⟨fun h => absurd h h1, fun h => absurd h h2⟩

theorem rej_index_irrel {act : InsAct} {item : α} {index index1 : Nat} {l : List α}
    {ret : Status} (h1 : act ≠ InsAct.INSAT) (h2 : act ≠ InsAct.REPAT)
    (hr : Rej cfg cmp act item index l ret) : Rej cfg cmp act item index1 l ret := by
  cases act with
  | INSAT => exact absurd rfl h1
  | REPAT => exact absurd rfl h2
  | INSITEM =>
    exact ⟨fun h => hr.1 h, fun h => by rcases hr.2 h with ⟨ha, _⟩ | ⟨ha, _⟩ <;> cases ha⟩
  | PUSHFRONT =>
    exact ⟨fun h => hr.1 h, fun h => by rcases hr.2 h with ⟨ha, _⟩ | ⟨ha, _⟩ <;> cases ha⟩
  | PUSHBACK =>
    exact ⟨fun h => hr.1 h, fun h => by rcases hr.2 h with ⟨ha, _⟩ | ⟨ha, _⟩ <;> cases ha⟩

theorem mem_take_mid {P M Q : List α} {k : Nat} {a : α} (h : a ∈ M.take k) :
    a ∈ (P ++ (M ++ Q)).take (P.length + k) := by
  rw [List.take_append, List.take_append_eq_append_take]
  simp [h]

theorem mem_drop_mid {P M Q : List α} {k : Nat} {a : α} (h : a ∈ M.drop k) :
    a ∈ (P ++ (M ++ Q)).drop (P.length + k) := by
  rw [List.drop_append, List.drop_append_eq_append_drop]
  simp [h]

theorem mem_take_left {P X : List α} {k : Nat} {a : α} (h : a ∈ P) :
    a ∈ (P ++ X).take (P.length + k) := by
  rw [List.take_append]
  simp [h]

theorem mem_drop_right {L : List α} {y : α} {Q : List α} {k : Nat} (hk : k ≤ L.length) :
    y ∈ (L ++ y :: Q).drop k := by
  rw [List.drop_append_of_le_length hk]
  simp

/-- A rejection inside the child `M` of the sequence `P ++ (M ++ Q)` is a
rejection of the whole sequence. -/
theorem rej_lift {act : InsAct} {item : α} {index ci : Nat} {P M Q : List α} {ret : Status}
    (hM : M ≠ [])
    (hidx : act = InsAct.INSAT ∨ act = InsAct.REPAT → index = P.length + ci)
    (hbnd : act = InsAct.INSAT ∨ act = InsAct.REPAT → Q ≠ [] →
      ci ≤ M.length ∧ (act = InsAct.REPAT → ci < M.length))
    (hr : Rej cfg cmp act item ci M ret) :
    Rej cfg cmp act item index (P ++ (M ++ Q)) ret := by
  constructor
  · intro hret
    obtain ⟨hno, hfit⟩ := hr.1 hret
    refine ⟨hno, fun _ hall => hfit hM ?_⟩
    cases act with
    | INSITEM => trivial
    | INSAT =>
      rw [hidx (Or.inl rfl)] at hall
      exact ⟨fun a ha => hall.1 a (mem_take_mid ha), fun b hb => hall.2 b (mem_drop_mid hb)⟩
    | REPAT =>
      rw [hidx (Or.inr rfl)] at hall
      exact ⟨fun a ha => hall.1 a (mem_take_mid ha),
        fun b hb => hall.2 b (by
          have := @mem_drop_mid α P M Q (ci + 1) b hb
          rwa [← Nat.add_assoc] at this)⟩
    | PUSHFRONT => exact fun b hb => hall b (by simp [hb])
    | PUSHBACK => exact fun b hb => hall b (by simp [hb])
  · intro hret
    have hQ : act = InsAct.INSAT ∨ act = InsAct.REPAT → M.length < ci ∨
        (act = InsAct.REPAT ∧ M.length ≤ ci) → Q = [] := by
      intro ha hlt
      by_contra hq
      obtain ⟨b1, b2⟩ := hbnd ha hq
      rcases hlt with h | ⟨h1, h2⟩
      · omega
      · have := b2 h1; omega
    rcases hr.2 hret with ⟨ha, hlt⟩ | ⟨ha, hle⟩
    · left
      refine ⟨ha, ?_⟩
      rw [hQ (Or.inl ha) (Or.inl hlt), hidx (Or.inl ha)]
      simp; omega
    · right
      refine ⟨ha, ?_⟩
      rw [hQ (Or.inr ha) (Or.inr ⟨ha, hle⟩), hidx (Or.inr ha)]
      simp; omega

end rej

section wrap
variable {cfg : Config} {cmp : α → α → Int}

theorem branch_at {h i : Nat} {n : Node α} (hw : WF cfg (h + 2) n) (hi : i ≤ n.items.length) :
    ∃ A c B S T, BranchOf cfg n (h + 2) (S ++ T) (A ++ c :: B) ∧ A.length = i ∧
      S.length = i ∧ B.length = T.length ∧ n.child i = c ∧
      flat n = flatP A S ++ (flat c ++ tailL B T) ∧ WF cfg (h + 1) c ∧
      MINITEMS cfg ≤ c.items.length ∧
      (∀ x ∈ A, MINITEMS cfg ≤ x.items.length ∧ WF cfg (h + 1) x) ∧
      (∀ x ∈ B, MINITEMS cfg ≤ x.items.length ∧ WF cfg (h + 1) x) ∧
      (S ++ T).length ≤ MAXITEMS cfg := by
  obtain ⟨A, c, B, S, T, h1, h2, h3, h4, h5, h6, h7⟩ := branch_flat hw hi
  obtain ⟨hl, hh, hlen, hc, hk, hch⟩ := wf_branch hw
  have hb := wf_branchOf hw
  rw [h1, h2] at hb
  rw [h1] at hch
  rw [h2] at hlen
  exact ⟨A, c, B, S, T, hb, h3, h4, h5, h6, h7, (hch c (by simp)).2, (hch c (by simp)).1,
    fun x hx => hch x (by simp [hx]), fun x hx => hch x (by simp [hx]), hlen⟩

theorem child_update {h i : Nat} {n n1 c c1 : Node α} {A B : List (Node α)} {S T : List α}
    (hb : BranchOf cfg n (h + 2) (S ++ T) (A ++ c :: B)) (hA : A.length = i)
    (hS : S.length = i) (hBT : B.length = T.length) (hlen : (S ++ T).length ≤ MAXITEMS cfg)
    (hAw : ∀ x ∈ A, MINITEMS cfg ≤ x.items.length ∧ WF cfg (h + 1) x)
    (hBw : ∀ x ∈ B, MINITEMS cfg ≤ x.items.length ∧ WF cfg (h + 1) x)
    (hc1 : WF cfg (h + 1) c1) (hm : MINITEMS cfg ≤ c1.items.length)
    (h1 : n1.height = n.height) (h2 : n1.isleaf = n.isleaf) (h3 : n1.items = n.items)
    (h4 : n1.children = n.children.set i c1)
    (h5 : cfg.counted = true → n1.counts = (A ++ c1 :: B).map (fun c => (flat c).length)) :
    BranchOf cfg n1 (h + 2) (S ++ T) (A ++ c1 :: B) ∧ WF cfg (h + 2) n1 ∧
      flat n1 = flatP A S ++ (flat c1 ++ tailL B T) := by
  have hb1 : BranchOf cfg n1 (h + 2) (S ++ T) (A ++ c1 :: B) :=
    ⟨by rw [h1, hb.height_eq], by rw [h2, hb.isleaf_eq], by rw [h3, hb.items_eq],
      by rw [h4, hb.children_eq, app_set hA], h5⟩
  refine ⟨hb1, ?_, ?_⟩
  · refine hb1.wf hlen (by simp; omega) ?_
    intro x hx
    simp only [List.mem_append, List.mem_cons] at hx
    rcases hx with hx | rfl | hx
    · exact hAw x hx
    · exact ⟨hm, hc1⟩
    · exact hBw x hx
  · rw [hb1.flat, flatL_app A S _ T (by omega), flatL_cons]

theorem counts_same {A B : List (Node α)} {c c1 : Node α} (h : (flat c1).length = (flat c).length) :
    (A ++ c :: B).map (fun c => (flat c).length) = (A ++ c1 :: B).map (fun c => (flat c).length) := by
  simp [h]

theorem wf_flat_pos {h : Nat} {c : Node α} (hw : WF cfg h c) (hm : 1 ≤ c.items.length) :
    1 ≤ (flat c).length :=
  Nat.le_trans hm (wf_items_sublist hw).length_le

theorem insert_pos_length (l : List α) (p : Nat) (x : α) :
    (insert_pos l p x).length = l.length + 1 := by
  simp [insert_pos]; omega

theorem insert1_wrap_spec (ho : OrdOK cfg cmp) {h i index cindex : Nat} {act : InsAct}
    {item : α} {mem : List Bool} {n c : Node α} {A B : List (Node α)} {S T : List α}
    (hs : Sorted cfg cmp (flat n))
    (hb : BranchOf cfg n (h + 2) (S ++ T) (A ++ c :: B)) (hA : A.length = i)
    (hS : S.length = i) (hBT : B.length = T.length) (hlen : (S ++ T).length ≤ MAXITEMS cfg)
    (hAw : ∀ x ∈ A, MINITEMS cfg ≤ x.items.length ∧ WF cfg (h + 1) x)
    (hBw : ∀ x ∈ B, MINITEMS cfg ≤ x.items.length ∧ WF cfg (h + 1) x)
    (hcw : WF cfg (h + 1) c) (hcm : MINITEMS cfg ≤ c.items.length)
    (hfl : flat n = flatP A S ++ (flat c ++ tailL B T))
    (hbl : cfg.noorder = false → act ≠ InsAct.PUSHBACK → ∀ a ∈ flatP A S, lt cmp a item)
    (hbr : cfg.noorder = false → act ≠ InsAct.PUSHFRONT → ∀ b ∈ tailL B T, lt cmp item b)
    (hp1 : act = InsAct.INSAT ∨ act = InsAct.REPAT → index = (flatP A S).length + cindex)
    (hp2 : act = InsAct.PUSHFRONT → S = [])
    (hp3 : act = InsAct.PUSHBACK → T = [])
    (hbnd : act = InsAct.INSAT ∨ act = InsAct.REPAT → T ≠ [] →
      cindex ≤ (flat c).length ∧ (act = InsAct.REPAT → cindex < (flat c).length))
    {r : InsRes α} (hr : InsOut cfg cmp act item cindex (h + 1) c mem r)
    (hns : r.ret ≠ Status.MUSTSPLIT ∨ n.items.length = MAXITEMS cfg) :
    InsOut cfg cmp act item index (h + 2) n mem (insert1_wrap cfg n i r) := by
  have hmin := min_pos cfg
  have hcpos : 1 ≤ (flat c).length := wf_flat_pos hcw (by omega)
  have hsc : Sorted cfg cmp (flatP A S ++ (flat c ++ tailL B T)) := by rw [← hfl]; exact hs
  have hP0 : act = InsAct.PUSHFRONT → (flatP A S).length = 0 := by
    intro ha
    have hS0 := hp2 ha
    subst hS0
    have : A = [] := by
      cases A with
      | nil => rfl
      | cons a A => simp at hA hS; omega
    subst this
    rfl
  have hQ0 : act = InsAct.PUSHBACK → tailL B T = [] := by
    intro ha
    rw [hp3 ha]
    rfl
  cases hr with
  | inserted c1 mem1 p hw1 hl1 hf1 hfit hpos hmem =>
    have hlenc : (flat c1).length = (flat c).length + 1 := by
      rw [hf1, insert_pos_length]
    have hupd := @child_update α cfg h i n (insert1_wrap cfg n i
        (InsRes.mk Status.INSERTED c1 none mem1)).node c c1 A B S T hb hA hS hBT hlen hAw hBw hw1
      (by omega)
      (by unfold insert1_wrap; split <;> rfl) (by unfold insert1_wrap; split <;> rfl)
      (by unfold insert1_wrap; split <;> rfl) (by unfold insert1_wrap; split <;> rfl)
      (by
        intro hk
        simp only [insert1_wrap, hk, and_self, if_true, setCount_counts, setChild_counts,
          hb.counts_eq hk, hb.count hA hk, List.map_append, List.map_cons, hlenc]
        exact app_set (by simpa using hA))
    have e : insert1_wrap cfg n i (InsRes.mk Status.INSERTED c1 none mem1) =
        InsRes.mk Status.INSERTED (insert1_wrap cfg n i
          (InsRes.mk Status.INSERTED c1 none mem1)).node none mem1 := by
      unfold insert1_wrap; split <;> rfl
    rw [e]
    refine InsOut.inserted _ _ ((flatP A S).length + p) hupd.2.1 ?_ ?_ ?_ ?_ hmem
    · have : (insert1_wrap cfg n i (InsRes.mk Status.INSERTED c1 none mem1)).node.items =
          n.items := by unfold insert1_wrap; split <;> rfl
      rw [this]
    · rw [hupd.2.2, hf1, hfl, insert_pos_mid _ _ _ _ _ hfit.1]
    · rw [hfl]
      refine fits_lift ho hsc hfit ?_ ?_
      · intro hord hp0 a ha
        by_cases hact : act = InsAct.PUSHBACK
        · have := hpos.2.2.1 hact; omega
        · exact hbl hord hact a ha
      · intro hord hp0 b hb0
        by_cases hact : act = InsAct.PUSHFRONT
        · have := hpos.2.1 hact; omega
        · exact hbr hord hact b hb0
    · refine ⟨fun ha => ?_, fun ha => ?_, fun ha => ?_, hpos.2.2.2⟩
      · rw [hp1 (Or.inl ha), hpos.1 ha]
      · rw [hP0 ha, hpos.2.1 ha]
      · rw [hfl, hQ0 ha, hpos.2.2.1 ha]; simp
  | replaced c1 mem1 p y hw1 hl1 hy hf1 hfit hcmp hrep hact hmem =>
    have hplt : p < (flat c).length := (List.getElem?_eq_some_iff.1 hy).1
    have hlenc : (flat c1).length = (flat c).length := by
      rw [hf1, List.length_set]
    have e : insert1_wrap cfg n i (InsRes.mk Status.REPLACED c1 (some y) mem1) =
        InsRes.mk Status.REPLACED (n.setChild i c1) (some y) mem1 := by
      simp [insert1_wrap]
    have hupd := @child_update α cfg h i n (n.setChild i c1) c c1 A B S T hb hA hS hBT hlen hAw
      hBw hw1 (by omega) rfl rfl rfl rfl
      (by intro hk; rw [setChild_counts, hb.counts_eq hk]; exact counts_same hlenc)
    rw [e]
    refine InsOut.replaced _ _ ((flatP A S).length + p) y hupd.2.1 (by simp) ?_ ?_ ?_ hcmp ?_
      hact hmem
    · rw [hfl, getElem?_mid _ _ _ _ hplt, hy]
    · rw [hupd.2.2, hf1, hfl, set_mid _ _ _ _ _ hplt]
    · rw [hfl]
      have hne1 : act ≠ InsAct.PUSHBACK := by rcases hact with h | h <;> rw [h] <;> decide
      have hne2 : act ≠ InsAct.PUSHFRONT := by rcases hact with h | h <;> rw [h] <;> decide
      exact fitsRep_lift ho hsc hplt hfit (fun hord _ => hbl hord hne1)
        (fun hord _ => hbr hord hne2)
    · intro ha
      rw [hp1 (Or.inr ha), hrep ha]
  | mustsplit hfull hnr hidx =>
    have hfull2 : n.items.length = MAXITEMS cfg := by
      rcases hns with h | h
      · exact absurd rfl h
      · exact h
    have e : insert1_wrap cfg n i (InsRes.mk Status.MUSTSPLIT c none mem) =
        InsRes.mk Status.MUSTSPLIT n none mem := by
      simp only [insert1_wrap, reduceCtorEq, false_and, if_false]
      congr 1
      apply node_ext <;> simp
      rw [hb.children_eq, app_set hA]
    rw [e]
    refine InsOut.mustsplit hfull2 hnr (fun ha => ?_)
    rw [hp1 (Or.inl ha), hfl]
    have := hidx ha
    simp; omega
  | nomem c1 mem1 hw1 hl1 hf1 hmem =>
    have e : insert1_wrap cfg n i (InsRes.mk Status.NOMEM c1 none mem1) =
        InsRes.mk Status.NOMEM (n.setChild i c1) none mem1 := by
      simp [insert1_wrap]
    have hupd := @child_update α cfg h i n (n.setChild i c1) c c1 A B S T hb hA hS hBT hlen hAw
      hBw hw1 (by omega) rfl rfl rfl rfl
      (by intro hk; rw [setChild_counts, hb.counts_eq hk]; exact counts_same (by rw [hf1]))
    rw [e]
    exact InsOut.nomem _ _ hupd.2.1 (by simp) (by rw [hupd.2.2, hf1, hfl]) hmem
  | rejected ret c1 mem1 hret hact hw1 hl1 hf1 hmem hrej =>
    have e : insert1_wrap cfg n i (InsRes.mk ret c1 none mem1) =
        InsRes.mk ret (n.setChild i c1) none mem1 := by
      rcases hret with h | h <;> simp [insert1_wrap, h]
    have hupd := @child_update α cfg h i n (n.setChild i c1) c c1 A B S T hb hA hS hBT hlen hAw
      hBw hw1 (by omega) rfl rfl rfl rfl
      (by intro hk; rw [setChild_counts, hb.counts_eq hk]; exact counts_same (by rw [hf1]))
    rw [e]
    refine InsOut.rejected _ _ _ hret hact hupd.2.1 (by simp) (by rw [hupd.2.2, hf1, hfl]) hmem
      ?_
    rw [hfl]
    exact rej_lift (fun e => by rw [e] at hcpos; simp at hcpos) hp1
      (fun ha hq => hbnd ha (fun hT => hq (by rw [hT]; rfl))) hrej

end wrap

section loop
variable {cfg : Config} {cmp : α → α → Int}

theorem insert1_loop_leaf {act : InsAct} {item : α} {index oindex cindex i fuel : Nat}
    {found : Bool} {mem : List Bool} {n : Node α} (hw : WF cfg 1 n)
    (hloc : LeafLoc cfg cmp act item index n i found)
    (hidx : act = InsAct.INSAT → index ≤ n.items.length) :
    InsOut cfg cmp act item index 1 n mem
      (insert1_loop cfg cmp act item (fuel + 1) n cindex oindex i found mem) := by
  obtain ⟨hl, hh, hlen⟩ := wf_leaf hw
  have hfl := flat_leaf n hl
  rw [insert1_loop]
  cases hf : found
  · obtain ⟨hnr, hfit, hpos⟩ := hloc.2 hf
    simp only [Bool.false_eq_true, if_false, hl, if_true, len_eq]
    by_cases hfull : n.items.length = MAXITEMS cfg
    · simp only [hfull, if_true]
      exact InsOut.mustsplit hfull hnr (by rw [hfl]; exact hidx)
    · simp only [hfull, if_false]
      obtain ⟨h1, h2, h3⟩ := shift_right_leaf hw i item (by omega)
      exact InsOut.inserted _ _ i h1 (by omega) h2 (by rw [hfl]; exact hfit)
        (by rw [hfl]; exact hpos) id
  · obtain ⟨y, hy, hfit, hcmp, hrep, hact⟩ := hloc.1 hf
    have hi : i < n.items.length := (List.getElem?_eq_some_iff.1 hy).1
    simp only [if_true, hy]
    refine InsOut.replaced _ _ i y ?_ (by simp) (by rw [hfl]; exact hy) ?_
      (by rw [hfl]; exact hfit) hcmp hrep hact id
    · show WF cfg 1 (Node.mk (n.items.set i item) n.height n.isleaf n.children n.counts)
      rw [hh, hl]
      exact wf_mk_leaf (by simpa using hlen)
    · rw [flat_leaf _ (by simpa using hl), hfl]; rfl

theorem insert1_loop_found {act : InsAct} {item : α} {index oindex cindex i fuel h : Nat}
    {mem : List Bool} {n : Node α}
    (hloc : BranchLoc cfg cmp act item index h n i true cindex) :
    InsOut cfg cmp act item index (h + 2) n mem
      (insert1_loop cfg cmp act item (fuel + 1) n cindex oindex i true mem) := by
  obtain ⟨A, c, B, S, T, hb, hA, hS, hBT, hfl, hcw, hcm, hAw, hBw, hlen, hbl, hbr, hp1, hp2, hp3,
    hfound, _⟩ := hloc
  obtain ⟨y, T1, hT, hcmp, hact, hrep, hbnd⟩ := hfound rfl
  subst hT
  have hy : n.items[i]? = some y := by rw [hb.items_eq]; exact app_get hS
  have hne1 : act ≠ InsAct.PUSHBACK := by rcases hact with h | h <;> rw [h] <;> decide
  rw [insert1_loop]
  simp only [if_true, hy]
  have hb1 : BranchOf cfg (n.setItems (n.items.set i item)) (h + 2) (S ++ item :: T1)
      (A ++ c :: B) :=
    ⟨hb.height_eq, hb.isleaf_eq, by simp [hb.items_eq, app_set hS], hb.children_eq,
      hb.counts_eq⟩
  have hfl1 : flat (n.setItems (n.items.set i item)) =
      flatP A S ++ (flat c ++ item :: flatL B T1) := by
    rw [hb1.flat, flatL_app A S _ _ (by omega), flatL_cons]; rfl
  have hfl0 : flat n = flatP A S ++ (flat c ++ y :: flatL B T1) := hfl
  have hpos : (flat n)[(flatP A S).length + (flat c).length]? = some y := by
    rw [hfl0, List.getElem?_append_right (by omega), List.getElem?_append_right (by omega)]
    simp
  have hset : (flat n).set ((flatP A S).length + (flat c).length) item =
      flatP A S ++ (flat c ++ item :: flatL B T1) := by
    rw [hfl0, List.set_append, if_neg (by omega), List.set_append, if_neg (by omega)]
    simp
  refine InsOut.replaced _ _ ((flatP A S).length + (flat c).length) y ?_ (by simp) hpos
    (by rw [hfl1, hset]) ?_ hcmp (fun ha => (hrep ha).symm) hact id
  · refine hb1.wf (by simpa using hlen) (by simp at hBT ⊢; omega) ?_
    intro x hx
    simp only [List.mem_append, List.mem_cons] at hx
    rcases hx with hx | rfl | hx
    · exact hAw x hx
    · exact ⟨hcm, hcw⟩
    · exact hBw x hx
  · intro hord
    obtain ⟨h1, h2⟩ := hbnd hord
    rw [hfl0]
    have e1 : List.take ((flatP A S).length + (flat c).length)
        (flatP A S ++ (flat c ++ y :: flatL B T1)) = flatP A S ++ flat c := by
      rw [List.take_append, List.take_append_of_le_length (le_refl _), List.take_length]
    have e2 : List.drop ((flatP A S).length + (flat c).length + 1)
        (flatP A S ++ (flat c ++ y :: flatL B T1)) = flatL B T1 := by
      rw [Nat.add_assoc, List.drop_append, List.drop_append]
      rfl
    rw [e1, e2]
    refine ⟨fun a ha => ?_, h2⟩
    simp only [List.mem_append] at ha
    rcases ha with ha | ha
    · exact hbl hord hne1 a ha
    · exact h1 a ha

end loop

section nb
variable {cfg : Config} {cmp : α → α → Int}

theorem less_eq_true (a b : α) : less cmp a b = true ↔ lt cmp a b := by
  simp [less, lt]

theorem less_slot_item_true (a : Option α) (b : α) :
    less_slot_item cmp a b = true ↔ ∃ y, a = some y ∧ lt cmp y b := by
  cases a <;> simp [less_slot_item, less_eq_true]

theorem less_item_slot_true (a : α) (b : Option α) :
    less_item_slot cmp a b = true ↔ ∃ y, b = some y ∧ lt cmp a y := by
  cases b <;> simp [less_item_slot, less_eq_true]

theorem take_lt_of_pred (ho : OrdCmp cmp) {l : List α} (hp : l.Pairwise (lt cmp)) {p : Nat}
    {x : α} (hle : p ≤ l.length) (h : p = 0 ∨ ∃ y, l[p - 1]? = some y ∧ lt cmp y x) :
    ∀ a ∈ l.take p, lt cmp a x := by
  rcases h with h | ⟨y, hy, hyx⟩
  · subst h; simp
  · by_cases h0 : p = 0
    · subst h0; simp
    · obtain ⟨A, z, B, hl, hA⟩ := split_at_lt l (p - 1) (by omega)
      subst hl
      rw [app_get hA] at hy
      simp only [Option.some.injEq] at hy
      subst hy
      have e : p = (p - 1) + 1 := by omega
      rw [e, app_take1 hA]
      rw [List.pairwise_append] at hp
      intro a ha
      simp only [List.mem_append, List.mem_singleton] at ha
      rcases ha with ha | rfl
      · exact ho.lt_trans (hp.2.2 a ha z (by simp)) hyx
      · exact hyx

theorem drop_gt_of_succ (ho : OrdCmp cmp) {l : List α} (hp : l.Pairwise (lt cmp)) {p : Nat}
    {x : α} (h : l.length ≤ p ∨ ∃ y, l[p]? = some y ∧ lt cmp x y) :
    ∀ b ∈ l.drop p, lt cmp x b := by
  rcases h with h | ⟨y, hy, hxy⟩
  · rw [List.drop_of_length_le h]; simp
  · have hlt : p < l.length := (List.getElem?_eq_some_iff.1 hy).1
    obtain ⟨A, z, B, hl, hA⟩ := split_at_lt l p hlt
    subst hl
    rw [app_get hA] at hy
    simp only [Option.some.injEq] at hy
    subst hy
    rw [app_drop hA]
    rw [List.pairwise_append, List.pairwise_cons] at hp
    intro b hb
    simp only [List.mem_cons] at hb
    rcases hb with rfl | hb
    · exact hxy
    · exact ho.lt_trans hxy (hp.2.1.1 b hb)

end nb

section rejleaf
variable {cfg : Config} {cmp : α → α → Int}

theorem head_mem_of_pos {l : List α} (h : 1 ≤ l.length) : ∃ y, l.head? = some y ∧ y ∈ l := by
  cases l with
  | nil => simp at h
  | cons a l => exact ⟨a, rfl, by simp⟩

theorem getLast_mem_of_pos {l : List α} (h : 1 ≤ l.length) :
    ∃ y, l.getLast? = some y ∧ y ∈ l := by
  cases hl : l.getLast? with
  | none =>
    rw [List.getLast?_eq_none_iff] at hl
    rw [hl] at h; simp at h
  | some y => exact ⟨y, rfl, List.mem_of_mem_getLast? hl⟩

theorem get_mem_take {l : List α} {k p : Nat} {y : α} (h : l[k]? = some y) (hk : k < p) :
    y ∈ l.take p := by
  apply List.getElem?_mem (n := k)
  rw [List.getElem?_take_of_lt hk]
  exact h

theorem get_mem_drop {l : List α} {k p : Nat} {y : α} (h : l[k]? = some y) (hk : p ≤ k) :
    y ∈ l.drop p := by
  apply List.getElem?_mem (n := k - p)
  rw [List.getElem?_drop]
  rw [show p + (k - p) = k by omega]
  exact h

theorem leaf_order_insat {n : Node α} {index : Nat} {item : α}
    (hi : index ≤ n.items.length)
    (hall : ActFits cmp InsAct.INSAT item index n.items) :
    insert1_order cmp n InsAct.INSAT index true item = true := by
  obtain ⟨h1, h2⟩ := hall
  simp only [insert1_order, reduceCtorEq, false_and, if_false, Bool.and_eq_true,
    Bool.or_eq_true, decide_eq_true_eq, less_slot_item_true, less_item_slot_true, len_eq]
  constructor
  · by_cases h0 : index = 0
    · exact Or.inl h0
    · right
      have hlt : index - 1 < n.items.length := by omega
      exact ⟨n.items[index - 1], List.getElem?_eq_getElem hlt,
        h1 _ (get_mem_take (List.getElem?_eq_getElem hlt) (by omega))⟩
  · by_cases h0 : n.items.length ≤ index
    · exact Or.inl h0
    · right
      have hlt : index < n.items.length := by omega
      exact ⟨n.items[index], List.getElem?_eq_getElem hlt,
        h2 _ (get_mem_drop (List.getElem?_eq_getElem hlt) (le_refl _))⟩

theorem leaf_order_repat {n : Node α} {index : Nat} {item : α} (hl : n.isleaf = true)
    (hi : index < n.items.length)
    (hall : ActFits cmp InsAct.REPAT item index n.items) :
    insert1_order cmp n InsAct.REPAT index true item = true := by
  obtain ⟨h1, h2⟩ := hall
  simp only [insert1_order, hl, Bool.true_eq_false, false_and, and_false, if_false,
    and_self, if_true, Bool.and_eq_true, Bool.or_eq_true, decide_eq_true_eq,
    less_slot_item_true, less_item_slot_true, len_eq]
  constructor
  · by_cases h0 : index = 0
    · exact Or.inl h0
    · right
      have hlt : index - 1 < n.items.length := by omega
      exact ⟨n.items[index - 1], List.getElem?_eq_getElem hlt,
        h1 _ (get_mem_take (List.getElem?_eq_getElem hlt) (by omega))⟩
  · by_cases h0 : n.items.length ≤ index + 1
    · exact Or.inl h0
    · right
      have hlt : index + 1 < n.items.length := by omega
      exact ⟨n.items[index + 1], List.getElem?_eq_getElem hlt,
        h2 _ (get_mem_drop (List.getElem?_eq_getElem hlt) (le_refl _))⟩

end rejleaf

section locleaf
variable {cfg : Config} {cmp : α → α → Int}

theorem insert1_locate_pos (n : Node α) {act : InsAct} (index : Nat) (item : α)
    (hact : act = InsAct.INSAT ∨ act = InsAct.REPAT) :
    insert1_locate cfg cmp n act index item =
      if n.isleaf = true ∧ (index > n.len ∨ (index = n.len ∧ act = InsAct.REPAT)) then
        Locate.exit Status.NOTFOUND
      else
        if cfg.noorder = false ∧ insert1_order cmp n act
            (if n.isleaf then (index, true, index) else index_walk cfg n n.len 0 index).1
            (if n.isleaf then (index, true, index) else index_walk cfg n n.len 0 index).2.1
            item = false then
          Locate.exit Status.OUTOFORDER
        else Locate.slot
          (if n.isleaf then (index, true, index) else index_walk cfg n n.len 0 index).1
          (if act = InsAct.INSAT then false
           else (if n.isleaf then (index, true, index) else index_walk cfg n n.len 0 index).2.1)
          (if n.isleaf then (index, true, index) else index_walk cfg n n.len 0 index).2.2 := by
  rcases hact with rfl | rfl <;> rfl

theorem locate_leaf_spec (ho : OrdOK cfg cmp) {n : Node α} (hw : WF cfg 1 n)
    (hs : Sorted cfg cmp (flat n)) (act : InsAct) (index : Nat) (item : α)
    (hins : act = InsAct.INSITEM → cfg.noorder = false) :
    (∀ ret, insert1_locate cfg cmp n act index item = Locate.exit ret →
      (ret = Status.OUTOFORDER ∨ ret = Status.NOTFOUND) ∧ act ≠ InsAct.INSITEM ∧
        Rej cfg cmp act item index (flat n) ret) ∧
    (∀ i found cindex, insert1_locate cfg cmp n act index item = Locate.slot i found cindex →
      LeafLoc cfg cmp act item index n i found ∧
        (act = InsAct.INSAT → index ≤ n.items.length)) := by
  obtain ⟨hl, hh, hlen⟩ := wf_leaf hw
  rw [flat_leaf n hl] at hs ⊢
  cases act with
  | INSITEM =>
    have hord := hins rfl
    have hoc := ho hord
    have hp := hs hord
    obtain ⟨S, T, e1, e2, e3, e4, e5⟩ := search_items hoc n item hp
    refine ⟨fun ret h => by simp [insert1_locate] at h, ?_⟩
    intro i found cindex h
    simp only [insert1_locate, Locate.slot.injEq] at h
    obtain ⟨rfl, rfl, rfl⟩ := h
    refine ⟨⟨fun hf => ?_, fun hf => ?_⟩, by simp⟩
    · obtain ⟨y, T1, hT, h0⟩ := e4 hf
      subst hT
      refine ⟨y, by rw [e1]; exact app_get e2, fun _ => ?_, fun _ => h0, by simp, Or.inl rfl⟩
      rw [e1, app_take e2, app_drop1 e2]
      refine ⟨e3, fun b hb => ?_⟩
      rw [e1, List.pairwise_append, List.pairwise_cons] at hp
      exact hoc.lt_of_le_of_lt (by omega) (hp.2.1.1 b hb)
    · refine ⟨by simp, ⟨by rw [e1, ← e2]; simp, fun _ => ?_⟩, by simp [PosOf]⟩
      rw [e1, app_take e2, app_drop e2]
      exact ⟨e3, e5 hf⟩
  | PUSHFRONT =>
    simp only [insert1_locate, hl, true_and]
    refine ⟨fun ret h => ?_, fun i found cindex h => ?_⟩
    · split at h
      · rename_i hc
        simp only [Locate.exit.injEq] at h; subst h
        refine ⟨Or.inl rfl, by decide, fun _ => ⟨hc.1, fun hne hall => ?_⟩,
          fun h => by cases h⟩
        obtain ⟨y, hy, hm⟩ := head_mem_of_pos (List.length_pos.2 hne)
        have hall1 : ∀ b ∈ n.items, lt cmp item b := hall
        have := (less_item_slot_true item n.items.head?).2 ⟨y, hy, hall1 y hm⟩
        rw [hc.2] at this; cases this
      · cases h
    · split at h
      · cases h
      · rename_i hc
        simp only [Locate.slot.injEq] at h
        obtain ⟨rfl, rfl, rfl⟩ := h
        refine ⟨⟨by simp, fun _ => ⟨by simp, ⟨by simp, fun hord => ?_⟩, by simp [PosOf]⟩⟩, by simp⟩
        have hc2 : less_item_slot cmp item n.items.head? = true := by
          simpa [hord] using hc
        obtain ⟨y, hy, hxy⟩ := (less_item_slot_true item _).1 hc2
        refine ⟨by simp, drop_gt_of_succ (ho hord) (hs hord) (Or.inr ⟨y, ?_, hxy⟩)⟩
        rw [← hy]; cases n.items <;> simp
  | PUSHBACK =>
    simp only [insert1_locate, hl, true_and]
    refine ⟨fun ret h => ?_, fun i found cindex h => ?_⟩
    · split at h
      · rename_i hc
        simp only [Locate.exit.injEq] at h; subst h
        refine ⟨Or.inl rfl, by decide, fun _ => ⟨hc.1, fun hne hall => ?_⟩,
          fun h => by cases h⟩
        obtain ⟨y, hy, hm⟩ := getLast_mem_of_pos (List.length_pos.2 hne)
        have hall1 : ∀ a ∈ n.items, lt cmp a item := hall
        have := (less_slot_item_true n.items.getLast? item).2 ⟨y, hy, hall1 y hm⟩
        rw [hc.2] at this; cases this
      · cases h
    · split at h
      · cases h
      · rename_i hc
        simp only [Locate.slot.injEq] at h
        obtain ⟨rfl, rfl, rfl⟩ := h
        refine ⟨⟨by simp, fun _ => ⟨by simp, ⟨by simp, fun hord => ?_⟩, by simp [PosOf]⟩⟩, by simp⟩
        have hc2 : less_slot_item cmp n.items.getLast? item = true := by
          simpa [hord] using hc
        obtain ⟨y, hy, hxy⟩ := (less_slot_item_true _ item).1 hc2
        refine ⟨take_lt_of_pred (ho hord) (hs hord) (le_refl _) (Or.inr ⟨y, ?_, hxy⟩), by simp⟩
        rw [← hy, List.getLast?_eq_getElem?]; rfl
  | INSAT =>
    rw [insert1_locate_pos n index item (Or.inl rfl)]
    simp only [hl, true_and, if_true, reduceCtorEq, and_false, or_false, len_eq]
    refine ⟨fun ret h => ?_, fun i found cindex h => ?_⟩
    · split at h
      · rename_i hc1
        simp only [Locate.exit.injEq] at h; subst h
        exact ⟨Or.inr rfl, by decide, fun h => (by cases h), fun _ => Or.inl ⟨rfl, hc1⟩⟩
      · rename_i hc1
        split at h
        · rename_i hc2
          simp only [Locate.exit.injEq] at h; subst h
          refine ⟨Or.inl rfl, by decide, fun _ => ⟨hc2.1, fun _ hall => ?_⟩,
            fun h => by cases h⟩
          have hk := @leaf_order_insat α cmp n index item (by omega) hall
          have hc3 : insert1_order cmp n InsAct.INSAT index true item = false := by
            simpa using hc2.2
          rw [hc3] at hk; cases hk
        · cases h
    · split at h
      · cases h
      · rename_i hc1
        split at h
        · cases h
        · rename_i hc2
          simp only [Locate.slot.injEq] at h
          obtain ⟨rfl, rfl, rfl⟩ := h
          have hle : index ≤ n.items.length := by omega
          refine ⟨⟨by simp, fun _ => ⟨by simp, ⟨hle, fun hord => ?_⟩, by simp [PosOf]⟩⟩,
            fun _ => hle⟩
          have hc3 : insert1_order cmp n InsAct.INSAT index true item = true := by
            simpa [hord] using hc2
          simp only [insert1_order, reduceCtorEq, false_and, if_false, Bool.and_eq_true,
            Bool.or_eq_true, decide_eq_true_eq, less_slot_item_true, less_item_slot_true,
            len_eq] at hc3
          exact ⟨take_lt_of_pred (ho hord) (hs hord) hle hc3.1,
            drop_gt_of_succ (ho hord) (hs hord) hc3.2⟩
  | REPAT =>
    rw [insert1_locate_pos n index item (Or.inr rfl)]
    simp only [hl, true_and, if_true, and_true, reduceCtorEq, if_false, len_eq]
    refine ⟨fun ret h => ?_, fun i found cindex h => ?_⟩
    · split at h
      · rename_i hc1
        simp only [Locate.exit.injEq] at h; subst h
        exact ⟨Or.inr rfl, by decide, fun h => (by cases h),
          fun _ => Or.inr ⟨rfl, by omega⟩⟩
      · rename_i hc1
        split at h
        · rename_i hc2
          simp only [Locate.exit.injEq] at h; subst h
          refine ⟨Or.inl rfl, by decide, fun _ => ⟨hc2.1, fun _ hall => ?_⟩,
            fun h => by cases h⟩
          have hk := @leaf_order_repat α cmp n index item hl (by omega) hall
          have hc3 : insert1_order cmp n InsAct.REPAT index true item = false := by
            simpa using hc2.2
          rw [hc3] at hk; cases hk
        · cases h
    · split at h
      · cases h
      · rename_i hc1
        split at h
        · cases h
        · rename_i hc2
          simp only [Locate.slot.injEq] at h
          obtain ⟨rfl, rfl, rfl⟩ := h
          have hlt : index < n.items.length := by omega
          refine ⟨⟨fun _ => ⟨n.items[index], List.getElem?_eq_getElem hlt, fun hord => ?_, by simp,
            fun _ => rfl, Or.inr rfl⟩, by simp⟩, by simp⟩
          have hc3 : insert1_order cmp n InsAct.REPAT index true item = true := by
            simpa [hord] using hc2
          simp only [insert1_order, hl, Bool.true_eq_false, false_and, and_false, if_false,
            and_self, if_true, Bool.and_eq_true, Bool.or_eq_true, decide_eq_true_eq,
            less_slot_item_true, less_item_slot_true, len_eq] at hc3
          exact ⟨take_lt_of_pred (ho hord) (hs hord) (Nat.le_of_lt hlt) hc3.1,
            drop_gt_of_succ (ho hord) (hs hord) hc3.2⟩

end locleaf

section walk
variable {cfg : Config} {cmp : α → α → Int}

theorem psum_zero (f : Nat → Nat) : psum f 0 = 0 := rfl

theorem psum_succ (f : Nat → Nat) (j : Nat) : psum f (j + 1) = psum f j + (f j + 1) := by
  simp [psum, List.range_succ]

theorem psum_mono (f : Nat → Nat) {a b : Nat} (h : a ≤ b) : psum f a ≤ psum f b := by
  induction b with
  | zero => have : a = 0 := by omega
            subst this; exact le_refl _
  | succ b ih =>
    by_cases hab : a = b + 1
    · subst hab; exact le_refl _
    · have := ih (by omega)
      rw [psum_succ]; omega

theorem psum_eq (f : Nat → Nat) (j : Nat) : psum f j = ((List.range j).map f).sum + j := by
  induction j with
  | zero => rfl
  | succ j ih => rw [psum_succ, ih]; simp [List.range_succ]; omega

theorem index_walk_spec (n : Node α) :
    ∀ (k i index : Nat),
      i ≤ (index_walk cfg n k i index).1 ∧ (index_walk cfg n k i index).1 ≤ i + k ∧
      index + psum (node_count cfg n) i =
        (index_walk cfg n k i index).2.2 + psum (node_count cfg n) (index_walk cfg n k i index).1 ∧
      ((index_walk cfg n k i index).1 < i + k →
        (index_walk cfg n k i index).2.2 ≤ node_count cfg n (index_walk cfg n k i index).1 ∧
        ((index_walk cfg n k i index).2.1 = true ↔
          (index_walk cfg n k i index).2.2 =
            node_count cfg n (index_walk cfg n k i index).1)) ∧
      ((index_walk cfg n k i index).1 = i + k → (index_walk cfg n k i index).2.1 = false) ∧
      (∀ j, i ≤ j → j < (index_walk cfg n k i index).1 →
        node_count cfg n j + psum (node_count cfg n) j < index + psum (node_count cfg n) i)
  | 0, i, index => by
    rw [index_walk]
    exact ⟨le_refl _, le_refl _, rfl, fun h => absurd h (by simp), fun _ => rfl,
      fun j h1 h2 => absurd h2 (by simp only; omega)⟩
  | k + 1, i, index => by
    rw [index_walk]
    by_cases hle : index ≤ node_count cfg n i
    · rw [if_pos hle]
      refine ⟨le_refl _, by omega, rfl, fun _ => ⟨hle, by simp⟩, fun h => ?_, ?_⟩
      · simp only at h; omega
      · intro j h1 h2; simp only at h2; omega
    · rw [if_neg hle]
      obtain ⟨h1, h2, h3, h4, h5, h6⟩ := index_walk_spec n k (i + 1)
        (index - (node_count cfg n i + 1))
      rw [psum_succ] at h3 h6
      refine ⟨by omega, by omega, by omega, fun h => h4 (by omega), fun h => h5 (by omega), ?_⟩
      intro j hj1 hj2
      by_cases hji : j = i
      · subst hji; omega
      · have := h6 j (by omega) hj2
        omega

theorem psum_eq_flatP {h : Nat} {n : Node α} (hw : WF cfg (h + 2) n)
    {A B : List (Node α)} {c : Node α} {S : List α} (hc : n.children = A ++ c :: B)
    (hS : S.length = A.length) (hA : A.length ≤ n.items.length) :
    psum (node_count cfg n) A.length = (flatP A S).length := by
  rw [psum_eq, range_sum_counts hw hc hA, flatP_length A S hS.symm, hS]

end walk

section leaves
variable {cfg : Config}

theorem last_leafL_eq (cs : List (Node α)) (k : Nat) (h : k < cs.length) :
    last_leafL cs k = last_leaf cs[k] := by
  induction cs generalizing k with
  | nil => simp at h
  | cons c cs ih =>
    cases k with
    | zero => simp [last_leafL]
    | succ k => simp only [last_leafL, List.getElem_cons_succ]; exact ih k (by simpa using h)

theorem flat_getLast : ∀ (h : Nat) (c : Node α), WF cfg h c → 1 ≤ c.items.length →
    (flat c).getLast? = (last_leaf c).items.getLast?
  | 0, _, hw, _ => absurd hw (by simp [WF])
  | 1, c, hw, _ => by
    have hl := (wf_leaf hw).1
    rw [flat_leaf c hl]
    cases c
    simp only [Node.isleaf_mk] at hl
    simp [last_leaf, hl]
  | h + 2, c, hw, hm => by
    have hmin := min_pos cfg
    obtain ⟨A, x, B, S, T, hb, hA, hS, hBT, hchild, hfl, hxw, hxm, _, _, _⟩ :=
      branch_at hw (le_refl c.items.length)
    have hT : T = [] := by
      have := congrArg List.length hb.items_eq
      simp at this
      exact List.eq_nil_of_length_eq_zero (by omega)
    subst hT
    have hB : B = [] := List.eq_nil_of_length_eq_zero (by simpa using hBT)
    subst hB
    have hpos : 1 ≤ (flat x).length := wf_flat_pos hxw (by omega)
    have ih := flat_getLast (h + 1) x hxw (by omega)
    have e : last_leaf c = last_leaf x := by
      have hlt : c.items.length < c.children.length := by
        rw [hb.children_eq]; simp; omega
      have := last_leafL_eq c.children c.items.length hlt
      rw [← child_eq_getElem c _ hlt, hchild] at this
      rw [← this]
      have hl := hb.isleaf_eq
      cases c
      simp only [Node.isleaf_mk] at hl
      simp [last_leaf, hl]
    rw [e, ← ih, hfl]
    simp only [tailL, List.append_nil]
    rw [List.getLast?_append]
    cases hx : (flat x).getLast? with
    | none =>
      rw [List.getLast?_eq_none_iff] at hx
      rw [hx] at hpos; simp at hpos
    | some y => rfl

theorem flat_head : ∀ (h : Nat) (c : Node α), WF cfg h c → 1 ≤ c.items.length →
    (flat c).head? = (first_leaf c).items.head?
  | 0, _, hw, _ => absurd hw (by simp [WF])
  | 1, c, hw, _ => by
    have hl := (wf_leaf hw).1
    rw [flat_leaf c hl]
    cases c
    simp only [Node.isleaf_mk] at hl
    simp [first_leaf, hl]
  | h + 2, c, hw, hm => by
    have hmin := min_pos cfg
    obtain ⟨A, x, B, S, T, hb, hA, hS, hBT, hchild, hfl, hxw, hxm, _, _, _⟩ :=
      branch_at hw (Nat.zero_le c.items.length)
    have hA0 : A = [] := List.eq_nil_of_length_eq_zero hA
    subst hA0
    have hS0 : S = [] := List.eq_nil_of_length_eq_zero hS
    subst hS0
    have hpos : 1 ≤ (flat x).length := wf_flat_pos hxw (by omega)
    have ih := flat_head (h + 1) x hxw (by omega)
    have e : first_leaf c = first_leaf x := by
      have hl := hb.isleaf_eq
      have hcs := hb.children_eq
      cases c
      simp only [Node.isleaf_mk, Node.children_mk, List.nil_append] at hl hcs
      simp [first_leaf, hl, hcs, first_leafL]
    rw [e, ← ih, hfl]
    simp only [flatP, List.nil_append]
    rw [List.head?_append]
    cases hx : (flat x).head? with
    | none =>
      rw [List.head?_eq_none_iff] at hx
      rw [hx] at hpos; simp at hpos
    | some y => rfl

end leaves

section locbranch
variable {cfg : Config} {cmp : α → α → Int}

theorem sides_of_items (hoc : OrdCmp cmp) {n : Node α} {A B : List (Node α)} {c : Node α}
    {S T : List α} {item : α} (hp : (flat n).Pairwise (lt cmp))
    (hfl : flat n = flatP A S ++ (flat c ++ tailL B T)) :
    ((∀ x ∈ S, lt cmp x item) → ∀ a ∈ flatP A S, lt cmp a item) ∧
    ((∀ x ∈ T, lt cmp item x) → ∀ b ∈ tailL B T, lt cmp item b) := by
  rw [hfl, List.pairwise_append, List.pairwise_append] at hp
  exact ⟨fun h => flatP_lt hoc item A S hp.1 h,
    fun h => tailL_gt hoc item B T hp.2.1.2.1 (fun y T1 hT => h y (by simp [hT]))⟩

theorem locate_branch_insitem (ho : OrdOK cfg cmp) {h : Nat} {n : Node α}
    (hw : WF cfg (h + 2) n) (hs : Sorted cfg cmp (flat n)) (index : Nat) (item : α)
    (hord : cfg.noorder = false) :
    BranchLoc cfg cmp InsAct.INSITEM item index h n (search cmp n item).1
      (search cmp n item).2 index := by
  have hoc := ho hord
  have hp := hs hord
  have hpi : n.items.Pairwise (lt cmp) := hp.sublist (wf_items_sublist hw)
  obtain ⟨S0, T0, e1, e2, e3, e4, e5⟩ := search_items hoc n item hpi
  have hi : (search cmp n item).1 ≤ n.items.length := by rw [e1, ← e2]; simp
  obtain ⟨A, c, B, S, T, hb, hA, hS, hBT, hchild, hfl, hcw, hcm, hAw, hBw, hlen⟩ :=
    branch_at hw hi
  have hS0 : S = S0 := by
    have := congrArg (List.take (search cmp n item).1) (hb.items_eq.symm.trans e1)
    rwa [app_take hS, app_take e2] at this
  have hT0 : T = T0 := by
    have := congrArg (List.drop (search cmp n item).1) (hb.items_eq.symm.trans e1)
    rwa [app_drop hS, app_drop e2] at this
  subst hS0 hT0
  obtain ⟨hsl, hsr⟩ := @sides_of_items α cmp hoc n A B c S T item hp hfl
  refine ⟨A, c, B, S, T, hb, hA, hS, hBT, hfl, hcw, hcm, hAw, hBw, hlen, fun _ _ => hsl e3,
    fun _ _ hf => hsr (e5 hf), by simp, by simp, by simp, fun hf => ?_,
    fun ha => by rcases ha with ha | ha <;> cases ha⟩
  obtain ⟨y, T1, hT, h0⟩ := e4 hf
  subst hT
  refine ⟨y, T1, rfl, fun _ => h0, Or.inl rfl, by simp, fun _ => ?_⟩
  have hp2 := hp
  rw [hfl] at hp2
  simp only [tailL, List.pairwise_append, List.pairwise_cons] at hp2
  constructor
  · intro a ha
    exact hoc.lt_of_lt_of_le (hp2.2.1.2.2 a ha y (by simp)) (by have := hoc.eq_symm h0; omega)
  · intro b hb0
    exact hoc.lt_of_le_of_lt (by omega) (hp2.2.1.2.1.1 b hb0)

theorem locate_branch_push (ho : OrdOK cfg cmp) {h : Nat} {n : Node α}
    (hw : WF cfg (h + 2) n) (index : Nat) (item : α) :
    BranchLoc cfg cmp InsAct.PUSHFRONT item index h n 0 false index ∧
    BranchLoc cfg cmp InsAct.PUSHBACK item index h n n.len false index := by
  constructor
  · obtain ⟨A, c, B, S, T, hb, hA, hS, hBT, hchild, hfl, hcw, hcm, hAw, hBw, hlen⟩ :=
      branch_at hw (Nat.zero_le n.items.length)
    have hA0 : A = [] := List.eq_nil_of_length_eq_zero hA
    have hS0 : S = [] := List.eq_nil_of_length_eq_zero hS
    subst hA0 hS0
    exact ⟨[], c, B, [], T, hb, hA, hS, hBT, hfl, hcw, hcm, hAw, hBw, hlen,
      fun _ _ a ha => by simp [flatP] at ha, by simp, by simp, by simp, by simp, by simp,
      fun ha => by rcases ha with ha | ha <;> cases ha⟩
  · obtain ⟨A, c, B, S, T, hb, hA, hS, hBT, hchild, hfl, hcw, hcm, hAw, hBw, hlen⟩ :=
      branch_at hw (le_refl n.items.length)
    have hT : T = [] := by
      have := congrArg List.length hb.items_eq
      simp at this
      exact List.eq_nil_of_length_eq_zero (by omega)
    subst hT
    exact ⟨A, c, B, S, [], hb, hA, hS, hBT, hfl, hcw, hcm, hAw, hBw, hlen,
      by simp, fun _ _ _ b hb0 => by simp [tailL] at hb0, by simp, by simp, by simp, by simp,
      fun ha => by rcases ha with ha | ha <;> cases ha⟩

end locbranch

section sepmem

theorem mem_flatP_sep : ∀ (A : List (Node α)) (S : List α), A.length = S.length →
    ∀ x ∈ S, x ∈ flatP A S
  | [], [], _, x, hx => by simp at hx
  | [], _ :: _, h, _, _ => by simp at h
  | _ :: _, [], h, _, _ => by simp at h
  | a :: A, s :: S, h, x, hx => by
    rw [flatP]
    rcases List.mem_cons.1 hx with e | e
    · subst e; simp
    · have := mem_flatP_sep A S (by simpa using h) x e
      simp [this]

theorem mem_tailL_sep (B : List (Node α)) (T : List α) (h : B.length = T.length) :
    ∀ x ∈ T, x ∈ tailL B T := by
  intro x hx
  cases T with
  | nil => simp at hx
  | cons t T1 =>
    simp only [tailL]
    rcases List.mem_cons.1 hx with e | e
    · subst e; simp
    · exact List.mem_cons_of_mem _ ((items_sublist_flatL B T1 (by simpa using h)).subset e)

end sepmem

section rejbranch
variable {cfg : Config} {cmp : α → α → Int}

/-- The order check of `insert1` at a branch passes when the item fits into the
sequence of the whole subtree. -/
theorem branch_order_of_fits {h i ci index : Nat} {fd : Bool} {act : InsAct} {item : α}
    {n c : Node α} {A B : List (Node α)} {S T : List α}
    (hact : act = InsAct.INSAT ∨ act = InsAct.REPAT)
    (hb : BranchOf cfg n (h + 2) (S ++ T) (A ++ c :: B)) (hA : A.length = i)
    (hS : S.length = i) (hBT : B.length = T.length)
    (hfl : flat n = flatP A S ++ (flat c ++ tailL B T)) (hcw : WF cfg (h + 1) c)
    (hcm : MINITEMS cfg ≤ c.items.length)
    (hBw : ∀ x ∈ B, MINITEMS cfg ≤ x.items.length ∧ WF cfg (h + 1) x)
    (hidx : index = (flatP A S).length + ci)
    (hbd : T ≠ [] → ci ≤ (flat c).length ∧ (fd = true ↔ ci = (flat c).length))
    (hlast : T = [] → fd = false)
    (hall : ActFits cmp act item index (flat n)) :
    insert1_order cmp n act i fd item = true := by
  have hmin := min_pos cfg
  have hl : n.isleaf = false := hb.isleaf_eq
  have hAS : A.length = S.length := hA.trans hS.symm
  have hcpos : 1 ≤ (flat c).length := wf_flat_pos hcw (by omega)
  have hleft : ∀ a ∈ (flat n).take index, lt cmp a item := by
    rcases hact with e | e <;> subst e <;> exact hall.1
  unfold insert1_order
  by_cases hrf : act = InsAct.REPAT ∧ fd = true
  · obtain ⟨hr, hf⟩ := hrf
    subst hr hf
    rw [if_pos ⟨rfl, hl, rfl⟩]
    obtain ⟨y, T1, rfl⟩ : ∃ y T1, T = y :: T1 := by
      cases T with
      | nil => have := hlast rfl; cases this
      | cons y T1 => exact ⟨y, T1, rfl⟩
    obtain ⟨b0, B1, rfl⟩ : ∃ b0 B1, B = b0 :: B1 := by
      cases B with
      | nil => simp at hBT
      | cons b0 B1 => exact ⟨b0, B1, rfl⟩
    have hci : ci = (flat c).length := (hbd (by simp)).2.1 rfl
    have hb0w := hBw b0 (by simp)
    have hb0 : n.child (i + 1) = b0 := hb.child1 hA
    simp only [Bool.and_eq_true, less_slot_item_true, less_item_slot_true]
    rw [hb.child hA, hb0, ← flat_getLast (h + 1) c hcw (by omega),
      ← flat_head (h + 1) b0 hb0w.2 (by omega)]
    obtain ⟨y1, hy1, hm1⟩ := getLast_mem_of_pos hcpos
    obtain ⟨y2, hy2, hm2⟩ := head_mem_of_pos (wf_flat_pos hb0w.2 (by omega))
    refine ⟨⟨y1, hy1, hleft y1 ?_⟩, ⟨y2, hy2, hall.2 y2 ?_⟩⟩
    · rw [hfl, hidx, hci, List.take_append, List.take_append_eq_append_take]
      simp [hm1]
    · rw [hfl, hidx, hci]
      have e : flatP A S ++ (flat c ++ tailL (b0 :: B1) (y :: T1)) =
          (flatP A S ++ flat c ++ [y]) ++ (flat b0 ++ tailL B1 T1) := by
        simp [tailL, flatL_cons]
      rw [e, List.drop_append_of_le_length (by simp; omega), List.mem_append]
      right
      simp [hm2]
  · rw [if_neg (by rintro ⟨h1, _, h3⟩; exact hrf ⟨h1, h3⟩),
      if_neg (by rintro ⟨_, h2⟩; rw [hl] at h2; cases h2)]
    simp only [Bool.and_eq_true, Bool.or_eq_true, decide_eq_true_eq,
      less_slot_item_true, less_item_slot_true, len_eq]
    constructor
    · by_cases h0 : i = 0
      · exact Or.inl h0
      · right
        have hlt : i - 1 < S.length := by omega
        have hs1 : n.items[i - 1]? = some S[i - 1] := by
          rw [hb.items_eq, List.getElem?_append_left hlt, List.getElem?_eq_getElem hlt]
        refine ⟨S[i - 1], hs1, hleft _ ?_⟩
        rw [hfl, hidx]
        exact mem_take_left (mem_flatP_sep A S hAS _ (List.getElem_mem hlt))
    · cases T with
      | nil =>
        left
        rw [hb.items_eq]; simp; omega
      | cons y T1 =>
        right
        obtain ⟨b1, b2⟩ := hbd (by simp)
        refine ⟨y, by rw [hb.items_eq]; exact app_get hS, ?_⟩
        have e : flatP A S ++ (flat c ++ tailL B (y :: T1)) =
            (flatP A S ++ flat c) ++ y :: flatL B T1 := by
          simp [tailL]
        rcases hact with ha | ha
        · subst ha
          apply hall.2
          rw [hfl, e]
          exact mem_drop_right (by simp; omega)
        · subst ha
          have hfd : fd = false := by
            cases fd with
            | false => rfl
            | true => exact absurd ⟨rfl, rfl⟩ hrf
          have hne : ci ≠ (flat c).length := fun hc => by
            have := b2.2 hc
            rw [hfd] at this; cases this
          apply hall.2
          rw [hfl, e]
          exact mem_drop_right (by simp; omega)

end rejbranch

section locpos
variable {cfg : Config} {cmp : α → α → Int}

theorem locate_branch_pos (ho : OrdOK cfg cmp) {h : Nat} {n : Node α}
    (hw : WF cfg (h + 2) n) (hs : Sorted cfg cmp (flat n)) {act : InsAct} (index : Nat)
    (item : α) (hact : act = InsAct.INSAT ∨ act = InsAct.REPAT) :
    (∀ ret, insert1_locate cfg cmp n act index item = Locate.exit ret →
      ret = Status.OUTOFORDER ∧ Rej cfg cmp act item index (flat n) ret) ∧
    (∀ i found cindex, insert1_locate cfg cmp n act index item = Locate.slot i found cindex →
      BranchLoc cfg cmp act item index h n i found cindex) := by
  have hl : n.isleaf = false := (wf_branch hw).1
  rw [insert1_locate_pos n index item hact]
  simp only [hl, Bool.false_eq_true, false_and, if_false]
  obtain ⟨w1, w2, w3, w4, w5, w6⟩ := @index_walk_spec α cfg n n.len 0 index
  generalize index_walk cfg n n.len 0 index = w at *
  obtain ⟨i, fd, ci⟩ := w
  simp only [Nat.zero_add] at w1 w2 w3 w4 w5 w6
  have hpz : psum (node_count cfg n) 0 = 0 := psum_zero _
  rw [hpz] at w3
  have hi : i ≤ n.items.length := w2
  obtain ⟨A, c, B, S, T, hb, hA, hS, hBT, hchild, hfl, hcw, hcm, hAw, hBw, hlen⟩ :=
    branch_at hw hi
  have hps : psum (node_count cfg n) i = (flatP A S).length := by
    have := @psum_eq_flatP α cfg h n hw A B c S hb.children_eq (hS.trans hA.symm)
      (by rw [hA]; exact hi)
    rwa [hA] at this
  have hnc : node_count cfg n i = (flat c).length := by rw [wf_node_count hw hi, hchild]
  have hidx : index = (flatP A S).length + ci := by omega
  have hTlen : n.items.length = i + T.length := by
    have := congrArg List.length hb.items_eq; simp at this; omega
  -- the order check
  have key : (cfg.noorder = false → insert1_order cmp n act i fd item = true) →
      BranchLoc cfg cmp act item index h n i (if act = InsAct.INSAT then false else fd) ci := by
    intro hoc
    by_cases hrf : act = InsAct.REPAT ∧ fd = true
    · obtain ⟨hr, hf⟩ := hrf
      subst hr hf
      have hlt : i < n.len := by
        rcases Nat.lt_or_ge i n.len with h1 | h1
        · exact h1
        · have := w5 (le_antisymm w2 h1); cases this
      have hlt2 : i < n.items.length := hlt
      obtain ⟨y, T1, hT⟩ : ∃ y T1, T = y :: T1 := by
        cases T with
        | nil => simp at hTlen; omega
        | cons y T1 => exact ⟨y, T1, rfl⟩
      subst hT
      obtain ⟨b0, B1, hB⟩ : ∃ b0 B1, B = b0 :: B1 := by
        cases B with
        | nil => simp at hBT
        | cons b0 B1 => exact ⟨b0, B1, rfl⟩
      subst hB
      have hci : ci = (flat c).length := by rw [← hnc]; exact ((w4 hlt).2).1 rfl
      have hord : cfg.noorder = false → (∀ a ∈ flatP A S, lt cmp a item) ∧
          (∀ a ∈ flat c, lt cmp a item) ∧ (∀ b ∈ flatL (b0 :: B1) T1, lt cmp item b) := by
        intro hno
        have hoc1 := ho hno
        have hp := hs hno
        have hck := hoc hno
        unfold insert1_order at hck
        rw [if_pos ⟨rfl, hl, rfl⟩] at hck
        simp only [Bool.and_eq_true] at hck
        obtain ⟨hk1, hk2⟩ := hck
        rw [less_slot_item_true] at hk1
        rw [less_item_slot_true] at hk2
        obtain ⟨y1, hy1, hly1⟩ := hk1
        obtain ⟨y2, hy2, hly2⟩ := hk2
        rw [hchild, ← flat_getLast (h + 1) c hcw (le_trans (min_pos cfg) hcm)] at hy1
        have hb0 : n.child (i + 1) = b0 := by
          unfold Node.child
          rw [hb.children_eq]
          exact app_getD1 hA
        have hb0w := hBw b0 (by simp)
        rw [hb0, ← flat_head (h + 1) b0 hb0w.2 (le_trans (min_pos cfg) hb0w.1)] at hy2
        rw [hfl] at hp
        simp only [tailL, List.pairwise_append, List.pairwise_cons] at hp
        have hcpos : 0 < (flat c).length := wf_flat_pos hcw (le_trans (min_pos cfg) hcm)
        have hy1m : y1 ∈ flat c := List.mem_of_mem_getLast? hy1
        have hcall : ∀ a ∈ flat c, lt cmp a item := by
          have := take_lt_of_pred hoc1 hp.2.1.1 (le_refl (flat c).length) (x := item)
            (Or.inr ⟨y1, by rw [← hy1, List.getLast?_eq_getElem?], hly1⟩)
          simpa using this
        refine ⟨fun a ha => hoc1.lt_trans (hp.2.2 a ha y1 (by simp [hy1m])) hly1, hcall, ?_⟩
        have := drop_gt_of_succ hoc1 hp.2.1.2.1.2 (p := 0) (x := item)
          (Or.inr ⟨y2, by
            have hb0p : 0 < (flat b0).length :=
              wf_flat_pos hb0w.2 (le_trans (min_pos cfg) hb0w.1)
            rw [← hy2, flatL_cons, List.head?_eq_getElem?,
              List.getElem?_append_left hb0p], hly2⟩)
        simpa using this
      refine ⟨A, c, b0 :: B1, S, y :: T1, hb, hA, hS, hBT, hfl, hcw, hcm, hAw, hBw, hlen,
        fun hno _ => (hord hno).1, ?_, ?_, by simp, by simp, fun _ => ?_, ?_⟩
      · intro _ _ hf; simp at hf
      · intro _ hf; simp at hf
      · exact ⟨y, T1, rfl, by simp, Or.inr rfl, fun _ => by omega,
          fun hno => (hord hno).2⟩
      · intro _ hf; simp at hf
    · have hfd : (if act = InsAct.INSAT then false else fd) = false := by
        rcases hact with ha | ha
        · simp [ha]
        · subst ha
          simp only [true_and, Bool.not_eq_true] at hrf
          simp [hrf]
      rw [hfd]
      have hord : cfg.noorder = false → (∀ a ∈ flatP A S, lt cmp a item) ∧
          (∀ b ∈ tailL B T, lt cmp item b) := by
        intro hno
        have hoc1 := ho hno
        have hp := hs hno
        have hpi : n.items.Pairwise (lt cmp) := hp.sublist (wf_items_sublist hw)
        have hck := hoc hno
        unfold insert1_order at hck
        rw [if_neg (by rintro ⟨h1, _, h3⟩; exact hrf ⟨h1, h3⟩),
          if_neg (by rintro ⟨_, h2⟩; rw [hl] at h2; cases h2)] at hck
        simp only [Bool.and_eq_true, Bool.or_eq_true, decide_eq_true_eq,
          less_slot_item_true, less_item_slot_true] at hck
        obtain ⟨hsl, hsr⟩ := @sides_of_items α cmp hoc1 n A B c S T item hp hfl
        constructor
        · apply hsl
          have := take_lt_of_pred hoc1 hpi hi (x := item) hck.1
          rwa [hb.items_eq, app_take hS] at this
        · apply hsr
          have := drop_gt_of_succ hoc1 hpi (p := i) (x := item) hck.2
          rwa [hb.items_eq, app_drop hS] at this
      refine ⟨A, c, B, S, T, hb, hA, hS, hBT, hfl, hcw, hcm, hAw, hBw, hlen,
        fun hno _ => (hord hno).1, fun hno _ _ => (hord hno).2, fun _ _ => hidx, ?_, ?_,
        fun hf => (by cases hf), fun _ _ hT => ?_⟩
      · intro hp; rcases hact with ha | ha <;> rw [ha] at hp <;> cases hp
      · intro hp; rcases hact with ha | ha <;> rw [ha] at hp <;> cases hp
      · have hlt : i < n.len := by
          show i < n.items.length
          cases T with
          | nil => exact absurd rfl hT
          | cons y T1 => simp at hTlen; omega
        obtain ⟨b1, b2⟩ := w4 hlt
        rw [hnc] at b1 b2
        refine ⟨b1, fun ha => ?_⟩
        have hnf : ¬ fd = true := fun hf => hrf ⟨ha, hf⟩
        have := mt b2.2 hnf
        omega
  constructor
  · intro ret hret
    split at hret
    · rename_i hc
      cases hret
      refine ⟨rfl, fun _ => ⟨hc.1, fun _ hall => ?_⟩, fun h => by cases h⟩
      have hk := @branch_order_of_fits α cfg cmp h i ci index fd act item n c A B S T hact hb
        hA hS hBT hfl hcw hcm hBw hidx
        (fun hT => by
          have hlt : i < n.len := by
            show i < n.items.length
            cases T with
            | nil => exact absurd rfl hT
            | cons y T1 => simp at hTlen; omega
          have := w4 hlt
          rwa [hnc] at this)
        (fun hT => w5 (by
          show i = n.items.length
          rw [hT] at hTlen; simpa using hTlen.symm))
        hall
      have hc3 : insert1_order cmp n act i fd item = false := by simpa using hc.2
      rw [hc3] at hk; cases hk
    · cases hret
  · intro i1 found cindex hslot
    split at hslot
    · cases hslot
    · rename_i hnc1
      simp only [Locate.slot.injEq] at hslot
      obtain ⟨e1, e2, e3⟩ := hslot
      subst e1 e2 e3
      apply key
      intro hno
      by_contra hc
      exact hnc1 ⟨hno, by simpa using hc⟩

end locpos

section insloop
variable {cfg : Config} {cmp : α → α → Int}

theorem insert1_loop_branch (act : InsAct) (item : α) (fuel : Nat) (n : Node α)
    (index oindex i : Nat) (mem : List Bool) (hl : n.isleaf = false) :
    insert1_loop cfg cmp act item (fuel + 1) n index oindex i false mem =
      if (insert1 cfg cmp fuel (n.child i) act index item mem).ret ≠ Status.MUSTSPLIT ∨
          n.len = MAXITEMS cfg then
        insert1_wrap cfg n i (insert1 cfg cmp fuel (n.child i) act index item mem)
      else
        match split_child_at cfg
            (n.setChild i (insert1 cfg cmp fuel (n.child i) act index item mem).node) i
            (insert1 cfg cmp fuel (n.child i) act index item mem).mem with
        | (none, mem1) =>
          InsRes.mk Status.NOMEM
            (n.setChild i (insert1 cfg cmp fuel (n.child i) act index item mem).node)
            (insert1 cfg cmp fuel (n.child i) act index item mem).old mem1
        | (some node1, mem1) =>
          if act = InsAct.INSITEM then
            match node1.items[i]? with
            | some s =>
              if cmp item s ≤ 0 then
                insert1_loop cfg cmp act item fuel node1 index oindex i
                  (decide (cmp item s = 0)) mem1
              else insert1_loop cfg cmp act item fuel node1 index oindex (i + 1) false mem1
            | none => InsRes.mk Status.FUEL node1
                (insert1 cfg cmp fuel (n.child i) act index item mem).old mem1
          else
            match insert1_locate cfg cmp node1 act
                (if act = InsAct.INSAT then oindex else index) item with
            | Locate.exit ret => InsRes.mk ret node1
                (insert1 cfg cmp fuel (n.child i) act index item mem).old mem1
            | Locate.slot ci cfound cindex =>
              insert1_loop cfg cmp act item fuel node1 cindex
                (if act = InsAct.INSAT then oindex else index) ci cfound mem1 := by
  rw [insert1_loop]
  simp only [Bool.false_eq_true, if_false, hl]
  rfl

theorem InsOut.transfer {act : InsAct} {item : α} {index h : Nat} {n n1 : Node α}
    {mem mem1 : List Bool} {r : InsRes α}
    (hr : InsOut cfg cmp act item index h n1 mem1 r) (hns : r.ret ≠ Status.MUSTSPLIT)
    (hfl : flat n1 = flat n) (hlen : n.items.length ≤ n1.items.length)
    (hmem : AllocOK mem → AllocOK mem1) :
    InsOut cfg cmp act item index h n mem r := by
  cases hr with
  | inserted n2 mem2 p h1 h2 h3 h4 h5 h6 =>
    rw [hfl] at h3 h4 h5
    exact InsOut.inserted n2 mem2 p h1 (le_trans hlen h2) h3 h4 h5 (fun hm => h6 (hmem hm))
  | replaced n2 mem2 p y h1 h2 h3 h4 h5 h6 h7 h8 h9 =>
    rw [hfl] at h3 h4 h5
    exact InsOut.replaced n2 mem2 p y h1 (le_trans hlen h2) h3 h4 h5 h6 h7 h8
      (fun hm => h9 (hmem hm))
  | mustsplit h1 h2 h3 => exact absurd rfl hns
  | nomem n2 mem2 h1 h2 h3 h4 =>
    exact InsOut.nomem n2 mem2 h1 (le_trans hlen h2) (h3.trans hfl) (fun hm => h4 (hmem hm))
  | rejected ret n2 mem2 h1 h2 h3 h4 h5 h6 h7 =>
    rw [hfl] at h7
    exact InsOut.rejected ret n2 mem2 h1 h2 h3 (le_trans hlen h4) (h5.trans hfl)
      (fun hm => h6 (hmem hm)) h7

theorem InsOut.ret_ne {act : InsAct} {item : α} {index h : Nat} {n : Node α}
    {mem : List Bool} {r : InsRes α} (hr : InsOut cfg cmp act item index h n mem r)
    (hnf : n.items.length ≠ MAXITEMS cfg) : r.ret ≠ Status.MUSTSPLIT := by
  cases hr with
  | inserted => simp
  | replaced => simp
  | mustsplit h1 => exact absurd h1 hnf
  | nomem => simp
  | rejected ret n2 mem2 h1 =>
    rcases h1 with h1 | h1 <;> simp [h1]

theorem insert1_wrap_ret (n : Node α) (i : Nat) (r : InsRes α) :
    (insert1_wrap cfg n i r).ret = r.ret := by
  unfold insert1_wrap; split <;> rfl

theorem insert1_loop_nonfull (ho : OrdOK cfg cmp) {act : InsAct} {item : α}
    {index oindex cindex i fuel h : Nat} {found : Bool} {mem : List Bool} {n : Node α}
    (hs : Sorted cfg cmp (flat n))
    (ih : ∀ (c : Node α) (index : Nat) (mem : List Bool), WF cfg (h + 1) c →
      Sorted cfg cmp (flat c) →
      InsOut cfg cmp act item index (h + 1) c mem (insert1 cfg cmp fuel c act index item mem))
    (hloc : BranchLoc cfg cmp act item index h n i found cindex)
    (hnf : (n.child i).items.length ≠ MAXITEMS cfg) :
    InsOut cfg cmp act item index (h + 2) n mem
        (insert1_loop cfg cmp act item (fuel + 1) n cindex oindex i found mem) ∧
      (insert1_loop cfg cmp act item (fuel + 1) n cindex oindex i found mem).ret ≠
        Status.MUSTSPLIT := by
  cases found with
  | true =>
    refine ⟨insert1_loop_found hloc, ?_⟩
    rw [insert1_loop]; simp
  | false =>
    obtain ⟨A, c, B, S, T, hb, hA, hS, hBT, hfl, hcw, hcm, hAw, hBw, hlen, hbl, hbr, hp1, hp2,
      hp3, _, hbd⟩ := hloc
    have hch : n.child i = c := hb.child hA
    have hsc : Sorted cfg cmp (flat c) := by
      intro hno
      have := hs hno
      rw [hfl, List.pairwise_append, List.pairwise_append] at this
      exact this.2.1.1
    have hr := ih c cindex mem hcw hsc
    rw [hch] at hnf
    have hne := hr.ret_ne hnf
    rw [insert1_loop_branch act item fuel n cindex oindex i mem hb.isleaf_eq, hch,
      if_pos (Or.inl hne)]
    refine ⟨insert1_wrap_spec ho hs hb hA hS hBT hlen hAw hBw hcw hcm hfl hbl
      (fun hno hpf => hbr hno hpf rfl) (fun ha => hp1 ha rfl) hp2 hp3
        (fun ha hT => hbd ha rfl hT) hr (Or.inl hne), ?_⟩
    rw [insert1_wrap_ret]; exact hne

end insloop

section retry
variable {cfg : Config} {cmp : α → α → Int}

theorem setChild_self {n c : Node α} {A B : List (Node α)} {i : Nat}
    (hc : n.children = A ++ c :: B) (hA : A.length = i) : n.setChild i c = n := by
  apply node_ext <;> simp
  rw [hc, app_set hA]

theorem nonfull_of_min {c : Node α} (h : c.items.length = MINITEMS cfg) :
    c.items.length ≠ MAXITEMS cfg := by
  have := max_eq cfg
  omega

theorem InsOut.index_irrel {act : InsAct} {item : α} {index index1 h : Nat} {n : Node α}
    {mem : List Bool} {r : InsRes α} (hr : InsOut cfg cmp act item index h n mem r)
    (h1 : act ≠ InsAct.INSAT) (h2 : act ≠ InsAct.REPAT) :
    InsOut cfg cmp act item index1 h n mem r := by
  cases hr with
  | inserted n2 mem2 p a1 a2 a3 a4 a5 a6 =>
    exact InsOut.inserted n2 mem2 p a1 a2 a3 a4 ⟨fun e => absurd e h1, a5.2.1, a5.2.2⟩ a6
  | replaced n2 mem2 p y a1 a2 a3 a4 a5 a6 a7 a8 a9 =>
    exact InsOut.replaced n2 mem2 p y a1 a2 a3 a4 a5 a6 (fun e => absurd e h2) a8 a9
  | mustsplit a1 a2 a3 => exact InsOut.mustsplit a1 a2 (fun e => absurd e h1)
  | nomem n2 mem2 a1 a2 a3 a4 => exact InsOut.nomem n2 mem2 a1 a2 a3 a4
  | rejected ret n2 mem2 a1 a2 a3 a4 a5 a6 a7 =>
    exact InsOut.rejected ret n2 mem2 a1 a2 a3 a4 a5 a6 (rej_index_irrel h1 h2 a7)

theorem locate_push_branch (n : Node α) (index : Nat) (item : α) (hl : n.isleaf = false) :
    insert1_locate cfg cmp n InsAct.PUSHFRONT index item = Locate.slot 0 false index ∧
    insert1_locate cfg cmp n InsAct.PUSHBACK index item = Locate.slot n.len false index := by
  simp [insert1_locate, hl]

theorem locate_pos_slot {n : Node α} {act : InsAct} {index : Nat} {item : α}
    (hact : act = InsAct.INSAT ∨ act = InsAct.REPAT) (hl : n.isleaf = false)
    {i : Nat} {found : Bool} {cindex : Nat}
    (h : insert1_locate cfg cmp n act index item = Locate.slot i found cindex) :
    i = (index_walk cfg n n.len 0 index).1 := by
  rw [insert1_locate_pos n index item hact] at h
  simp only [hl, Bool.false_eq_true, false_and, if_false] at h
  split at h
  · cases h
  · simp only [Locate.slot.injEq] at h
    exact h.1.symm

/-- The branch after `split_child_at` split its full child `c` into `l`, `m`, `r`. -/
theorem split_ctx {h i : Nat} {n n1 c l r : Node α} {m : α} {A B : List (Node α)}
    {S T : List α}
    (hA : A.length = i) (hS : S.length = i) (hBT : B.length = T.length)
    (hfl : flat n = flatP A S ++ (flat c ++ tailL B T))
    (hb : BranchOf cfg n (h + 2) (S ++ T) (A ++ c :: B))
    (hAw : ∀ x ∈ A, MINITEMS cfg ≤ x.items.length ∧ WF cfg (h + 1) x)
    (hBw : ∀ x ∈ B, MINITEMS cfg ≤ x.items.length ∧ WF cfg (h + 1) x)
    (hlen : (S ++ T).length < MAXITEMS cfg)
    (hlw : WF cfg (h + 1) l) (hrw : WF cfg (h + 1) r) (hll : l.items.length = MINITEMS cfg)
    (hrl : r.items.length = MINITEMS cfg) (hcf : flat c = flat l ++ m :: flat r)
    (hb1 : BranchOf cfg n1 (h + 2) (S ++ m :: T) (A ++ l :: r :: B)) :
    WF cfg (h + 2) n1 ∧ flat n1 = flat n ∧ n1.items.length = n.items.length + 1 ∧
      flat n1 = flatP A S ++ (flat l ++ tailL (r :: B) (m :: T)) ∧
      flat n1 = flatP (A ++ [l]) (S ++ [m]) ++ (flat r ++ tailL B T) ∧
      BranchOf cfg n1 (h + 2) ((S ++ [m]) ++ T) ((A ++ [l]) ++ r :: B) ∧
      (∀ x ∈ r :: B, MINITEMS cfg ≤ x.items.length ∧ WF cfg (h + 1) x) ∧
      (∀ x ∈ A ++ [l], MINITEMS cfg ≤ x.items.length ∧ WF cfg (h + 1) x) := by
  have hrB : ∀ x ∈ r :: B, MINITEMS cfg ≤ x.items.length ∧ WF cfg (h + 1) x := by
    intro x hx
    rcases List.mem_cons.1 hx with e | e
    · subst e; exact ⟨by omega, hrw⟩
    · exact hBw x e
  have hAl : ∀ x ∈ A ++ [l], MINITEMS cfg ≤ x.items.length ∧ WF cfg (h + 1) x := by
    intro x hx
    rcases List.mem_append.1 hx with e | e
    · exact hAw x e
    · simp at e; subst e; exact ⟨by omega, hlw⟩
  have hw1 : WF cfg (h + 2) n1 := by
    refine hb1.wf (by simp at hlen ⊢; omega) (by simp; omega) ?_
    intro x hx
    rcases List.mem_append.1 hx with e | e
    · exact hAw x e
    · rcases List.mem_cons.1 e with e | e
      · subst e; exact ⟨by omega, hlw⟩
      · exact hrB x e
  have e1 : flat n1 = flatP A S ++ (flat l ++ tailL (r :: B) (m :: T)) := by
    rw [hb1.flat, flatL_app A S _ _ (hA.trans hS.symm), flatL_cons]
  have e2 : flat n1 = flat n := by
    rw [e1, hfl, hcf]
    simp [tailL, flatL_cons]
  have e3 : flat n1 = flatP (A ++ [l]) (S ++ [m]) ++ (flat r ++ tailL B T) := by
    rw [e1, flatP_app A S _ _ (hA.trans hS.symm)]
    simp [tailL, flatL_cons, flatP]
  have hb2 : BranchOf cfg n1 (h + 2) ((S ++ [m]) ++ T) ((A ++ [l]) ++ r :: B) := by
    have := hb1
    simpa using this
  refine ⟨hw1, e2, ?_, e1, e3, hb2, hrB, hAl⟩
  rw [hb1.items_eq, hb.items_eq]; simp; omega

/-- After the split of child `i` the positional walk selects one of the two halves. -/
theorem walk_stable {h i index cindex : Nat} {n1 l r : Node α} {m : α}
    {A B : List (Node α)} {S T : List α}
    (hA : A.length = i) (hS : S.length = i)
    (hw1 : WF cfg (h + 2) n1)
    (hb1 : BranchOf cfg n1 (h + 2) (S ++ m :: T) (A ++ l :: r :: B))
    (hidx : index = (flatP A S).length + cindex)
    (hci : cindex ≤ (flat l).length + 1 + (flat r).length) :
    (index_walk cfg n1 n1.len 0 index).1 = i ∨ (index_walk cfg n1 n1.len 0 index).1 = i + 1 := by
  obtain ⟨w1, w2, w3, w4, w5, w6⟩ := @index_walk_spec α cfg n1 n1.len 0 index
  generalize index_walk cfg n1 n1.len 0 index = w at *
  obtain ⟨j, fd, ci⟩ := w
  simp only [Nat.zero_add] at w1 w2 w3 w4 w5 w6 ⊢
  have hpz : psum (node_count cfg n1) 0 = 0 := psum_zero _
  rw [hpz] at w3 w6
  have hlen1 : n1.items.length = i + 1 + T.length := by
    rw [hb1.items_eq]; simp; omega
  have hps : psum (node_count cfg n1) i = (flatP A S).length := by
    have := @psum_eq_flatP α cfg h n1 hw1 A (r :: B) l S hb1.children_eq (hS.trans hA.symm)
      (by omega)
    rwa [hA] at this
  have hc0 : node_count cfg n1 i = (flat l).length := by
    rw [wf_node_count hw1 (by omega), hb1.child hA]
  have hc1 : node_count cfg n1 (i + 1) = (flat r).length := by
    rw [wf_node_count hw1 (by omega), hb1.child1 hA]
  have hp1 := psum_succ (node_count cfg n1) i
  by_contra hne
  rcases Nat.lt_or_ge j i with hlt | hge
  · have h4 := (w4 (by show j < n1.items.length; omega)).1
    have hm := psum_mono (node_count cfg n1) (show j + 1 ≤ i by omega)
    rw [psum_succ] at hm
    omega
  · have hj : i + 1 < j := by omega
    have := w6 (i + 1) (Nat.zero_le _) hj
    omega

end retry

section insmain
variable {cfg : Config} {cmp : α → α → Int}

theorem insert1_loop_spec (ho : OrdOK cfg cmp) {act : InsAct} {item : α}
    (hins : act = InsAct.INSITEM → cfg.noorder = false)
    {index cindex i fuel h : Nat} {found : Bool} {mem : List Bool} {n : Node α}
    (hw : WF cfg (h + 2) n) (hs : Sorted cfg cmp (flat n))
    (ih : ∀ f, fuel ≤ f → ∀ (c : Node α) (index : Nat) (mem : List Bool), WF cfg (h + 1) c →
      Sorted cfg cmp (flat c) →
      InsOut cfg cmp act item index (h + 1) c mem (insert1 cfg cmp f c act index item mem))
    (hloc : BranchLoc cfg cmp act item index h n i found cindex) :
    InsOut cfg cmp act item index (h + 2) n mem
      (insert1_loop cfg cmp act item (fuel + 2) n cindex index i found mem) := by
  cases found with
  | true => exact insert1_loop_found hloc
  | false =>
    obtain ⟨A, c, B, S, T, hb, hA, hS, hBT, hfl, hcw, hcm, hAw, hBw, hlen, hbl, hbr, hp1, hp2,
      hp3, _, hbd⟩ := hloc
    have hch : n.child i = c := hb.child hA
    have hsc : Sorted cfg cmp (flat c) := by
      intro hno
      have := hs hno
      rw [hfl, List.pairwise_append, List.pairwise_append] at this
      exact this.2.1.1
    have hr := ih (fuel + 1) (Nat.le_succ _) c cindex mem hcw hsc
    rw [insert1_loop_branch act item (fuel + 1) n cindex index i mem hb.isleaf_eq, hch]
    by_cases hns : (insert1 cfg cmp (fuel + 1) c act cindex item mem).ret ≠ Status.MUSTSPLIT ∨
        n.len = MAXITEMS cfg
    · rw [if_pos hns]
      exact insert1_wrap_spec ho hs hb hA hS hBT hlen hAw hBw hcw hcm hfl hbl
        (fun hno hpf => hbr hno hpf rfl) (fun ha => hp1 ha rfl) hp2 hp3
        (fun ha hT => hbd ha rfl hT) hr hns
    · rw [if_neg hns]
      have hnl : n.items.length ≠ MAXITEMS cfg := fun e => hns (Or.inr e)
      have hret : (insert1 cfg cmp (fuel + 1) c act cindex item mem).ret = Status.MUSTSPLIT := by
        by_contra hc; exact hns (Or.inl hc)
      generalize insert1 cfg cmp (fuel + 1) c act cindex item mem = r at hr hret ⊢
      cases hr with
      | inserted => cases hret
      | replaced => cases hret
      | nomem => cases hret
      | rejected ret n2 mem2 h1 =>
        simp only at hret
        rcases h1 with h1 | h1 <;> rw [h1] at hret <;> cases hret
      | mustsplit hfull hnr hci =>
        dsimp only
        rw [setChild_self hb.children_eq hA]
        obtain ⟨l, m, r, n1, hlw, hrw, hll, hrl, hcf, hsp, hb1⟩ :=
          split_child_at_spec hb hA hS hcw hfull mem
        rw [hsp]
        by_cases hm : mem.head? = some false
        · rw [if_pos hm]
          exact InsOut.nomem n mem.tail hw (le_refl _) rfl (not_allocOK_of_head hm)
        · rw [if_neg hm]
          dsimp only
          have hlen2 : (S ++ T).length < MAXITEMS cfg := by
            rw [← hb.items_eq]
            exact lt_of_le_of_ne (by rw [hb.items_eq]; exact hlen) hnl
          obtain ⟨hw1, e2, e3, e4, e5, hb2, hrB, hAl⟩ :=
            split_ctx hA hS hBT hfl hb hAw hBw hlen2 hlw hrw hll hrl hcf hb1
          have hs1 : Sorted cfg cmp (flat n1) := by rw [e2]; exact hs
          have hl1 : n1.isleaf = false := hb1.isleaf_eq
          have fin : ∀ (ci cx oi : Nat) (cf : Bool),
              BranchLoc cfg cmp act item index h n1 ci cf cx →
              (n1.child ci).items.length ≠ MAXITEMS cfg →
              InsOut cfg cmp act item index (h + 2) n mem
                (insert1_loop cfg cmp act item (fuel + 1) n1 cx oi ci cf mem.tail) := by
            intro ci cx oi cf hloc1 hnf
            have := @insert1_loop_nonfull α cfg cmp ho act item index oi cx ci fuel h cf
              mem.tail n1 hs1 (ih fuel (le_refl _)) hloc1 hnf
            exact this.1.transfer this.2 e2 (by omega) AllocOK.tail
          have hlnf : (n1.child i).items.length ≠ MAXITEMS cfg := by
            rw [hb1.child hA]; exact nonfull_of_min hll
          have hrnf : (n1.child (i + 1)).items.length ≠ MAXITEMS cfg := by
            rw [hb1.child1 hA]; exact nonfull_of_min hrl
          have hlen1 : (S ++ m :: T).length ≤ MAXITEMS cfg := by
            simp at hlen2 ⊢; omega
          by_cases hact : act = InsAct.INSITEM
          · subst hact
            rw [if_pos rfl]
            have hno := hins rfl
            have hoc := ho hno
            have hp2 : (flat l ++ m :: flat r).Pairwise (lt cmp) := by
              rw [← hcf]; exact hsc hno
            rw [List.pairwise_append, List.pairwise_cons] at hp2
            obtain ⟨_, ⟨hmr, _⟩, hlm⟩ := hp2
            have hmi : n1.items[i]? = some m := by rw [hb1.items_eq]; exact app_get hS
            rw [hmi]
            dsimp only
            by_cases hc : cmp item m ≤ 0
            · rw [if_pos hc]
              apply fin i cindex index _ _ hlnf
              refine ⟨A, l, r :: B, S, m :: T, hb1, hA, hS, by simp [hBT], e4, hlw,
                by omega, hAw, hrB, hlen1, hbl, ?_, ?_, by simp, by simp, ?_,
                fun ha => by rcases ha with ha | ha <;> cases ha⟩
              · intro _ _ hf b hb0
                have hlt : lt cmp item m := by
                  simp only [decide_eq_false_iff_not] at hf
                  exact lt_of_le_of_ne hc hf
                simp only [tailL, flatL_cons, List.mem_cons, List.mem_append] at hb0
                rcases hb0 with e | e | e
                · subst e; exact hlt
                · exact hoc.lt_trans hlt (hmr b e)
                · exact hbr hno (by decide) rfl b e
              · intro ha; rcases ha with ha | ha <;> cases ha
              · intro hf
                simp only [decide_eq_true_eq] at hf
                refine ⟨m, T, rfl, fun _ => hf, Or.inl rfl, by simp, fun _ => ⟨?_, ?_⟩⟩
                · intro a ha
                  exact hoc.lt_of_lt_of_le (hlm a ha m (List.mem_cons_self _ _))
                    (by have := hoc.eq_symm hf; omega)
                · intro b hb0
                  simp only [flatL_cons, List.mem_append] at hb0
                  rcases hb0 with e | e
                  · exact hoc.lt_of_le_of_lt hc (hmr b e)
                  · exact hbr hno (by decide) rfl b e
            · rw [if_neg hc]
              apply fin (i + 1) cindex index _ _ hrnf
              have hgt : lt cmp m item := (hoc.gt_iff item m).1 (by omega)
              refine ⟨A ++ [l], r, B, S ++ [m], T, hb2, by simp [hA], by simp [hS], hBT, e5,
                hrw, by omega, hAl, hBw, by simpa using hlen1, ?_, ?_, by simp, by simp,
                by simp, by simp, fun ha => by rcases ha with ha | ha <;> cases ha⟩
              · intro _ _ a ha
                rw [flatP_app A S _ _ (hA.trans hS.symm)] at ha
                simp only [flatP, List.mem_append, List.mem_cons, List.not_mem_nil,
                  or_false] at ha
                rcases ha with e | e | e
                · exact hbl hno (by decide) a e
                · exact hoc.lt_trans (hlm a e m (List.mem_cons_self _ _)) hgt
                · subst e; exact hgt
              · intro _ _ _ b hb0
                exact hbr hno (by decide) rfl b hb0
          · rw [if_neg hact]
            have hidx : act = InsAct.INSAT → cindex ≤ (flat l).length + 1 + (flat r).length := by
              intro ha
              have := hci ha
              rw [hcf] at this
              simp at this; omega
            cases act with
            | INSITEM => exact absurd rfl hact
            | REPAT => exact absurd rfl hnr
            | INSAT =>
              rw [if_pos rfl]
              obtain ⟨s1, s2⟩ := @locate_branch_pos α cfg cmp ho h n1 hw1 hs1 InsAct.INSAT
                index item (Or.inl rfl)
              generalize hL : insert1_locate cfg cmp n1 InsAct.INSAT index item = L at s1 s2 ⊢
              cases L with
              | exit ret =>
                exact InsOut.rejected ret n1 mem.tail (Or.inl (s1 ret rfl).1) (by decide) hw1
                  (by omega) e2 AllocOK.tail (by rw [← e2]; exact (s1 ret rfl).2)
              | slot ci cf cx =>
                dsimp only
                apply fin ci cx index cf (s2 ci cf cx rfl)
                have hci1 := locate_pos_slot (Or.inl rfl) hl1 hL
                rcases walk_stable hA hS hw1 hb1 (hp1 (Or.inl rfl) rfl) (hidx rfl) with e | e
                · rw [hci1, e]; exact hlnf
                · rw [hci1, e]; exact hrnf
            | PUSHFRONT =>
              rw [if_neg (by decide), (locate_push_branch n1 cindex item hl1).1]
              dsimp only
              have hloc1 := (locate_branch_push ho hw1 cindex item).1
              have hi0 : i = 0 := by rw [← hS, hp2 rfl]; rfl
              have := @insert1_loop_nonfull α cfg cmp ho InsAct.PUSHFRONT item cindex cindex
                cindex 0 fuel h false mem.tail n1 hs1 (ih fuel (le_refl _)) hloc1
                (by rw [← hi0]; exact hlnf)
              exact (this.1.index_irrel (by decide) (by decide)).transfer this.2 e2 (by omega)
                AllocOK.tail
            | PUSHBACK =>
              rw [if_neg (by decide), (locate_push_branch n1 cindex item hl1).2]
              dsimp only
              have hloc1 := (locate_branch_push ho hw1 cindex item).2
              have hi1 : n1.len = i + 1 := by
                show n1.items.length = i + 1
                rw [hb1.items_eq, hp3 rfl]; simp [hS]
              have := @insert1_loop_nonfull α cfg cmp ho InsAct.PUSHBACK item cindex cindex
                cindex n1.len fuel h false mem.tail n1 hs1 (ih fuel (le_refl _)) hloc1
                (by rw [hi1]; exact hrnf)
              exact (this.1.index_irrel (by decide) (by decide)).transfer this.2 e2 (by omega)
                AllocOK.tail

end insmain

section insmain2
variable {cfg : Config} {cmp : α → α → Int}

theorem locate_branch_spec (ho : OrdOK cfg cmp) {h : Nat} {n : Node α}
    (hw : WF cfg (h + 2) n) (hs : Sorted cfg cmp (flat n)) (act : InsAct) (index : Nat)
    (item : α) (hins : act = InsAct.INSITEM → cfg.noorder = false) :
    (∀ ret, insert1_locate cfg cmp n act index item = Locate.exit ret →
      (ret = Status.OUTOFORDER ∨ ret = Status.NOTFOUND) ∧ act ≠ InsAct.INSITEM ∧
        Rej cfg cmp act item index (flat n) ret) ∧
    (∀ i found cindex, insert1_locate cfg cmp n act index item = Locate.slot i found cindex →
      BranchLoc cfg cmp act item index h n i found cindex) := by
  have hl : n.isleaf = false := (wf_branch hw).1
  cases act with
  | INSITEM =>
    constructor
    · intro ret hret; simp [insert1_locate] at hret
    · intro i found cindex hslot
      simp only [insert1_locate, Locate.slot.injEq] at hslot
      obtain ⟨e1, e2, e3⟩ := hslot
      subst e1 e2 e3
      exact locate_branch_insitem ho hw hs index item (hins rfl)
  | INSAT =>
    obtain ⟨s1, s2⟩ := @locate_branch_pos α cfg cmp ho h n hw hs InsAct.INSAT index item
      (Or.inl rfl)
    exact ⟨fun ret hret => ⟨Or.inl (s1 ret hret).1, by decide, (s1 ret hret).2⟩, s2⟩
  | REPAT =>
    obtain ⟨s1, s2⟩ := @locate_branch_pos α cfg cmp ho h n hw hs InsAct.REPAT index item
      (Or.inr rfl)
    exact ⟨fun ret hret => ⟨Or.inl (s1 ret hret).1, by decide, (s1 ret hret).2⟩, s2⟩
  | PUSHFRONT =>
    rw [(locate_push_branch n index item hl).1]
    constructor
    · intro ret hret; cases hret
    · intro i found cindex hslot
      simp only [Locate.slot.injEq] at hslot
      obtain ⟨e1, e2, e3⟩ := hslot
      subst e1 e2 e3
      exact (locate_branch_push ho hw index item).1
  | PUSHBACK =>
    rw [(locate_push_branch n index item hl).2]
    constructor
    · intro ret hret; cases hret
    · intro i found cindex hslot
      simp only [Locate.slot.injEq] at hslot
      obtain ⟨e1, e2, e3⟩ := hslot
      subst e1 e2 e3
      exact (locate_branch_push ho hw index item).2

theorem insert1_spec (ho : OrdOK cfg cmp) {act : InsAct} {item : α}
    (hins : act = InsAct.INSITEM → cfg.noorder = false) :
    ∀ (h : Nat) (fuel : Nat), 2 * h ≤ fuel + 1 → ∀ (n : Node α) (index : Nat) (mem : List Bool),
      WF cfg h n → Sorted cfg cmp (flat n) →
      InsOut cfg cmp act item index h n mem (insert1 cfg cmp fuel n act index item mem)
  | 0, _, _, _, _, _, hw, _ => absurd hw (by simp [WF])
  | 1, fuel, hf, n, index, mem, hw, hs => by
    obtain ⟨s1, s2⟩ := locate_leaf_spec ho hw hs act index item hins
    unfold insert1
    generalize insert1_locate cfg cmp n act index item = L at s1 s2 ⊢
    cases L with
    | exit ret =>
      obtain ⟨h1, h2, h3⟩ := s1 ret rfl
      exact InsOut.rejected ret n mem h1 h2 hw (le_refl _) rfl id h3
    | slot i found cindex =>
      obtain ⟨h1, h2⟩ := s2 i found cindex rfl
      obtain ⟨f, rfl⟩ : ∃ f, fuel = f + 1 := ⟨fuel - 1, by omega⟩
      exact insert1_loop_leaf hw h1 h2
  | h + 2, fuel, hf, n, index, mem, hw, hs => by
    obtain ⟨s1, s2⟩ := locate_branch_spec ho hw hs act index item hins
    unfold insert1
    generalize insert1_locate cfg cmp n act index item = L at s1 s2 ⊢
    cases L with
    | exit ret =>
      obtain ⟨h1, h2, h3⟩ := s1 ret rfl
      exact InsOut.rejected ret n mem h1 h2 hw (le_refl _) rfl id h3
    | slot i found cindex =>
      obtain ⟨f, rfl⟩ : ∃ f, fuel = f + 2 := ⟨fuel - 2, by omega⟩
      exact insert1_loop_spec ho hins hw hs
        (fun f1 hf1 c index mem hcw hcs =>
          insert1_spec ho hins (h + 1) f1 (by omega) c index mem hcw hcs)
        (s2 i found cindex rfl)

end insmain2

section ins0
variable {cfg : Config} {cmp : α → α → Int}

theorem tree_of_ins (ho : OrdOK cfg cmp) {act : InsAct} {item : α} {index h : Nat}
    {n : Node α} {mem : List Bool} {r : InsRes α}
    (hs : Sorted cfg cmp (flat n)) (hpos : 1 ≤ n.items.length) (hw : WF cfg h n)
    (hr : InsOut cfg cmp act item index h n mem r) (hns : r.ret ≠ Status.MUSTSPLIT) :
    TreeOut cfg cmp act item index (some n) mem (TreeRes.mk r.ret (some r.node) r.old r.mem) := by
  have hfp := wf_flat_pos hw hpos
  cases hr with
  | inserted n1 mem1 p h1 h2 h3 h4 h5 h6 =>
    refine ⟨⟨by rw [wf_height h1]; exact h1, by simp; omega, ?_⟩, h6,
      Or.inl ⟨rfl, rfl, p, h3, h4, h5⟩⟩
    show Sorted cfg cmp (flat n1)
    rw [h3]; exact sorted_insert hs h4
  | replaced n1 mem1 p y h1 h2 h3 h4 h5 h6 h7 h8 h9 =>
    refine ⟨⟨by rw [wf_height h1]; exact h1, by simp; omega, ?_⟩, h9,
      Or.inr (Or.inl ⟨rfl, p, y, rfl, h3, h4, h5, h6, h7, h8⟩)⟩
    show Sorted cfg cmp (flat n1)
    rw [h4]
    have hp : p < (flat n).length := by
      by_contra hc
      rw [List.getElem?_eq_none (by omega)] at h3
      cases h3
    exact sorted_set hs hp h5
  | mustsplit => exact absurd rfl hns
  | nomem n1 mem1 h1 h2 h3 h4 =>
    refine ⟨⟨by rw [wf_height h1]; exact h1, by simp; omega, ?_⟩, fun hm => absurd hm h4,
      Or.inr (Or.inr (Or.inl ⟨rfl, rfl, h3, h4⟩))⟩
    show Sorted cfg cmp (flat n1)
    rw [h3]; exact hs
  | rejected ret n1 mem1 h1 h2 h3 h4 h5 h6 h7 =>
    refine ⟨⟨by rw [wf_height h3]; exact h3, by simp; omega, ?_⟩, h6,
      Or.inr (Or.inr (Or.inr ⟨h1, h2, rfl, h5, h7⟩))⟩
    show Sorted cfg cmp (flat n1)
    rw [h5]; exact hs

theorem TreeOut.carry {act : InsAct} {item : α} {index : Nat}
    {root root1 : Option (Node α)} {mem mem1 : List Bool} {t : TreeRes α}
    (ht : TreeOut cfg cmp act item index root1 mem1 t) (hfl : items_of root1 = items_of root)
    (hmem : AllocOK mem → AllocOK mem1) :
    TreeOut cfg cmp act item index root mem t := by
  obtain ⟨h1, h2, h3⟩ := ht
  rw [hfl] at h3
  refine ⟨h1, fun hm => h2 (hmem hm), ?_⟩
  rcases h3 with h | h | h | h
  · exact Or.inl h
  · exact Or.inr (Or.inl h)
  · exact Or.inr (Or.inr (Or.inl ⟨h.1, h.2.1, h.2.2.1, fun hm => h.2.2.2 (hmem hm)⟩))
  · exact Or.inr (Or.inr (Or.inr h))

theorem insert0_spec (ho : OrdOK cfg cmp) {act : InsAct} {item : α}
    (hins : act = InsAct.INSITEM → cfg.noorder = false) (index : Nat)
    (root : Option (Node α)) (mem : List Bool) (hinv : Inv cfg cmp root) :
    TreeOut cfg cmp act item index root mem (insert0 cfg cmp root act index item mem) := by
  cases root with
  | none =>
    unfold insert0
    dsimp only
    by_cases hc : act = InsAct.REPAT ∨ (act = InsAct.INSAT ∧ index > 0)
    · rw [if_pos hc]
      refine ⟨trivial, id, Or.inr (Or.inr (Or.inr ⟨Or.inr rfl, ?_, rfl, rfl,
        fun h => (by cases h), fun _ => ?_⟩))⟩
      · rcases hc with hc | hc
        · rw [hc]; decide
        · rw [hc.1]; decide
      · rcases hc with hc | hc
        · exact Or.inr ⟨hc, Nat.zero_le _⟩
        · exact Or.inl ⟨hc.1, hc.2⟩
    · rw [if_neg hc, alloc_node_eq]
      by_cases hm : mem.head? = some false
      · rw [if_pos hm]
        exact ⟨trivial, fun hm1 => absurd hm (hm1.head),
          Or.inr (Or.inr (Or.inl ⟨rfl, rfl, rfl, not_allocOK_of_head hm⟩))⟩
      · rw [if_neg hm]
        dsimp only
        have hmax := max_eq cfg
        have hmin := min_pos cfg
        refine ⟨⟨?_, by simp, ?_⟩, AllocOK.tail, Or.inl ⟨rfl, rfl, 0, ?_, ⟨Nat.zero_le _, ?_⟩, ?_⟩⟩
        · exact wf_mk_leaf (by simp; omega)
        · intro _; simp [fresh, flat]
        · simp [items_of, insert_pos, fresh, flat]
        · intro _; simp [items_of]
        · refine ⟨fun ha => ?_, fun _ => rfl, fun _ => rfl, fun ha => hc (Or.inl ha)⟩
          by_contra hi
          exact hc (Or.inr ⟨ha, by omega⟩)
  | some r =>
    obtain ⟨hw, hpos, hso⟩ := hinv
    have hs : Sorted cfg cmp (flat r) := hso
    have hd : depth r = r.height := wf_depth _ _ hw
    unfold insert0
    dsimp only
    unfold insert0_loop
    have h1 : InsOut cfg cmp act item index r.height r mem
        (insert1 cfg cmp (2 * depth r) r act index item mem) :=
      insert1_spec ho hins r.height (2 * depth r) (by omega) r index mem hw hs
    generalize insert1 cfg cmp (2 * depth r) r act index item mem = res at h1 ⊢
    obtain ⟨ret, node, old, mem1⟩ := res
    dsimp only
    by_cases hns : ret ≠ Status.MUSTSPLIT
    · rw [if_pos hns]
      exact tree_of_ins ho hs hpos hw h1 hns
    · rw [if_neg hns]
      have hret : ret = Status.MUSTSPLIT := by by_contra hc; exact hns hc
      subst hret
      cases h1 with
      | rejected ret n1 mem1 h1 => rcases h1 with h1 | h1 <;> cases h1
      | mustsplit hfull _ _ =>
        obtain ⟨hh, hheq⟩ : ∃ hh, r.height = hh + 1 := by
          cases hre : r.height with
          | zero => rw [hre] at hw; simp [WF] at hw
          | succ k => exact ⟨k, rfl⟩
        rw [hheq] at hw
        obtain ⟨nr, hsp, hnw, hnl, hnf⟩ := split_root_spec hw hfull mem
        rw [hsp]
        by_cases hm : mem.head? = some false ∨ mem.tail.head? = some false
        · rw [if_pos hm]
          dsimp only
          refine ⟨⟨by rw [hheq]; exact hw, hpos, hso⟩, fun hok => ?_,
            Or.inr (Or.inr (Or.inl ⟨rfl, rfl, rfl, fun hok => ?_⟩))⟩
          · rcases hm with hm | hm
            · exact absurd hm hok.head
            · exact absurd hm hok.tail.head
          · rcases hm with hm | hm
            · exact absurd hm hok.head
            · exact absurd hm hok.tail.head
        · rw [if_neg hm]
          dsimp only
          have hm1 : ¬ mem.head? = some false := fun e => hm (Or.inl e)
          rw [if_neg hm1]
          unfold insert0_loop
          have hsn : Sorted cfg cmp (flat nr) := by rw [hnf]; exact hs
          have hdn : depth nr = hh + 2 := wf_depth _ _ hnw
          have h2 : InsOut cfg cmp act item index (hh + 2) nr mem.tail.tail
              (insert1 cfg cmp (2 * depth nr) nr act index item mem.tail.tail) :=
            insert1_spec ho hins (hh + 2) (2 * depth nr) (by omega) nr index
              mem.tail.tail hnw hsn
          generalize insert1 cfg cmp (2 * depth nr) nr act index item mem.tail.tail = res2
            at h2 ⊢
          have hne : res2.ret ≠ Status.MUSTSPLIT :=
            h2.ret_ne (by have := max_eq cfg; have := min_pos cfg; omega)
          obtain ⟨ret2, node2, old2, mem2⟩ := res2
          dsimp only
          rw [if_pos hne]
          exact (tree_of_ins ho hsn (by omega) hnw h2 hne).carry hnf
            (fun hok => hok.tail.tail)

end ins0

section counts
variable {cfg : Config}

theorem set_inc_dec (l : List Nat) (i : Nat) :
    l.set i ((l.set i (l[i]?.getD 0 + 1))[i]?.getD 0 - 1) = l := by
  induction l generalizing i with
  | nil => rfl
  | cons a l ih =>
    cases i with
    | zero => simp
    | succ i => simpa using ih i

theorem dec_inc (n : Node α) (i : Nat) : dec_count cfg (inc_count cfg n i) i = n := by
  unfold dec_count inc_count
  cases hk : cfg.counted
  · rfl
  · simp only [if_true]
    apply node_ext <;> simp [Node.count]
    exact set_inc_dec _ _

theorem dec_inc_set (n c : Node α) (i : Nat) :
    dec_count cfg ((inc_count cfg n i).setChild i c) i = n.setChild i c := by
  unfold dec_count inc_count
  cases hk : cfg.counted
  · rfl
  · simp only [if_true]
    apply node_ext <;> simp [Node.count]
    exact set_inc_dec _ _

theorem insert1_wrap_inserted (n c : Node α) (i : Nat) (old : Option α) (m : List Bool) :
    insert1_wrap cfg n i (InsRes.mk Status.INSERTED c old m) =
      InsRes.mk Status.INSERTED ((inc_count cfg n i).setChild i c) old m := by
  unfold insert1_wrap inc_count
  cases hk : cfg.counted
  · simp
  · simp only [if_true, and_self]
    congr 1

theorem insert1_wrap_other (n c : Node α) (i : Nat) (old : Option α) (m : List Bool)
    {ret : Status} (h : ret ≠ Status.INSERTED) :
    insert1_wrap cfg n i (InsRes.mk ret c old m) =
      InsRes.mk ret (dec_count cfg ((inc_count cfg n i).setChild i c) i) old m := by
  rw [dec_inc_set]
  unfold insert1_wrap
  rw [if_neg (by simp [h])]

end counts

section give
variable {cfg : Config}

theorem BranchOf.flat2 {n : Node α} {ht : Nat} {A B : List (Node α)} {S T : List α}
    {x y : Node α} {s : α} (hb : BranchOf cfg n ht (S ++ s :: T) (A ++ x :: y :: B))
    (hAS : A.length = S.length) :
    Bgen.flat n = flatP A S ++ ((Bgen.flat x ++ s :: Bgen.flat y) ++ tailL B T) := by
  rw [hb.flat, flatL_app A S _ _ hAS, flatL_cons]
  simp [tailL, flatL_cons]

theorem give_left_spec {n lf c : Node α} {A B : List (Node α)} {S T : List α} {sep : α}
    {j ht : Nat} (hb : BranchOf cfg n ht (S ++ sep :: T) (A ++ lf :: c :: B))
    (hA : A.length = j) (hS : S.length = j) (hlf : lf.isleaf = true) (hcl : c.isleaf = true)
    (balance : Bool) {newsep : α}
    (hk : c.items[give_n balance c.len lf.len - 1]? = some newsep) :
    BranchOf cfg (give_left cfg n (j + 1) balance) ht (S ++ newsep :: T)
      (A ++ lf.setItems (lf.items ++ sep :: c.items.take (give_n balance c.len lf.len - 1)) ::
        c.setItems (c.items.drop (give_n balance c.len lf.len)) :: B) := by
  have hi : n.items[j]? = some sep := by rw [hb.items_eq]; exact app_get hS
  unfold give_left
  simp only [Nat.add_sub_cancel]
  rw [hb.child hA, hb.child1 hA, hi, hk]
  dsimp only
  have hit : (S ++ sep :: T).set j newsep = S ++ newsep :: T := app_set hS
  cases hkc : cfg.counted
  · simp only [Bool.false_eq_true, if_false]
    refine ⟨by simp [hb.height_eq], by simp [hb.isleaf_eq], by simp [hb.items_eq, hit], ?_,
      fun hc => by rw [hkc] at hc; cases hc⟩
    simp only [setChild_children, setItems_children, hb.children_eq]
    rw [app_set hA, app_set1 hA]
  · simp only [if_true]
    refine ⟨by simp [hb.height_eq], by simp [hb.isleaf_eq], by simp [hb.items_eq, hit], ?_, ?_⟩
    · simp only [setCount_children, setChild_children, setItems_children, hb.children_eq]
      rw [app_set hA, app_set1 hA]
    · intro _
      simp only [setCount_counts, setChild_counts, setItems_counts, hb.counts_eq hkc,
        List.map_append, List.map_cons]
      rw [app_set (by simpa using hA), app_set1 (by simpa using hA)]
      rw [flat_leaf _ (by simpa using hlf), flat_leaf _ (by simpa using hcl)]
      rfl

theorem give_right_spec {n lf c : Node α} {A B : List (Node α)} {S T : List α} {sep : α}
    {j ht : Nat} (hb : BranchOf cfg n ht (S ++ sep :: T) (A ++ lf :: c :: B))
    (hA : A.length = j) (hS : S.length = j) (hlf : lf.isleaf = true) (hcl : c.isleaf = true)
    (balance : Bool) {newsep : α}
    (hk : lf.items[lf.len - give_n balance lf.len c.len]? = some newsep) :
    BranchOf cfg (give_right cfg n j balance) ht (S ++ newsep :: T)
      (A ++ lf.setItems (lf.items.take (lf.len - give_n balance lf.len c.len)) ::
        c.setItems (lf.items.drop (lf.len - give_n balance lf.len c.len + 1) ++
          sep :: c.items) :: B) := by
  have hi : n.items[j]? = some sep := by rw [hb.items_eq]; exact app_get hS
  unfold give_right
  rw [hb.child hA, hb.child1 hA, hi]
  dsimp only
  rw [hk]
  dsimp only
  have hit : (S ++ sep :: T).set j newsep = S ++ newsep :: T := app_set hS
  cases hkc : cfg.counted
  · simp only [Bool.false_eq_true, if_false]
    refine ⟨by simp [hb.height_eq], by simp [hb.isleaf_eq], by simp [hb.items_eq, hit], ?_,
      fun hc => by rw [hkc] at hc; cases hc⟩
    simp only [setChild_children, setItems_children, hb.children_eq]
    rw [app_set hA, app_set1 hA]
  · simp only [if_true]
    refine ⟨by simp [hb.height_eq], by simp [hb.isleaf_eq], by simp [hb.items_eq, hit], ?_, ?_⟩
    · simp only [setCount_children, setChild_children, setItems_children, hb.children_eq]
      rw [app_set hA, app_set1 hA]
    · intro _
      simp only [setCount_counts, setChild_counts, setItems_counts, hb.counts_eq hkc,
        List.map_append, List.map_cons]
      rw [app_set (by simpa using hA), app_set1 (by simpa using hA)]
      rw [flat_leaf _ (by simpa using hlf), flat_leaf _ (by simpa using hcl)]
      rfl

end give

section fasthelp
variable {cfg : Config} {cmp : α → α → Int}

theorem inc_child (n : Node α) (i j : Nat) : (inc_count cfg n i).child j = n.child j := by
  unfold inc_count; split <;> rfl

theorem inc_len (n : Node α) (i : Nat) : (inc_count cfg n i).len = n.len := by
  unfold inc_count; split <;> rfl

theorem wf_setItems_leaf {c : Node α} (hw : WF cfg 1 c) {l : List α}
    (hl : l.length ≤ MAXITEMS cfg) : WF cfg 1 (c.setItems l) := by
  obtain ⟨h1, h2, _⟩ := wf_leaf hw
  have : c.setItems l = Node.mk l 1 true c.children c.counts := by
    apply node_ext <;> simp [h1, h2]
  rw [this]
  exact wf_mk_leaf hl

theorem search_ge (ho : OrdCmp cmp) (n : Node α) (key : α)
    (hp : n.items.Pairwise (lt cmp)) {P Q : List α} (h : n.items = P ++ Q)
    (hP : ∀ x ∈ P, lt cmp x key) : P.length ≤ (search cmp n key).1 := by
  obtain ⟨S0, T0, e1, e2, e3, e4, e5⟩ := search_items ho n key hp
  rw [← e2]
  by_contra hc
  have hlt : S0.length < P.length := by omega
  have hy : ∃ y, P[S0.length]? = some y := ⟨P[S0.length], by simp [hlt]⟩
  obtain ⟨y, hy⟩ := hy
  have hyP : y ∈ P := List.getElem?_mem hy
  have hyT : T0.head? = some y := by
    have h2 : (S0 ++ T0)[S0.length]? = some y := by
      rw [← e1, h, List.getElem?_append_left hlt]; exact hy
    rw [List.getElem?_append_right (le_refl _)] at h2
    simpa [List.head?_eq_getElem?] using h2
  have hlt1 := hP y hyP
  cases hf : (search cmp n key).2
  · have h5 := e5 hf y (List.mem_of_mem_head? hyT)
    have h6 := (ho.symm y key).1 hlt1
    unfold lt at h5
    omega
  · obtain ⟨y1, T1, hT, h0⟩ := e4 hf
    rw [hT] at hyT
    simp at hyT
    subst hyT
    exact ho.ne_of_lt hlt1 h0

theorem search_le (ho : OrdCmp cmp) (n : Node α) (key : α)
    (hp : n.items.Pairwise (lt cmp)) {P Q : List α} (h : n.items = P ++ Q)
    (hQ : ∀ x ∈ Q, lt cmp key x) : (search cmp n key).1 ≤ P.length := by
  obtain ⟨S0, T0, e1, e2, e3, e4, e5⟩ := search_items ho n key hp
  rw [← e2]
  by_contra hc
  have hlt : P.length < S0.length := by omega
  have hy : (P ++ Q)[P.length]? = some (S0[P.length]) := by
    rw [← h, e1, List.getElem?_append_left hlt]; simp [hlt]
  rw [List.getElem?_append_right (le_refl _)] at hy
  simp at hy
  have hyQ : S0[P.length] ∈ Q := List.getElem?_mem hy
  have h1 := hQ _ hyQ
  have h2 := e3 _ (List.getElem_mem hlt)
  have h3 := (ho.symm _ _).1 h2
  unfold lt at h1
  omega

theorem FastOut.carry_fast {act : InsAct} {item : α} {h : Nat} {n n1 : Node α}
    {mem mem1 : List Bool} {res : FastRes α}
    (hr : FastOut cfg cmp act item h n1 mem1 res) (hnf : res ≠ FastRes.full)
    (hfl : flat n1 = flat n) (hlen : n.items.length ≤ n1.items.length)
    (hmem : AllocOK mem → AllocOK mem1) :
    FastOut cfg cmp act item h n mem res := by
  cases res with
  | done ret n2 old mem2 =>
    obtain ⟨h1, h2⟩ := hr
    exact ⟨h1, h2.transfer (by simp [h1]) hfl hlen hmem⟩
  | brk ret n2 old mem2 =>
    rcases hr with ⟨h1, h2, h3, h4, h5, h6⟩ | ⟨h1, h2, h3⟩
    · exact Or.inl ⟨h1, h2, h3, le_trans hlen h4, h5.trans hfl, fun hm => h6 (hmem hm)⟩
    · exact Or.inr ⟨h1, h2, h3.transfer h2 hfl hlen hmem⟩
  | full => exact absurd rfl hnf

end fasthelp

section fastwrap
variable {cfg : Config} {cmp : α → α → Int}

theorem fast_wrap (ho : OrdOK cfg cmp) {act : InsAct} {item : α} {h i : Nat} {n : Node α}
    {mem : List Bool} (hs : Sorted cfg cmp (flat n))
    (hloc : BranchLoc cfg cmp act item 0 h n i false 0) {res : FastRes α}
    (hres : FastOut cfg cmp act item (h + 1) (n.child i) mem res) :
    (∀ ret c old m1, res = FastRes.done ret c old m1 →
      FastOut cfg cmp act item (h + 2) n mem
        (FastRes.done ret ((inc_count cfg n i).setChild i c) old m1)) ∧
    (∀ ret c old m1, res = FastRes.brk ret c old m1 →
      FastOut cfg cmp act item (h + 2) n mem
        (FastRes.brk ret (dec_count cfg ((inc_count cfg n i).setChild i c) i) old m1)) := by
  obtain ⟨A, c, B, S, T, hb, hA, hS, hBT, hfl, hcw, hcm, hAw, hBw, hlen, hbl, hbr, hp1, hp2,
    hp3, _, hbd⟩ := hloc
  have hch : n.child i = c := hb.child hA
  rw [hch] at hres
  constructor
  · intro ret c1 old m1 hres1
    subst hres1
    obtain ⟨h1, h2⟩ := hres
    subst h1
    have := insert1_wrap_spec ho hs hb hA hS hBT hlen hAw hBw hcw hcm hfl hbl
      (fun hno hpf => hbr hno hpf rfl) (fun ha => hp1 ha rfl) hp2 hp3
      (fun ha hT => hbd ha rfl hT) h2 (Or.inl (by simp))
    rw [insert1_wrap_inserted] at this
    exact ⟨rfl, this⟩
  · intro ret c1 old m1 hres1
    subst hres1
    rcases hres with ⟨h1, h2, h3, h4, h5, h6⟩ | ⟨h1, h2, h3⟩
    · left
      rw [dec_inc_set]
      obtain ⟨_, hw1, hf1⟩ := @child_update α cfg h i n (n.setChild i c1) c c1 A B S T hb hA hS
        hBT hlen hAw hBw h3 (le_trans hcm h4) rfl rfl rfl rfl
        (fun hk => by
          rw [setChild_counts, hb.counts_eq hk]
          exact counts_same (by rw [h5]))
      refine ⟨h1, h2, hw1, le_refl _, ?_, h6⟩
      rw [hf1, hfl, h5]
    · right
      have := insert1_wrap_spec ho hs hb hA hS hBT hlen hAw hBw hcw hcm hfl hbl
        (fun hno hpf => hbr hno hpf rfl) (fun ha => hp1 ha rfl) hp2 hp3
        (fun ha hT => hbd ha rfl hT) h3 (Or.inl h2)
      rw [insert1_wrap_other _ _ _ _ _ h1] at this
      exact ⟨h1, h2, this⟩

theorem insert_fast_down_eq (item : α) (fuel : Nat) (n : Node α) (i : Nat) (mem : List Bool) :
    insert_fast_down cfg cmp item (fuel + 1) n i mem =
      match insert_fast_loop cfg cmp item fuel (n.child i) mem with
      | FastRes.done ret c old mem1 =>
        FastRes.done ret ((inc_count cfg n i).setChild i c) old mem1
      | FastRes.brk ret c old mem1 =>
        FastRes.brk ret (dec_count cfg ((inc_count cfg n i).setChild i c) i) old mem1
      | FastRes.full =>
        if n.len = MAXITEMS cfg then FastRes.brk Status.NONE n none mem
        else if 0 < i ∧ (n.child (i - 1)).len < MINITEMS cfg + 1 then
          insert_fast_loop cfg cmp item fuel (give_left cfg n i false) mem
        else
          match split_child_at cfg n i mem with
          | (none, mem1) => FastRes.brk Status.NOMEM n none mem1
          | (some node1, mem1) =>
            match node1.items[i]? with
            | some s =>
              insert_fast_down cfg cmp item fuel node1 (if cmp item s > 0 then i + 1 else i) mem1
            | none => FastRes.brk Status.FUEL node1 none mem1 := by
  rw [insert_fast_down]
  simp only [inc_child, dec_inc]

theorem insert_fast_leaf (ho : OrdOK cfg cmp) (hno : cfg.noorder = false) {n : Node α}
    (hw : WF cfg 1 n) (hs : Sorted cfg cmp (flat n)) (item : α) (fuel : Nat) (mem : List Bool) :
    FastOut cfg cmp InsAct.INSITEM item 1 n mem
      (insert_fast_loop cfg cmp item (fuel + 1) n mem) := by
  have hl := (wf_leaf hw).1
  have h1 : InsOut cfg cmp InsAct.INSITEM item 0 1 n mem
      (insert1 cfg cmp 1 n InsAct.INSITEM 0 item mem) :=
    insert1_spec ho (fun _ => hno) 1 1 (by omega) n 0 mem hw hs
  rw [insert_fast_loop]
  cases hf : (search cmp n item).2
  · simp only [Bool.false_eq_true, if_false, hl, if_true]
    by_cases hfull : n.len = MAXITEMS cfg
    · rw [if_pos hfull]
      refine ⟨hl, hfull, fun _ x hx => ?_⟩
      have hoc := ho hno
      have hp : n.items.Pairwise (lt cmp) := by
        have := hs hno; rwa [flat_leaf n hl] at this
      obtain ⟨S0, T0, e1, e2, e3, e4, e5⟩ := search_items hoc n item hp
      rw [e1] at hx
      rcases List.mem_append.1 hx with e | e
      · exact hoc.ne_of_lt (e3 x e)
      · have := e5 hf x e
        unfold lt at this
        omega
    · rw [if_neg hfull]
      have e : insert1 cfg cmp 1 n InsAct.INSITEM 0 item mem =
          InsRes.mk Status.INSERTED (shift_right cfg n (search cmp n item).1 item) none mem := by
        have hfull1 : ¬ n.items.length = MAXITEMS cfg := hfull
        simp [insert1, insert1_locate, insert1_loop, hf, hl, hfull1]
      rw [e] at h1
      exact ⟨rfl, h1⟩
  · simp only [if_true]
    have e : insert1 cfg cmp 1 n InsAct.INSITEM 0 item mem =
        InsRes.mk Status.REPLACED (n.setItems (n.items.set (search cmp n item).1 item))
          n.items[(search cmp n item).1]? mem := by
      simp [insert1, insert1_locate, insert1_loop, hf]
    rw [e] at h1
    exact Or.inr ⟨by decide, by decide, h1⟩

theorem insert_fast_down_wrap (ho : OrdOK cfg cmp) {item : α} {h i fuel : Nat} {n : Node α}
    {mem : List Bool} (hs : Sorted cfg cmp (flat n))
    (hloc : BranchLoc cfg cmp InsAct.INSITEM item 0 h n i false 0)
    (hres : FastOut cfg cmp InsAct.INSITEM item (h + 1) (n.child i) mem
      (insert_fast_loop cfg cmp item fuel (n.child i) mem))
    (hnf : insert_fast_loop cfg cmp item fuel (n.child i) mem ≠ FastRes.full) :
    FastOut cfg cmp InsAct.INSITEM item (h + 2) n mem
        (insert_fast_down cfg cmp item (fuel + 1) n i mem) ∧
      insert_fast_down cfg cmp item (fuel + 1) n i mem ≠ FastRes.full := by
  obtain ⟨w1, w2⟩ := fast_wrap ho hs hloc hres
  rw [insert_fast_down_eq]
  clear hres
  generalize insert_fast_loop cfg cmp item fuel (n.child i) mem = res at w1 w2 hnf ⊢
  cases res with
  | full => exact absurd rfl hnf
  | done ret c old m1 => exact ⟨w1 ret c old m1 rfl, by simp⟩
  | brk ret c old m1 => exact ⟨w2 ret c old m1 rfl, by simp⟩

end fastwrap

section fastins
variable {cfg : Config} {cmp : α → α → Int}

theorem split_loc (hoc : OrdCmp cmp) {item : α} {h i : Nat} {n n1 c l r : Node α} {m : α}
    {A B : List (Node α)} {S T : List α}
    (hA : A.length = i) (hS : S.length = i) (hBT : B.length = T.length)
    (hfl : flat n = flatP A S ++ (flat c ++ tailL B T))
    (hb : BranchOf cfg n (h + 2) (S ++ T) (A ++ c :: B))
    (hAw : ∀ x ∈ A, MINITEMS cfg ≤ x.items.length ∧ WF cfg (h + 1) x)
    (hBw : ∀ x ∈ B, MINITEMS cfg ≤ x.items.length ∧ WF cfg (h + 1) x)
    (hlen : (S ++ T).length < MAXITEMS cfg)
    (hlw : WF cfg (h + 1) l) (hrw : WF cfg (h + 1) r) (hll : l.items.length = MINITEMS cfg)
    (hrl : r.items.length = MINITEMS cfg) (hcf : flat c = flat l ++ m :: flat r)
    (hb1 : BranchOf cfg n1 (h + 2) (S ++ m :: T) (A ++ l :: r :: B))
    (hsc : (flat c).Pairwise (lt cmp))
    (hbl : ∀ a ∈ flatP A S, lt cmp a item) (hbr : ∀ b ∈ tailL B T, lt cmp item b) :
    (lt cmp item m → BranchLoc cfg cmp InsAct.INSITEM item 0 h n1 i false 0) ∧
    (lt cmp m item → BranchLoc cfg cmp InsAct.INSITEM item 0 h n1 (i + 1) false 0) := by
  obtain ⟨hw1, e2, e3, e4, e5, hb2, hrB, hAl⟩ :=
    split_ctx hA hS hBT hfl hb hAw hBw hlen hlw hrw hll hrl hcf hb1
  have hlen1 : (S ++ m :: T).length ≤ MAXITEMS cfg := by
    simp at hlen ⊢; omega
  rw [hcf, List.pairwise_append, List.pairwise_cons] at hsc
  obtain ⟨_, ⟨hmr, _⟩, hlm⟩ := hsc
  constructor
  · intro hlt
    refine ⟨A, l, r :: B, S, m :: T, hb1, hA, hS, by simp [hBT], e4, hlw,
      by omega, hAw, hrB, hlen1, fun _ _ => hbl, ?_, ?_, by simp, by simp, by simp⟩
    · intro _ _ _ b hb0
      simp only [tailL, flatL_cons, List.mem_cons, List.mem_append] at hb0
      rcases hb0 with e | e | e
      · subst e; exact hlt
      · exact hoc.lt_trans hlt (hmr b e)
      · exact hbr b e
    · intro ha; rcases ha with ha | ha <;> cases ha
  · intro hgt
    refine ⟨A ++ [l], r, B, S ++ [m], T, hb2, by simp [hA], by simp [hS], hBT, e5,
      hrw, by omega, hAl, hBw, by simpa using hlen1, ?_, fun _ _ _ => hbr, by simp, by simp,
      by simp, by simp⟩
    intro _ _ a ha
    rw [flatP_app A S _ _ (hA.trans hS.symm)] at ha
    simp only [flatP, List.mem_append, List.mem_cons, List.not_mem_nil,
      or_false] at ha
    rcases ha with e | e | e
    · exact hbl a e
    · exact hoc.lt_trans (hlm a e m (List.mem_cons_self _ _)) hgt
    · subst e; exact hgt

theorem insert_fast_loop_branch (item : α) (fuel : Nat) (n : Node α) (mem : List Bool)
    (hl : n.isleaf = false) :
    insert_fast_loop cfg cmp item (fuel + 1) n mem =
      if (search cmp n item).2 then
        FastRes.brk Status.REPLACED (n.setItems (n.items.set (search cmp n item).1 item))
          n.items[(search cmp n item).1]? mem
      else insert_fast_down cfg cmp item fuel n (search cmp n item).1 mem := by
  rw [insert_fast_loop]
  simp [hl]

theorem insert_fast_loop_of_down (ho : OrdOK cfg cmp) (hno : cfg.noorder = false) {item : α}
    {h fuel : Nat} {n : Node α} {mem : List Bool} (hw : WF cfg (h + 2) n)
    (hs : Sorted cfg cmp (flat n))
    (hdown : BranchLoc cfg cmp InsAct.INSITEM item 0 h n (search cmp n item).1 false 0 →
      FastOut cfg cmp InsAct.INSITEM item (h + 2) n mem
          (insert_fast_down cfg cmp item fuel n (search cmp n item).1 mem) ∧
        insert_fast_down cfg cmp item fuel n (search cmp n item).1 mem ≠ FastRes.full) :
    FastOut cfg cmp InsAct.INSITEM item (h + 2) n mem
        (insert_fast_loop cfg cmp item (fuel + 1) n mem) ∧
      insert_fast_loop cfg cmp item (fuel + 1) n mem ≠ FastRes.full := by
  have hloc := locate_branch_insitem ho hw hs 0 item hno
  rw [insert_fast_loop_branch item fuel n mem (wf_branch hw).1]
  cases hf : (search cmp n item).2
  · rw [hf] at hloc
    simpa using hdown hloc
  · rw [hf] at hloc
    simp only [if_true]
    have := @insert1_loop_found α cfg cmp InsAct.INSITEM item 0 0 0 (search cmp n item).1 0 h
      mem n hloc
    rw [insert1_loop] at this
    simp only [if_true] at this
    exact ⟨Or.inr ⟨by decide, by decide, this⟩, by simp⟩

end fastins

section fastcore
variable {cfg : Config} {cmp : α → α → Int}

theorem sorted_mid {P M Q : List α} (hs : Sorted cfg cmp (P ++ (M ++ Q))) :
    Sorted cfg cmp M := by
  intro hno
  have := hs hno
  rw [List.pairwise_append, List.pairwise_append] at this
  exact this.2.1.1

theorem fast_leaf_nonfull (ho : OrdOK cfg cmp) (hno : cfg.noorder = false) {c : Node α}
    (hw : WF cfg 1 c) (hs : Sorted cfg cmp (flat c)) (item : α) (fuel : Nat) (mem : List Bool)
    (hnf : c.items.length ≠ MAXITEMS cfg) :
    FastOut cfg cmp InsAct.INSITEM item 1 c mem
        (insert_fast_loop cfg cmp item (fuel + 1) c mem) ∧
      insert_fast_loop cfg cmp item (fuel + 1) c mem ≠ FastRes.full := by
  have h := insert_fast_leaf ho hno hw hs item fuel mem
  refine ⟨h, fun e => ?_⟩
  rw [e] at h
  exact hnf h.2.1

theorem insert_fast_down_core (ho : OrdOK cfg cmp) (hno : cfg.noorder = false) {item : α}
    {i fuel : Nat} {n : Node α} {mem : List Bool} (hw : WF cfg 2 n)
    (hs : Sorted cfg cmp (flat n))
    (hloc : BranchLoc cfg cmp InsAct.INSITEM item 0 0 n i false 0)
    (hgl : 0 < i → (n.child (i - 1)).len < MINITEMS cfg + 1 →
      (n.child i).isleaf = true → (n.child i).items.length = MAXITEMS cfg →
      FastOut cfg cmp InsAct.INSITEM item 2 n mem
          (insert_fast_loop cfg cmp item (fuel + 2) (give_left cfg n i false) mem) ∧
        insert_fast_loop cfg cmp item (fuel + 2) (give_left cfg n i false) mem ≠
          FastRes.full) :
    FastOut cfg cmp InsAct.INSITEM item 2 n mem
        (insert_fast_down cfg cmp item (fuel + 3) n i mem) ∧
      insert_fast_down cfg cmp item (fuel + 3) n i mem ≠ FastRes.full := by
  have hloc0 := hloc
  obtain ⟨A, c, B, S, T, hb, hA, hS, hBT, hfl, hcw, hcm, hAw, hBw, hlen, hbl, hbr, _, _,
    _, _⟩ := hloc
  have hoc := ho hno
  have hch : n.child i = c := hb.child hA
  have hsc : Sorted cfg cmp (flat c) := by rw [hfl] at hs; exact sorted_mid hs
  have hleaf := insert_fast_leaf ho hno hcw hsc item (fuel + 1) mem
  by_cases hfe : insert_fast_loop cfg cmp item (fuel + 2) c mem = FastRes.full
  · rw [insert_fast_down_eq, hch, hfe]
    rw [hfe] at hleaf
    obtain ⟨cl, cfull, cne⟩ := hleaf
    dsimp only
    by_cases hnl : n.len = MAXITEMS cfg
    · rw [if_pos hnl]
      exact ⟨Or.inl ⟨rfl, rfl, hw, le_refl _, rfl, id⟩, by simp⟩
    rw [if_neg hnl]
    by_cases hg : 0 < i ∧ (n.child (i - 1)).len < MINITEMS cfg + 1
    · rw [if_pos hg]
      exact hgl hg.1 hg.2 (by rw [hch]; exact cl) (by rw [hch]; exact cfull)
    rw [if_neg hg]
    obtain ⟨l, m, r, n1, hlw, hrw, hll, hrl, hcf, hsp, hb1⟩ :=
      split_child_at_spec hb hA hS hcw cfull mem
    rw [hsp]
    by_cases hm : mem.head? = some false
    · rw [if_pos hm]
      exact ⟨Or.inr ⟨by decide, by decide,
        InsOut.nomem n mem.tail hw (le_refl _) rfl (not_allocOK_of_head hm)⟩, by simp⟩
    rw [if_neg hm]
    dsimp only
    have hmi : n1.items[i]? = some m := by rw [hb1.items_eq]; exact app_get hS
    rw [hmi]
    dsimp only
    have hlen2 : (S ++ T).length < MAXITEMS cfg := by
      rw [← hb.items_eq]
      exact lt_of_le_of_ne (by rw [hb.items_eq]; exact hlen) hnl
    obtain ⟨hw1, e2, e3, e4, e5, hb2, hrB, hAl⟩ :=
      split_ctx hA hS hBT hfl hb hAw hBw hlen2 hlw hrw hll hrl hcf hb1
    have hs1 : Sorted cfg cmp (flat n1) := by rw [e2]; exact hs
    have hmc : m ∈ c.items := by
      rw [← flat_leaf c cl, hcf]; simp
    have hne := cne rfl m hmc
    obtain ⟨sl1, sl2⟩ := split_loc hoc hA hS hBT hfl hb hAw hBw hlen2 hlw hrw hll hrl hcf hb1
      (hsc hno) (hbl hno (by decide)) (hbr hno (by decide) rfl)
    by_cases hgt : cmp item m > 0
    · rw [if_pos hgt]
      have hloc1 := sl2 ((hoc.gt_iff item m).1 hgt)
      have hsr : Sorted cfg cmp (flat r) := by rw [e5] at hs1; exact sorted_mid hs1
      have hc1 : n1.child (i + 1) = r := hb1.child1 hA
      have hr := fast_leaf_nonfull ho hno hrw hsr item fuel mem.tail (nonfull_of_min hrl)
      rw [← hc1] at hr
      have := insert_fast_down_wrap ho hs1 hloc1 hr.1 hr.2
      exact ⟨this.1.carry_fast this.2 e2 (by omega) AllocOK.tail, this.2⟩
    · rw [if_neg hgt]
      have hlt : lt cmp item m := by unfold lt; omega
      have hloc1 := sl1 hlt
      have hsl : Sorted cfg cmp (flat l) := by rw [e4] at hs1; exact sorted_mid hs1
      have hc1 : n1.child i = l := hb1.child hA
      have hr := fast_leaf_nonfull ho hno hlw hsl item fuel mem.tail (nonfull_of_min hll)
      rw [← hc1] at hr
      have := insert_fast_down_wrap ho hs1 hloc1 hr.1 hr.2
      exact ⟨this.1.carry_fast this.2 e2 (by omega) AllocOK.tail, this.2⟩
  · exact insert_fast_down_wrap ho hs hloc0 (by rw [hch]; exact hleaf) (by rw [hch]; exact hfe)

end fastcore

section fastcascade
variable {cfg : Config} {cmp : α → α → Int}

theorem take_get_drop {β : Type} {l : List β} {k : Nat} {x : β} (h : l[k]? = some x) :
    l = l.take k ++ x :: l.drop (k + 1) := by
  have hlt : k < l.length := by
    by_contra hc
    rw [List.getElem?_eq_none (by omega)] at h
    cases h
  obtain ⟨A, c, B, e, hA⟩ := split_at_lt l k hlt
  subst e
  rw [app_get hA] at h
  cases h
  rw [app_take hA, app_drop1 hA]

/-- The node after `give_left(node, j + 1, false)` handed the upper half of the full
leaf `c` to its left sibling `lf` holding `MINITEMS` items. -/
theorem give_left_full {n lf c : Node α} {A B : List (Node α)} {S T : List α} {sep : α}
    {j : Nat} (hb : BranchOf cfg n 2 (S ++ sep :: T) (A ++ lf :: c :: B))
    (hA : A.length = j) (hS : S.length = j) (hBT : B.length = T.length)
    (hlen : (S ++ sep :: T).length ≤ MAXITEMS cfg)
    (hAw : ∀ x ∈ A, MINITEMS cfg ≤ x.items.length ∧ WF cfg 1 x)
    (hBw : ∀ x ∈ B, MINITEMS cfg ≤ x.items.length ∧ WF cfg 1 x)
    (hlw : WF cfg 1 lf) (hcw : WF cfg 1 c) (hll : MINITEMS cfg ≤ lf.items.length)
    (hlt : lf.items.length < MAXITEMS cfg) (hcl : c.items.length = MAXITEMS cfg) :
    ∃ lf1 c1 newsep, BranchOf cfg (give_left cfg n (j + 1) false) 2 (S ++ newsep :: T)
        (A ++ lf1 :: c1 :: B) ∧
      WF cfg 2 (give_left cfg n (j + 1) false) ∧
      flat (give_left cfg n (j + 1) false) = flat n ∧
      (give_left cfg n (j + 1) false).items.length = n.items.length ∧
      WF cfg 1 lf1 ∧ WF cfg 1 c1 ∧ c1.items.length = lf.items.length := by
  have hmax := max_eq cfg
  have hmin := min_pos cfg
  obtain ⟨k, hk⟩ : ∃ k, give_n false c.len lf.len = k + 1 :=
    ⟨c.items.length - lf.items.length - 1, by
      show c.items.length - lf.items.length = _
      omega⟩
  have hkv : k + 1 = c.items.length - lf.items.length := hk.symm
  have hlt2 : k < c.items.length := by omega
  obtain ⟨newsep, hns⟩ : ∃ x, c.items[k]? = some x :=
    ⟨_, List.getElem?_eq_getElem hlt2⟩
  have hb1 := give_left_spec hb hA hS (wf_leaf hlw).1 (wf_leaf hcw).1 false
    (show c.items[give_n false c.len lf.len - 1]? = some newsep by rw [hk]; exact hns)
  rw [hk] at hb1
  simp only [Nat.add_sub_cancel] at hb1
  have hw1 : WF cfg 1 (lf.setItems (lf.items ++ sep :: c.items.take k)) :=
    wf_setItems_leaf hlw (by simp; omega)
  have hw2 : WF cfg 1 (c.setItems (c.items.drop (k + 1))) :=
    wf_setItems_leaf hcw (by simp; omega)
  have hASl : A.length = S.length := hA.trans hS.symm
  refine ⟨_, _, newsep, hb1, ?_, ?_, ?_, hw1, hw2, by simp; omega⟩
  · refine hb1.wf (by simpa using hlen) (by simp; omega) ?_
    intro x hx
    simp only [List.mem_append, List.mem_cons] at hx
    rcases hx with e | e | e | e
    · exact hAw x e
    · subst e; exact ⟨by simp; omega, hw1⟩
    · subst e; exact ⟨by simp; omega, hw2⟩
    · exact hBw x e
  · rw [hb1.flat2 hASl, hb.flat2 hASl, flat_leaf _ (wf_leaf hw1).1, flat_leaf _ (wf_leaf hw2).1,
      flat_leaf _ (wf_leaf hlw).1, flat_leaf _ (wf_leaf hcw).1]
    simp only [setItems_items]
    have := take_get_drop hns
    conv_rhs => rw [this]
    simp
  · rw [hb1.items_eq, hb.items_eq]; simp

theorem insert_fast_down2 (ho : OrdOK cfg cmp) (hno : cfg.noorder = false) (item : α) :
    ∀ (i fuel : Nat) (n : Node α) (mem : List Bool), WF cfg 2 n → Sorted cfg cmp (flat n) →
      BranchLoc cfg cmp InsAct.INSITEM item 0 0 n i false 0 → 2 * i + 3 ≤ fuel →
      FastOut cfg cmp InsAct.INSITEM item 2 n mem (insert_fast_down cfg cmp item fuel n i mem) ∧
        insert_fast_down cfg cmp item fuel n i mem ≠ FastRes.full
  | 0, fuel, n, mem, hw, hs, hloc, hf => by
    obtain ⟨f, rfl⟩ : ∃ f, fuel = f + 3 := ⟨fuel - 3, by omega⟩
    exact insert_fast_down_core ho hno hw hs hloc (fun h0 => absurd h0 (by decide))
  | j + 1, fuel, n, mem, hw, hs, hloc, hf => by
    obtain ⟨f, rfl⟩ : ∃ f, fuel = f + 3 := ⟨fuel - 3, by omega⟩
    refine insert_fast_down_core ho hno hw hs hloc ?_
    intro _ hlt cl cfull
    obtain ⟨A, c, B, S, T, hb, hA, hS, hBT, hfl, hcw, hcm, hAw, hBw, hlen, hbl, hbr, _, _,
      _, _⟩ := hloc
    have hoc := ho hno
    have hch : n.child (j + 1) = c := hb.child hA
    rw [hch] at cfull
    obtain ⟨A1, lf, rfl⟩ : ∃ A1 lf, A = A1 ++ [lf] := by
      rcases List.eq_nil_or_concat A with e | ⟨L, b, e⟩
      · subst e; simp at hA
      · exact ⟨L, b, by rw [e, List.concat_eq_append]⟩
    obtain ⟨S1, sep, rfl⟩ : ∃ S1 sep, S = S1 ++ [sep] := by
      rcases List.eq_nil_or_concat S with e | ⟨L, b, e⟩
      · subst e; simp at hS
      · exact ⟨L, b, by rw [e, List.concat_eq_append]⟩
    have hA1 : A1.length = j := by simpa using hA
    have hS1 : S1.length = j := by simpa using hS
    have hb0 : BranchOf cfg n 2 (S1 ++ sep :: T) (A1 ++ lf :: c :: B) := by simpa using hb
    have hlfw := hAw lf (by simp)
    have hlf : n.child j = lf := hb0.child hA1
    simp only [Nat.add_sub_cancel] at hlt
    rw [hlf] at hlt
    have hll : lf.items.length = MINITEMS cfg := by
      have : lf.items.length < MINITEMS cfg + 1 := hlt
      omega
    obtain ⟨lf1, c1, newsep, hb1, hw1, hf1, hl1, hlw1, hcw1, hcl1⟩ :=
      give_left_full hb0 hA1 hS1 hBT (by simpa using hlen)
        (fun x hx => hAw x (by simp [hx])) hBw hlfw.2 hcw (by omega)
        (by have := max_eq cfg; have := min_pos cfg; omega) cfull
    have hs1 : Sorted cfg cmp (flat (give_left cfg n (j + 1) false)) := by rw [hf1]; exact hs
    have hp1 := (hs1 hno).sublist (wf_items_sublist hw1)
    have hge : j ≤ (search cmp (give_left cfg n (j + 1) false) item).1 := by
      have := search_ge hoc _ item hp1 hb1.items_eq (fun x hx =>
        hbl hno (by decide) x (mem_flatP_sep _ _ (hA.trans hS.symm) x (by simp [hx])))
      rwa [hS1] at this
    have hle : (search cmp (give_left cfg n (j + 1) false) item).1 ≤ j + 1 := by
      have e : (give_left cfg n (j + 1) false).items = (S1 ++ [newsep]) ++ T := by
        rw [hb1.items_eq]; simp
      have := search_le hoc _ item hp1 e (fun x hx =>
        hbr hno (by decide) rfl x (mem_tailL_sep _ _ hBT x hx))
      simpa [hS1] using this
    have hdown := @insert_fast_loop_of_down α cfg cmp ho hno item 0 (f + 1) _ mem
      hw1 hs1 (fun hloc1 => by
        rcases Nat.eq_or_lt_of_le hge with e | e
        · rw [← e] at hloc1 ⊢
          exact insert_fast_down2 ho hno item j (f + 1) _ mem hw1 hs1 hloc1 (by omega)
        · have e1 : (search cmp (give_left cfg n (j + 1) false) item).1 = j + 1 := by omega
          rw [e1] at hloc1 ⊢
          obtain ⟨f1, rfl⟩ : ∃ f1, f = f1 + 1 := ⟨f - 1, by omega⟩
          have hc1 : (give_left cfg n (j + 1) false).child (j + 1) = c1 := hb1.child1 hA1
          have hsc1 : Sorted cfg cmp (flat c1) := by
            have := hs1
            rw [hb1.flat2 (hA1.trans hS1.symm)] at this
            have h2 := sorted_mid this
            intro hno1
            have h3 := h2 hno1
            rw [List.pairwise_append, List.pairwise_cons] at h3
            exact h3.2.1.2
          have hr := fast_leaf_nonfull ho hno hcw1 hsc1 item f1 mem (nonfull_of_min (hcl1.trans hll))
          rw [← hc1] at hr
          exact insert_fast_down_wrap ho hs1 hloc1 hr.1 hr.2)
    exact ⟨hdown.1.carry_fast hdown.2 hf1 (by omega) id, hdown.2⟩

end fastcascade

section fastmain
variable {cfg : Config} {cmp : α → α → Int}

theorem maxitems_lt_fanout (cfg : Config) : MAXITEMS cfg + 1 = FANOUTUSED cfg := by
  have := min_pos cfg
  have := max_eq cfg
  unfold MAXITEMS at *
  omega

theorem insert_fast_spec (ho : OrdOK cfg cmp) (hno : cfg.noorder = false) (item : α) :
    ∀ (h fuel : Nat) (n : Node α) (mem : List Bool), WF cfg h n → Sorted cfg cmp (flat n) →
      2 * h + 2 * FANOUTUSED cfg ≤ fuel →
      FastOut cfg cmp InsAct.INSITEM item h n mem (insert_fast_loop cfg cmp item fuel n mem) ∧
        (2 ≤ h → insert_fast_loop cfg cmp item fuel n mem ≠ FastRes.full)
  | 0, _, _, _, hw, _, _ => absurd hw (by simp [WF])
  | 1, fuel, n, mem, hw, hs, hf => by
    obtain ⟨f, rfl⟩ : ∃ f, fuel = f + 1 := ⟨fuel - 1, by omega⟩
    exact ⟨insert_fast_leaf ho hno hw hs item f mem, fun h => absurd h (by decide)⟩
  | 2, fuel, n, mem, hw, hs, hf => by
    obtain ⟨f, rfl⟩ : ∃ f, fuel = f + 1 := ⟨fuel - 1, by omega⟩
    have := @insert_fast_loop_of_down α cfg cmp ho hno item 0 f n mem hw hs
      (fun hloc => by
        refine insert_fast_down2 ho hno item _ f n mem hw hs hloc ?_
        obtain ⟨A, c, B, S, T, hb, hA, hS, hBT, hfl, hcw, hcm, hAw, hBw, hlen, _⟩ := hloc
        have := maxitems_lt_fanout cfg
        simp at hlen
        omega)
    exact ⟨this.1, fun _ => this.2⟩
  | h + 3, fuel, n, mem, hw, hs, hf => by
    obtain ⟨f, rfl⟩ : ∃ f, fuel = f + 2 := ⟨fuel - 2, by omega⟩
    have := @insert_fast_loop_of_down α cfg cmp ho hno item (h + 1) (f + 1) n mem hw hs
      (fun hloc => by
        have hloc0 := hloc
        obtain ⟨A, c, B, S, T, hb, hA, hS, hBT, hfl, hcw, hcm, hAw, hBw, hlen, _⟩ := hloc
        have hch : n.child (search cmp n item).1 = c := hb.child hA
        have hsc : Sorted cfg cmp (flat c) := by rw [hfl] at hs; exact sorted_mid hs
        have ih := insert_fast_spec ho hno item (h + 2) f c mem hcw hsc (by omega)
        rw [← hch] at ih
        exact insert_fast_down_wrap ho hs hloc0 ih.1 (ih.2 (by omega)))
    exact ⟨this.1, fun _ => this.2⟩

theorem InsOut.ret_ne_none {act : InsAct} {item : α} {index h : Nat} {n : Node α}
    {mem : List Bool} {r : InsRes α} (hr : InsOut cfg cmp act item index h n mem r) :
    r.ret ≠ Status.NONE := by
  cases hr with
  | inserted => simp
  | replaced => simp
  | mustsplit => simp
  | nomem => simp
  | rejected ret n2 mem2 h1 => rcases h1 with h1 | h1 <;> simp [h1]

theorem TreeOut.tree_ret_ne_none {act : InsAct} {item : α} {index : Nat}
    {root : Option (Node α)} {mem : List Bool} {t : TreeRes α}
    (ht : TreeOut cfg cmp act item index root mem t) : t.ret ≠ Status.NONE := by
  obtain ⟨_, _, h | h | h | h⟩ := ht
  · rw [h.1]; decide
  · rw [h.1]; decide
  · rw [h.1]; decide
  · rcases h.1 with e | e <;> rw [e] <;> decide

/-- What a fast path followed by its slow path leaves behind, given what the fast
path loop did at the root. -/
theorem tree_of_fast (ho : OrdOK cfg cmp) {act : InsAct} {item : α}
    (hins : act = InsAct.INSITEM → cfg.noorder = false) {r : Node α} {mem : List Bool}
    (hinv : Inv cfg cmp (some r)) {res : FastRes α}
    (hres : FastOut cfg cmp act item r.height r mem res) :
    TreeOut cfg cmp act item 0 (some r) mem
      (if (fast_result r mem res).ret ≠ Status.NONE then fast_result r mem res
       else insert0 cfg cmp (fast_result r mem res).root act 0 item (fast_result r mem res).mem) := by
  obtain ⟨hw, hpos, hso⟩ := hinv
  have hs : Sorted cfg cmp (flat r) := hso
  cases res with
  | done ret n1 old mem1 =>
    obtain ⟨h1, h2⟩ := hres
    subst h1
    simp only [fast_result]
    rw [if_pos (by decide)]
    exact tree_of_ins ho hs hpos hw h2 (by simp)
  | brk ret n1 old mem1 =>
    simp only [fast_result]
    rcases hres with ⟨h1, h2, h3, h4, h5, h6⟩ | ⟨h1, h2, h3⟩
    · subst h1
      rw [if_neg (by simp)]
      have hinv1 : Inv cfg cmp (some n1) :=
        ⟨by rw [wf_height h3]; exact h3, by omega, by
          show Sorted cfg cmp (flat n1)
          rw [h5]; exact hs⟩
      exact (insert0_spec ho hins 0 (some n1) mem1 hinv1).carry h5 h6
    · rw [if_pos h3.ret_ne_none]
      exact tree_of_ins ho hs hpos hw h3 h2
  | full =>
    simp only [fast_result]
    rw [if_neg (by simp)]
    exact insert0_spec ho hins 0 (some r) mem ⟨hw, hpos, hso⟩

theorem insert_spec (ho : OrdOK cfg cmp) (hno : cfg.noorder = false) (item : α)
    (root : Option (Node α)) (mem : List Bool) (hinv : Inv cfg cmp root) :
    TreeOut cfg cmp InsAct.INSITEM item 0 root mem (insert cfg cmp root item mem) := by
  unfold insert
  rw [hno]
  simp only [Bool.false_eq_true, if_false]
  cases root with
  | none =>
    simp only [insert_fastpath]
    rw [if_neg (by simp)]
    exact insert0_spec ho (fun _ => hno) 0 none mem hinv
  | some r =>
    have hw := hinv.1
    have hs : Sorted cfg cmp (flat r) := hinv.2.2
    have hd : depth r = r.height := wf_depth _ _ hw
    have hf := (insert_fast_spec ho hno item r.height (2 * depth r + 2 * FANOUTUSED cfg) r mem
      hw hs (by omega)).1
    have := tree_of_fast ho (fun _ => hno) hinv hf
    have e : insert_fastpath cfg cmp (some r) item mem =
        fast_result r mem
          (insert_fast_loop cfg cmp item (2 * depth r + 2 * FANOUTUSED cfg) r mem) := by
      cases hl : insert_fast_loop cfg cmp item (2 * depth r + 2 * FANOUTUSED cfg) r mem <;>
        simp [insert_fastpath, fast_result, hl]
    rw [e]
    exact this

end fastmain

section pushhelp
variable {cfg : Config} {cmp : α → α → Int}

theorem shift_set_absorb {β : Type} (l : List β) (i : Nat) (x a b : β) :
    ((((l.set i x).take (i + 1) ++ (l.set i x).drop i).set i a).set (i + 1) b) =
      (((l.take (i + 1) ++ l.drop i).set i a).set (i + 1) b) := by
  induction l generalizing i with
  | nil => simp
  | cons h t ih =>
    cases i with
    | zero => simp
    | succ k => simpa using ih k

theorem set_absorb {β : Type} (l : List β) (i : Nat) (x a b : β) :
    ((l.set i x).set i a).set (i + 1) b = (l.set i a).set (i + 1) b := by
  rw [List.set_set]

theorem set_absorb1 {β : Type} (l : List β) (i : Nat) (x a b : β) :
    ((l.set (i + 1) x).set i a).set (i + 1) b = (l.set i a).set (i + 1) b := by
  induction l generalizing i with
  | nil => simp
  | cons h t ih =>
    cases i with
    | zero => cases t <;> simp
    | succ k => simpa using ih k

theorem give_right_inc (n : Node α) (j : Nat) (b : Bool) {sep newsep : α}
    (hi : n.items[j]? = some sep)
    (hn : (n.child j).items[(n.child j).len - give_n b (n.child j).len (n.child (j + 1)).len]? =
      some newsep) :
    give_right cfg (inc_count cfg n j) j b = give_right cfg n j b := by
  unfold inc_count
  cases hk : cfg.counted
  · rfl
  · simp only [if_true]
    unfold give_right
    simp only [setCount_child, setCount_items, hk, if_true, hi, hn]
    apply node_ext <;> simp

theorem give_left_inc (n : Node α) (j : Nat) (b : Bool) {sep newsep : α}
    (hi : n.items[j]? = some sep)
    (hn : (n.child (j + 1)).items[give_n b (n.child (j + 1)).len (n.child j).len - 1]? =
      some newsep) :
    give_left cfg (inc_count cfg n (j + 1)) (j + 1) b = give_left cfg n (j + 1) b := by
  unfold inc_count
  cases hk : cfg.counted
  · rfl
  · simp only [if_true]
    unfold give_left
    simp only [setCount_child, setCount_items, hk, if_true, Nat.add_sub_cancel, hi, hn]
    apply node_ext <;> simp
    exact set_absorb1 _ _ _ _ _

theorem split_child_at_inc (n : Node α) (i : Nat) (mem : List Bool) :
    split_child_at cfg (inc_count cfg n i) i mem = split_child_at cfg n i mem := by
  unfold inc_count
  cases hk : cfg.counted
  · rfl
  · simp only [if_true]
    unfold split_child_at
    simp only [setCount_child, hk, if_true]
    cases hsp : split cfg (n.child i) mem with
    | mk o mem1 =>
      cases o with
      | none => rfl
      | some t =>
        obtain ⟨l, m, r⟩ := t
        dsimp only
        congr 2
        have hl : n.isleaf = (n.setCount i (n.count i + 1)).isleaf := rfl
        apply node_ext <;> simp [shift_right, hk]
        all_goals cases hlf : n.isleaf <;> simp [hlf]
        all_goals first | rfl | exact shift_set_absorb _ _ _ _ _

end pushhelp

section pushfront
variable {cfg : Config} {cmp : α → α → Int}

/-- The node after `give_right(node, j, false)` handed the upper part of the full
leaf `c` to its right sibling `c1`, which has room. -/
theorem give_right_full {n c c1 : Node α} {A B : List (Node α)} {S T : List α} {sep : α}
    {j : Nat} (hb : BranchOf cfg n 2 (S ++ sep :: T) (A ++ c :: c1 :: B))
    (hA : A.length = j) (hS : S.length = j) (hBT : B.length = T.length)
    (hlen : (S ++ sep :: T).length ≤ MAXITEMS cfg)
    (hAw : ∀ x ∈ A, MINITEMS cfg ≤ x.items.length ∧ WF cfg 1 x)
    (hBw : ∀ x ∈ B, MINITEMS cfg ≤ x.items.length ∧ WF cfg 1 x)
    (hcw : WF cfg 1 c) (hc1w : WF cfg 1 c1) (hcl : c.items.length = MAXITEMS cfg)
    (hr1 : MINITEMS cfg ≤ c1.items.length) (hr2 : c1.items.length < MAXITEMS cfg) :
    ∃ lf1 c2 newsep, BranchOf cfg (give_right cfg n j false) 2 (S ++ newsep :: T)
        (A ++ lf1 :: c2 :: B) ∧
      WF cfg 2 (give_right cfg n j false) ∧
      flat (give_right cfg n j false) = flat n ∧
      (give_right cfg n j false).items.length = n.items.length ∧
      WF cfg 1 lf1 ∧ WF cfg 1 c2 ∧ lf1.items.length = c1.items.length ∧
      give_right cfg (inc_count cfg n j) j false = give_right cfg n j false := by
  have hmax := max_eq cfg
  have hmin := min_pos cfg
  have hkv : c.len - give_n false c.len c1.len = c1.items.length := by
    show c.items.length - (c.items.length - c1.items.length) = _
    omega
  have hlt2 : c1.items.length < c.items.length := by omega
  obtain ⟨newsep, hns⟩ : ∃ x, c.items[c1.items.length]? = some x :=
    ⟨_, List.getElem?_eq_getElem hlt2⟩
  have hb1 := give_right_spec hb hA hS (wf_leaf hcw).1 (wf_leaf hc1w).1 false
    (show c.items[c.len - give_n false c.len c1.len]? = some newsep by rw [hkv]; exact hns)
  rw [hkv] at hb1
  have hw1 : WF cfg 1 (c.setItems (c.items.take c1.items.length)) :=
    wf_setItems_leaf hcw (by simp; omega)
  have hw2 : WF cfg 1 (c1.setItems (c.items.drop (c1.items.length + 1) ++ sep :: c1.items)) :=
    wf_setItems_leaf hc1w (by simp; omega)
  have hASl : A.length = S.length := hA.trans hS.symm
  have hi : n.items[j]? = some sep := by rw [hb.items_eq]; exact app_get hS
  refine ⟨_, _, newsep, hb1, ?_, ?_, ?_, hw1, hw2, by simp; omega, ?_⟩
  · refine hb1.wf (by simpa using hlen) (by simp; omega) ?_
    intro x hx
    simp only [List.mem_append, List.mem_cons] at hx
    rcases hx with e | e | e | e
    · exact hAw x e
    · subst e; exact ⟨by simp; omega, hw1⟩
    · subst e; exact ⟨by simp; omega, hw2⟩
    · exact hBw x e
  · rw [hb1.flat2 hASl, hb.flat2 hASl, flat_leaf _ (wf_leaf hw1).1, flat_leaf _ (wf_leaf hw2).1,
      flat_leaf _ (wf_leaf hcw).1, flat_leaf _ (wf_leaf hc1w).1]
    simp only [setItems_items]
    have := take_get_drop hns
    conv_rhs => rw [this]
    simp
  · rw [hb1.items_eq, hb.items_eq]; simp
  · refine @give_right_inc α cfg n j false sep newsep hi ?_
    rw [hb.child hA, hb.child1 hA, hkv]
    exact hns

theorem push_front_leaf_spec (ho : OrdOK cfg cmp) {n : Node α} (hw : WF cfg 1 n)
    (hs : Sorted cfg cmp (flat n)) (item : α) (mem : List Bool)
    (hnf : n.items.length ≠ MAXITEMS cfg) :
    FastOut cfg cmp InsAct.PUSHFRONT item 1 n mem (push_front_leaf cfg cmp item n mem) ∧
      push_front_leaf cfg cmp item n mem ≠ FastRes.full := by
  have hl := (wf_leaf hw).1
  have h1 : InsOut cfg cmp InsAct.PUSHFRONT item 0 1 n mem
      (insert1 cfg cmp 1 n InsAct.PUSHFRONT 0 item mem) :=
    insert1_spec ho (fun h => by cases h) 1 1 (by omega) n 0 mem hw hs
  unfold push_front_leaf
  by_cases hc : cfg.noorder = false ∧ less_item_slot cmp item n.items.head? = false
  · rw [if_pos hc]
    have e : insert1 cfg cmp 1 n InsAct.PUSHFRONT 0 item mem =
        InsRes.mk Status.OUTOFORDER n none mem := by
      simp only [insert1, insert1_locate]
      rw [if_pos ⟨hl, hc⟩]
    rw [e] at h1
    exact ⟨Or.inr ⟨by decide, by decide, h1⟩, by simp⟩
  · rw [if_neg hc]
    have e : insert1 cfg cmp 1 n InsAct.PUSHFRONT 0 item mem =
        InsRes.mk Status.INSERTED (shift_right cfg n 0 item) none mem := by
      simp only [insert1, insert1_locate]
      rw [if_neg (fun h => hc h.2)]
      simp [insert1_loop, hl, hnf]
    rw [e] at h1
    exact ⟨⟨rfl, h1⟩, by simp⟩

theorem push_front_finish_spec (ho : OrdOK cfg cmp) {p : Node α} (hw : WF cfg 2 p)
    (hs : Sorted cfg cmp (flat p)) (item : α) (mem : List Bool)
    (hnf : (p.child 0).items.length ≠ MAXITEMS cfg) :
    FastOut cfg cmp InsAct.PUSHFRONT item 2 p mem (push_front_finish cfg cmp item p mem) ∧
      push_front_finish cfg cmp item p mem ≠ FastRes.full := by
  have hloc := (@locate_branch_push α cfg cmp ho _ _ hw 0 item).1
  have hloc0 := hloc
  obtain ⟨A, c, B, S, T, hb, hA, hS, hBT, hfl, hcw, hcm, hAw, hBw, hlen, _⟩ := hloc
  have hch : p.child 0 = c := hb.child hA
  have hsc : Sorted cfg cmp (flat c) := by rw [hfl] at hs; exact sorted_mid hs
  rw [hch] at hnf
  obtain ⟨l1, l2⟩ := push_front_leaf_spec ho hcw hsc item mem hnf
  rw [← hch] at l1
  obtain ⟨w1, w2⟩ := fast_wrap ho hs hloc0 l1
  unfold push_front_finish
  rw [inc_child, hch]
  rw [hch] at w1 w2
  generalize push_front_leaf cfg cmp item c mem = res at w1 w2 l2 ⊢
  cases res with
  | full => exact absurd rfl l2
  | done ret c2 old m1 => exact ⟨w1 ret c2 old m1 rfl, by simp⟩
  | brk ret c2 old m1 => exact ⟨w2 ret c2 old m1 rfl, by simp⟩

end pushfront

section pushfront2
variable {cfg : Config} {cmp : α → α → Int}

theorem push_front_fast_spec (ho : OrdOK cfg cmp) (item : α) :
    ∀ (h fuel : Nat) (n : Node α) (mem : List Bool), WF cfg h n → Sorted cfg cmp (flat n) →
      1 ≤ n.items.length → h ≤ fuel →
      FastOut cfg cmp InsAct.PUSHFRONT item h n mem
          (push_front_fast_loop cfg cmp item fuel n mem) ∧
        (2 ≤ h → push_front_fast_loop cfg cmp item fuel n mem ≠ FastRes.full)
  | 0, _, _, _, hw, _, _, _ => absurd hw (by simp [WF])
  | 1, fuel, n, mem, hw, hs, _, hf => by
    obtain ⟨f, rfl⟩ : ∃ f, fuel = f + 1 := ⟨fuel - 1, by omega⟩
    have hl := (wf_leaf hw).1
    rw [push_front_fast_loop]
    simp only [hl, if_true]
    by_cases hfull : n.len = MAXITEMS cfg
    · rw [if_pos hfull]
      exact ⟨⟨hl, hfull, fun h => by cases h⟩, fun h => absurd h (by decide)⟩
    · rw [if_neg hfull]
      exact ⟨(push_front_leaf_spec ho hw hs item mem hfull).1, fun h => absurd h (by decide)⟩
  | h + 2, fuel, n, mem, hw, hs, hpos, hf => by
    obtain ⟨f, rfl⟩ : ∃ f, fuel = f + 1 := ⟨fuel - 1, by omega⟩
    have hl := (wf_branch hw).1
    have hloc := (@locate_branch_push α cfg cmp ho _ _ hw 0 item).1
    have hloc0 := hloc
    obtain ⟨A, c, B, S, T, hb, hA, hS, hBT, hfl, hcw, hcm, hAw, hBw, hlen, _⟩ := hloc
    have hch : n.child 0 = c := hb.child hA
    have hsc : Sorted cfg cmp (flat c) := by rw [hfl] at hs; exact sorted_mid hs
    have hmin := min_pos cfg
    obtain ⟨ih1, ih2⟩ := push_front_fast_spec ho item (h + 1) f c mem hcw hsc (by omega)
      (by omega)
    rw [← hch] at ih1
    obtain ⟨w1, w2⟩ := fast_wrap ho hs hloc0 ih1
    rw [hch] at w1 w2
    have hcfull : push_front_fast_loop cfg cmp item f c mem = FastRes.full →
        c.isleaf = true ∧ c.items.length = MAXITEMS cfg := by
      intro e
      rw [hch, e] at ih1
      exact ⟨ih1.1, ih1.2.1⟩
    clear ih1
    rw [push_front_fast_loop]
    simp only [hl, Bool.false_eq_true, if_false, inc_child, hch, dec_inc]
    generalize push_front_fast_loop cfg cmp item f c mem = res at w1 w2 ih2 hcfull ⊢
    cases res with
    | done ret c2 old m1 => exact ⟨w1 ret c2 old m1 rfl, fun _ => by simp⟩
    | brk ret c2 old m1 => exact ⟨w2 ret c2 old m1 rfl, fun _ => by simp⟩
    | full =>
      obtain ⟨cl, cfull⟩ := hcfull rfl
      have hh : h = 0 := by
        by_contra hne
        exact ih2 (by omega) rfl
      subst hh
      dsimp only
      by_cases hnl : n.len = MAXITEMS cfg
      · rw [if_pos hnl]
        exact ⟨Or.inl ⟨rfl, rfl, hw, le_refl _, rfl, id⟩, fun _ => by simp⟩
      rw [if_neg hnl]
      have hA0 : A = [] := List.eq_nil_of_length_eq_zero hA
      have hS0 : S = [] := List.eq_nil_of_length_eq_zero hS
      subst hA0 hS0
      have hTl : n.items = T := by rw [hb.items_eq]; rfl
      obtain ⟨sep, T1, rfl⟩ : ∃ sep T1, T = sep :: T1 := by
        cases T with
        | nil => rw [hTl] at hpos; simp at hpos
        | cons a t => exact ⟨a, t, rfl⟩
      obtain ⟨c1, B1, rfl⟩ : ∃ c1 B1, B = c1 :: B1 := by
        cases B with
        | nil => simp at hBT
        | cons a t => exact ⟨a, t, rfl⟩
      have hc1 : n.child 1 = c1 := hb.child1 hA
      have hc1w := hBw c1 (by simp)
      rw [hc1]
      by_cases hroom : c1.len < MAXITEMS cfg
      · rw [if_pos hroom]
        obtain ⟨lf1, c2, newsep, hb1, hw1, hf1, hl1, hlw1, hcw1, hcl1, hinc⟩ :=
          give_right_full hb hA hS (by simpa using hBT) hlen hAw
            (fun x hx => hBw x (by simp [hx])) hcw hc1w.2 cfull hc1w.1 hroom
        rw [hinc]
        have hs1 : Sorted cfg cmp (flat (give_right cfg n 0 false)) := by rw [hf1]; exact hs
        have hp0 : (give_right cfg n 0 false).child 0 = lf1 := hb1.child hA
        have := push_front_finish_spec ho hw1 hs1 item mem (by
          rw [hp0, hcl1]; exact Nat.ne_of_lt hroom)
        exact ⟨this.1.carry_fast this.2 hf1 (by omega) id, fun _ => this.2⟩
      · rw [if_neg hroom, split_child_at_inc]
        obtain ⟨l, m, r, n1, hlw, hrw, hll, hrl, hcf, hsp, hb1⟩ :=
          split_child_at_spec hb hA hS hcw cfull mem
        rw [hsp]
        by_cases hm : mem.head? = some false
        · rw [if_pos hm]
          exact ⟨Or.inr ⟨by decide, by decide,
            InsOut.nomem n mem.tail hw (le_refl _) rfl (not_allocOK_of_head hm)⟩,
            fun _ => by simp⟩
        rw [if_neg hm]
        dsimp only
        have hlen2 : ([] ++ sep :: T1).length < MAXITEMS cfg := by
          rw [← hb.items_eq]
          exact lt_of_le_of_ne (by rw [hb.items_eq]; exact hlen) hnl
        obtain ⟨hw1, e2, e3, e4, e5, hb2, hrB, hAl⟩ :=
          split_ctx hA hS hBT hfl hb hAw hBw hlen2 hlw hrw hll hrl hcf hb1
        have hs1 : Sorted cfg cmp (flat n1) := by rw [e2]; exact hs
        have hp0 : n1.child 0 = l := hb1.child hA
        have := push_front_finish_spec ho hw1 hs1 item mem.tail (by
          rw [hp0]; exact nonfull_of_min hll)
        exact ⟨this.1.carry_fast this.2 e2 (by omega) AllocOK.tail, fun _ => this.2⟩

theorem push_front_spec (ho : OrdOK cfg cmp) (item : α)
    (root : Option (Node α)) (mem : List Bool) (hinv : Inv cfg cmp root) :
    TreeOut cfg cmp InsAct.PUSHFRONT item 0 root mem (push_front cfg cmp root item mem) := by
  unfold push_front
  cases root with
  | none =>
    simp only [push_front_fastpath]
    rw [if_neg (by simp)]
    exact insert0_spec ho (fun h => by cases h) 0 none mem hinv
  | some r =>
    have hw := hinv.1
    have hs : Sorted cfg cmp (flat r) := hinv.2.2
    have hd : depth r = r.height := wf_depth _ _ hw
    have hf := (push_front_fast_spec ho item r.height (depth r) r mem hw hs hinv.2.1
      (by omega)).1
    exact tree_of_fast ho (fun h => by cases h) hinv hf

end pushfront2

section pushback
variable {cfg : Config} {cmp : α → α → Int}

theorem give_left_full_inc {n lf c : Node α} {A B : List (Node α)} {S T : List α} {sep : α}
    {j : Nat} (hb : BranchOf cfg n 2 (S ++ sep :: T) (A ++ lf :: c :: B))
    (hA : A.length = j) (hS : S.length = j)
    (hlt : lf.items.length < MAXITEMS cfg) (hcl : c.items.length = MAXITEMS cfg) :
    give_left cfg (inc_count cfg n (j + 1)) (j + 1) false = give_left cfg n (j + 1) false := by
  have hi : n.items[j]? = some sep := by rw [hb.items_eq]; exact app_get hS
  have hlt2 : give_n false c.len lf.len - 1 < c.items.length := by
    show c.items.length - lf.items.length - 1 < c.items.length
    omega
  refine @give_left_inc α cfg n j false sep (c.items[give_n false c.len lf.len - 1]) hi ?_
  rw [hb.child hA, hb.child1 hA]
  exact List.getElem?_eq_getElem hlt2

theorem push_back_leaf_spec (ho : OrdOK cfg cmp) {n : Node α} (hw : WF cfg 1 n)
    (hs : Sorted cfg cmp (flat n)) (item : α) (mem : List Bool)
    (hnf : n.items.length ≠ MAXITEMS cfg) :
    FastOut cfg cmp InsAct.PUSHBACK item 1 n mem (push_back_leaf cfg cmp item n mem) ∧
      push_back_leaf cfg cmp item n mem ≠ FastRes.full := by
  have hl := (wf_leaf hw).1
  have h1 : InsOut cfg cmp InsAct.PUSHBACK item 0 1 n mem
      (insert1 cfg cmp 1 n InsAct.PUSHBACK 0 item mem) :=
    insert1_spec ho (fun h => by cases h) 1 1 (by omega) n 0 mem hw hs
  unfold push_back_leaf
  by_cases hc : cfg.noorder = false ∧ less_slot_item cmp n.items.getLast? item = false
  · rw [if_pos hc]
    have e : insert1 cfg cmp 1 n InsAct.PUSHBACK 0 item mem =
        InsRes.mk Status.OUTOFORDER n none mem := by
      simp only [insert1, insert1_locate]
      rw [if_pos ⟨hl, hc⟩]
    rw [e] at h1
    exact ⟨Or.inr ⟨by decide, by decide, h1⟩, by simp⟩
  · rw [if_neg hc]
    have e : insert1 cfg cmp 1 n InsAct.PUSHBACK 0 item mem =
        InsRes.mk Status.INSERTED (n.setItems (n.items ++ [item])) none mem := by
      simp only [insert1, insert1_locate]
      rw [if_neg (fun h => hc h.2)]
      simp [insert1_loop, hl, hnf, shift_right, Node.len]
    rw [e] at h1
    exact ⟨⟨rfl, h1⟩, by simp⟩

theorem push_back_finish_spec (ho : OrdOK cfg cmp) {p : Node α} (hw : WF cfg 2 p)
    (hs : Sorted cfg cmp (flat p)) (item : α) (mem : List Bool)
    (hnf : (p.child p.len).items.length ≠ MAXITEMS cfg) :
    FastOut cfg cmp InsAct.PUSHBACK item 2 p mem (push_back_finish cfg cmp item p mem) ∧
      push_back_finish cfg cmp item p mem ≠ FastRes.full := by
  have hloc := (@locate_branch_push α cfg cmp ho _ _ hw 0 item).2
  have hloc0 := hloc
  obtain ⟨A, c, B, S, T, hb, hA, hS, hBT, hfl, hcw, hcm, hAw, hBw, hlen, _⟩ := hloc
  have hch : p.child p.len = c := hb.child hA
  have hsc : Sorted cfg cmp (flat c) := by rw [hfl] at hs; exact sorted_mid hs
  rw [hch] at hnf
  obtain ⟨l1, l2⟩ := push_back_leaf_spec ho hcw hsc item mem hnf
  rw [← hch] at l1
  obtain ⟨w1, w2⟩ := fast_wrap ho hs hloc0 l1
  unfold push_back_finish
  rw [inc_child, hch]
  rw [hch] at w1 w2
  generalize push_back_leaf cfg cmp item c mem = res at w1 w2 l2 ⊢
  cases res with
  | full => exact absurd rfl l2
  | done ret c2 old m1 => exact ⟨w1 ret c2 old m1 rfl, by simp⟩
  | brk ret c2 old m1 => exact ⟨w2 ret c2 old m1 rfl, by simp⟩

theorem push_back_fast_spec (ho : OrdOK cfg cmp) (item : α) :
    ∀ (h fuel : Nat) (n : Node α) (mem : List Bool), WF cfg h n → Sorted cfg cmp (flat n) →
      1 ≤ n.items.length → h ≤ fuel →
      FastOut cfg cmp InsAct.PUSHBACK item h n mem
          (push_back_fast_loop cfg cmp item fuel n mem) ∧
        (2 ≤ h → push_back_fast_loop cfg cmp item fuel n mem ≠ FastRes.full)
  | 0, _, _, _, hw, _, _, _ => absurd hw (by simp [WF])
  | 1, fuel, n, mem, hw, hs, _, hf => by
    obtain ⟨f, rfl⟩ : ∃ f, fuel = f + 1 := ⟨fuel - 1, by omega⟩
    have hl := (wf_leaf hw).1
    rw [push_back_fast_loop]
    simp only [hl, if_true]
    by_cases hfull : n.len = MAXITEMS cfg
    · rw [if_pos hfull]
      exact ⟨⟨hl, hfull, fun h => by cases h⟩, fun h => absurd h (by decide)⟩
    · rw [if_neg hfull]
      exact ⟨(push_back_leaf_spec ho hw hs item mem hfull).1, fun h => absurd h (by decide)⟩
  | h + 2, fuel, n, mem, hw, hs, hpos, hf => by
    obtain ⟨f, rfl⟩ : ∃ f, fuel = f + 1 := ⟨fuel - 1, by omega⟩
    have hl := (wf_branch hw).1
    have hloc := (@locate_branch_push α cfg cmp ho _ _ hw 0 item).2
    have hloc0 := hloc
    obtain ⟨A, c, B, S, T, hb, hA, hS, hBT, hfl, hcw, hcm, hAw, hBw, hlen, _⟩ := hloc
    have hch : n.child n.len = c := hb.child hA
    have hsc : Sorted cfg cmp (flat c) := by rw [hfl] at hs; exact sorted_mid hs
    have hmin := min_pos cfg
    obtain ⟨ih1, ih2⟩ := push_back_fast_spec ho item (h + 1) f c mem hcw hsc (by omega)
      (by omega)
    rw [← hch] at ih1
    obtain ⟨w1, w2⟩ := fast_wrap ho hs hloc0 ih1
    rw [hch] at w1 w2
    have hcfull : push_back_fast_loop cfg cmp item f c mem = FastRes.full →
        c.isleaf = true ∧ c.items.length = MAXITEMS cfg := by
      intro e
      rw [hch, e] at ih1
      exact ⟨ih1.1, ih1.2.1⟩
    clear ih1
    rw [push_back_fast_loop]
    simp only [hl, Bool.false_eq_true, if_false, inc_child, hch, dec_inc]
    generalize push_back_fast_loop cfg cmp item f c mem = res at w1 w2 ih2 hcfull ⊢
    cases res with
    | done ret c2 old m1 => exact ⟨w1 ret c2 old m1 rfl, fun _ => by simp⟩
    | brk ret c2 old m1 => exact ⟨w2 ret c2 old m1 rfl, fun _ => by simp⟩
    | full =>
      obtain ⟨cl, cfull⟩ := hcfull rfl
      have hh : h = 0 := by
        by_contra hne
        exact ih2 (by omega) rfl
      subst hh
      dsimp only
      by_cases hnl : n.len = MAXITEMS cfg
      · rw [if_pos hnl]
        exact ⟨Or.inl ⟨rfl, rfl, hw, le_refl _, rfl, id⟩, fun _ => by simp⟩
      rw [if_neg hnl]
      have hlenS : n.items.length = S.length + T.length := by rw [hb.items_eq]; simp
      have hT0 : T = [] := List.eq_nil_of_length_eq_zero (by
        have : S.length = n.items.length := hS
        omega)
      subst hT0
      have hB0 : B = [] := List.eq_nil_of_length_eq_zero (by simpa using hBT)
      subst hB0
      obtain ⟨j, hj⟩ : ∃ j, n.len = j + 1 := ⟨n.len - 1, by
        show n.items.length = n.items.length - 1 + 1
        omega⟩
      rw [hj] at hA hS ⊢
      obtain ⟨A1, lf, rfl⟩ : ∃ A1 lf, A = A1 ++ [lf] := by
        rcases List.eq_nil_or_concat A with e | ⟨L, b, e⟩
        · subst e; simp at hA
        · exact ⟨L, b, by rw [e, List.concat_eq_append]⟩
      obtain ⟨S1, sep, rfl⟩ : ∃ S1 sep, S = S1 ++ [sep] := by
        rcases List.eq_nil_or_concat S with e | ⟨L, b, e⟩
        · subst e; simp at hS
        · exact ⟨L, b, by rw [e, List.concat_eq_append]⟩
      have hA1 : A1.length = j := by simpa using hA
      have hS1 : S1.length = j := by simpa using hS
      have hb0 : BranchOf cfg n 2 (S1 ++ sep :: []) (A1 ++ lf :: c :: []) := by simpa using hb
      have hlfw := hAw lf (by simp)
      have hlf : n.child j = lf := hb0.child hA1
      simp only [Nat.add_sub_cancel]
      rw [hlf]
      by_cases hroom : lf.len < MAXITEMS cfg
      · rw [if_pos hroom]
        obtain ⟨lf1, c1, newsep, hb1, hw1, hf1, hl1, hlw1, hcw1, hcl1⟩ :=
          give_left_full hb0 hA1 hS1 rfl (by simpa using hlen)
            (fun x hx => hAw x (by simp [hx])) (by simp) hlfw.2 hcw hlfw.1 hroom cfull
        rw [give_left_full_inc hb0 hA1 hS1 hroom cfull]
        have hs1 : Sorted cfg cmp (flat (give_left cfg n (j + 1) false)) := by
          rw [hf1]; exact hs
        have hpl : (give_left cfg n (j + 1) false).len = j + 1 := by
          show (give_left cfg n (j + 1) false).items.length = j + 1
          rw [hl1]; exact hj
        have hp0 : (give_left cfg n (j + 1) false).child (j + 1) = c1 := hb1.child1 hA1
        have := push_back_finish_spec ho hw1 hs1 item mem (by
          rw [hpl, hp0, hcl1]; exact Nat.ne_of_lt hroom)
        exact ⟨this.1.carry_fast this.2 hf1 (by omega) id, fun _ => this.2⟩
      · rw [if_neg hroom, split_child_at_inc]
        obtain ⟨l, m, r, n1, hlw, hrw, hll, hrl, hcf, hsp, hb1⟩ :=
          split_child_at_spec hb hA hS hcw cfull mem
        rw [hsp]
        by_cases hm : mem.head? = some false
        · rw [if_pos hm]
          exact ⟨Or.inr ⟨by decide, by decide,
            InsOut.nomem n mem.tail hw (le_refl _) rfl (not_allocOK_of_head hm)⟩,
            fun _ => by simp⟩
        rw [if_neg hm]
        dsimp only
        have hlen2 : (S1 ++ [sep] ++ []).length < MAXITEMS cfg := by
          rw [← hb.items_eq]
          exact lt_of_le_of_ne (by rw [hb.items_eq]; exact hlen) hnl
        obtain ⟨hw1, e2, e3, e4, e5, hb2, hrB, hAl⟩ :=
          split_ctx hA hS hBT hfl hb hAw hBw hlen2 hlw hrw hll hrl hcf hb1
        have hs1 : Sorted cfg cmp (flat n1) := by rw [e2]; exact hs
        have hpl : n1.len = j + 1 + 1 := by
          show n1.items.length = j + 1 + 1
          rw [e3]
          have : n.items.length = j + 1 := hj
          omega
        have hp0 : n1.child (j + 1 + 1) = r := hb1.child1 hA
        have := push_back_finish_spec ho hw1 hs1 item mem.tail (by
          rw [hpl, hp0]; exact nonfull_of_min hrl)
        exact ⟨this.1.carry_fast this.2 e2 (by omega) AllocOK.tail, fun _ => this.2⟩

theorem push_back_spec (ho : OrdOK cfg cmp) (item : α)
    (root : Option (Node α)) (mem : List Bool) (hinv : Inv cfg cmp root) :
    TreeOut cfg cmp InsAct.PUSHBACK item 0 root mem (push_back cfg cmp root item mem) := by
  unfold push_back
  cases root with
  | none =>
    simp only [push_back_fastpath]
    rw [if_neg (by simp)]
    exact insert0_spec ho (fun h => by cases h) 0 none mem hinv
  | some r =>
    have hw := hinv.1
    have hs : Sorted cfg cmp (flat r) := hinv.2.2
    have hd : depth r = r.height := wf_depth _ _ hw
    have hf := (push_back_fast_spec ho item r.height (depth r) r mem hw hs hinv.2.1
      (by omega)).1
    exact tree_of_fast ho (fun h => by cases h) hinv hf

end pushback

section saneproof
variable {cfg : Config} {cmp : α → α → Int}

theorem wf_deepheight : ∀ (h : Nat) (n : Node α), WF cfg h n → deepheight n = h
  | 0, _, hw => absurd hw (by simp [WF])
  | 1, n, hw => by
    have := (wf_leaf hw).1
    cases n; simp_all [deepheight]
  | h + 2, n, hw => by
    obtain ⟨hl, _, _, hc, _, hch⟩ := wf_branch hw
    cases n with
    | mk items height isleaf children counts =>
      simp only [Node.isleaf_mk, Node.children_mk, Node.items_mk] at hl hc hch
      cases children with
      | nil => simp at hc
      | cons c cs =>
        have := wf_deepheight (h + 1) c (hch c (by simp)).2
        simp [deepheight, deepheightL, hl, this]
        omega

theorem items_ascending_of_pairwise : ∀ (l : List α), l.Pairwise (lt cmp) →
    items_ascending cmp l = true
  | [], _ => rfl
  | [_], _ => rfl
  | a :: b :: rest, hp => by
    rw [List.pairwise_cons] at hp
    have h1 : cmp a b < 0 := hp.1 b (by simp)
    simp [items_ascending, h1, items_ascending_of_pairwise (b :: rest) hp.2]

theorem seps_ordered_of_sorted : ∀ (cs : List (Node α)) (xs : List α),
    (flatL cs xs).Pairwise (lt cmp) → (∀ c ∈ cs, c.items.Sublist (flat c)) →
    seps_ordered cfg cmp cs xs = true
  | [], _, _, _ => by simp [seps_ordered]
  | [_], _, _, _ => by simp [seps_ordered]
  | _ :: _ :: _, [], _, _ => by simp [seps_ordered]
  | c0 :: c1 :: cs, x :: xs, hp, hsub => by
    rw [flatL, List.pairwise_append, List.pairwise_cons] at hp
    obtain ⟨_, ⟨hx, hrest⟩, hc0⟩ := hp
    have ih := seps_ordered_of_sorted (c1 :: cs) xs hrest
      (fun c hc => hsub c (List.mem_cons_of_mem _ hc))
    rw [seps_ordered, ih, Bool.and_true]
    split
    · split
      · rename_i a b ha hb
        have h1 : cmp a x < 0 :=
          hc0 a ((hsub c0 (by simp)).subset (List.mem_of_mem_getLast? ha)) x (by simp)
        have h2 : cmp x b < 0 := by
          apply hx b
          have hb1 : b ∈ flat c1 := (hsub c1 (by simp)).subset (List.mem_of_mem_head? hb)
          cases xs <;> simp [flatL, hb1]
        simp [h1, h2]
      · rfl
    · rfl

end saneproof

section saneproof2
variable {cfg : Config} {cmp : α → α → Int}

theorem sane0L_of_all (h d : Nat) : ∀ (cs : List (Node α)) (ks : List Nat) (n : Nat),
    cs.length = n → (cfg.counted = true → ks = cs.map (fun c => (flat c).length)) →
    (∀ c ∈ cs, sane0 cfg cmp c d = true ∧ WF cfg h c) →
    sane0L cfg cmp cs ks n d = true
  | [], _, 0, _, _, _ => by simp [sane0L]
  | [], _, _ + 1, hl, _, _ => by simp at hl
  | _ :: _, _, 0, hl, _, _ => by simp at hl
  | c :: cs, ks, n + 1, hl, hk, hall => by
    have hc := hall c (by simp)
    have ih := sane0L_of_all h d cs ks.tail n (by simpa using hl)
      (fun hcnt => by rw [hk hcnt]; simp) (fun x hx => hall x (List.mem_cons_of_mem _ hx))
    rw [sane0L, hc.1, ih]
    cases hcnt : cfg.counted
    · simp
    · simp [hk hcnt, wf_deepcount _ _ hc.2]

theorem sorted_child {h : Nat} {n : Node α} (hw : WF cfg (h + 2) n)
    (hs : Sorted cfg cmp (flat n)) : ∀ c ∈ n.children, Sorted cfg cmp (flat c) := by
  intro c hc
  obtain ⟨i, hi, rfl⟩ := List.mem_iff_getElem.1 hc
  have hlen := (wf_branch hw).2.2.2.1
  obtain ⟨A, c1, B, S, T, hb, hA, hS, hBT, hchild, hfl, _⟩ := branch_at hw
    (show i ≤ n.items.length by omega)
  have : n.children[i] = c1 := by
    have h1 : n.children[i]? = some c1 := by rw [hb.children_eq]; exact app_get hA
    rw [List.getElem?_eq_getElem hi] at h1
    exact Option.some.inj h1
  rw [this]
  rw [hfl] at hs
  exact sorted_mid hs

theorem sane0_of_wf : ∀ (h : Nat) (n : Node α) (d : Nat), WF cfg h n →
    (d = 0 → 1 ≤ n.items.length) → (d ≠ 0 → MINITEMS cfg ≤ n.items.length) →
    Sorted cfg cmp (flat n) → sane0 cfg cmp n d = true
  | 0, _, _, hw, _, _, _ => absurd hw (by simp [WF])
  | 1, n, d, hw, h0, h1, hs => by
    obtain ⟨hl, hh, hlen⟩ := wf_leaf hw
    have hdh := wf_deepheight 1 n hw
    have hfl := flat_leaf n hl
    cases n with
    | mk items height isleaf children counts =>
      simp only [Node.isleaf_mk, Node.height_mk, Node.items_mk] at hl hh hlen h0 h1 hfl
      subst hl hh
      have hasc : cfg.noorder = true ∨ items_ascending cmp items = true := by
        cases hno : cfg.noorder
        · right
          have := hs hno
          rw [hfl] at this
          exact items_ascending_of_pairwise items this
        · left; rfl
      rw [sane0, hdh]
      by_cases hd : d = 0
      · simp [hd, h0 hd, hlen, hasc]
      · simp [hd, h1 hd, hlen, hasc]
  | h + 2, n, d, hw, h0, h1, hs => by
    obtain ⟨hl, hh, hlen, hc, hk, hch⟩ := wf_branch hw
    have hdh := wf_deepheight (h + 2) n hw
    have hsub := wf_items_sublist hw
    have hsc := sorted_child hw hs
    have hfl := flat_branch n hl
    have hmin := min_pos cfg
    have hall : ∀ c ∈ n.children, sane0 cfg cmp c (d + 1) = true ∧ WF cfg (h + 1) c :=
      fun c hcm => ⟨sane0_of_wf (h + 1) c (d + 1) (hch c hcm).2 (fun e => by omega)
        (fun _ => (hch c hcm).1) (hsc c hcm), (hch c hcm).2⟩
    have hL := @sane0L_of_all α cfg cmp (h + 1) (d + 1) n.children n.counts
      (n.items.length + 1) hc hk hall
    cases n with
    | mk items height isleaf children counts =>
      simp only [Node.isleaf_mk, Node.height_mk, Node.items_mk, Node.children_mk,
        Node.counts_mk] at hl hh hlen h0 h1 hfl hL hsub hch
      subst hl hh
      have hasc : cfg.noorder = true ∨ (items_ascending cmp items = true ∧
          seps_ordered cfg cmp children items = true) := by
        cases hno : cfg.noorder
        · right
          have hp := hs hno
          refine ⟨items_ascending_of_pairwise items (hp.sublist hsub), ?_⟩
          rw [hfl] at hp
          exact seps_ordered_of_sorted children items hp
            (fun c hcm => wf_items_sublist (hch c hcm).2)
        · left; rfl
      rw [sane0, hdh, hL]
      by_cases hd : d = 0
      · rcases hasc with e | e <;> simp [hd, h0 hd, hlen, e]
      · rcases hasc with e | e <;> simp [hd, h1 hd, hlen, e]

theorem sane_of_inv {root : Option (Node α)} (hinv : Inv cfg cmp root) :
    sane cfg cmp root = true := by
  cases root with
  | none => rfl
  | some r =>
    obtain ⟨hw, hpos, hs⟩ := hinv
    exact sane0_of_wf r.height r 0 hw (fun _ => hpos) (fun h => absurd rfl h) hs

end saneproof2

section claims_insert
variable {cfg : Config} {cmp : α → α → Int}

theorem scan_all (root : Option (Node α)) :
    scan root (fun x (acc : List α) => (true, acc ++ [x])) [] =
      (Status.FINISHED, items_of root) := by
  have h : ∀ l : List α, l.takeWhile (fun _ => true) = l ∧ l.dropWhile (fun _ => true) = [] := by
    intro l
    induction l with
    | nil => simp
    | cons a l ih => simp [List.takeWhile, List.dropWhile, ih]
  rw [scan_eq, visit_log]
  simp [(h (items_of root)).1, (h (items_of root)).2]

theorem treeOut_inserted {item : α} {index : Nat}
    {root : Option (Node α)} {mem : List Bool} {t : TreeRes α}
    (ht : TreeOut cfg cmp InsAct.INSITEM item index root mem t)
    (habs : ∀ y ∈ items_of root, cmp item y ≠ 0) (hmem : AllocOK mem) :
    t.ret = Status.INSERTED ∧ t.old = none ∧ Inv cfg cmp t.root ∧ AllocOK t.mem ∧
      ∃ p, items_of t.root = insert_pos (items_of root) p item ∧
        Fits cfg cmp (items_of root) p item := by
  obtain ⟨h1, h2, h | h | h | h⟩ := ht
  · obtain ⟨e1, e2, p, e3, e4, _⟩ := h
    exact ⟨e1, e2, h1, h2 hmem, p, e3, e4⟩
  · obtain ⟨_, p, y, _, e1, _, _, e2, _⟩ := h
    exact absurd (e2 rfl) (habs y (List.getElem?_mem e1))
  · exact absurd hmem h.2.2.2
  · exact absurd rfl h.2.1

theorem treeOut_replaced (ho : OrdCmp cmp) (hord : cfg.noorder = false) {item x : α}
    {index : Nat} {root : Option (Node α)} {mem : List Bool} {t : TreeRes α}
    (ht : TreeOut cfg cmp InsAct.INSITEM item index root mem t)
    (hp : (items_of root).Pairwise (lt cmp))
    (hx : x ∈ items_of root) (heq : cmp item x = 0) (hmem : AllocOK mem) :
    t.ret = Status.REPLACED ∧ t.old = some x ∧ Inv cfg cmp t.root ∧ AllocOK t.mem ∧
      ∃ p, (items_of root)[p]? = some x ∧ items_of t.root = (items_of root).set p item := by
  obtain ⟨h1, h2, h | h | h | h⟩ := ht
  · obtain ⟨_, _, p, _, e4, _⟩ := h
    obtain ⟨_, e5⟩ := e4
    obtain ⟨e6, e7⟩ := e5 hord
    have hx2 := hx
    rw [← List.take_append_drop p (items_of root)] at hx2
    rcases List.mem_append.1 hx2 with e | e
    · have := e6 x e
      have := ho.ne_of_lt this
      exact absurd heq this
    · have := e7 x e
      unfold lt at this
      omega
  · obtain ⟨e0, p, y, e1, e2, e3, _, e4, _⟩ := h
    have hy : y = x := pairwise_cmp_unique ho item _ hp y (List.getElem?_mem e2) x hx (e4 rfl) heq
    subst hy
    exact ⟨e0, e1, h1, h2 hmem, p, e2, e3⟩
  · exact absurd hmem h.2.2.2
  · exact absurd rfl h.2.1

end claims_insert

/-- C1: on an ordered tree satisfying the invariants, with a consistent
comparator and an allocator that does not fail, `insert` of an item `x` that
compares equal to no stored item returns `INSERTED` and writes nothing through
the old-item output; the scan of the resulting tree is the scan of the old tree
with `x` put in at a position `p` where everything before is below `x` and
everything from `p` on is above it, so it is strictly ascending and every old
item is kept; `count` grows by exactly one, and the invariants hold again. -/
theorem insert_absent_inserted (cfg : Config) (cmp : α → α → Int) (root : Option (Node α))
    (x : α) (mem : List Bool) (ho : OrdCmp cmp) (hord : cfg.noorder = false)
    (hinv : Inv cfg cmp root) (habs : ∀ y ∈ items_of root, cmp x y ≠ 0)
    (hmem : AllocOK mem) :
    (insert cfg cmp root x mem).ret = Status.INSERTED ∧
    (insert cfg cmp root x mem).old = none ∧
    (∃ p, p ≤ (items_of root).length ∧
      (scan (insert cfg cmp root x mem).root (fun y (acc : List α) => (true, acc ++ [y])) []).2 =
        (scan root (fun y (acc : List α) => (true, acc ++ [y])) []).2.take p ++
          x :: (scan root (fun y (acc : List α) => (true, acc ++ [y])) []).2.drop p ∧
      (∀ a ∈ (items_of root).take p, lt cmp a x) ∧
      (∀ b ∈ (items_of root).drop p, lt cmp x b)) ∧
    (items_of (insert cfg cmp root x mem).root).Pairwise (lt cmp) ∧
    (∀ y ∈ items_of root, y ∈ items_of (insert cfg cmp root x mem).root) ∧
    count cfg (insert cfg cmp root x mem).root = count cfg root + 1 ∧
    Inv cfg cmp (insert cfg cmp root x mem).root := by
  have ht := insert_spec (fun _ => ho) hord x root mem hinv
  obtain ⟨h1, h2, h3, _, p, h4, h5, h6⟩ := treeOut_inserted ht habs hmem
  obtain ⟨h7, h8⟩ := h6 hord
  refine ⟨h1, h2, ⟨p, h5, ?_, h7, h8⟩, inv_sorted h3 hord, ?_, ?_, h3⟩
  · rw [scan_all, scan_all]; exact h4
  · intro y hy
    rw [h4, insert_pos]
    rw [← List.take_append_drop p (items_of root)] at hy
    rcases List.mem_append.1 hy with e | e
    · exact List.mem_append_left _ e
    · exact List.mem_append_right _ (List.mem_cons_of_mem _ e)
  · rw [inv_count h3, inv_count hinv, h4, insert_pos_length]

theorem insert_absent_inserted_witness :
    OrdCmp icmp ∧ cfgW.noorder = false ∧ Inv cfgW icmp (some treeW) ∧
      (insert cfgW icmp (some treeW) 25 []).ret = Status.INSERTED ∧
      count cfgW (insert cfgW icmp (some treeW) 25 []).root = count cfgW (some treeW) + 1 :=
  ⟨icmp_ord, rfl, treeW_inv,
    (insert_absent_inserted cfgW icmp (some treeW) 25 [] icmp_ord rfl treeW_inv (by decide)
      (fun _ h => absurd h (List.not_mem_nil _))).1,
    (insert_absent_inserted cfgW icmp (some treeW) 25 [] icmp_ord rfl treeW_inv (by decide)
      (fun _ h => absurd h (List.not_mem_nil _))).2.2.2.2.2.1⟩

theorem set_self_of_get {β : Type} {l : List β} {q : Nat} {x : β} (h : l[q]? = some x) :
    l.set q x = l := by
  induction l generalizing q with
  | nil => rfl
  | cons a l ih =>
    cases q with
    | zero => simp at h; simp [h]
    | succ k => simp at h; simp [ih h]

/-- C3: on a tree satisfying the structural invariants (`Inv`: every node at most
`MAXITEMS` items, every non-root node at least `MINITEMS`, the root at least
one, all leaves at one depth with exact height fields, exact child counts on
counted trees, strictly ascending item sequence on ordered trees) and with a
consistent comparator, the tree left by `insert`, `push_front`, `push_back`,
`insert_at` and `replace_at` satisfies the invariants again and passes `sane`,
whatever the status returned and whatever the allocator does. -/
theorem insertion_preserves_invariants (cfg : Config) (cmp : α → α → Int)
    (root : Option (Node α)) (item : α) (index : Nat) (mem : List Bool)
    (ho : OrdOK cfg cmp) (hinv : Inv cfg cmp root) :
    (Inv cfg cmp (insert cfg cmp root item mem).root ∧
      sane cfg cmp (insert cfg cmp root item mem).root = true) ∧
    (Inv cfg cmp (push_front cfg cmp root item mem).root ∧
      sane cfg cmp (push_front cfg cmp root item mem).root = true) ∧
    (Inv cfg cmp (push_back cfg cmp root item mem).root ∧
      sane cfg cmp (push_back cfg cmp root item mem).root = true) ∧
    (Inv cfg cmp (insert_at cfg cmp root index item mem).root ∧
      sane cfg cmp (insert_at cfg cmp root index item mem).root = true) ∧
    (Inv cfg cmp (replace_at cfg cmp root index item mem).root ∧
      sane cfg cmp (replace_at cfg cmp root index item mem).root = true) := by
  have h1 : Inv cfg cmp (insert cfg cmp root item mem).root := by
    cases hno : cfg.noorder
    · exact (insert_spec ho hno item root mem hinv).1
    · unfold insert
      rw [hno]
      exact hinv
  have h2 := (push_front_spec ho item root mem hinv).1
  have h3 := (push_back_spec ho item root mem hinv).1
  have h4 : Inv cfg cmp (insert_at cfg cmp root index item mem).root :=
    (insert0_spec ho (fun h => by cases h) index root mem hinv).1
  have h5 : Inv cfg cmp (replace_at cfg cmp root index item mem).root :=
    (insert0_spec ho (fun h => by cases h) index root mem hinv).1
  exact ⟨⟨h1, sane_of_inv h1⟩, ⟨h2, sane_of_inv h2⟩, ⟨h3, sane_of_inv h3⟩,
    ⟨h4, sane_of_inv h4⟩, ⟨h5, sane_of_inv h5⟩⟩

theorem insertion_preserves_invariants_witness :
    OrdOK cfgW icmp ∧ Inv cfgW icmp (some treeW) ∧
      sane cfgW icmp (insert cfgW icmp (some treeW) 35 [false]).root = true ∧
      sane cfgW icmp (push_back cfgW icmp (some treeW) 50 []).root = true ∧
      sane cfgW icmp (insert_at cfgW icmp (some treeW) 1 15 []).root = true :=
  ⟨fun _ => icmp_ord, treeW_inv,
    (insertion_preserves_invariants cfgW icmp (some treeW) 35 0 [false] (fun _ => icmp_ord)
      treeW_inv).1.2,
    (insertion_preserves_invariants cfgW icmp (some treeW) 50 0 [] (fun _ => icmp_ord)
      treeW_inv).2.2.1.2,
    (insertion_preserves_invariants cfgW icmp (some treeW) 15 1 [] (fun _ => icmp_ord)
      treeW_inv).2.2.2.1.2⟩

/-- C7: on an ordered tree satisfying the invariants, with a consistent
comparator and allocations that succeed, inserting `x` when no stored item
compares equal to it returns `INSERTED`; inserting afterwards an item `x2` that
compares equal to `x` (in particular `x` again) returns `REPLACED` with the
old-item output equal to the stored `x`; the second insert only overwrites the
slot of `x`: the item sequence keeps its length and every other position, and
`count` is unchanged. -/
theorem insert_twice_replaces (cfg : Config) (cmp : α → α → Int) (root : Option (Node α))
    (x x2 : α) (mem mem2 : List Bool) (ho : OrdCmp cmp) (hord : cfg.noorder = false)
    (hinv : Inv cfg cmp root) (habs : ∀ y ∈ items_of root, cmp x y ≠ 0)
    (heq : cmp x2 x = 0) (hmem : AllocOK mem) (hmem2 : AllocOK mem2) :
    (insert cfg cmp root x mem).ret = Status.INSERTED ∧
    (insert cfg cmp (insert cfg cmp root x mem).root x2 mem2).ret = Status.REPLACED ∧
    (insert cfg cmp (insert cfg cmp root x mem).root x2 mem2).old = some x ∧
    (∃ p, (items_of (insert cfg cmp root x mem).root)[p]? = some x ∧
      items_of (insert cfg cmp (insert cfg cmp root x mem).root x2 mem2).root =
        (items_of (insert cfg cmp root x mem).root).set p x2) ∧
    (x2 = x → items_of (insert cfg cmp (insert cfg cmp root x mem).root x2 mem2).root =
      items_of (insert cfg cmp root x mem).root) ∧
    count cfg (insert cfg cmp (insert cfg cmp root x mem).root x2 mem2).root =
      count cfg (insert cfg cmp root x mem).root := by
  have ht := insert_spec (fun _ => ho) hord x root mem hinv
  obtain ⟨h1, _, h3, _, p, h4, h5, _⟩ := treeOut_inserted ht habs hmem
  have hx : x ∈ items_of (insert cfg cmp root x mem).root := by
    rw [h4, insert_pos]; simp
  have ht2 := insert_spec (fun _ => ho) hord x2 (insert cfg cmp root x mem).root mem2 h3
  obtain ⟨g1, g2, g3, _, q, g4, g5⟩ :=
    treeOut_replaced ho hord ht2 (inv_sorted h3 hord) hx heq hmem2
  refine ⟨h1, g1, g2, ⟨q, g4, g5⟩, ?_, ?_⟩
  · intro e
    subst e
    rw [g5]
    exact set_self_of_get g4
  · rw [inv_count g3, inv_count h3, g5, List.length_set]

theorem insert_twice_replaces_witness :
    OrdCmp icmp ∧ cfgW.noorder = false ∧ Inv cfgW icmp (some treeW) ∧
      (insert cfgW icmp (some treeW) 25 []).ret = Status.INSERTED ∧
      (insert cfgW icmp (insert cfgW icmp (some treeW) 25 []).root 25 []).ret =
        Status.REPLACED ∧
      (insert cfgW icmp (insert cfgW icmp (some treeW) 25 []).root 25 []).old = some 25 :=
  ⟨icmp_ord, rfl, treeW_inv,
    (insert_twice_replaces cfgW icmp (some treeW) 25 25 [] [] icmp_ord rfl treeW_inv
      (by decide) (by decide) (fun _ h => absurd h (List.not_mem_nil _))
      (fun _ h => absurd h (List.not_mem_nil _))).1,
    (insert_twice_replaces cfgW icmp (some treeW) 25 25 [] [] icmp_ord rfl treeW_inv
      (by decide) (by decide) (fun _ h => absurd h (List.not_mem_nil _))
      (fun _ h => absurd h (List.not_mem_nil _))).2.1,
    (insert_twice_replaces cfgW icmp (some treeW) 25 25 [] [] icmp_ord rfl treeW_inv
      (by decide) (by decide) (fun _ h => absurd h (List.not_mem_nil _))
      (fun _ h => absurd h (List.not_mem_nil _))).2.2.1⟩

section delhelp
variable {cfg : Config}

theorem close_slot_erase {β : Type} (l : List β) (k : Nat) (hk : k < l.length) :
    close_slot l k (l.length - 1) = l.eraseIdx k := by
  unfold close_slot
  rw [List.take_of_length_le]
  rw [List.length_eraseIdx]
  simp [hk]

theorem flatP_snoc : ∀ (cs : List (Node α)) (ss : List α) (s : α),
    cs.length = ss.length + 1 → flatP cs (ss ++ [s]) = flatL cs ss ++ [s]
  | [], _, _, h => by simp at h
  | [c], [], s, _ => by simp [flatP, flatL]
  | [_], _ :: _, _, h => by simp at h
  | _ :: _ :: _, [], _, h => by simp at h
  | c :: c1 :: cs, x :: ss, s, h => by
    have ih := flatP_snoc (c1 :: cs) ss s (by simpa using h)
    show flat c ++ x :: flatP (c1 :: cs) (ss ++ [s]) = (flat c ++ x :: flatL (c1 :: cs) ss) ++ [s]
    rw [ih]
    simp

theorem flatL_snoc (cs : List (Node α)) (ss : List α) (s : α) (c : Node α)
    (h : cs.length = ss.length + 1) :
    flatL (cs ++ [c]) (ss ++ [s]) = flatL cs ss ++ s :: flat c := by
  have e := flatL_app cs (ss ++ [s]) [c] [] (by simp [h])
  rw [List.append_nil] at e
  rw [e, flatP_snoc cs ss s h]
  simp [flatL]

theorem shift_left_leaf {n : Node α} (hw : WF cfg 1 n) {i : Nat} (hi : i < n.items.length) :
    WF cfg 1 (shift_left cfg n i false) ∧
      flat (shift_left cfg n i false) = (flat n).eraseIdx i ∧
      (shift_left cfg n i false).items.length + 1 = n.items.length := by
  obtain ⟨hl, _, hlen⟩ := wf_leaf hw
  have e : shift_left cfg n i false = n.setItems (n.items.eraseIdx i) := by
    unfold shift_left
    rw [if_pos hl]
    show n.setItems (close_slot n.items i (n.items.length - 1)) = _
    rw [close_slot_erase _ _ hi]
  have hle : (n.items.eraseIdx i).length + 1 = n.items.length := by
    rw [List.length_eraseIdx]; simp [hi]; omega
  rw [e]
  have hw1 : WF cfg 1 (n.setItems (n.items.eraseIdx i)) := wf_setItems_leaf hw (by omega)
  refine ⟨hw1, ?_, by simpa using hle⟩
  rw [flat_leaf _ (wf_leaf hw1).1, flat_leaf _ hl]
  rfl

end delhelp

section mergespec
variable {cfg : Config}

theorem join_spec {h : Nat} {l r : Node α} (sep : α) (hlw : WF cfg (h + 1) l)
    (hrw : WF cfg (h + 1) r) (hsum : l.items.length + r.items.length < MAXITEMS cfg) :
    WF cfg (h + 1) (join cfg (l.setItems (l.items ++ [sep])) r) ∧
      flat (join cfg (l.setItems (l.items ++ [sep])) r) = flat l ++ sep :: flat r ∧
      (join cfg (l.setItems (l.items ++ [sep])) r).items.length =
        l.items.length + 1 + r.items.length := by
  cases h with
  | zero =>
    obtain ⟨hl, _, _⟩ := wf_leaf hlw
    obtain ⟨hr, _, _⟩ := wf_leaf hrw
    have e : join cfg (l.setItems (l.items ++ [sep])) r =
        l.setItems (l.items ++ [sep] ++ r.items) := by
      unfold join
      simp [hl]
      rfl
    rw [e]
    have hw1 : WF cfg 1 (l.setItems (l.items ++ [sep] ++ r.items)) :=
      wf_setItems_leaf hlw (by simp; omega)
    refine ⟨hw1, ?_, by simp; omega⟩
    rw [flat_leaf _ (wf_leaf hw1).1, flat_leaf _ hl, flat_leaf _ hr]
    simp
  | succ h =>
    obtain ⟨hl, hlh, _, hlc, hlk, hlch⟩ := wf_branch hlw
    obtain ⟨hr, hrh, _, hrc, hrk, hrch⟩ := wf_branch hrw
    have e : join cfg (l.setItems (l.items ++ [sep])) r =
        Node.mk (l.items ++ [sep] ++ r.items) (h + 2) false (l.children ++ r.children)
          (if cfg.counted then l.counts ++ r.counts else l.counts) := by
      unfold join
      simp [hl, hlh]
    rw [e]
    have hw1 : WF cfg (h + 2) (Node.mk (l.items ++ [sep] ++ r.items) (h + 2) false
        (l.children ++ r.children) (if cfg.counted then l.counts ++ r.counts else l.counts)) := by
      refine wf_mk_branch (by simp; omega) (by simp; omega) ?_ ?_
      · intro hk
        rw [hk]
        simp only [if_true, List.map_append, hlk hk, hrk hk]
      · intro c hc
        rcases List.mem_append.1 hc with e1 | e1
        · exact hlch c e1
        · exact hrch c e1
    refine ⟨hw1, ?_, by simp; omega⟩
    rw [flat_branch l hl, flat_branch r hr]
    simp only [flat, Bool.false_eq_true, if_false]
    rw [flatL_app l.children (l.items ++ [sep]) r.children r.items (by simp [hlc]),
      flatP_snoc l.children l.items sep hlc]
    simp

theorem merge_children_spec {y l r : Node α} {A B : List (Node α)} {S T : List α} {sep : α}
    {i h : Nat} (hb : BranchOf cfg y (h + 2) (S ++ sep :: T) (A ++ l :: r :: B))
    (hA : A.length = i) (hS : S.length = i) (hBT : B.length = T.length)
    (hlw : WF cfg (h + 1) l) (hrw : WF cfg (h + 1) r)
    (hsum : l.items.length + r.items.length < MAXITEMS cfg) :
    ∃ m, BranchOf cfg (merge_children cfg y i) (h + 2) (S ++ T) (A ++ m :: B) ∧
      WF cfg (h + 1) m ∧ flat m = flat l ++ sep :: flat r ∧
      m.items.length = l.items.length + 1 + r.items.length := by
  obtain ⟨hmw, hmf, hml⟩ := join_spec sep hlw hrw hsum
  refine ⟨join cfg (l.setItems (l.items ++ [sep])) r, ?_, hmw, hmf, hml⟩
  have hi : y.items[i]? = some sep := by rw [hb.items_eq]; exact app_get hS
  have hylen : y.len = i + 1 + T.length := by
    show y.items.length = _
    rw [hb.items_eq]; simp; omega
  have hit : close_slot (S ++ sep :: T) i (y.len - 1) = S ++ T := by
    unfold close_slot
    rw [app_erase hS, hylen]
    exact List.take_of_length_le (by simp; omega)
  have hct : ∀ {β : Type} (P Q : List β) (a b c : β), P.length = i → Q.length = T.length →
      close_slot ((P ++ a :: b :: Q).set i c) (i + 1) y.len = P ++ c :: Q := by
    intro β P Q a b c hP hQ
    unfold close_slot
    rw [app_set hP, app_erase1 hP, hylen]
    exact List.take_of_length_le (by simp; omega)
  unfold merge_children
  rw [hi, hb.child hA, hb.child1 hA]
  dsimp only
  have hsl : ∀ m : Node α, shift_left cfg (y.setChild i m) i true =
      Node.mk (S ++ T) (h + 2) false (A ++ m :: B)
        (if cfg.counted then close_slot y.counts (i + 1) y.len else y.counts) := by
    intro m
    unfold shift_left
    simp only [setChild_isleaf, hb.isleaf_eq, Bool.false_eq_true, if_false, setChild_items,
      setChild_len, setChild_height, hb.height_eq, setChild_children, setChild_counts,
      hb.items_eq, hit, if_true, hb.children_eq]
    rw [hct A B l r m hA hBT]
  cases hk : cfg.counted
  · simp only [Bool.false_eq_true, if_false]
    rw [hsl]
    simp only [hk, Bool.false_eq_true, if_false]
    exact ⟨rfl, rfl, rfl, rfl, fun hc => by rw [hk] at hc; cases hc⟩
  · simp only [if_true]
    rw [hsl]
    simp only [hk, if_true]
    refine ⟨rfl, rfl, rfl, rfl, fun _ => ?_⟩
    simp only [setCount_counts, Node.counts_mk, hb.count hA hk, hb.count1 hA hk]
    rw [hb.counts_eq hk, List.map_append, List.map_cons, List.map_cons]
    have := hct (A.map (fun c => (flat c).length)) (B.map (fun c => (flat c).length))
      (flat l).length (flat r).length (flat l).length (by simpa using hA) (by simpa using hBT)
    rw [app_set (by simpa using hA)] at this
    rw [this, app_set (by simpa using hA), List.map_append, List.map_cons, hmf]
    simp
    omega

end mergespec

section rotatespec
variable {cfg : Config}

theorem recount_spec {z l r : Node α} {A B : List (Node α)} {items : List α} {ht h i : Nat}
    (h1 : z.height = ht) (h2 : z.isleaf = false) (h3 : z.items = items)
    (h4 : z.children = A ++ l :: r :: B)
    (h5 : cfg.counted = true → ∃ a b, z.counts =
      A.map (fun c => (flat c).length) ++ a :: b :: B.map (fun c => (flat c).length))
    (hA : A.length = i) (hl : WF cfg h l) (hr : WF cfg h r) :
    BranchOf cfg (recount cfg z i) ht items (A ++ l :: r :: B) := by
  unfold recount
  cases hk : cfg.counted
  · simp only [Bool.false_eq_true, if_false]
    exact ⟨h1, h2, h3, h4, fun hc => by rw [hk] at hc; cases hc⟩
  · simp only [if_true]
    refine ⟨h1, h2, h3, h4, fun _ => ?_⟩
    obtain ⟨a, b, hab⟩ := h5 hk
    have hc0 : z.child i = l := by unfold Node.child; rw [h4]; exact app_getD hA
    have hc1 : z.child (i + 1) = r := by unfold Node.child; rw [h4]; exact app_getD1 hA
    simp only [setCount_counts, hab, hc0, hc1, wf_count0 hl, wf_count0 hr]
    rw [app_set (by simpa using hA), app_set1 (by simpa using hA)]
    simp

theorem pair_update {y z l r l1 r1 : Node α} {A B : List (Node α)} {S T : List α}
    {sep s1 : α} {h : Nat}
    (hb : BranchOf cfg y (h + 2) (S ++ sep :: T) (A ++ l :: r :: B))
    (hb1 : BranchOf cfg z (h + 2) (S ++ s1 :: T) (A ++ l1 :: r1 :: B))
    (hAS : A.length = S.length) (hBT : B.length = T.length)
    (hlen : (S ++ sep :: T).length ≤ MAXITEMS cfg)
    (hAw : ∀ x ∈ A, MINITEMS cfg ≤ x.items.length ∧ WF cfg (h + 1) x)
    (hBw : ∀ x ∈ B, MINITEMS cfg ≤ x.items.length ∧ WF cfg (h + 1) x)
    (hl1 : WF cfg (h + 1) l1) (hr1 : WF cfg (h + 1) r1)
    (hlm : MINITEMS cfg ≤ l1.items.length) (hrm : MINITEMS cfg ≤ r1.items.length)
    (hfl : flat l1 ++ s1 :: flat r1 = flat l ++ sep :: flat r) :
    WF cfg (h + 2) z ∧ flat z = flat y ∧ z.items.length = y.items.length := by
  refine ⟨?_, ?_, ?_⟩
  · refine hb1.wf (by simpa using hlen) (by simp; omega) ?_
    intro x hx
    simp only [List.mem_append, List.mem_cons] at hx
    rcases hx with e | e | e | e
    · exact hAw x e
    · subst e; exact ⟨hlm, hl1⟩
    · subst e; exact ⟨hrm, hr1⟩
    · exact hBw x e
  · rw [hb1.flat2 hAS, hb.flat2 hAS, hfl]
  · rw [hb1.items_eq, hb.items_eq]; simp

theorem merge_update {y z l r m : Node α} {A B : List (Node α)} {S T : List α}
    {sep : α} {h : Nat}
    (hb : BranchOf cfg y (h + 2) (S ++ sep :: T) (A ++ l :: r :: B))
    (hb1 : BranchOf cfg z (h + 2) (S ++ T) (A ++ m :: B))
    (hAS : A.length = S.length) (hBT : B.length = T.length)
    (hlen : (S ++ sep :: T).length ≤ MAXITEMS cfg)
    (hAw : ∀ x ∈ A, MINITEMS cfg ≤ x.items.length ∧ WF cfg (h + 1) x)
    (hBw : ∀ x ∈ B, MINITEMS cfg ≤ x.items.length ∧ WF cfg (h + 1) x)
    (hm : WF cfg (h + 1) m) (hmm : MINITEMS cfg ≤ m.items.length)
    (hfl : flat m = flat l ++ sep :: flat r) :
    WF cfg (h + 2) z ∧ flat z = flat y ∧ z.items.length + 1 = y.items.length := by
  refine ⟨?_, ?_, ?_⟩
  · refine hb1.wf (by simp at hlen ⊢; omega) (by simp; omega) ?_
    intro x hx
    simp only [List.mem_append, List.mem_cons] at hx
    rcases hx with e | e | e
    · exact hAw x e
    · subst e; exact ⟨hmm, hm⟩
    · exact hBw x e
  · rw [hb1.flat, flatL_app A S _ _ hAS, flatL_cons, hb.flat2 hAS, hfl]
  · rw [hb1.items_eq, hb.items_eq]; simp; omega

theorem rotate_left_spec {y l r : Node α} {A B : List (Node α)} {S T : List α} {sep : α}
    {i h : Nat} (hb : BranchOf cfg y (h + 3) (S ++ sep :: T) (A ++ l :: r :: B))
    (hA : A.length = i) (hS : S.length = i)
    (hlw : WF cfg (h + 2) l) (hrw : WF cfg (h + 2) r) (hrpos : 1 ≤ r.items.length)
    (hlroom : l.items.length < MAXITEMS cfg) :
    ∃ l1 r1 s1, BranchOf cfg (recount cfg (rotate_left cfg y i) i) (h + 3) (S ++ s1 :: T)
        (A ++ l1 :: r1 :: B) ∧
      WF cfg (h + 2) l1 ∧ WF cfg (h + 2) r1 ∧
      flat l1 ++ s1 :: flat r1 = flat l ++ sep :: flat r ∧
      l1.items.length = l.items.length + 1 ∧ r1.items.length + 1 = r.items.length := by
  obtain ⟨hl, hlh, _, hlc, hlk, hlch⟩ := wf_branch hlw
  obtain ⟨hr, hrh, hrlen, hrc, hrk, hrch⟩ := wf_branch hrw
  obtain ⟨first, ri, hri⟩ : ∃ first ri, r.items = first :: ri := by
    cases hx : r.items with
    | nil => rw [hx] at hrpos; simp at hrpos
    | cons a t => exact ⟨a, t, rfl⟩
  obtain ⟨rc0, rc, hrcs⟩ : ∃ rc0 rc, r.children = rc0 :: rc := by
    cases hx : r.children with
    | nil => rw [hx] at hrc; simp at hrc
    | cons a t => exact ⟨a, t, rfl⟩
  have hrclen : rc.length = ri.length + 1 := by
    rw [hrcs, hri] at hrc; simpa using hrc
  have hi : y.items[i]? = some sep := by rw [hb.items_eq]; exact app_get hS
  have hc0 : r.child 0 = rc0 := by unfold Node.child; rw [hrcs]; rfl
  have hr1e : shift_left cfg r 0 false = Node.mk ri (h + 2) false rc
      (if cfg.counted then r.counts.tail else r.counts) := by
    unfold shift_left
    have hrl : r.len = ri.length + 1 := by show r.items.length = _; rw [hri]; rfl
    simp only [hr, Bool.false_eq_true, if_false, hrh, hri, hrcs, hrl, close_slot]
    simp only [Nat.add_sub_cancel, List.eraseIdx_cons_zero]
    rw [List.take_of_length_le (le_refl _), List.take_of_length_le (by omega)]
    cases hk : cfg.counted
    · rfl
    · simp only [if_true]
      rw [hrk hk, hrcs]
      simp only [List.map_cons, List.eraseIdx_cons_zero, List.tail_cons]
      rw [List.take_of_length_le (by simp; omega)]
  have hrc0 := hrch rc0 (by rw [hrcs]; simp)
  have hl1w : WF cfg (h + 2) (Node.mk (l.items ++ [sep]) (h + 2) false (l.children ++ [rc0])
      (if cfg.counted then l.counts ++ [r.count 0] else l.counts)) := by
    refine wf_mk_branch (by simp; omega) (by simp; omega) ?_ ?_
    · intro hk
      have hcnt : r.count 0 = (flat rc0).length := by
        unfold Node.count; rw [hrk hk, hrcs]; rfl
      rw [hk]
      simp only [if_true, List.map_append, hlk hk, hcnt, List.map_cons, List.map_nil]
    · intro c hc
      rcases List.mem_append.1 hc with e1 | e1
      · exact hlch c e1
      · simp at e1; subst e1; exact hrc0
  have hr1w : WF cfg (h + 2) (Node.mk ri (h + 2) false rc
      (if cfg.counted then r.counts.tail else r.counts)) := by
    refine wf_mk_branch (by rw [hri] at hrlen; simp at hrlen; omega) hrclen ?_ ?_
    · intro hk
      rw [hk]
      simp only [if_true, hrk hk, hrcs, List.map_cons, List.tail_cons]
    · intro c hc
      exact hrch c (by rw [hrcs]; simp [hc])
  refine ⟨Node.mk (l.items ++ [sep]) (h + 2) false (l.children ++ [rc0])
      (if cfg.counted then l.counts ++ [r.count 0] else l.counts),
    Node.mk ri (h + 2) false rc (if cfg.counted then r.counts.tail else r.counts), first,
    ?_, hl1w, hr1w, ?_, by simp, by rw [hri]; simp⟩
  · have hz : rotate_left cfg y i =
        ((y.setItems (y.items.set i first)).setChild i
          (Node.mk (l.items ++ [sep]) (h + 2) false (l.children ++ [rc0])
            (if cfg.counted then l.counts ++ [r.count 0] else l.counts))).setChild (i + 1)
          (Node.mk ri (h + 2) false rc (if cfg.counted then r.counts.tail else r.counts)) := by
      unfold rotate_left
      rw [hi, hb.child hA, hb.child1 hA, hri]
      simp only [List.head?_cons]
      rw [hr1e, hc0, hlh, hl]
    rw [hz]
    refine recount_spec (by simp [hb.height_eq]) (by simp [hb.isleaf_eq])
      (by simp [hb.items_eq, app_set hS]) ?_ ?_ hA hl1w hr1w
    · simp only [setChild_children, setItems_children, hb.children_eq]
      rw [app_set hA, app_set1 hA]
    · intro hk
      exact ⟨(flat l).length, (flat r).length, by
        simp [hb.counts_eq hk]⟩
  · rw [flat_branch l hl, flat_branch r hr, hri, hrcs]
    simp only [flat, Bool.false_eq_true, if_false]
    rw [flatL_snoc l.children l.items sep rc0 hlc]
    simp [flatL]

end rotatespec

section rotatespec2
variable {cfg : Config}

theorem rotate_right_spec {y l r : Node α} {A B : List (Node α)} {S T : List α} {sep : α}
    {i h : Nat} (hb : BranchOf cfg y (h + 3) (S ++ sep :: T) (A ++ l :: r :: B))
    (hA : A.length = i) (hS : S.length = i)
    (hlw : WF cfg (h + 2) l) (hrw : WF cfg (h + 2) r) (hlpos : 1 ≤ l.items.length)
    (hrroom : r.items.length < MAXITEMS cfg) :
    ∃ l1 r1 s1, BranchOf cfg (recount cfg (rotate_right cfg y i) i) (h + 3) (S ++ s1 :: T)
        (A ++ l1 :: r1 :: B) ∧
      WF cfg (h + 2) l1 ∧ WF cfg (h + 2) r1 ∧
      flat l1 ++ s1 :: flat r1 = flat l ++ sep :: flat r ∧
      l1.items.length + 1 = l.items.length ∧ r1.items.length = r.items.length + 1 := by
  obtain ⟨hl, hlh, hllen, hlc, hlk, hlch⟩ := wf_branch hlw
  obtain ⟨hr, hrh, hrlen, hrc, hrk, hrch⟩ := wf_branch hrw
  obtain ⟨li, last, hli⟩ : ∃ li last, l.items = li ++ [last] := by
    rcases List.eq_nil_or_concat l.items with e | ⟨L, b, e⟩
    · rw [e] at hlpos; simp at hlpos
    · exact ⟨L, b, by rw [e, List.concat_eq_append]⟩
  obtain ⟨lc, lcz, hlcs⟩ : ∃ lc lcz, l.children = lc ++ [lcz] := by
    rcases List.eq_nil_or_concat l.children with e | ⟨L, b, e⟩
    · rw [e] at hlc; simp at hlc
    · exact ⟨L, b, by rw [e, List.concat_eq_append]⟩
  have hlclen : lc.length = li.length + 1 := by
    rw [hlcs, hli] at hlc; simpa using hlc
  have hll : l.len = li.length + 1 := by show l.items.length = _; rw [hli]; simp
  obtain ⟨rc0, rc, hrcs⟩ : ∃ rc0 rc, r.children = rc0 :: rc := by
    cases hx : r.children with
    | nil => rw [hx] at hrc; simp at hrc
    | cons a t => exact ⟨a, t, rfl⟩
  have hi : y.items[i]? = some sep := by rw [hb.items_eq]; exact app_get hS
  have hcz : l.child l.len = lcz := by
    unfold Node.child; rw [hlcs, hll]; exact app_getD hlclen
  have hlast : l.items.getLast? = some last := by rw [hli]; simp
  have hlcz := hlch lcz (by rw [hlcs]; simp)
  have hl1w : WF cfg (h + 2) (Node.mk li (h + 2) false lc
      (if cfg.counted then l.counts.take l.len else l.counts)) := by
    refine wf_mk_branch (by rw [hli] at hllen; simp at hllen; omega) hlclen ?_ ?_
    · intro hk
      rw [hk]
      simp only [if_true, hlk hk, hlcs, List.map_append, hll]
      rw [app_take (by simpa using hlclen)]
    · intro c hc
      exact hlch c (by rw [hlcs]; simp [hc])
  have hr1w : WF cfg (h + 2) (Node.mk (sep :: r.items) (h + 2) false (lcz :: r.children)
      (if cfg.counted then (flat lcz).length :: r.counts else r.counts)) := by
    refine wf_mk_branch (by simp; omega) (by simp; omega) ?_ ?_
    · intro hk
      rw [hk]
      simp only [if_true, hrk hk, List.map_cons]
    · intro c hc
      rcases List.mem_cons.1 hc with e1 | e1
      · subst e1; exact hlcz
      · exact hrch c e1
  have hr1e : (if cfg.counted then
        ((shift_right cfg r 0 sep).setChild 0 lcz).setCount 0 (l.count l.len)
       else (shift_right cfg r 0 sep).setChild 0 lcz) =
      Node.mk (sep :: r.items) (h + 2) false (lcz :: r.children)
        (if cfg.counted then (flat lcz).length :: r.counts else r.counts) := by
    unfold shift_right
    simp only [hr, Bool.false_eq_true, if_false, hrh, hrcs]
    cases hk : cfg.counted
    · simp only [Bool.false_eq_true, if_false]
      apply node_ext <;> simp
    · simp only [if_true]
      have hcnt : l.count l.len = (flat lcz).length := by
        unfold Node.count
        rw [hlk hk, hlcs, hll, List.map_append]
        exact app_getD (by simpa using hlclen)
      have hcnt1 : l.count l.items.length = (flat lcz).length := hcnt
      apply node_ext <;> simp [hcnt1, hrk hk, hrcs]
  refine ⟨Node.mk li (h + 2) false lc (if cfg.counted then l.counts.take l.len else l.counts),
    Node.mk (sep :: r.items) (h + 2) false (lcz :: r.children)
      (if cfg.counted then (flat lcz).length :: r.counts else r.counts), last,
    ?_, hl1w, hr1w, ?_, by rw [hli]; simp, by simp⟩
  · have hz : rotate_right cfg y i =
        ((y.setItems (y.items.set i last)).setChild i
          (Node.mk li (h + 2) false lc
            (if cfg.counted then l.counts.take l.len else l.counts))).setChild (i + 1)
          (Node.mk (sep :: r.items) (h + 2) false (lcz :: r.children)
            (if cfg.counted then (flat lcz).length :: r.counts else r.counts)) := by
      unfold rotate_right
      rw [hi, hb.child hA, hb.child1 hA, hlast]
      dsimp only
      rw [hcz, hr1e, hlh, hl]
      congr 2
      have e1 : l.items.take (l.len - 1) = li := by
        rw [hli, hll]; simp
      have e2 : l.children.take l.len = lc := by
        rw [hlcs, hll]; exact app_take hlclen
      rw [e1, e2]
    rw [hz]
    refine recount_spec (by simp [hb.height_eq]) (by simp [hb.isleaf_eq])
      (by simp [hb.items_eq, app_set hS]) ?_ ?_ hA hl1w hr1w
    · simp only [setChild_children, setItems_children, hb.children_eq]
      rw [app_set hA, app_set1 hA]
    · intro hk
      exact ⟨(flat l).length, (flat r).length, by
        simp [hb.counts_eq hk]⟩
  · rw [flat_branch l hl, flat_branch r hr, hli, hlcs]
    simp only [flat, Bool.false_eq_true, if_false]
    rw [flatL_snoc lc li last lcz hlclen]
    simp [flatL]

end rotatespec2

section giveleaf
variable {cfg : Config}

theorem give_left_leaf {n lf c : Node α} {A B : List (Node α)} {S T : List α} {sep : α}
    {j : Nat} (hb : BranchOf cfg n 2 (S ++ sep :: T) (A ++ lf :: c :: B))
    (hA : A.length = j) (hS : S.length = j)
    (hlw : WF cfg 1 lf) (hcw : WF cfg 1 c) (b : Bool) {k : Nat}
    (hk : give_n b c.len lf.len = k + 1) (hk2 : k < c.items.length)
    (hroom : lf.items.length + k + 1 ≤ MAXITEMS cfg) :
    ∃ lf1 c1 newsep, BranchOf cfg (give_left cfg n (j + 1) b) 2 (S ++ newsep :: T)
        (A ++ lf1 :: c1 :: B) ∧
      WF cfg 1 lf1 ∧ WF cfg 1 c1 ∧
      flat lf1 ++ newsep :: flat c1 = flat lf ++ sep :: flat c ∧
      lf1.items.length = lf.items.length + k + 1 ∧
      c1.items.length + k + 1 = c.items.length := by
  obtain ⟨newsep, hns⟩ : ∃ x, c.items[k]? = some x :=
    ⟨_, List.getElem?_eq_getElem hk2⟩
  have hb1 := give_left_spec hb hA hS (wf_leaf hlw).1 (wf_leaf hcw).1 b
    (show c.items[give_n b c.len lf.len - 1]? = some newsep by rw [hk]; exact hns)
  rw [hk] at hb1
  simp only [Nat.add_sub_cancel] at hb1
  have hclen := (wf_leaf hcw).2.2
  have hw1 : WF cfg 1 (lf.setItems (lf.items ++ sep :: c.items.take k)) :=
    wf_setItems_leaf hlw (by simp; omega)
  have hw2 : WF cfg 1 (c.setItems (c.items.drop (k + 1))) :=
    wf_setItems_leaf hcw (by simp; omega)
  refine ⟨_, _, newsep, hb1, hw1, hw2, ?_, by simp; omega, by simp; omega⟩
  rw [flat_leaf _ (wf_leaf hw1).1, flat_leaf _ (wf_leaf hw2).1,
    flat_leaf _ (wf_leaf hlw).1, flat_leaf _ (wf_leaf hcw).1]
  simp only [setItems_items]
  have := take_get_drop hns
  conv_rhs => rw [this]
  simp

theorem give_right_leaf {n lf c : Node α} {A B : List (Node α)} {S T : List α} {sep : α}
    {j : Nat} (hb : BranchOf cfg n 2 (S ++ sep :: T) (A ++ lf :: c :: B))
    (hA : A.length = j) (hS : S.length = j)
    (hlw : WF cfg 1 lf) (hcw : WF cfg 1 c) (b : Bool) {k : Nat}
    (hk : give_n b lf.len c.len = k + 1) (hk2 : k < lf.items.length)
    (hroom : c.items.length + k + 1 ≤ MAXITEMS cfg) :
    ∃ lf1 c1 newsep, BranchOf cfg (give_right cfg n j b) 2 (S ++ newsep :: T)
        (A ++ lf1 :: c1 :: B) ∧
      WF cfg 1 lf1 ∧ WF cfg 1 c1 ∧
      flat lf1 ++ newsep :: flat c1 = flat lf ++ sep :: flat c ∧
      lf1.items.length + k + 1 = lf.items.length ∧
      c1.items.length = c.items.length + k + 1 := by
  have hq : lf.items.length - (k + 1) < lf.items.length := by omega
  obtain ⟨newsep, hns⟩ : ∃ x, lf.items[lf.items.length - (k + 1)]? = some x :=
    ⟨_, List.getElem?_eq_getElem hq⟩
  have hb1 := give_right_spec hb hA hS (wf_leaf hlw).1 (wf_leaf hcw).1 b
    (show lf.items[lf.len - give_n b lf.len c.len]? = some newsep by rw [hk]; exact hns)
  rw [hk] at hb1
  have hllen := (wf_leaf hlw).2.2
  have hll : lf.len = lf.items.length := rfl
  rw [hll] at hb1
  have hw1 : WF cfg 1 (lf.setItems (lf.items.take (lf.items.length - (k + 1)))) :=
    wf_setItems_leaf hlw (by simp; omega)
  have hw2 : WF cfg 1 (c.setItems (lf.items.drop (lf.items.length - (k + 1) + 1) ++
      sep :: c.items)) :=
    wf_setItems_leaf hcw (by simp; omega)
  refine ⟨_, _, newsep, hb1, hw1, hw2, ?_, by simp; omega, by simp; omega⟩
  rw [flat_leaf _ (wf_leaf hw1).1, flat_leaf _ (wf_leaf hw2).1,
    flat_leaf _ (wf_leaf hlw).1, flat_leaf _ (wf_leaf hcw).1]
  simp only [setItems_items]
  have := take_get_drop hns
  conv_rhs => rw [this]
  simp

end giveleaf

section rebalancespec
variable {cfg : Config}

theorem rebalance_at_spec {y l r : Node α} {A B : List (Node α)} {S T : List α} {sep : α}
    {i h : Nat} (hb : BranchOf cfg y (h + 2) (S ++ sep :: T) (A ++ l :: r :: B))
    (hA : A.length = i) (hS : S.length = i) (hBT : B.length = T.length)
    (hlen : (S ++ sep :: T).length ≤ MAXITEMS cfg)
    (hAw : ∀ x ∈ A, MINITEMS cfg ≤ x.items.length ∧ WF cfg (h + 1) x)
    (hBw : ∀ x ∈ B, MINITEMS cfg ≤ x.items.length ∧ WF cfg (h + 1) x)
    (hlw : WF cfg (h + 1) l) (hrw : WF cfg (h + 1) r)
    (hdef : (l.items.length + 1 = MINITEMS cfg ∧ MINITEMS cfg ≤ r.items.length) ∨
      (r.items.length + 1 = MINITEMS cfg ∧ MINITEMS cfg ≤ l.items.length)) :
    WF cfg (h + 2) (rebalance_at cfg y i) ∧ flat (rebalance_at cfg y i) = flat y ∧
      y.items.length ≤ (rebalance_at cfg y i).items.length + 1 := by
  have hmax := max_eq cfg
  have hmin := min_pos cfg
  have hAS : A.length = S.length := hA.trans hS.symm
  have hll := wf_len_le hlw
  have hrl := wf_len_le hrw
  unfold rebalance_at
  rw [hb.child hA, hb.child1 hA]
  by_cases hsum : l.len + r.len < MAXITEMS cfg
  · rw [if_pos hsum]
    obtain ⟨m, hb1, hmw, hmf, hml⟩ := merge_children_spec hb hA hS hBT hlw hrw hsum
    obtain ⟨w1, w2, w3⟩ := merge_update hb hb1 hAS hBT hlen hAw hBw hmw (by omega) hmf
    exact ⟨w1, w2, by omega⟩
  rw [if_neg hsum]
  have hsum2 : MAXITEMS cfg ≤ l.items.length + r.items.length := Nat.le_of_not_lt hsum
  cases h with
  | zero =>
    rw [if_pos (wf_leaf hlw).1]
    by_cases hlt : l.len < r.len
    · rw [if_pos hlt]
      have hlt1 : l.items.length < r.items.length := hlt
      obtain ⟨k, hk⟩ : ∃ k, give_n true r.len l.len = k + 1 :=
        ⟨(r.items.length - l.items.length) / 2 - 1, by
          show (r.items.length - l.items.length) / 2 = _
          omega⟩
      have hkv : k + 1 = (r.items.length - l.items.length) / 2 := hk.symm
      obtain ⟨lf1, c1, newsep, hb1, hw1, hw2, hf, hl1, hl2⟩ :=
        give_left_leaf hb hA hS hlw hrw true hk (by omega) (by omega)
      have hb2 := recount_spec hb1.height_eq hb1.isleaf_eq hb1.items_eq hb1.children_eq
        (fun hc => ⟨(flat lf1).length, (flat c1).length, by rw [hb1.counts_eq hc]; simp⟩) hA hw1 hw2
      obtain ⟨w1, w2, w3⟩ := pair_update hb hb2 hAS hBT hlen hAw hBw hw1 hw2 (by omega)
        (by omega) hf
      exact ⟨w1, w2, by omega⟩
    · rw [if_neg hlt]
      have hlt1 : ¬ l.items.length < r.items.length := hlt
      obtain ⟨k, hk⟩ : ∃ k, give_n true l.len r.len = k + 1 :=
        ⟨(l.items.length - r.items.length) / 2 - 1, by
          show (l.items.length - r.items.length) / 2 = _
          omega⟩
      have hkv : k + 1 = (l.items.length - r.items.length) / 2 := hk.symm
      obtain ⟨lf1, c1, newsep, hb1, hw1, hw2, hf, hl1, hl2⟩ :=
        give_right_leaf hb hA hS hlw hrw true hk (by omega) (by omega)
      have hb2 := recount_spec hb1.height_eq hb1.isleaf_eq hb1.items_eq hb1.children_eq
        (fun hc => ⟨(flat lf1).length, (flat c1).length, by rw [hb1.counts_eq hc]; simp⟩) hA hw1 hw2
      obtain ⟨w1, w2, w3⟩ := pair_update hb hb2 hAS hBT hlen hAw hBw hw1 hw2 (by omega)
        (by omega) hf
      exact ⟨w1, w2, by omega⟩
  | succ h =>
    rw [if_neg (by rw [(wf_branch hlw).1]; simp)]
    by_cases hlt : l.len < r.len
    · rw [if_pos hlt]
      have hlt1 : l.items.length < r.items.length := hlt
      obtain ⟨l1, r1, s1, hb1, hw1, hw2, hf, hl1, hl2⟩ :=
        rotate_left_spec hb hA hS hlw hrw (by omega) (by omega)
      obtain ⟨w1, w2, w3⟩ := pair_update hb hb1 hAS hBT hlen hAw hBw hw1 hw2 (by omega)
        (by omega) hf
      exact ⟨w1, w2, by omega⟩
    · rw [if_neg hlt]
      have hlt1 : ¬ l.items.length < r.items.length := hlt
      obtain ⟨l1, r1, s1, hb1, hw1, hw2, hf, hl1, hl2⟩ :=
        rotate_right_spec hb hA hS hlw hrw (by omega) (by omega)
      obtain ⟨w1, w2, w3⟩ := pair_update hb hb1 hAS hBT hlen hAw hBw hw1 hw2 (by omega)
        (by omega) hf
      exact ⟨w1, w2, by omega⟩

end rebalancespec

section fixspec
variable {cfg : Config}

theorem rebalance_spec {y c1 : Node α} {A B : List (Node α)} {S T : List α}
    {i h : Nat} (hb : BranchOf cfg y (h + 2) (S ++ T) (A ++ c1 :: B))
    (hA : A.length = i) (hS : S.length = i) (hBT : B.length = T.length)
    (hlen : (S ++ T).length ≤ MAXITEMS cfg) (hpos : 1 ≤ (S ++ T).length)
    (hAw : ∀ x ∈ A, MINITEMS cfg ≤ x.items.length ∧ WF cfg (h + 1) x)
    (hBw : ∀ x ∈ B, MINITEMS cfg ≤ x.items.length ∧ WF cfg (h + 1) x)
    (hcw : WF cfg (h + 1) c1) (hdef : c1.items.length + 1 = MINITEMS cfg) :
    WF cfg (h + 2) (rebalance cfg y i) ∧ flat (rebalance cfg y i) = flat y ∧
      y.items.length ≤ (rebalance cfg y i).items.length + 1 := by
  have hyl : y.len = (S ++ T).length := by show y.items.length = _; rw [hb.items_eq]
  unfold rebalance
  by_cases hi : i = y.len
  · rw [if_pos hi]
    have hT : T = [] := List.eq_nil_of_length_eq_zero (by
      rw [hyl] at hi; simp at hi; omega)
    subst hT
    have hB : B = [] := List.eq_nil_of_length_eq_zero (by simpa using hBT)
    subst hB
    obtain ⟨A1, l, rfl⟩ : ∃ A1 l, A = A1 ++ [l] := by
      rcases List.eq_nil_or_concat A with e | ⟨L, b, e⟩
      · subst e
        simp at hA hpos
        omega
      · exact ⟨L, b, by rw [e, List.concat_eq_append]⟩
    obtain ⟨S1, sep, rfl⟩ : ∃ S1 sep, S = S1 ++ [sep] := by
      rcases List.eq_nil_or_concat S with e | ⟨L, b, e⟩
      · subst e; simp at hpos
      · exact ⟨L, b, by rw [e, List.concat_eq_append]⟩
    have hA1 : A1.length = i - 1 := by simp at hA; omega
    have hS1 : S1.length = i - 1 := by simp at hS; omega
    have hb0 : BranchOf cfg y (h + 2) (S1 ++ sep :: []) (A1 ++ l :: c1 :: []) := by
      simpa using hb
    have hlw := hAw l (by simp)
    exact rebalance_at_spec hb0 hA1 hS1 rfl (by simpa using hlen)
      (fun x hx => hAw x (by simp [hx])) (by simp) hlw.2 hcw (Or.inr ⟨hdef, hlw.1⟩)
  · rw [if_neg hi]
    obtain ⟨sep, T1, rfl⟩ : ∃ sep T1, T = sep :: T1 := by
      cases T with
      | nil => rw [hyl] at hi; simp at hi; omega
      | cons a t => exact ⟨a, t, rfl⟩
    obtain ⟨r, B1, rfl⟩ : ∃ r B1, B = r :: B1 := by
      cases B with
      | nil => simp at hBT
      | cons a t => exact ⟨a, t, rfl⟩
    have hrw := hBw r (by simp)
    exact rebalance_at_spec hb hA hS (by simpa using hBT) hlen hAw
      (fun x hx => hBw x (by simp [hx])) hcw hrw.2 (Or.inl ⟨hdef, hrw.1⟩)

/-- The tail of `delete1` on a branch whose child `i` has just lost one item
and whose count for that child is still the old one. -/
theorem delete1_fix_spec {x c1 : Node α} {A B : List (Node α)} {S T : List α}
    {i h : Nat} (h1 : x.height = h + 2) (h2 : x.isleaf = false) (h3 : x.items = S ++ T)
    (h4 : x.children = A ++ c1 :: B)
    (h5 : cfg.counted = true → x.counts =
      A.map (fun c => (flat c).length) ++ ((flat c1).length + 1) ::
        B.map (fun c => (flat c).length))
    (hA : A.length = i) (hS : S.length = i) (hBT : B.length = T.length)
    (hlen : (S ++ T).length ≤ MAXITEMS cfg) (hpos : 1 ≤ (S ++ T).length)
    (hAw : ∀ x ∈ A, MINITEMS cfg ≤ x.items.length ∧ WF cfg (h + 1) x)
    (hBw : ∀ x ∈ B, MINITEMS cfg ≤ x.items.length ∧ WF cfg (h + 1) x)
    (hcw : WF cfg (h + 1) c1) (hdef : MINITEMS cfg ≤ c1.items.length + 1) :
    WF cfg (h + 2) (delete1_fix cfg x i) ∧
      flat (delete1_fix cfg x i) = flatP A S ++ (flat c1 ++ tailL B T) ∧
      (S ++ T).length ≤ (delete1_fix cfg x i).items.length + 1 := by
  have hb : BranchOf cfg (dec_count cfg x i) (h + 2) (S ++ T) (A ++ c1 :: B) := by
    unfold dec_count
    cases hk : cfg.counted
    · exact ⟨h1, h2, h3, h4, fun hc => by rw [hk] at hc; cases hc⟩
    · simp only [if_true]
      refine ⟨h1, h2, h3, h4, fun _ => ?_⟩
      have hc : x.count i = (flat c1).length + 1 := by
        unfold Node.count; rw [h5 hk]; exact app_getD (by simpa using hA)
      simp only [setCount_counts, hc, Nat.add_sub_cancel, h5 hk]
      rw [app_set (by simpa using hA)]
      simp
  have hch : (dec_count cfg x i).child i = c1 := hb.child hA
  have hfl : flat (dec_count cfg x i) = flatP A S ++ (flat c1 ++ tailL B T) := by
    rw [hb.flat, flatL_app A S _ _ (hA.trans hS.symm), flatL_cons]
  have hyl : (dec_count cfg x i).items.length = (S ++ T).length := by rw [hb.items_eq]
  unfold delete1_fix
  rw [hch]
  by_cases hd : c1.len < MINITEMS cfg
  · rw [if_pos hd]
    have hd1 : c1.items.length < MINITEMS cfg := hd
    obtain ⟨w1, w2, w3⟩ := rebalance_spec hb hA hS hBT hlen hpos hAw hBw hcw (by omega)
    exact ⟨w1, by rw [w2, hfl], by omega⟩
  · rw [if_neg hd]
    have hd1 : ¬ c1.items.length < MINITEMS cfg := hd
    refine ⟨?_, hfl, by omega⟩
    refine hb.wf hlen (by simp; omega) ?_
    intro z hz
    simp only [List.mem_append, List.mem_cons] at hz
    rcases hz with e | e | e
    · exact hAw z e
    · subst e; exact ⟨by omega, hcw⟩
    · exact hBw z e

end fixspec

section delloc
variable {cfg : Config} {cmp : α → α → Int}

theorem erase_mid (P M Q : List α) (p : Nat) (hp : p < M.length) :
    (P ++ (M ++ Q)).eraseIdx (P.length + p) = P ++ (M.eraseIdx p ++ Q) := by
  rw [List.eraseIdx_append_of_length_le (by omega)]
  simp only [Nat.add_sub_cancel_left]
  rw [List.eraseIdx_append_of_lt_length hp]

theorem get_sep (P M Q : List α) (y : α) :
    (P ++ (M ++ y :: Q))[P.length + M.length]? = some y := by
  rw [← List.append_assoc]
  exact app_get (by simp)

theorem erase_sep (P M Q : List α) (y : α) :
    (P ++ (M ++ y :: Q)).eraseIdx (P.length + M.length) = P ++ (M ++ Q) := by
  rw [← List.append_assoc, app_erase (by simp)]
  simp

theorem walk_branch_spec {h : Nat} {n : Node α} (hw : WF cfg (h + 2) n) (index : Nat) :
    ∃ A c B S T, BranchOf cfg n (h + 2) (S ++ T) (A ++ c :: B) ∧
      A.length = (index_walk cfg n n.len 0 index).1 ∧
      S.length = (index_walk cfg n n.len 0 index).1 ∧ B.length = T.length ∧
      flat n = flatP A S ++ (flat c ++ tailL B T) ∧ WF cfg (h + 1) c ∧
      MINITEMS cfg ≤ c.items.length ∧
      (∀ x ∈ A, MINITEMS cfg ≤ x.items.length ∧ WF cfg (h + 1) x) ∧
      (∀ x ∈ B, MINITEMS cfg ≤ x.items.length ∧ WF cfg (h + 1) x) ∧
      (S ++ T).length ≤ MAXITEMS cfg ∧
      index = (flatP A S).length + (index_walk cfg n n.len 0 index).2.2 ∧
      (T ≠ [] → (index_walk cfg n n.len 0 index).2.2 ≤ (flat c).length ∧
        ((index_walk cfg n n.len 0 index).2.1 = true ↔
          (index_walk cfg n n.len 0 index).2.2 = (flat c).length)) ∧
      (T = [] → (index_walk cfg n n.len 0 index).2.1 = false) := by
  obtain ⟨w1, w2, w3, w4, w5, w6⟩ := @index_walk_spec α cfg n n.len 0 index
  generalize index_walk cfg n n.len 0 index = w at *
  obtain ⟨i, fd, ci⟩ := w
  simp only [Nat.zero_add] at w1 w2 w3 w4 w5 w6 ⊢
  have hpz : psum (node_count cfg n) 0 = 0 := psum_zero _
  rw [hpz] at w3
  have hi : i ≤ n.items.length := w2
  obtain ⟨A, c, B, S, T, hb, hA, hS, hBT, hchild, hfl, hcw, hcm, hAw, hBw, hlen⟩ :=
    branch_at hw hi
  have hps : psum (node_count cfg n) i = (flatP A S).length := by
    have := @psum_eq_flatP α cfg h n hw A B c S hb.children_eq (hS.trans hA.symm)
      (by rw [hA]; exact hi)
    rwa [hA] at this
  have hnc : node_count cfg n i = (flat c).length := by rw [wf_node_count hw hi, hchild]
  have hTlen : n.items.length = i + T.length := by
    have := congrArg List.length hb.items_eq; simp at this; omega
  have hnl : n.len = n.items.length := rfl
  refine ⟨A, c, B, S, T, hb, hA, hS, hBT, hfl, hcw, hcm, hAw, hBw, hlen, by omega, ?_, ?_⟩
  · intro hT
    have : 0 < T.length := List.length_pos.2 hT
    have h4 := w4 (by omega)
    rw [hnc] at h4
    exact h4
  · intro hT
    subst hT
    exact w5 (by simp at hTlen; omega)

end delloc

section delloc2
variable {cfg : Config} {cmp : α → α → Int}

theorem delTarget_lift {act : DelAct} {key : α} {index cindex : Nat} {P M Q : List α}
    (hidx : act = DelAct.DELAT → index = P.length + cindex)
    (hback : act = DelAct.POPMAX ∨ act = DelAct.POPBACK → Q = [])
    (hfront : act = DelAct.POPFRONT → P = []) :
    ∀ q z, DelTarget cmp act key cindex M q z →
      DelTarget cmp act key index (P ++ (M ++ Q)) (P.length + q) z := by
  intro q z ⟨h1, h2, h3, h4, h5⟩
  have hq : q < M.length := by
    by_contra hc
    rw [List.getElem?_eq_none (by omega)] at h1
    cases h1
  refine ⟨by rw [getElem?_mid P M Q q hq]; exact h1, h2, fun ha => ?_, fun ha => ?_,
    fun ha => ?_⟩
  · rw [hback ha]; simp; have := h3 ha; omega
  · rw [hfront ha, h4 ha]; rfl
  · rw [hidx ha, h5 ha]

theorem delete1_locate_branch (ho : OrdOK cfg cmp) {h : Nat} {n : Node α}
    (hw : WF cfg (h + 2) n) (hs : Sorted cfg cmp (flat n))
    (act : DelAct) (key : α) (index : Nat) (hdk : act = DelAct.DELKEY → cfg.noorder = false) :
    DelLoc cfg cmp act key index h n (delete1_locate cfg cmp n act key index).1
      (delete1_locate cfg cmp n act key index).2.1
      (delete1_locate cfg cmp n act key index).2.2 := by
  have hl : n.isleaf = false := (wf_branch hw).1
  have hmin := min_pos cfg
  cases act with
  | DELKEY =>
    have hno := hdk rfl
    have hoc := ho hno
    obtain ⟨A, c, B, S, T, hb, hA, hS, hBT, hfl, hcw, hcm, hAw, hBw, hlen, hbl, hbr, _, _, _,
      hfound, _⟩ := locate_branch_insitem ho hw hs index key hno
    simp only [delete1_locate]
    refine ⟨A, c, B, S, T, hb, hA, hS, hBT, hfl, hcw, hcm, hAw, hBw, hlen, ?_, ?_⟩
    · rintro ⟨hf, _⟩
      obtain ⟨y, T1, hT, h0, _⟩ := hfound hf
      subst hT
      refine ⟨y, T1, rfl, ?_, fun _ => h0 rfl, fun ha => ?_, fun ha => ?_, fun ha => ?_⟩
      · rw [hfl]; exact get_sep _ _ _ _
      · rcases ha with ha | ha <;> cases ha
      · cases ha
      · cases ha
    · intro hnf
      have hf : (search cmp n key).2 = false := by
        cases hx : (search cmp n key).2
        · rfl
        · exact absurd ⟨hx, by decide⟩ hnf
      constructor
      · rw [hfl]
        exact delTarget_lift (fun ha => by cases ha)
          (fun ha => by rcases ha with ha | ha <;> cases ha) (fun ha => by cases ha)
      · intro ⟨d1, _, _⟩
        refine ⟨fun _ y hy => ?_, fun ha => (by cases ha),
          fun ha => by rcases ha with ha | ha | ha <;> cases ha⟩
        rw [hfl] at hy
        simp only [List.mem_append] at hy
        rcases hy with e | e | e
        · exact hoc.ne_of_lt (hbl hno (by decide) y e)
        · exact d1 rfl y e
        · have := hbr hno (by decide) hf y e
          unfold lt at this
          omega
  | POPMAX =>
    obtain ⟨A, c, B, S, T, hb, hA, hS, hBT, hchild, hfl, hcw, hcm, hAw, hBw, hlen⟩ :=
      branch_at hw (le_refl n.items.length)
    have hT : T = [] := by
      have := congrArg List.length hb.items_eq
      simp at this
      exact List.eq_nil_of_length_eq_zero (by omega)
    subst hT
    have hcp := wf_flat_pos hcw (by omega)
    simp only [delete1_locate, hl, Bool.false_eq_true, if_false]
    refine ⟨A, c, B, S, [], hb, hA, hS, hBT, hfl, hcw, hcm, hAw, hBw, hlen, ?_, ?_⟩
    · rintro ⟨_, hne⟩; exact absurd rfl hne
    · intro _
      constructor
      · rw [hfl]
        exact delTarget_lift (fun ha => by cases ha) (fun _ => rfl) (fun ha => by cases ha)
      · intro ⟨_, _, d3⟩
        have := d3 (Or.inl rfl)
        rw [this] at hcp
        simp at hcp
  | POPBACK =>
    obtain ⟨A, c, B, S, T, hb, hA, hS, hBT, hchild, hfl, hcw, hcm, hAw, hBw, hlen⟩ :=
      branch_at hw (le_refl n.items.length)
    have hT : T = [] := by
      have := congrArg List.length hb.items_eq
      simp at this
      exact List.eq_nil_of_length_eq_zero (by omega)
    subst hT
    have hcp := wf_flat_pos hcw (by omega)
    simp only [delete1_locate, hl, Bool.false_eq_true, if_false]
    refine ⟨A, c, B, S, [], hb, hA, hS, hBT, hfl, hcw, hcm, hAw, hBw, hlen, ?_, ?_⟩
    · rintro ⟨hf, _⟩; cases hf
    · intro _
      constructor
      · rw [hfl]
        exact delTarget_lift (fun ha => by cases ha) (fun _ => rfl) (fun ha => by cases ha)
      · intro ⟨_, _, d3⟩
        have := d3 (Or.inr (Or.inr rfl))
        rw [this] at hcp
        simp at hcp
  | POPFRONT =>
    obtain ⟨A, c, B, S, T, hb, hA, hS, hBT, hchild, hfl, hcw, hcm, hAw, hBw, hlen⟩ :=
      branch_at hw (Nat.zero_le n.items.length)
    have hA0 : A = [] := List.eq_nil_of_length_eq_zero hA
    have hS0 : S = [] := List.eq_nil_of_length_eq_zero hS
    subst hA0 hS0
    have hcp := wf_flat_pos hcw (by omega)
    simp only [delete1_locate, hl]
    refine ⟨[], c, B, [], T, hb, hA, hS, hBT, hfl, hcw, hcm, hAw, hBw, hlen, ?_, ?_⟩
    · rintro ⟨hf, _⟩; cases hf
    · intro _
      constructor
      · rw [hfl]
        exact delTarget_lift (fun ha => by cases ha)
          (fun ha => by rcases ha with ha | ha <;> cases ha) (fun _ => rfl)
      · intro ⟨_, _, d3⟩
        have := d3 (Or.inr (Or.inl rfl))
        rw [this] at hcp
        simp at hcp
  | DELAT =>
    obtain ⟨A, c, B, S, T, hb, hA, hS, hBT, hfl, hcw, hcm, hAw, hBw, hlen, hidx, hT1, hT2⟩ :=
      walk_branch_spec hw index
    simp only [delete1_locate, hl, Bool.false_eq_true, if_false]
    refine ⟨A, c, B, S, T, hb, hA, hS, hBT, hfl, hcw, hcm, hAw, hBw, hlen, ?_, ?_⟩
    · rintro ⟨hf, _⟩
      obtain ⟨y, T1, rfl⟩ : ∃ y T1, T = y :: T1 := by
        cases T with
        | nil => rw [hT2 rfl] at hf; cases hf
        | cons a t => exact ⟨a, t, rfl⟩
      have hci := ((hT1 (by simp)).2).1 hf
      refine ⟨y, T1, rfl, ?_, fun ha => (by cases ha),
        fun ha => (by rcases ha with ha | ha <;> cases ha), fun ha => (by cases ha),
        fun _ => by omega⟩
      rw [hfl]; exact get_sep _ _ _ _
    · intro hnf
      have hf : (index_walk cfg n n.len 0 index).2.1 = false := by
        cases hx : (index_walk cfg n n.len 0 index).2.1
        · rfl
        · exact absurd ⟨hx, by decide⟩ hnf
      constructor
      · rw [hfl]
        exact delTarget_lift (fun _ => hidx)
          (fun ha => by rcases ha with ha | ha <;> cases ha) (fun ha => by cases ha)
      · intro ⟨_, d2, _⟩
        have hd := d2 rfl
        refine ⟨fun ha => (by cases ha), fun _ => ?_,
          fun ha => by rcases ha with ha | ha | ha <;> cases ha⟩
        by_cases hT : T = []
        · subst hT
          rw [hfl]
          simp [tailL]
          omega
        · obtain ⟨h1, h2⟩ := hT1 hT
          have : (index_walk cfg n n.len 0 index).2.2 ≠ (flat c).length := by
            intro e
            rw [h2.2 e] at hf
            cases hf
          omega

end delloc2

section delleaf
variable {cfg : Config} {cmp : α → α → Int}

theorem delete1_eq (key : α) (fuel : Nat) (n : Node α) (act : DelAct) (index : Nat) :
    delete1 cfg cmp key (fuel + 1) n act index =
      if n.isleaf then
        if (delete1_locate cfg cmp n act key index).2.1 then
          DelRes.mk Status.DELETED
            (shift_left cfg n (delete1_locate cfg cmp n act key index).1 false)
            n.items[(delete1_locate cfg cmp n act key index).1]?
        else DelRes.mk Status.NOTFOUND n none
      else if (delete1_locate cfg cmp n act key index).2.1 = true ∧ act ≠ DelAct.POPMAX then
        if (delete1 cfg cmp key fuel (n.child (delete1_locate cfg cmp n act key index).1)
            DelAct.POPMAX (delete1_locate cfg cmp n act key index).2.2).ret ≠ Status.DELETED then
          DelRes.mk
            (delete1 cfg cmp key fuel (n.child (delete1_locate cfg cmp n act key index).1)
              DelAct.POPMAX (delete1_locate cfg cmp n act key index).2.2).ret
            (n.setChild (delete1_locate cfg cmp n act key index).1
              (delete1 cfg cmp key fuel (n.child (delete1_locate cfg cmp n act key index).1)
                DelAct.POPMAX (delete1_locate cfg cmp n act key index).2.2).node)
            n.items[(delete1_locate cfg cmp n act key index).1]?
        else
          DelRes.mk Status.DELETED
            (delete1_fix cfg
              ((match (delete1 cfg cmp key fuel
                    (n.child (delete1_locate cfg cmp n act key index).1)
                    DelAct.POPMAX (delete1_locate cfg cmp n act key index).2.2).prev with
                | some m => n.setItems (n.items.set (delete1_locate cfg cmp n act key index).1 m)
                | none => n).setChild (delete1_locate cfg cmp n act key index).1
                  (delete1 cfg cmp key fuel (n.child (delete1_locate cfg cmp n act key index).1)
                    DelAct.POPMAX (delete1_locate cfg cmp n act key index).2.2).node)
              (delete1_locate cfg cmp n act key index).1)
            n.items[(delete1_locate cfg cmp n act key index).1]?
      else
        if (delete1 cfg cmp key fuel (n.child (delete1_locate cfg cmp n act key index).1)
            act (delete1_locate cfg cmp n act key index).2.2).ret ≠ Status.DELETED then
          DelRes.mk
            (delete1 cfg cmp key fuel (n.child (delete1_locate cfg cmp n act key index).1)
              act (delete1_locate cfg cmp n act key index).2.2).ret
            (n.setChild (delete1_locate cfg cmp n act key index).1
              (delete1 cfg cmp key fuel (n.child (delete1_locate cfg cmp n act key index).1)
                act (delete1_locate cfg cmp n act key index).2.2).node)
            (delete1 cfg cmp key fuel (n.child (delete1_locate cfg cmp n act key index).1)
              act (delete1_locate cfg cmp n act key index).2.2).prev
        else
          DelRes.mk Status.DELETED
            (delete1_fix cfg
              (n.setChild (delete1_locate cfg cmp n act key index).1
                (delete1 cfg cmp key fuel (n.child (delete1_locate cfg cmp n act key index).1)
                  act (delete1_locate cfg cmp n act key index).2.2).node)
              (delete1_locate cfg cmp n act key index).1)
            (delete1 cfg cmp key fuel (n.child (delete1_locate cfg cmp n act key index).1)
              act (delete1_locate cfg cmp n act key index).2.2).prev := by
  rw [delete1]

theorem leaf_deleted {act : DelAct} {key : α} {index i : Nat} {n : Node α} {y : α}
    (hw : WF cfg 1 n) (ht : DelTarget cmp act key index (flat n) i y) :
    DelOut cfg cmp act key index 1 n
      (DelRes.mk Status.DELETED (shift_left cfg n i false) n.items[i]?) := by
  have hl := (wf_leaf hw).1
  have hfl := flat_leaf n hl
  have hy : n.items[i]? = some y := by rw [← hfl]; exact ht.1
  have hi : i < n.items.length := by
    by_contra hc
    rw [List.getElem?_eq_none (by omega)] at hy
    cases hy
  obtain ⟨w1, w2, w3⟩ := shift_left_leaf hw hi
  exact Or.inl ⟨rfl, w1, by simp only; omega, i, y, ht, hy, w2⟩

theorem delete1_leaf_spec (ho : OrdOK cfg cmp) {n : Node α} (hw : WF cfg 1 n)
    (hpos : 1 ≤ n.items.length) (hs : Sorted cfg cmp (flat n)) (act : DelAct) (key : α)
    (index : Nat) (hdk : act = DelAct.DELKEY → cfg.noorder = false) (fuel : Nat) :
    DelOut cfg cmp act key index 1 n (delete1 cfg cmp key (fuel + 1) n act index) := by
  have hl := (wf_leaf hw).1
  have hfl := flat_leaf n hl
  have hlast : ∃ y, n.items[n.items.length - 1]? = some y :=
    ⟨_, List.getElem?_eq_getElem (by omega)⟩
  have hfirst : ∃ y, n.items[0]? = some y := ⟨_, List.getElem?_eq_getElem (by omega)⟩
  rw [delete1_eq, if_pos hl]
  cases act with
  | DELKEY =>
    have hno := hdk rfl
    have hoc := ho hno
    have hp : n.items.Pairwise (lt cmp) := by rw [← hfl]; exact hs hno
    obtain ⟨S0, T0, e1, e2, e3, e4, e5⟩ := search_items hoc n key hp
    simp only [delete1_locate]
    cases hf : (search cmp n key).2
    · simp only [Bool.false_eq_true, if_false]
      refine Or.inr ⟨rfl, rfl, rfl, fun _ y hy => ?_, fun ha => (by cases ha),
        fun ha => by rcases ha with ha | ha | ha <;> cases ha⟩
      rw [hfl, e1] at hy
      rcases List.mem_append.1 hy with e | e
      · exact hoc.ne_of_lt (e3 y e)
      · have := e5 hf y e
        unfold lt at this
        omega
    · simp only [if_true]
      obtain ⟨y, T1, hT, h0⟩ := e4 hf
      refine leaf_deleted hw ⟨?_, fun _ => h0, fun ha => ?_, fun ha => (by cases ha),
        fun ha => by cases ha⟩
      · rw [hfl, e1, hT]; exact app_get e2
      · rcases ha with ha | ha <;> cases ha
  | POPMAX =>
    obtain ⟨y, hy⟩ := hlast
    simp only [delete1_locate, hl, if_true]
    exact leaf_deleted hw ⟨by rw [hfl]; exact hy, fun ha => (by cases ha),
      fun _ => by rw [hfl]; show n.items.length - 1 + 1 = _; omega,
      fun ha => (by cases ha), fun ha => by cases ha⟩
  | POPBACK =>
    obtain ⟨y, hy⟩ := hlast
    simp only [delete1_locate, hl, if_true]
    exact leaf_deleted hw ⟨by rw [hfl]; exact hy, fun ha => (by cases ha),
      fun _ => by rw [hfl]; show n.items.length - 1 + 1 = _; omega,
      fun ha => (by cases ha), fun ha => by cases ha⟩
  | POPFRONT =>
    obtain ⟨y, hy⟩ := hfirst
    simp only [delete1_locate, hl, if_true]
    exact leaf_deleted hw ⟨by rw [hfl]; exact hy, fun ha => (by cases ha),
      fun ha => (by rcases ha with ha | ha <;> cases ha), fun _ => rfl, fun ha => by cases ha⟩
  | DELAT =>
    simp only [delete1_locate, hl, if_true]
    by_cases hi : index < n.len
    · rw [if_pos hi]
      simp only [if_true]
      have hi1 : index < n.items.length := hi
      exact leaf_deleted hw ⟨by rw [hfl]; exact List.getElem?_eq_getElem hi1,
        fun ha => (by cases ha), fun ha => (by rcases ha with ha | ha <;> cases ha),
        fun ha => (by cases ha), fun _ => rfl⟩
    · rw [if_neg hi]
      simp only [Bool.false_eq_true, if_false]
      have hi1 : ¬ index < n.items.length := hi
      exact Or.inr ⟨rfl, rfl, rfl, fun ha => (by cases ha), fun _ => by rw [hfl]; omega,
        fun ha => by rcases ha with ha | ha | ha <;> cases ha⟩

end delleaf

section delmain
variable {cfg : Config} {cmp : α → α → Int}

theorem erase_last_snoc {l : List α} {q : Nat} {m : α} (h : l[q]? = some m)
    (hq : q + 1 = l.length) : l = l.eraseIdx q ++ [m] := by
  have := take_get_drop h
  have hd : l.drop (q + 1) = [] := List.drop_of_length_le (by omega)
  rw [hd] at this
  have he : l.eraseIdx q = l.take q := by
    conv_lhs => rw [this]
    rw [app_erase (by simp; omega)]
    simp
  rw [he]
  exact this

theorem delete1_spec (ho : OrdOK cfg cmp) (key : α) :
    ∀ (h fuel : Nat) (n : Node α) (act : DelAct) (index : Nat), WF cfg h n →
      1 ≤ n.items.length → Sorted cfg cmp (flat n) →
      (act = DelAct.DELKEY → cfg.noorder = false) → h ≤ fuel →
      DelOut cfg cmp act key index h n (delete1 cfg cmp key fuel n act index)
  | 0, _, _, _, _, hw, _, _, _, _ => absurd hw (by simp [WF])
  | 1, fuel, n, act, index, hw, hpos, hs, hdk, hf => by
    obtain ⟨f, rfl⟩ : ∃ f, fuel = f + 1 := ⟨fuel - 1, by omega⟩
    exact delete1_leaf_spec ho hw hpos hs act key index hdk f
  | h + 2, fuel, n, act, index, hw, hpos, hs, hdk, hf => by
    obtain ⟨f, rfl⟩ : ∃ f, fuel = f + 1 := ⟨fuel - 1, by omega⟩
    have hmin := min_pos cfg
    have hloc := delete1_locate_branch ho hw hs act key index hdk
    rw [delete1_eq, if_neg (by rw [(wf_branch hw).1]; simp)]
    generalize (delete1_locate cfg cmp n act key index).1 = i at hloc ⊢
    generalize (delete1_locate cfg cmp n act key index).2.1 = found at hloc ⊢
    generalize (delete1_locate cfg cmp n act key index).2.2 = cindex at hloc ⊢
    obtain ⟨A, c, B, S, T, hb, hA, hS, hBT, hfl, hcw, hcm, hAw, hBw, hlen, hsepc, hdesc⟩ := hloc
    have hch : n.child i = c := hb.child hA
    have hsc : Sorted cfg cmp (flat c) := by rw [hfl] at hs; exact sorted_mid hs
    have hnpos : 1 ≤ (S ++ T).length := by rw [← hb.items_eq]; exact hpos
    rw [hch]
    by_cases hsep : found = true ∧ act ≠ DelAct.POPMAX
    · rw [if_pos hsep]
      obtain ⟨y, T1, hT, hty⟩ := hsepc hsep
      subst hT
      have ih := delete1_spec ho key (h + 1) f c DelAct.POPMAX cindex hcw (by omega) hsc
        (fun ha => by cases ha) (by omega)
      generalize delete1 cfg cmp key f c DelAct.POPMAX cindex = r at ih ⊢
      obtain ⟨ret, c1, prev⟩ := r
      rcases ih with ⟨e1, w1, w2, q, m, tq, e2, e3⟩ | ⟨_, _, _, _, _, d3⟩
      · simp only at e1 e2 e3 w1 w2
        subst e1 e2
        rw [if_neg (by simp)]
        dsimp only
        obtain ⟨tq1, _, tq3, _, _⟩ := tq
        have hq := tq3 (Or.inl rfl)
        have hfc : flat c = flat c1 ++ [m] := by
          rw [e3]; exact erase_last_snoc tq1 hq
        have hi : n.items[i]? = some y := by rw [hb.items_eq]; exact app_get hS
        obtain ⟨x1, x2, x3⟩ := @delete1_fix_spec α cfg
          ((n.setItems (n.items.set i m)).setChild i c1) c1 A B S (m :: T1) i h
          (by simp [hb.height_eq]) (by simp [hb.isleaf_eq])
          (by simp [hb.items_eq, app_set hS])
          (by simp [hb.children_eq, app_set hA])
          (fun hk => by
            simp only [setChild_counts, setItems_counts, hb.counts_eq hk, List.map_append,
              List.map_cons, hfc]
            simp)
          hA hS hBT (by simpa using hlen) (by simp; omega) hAw hBw w1 (by omega)
        refine Or.inl ⟨rfl, x1, ?_, (flatP A S).length + (flat c).length, y, hty, hi, ?_⟩
        · simp only
          have hnl := congrArg List.length hb.items_eq
          simp only [List.length_append, List.length_cons] at hnl x3
          omega
        · simp only
          rw [x2, hfl, tailL, tailL, erase_sep, hfc]
          simp
      · have hcp := wf_flat_pos hcw (by omega)
        rw [d3 (Or.inl rfl)] at hcp
        simp at hcp
    · rw [if_neg hsep]
      obtain ⟨hlift, hnone⟩ := hdesc hsep
      have ih := delete1_spec ho key (h + 1) f c act cindex hcw (by omega) hsc hdk (by omega)
      generalize delete1 cfg cmp key f c act cindex = r at ih ⊢
      obtain ⟨ret, c1, prev⟩ := r
      rcases ih with ⟨e1, w1, w2, q, m, tq, e2, e3⟩ | ⟨e1, e2, e3, d3⟩
      · simp only at e1 e2 e3 w1 w2
        subst e1 e2
        rw [if_neg (by simp)]
        dsimp only
        have hq : q < (flat c).length := by
          by_contra hc
          have := tq.1
          rw [List.getElem?_eq_none (by omega)] at this
          cases this
        have hlc : (flat c).length = (flat c1).length + 1 := by
          rw [e3, List.length_eraseIdx]; simp [hq]; omega
        obtain ⟨x1, x2, x3⟩ := @delete1_fix_spec α cfg (n.setChild i c1) c1 A B S T i h
          (by simp [hb.height_eq]) (by simp [hb.isleaf_eq]) (by simp [hb.items_eq])
          (by simp [hb.children_eq, app_set hA])
          (fun hk => by
            simp only [setChild_counts, hb.counts_eq hk, List.map_append, List.map_cons, hlc])
          hA hS hBT hlen hnpos hAw hBw w1 (by omega)
        refine Or.inl ⟨rfl, x1, ?_, (flatP A S).length + q, m, hlift q m tq, rfl, ?_⟩
        · simp only
          have hnl := congrArg List.length hb.items_eq
          simp only [List.length_append] at hnl x3
          omega
        · simp only
          rw [x2, hfl, erase_mid _ _ _ _ hq, e3]
      · simp only at e1 e2 e3
        subst e1 e2 e3
        rw [if_pos (by simp)]
        dsimp only
        rw [setChild_self hb.children_eq hA]
        exact Or.inr ⟨rfl, rfl, rfl, hnone d3⟩

end delmain

section del0
variable {cfg : Config} {cmp : α → α → Int}

theorem delNone_nil (act : DelAct) (key : α) (index : Nat) :
    DelNone cmp act key index ([] : List α) :=
  ⟨fun _ _ hy => absurd hy (List.not_mem_nil _), fun _ => Nat.zero_le _, fun _ => rfl⟩

theorem sorted_erase {l : List α} (hs : Sorted cfg cmp l) (p : Nat) :
    Sorted cfg cmp (l.eraseIdx p) :=
  fun hno => (hs hno).sublist (List.eraseIdx_sublist l p)

/-- From what `delete1` did at the root to what `delete0` returns. -/
theorem tree_of_del {act : DelAct} {key : α} {index : Nat} {r : Node α} {mem : List Bool}
    (hinv : Inv cfg cmp (some r)) {d : DelRes α}
    (hd : DelOut cfg cmp act key index r.height r d) :
    DelTreeOut cfg cmp act key index (some r) mem
      (if d.ret ≠ Status.DELETED then TreeRes.mk d.ret (some d.node) d.prev mem
       else if d.node.len = 0 then
         TreeRes.mk Status.DELETED (if d.node.isleaf then none else d.node.children.head?)
           d.prev mem
       else TreeRes.mk Status.DELETED (some d.node) d.prev mem) := by
  obtain ⟨hw, hpos, hso⟩ := hinv
  have hs : Sorted cfg cmp (flat r) := hso
  obtain ⟨ret, node, prev⟩ := d
  rcases hd with ⟨e1, w1, w2, p, y, tp, e2, e3⟩ | ⟨e1, e2, e3, d3⟩
  · simp only at e1 e2 e3 w1 w2
    subst e1 e2
    dsimp only
    rw [if_neg (by simp)]
    have hs1 : Sorted cfg cmp (flat node) := by rw [e3]; exact sorted_erase hs p
    by_cases h0 : node.len = 0
    · rw [if_pos h0]
      have h01 : node.items.length = 0 := h0
      refine ⟨rfl, Or.inl ⟨rfl, ?_, p, y, tp, rfl, ?_⟩⟩
      · dsimp only
        cases hl : node.isleaf
        · simp only [Bool.false_eq_true, if_false]
          obtain ⟨hh, hhe⟩ : ∃ hh, r.height = hh + 2 := by
            cases hre : r.height with
            | zero => rw [hre] at w1; simp [WF] at w1
            | succ k =>
              cases k with
              | zero =>
                rw [hre] at w1
                rw [(wf_leaf w1).1] at hl
                cases hl
              | succ k => exact ⟨k, rfl⟩
          rw [hhe] at w1
          obtain ⟨_, _, _, hc, _, hch⟩ := wf_branch w1
          cases hcs : node.children with
          | nil => rw [hcs] at hc; simp at hc
          | cons c cs =>
            have hcw := hch c (by rw [hcs]; simp)
            have hmin := min_pos cfg
            have hfc : flat node = flat c := by
              have hcs0 : cs = [] := by
                rw [hcs, h01] at hc
                exact List.eq_nil_of_length_eq_zero (by simpa using hc)
              rw [flat_branch node hl, hcs, hcs0, List.eq_nil_of_length_eq_zero h01]
              simp [flatL]
            refine ⟨by rw [wf_height hcw.2]; exact hcw.2, by omega, ?_⟩
            show Sorted cfg cmp (flat c)
            rw [← hfc]; exact hs1
        · simp
          trivial
      · dsimp only
        cases hl : node.isleaf
        · simp only [Bool.false_eq_true, if_false]
          obtain ⟨hh, hhe⟩ : ∃ hh, r.height = hh + 2 := by
            cases hre : r.height with
            | zero => rw [hre] at w1; simp [WF] at w1
            | succ k =>
              cases k with
              | zero =>
                rw [hre] at w1
                rw [(wf_leaf w1).1] at hl
                cases hl
              | succ k => exact ⟨k, rfl⟩
          rw [hhe] at w1
          obtain ⟨_, _, _, hc, _, hch⟩ := wf_branch w1
          cases hcs : node.children with
          | nil => rw [hcs] at hc; simp at hc
          | cons c cs =>
            have hcs0 : cs = [] := by
              rw [hcs, h01] at hc
              exact List.eq_nil_of_length_eq_zero (by simpa using hc)
            simp only [List.head?_cons, items_of]
            rw [← e3, flat_branch node hl, hcs, hcs0, List.eq_nil_of_length_eq_zero h01]
            simp [flatL]
        · simp only [if_true, items_of]
          rw [← e3, flat_leaf node hl, List.eq_nil_of_length_eq_zero h01]
    · rw [if_neg h0]
      have h01 : node.items.length ≠ 0 := h0
      exact ⟨rfl, Or.inl ⟨rfl, ⟨by rw [wf_height w1]; exact w1, by omega, hs1⟩, p, y, tp, rfl,
        e3⟩⟩
  · simp only at e1 e2 e3
    subst e1 e2 e3
    dsimp only
    rw [if_pos (by simp)]
    exact ⟨rfl, Or.inr ⟨rfl, rfl, rfl, d3⟩⟩

theorem delete0_spec (ho : OrdOK cfg cmp) (act : DelAct) (key : α) (index : Nat)
    (hdk : act = DelAct.DELKEY → cfg.noorder = false)
    (root : Option (Node α)) (mem : List Bool) (hinv : Inv cfg cmp root) :
    DelTreeOut cfg cmp act key index root mem (delete0 cfg cmp root act key index mem) := by
  cases root with
  | none =>
    exact ⟨rfl, Or.inr ⟨rfl, rfl, rfl, delNone_nil act key index⟩⟩
  | some r =>
    have hd : depth r = r.height := wf_depth _ _ hinv.1
    have h1 := delete1_spec ho key r.height (depth r) r act index hinv.1 hinv.2.1 hinv.2.2 hdk
      (by omega)
    have := @tree_of_del α cfg cmp act key index r mem hinv _ h1
    unfold delete0
    dsimp only
    generalize delete1 cfg cmp key (depth r) r act index = d at this ⊢
    obtain ⟨ret, node, prev⟩ := d
    exact this

theorem copy_spare_spec {act : DelAct} {key : α} {index : Nat} {root : Option (Node α)}
    {mem : List Bool} {t : TreeRes α} (ht : DelTreeOut cfg cmp act key index root mem t) :
    DelTreeOut cfg cmp act key index root mem (copy_spare t) := by
  unfold copy_spare
  by_cases h : t.ret = Status.DELETED
  · rw [if_pos h]; exact ht
  · rw [if_neg h]
    obtain ⟨h1, h2 | h2⟩ := ht
    · exact absurd h2.1 h
    · exact ⟨h1, Or.inr ⟨h2.1, h2.2.1, rfl, h2.2.2.2⟩⟩

theorem delete_at_spec (ho : OrdOK cfg cmp) (key : α) (index : Nat)
    (root : Option (Node α)) (mem : List Bool) (hinv : Inv cfg cmp root) :
    DelTreeOut cfg cmp DelAct.DELAT key index root mem
      (delete_at cfg cmp root index key mem) :=
  copy_spare_spec (delete0_spec ho DelAct.DELAT key index (fun h => by cases h) root mem hinv)

end del0

section delfast
variable {cfg : Config} {cmp : α → α → Int}

theorem dec_setChild (n c : Node α) (i j : Nat) :
    (dec_count cfg n i).setChild j c = dec_count cfg (n.setChild j c) i := by
  unfold dec_count; split <;> rfl

theorem dec_child (n : Node α) (i j : Nat) : (dec_count cfg n i).child j = n.child j := by
  unfold dec_count; split <;> rfl

theorem dec_len (n : Node α) (i : Nat) : (dec_count cfg n i).len = n.len := by
  unfold dec_count; split <;> rfl

theorem set_dec_inc (l : List Nat) (i : Nat) (h : 1 ≤ l[i]?.getD 0) :
    l.set i ((l.set i (l[i]?.getD 0 - 1))[i]?.getD 0 + 1) = l := by
  induction l generalizing i with
  | nil => rfl
  | cons a l ih =>
    cases i with
    | zero => simp at h ⊢; omega
    | succ i => simpa using ih i (by simpa using h)

theorem inc_dec (n : Node α) (i : Nat) (h : cfg.counted = true → 1 ≤ n.count i) :
    inc_count cfg (dec_count cfg n i) i = n := by
  unfold dec_count inc_count
  cases hk : cfg.counted
  · rfl
  · simp only [if_true]
    apply node_ext <;> simp [Node.count]
    have := h hk
    unfold Node.count at this
    rw [List.getD_eq_getElem?_getD] at this
    exact set_dec_inc _ _ this

/-- The branch after its child `i` lost one item and the count of that child
was decremented. -/
theorem dec_branchOf {x c1 : Node α} {A B : List (Node α)} {items : List α}
    {i ht : Nat} (h1 : x.height = ht) (h2 : x.isleaf = false) (h3 : x.items = items)
    (h4 : x.children = A ++ c1 :: B)
    (h5 : cfg.counted = true → x.counts =
      A.map (fun c => (flat c).length) ++ ((flat c1).length + 1) ::
        B.map (fun c => (flat c).length))
    (hA : A.length = i) :
    BranchOf cfg (dec_count cfg x i) ht items (A ++ c1 :: B) := by
  unfold dec_count
  cases hk : cfg.counted
  · exact ⟨h1, h2, h3, h4, fun hc => by rw [hk] at hc; cases hc⟩
  · simp only [if_true]
    refine ⟨h1, h2, h3, h4, fun _ => ?_⟩
    have hc : x.count i = (flat c1).length + 1 := by
      unfold Node.count; rw [h5 hk]; exact app_getD (by simpa using hA)
    simp only [setCount_counts, hc, Nat.add_sub_cancel, h5 hk]
    rw [app_set (by simpa using hA)]
    simp

theorem del_fast_wrap {act : DelAct} {key : α} {h i : Nat} {found : Bool} {n : Node α}
    {mem : List Bool}
    (hloc : DelLoc cfg cmp act key 0 h n i found 0)
    (hdesc : ¬ (found = true ∧ act ≠ DelAct.POPMAX)) {res : FastRes α}
    (hres : DelFastOut cfg cmp act key (h + 1) (n.child i) mem res) :
    (∀ ret c old m1, res = FastRes.done ret c old m1 →
      DelFastOut cfg cmp act key (h + 2) n mem
        (FastRes.done ret ((dec_count cfg n i).setChild i c) old m1)) ∧
    (∀ ret c old m1, res = FastRes.brk ret c old m1 →
      DelFastOut cfg cmp act key (h + 2) n mem
        (FastRes.brk ret (inc_count cfg ((dec_count cfg n i).setChild i c) i) old m1)) := by
  obtain ⟨A, c, B, S, T, hb, hA, hS, hBT, hfl, hcw, hcm, hAw, hBw, hlen, _, hd⟩ := hloc
  obtain ⟨hlift, hnone⟩ := hd hdesc
  have hch : n.child i = c := hb.child hA
  have hmin := min_pos cfg
  rw [hch] at hres
  constructor
  · intro ret c1 old m1 e
    subst e
    obtain ⟨e1, e2, w1, w2, _, p, y, tp, e3, e4⟩ := hres
    have hp : p < (flat c).length := by
      by_contra hc
      have := tp.1
      rw [List.getElem?_eq_none (by omega)] at this
      cases this
    have hlc : (flat c).length = (flat c1).length + 1 := by
      rw [e4, List.length_eraseIdx]; simp [hp]; omega
    rw [dec_setChild]
    have hb1 := @dec_branchOf α cfg (n.setChild i c1) c1 A B (S ++ T) i (h + 2)
      (by simp [hb.height_eq]) (by simp [hb.isleaf_eq]) (by simp [hb.items_eq])
      (by simp [hb.children_eq, app_set hA])
      (fun hk => by
        simp only [setChild_counts, hb.counts_eq hk, List.map_append, List.map_cons, hlc]) hA
    have hwf : WF cfg (h + 2) (dec_count cfg (n.setChild i c1) i) := by
      refine hb1.wf hlen (by simp; omega) ?_
      intro z hz
      simp only [List.mem_append, List.mem_cons] at hz
      rcases hz with e | e | e
      · exact hAw z e
      · subst e; exact ⟨w2 hcm, w1⟩
      · exact hBw z e
    have hil : (dec_count cfg (n.setChild i c1) i).items.length = n.items.length := by
      rw [hb1.items_eq, hb.items_eq]
    refine ⟨e1, e2, hwf, fun hm => by rw [hil]; exact hm, fun hm => by rw [hil]; exact hm,
      (flatP A S).length + p, y, hlift p y tp, e3, ?_⟩
    rw [hb1.flat, flatL_app A S _ _ (hA.trans hS.symm), flatL_cons, hfl, erase_mid _ _ _ _ hp,
      e4]
  · intro ret c1 old m1 e
    subst e
    obtain ⟨e1, e2, e3, e4⟩ := hres
    subst e2
    refine ⟨e1, ?_, e3, ?_⟩
    · rw [dec_setChild, setChild_self hb.children_eq hA]
      apply inc_dec
      intro hk
      rw [hb.count hA hk]
      exact wf_flat_pos hcw (by omega)
    · rcases e4 with e | ⟨e, d⟩
      · exact Or.inl e
      · exact Or.inr ⟨e, hnone d⟩

end delfast

section delfast2
variable {cfg : Config} {cmp : α → α → Int}

theorem child_lost {n c c1 : Node α} {A B : List (Node α)} {S T : List α} {i ht p : Nat}
    (hb : BranchOf cfg n ht (S ++ T) (A ++ c :: B)) (hA : A.length = i) (hS : S.length = i)
    (hfl : flat n = flatP A S ++ (flat c ++ tailL B T)) (hp : p < (flat c).length)
    (he : flat c1 = (flat c).eraseIdx p) :
    BranchOf cfg ((dec_count cfg n i).setChild i c1) ht (S ++ T) (A ++ c1 :: B) ∧
      flat ((dec_count cfg n i).setChild i c1) = (flat n).eraseIdx ((flatP A S).length + p) := by
  have hlc : (flat c).length = (flat c1).length + 1 := by
    rw [he, List.length_eraseIdx]; simp [hp]; omega
  rw [dec_setChild]
  have hb1 := @dec_branchOf α cfg (n.setChild i c1) c1 A B (S ++ T) i ht
    (by simp [hb.height_eq]) (by simp [hb.isleaf_eq]) (by simp [hb.items_eq])
    (by simp [hb.children_eq, app_set hA])
    (fun hk => by
      simp only [setChild_counts, hb.counts_eq hk, List.map_append, List.map_cons, hlc]) hA
  refine ⟨hb1, ?_⟩
  rw [hb1.flat, flatL_app A S _ _ (hA.trans hS.symm), flatL_cons, hfl, erase_mid _ _ _ _ hp, he]

theorem getLast_snoc {l : List α} (h : 1 ≤ l.length) :
    ∃ x, l.getLast? = some x ∧ l = l.take (l.length - 1) ++ [x] := by
  rcases List.eq_nil_or_concat l with e | ⟨L, b, e⟩
  · subst e; simp at h
  · subst e
    refine ⟨b, by simp, ?_⟩
    simp

theorem head_cons {l : List α} (h : 1 ≤ l.length) :
    ∃ x, l.head? = some x ∧ l = x :: l.drop 1 := by
  cases l with
  | nil => simp at h
  | cons a l => exact ⟨a, rfl, rfl⟩

theorem delete_fast_branch_spec {h i : Nat} {n : Node α} {key : α}
    (hloc : DelLoc cfg cmp DelAct.DELKEY key 0 h n i true 0) (mem : List Bool) :
    DelFastOut cfg cmp DelAct.DELKEY key (h + 2) n mem (delete_fast_branch cfg n i mem) := by
  obtain ⟨A, c, B, S, T, hb, hA, hS, hBT, hfl, hcw, hcm, hAw, hBw, hlen, hf, _⟩ := hloc
  obtain ⟨y, T1, hT, tgt⟩ := hf ⟨rfl, by decide⟩
  subst hT
  have hmin := min_pos cfg
  have hmax := max_eq cfg
  have hAS : A.length = S.length := hA.trans hS.symm
  obtain ⟨r, B1, rfl⟩ : ∃ r B1, B = r :: B1 := by
    cases B with
    | nil => simp at hBT
    | cons r B1 => exact ⟨r, B1, rfl⟩
  have hBT1 : B1.length = T1.length := by simpa using hBT
  have hrw := hBw r (by simp)
  have hBw1 : ∀ x ∈ B1, MINITEMS cfg ≤ x.items.length ∧ WF cfg (h + 1) x :=
    fun x hx => hBw x (by simp [hx])
  have hy : n.items[i]? = some y := by rw [hb.items_eq]; exact app_get hS
  have hfn := hb.flat2 hAS
  have herase : (flat n).eraseIdx ((flatP A S).length + (flat c).length) =
      flatP A S ++ ((flat c ++ flat r) ++ tailL B1 T1) := by
    rw [hfn]
    have := erase_sep (flatP A S) (flat c) (flat r ++ tailL B1 T1) y
    simpa [List.append_assoc] using this
  unfold delete_fast_branch
  rw [hb.height_eq]
  cases h with
  | succ h =>
    rw [if_neg (by omega)]
    exact ⟨rfl, rfl, rfl, Or.inl rfl⟩
  | zero =>
    rw [if_pos rfl, hb.child hA, hb.child1 hA]
    have hcl := (wf_leaf hcw).1
    have hrl := (wf_leaf hrw.2).1
    by_cases hc : c.len > MINITEMS cfg
    · rw [if_pos hc]
      have hc1 : c.items.length > MINITEMS cfg := hc
      obtain ⟨last, e1, e2⟩ := getLast_snoc (show 1 ≤ c.items.length by omega)
      simp only [e1]
      have hw1 : WF cfg 1 (c.setItems (c.items.take (c.len - 1))) :=
        wf_setItems_leaf hcw (by
          have := wf_len_le hcw
          simp only [List.length_take]
          exact Nat.le_trans (Nat.min_le_right _ _) this)
      have hfc : flat c = flat (c.setItems (c.items.take (c.len - 1))) ++ [last] := by
        rw [flat_leaf _ (wf_leaf hw1).1, flat_leaf _ hcl]
        exact e2
      have hl1 : (c.setItems (c.items.take (c.len - 1))).items.length + 1 = c.items.length := by
        have := congrArg List.length e2
        simp only [List.length_append, List.length_singleton] at this
        simp only [setItems_items]
        exact this.symm
      have hb1 := @dec_branchOf α cfg
        ((n.setItems (n.items.set i last)).setChild i (c.setItems (c.items.take (c.len - 1))))
        (c.setItems (c.items.take (c.len - 1))) A (r :: B1) (S ++ last :: T1) i 2
        (by simp [hb.height_eq]) (by simp [hb.isleaf_eq])
        (by simp [hb.items_eq, app_set hS])
        (by simp [hb.children_eq, app_set hA])
        (fun hk => by
          simp only [setChild_counts, setItems_counts, hb.counts_eq hk, List.map_append,
            List.map_cons]
          rw [hfc]; simp) hA
      refine ⟨rfl, rfl, ?_, ?_, ?_, _, y, tgt, hy, ?_⟩
      · refine hb1.wf (by simpa using hlen) (by simp; omega) ?_
        intro z hz
        simp only [List.mem_append, List.mem_cons] at hz
        rcases hz with e | e | e | e
        · exact hAw z e
        · subst e; exact ⟨by omega, hw1⟩
        · subst e; exact hrw
        · exact hBw1 z e
      · intro hm; rw [hb1.items_eq]; rw [hb.items_eq] at hm; simpa using hm
      · intro hm; rw [hb1.items_eq]; simp; omega
      · rw [herase, hb1.flat2 hAS, hfc]
        simp [List.append_assoc]
    rw [if_neg hc]
    by_cases hr : r.len > MINITEMS cfg
    · rw [if_pos hr]
      have hr1 : r.items.length > MINITEMS cfg := hr
      obtain ⟨first, e1, e2⟩ := head_cons (show 1 ≤ r.items.length by omega)
      simp only [e1]
      have hw1 : WF cfg 1 (r.setItems (r.items.drop 1)) :=
        wf_setItems_leaf hrw.2 (by
          have := wf_len_le hrw.2
          simp only [List.length_drop]
          omega)
      have hfc : flat r = first :: flat (r.setItems (r.items.drop 1)) := by
        rw [flat_leaf _ (wf_leaf hw1).1, flat_leaf _ hrl]
        exact e2
      have hl1 : (r.setItems (r.items.drop 1)).items.length + 1 = r.items.length := by
        have := congrArg List.length e2
        simp only [List.length_cons] at this
        simp only [setItems_items]
        exact this.symm
      have hb1 := @dec_branchOf α cfg
        ((n.setItems (n.items.set i first)).setChild (i + 1) (r.setItems (r.items.drop 1)))
        (r.setItems (r.items.drop 1)) (A ++ [c]) B1 (S ++ first :: T1) (i + 1) 2
        (by simp [hb.height_eq]) (by simp [hb.isleaf_eq])
        (by simp [hb.items_eq, app_set hS])
        (by simp [hb.children_eq, app_set1 hA])
        (fun hk => by
          simp only [setChild_counts, setItems_counts, hb.counts_eq hk, List.map_append,
            List.map_cons]
          rw [hfc]; simp) (by simp [hA])
      have hb2 : BranchOf cfg
          (dec_count cfg ((n.setItems (n.items.set i first)).setChild (i + 1)
            (r.setItems (r.items.drop 1))) (i + 1)) 2 (S ++ first :: T1)
          (A ++ c :: r.setItems (r.items.drop 1) :: B1) := by
        have := hb1
        simpa [List.append_assoc] using this
      refine ⟨rfl, rfl, ?_, ?_, ?_, _, y, tgt, hy, ?_⟩
      · refine hb2.wf (by simpa using hlen) (by simp; omega) ?_
        intro z hz
        simp only [List.mem_append, List.mem_cons] at hz
        rcases hz with e | e | e | e
        · exact hAw z e
        · subst e; exact ⟨hcm, hcw⟩
        · subst e; exact ⟨by omega, hw1⟩
        · exact hBw1 z e
      · intro hm; rw [hb2.items_eq]; rw [hb.items_eq] at hm; simpa using hm
      · intro hm; rw [hb2.items_eq]; simp; omega
      · rw [herase, hb2.flat2 hAS, hfc]
    rw [if_neg hr]
    exact ⟨rfl, rfl, rfl, Or.inl rfl⟩

end delfast2

section delfast3
variable {cfg : Config} {cmp : α → α → Int}

theorem snoc_of_length {β : Type} {A : List β} {j : Nat} (h : A.length = j + 1) :
    ∃ A1 l, A = A1 ++ [l] ∧ A1.length = j := by
  rcases List.eq_nil_or_concat A with e | ⟨L, b, e⟩
  · subst e; simp at h
  · subst e
    exact ⟨L, b, by simp, by simpa using h⟩

theorem delete_fast_minleaf_spec {n : Node α} {key : α} {i li : Nat} {y : α}
    (hpos : 1 ≤ n.items.length)
    (hloc : DelLoc cfg cmp DelAct.DELKEY key 0 0 n i false 0)
    (hcmin : (n.child i).items.length = MINITEMS cfg)
    (tgt : DelTarget cmp DelAct.DELKEY key 0 (flat (n.child i)) li y) (mem : List Bool) :
    DelFastOut cfg cmp DelAct.DELKEY key 2 n mem
      (delete_fast_minleaf cfg (dec_count cfg n i) i li mem) := by
  obtain ⟨A, c, B, S, T, hb, hA, hS, hBT, hfl, hcw, hcm, hAw, hBw, hlen, _, hd⟩ := hloc
  obtain ⟨hlift, _⟩ := hd (by simp)
  have hch : n.child i = c := hb.child hA
  rw [hch] at hcmin tgt
  have hmin := min_pos cfg
  have hmax := max_eq cfg
  have hcl := (wf_leaf hcw).1
  have hfc := flat_leaf c hcl
  have hy : c.items[li]? = some y := by rw [← hfc]; exact tgt.1
  have hli : li < c.items.length := by
    by_contra hc
    rw [List.getElem?_eq_none (by omega)] at hy
    cases hy
  obtain ⟨w1, w2, w3⟩ := @shift_left_leaf α cfg c hcw li hli
  obtain ⟨hbX, hfX⟩ := @child_lost α cfg n c (shift_left cfg c li false) A B S T i 2 li hb hA hS
    hfl (by rw [hfc]; exact hli) w2
  have tgt1 := hlift li y tgt
  have hXl : ((dec_count cfg n i).setChild i (shift_left cfg c li false)).items.length =
      n.items.length := by rw [hbX.items_eq, hb.items_eq]
  unfold delete_fast_minleaf
  simp only [dec_child, dec_len, hch]
  by_cases h1 : 0 < i ∧ (n.child (i - 1)).len > MINITEMS cfg
  · rw [if_pos h1]
    obtain ⟨j, rfl⟩ : ∃ j, i = j + 1 := ⟨i - 1, by omega⟩
    obtain ⟨A1, l, rfl, hA1⟩ := snoc_of_length hA
    obtain ⟨S1, sep, rfl, hS1⟩ := snoc_of_length hS
    have hb2 : BranchOf cfg n 2 (S1 ++ sep :: T) (A1 ++ l :: c :: B) := by
      simpa [List.append_assoc] using hb
    have hbX2 : BranchOf cfg ((dec_count cfg n (j + 1)).setChild (j + 1)
        (shift_left cfg c li false)) 2 (S1 ++ sep :: T)
        (A1 ++ l :: shift_left cfg c li false :: B) := by
      simpa [List.append_assoc] using hbX
    have hl := hAw l (by simp)
    have hAw1 : ∀ x ∈ A1, MINITEMS cfg ≤ x.items.length ∧ WF cfg 1 x :=
      fun x hx => hAw x (by simp [hx])
    have hll := wf_len_le hl.2
    simp only [Nat.add_sub_cancel] at h1 ⊢
    rw [hb2.child hA1] at h1
    have hl1 : l.items.length > MINITEMS cfg := h1.2
    obtain ⟨k, hk⟩ : ∃ k, give_n true l.len (shift_left cfg c li false).len = k + 1 :=
      ⟨(l.items.length - (shift_left cfg c li false).items.length) / 2 - 1, by
        show (l.items.length - (shift_left cfg c li false).items.length) / 2 = _
        omega⟩
    have hkv : k + 1 = (l.items.length - (shift_left cfg c li false).items.length) / 2 :=
      hk.symm
    obtain ⟨lf1, c1, newsep, hb1, hw1, hw2, hf, hl1, hl2⟩ :=
      give_right_leaf hbX2 hA1 hS1 hl.2 w1 true hk (by omega) (by omega)
    obtain ⟨z1, z2, z3⟩ := pair_update hbX2 hb1 (hA1.trans hS1.symm) hBT
      (by simpa [List.append_assoc] using hlen) hAw1 hBw hw1 hw2 (by omega) (by omega) hf
    exact ⟨rfl, rfl, z1, fun hm => by omega, fun hm => by omega, _, y, tgt1, hy,
      by rw [z2, hfX]⟩
  rw [if_neg h1]
  by_cases h2 : i = 0 ∧ (n.child (i + 1)).len > MINITEMS cfg
  · rw [if_pos h2]
    obtain ⟨rfl, h2⟩ := h2
    have hA0 : A = [] := List.eq_nil_of_length_eq_zero hA
    have hS0 : S = [] := List.eq_nil_of_length_eq_zero hS
    subst hA0 hS0
    obtain ⟨sep, T1, rfl⟩ : ∃ sep T1, T = sep :: T1 := by
      cases T with
      | nil => rw [hb.items_eq] at hpos; simp at hpos
      | cons s T1 => exact ⟨s, T1, rfl⟩
    obtain ⟨r, B1, rfl⟩ : ∃ r B1, B = r :: B1 := by
      cases B with
      | nil => simp at hBT
      | cons r B1 => exact ⟨r, B1, rfl⟩
    have hr := hBw r (by simp)
    have hBw1 : ∀ x ∈ B1, MINITEMS cfg ≤ x.items.length ∧ WF cfg 1 x :=
      fun x hx => hBw x (by simp [hx])
    have hrl := wf_len_le hr.2
    rw [hb.child1 hA] at h2
    have hr1 : r.items.length > MINITEMS cfg := h2
    obtain ⟨k, hk⟩ : ∃ k, give_n true r.len (shift_left cfg c li false).len = k + 1 :=
      ⟨(r.items.length - (shift_left cfg c li false).items.length) / 2 - 1, by
        show (r.items.length - (shift_left cfg c li false).items.length) / 2 = _
        omega⟩
    have hkv : k + 1 = (r.items.length - (shift_left cfg c li false).items.length) / 2 :=
      hk.symm
    obtain ⟨lf1, c1, newsep, hb1, hw1, hw2, hf, hl1, hl2⟩ :=
      give_left_leaf hbX hA hS w1 hr.2 true hk (by omega) (by omega)
    obtain ⟨z1, z2, z3⟩ := pair_update hbX hb1 (hA.trans hS.symm) (by simpa using hBT)
      hlen hAw hBw1 hw1 hw2 (by omega) (by omega) hf
    exact ⟨rfl, rfl, z1, fun hm => by omega, fun hm => by omega, _, y, tgt1, hy,
      by rw [z2, hfX]⟩
  rw [if_neg h2]
  by_cases h3 : n.len > MINITEMS cfg
  · rw [if_pos h3]
    have h31 : n.items.length > MINITEMS cfg := h3
    by_cases hi : 0 < i
    · rw [if_pos hi]
      obtain ⟨j, rfl⟩ : ∃ j, i = j + 1 := ⟨i - 1, by omega⟩
      obtain ⟨A1, l, rfl, hA1⟩ := snoc_of_length hA
      obtain ⟨S1, sep, rfl, hS1⟩ := snoc_of_length hS
      have hb2 : BranchOf cfg n 2 (S1 ++ sep :: T) (A1 ++ l :: c :: B) := by
        simpa [List.append_assoc] using hb
      have hbX2 : BranchOf cfg ((dec_count cfg n (j + 1)).setChild (j + 1)
          (shift_left cfg c li false)) 2 (S1 ++ sep :: T)
          (A1 ++ l :: shift_left cfg c li false :: B) := by
        simpa [List.append_assoc] using hbX
      have hl := hAw l (by simp)
      have hAw1 : ∀ x ∈ A1, MINITEMS cfg ≤ x.items.length ∧ WF cfg 1 x :=
        fun x hx => hAw x (by simp [hx])
      simp only [Nat.add_sub_cancel] at h1 ⊢
      rw [hb2.child hA1] at h1
      have hl1 : ¬ l.items.length > MINITEMS cfg := fun hc => h1 ⟨hi, hc⟩
      obtain ⟨m, hb1, hmw, hmf, hml⟩ := merge_children_spec hbX2 hA1 hS1 hBT hl.2 w1 (by omega)
      obtain ⟨z1, z2, z3⟩ := merge_update hbX2 hb1 (hA1.trans hS1.symm) hBT
        (by simpa [List.append_assoc] using hlen) hAw1 hBw hmw (by omega) hmf
      exact ⟨rfl, rfl, z1, fun hm => by omega, fun hm => by omega, _, y, tgt1, hy,
        by rw [z2, hfX]⟩
    · rw [if_neg hi]
      have hi0 : i = 0 := by omega
      subst hi0
      have hA0 : A = [] := List.eq_nil_of_length_eq_zero hA
      have hS0 : S = [] := List.eq_nil_of_length_eq_zero hS
      subst hA0 hS0
      obtain ⟨sep, T1, rfl⟩ : ∃ sep T1, T = sep :: T1 := by
        cases T with
        | nil => rw [hb.items_eq] at hpos; simp at hpos
        | cons s T1 => exact ⟨s, T1, rfl⟩
      obtain ⟨r, B1, rfl⟩ : ∃ r B1, B = r :: B1 := by
        cases B with
        | nil => simp at hBT
        | cons r B1 => exact ⟨r, B1, rfl⟩
      have hr := hBw r (by simp)
      have hBw1 : ∀ x ∈ B1, MINITEMS cfg ≤ x.items.length ∧ WF cfg 1 x :=
        fun x hx => hBw x (by simp [hx])
      have hr1 : ¬ r.items.length > MINITEMS cfg := by
        intro hc
        apply h2
        refine ⟨rfl, ?_⟩
        rw [hb.child1 hA]
        exact hc
      obtain ⟨m, hb1, hmw, hmf, hml⟩ := merge_children_spec hbX hA hS (by simpa using hBT)
        w1 hr.2 (by omega)
      obtain ⟨z1, z2, z3⟩ := merge_update hbX hb1 (hA.trans hS.symm) (by simpa using hBT)
        hlen hAw hBw1 hmw (by omega) hmf
      exact ⟨rfl, rfl, z1, fun hm => by omega, fun hm => by omega, _, y, tgt1, hy,
        by rw [z2, hfX]⟩
  rw [if_neg h3]
  refine ⟨rfl, ?_, rfl, Or.inl rfl⟩
  apply inc_dec
  intro hk
  rw [hb.count hA hk]
  exact wf_flat_pos hcw (by omega)

end delfast3

section delfast4
variable {cfg : Config} {cmp : α → α → Int}

theorem delete_fast_leaf_spec (ho : OrdOK cfg cmp) (hno : cfg.noorder = false) (key : α)
    {n : Node α} (hw : WF cfg 1 n) (hm : MINITEMS cfg ≤ n.items.length)
    (hs : Sorted cfg cmp (flat n)) (fuel : Nat) (mem : List Bool) :
    DelFastOut cfg cmp DelAct.DELKEY key 1 n mem
      (delete_fast_loop cfg cmp key (fuel + 1) n mem) := by
  have hl := (wf_leaf hw).1
  have hfl := flat_leaf n hl
  have hoc := ho hno
  have hp : n.items.Pairwise (lt cmp) := by rw [← hfl]; exact hs hno
  obtain ⟨S0, T0, e1, e2, e3, e4, e5⟩ := search_items hoc n key hp
  rw [delete_fast_loop, if_pos hl]
  cases hf : (search cmp n key).2
  · rw [if_pos rfl]
    refine ⟨rfl, rfl, rfl, Or.inr ⟨rfl, fun _ y hy => ?_, fun ha => (by cases ha),
      fun ha => by rcases ha with ha | ha | ha <;> cases ha⟩⟩
    rw [hfl, e1] at hy
    rcases List.mem_append.1 hy with e | e
    · exact hoc.ne_of_lt (e3 y e)
    · have := e5 hf y e
      unfold lt at this
      omega
  · rw [if_neg (by simp)]
    by_cases hlen : n.len = MINITEMS cfg
    · rw [if_pos hlen]
      exact ⟨hl, Nat.le_of_eq hlen, fun _ => hf⟩
    · rw [if_neg hlen]
      have hlen1 : n.items.length ≠ MINITEMS cfg := hlen
      obtain ⟨y, T1, hT, h0⟩ := e4 hf
      have hy : n.items[(search cmp n key).1]? = some y := by
        rw [e1, hT]; exact app_get e2
      have hi : (search cmp n key).1 < n.items.length := by
        by_contra hc
        rw [List.getElem?_eq_none (by omega)] at hy
        cases hy
      obtain ⟨w1, w2, w3⟩ := @shift_left_leaf α cfg n hw _ hi
      refine ⟨rfl, rfl, w1, fun _ => by omega, fun _ => by have := min_pos cfg; omega,
        _, y, ⟨by rw [hfl]; exact hy, fun _ => h0, fun ha => ?_, fun ha => (by cases ha),
        fun ha => by cases ha⟩, hy, w2⟩
      rcases ha with ha | ha <;> cases ha

theorem delete_fast_loop_spec (ho : OrdOK cfg cmp) (hno : cfg.noorder = false) (key : α) :
    ∀ (h fuel : Nat) (n : Node α) (mem : List Bool), WF cfg h n →
      1 ≤ n.items.length → (h = 1 → MINITEMS cfg ≤ n.items.length) →
      Sorted cfg cmp (flat n) → h ≤ fuel →
      DelFastOut cfg cmp DelAct.DELKEY key h n mem (delete_fast_loop cfg cmp key fuel n mem)
  | 0, _, _, _, hw, _, _, _, _ => absurd hw (by simp [WF])
  | 1, fuel, n, mem, hw, _, hm, hs, hf => by
    obtain ⟨f, rfl⟩ : ∃ f, fuel = f + 1 := ⟨fuel - 1, by omega⟩
    exact delete_fast_leaf_spec ho hno key hw (hm rfl) hs f mem
  | h + 2, fuel, n, mem, hw, hpos, _, hs, hf => by
    obtain ⟨f, rfl⟩ : ∃ f, fuel = f + 1 := ⟨fuel - 1, by omega⟩
    have hmin := min_pos cfg
    have hoc := ho hno
    have hloc := delete1_locate_branch ho hw hs DelAct.DELKEY key 0 (fun _ => hno)
    simp only [delete1_locate] at hloc
    rw [delete_fast_loop, if_neg (by rw [(wf_branch hw).1]; simp)]
    cases hfd : (search cmp n key).2
    · rw [if_neg (by simp)]
      rw [hfd] at hloc
      have hloc2 := hloc
      obtain ⟨A, c, B, S, T, hb, hA, hS, hBT, hfl, hcw, hcm, hAw, hBw, hlen, _, _⟩ := hloc2
      have hch : n.child (search cmp n key).1 = c := hb.child hA
      have hsc : Sorted cfg cmp (flat c) := by rw [hfl] at hs; exact sorted_mid hs
      have ih := delete_fast_loop_spec ho hno key (h + 1) f c mem hcw (by omega)
        (fun _ => hcm) hsc (by omega)
      rw [dec_child, hch]
      have hwrap := @del_fast_wrap α cfg cmp DelAct.DELKEY key h (search cmp n key).1 false n
        mem hloc (by simp) (delete_fast_loop cfg cmp key f c mem) (by rw [hch]; exact ih)
      cases hres : delete_fast_loop cfg cmp key f c mem with
      | done ret c1 old m1 => exact hwrap.1 ret c1 old m1 hres
      | brk ret c1 old m1 => exact hwrap.2 ret c1 old m1 hres
      | full =>
        rw [hres] at ih
        obtain ⟨x1, x2, x3⟩ := ih
        have h0 : h = 0 := by
          cases h with
          | zero => rfl
          | succ k => rw [(wf_branch hcw).1] at x1; cases x1
        subst h0
        have hfc := flat_leaf c x1
        have hp : c.items.Pairwise (lt cmp) := by rw [← hfc]; exact hsc hno
        obtain ⟨S0, T0, e1, e2, e3, e4, e5⟩ := search_items hoc c key hp
        obtain ⟨y, T1, hT, h0⟩ := e4 (x3 rfl)
        have hy : c.items[(search cmp c key).1]? = some y := by
          rw [e1, hT]; exact app_get e2
        exact delete_fast_minleaf_spec hpos hloc (by rw [hch]; omega)
          (by
            rw [hch, hfc]
            exact ⟨hy, fun _ => h0, fun ha => (by rcases ha with ha | ha <;> cases ha),
              fun ha => (by cases ha), fun ha => by cases ha⟩) mem
    · rw [if_pos rfl]
      rw [hfd] at hloc
      exact delete_fast_branch_spec hloc mem

end delfast4

section delmain
variable {cfg : Config} {cmp : α → α → Int}

theorem del_tree_of_fast (ho : OrdOK cfg cmp) {act : DelAct} {key : α}
    (hdk : act = DelAct.DELKEY → cfg.noorder = false) {r : Node α} {mem : List Bool}
    (hinv : Inv cfg cmp (some r)) {res : FastRes α}
    (hres : DelFastOut cfg cmp act key r.height r mem res) :
    DelTreeOut cfg cmp act key 0 (some r) mem
      (if (fast_result r mem res).ret ≠ Status.NONE then fast_result r mem res
       else copy_spare (delete0 cfg cmp (fast_result r mem res).root act key 0
        (fast_result r mem res).mem)) := by
  have hslow := copy_spare_spec (delete0_spec ho act key 0 hdk (some r) mem hinv)
  obtain ⟨hw, hpos, hso⟩ := hinv
  have hs : Sorted cfg cmp (flat r) := hso
  cases res with
  | done ret n1 old mem1 =>
    obtain ⟨e1, e2, w1, _, w3, p, y, tp, e3, e4⟩ := hres
    subst e1 e2 e3
    simp only [fast_result]
    rw [if_pos (by decide)]
    refine ⟨rfl, Or.inl ⟨rfl, ⟨by rw [wf_height w1]; exact w1, w3 hpos, ?_⟩, p, y, tp, rfl, e4⟩⟩
    show Sorted cfg cmp (flat n1)
    rw [e4]; exact sorted_erase hs p
  | brk ret n1 old mem1 =>
    obtain ⟨e1, e2, e3, e4⟩ := hres
    subst e1 e2 e3
    simp only [fast_result]
    rcases e4 with e | ⟨e, d⟩
    · subst e
      rw [if_neg (by simp)]
      exact hslow
    · subst e
      rw [if_pos (by decide)]
      exact ⟨rfl, Or.inr ⟨rfl, rfl, rfl, d⟩⟩
  | full =>
    simp only [fast_result]
    rw [if_neg (by simp)]
    exact hslow

theorem delete_spec (ho : OrdOK cfg cmp) (hno : cfg.noorder = false) (key : α)
    (root : Option (Node α)) (mem : List Bool) (hinv : Inv cfg cmp root) :
    DelTreeOut cfg cmp DelAct.DELKEY key 0 root mem (delete cfg cmp root key mem) := by
  unfold delete
  rw [hno]
  simp only [Bool.false_eq_true, if_false]
  cases root with
  | none =>
    simp only [delete_fastpath]
    rw [if_neg (by simp)]
    exact copy_spare_spec (delete0_spec ho DelAct.DELKEY key 0 (fun _ => hno) none mem hinv)
  | some r =>
    have hw := hinv.1
    have hs : Sorted cfg cmp (flat r) := hinv.2.2
    have hd : depth r = r.height := wf_depth _ _ hw
    cases hl : r.isleaf
    · have hh : r.height = 1 → MINITEMS cfg ≤ r.items.length := by
        intro h1
        rw [h1] at hw
        rw [(wf_leaf hw).1] at hl
        cases hl
      have hf := delete_fast_loop_spec ho hno key r.height (depth r) r mem hw hinv.2.1 hh hs
        (by omega)
      have := del_tree_of_fast ho (fun _ => hno) hinv hf
      simp only [delete_fastpath, hl, Bool.false_eq_true, if_false]
      exact this
    · simp only [delete_fastpath, hl, if_true]
      rw [if_neg (by simp)]
      exact copy_spare_spec (delete0_spec ho DelAct.DELKEY key 0 (fun _ => hno) (some r) mem
        hinv)

theorem delete_noorder (hno : cfg.noorder = true) (key : α) (root : Option (Node α))
    (mem : List Bool) :
    delete cfg cmp root key mem = TreeRes.mk Status.UNSUPPORTED root none mem := by
  unfold delete
  rw [if_pos hno]

end delmain

section popfast
variable {cfg : Config} {cmp : α → α → Int}

theorem give_left_dec (n : Node α) (j : Nat) (b : Bool) {sep newsep : α}
    (hi : n.items[j]? = some sep)
    (hn : (n.child (j + 1)).items[give_n b (n.child (j + 1)).len (n.child j).len - 1]? =
      some newsep) :
    give_left cfg (dec_count cfg n j) (j + 1) b = give_left cfg n (j + 1) b := by
  unfold dec_count
  cases hk : cfg.counted
  · rfl
  · simp only [if_true]
    unfold give_left
    simp only [setCount_child, setCount_items, hk, if_true, Nat.add_sub_cancel, hi, hn]
    apply node_ext <;> simp

theorem give_right_dec (n : Node α) (j : Nat) (b : Bool) {sep newsep : α}
    (hi : n.items[j]? = some sep)
    (hn : (n.child j).items[(n.child j).len - give_n b (n.child j).len (n.child (j + 1)).len]? =
      some newsep) :
    give_right cfg (dec_count cfg n (j + 1)) j b = give_right cfg n j b := by
  unfold dec_count
  cases hk : cfg.counted
  · rfl
  · simp only [if_true]
    unfold give_right
    simp only [setCount_child, setCount_items, hk, if_true, hi, hn]
    apply node_ext <;> simp
    exact set_absorb1 _ _ _ _ _

/-- A `done` outcome only depends on the item sequence and the item count of
the node it is measured against. -/
theorem DelFastOut.rebase {act : DelAct} {key : α} {h : Nat} {p n : Node α} {mem : List Bool}
    {ret : Status} {n1 : Node α} {old : Option α} {mem1 : List Bool}
    (hd : DelFastOut cfg cmp act key h p mem (FastRes.done ret n1 old mem1))
    (hfl : flat p = flat n) (hlen : p.items.length = n.items.length) :
    DelFastOut cfg cmp act key h n mem (FastRes.done ret n1 old mem1) := by
  obtain ⟨e1, e2, w1, w2, w3, q, y, tq, e3, e4⟩ := hd
  rw [hfl] at tq e4
  rw [hlen] at w2 w3
  exact ⟨e1, e2, w1, w2, w3, q, y, tq, e3, e4⟩

theorem pop_front_leaf_spec {c : Node α} (hw : WF cfg 1 c) (hm : MINITEMS cfg < c.items.length)
    (key : α) (mem : List Bool) :
    DelFastOut cfg cmp DelAct.POPFRONT key 1 c mem (pop_front_leaf c mem) := by
  have hmin := min_pos cfg
  have hl := (wf_leaf hw).1
  have hfl := flat_leaf c hl
  obtain ⟨y, e1, e2⟩ := head_cons (show 1 ≤ c.items.length by omega)
  have hw1 : WF cfg 1 (c.setItems (c.items.drop 1)) :=
    wf_setItems_leaf hw (by have := wf_len_le hw; simp only [List.length_drop]; omega)
  unfold pop_front_leaf
  refine ⟨rfl, rfl, hw1, fun _ => ?_, fun _ => ?_, 0, y, ⟨?_, fun ha => (by cases ha),
    fun ha => (by rcases ha with ha | ha <;> cases ha), fun _ => rfl, fun ha => by cases ha⟩,
    e1, ?_⟩
  · simp only [setItems_items, List.length_drop]; omega
  · simp only [setItems_items, List.length_drop]; omega
  · rw [hfl, e2]; simp
  · rw [flat_leaf _ (wf_leaf hw1).1, hfl]
    simp only [setItems_items]
    conv_rhs => rw [e2]
    rfl

theorem pop_back_leaf_spec {c : Node α} (hw : WF cfg 1 c) (hm : MINITEMS cfg < c.items.length)
    (key : α) (mem : List Bool) :
    DelFastOut cfg cmp DelAct.POPBACK key 1 c mem (pop_back_leaf c mem) := by
  have hmin := min_pos cfg
  have hl := (wf_leaf hw).1
  have hfl := flat_leaf c hl
  obtain ⟨y, e1, e2⟩ := getLast_snoc (show 1 ≤ c.items.length by omega)
  have hw1 : WF cfg 1 (c.setItems (c.items.take (c.len - 1))) :=
    wf_setItems_leaf hw (by
      have := wf_len_le hw
      simp only [List.length_take]
      exact Nat.le_trans (Nat.min_le_right _ _) this)
  have hlen : (c.items.take (c.len - 1)).length + 1 = c.items.length := by
    have := congrArg List.length e2
    simp only [List.length_append, List.length_singleton] at this
    exact this.symm
  have hy : c.items[c.items.length - 1]? = some y := by
    rw [← List.getLast?_eq_getElem?]; exact e1
  unfold pop_back_leaf
  refine ⟨rfl, rfl, hw1, fun _ => ?_, fun _ => ?_, c.items.length - 1, y,
    ⟨by rw [hfl]; exact hy, fun ha => (by cases ha), fun _ => by rw [hfl]; omega,
    fun ha => (by cases ha), fun ha => by cases ha⟩, e1, ?_⟩
  · simp only [setItems_items]; omega
  · simp only [setItems_items]; omega
  · rw [flat_leaf _ (wf_leaf hw1).1, hfl]
    simp only [setItems_items]
    have := erase_last_snoc hy (by omega)
    have h2 : c.items.take (c.len - 1) ++ [y] = c.items.eraseIdx (c.items.length - 1) ++ [y] :=
      e2.symm.trans this
    exact List.append_cancel_right h2

end popfast

section popfront
variable {cfg : Config} {cmp : α → α → Int}

theorem pop_front_loc (ho : OrdOK cfg cmp) {h : Nat} {n : Node α} (hw : WF cfg (h + 2) n)
    (hs : Sorted cfg cmp (flat n)) (key : α) :
    DelLoc cfg cmp DelAct.POPFRONT key 0 h n 0 false 0 := by
  have hloc := delete1_locate_branch ho hw hs DelAct.POPFRONT key 0 (fun ha => by cases ha)
  simp only [delete1_locate, (wf_branch hw).1] at hloc
  exact hloc

theorem pop_front_finish_spec (ho : OrdOK cfg cmp) {p : Node α} (hw : WF cfg 2 p)
    (hs : Sorted cfg cmp (flat p)) (hc : MINITEMS cfg < (p.child 0).items.length)
    (key : α) (mem : List Bool) :
    DelFastOut cfg cmp DelAct.POPFRONT key 2 p mem (pop_front_finish cfg p mem) := by
  have hloc := pop_front_loc ho hw hs key
  have hloc2 := hloc
  obtain ⟨A, c, B, S, T, hb, hA, hS, hBT, hfl, hcw, hcm, hAw, hBw, hlen, _, _⟩ := hloc2
  have hch : p.child 0 = c := hb.child hA
  have hleaf : DelFastOut cfg cmp DelAct.POPFRONT key 1 (p.child 0) mem
      (pop_front_leaf (p.child 0) mem) := by
    rw [hch] at hc ⊢
    exact pop_front_leaf_spec hcw hc key mem
  have := (del_fast_wrap hloc (by simp) hleaf).1 _ _ _ _ rfl
  unfold pop_front_finish
  simp only [dec_child]
  exact this

theorem pop_front_fast_spec (ho : OrdOK cfg cmp) (key : α) :
    ∀ (h fuel : Nat) (n : Node α) (mem : List Bool), WF cfg h n →
      1 ≤ n.items.length → Sorted cfg cmp (flat n) → h ≤ fuel →
      DelFastOut cfg cmp DelAct.POPFRONT key h n mem (pop_front_fast_loop cfg fuel n mem)
  | 0, _, _, _, hw, _, _, _ => absurd hw (by simp [WF])
  | 1, fuel, n, mem, hw, _, hs, hf => by
    obtain ⟨f, rfl⟩ : ∃ f, fuel = f + 1 := ⟨fuel - 1, by omega⟩
    have hl := (wf_leaf hw).1
    rw [pop_front_fast_loop, if_pos hl]
    by_cases hle : n.len ≤ MINITEMS cfg
    · rw [if_pos hle]
      exact ⟨hl, hle, fun ha => by cases ha⟩
    · rw [if_neg hle]
      exact pop_front_leaf_spec hw (Nat.lt_of_not_le hle) key mem
  | h + 2, fuel, n, mem, hw, hpos, hs, hf => by
    obtain ⟨f, rfl⟩ : ∃ f, fuel = f + 1 := ⟨fuel - 1, by omega⟩
    have hmin := min_pos cfg
    have hmax := max_eq cfg
    have hloc := pop_front_loc ho hw hs key
    rw [pop_front_fast_loop, if_neg (by rw [(wf_branch hw).1]; simp)]
    have hloc2 := hloc
    obtain ⟨A, c, B, S, T, hb, hA, hS, hBT, hfl, hcw, hcm, hAw, hBw, hlen, _, _⟩ := hloc2
    have hch : n.child 0 = c := hb.child hA
    have hsc : Sorted cfg cmp (flat c) := by rw [hfl] at hs; exact sorted_mid hs
    have ih := pop_front_fast_spec ho key (h + 1) f c mem hcw (by omega) hsc (by omega)
    rw [dec_child, hch]
    have hwrap := @del_fast_wrap α cfg cmp DelAct.POPFRONT key h 0 false n
      mem hloc (by simp) (pop_front_fast_loop cfg f c mem) (by rw [hch]; exact ih)
    cases hres : pop_front_fast_loop cfg f c mem with
    | done ret c1 old m1 => exact hwrap.1 ret c1 old m1 hres
    | brk ret c1 old m1 => exact hwrap.2 ret c1 old m1 hres
    | full =>
      rw [hres] at ih
      obtain ⟨x1, x2, _⟩ := ih
      have h0 : h = 0 := by
        cases h with
        | zero => rfl
        | succ k => rw [(wf_branch hcw).1] at x1; cases x1
      subst h0
      have hx2 : c.items.length ≤ MINITEMS cfg := x2
      dsimp only
      rw [dec_child]
      by_cases hr : (n.child 1).len > MINITEMS cfg + 1
      · rw [if_pos hr]
        have hA0 : A = [] := List.eq_nil_of_length_eq_zero hA
        have hS0 : S = [] := List.eq_nil_of_length_eq_zero hS
        subst hA0 hS0
        obtain ⟨sep, T1, rfl⟩ : ∃ sep T1, T = sep :: T1 := by
          cases T with
          | nil => rw [hb.items_eq] at hpos; simp at hpos
          | cons s T1 => exact ⟨s, T1, rfl⟩
        obtain ⟨r, B1, rfl⟩ : ∃ r B1, B = r :: B1 := by
          cases B with
          | nil => simp at hBT
          | cons r B1 => exact ⟨r, B1, rfl⟩
        have hrr := hBw r (by simp)
        have hBw1 : ∀ x ∈ B1, MINITEMS cfg ≤ x.items.length ∧ WF cfg 1 x :=
          fun x hx => hBw x (by simp [hx])
        have hrl := wf_len_le hrr.2
        have hc1 : n.child 1 = r := hb.child1 hA
        rw [hc1] at hr
        have hr1 : r.items.length > MINITEMS cfg + 1 := hr
        obtain ⟨k, hk⟩ : ∃ k, give_n true r.len c.len = k + 1 :=
          ⟨(r.items.length - c.items.length) / 2 - 1, by
            show (r.items.length - c.items.length) / 2 = _
            omega⟩
        have hkv : k + 1 = (r.items.length - c.items.length) / 2 := hk.symm
        have hi : n.items[0]? = some sep := by rw [hb.items_eq]; simp
        obtain ⟨newsep, hns⟩ : ∃ x, r.items[k]? = some x :=
          ⟨_, List.getElem?_eq_getElem (show k < r.items.length by omega)⟩
        have e : give_left cfg (dec_count cfg n 0) 1 true = give_left cfg n 1 true :=
          give_left_dec n 0 true hi (by rw [hc1, hch, hk]; exact hns)
        rw [e]
        obtain ⟨lf1, c1, newsep1, hb1, hw1, hw2, hf1, hl1, hl2⟩ :=
          give_left_leaf hb hA hS hcw hrr.2 true hk (by omega) (by omega)
        obtain ⟨z1, z2, z3⟩ := pair_update hb hb1 (hA.trans hS.symm) (by simpa using hBT)
          hlen hAw hBw1 hw1 hw2 (by omega) (by omega) hf1
        have hfin := pop_front_finish_spec ho z1 (by rw [z2]; exact hs)
          (by rw [hb1.child hA]; omega) key mem
        exact DelFastOut.rebase hfin z2 z3
      · rw [if_neg hr]
        refine ⟨rfl, ?_, rfl, Or.inl rfl⟩
        apply inc_dec
        intro hk
        rw [hb.count hA hk]
        exact wf_flat_pos hcw (by omega)

theorem pop_front_spec (ho : OrdOK cfg cmp) (key : α)
    (root : Option (Node α)) (mem : List Bool) (hinv : Inv cfg cmp root) :
    DelTreeOut cfg cmp DelAct.POPFRONT key 0 root mem (pop_front cfg cmp root key mem) := by
  unfold pop_front
  cases root with
  | none =>
    simp only [pop_front_fastpath]
    rw [if_neg (by simp)]
    exact copy_spare_spec (delete0_spec ho DelAct.POPFRONT key 0 (fun ha => by cases ha) none
      mem hinv)
  | some r =>
    have hw := hinv.1
    have hs : Sorted cfg cmp (flat r) := hinv.2.2
    have hd : depth r = r.height := wf_depth _ _ hw
    have hf := pop_front_fast_spec ho key r.height (depth r) r mem hw hinv.2.1 hs (by omega)
    exact del_tree_of_fast ho (fun ha => by cases ha) hinv hf

end popfront

section popback
variable {cfg : Config} {cmp : α → α → Int}

theorem pop_back_loc (ho : OrdOK cfg cmp) {h : Nat} {n : Node α} (hw : WF cfg (h + 2) n)
    (hs : Sorted cfg cmp (flat n)) (key : α) :
    DelLoc cfg cmp DelAct.POPBACK key 0 h n n.len false 0 := by
  have hloc := delete1_locate_branch ho hw hs DelAct.POPBACK key 0 (fun ha => by cases ha)
  simp only [delete1_locate, (wf_branch hw).1, Bool.false_eq_true, if_false] at hloc
  exact hloc

theorem pop_back_finish_spec (ho : OrdOK cfg cmp) {p : Node α} (hw : WF cfg 2 p)
    (hs : Sorted cfg cmp (flat p)) (hc : MINITEMS cfg < (p.child p.len).items.length)
    (key : α) (mem : List Bool) :
    DelFastOut cfg cmp DelAct.POPBACK key 2 p mem (pop_back_finish cfg p mem) := by
  have hloc := pop_back_loc ho hw hs key
  have hloc2 := hloc
  obtain ⟨A, c, B, S, T, hb, hA, hS, hBT, hfl, hcw, hcm, hAw, hBw, hlen, _, _⟩ := hloc2
  have hch : p.child p.len = c := hb.child hA
  have hleaf : DelFastOut cfg cmp DelAct.POPBACK key 1 (p.child p.len) mem
      (pop_back_leaf (p.child p.len) mem) := by
    rw [hch] at hc ⊢
    exact pop_back_leaf_spec hcw hc key mem
  have := (del_fast_wrap hloc (by simp) hleaf).1 _ _ _ _ rfl
  unfold pop_back_finish
  simp only [dec_child]
  exact this

theorem pop_back_fast_spec (ho : OrdOK cfg cmp) (key : α) :
    ∀ (h fuel : Nat) (n : Node α) (mem : List Bool), WF cfg h n →
      1 ≤ n.items.length → Sorted cfg cmp (flat n) → h ≤ fuel →
      DelFastOut cfg cmp DelAct.POPBACK key h n mem (pop_back_fast_loop cfg fuel n mem)
  | 0, _, _, _, hw, _, _, _ => absurd hw (by simp [WF])
  | 1, fuel, n, mem, hw, _, hs, hf => by
    obtain ⟨f, rfl⟩ : ∃ f, fuel = f + 1 := ⟨fuel - 1, by omega⟩
    have hl := (wf_leaf hw).1
    rw [pop_back_fast_loop, if_pos hl]
    by_cases hle : n.len ≤ MINITEMS cfg
    · rw [if_pos hle]
      exact ⟨hl, hle, fun ha => by cases ha⟩
    · rw [if_neg hle]
      exact pop_back_leaf_spec hw (Nat.lt_of_not_le hle) key mem
  | h + 2, fuel, n, mem, hw, hpos, hs, hf => by
    obtain ⟨f, rfl⟩ : ∃ f, fuel = f + 1 := ⟨fuel - 1, by omega⟩
    have hmin := min_pos cfg
    have hmax := max_eq cfg
    have hloc := pop_back_loc ho hw hs key
    rw [pop_back_fast_loop, if_neg (by rw [(wf_branch hw).1]; simp)]
    have hloc2 := hloc
    obtain ⟨A, c, B, S, T, hb, hA, hS, hBT, hfl, hcw, hcm, hAw, hBw, hlen, _, _⟩ := hloc2
    have hch : n.child n.len = c := hb.child hA
    have hsc : Sorted cfg cmp (flat c) := by rw [hfl] at hs; exact sorted_mid hs
    have ih := pop_back_fast_spec ho key (h + 1) f c mem hcw (by omega) hsc (by omega)
    rw [dec_child, hch]
    have hwrap := @del_fast_wrap α cfg cmp DelAct.POPBACK key h n.len false n
      mem hloc (by simp) (pop_back_fast_loop cfg f c mem) (by rw [hch]; exact ih)
    cases hres : pop_back_fast_loop cfg f c mem with
    | done ret c1 old m1 => exact hwrap.1 ret c1 old m1 hres
    | brk ret c1 old m1 => exact hwrap.2 ret c1 old m1 hres
    | full =>
      rw [hres] at ih
      obtain ⟨x1, x2, _⟩ := ih
      have h0 : h = 0 := by
        cases h with
        | zero => rfl
        | succ k => rw [(wf_branch hcw).1] at x1; cases x1
      subst h0
      have hx2 : c.items.length ≤ MINITEMS cfg := x2
      dsimp only
      rw [dec_child]
      have hT : T = [] := by
        have h1 : n.len = (S ++ T).length := by
          show n.items.length = _
          rw [hb.items_eq]
        rw [← hS] at h1
        simp only [List.length_append] at h1
        exact List.eq_nil_of_length_eq_zero (by omega)
      subst hT
      have hB : B = [] := List.eq_nil_of_length_eq_zero (by simpa using hBT)
      subst hB
      obtain ⟨j, hj⟩ : ∃ j, n.len = j + 1 := ⟨n.len - 1, by
        have : 1 ≤ n.len := hpos
        omega⟩
      rw [hj] at hA hS hch ⊢
      simp only [Nat.add_sub_cancel]
      obtain ⟨A1, l, rfl, hA1⟩ := snoc_of_length hA
      obtain ⟨S1, sep, rfl, hS1⟩ := snoc_of_length hS
      have hb2 : BranchOf cfg n 2 (S1 ++ sep :: []) (A1 ++ l :: c :: []) := by
        simpa [List.append_assoc] using hb
      have hll := hAw l (by simp)
      have hAw1 : ∀ x ∈ A1, MINITEMS cfg ≤ x.items.length ∧ WF cfg 1 x :=
        fun x hx => hAw x (by simp [hx])
      have hc1 : n.child j = l := hb2.child hA1
      by_cases hr : (n.child j).len > MINITEMS cfg + 1
      · rw [if_pos hr]
        rw [hc1] at hr
        have hr1 : l.items.length > MINITEMS cfg + 1 := hr
        have hlmax := wf_len_le hll.2
        obtain ⟨k, hk⟩ : ∃ k, give_n true l.len c.len = k + 1 :=
          ⟨(l.items.length - c.items.length) / 2 - 1, by
            show (l.items.length - c.items.length) / 2 = _
            omega⟩
        have hkv : k + 1 = (l.items.length - c.items.length) / 2 := hk.symm
        have hi : n.items[j]? = some sep := by rw [hb2.items_eq]; exact app_get hS1
        obtain ⟨newsep, hns⟩ : ∃ x, l.items[l.items.length - (k + 1)]? = some x :=
          ⟨_, List.getElem?_eq_getElem (show l.items.length - (k + 1) < l.items.length by omega)⟩
        have e : give_right cfg (dec_count cfg n (j + 1)) j true = give_right cfg n j true :=
          give_right_dec n j true hi (by rw [hc1, hch, hk]; exact hns)
        rw [e]
        obtain ⟨lf1, c1, newsep1, hb1, hw1, hw2, hf1, hl1, hl2⟩ :=
          give_right_leaf hb2 hA1 hS1 hll.2 hcw true hk (by omega) (by omega)
        obtain ⟨z1, z2, z3⟩ := pair_update hb2 hb1 (hA1.trans hS1.symm) rfl
          (by simpa [List.append_assoc] using hlen) hAw1 (fun x hx => by cases hx) hw1 hw2
          (by omega) (by omega) hf1
        have hpl : (give_right cfg n j true).len = j + 1 := by
          show (give_right cfg n j true).items.length = _
          rw [z3]; exact hj
        have hfin := pop_back_finish_spec ho z1 (by rw [z2]; exact hs)
          (by rw [hpl, hb1.child1 hA1]; omega) key mem
        exact DelFastOut.rebase hfin z2 z3
      · rw [if_neg hr]
        refine ⟨rfl, ?_, rfl, Or.inl rfl⟩
        apply inc_dec
        intro hk
        rw [hb2.count1 hA1 hk]
        exact wf_flat_pos hcw (by omega)

theorem pop_back_spec (ho : OrdOK cfg cmp) (key : α)
    (root : Option (Node α)) (mem : List Bool) (hinv : Inv cfg cmp root) :
    DelTreeOut cfg cmp DelAct.POPBACK key 0 root mem (pop_back cfg cmp root key mem) := by
  unfold pop_back
  cases root with
  | none =>
    simp only [pop_back_fastpath]
    rw [if_neg (by simp)]
    exact copy_spare_spec (delete0_spec ho DelAct.POPBACK key 0 (fun ha => by cases ha) none
      mem hinv)
  | some r =>
    have hw := hinv.1
    have hs : Sorted cfg cmp (flat r) := hinv.2.2
    have hd : depth r = r.height := wf_depth _ _ hw
    have hf := pop_back_fast_spec ho key r.height (depth r) r mem hw hinv.2.1 hs (by omega)
    exact del_tree_of_fast ho (fun ha => by cases ha) hinv hf

end popback

section delclaims
variable {cfg : Config} {cmp : α → α → Int}

theorem cmp_eq_unique (ho : OrdCmp cmp) {k : α} : ∀ {l : List α}, l.Pairwise (lt cmp) →
    ∀ {y z : α}, y ∈ l → z ∈ l → cmp k y = 0 → cmp k z = 0 → y = z := by
  have key : ∀ a b : α, cmp k a = 0 → cmp k b = 0 → ¬ lt cmp a b := by
    intro a b h1 h2 hlt
    have h3 : cmp b k = 0 := ho.eq_symm h2
    have h4 : cmp b a ≤ 0 := ho.le_trans b k a (by omega) (by omega)
    have h5 := (ho.symm a b).1 hlt
    omega
  intro l hp
  induction hp with
  | nil => intro y z hy; cases hy
  | cons hr _ ih =>
    intro y z hy hz h1 h2
    rcases List.mem_cons.1 hy with e1 | e1 <;> rcases List.mem_cons.1 hz with e2 | e2
    · rw [e1, e2]
    · subst e1; exact absurd (hr z e2) (key _ _ h1 h2)
    · subst e2; exact absurd (hr y e1) (key _ _ h2 h1)
    · exact ih e1 e2 h1 h2

/-- A deletion-type operation leaves the invariants in force. -/
theorem delTreeOut_inv {act : DelAct} {key : α} {index : Nat} {root : Option (Node α)}
    {mem : List Bool} {t : TreeRes α} (hinv : Inv cfg cmp root)
    (ht : DelTreeOut cfg cmp act key index root mem t) : Inv cfg cmp t.root := by
  rcases ht.2 with ⟨_, h, _⟩ | ⟨_, h, _⟩
  · exact h
  · rw [h]; exact hinv

/-- When the target exists the operation deletes it. -/
theorem delTreeOut_deleted {act : DelAct} {key : α} {index : Nat} {root : Option (Node α)}
    {mem : List Bool} {t : TreeRes α} (ht : DelTreeOut cfg cmp act key index root mem t)
    (hex : ¬ DelNone cmp act key index (items_of root)) :
    t.ret = Status.DELETED ∧ Inv cfg cmp t.root ∧
      ∃ p y, DelTarget cmp act key index (items_of root) p y ∧ t.old = some y ∧
        items_of t.root = (items_of root).eraseIdx p := by
  rcases ht.2 with h | ⟨_, _, _, h⟩
  · exact h
  · exact absurd h hex

/-- When no target exists the operation reports `NOTFOUND` and changes nothing. -/
theorem delTreeOut_notfound {act : DelAct} {key : α} {index : Nat} {root : Option (Node α)}
    {mem : List Bool} {t : TreeRes α} (ht : DelTreeOut cfg cmp act key index root mem t)
    (hno : ∀ p y, ¬ DelTarget cmp act key index (items_of root) p y) :
    t.ret = Status.NOTFOUND ∧ t.root = root ∧ t.old = none := by
  rcases ht.2 with ⟨_, _, p, y, h, _⟩ | ⟨h1, h2, h3, _⟩
  · exact absurd h (hno p y)
  · exact ⟨h1, h2, h3⟩

theorem inv_root_pos {root : Option (Node α)} (hinv : Inv cfg cmp root) :
    ∀ r, root = some r → 1 ≤ r.items.length := by
  intro r e
  subst e
  exact hinv.2.1

theorem inv_nonempty {r : Node α} (hinv : Inv cfg cmp (some r)) : items_of (some r) ≠ [] := by
  have := wf_flat_pos hinv.1 hinv.2.1
  intro e
  simp only [items_of] at e
  rw [e] at this
  simp at this

theorem length_erase_add {l : List α} {p : Nat} {y : α} (h : l[p]? = some y) :
    (l.eraseIdx p).length + 1 = l.length := by
  have hp : p < l.length := by
    by_contra hc
    rw [List.getElem?_eq_none (by omega)] at h
    cases h
  rw [List.length_eraseIdx]
  simp [hp]
  omega

end delclaims

/-- C2: on an ordered tree satisfying the invariants, with a consistent
comparator, `delete` of the key `k` returns `DELETED` exactly when some stored
item compares equal to `k`; in that case the old-item output is that stored
item, the scan of the resulting tree is the scan of the old tree with that one
position removed, `count` drops by one and the invariants hold again; when no
stored item compares equal to `k` it returns `NOTFOUND`, writes nothing through
the output and leaves the tree (items, counts, structure) exactly as it was. -/
theorem delete_contract (cfg : Config) (cmp : α → α → Int) (root : Option (Node α))
    (k : α) (mem : List Bool) (ho : OrdCmp cmp) (hord : cfg.noorder = false)
    (hinv : Inv cfg cmp root) :
    ((delete cfg cmp root k mem).ret = Status.DELETED ↔ ∃ y ∈ items_of root, cmp k y = 0) ∧
    (∀ y ∈ items_of root, cmp k y = 0 →
      (delete cfg cmp root k mem).ret = Status.DELETED ∧
      (delete cfg cmp root k mem).old = some y ∧
      (∃ p, (scan root (fun y (acc : List α) => (true, acc ++ [y])) []).2[p]? = some y ∧
        (scan (delete cfg cmp root k mem).root
            (fun y (acc : List α) => (true, acc ++ [y])) []).2 =
          (scan root (fun y (acc : List α) => (true, acc ++ [y])) []).2.eraseIdx p) ∧
      count cfg (delete cfg cmp root k mem).root + 1 = count cfg root ∧
      Inv cfg cmp (delete cfg cmp root k mem).root) ∧
    ((∀ y ∈ items_of root, cmp k y ≠ 0) →
      (delete cfg cmp root k mem).ret = Status.NOTFOUND ∧
      (delete cfg cmp root k mem).old = none ∧
      (delete cfg cmp root k mem).root = root) := by
  have ht := delete_spec (fun _ => ho) hord k root mem hinv
  have hpres : ∀ y ∈ items_of root, cmp k y = 0 →
      (delete cfg cmp root k mem).ret = Status.DELETED ∧
      (delete cfg cmp root k mem).old = some y ∧
      (∃ p, (scan root (fun y (acc : List α) => (true, acc ++ [y])) []).2[p]? = some y ∧
        (scan (delete cfg cmp root k mem).root
            (fun y (acc : List α) => (true, acc ++ [y])) []).2 =
          (scan root (fun y (acc : List α) => (true, acc ++ [y])) []).2.eraseIdx p) ∧
      count cfg (delete cfg cmp root k mem).root + 1 = count cfg root ∧
      Inv cfg cmp (delete cfg cmp root k mem).root := by
    intro y hy h0
    obtain ⟨h1, h2, p, z, tz, h3, h4⟩ := delTreeOut_deleted ht
      (fun d => d.1 rfl y hy h0)
    have hz : z = y := cmp_eq_unique ho (inv_sorted hinv hord)
      (List.mem_iff_getElem?.2 ⟨p, tz.1⟩) hy (tz.2.1 rfl) h0
    subst hz
    refine ⟨h1, h3, ⟨p, ?_, ?_⟩, ?_, h2⟩
    · rw [scan_all]; exact tz.1
    · rw [scan_all, scan_all]; exact h4
    · rw [inv_count h2, inv_count hinv, h4]
      exact length_erase_add tz.1
  have habs : (∀ y ∈ items_of root, cmp k y ≠ 0) →
      (delete cfg cmp root k mem).ret = Status.NOTFOUND ∧
      (delete cfg cmp root k mem).old = none ∧
      (delete cfg cmp root k mem).root = root := by
    intro hno
    obtain ⟨h1, h2, h3⟩ := delTreeOut_notfound ht
      (fun p y t => hno y (List.mem_iff_getElem?.2 ⟨p, t.1⟩) (t.2.1 rfl))
    exact ⟨h1, h3, h2⟩
  refine ⟨⟨fun hd => ?_, fun ⟨y, hy, h0⟩ => (hpres y hy h0).1⟩, hpres, habs⟩
  by_contra hno
  have := (habs (fun y hy h0 => hno ⟨y, hy, h0⟩)).1
  rw [this] at hd
  cases hd

theorem delete_contract_witness :
    OrdCmp icmp ∧ cfgW.noorder = false ∧ Inv cfgW icmp (some treeW) ∧
      (delete cfgW icmp (some treeW) 30 []).old = some 30 ∧
      (delete cfgW icmp (some treeW) 25 []).root = some treeW :=
  ⟨icmp_ord, rfl, treeW_inv,
    ((delete_contract cfgW icmp (some treeW) 30 [] icmp_ord rfl treeW_inv).2.1 30
      (by decide) (by decide)).2.1,
    ((delete_contract cfgW icmp (some treeW) 25 [] icmp_ord rfl treeW_inv).2.2
      (by decide)).2.2⟩

/-- C4: on a tree satisfying the structural invariants (`Inv`: every node at most
`MAXITEMS` items, every non-root node at least `MINITEMS` = floor(M/2), the root
at least one, all leaves at one depth with exact height fields, exact child
counts on counted trees, strictly ascending item sequence on ordered trees) and
with a consistent comparator, the tree left by `delete`, `delete_at`,
`pop_front` and `pop_back` is empty or satisfies the invariants again, passes
`sane`, and its root (when there is one) holds at least one item, whatever the
status returned. -/
theorem deletion_preserves_invariants (cfg : Config) (cmp : α → α → Int)
    (root : Option (Node α)) (key : α) (index : Nat) (mem : List Bool)
    (ho : OrdOK cfg cmp) (hinv : Inv cfg cmp root) :
    (Inv cfg cmp (delete cfg cmp root key mem).root ∧
      sane cfg cmp (delete cfg cmp root key mem).root = true ∧
      ∀ r, (delete cfg cmp root key mem).root = some r → 1 ≤ r.len) ∧
    (Inv cfg cmp (delete_at cfg cmp root index key mem).root ∧
      sane cfg cmp (delete_at cfg cmp root index key mem).root = true ∧
      ∀ r, (delete_at cfg cmp root index key mem).root = some r → 1 ≤ r.len) ∧
    (Inv cfg cmp (pop_front cfg cmp root key mem).root ∧
      sane cfg cmp (pop_front cfg cmp root key mem).root = true ∧
      ∀ r, (pop_front cfg cmp root key mem).root = some r → 1 ≤ r.len) ∧
    (Inv cfg cmp (pop_back cfg cmp root key mem).root ∧
      sane cfg cmp (pop_back cfg cmp root key mem).root = true ∧
      ∀ r, (pop_back cfg cmp root key mem).root = some r → 1 ≤ r.len) := by
  have h1 : Inv cfg cmp (delete cfg cmp root key mem).root := by
    cases hno : cfg.noorder
    · exact delTreeOut_inv hinv (delete_spec ho hno key root mem hinv)
    · rw [delete_noorder hno]
      exact hinv
  have h2 := delTreeOut_inv hinv (delete_at_spec ho key index root mem hinv)
  have h3 := delTreeOut_inv hinv (pop_front_spec ho key root mem hinv)
  have h4 := delTreeOut_inv hinv (pop_back_spec ho key root mem hinv)
  exact ⟨⟨h1, sane_of_inv h1, inv_root_pos h1⟩, ⟨h2, sane_of_inv h2, inv_root_pos h2⟩,
    ⟨h3, sane_of_inv h3, inv_root_pos h3⟩, ⟨h4, sane_of_inv h4, inv_root_pos h4⟩⟩

theorem deletion_preserves_invariants_witness :
    OrdOK cfgW icmp ∧ Inv cfgW icmp (some treeW) ∧
      sane cfgW icmp (delete cfgW icmp (some treeW) 10 []).root = true ∧
      sane cfgW icmp (delete_at cfgW icmp (some treeW) 1 0 []).root = true ∧
      sane cfgW icmp (pop_back cfgW icmp (some treeW) 0 []).root = true :=
  ⟨fun _ => icmp_ord, treeW_inv,
    (deletion_preserves_invariants cfgW icmp (some treeW) 10 0 [] (fun _ => icmp_ord)
      treeW_inv).1.2.1,
    (deletion_preserves_invariants cfgW icmp (some treeW) 0 1 [] (fun _ => icmp_ord)
      treeW_inv).2.1.2.1,
    (deletion_preserves_invariants cfgW icmp (some treeW) 0 0 [] (fun _ => icmp_ord)
      treeW_inv).2.2.2.2.1⟩

/-- C12: on a non-empty tree satisfying the invariants (ordered with a
consistent comparator, or unordered), `pop_front` returns `DELETED`, writes the
first item of the scan and leaves the scan without its first item, and
`pop_back` returns `DELETED`, writes the last item of the scan and leaves the
scan without its last item; on the empty tree both return `NOTFOUND`, write
nothing and leave the tree empty. -/
theorem pop_ends (cfg : Config) (cmp : α → α → Int) (root : Option (Node α)) (key : α)
    (mem : List Bool) (ho : OrdOK cfg cmp) (hinv : Inv cfg cmp root) :
    (root ≠ none →
      (pop_front cfg cmp root key mem).ret = Status.DELETED ∧
      (pop_front cfg cmp root key mem).old =
        (scan root (fun y (acc : List α) => (true, acc ++ [y])) []).2.head? ∧
      (pop_front cfg cmp root key mem).old ≠ none ∧
      (scan (pop_front cfg cmp root key mem).root
          (fun y (acc : List α) => (true, acc ++ [y])) []).2 =
        (scan root (fun y (acc : List α) => (true, acc ++ [y])) []).2.tail ∧
      (pop_back cfg cmp root key mem).ret = Status.DELETED ∧
      (pop_back cfg cmp root key mem).old =
        (scan root (fun y (acc : List α) => (true, acc ++ [y])) []).2.getLast? ∧
      (pop_back cfg cmp root key mem).old ≠ none ∧
      (scan (pop_back cfg cmp root key mem).root
          (fun y (acc : List α) => (true, acc ++ [y])) []).2 =
        (scan root (fun y (acc : List α) => (true, acc ++ [y])) []).2.dropLast) ∧
    pop_front cfg cmp none key mem = TreeRes.mk Status.NOTFOUND none none mem ∧
    pop_back cfg cmp none key mem = TreeRes.mk Status.NOTFOUND none none mem := by
  refine ⟨fun hne => ?_, ?_, ?_⟩
  · obtain ⟨r, rfl⟩ : ∃ r, root = some r := by
      cases root with
      | none => exact absurd rfl hne
      | some r => exact ⟨r, rfl⟩
    have hnil := inv_nonempty hinv
    have hf := delTreeOut_deleted (pop_front_spec ho key (some r) mem hinv)
      (fun d => hnil (d.2.2 (Or.inr (Or.inl rfl))))
    have hb := delTreeOut_deleted (pop_back_spec ho key (some r) mem hinv)
      (fun d => hnil (d.2.2 (Or.inr (Or.inr rfl))))
    obtain ⟨f1, _, p, y, tp, f2, f3⟩ := hf
    obtain ⟨b1, _, q, z, tq, b2, b3⟩ := hb
    have hp : p = 0 := tp.2.2.2.1 rfl
    subst hp
    have hq : q + 1 = (items_of (some r)).length := tq.2.2.1 (Or.inr rfl)
    simp only [scan_all]
    refine ⟨f1, ?_, by rw [f2]; simp, ?_, b1, ?_, by rw [b2]; simp, ?_⟩
    · rw [f2, ← tp.1, List.head?_eq_getElem?]
    · rw [f3]
      cases items_of (some r) <;> rfl
    · rw [b2, ← tq.1, List.getLast?_eq_getElem?]
      congr 1
      omega
    · rw [b3, List.dropLast_eq_take]
      have : q = (items_of (some r)).length - 1 := by omega
      rw [this, List.eraseIdx_eq_take_drop_succ]
      have hd : (items_of (some r)).drop ((items_of (some r)).length - 1 + 1) = [] :=
        List.drop_of_length_le (by omega)
      rw [hd, List.append_nil]
  · simp [pop_front, pop_front_fastpath, delete0, copy_spare]
  · simp [pop_back, pop_back_fastpath, delete0, copy_spare]

theorem pop_ends_witness :
    OrdOK cfgW icmp ∧ Inv cfgW icmp (some treeW) ∧
      (pop_front cfgW icmp (some treeW) 0 []).old = some 10 ∧
      (pop_back cfgW icmp (some treeW) 0 []).old = some 40 :=
  ⟨fun _ => icmp_ord, treeW_inv,
    ((pop_ends cfgW icmp (some treeW) 0 [] (fun _ => icmp_ord) treeW_inv).1
      (by simp)).2.1.trans (by decide),
    ((pop_ends cfgW icmp (some treeW) 0 [] (fun _ => icmp_ord) treeW_inv).1
      (by simp)).2.2.2.2.2.1.trans (by decide)⟩

/-- C17: on a tree satisfying the invariants (ordered with a consistent
comparator, or unordered), `delete_at` with an index below `count` returns
`DELETED`, writes the item at that position of the scan, leaves the scan with
exactly that position removed and `count` one smaller; with an index at or
beyond `count` (in particular on the empty tree) it returns `NOTFOUND`, writes
nothing and leaves the tree as it was. -/
theorem delete_at_contract (cfg : Config) (cmp : α → α → Int) (root : Option (Node α))
    (index : Nat) (key : α) (mem : List Bool) (ho : OrdOK cfg cmp)
    (hinv : Inv cfg cmp root) :
    (index < count cfg root →
      (delete_at cfg cmp root index key mem).ret = Status.DELETED ∧
      (delete_at cfg cmp root index key mem).old =
        (scan root (fun y (acc : List α) => (true, acc ++ [y])) []).2[index]? ∧
      (delete_at cfg cmp root index key mem).old ≠ none ∧
      (scan (delete_at cfg cmp root index key mem).root
          (fun y (acc : List α) => (true, acc ++ [y])) []).2 =
        (scan root (fun y (acc : List α) => (true, acc ++ [y])) []).2.eraseIdx index ∧
      count cfg (delete_at cfg cmp root index key mem).root + 1 = count cfg root ∧
      Inv cfg cmp (delete_at cfg cmp root index key mem).root) ∧
    (count cfg root ≤ index →
      (delete_at cfg cmp root index key mem).ret = Status.NOTFOUND ∧
      (delete_at cfg cmp root index key mem).old = none ∧
      (delete_at cfg cmp root index key mem).root = root) := by
  have ht := delete_at_spec ho key index root mem hinv
  rw [inv_count hinv]
  constructor
  · intro hi
    obtain ⟨h1, h2, p, y, tp, h3, h4⟩ := delTreeOut_deleted ht
      (fun d => by have := d.2.1 rfl; omega)
    have hp : p = index := tp.2.2.2.2 rfl
    subst hp
    simp only [scan_all]
    refine ⟨h1, by rw [h3, tp.1], by rw [h3]; simp, h4, ?_, h2⟩
    rw [inv_count h2, h4]
    exact length_erase_add tp.1
  · intro hi
    obtain ⟨h1, h2, h3⟩ := delTreeOut_notfound ht (fun p y t => by
      have hp : p = index := t.2.2.2.2 rfl
      have := t.1
      rw [hp, List.getElem?_eq_none hi] at this
      cases this)
    exact ⟨h1, h3, h2⟩

theorem delete_at_contract_witness :
    OrdOK cfgW icmp ∧ Inv cfgW icmp (some treeW) ∧
      (delete_at cfgW icmp (some treeW) 2 0 []).old = some 30 ∧
      (delete_at cfgW icmp (some treeW) 4 0 []).root = some treeW :=
  ⟨fun _ => icmp_ord, treeW_inv,
    ((delete_at_contract cfgW icmp (some treeW) 2 0 [] (fun _ => icmp_ord) treeW_inv).1
      (by decide)).2.1.trans (by decide),
    ((delete_at_contract cfgW icmp (some treeW) 4 0 [] (fun _ => icmp_ord) treeW_inv).2
      (by decide)).2.2⟩

section roundtrip
variable {cfg : Config} {cmp : α → α → Int}

theorem ne_symm_of_ord (ho : OrdCmp cmp) {a b : α} (h : cmp a b ≠ 0) : cmp b a ≠ 0 :=
  fun h0 => h (ho.eq_symm h0)

theorem insert_pos_perm (l : List α) (p : Nat) (x : α) : (insert_pos l p x).Perm (x :: l) := by
  unfold insert_pos
  have h1 : (l.take p ++ x :: l.drop p).Perm (x :: (l.take p ++ l.drop p)) := List.perm_middle
  rw [List.take_append_drop] at h1
  exact h1

theorem erase_perm {l ys : List α} {p : Nat} {y : α} (h : l[p]? = some y)
    (hp : l.Perm (y :: ys)) : (l.eraseIdx p).Perm ys := by
  have e := take_get_drop h
  have h1 : (l.take p ++ y :: l.drop (p + 1)).Perm (y :: (l.take p ++ l.drop (p + 1))) :=
    List.perm_middle
  rw [← e] at h1
  rw [List.eraseIdx_eq_take_drop_succ]
  exact List.Perm.cons_inv (h1.symm.trans hp)

theorem insert_all_spec (ho : OrdCmp cmp) (hord : cfg.noorder = false) :
    ∀ (xs : List α) (root : Option (Node α)) (mem : List Bool), Inv cfg cmp root →
      (items_of root ++ xs).Pairwise (fun a b => cmp a b ≠ 0) → AllocOK mem →
      (insert_all cfg cmp xs root mem).1 = xs.map (fun _ => Status.INSERTED) ∧
      Inv cfg cmp (insert_all cfg cmp xs root mem).2.1 ∧
      (items_of (insert_all cfg cmp xs root mem).2.1).Perm (items_of root ++ xs)
  | [], root, mem, hinv, _, _ => ⟨rfl, hinv, by simp [insert_all]⟩
  | x :: xs, root, mem, hinv, hd, hmem => by
    have hsym : ∀ {a b : α}, cmp a b ≠ 0 → cmp b a ≠ 0 := fun h => ne_symm_of_ord ho h
    have habs : ∀ y ∈ items_of root, cmp x y ≠ 0 := by
      intro y hy
      rw [List.pairwise_append] at hd
      exact hsym (hd.2.2 y hy x (List.mem_cons_self _ _))
    obtain ⟨h1, _, h3, h4, p, h5, _⟩ :=
      treeOut_inserted (insert_spec (fun _ => ho) hord x root mem hinv) habs hmem
    have hperm : (items_of (insert cfg cmp root x mem).root ++ xs).Perm
        (items_of root ++ x :: xs) := by
      rw [h5]
      exact ((insert_pos_perm _ p x).append_right xs).trans List.perm_middle.symm
    obtain ⟨r1, r2, r3⟩ := insert_all_spec ho hord xs _ _ h3
      ((List.Perm.pairwise_iff (fun h => hsym h) hperm).2 hd) h4
    refine ⟨?_, r2, r3.trans hperm⟩
    simp only [insert_all, List.map_cons, h1, r1]

theorem delete_all_spec (ho : OrdCmp cmp) (hord : cfg.noorder = false) :
    ∀ (ys : List α) (root : Option (Node α)) (mem : List Bool), Inv cfg cmp root →
      (items_of root).Perm ys → ys.Pairwise (fun a b => cmp a b ≠ 0) →
      (delete_all cfg cmp ys root mem).1 = ys.map (fun y => (Status.DELETED, some y)) ∧
      (delete_all cfg cmp ys root mem).2 = none
  | [], root, mem, hinv, hp, _ => by
    refine ⟨rfl, ?_⟩
    cases root with
    | none => rfl
    | some r => exact absurd hp.eq_nil (inv_nonempty hinv)
  | y :: ys, root, mem, hinv, hp, hd => by
    have hy : y ∈ items_of root := hp.symm.subset (List.mem_cons_self _ _)
    have h0 : cmp y y = 0 := ho.refl y
    obtain ⟨h1, h2, p, z, tz, h3, h4⟩ := delTreeOut_deleted
      (delete_spec (fun _ => ho) hord y root mem hinv) (fun d => d.1 rfl y hy h0)
    have hz : z = y := by
      have hzm : z ∈ y :: ys := hp.subset (List.getElem?_mem tz.1)
      rcases List.mem_cons.1 hzm with e | e
      · exact e
      · exact absurd (tz.2.1 rfl) ((List.pairwise_cons.1 hd).1 z e)
    subst hz
    have hp1 : (items_of (delete cfg cmp root z mem).root).Perm ys := by
      rw [h4]; exact erase_perm tz.1 hp
    obtain ⟨r1, r2⟩ := delete_all_spec ho hord ys _ (delete cfg cmp root z mem).mem h2 hp1
      (List.pairwise_cons.1 hd).2
    refine ⟨?_, r2⟩
    simp only [delete_all, List.map_cons, h1, h3, r1]

end roundtrip

/-- C6: on an ordered tree with a consistent comparator and an allocator that
does not fail, inserting a list `xs` of items no two of which compare equal
into the empty tree returns `INSERTED` every time, and deleting afterwards the
items in any order `ys` (a permutation of `xs`) returns `DELETED` for every
deletion with the old-item output equal to the item that was inserted, and
ends with the empty tree: null root, `count` 0, `height` 0. -/
theorem insert_delete_roundtrip (cfg : Config) (cmp : α → α → Int) (xs ys : List α)
    (mem : List Bool) (ho : OrdCmp cmp) (hord : cfg.noorder = false)
    (hdist : xs.Pairwise (fun a b => cmp a b ≠ 0)) (hperm : ys.Perm xs)
    (hmem : AllocOK mem) :
    (insert_all cfg cmp xs none mem).1 = xs.map (fun _ => Status.INSERTED) ∧
    (delete_all cfg cmp ys (insert_all cfg cmp xs none mem).2.1
      (insert_all cfg cmp xs none mem).2.2).1 = ys.map (fun y => (Status.DELETED, some y)) ∧
    (delete_all cfg cmp ys (insert_all cfg cmp xs none mem).2.1
      (insert_all cfg cmp xs none mem).2.2).2 = none ∧
    count cfg (delete_all cfg cmp ys (insert_all cfg cmp xs none mem).2.1
      (insert_all cfg cmp xs none mem).2.2).2 = 0 ∧
    height (delete_all cfg cmp ys (insert_all cfg cmp xs none mem).2.1
      (insert_all cfg cmp xs none mem).2.2).2 = 0 := by
  obtain ⟨h1, h2, h3⟩ := insert_all_spec ho hord xs none mem trivial
    (by simpa [items_of] using hdist) hmem
  have h3a : (items_of (insert_all cfg cmp xs none mem).2.1).Perm ys := by
    simp only [items_of, List.nil_append] at h3
    exact h3.trans hperm.symm
  obtain ⟨d1, d2⟩ := delete_all_spec ho hord ys _ (insert_all cfg cmp xs none mem).2.2 h2 h3a
    ((List.Perm.pairwise_iff (fun h => ne_symm_of_ord ho h) hperm).2 hdist)
  refine ⟨h1, d1, d2, ?_, ?_⟩
  · rw [d2]; rfl
  · rw [d2]; rfl

theorem insert_delete_roundtrip_witness :
    OrdCmp icmp ∧ cfgW.noorder = false ∧
      (delete_all cfgW icmp [3, 1, 5, 2, 4] (insert_all cfgW icmp [1, 2, 3, 4, 5] none []).2.1
        (insert_all cfgW icmp [1, 2, 3, 4, 5] none []).2.2).1 =
        [(Status.DELETED, some 3), (Status.DELETED, some 1), (Status.DELETED, some 5),
          (Status.DELETED, some 2), (Status.DELETED, some 4)] ∧
      (delete_all cfgW icmp [3, 1, 5, 2, 4] (insert_all cfgW icmp [1, 2, 3, 4, 5] none []).2.1
        (insert_all cfgW icmp [1, 2, 3, 4, 5] none []).2.2).2 = none :=
  ⟨icmp_ord, rfl,
    (insert_delete_roundtrip cfgW icmp [1, 2, 3, 4, 5] [3, 1, 5, 2, 4] [] icmp_ord rfl
      (by decide) (by decide) (fun _ h => absurd h (List.not_mem_nil _))).2.1,
    (insert_delete_roundtrip cfgW icmp [1, 2, 3, 4, 5] [3, 1, 5, 2, 4] [] icmp_ord rfl
      (by decide) (by decide) (fun _ h => absurd h (List.not_mem_nil _))).2.2.1⟩

section occupancy
variable {cfg : Config} {cmp : α → α → Int}

theorem descendants_leaf (n : Node α) (h : n.isleaf = true) : descendants n = [] := by
  cases n; simp_all [descendants]

theorem descendants_branch (n : Node α) (h : n.isleaf = false) :
    descendants n = descendantsL n.children := by
  cases n; simp_all [descendants]

theorem occ_of_wf : ∀ (h : Nat) (n : Node α), WF cfg h n →
    ∀ x ∈ descendants n, MINITEMS cfg ≤ x.len ∧ x.len ≤ MAXITEMS cfg
  | 0, _, hw => absurd hw (by simp [WF])
  | 1, n, hw => by
    rw [descendants_leaf n (wf_leaf hw).1]
    intro x hx; cases hx
  | h + 2, n, hw => by
    obtain ⟨hl, _, _, _, _, hch⟩ := wf_branch hw
    rw [descendants_branch n hl]
    have key : ∀ cs : List (Node α), (∀ c ∈ cs, MINITEMS cfg ≤ c.items.length ∧
        WF cfg (h + 1) c) →
        ∀ x ∈ descendantsL cs, MINITEMS cfg ≤ x.len ∧ x.len ≤ MAXITEMS cfg := by
      intro cs
      induction cs with
      | nil => intro _ x hx; simp [descendantsL] at hx
      | cons c cs ih =>
        intro hcs x hx
        simp only [descendantsL, List.mem_cons, List.mem_append] at hx
        rcases hx with e | e | e
        · subst e
          exact ⟨(hcs x (by simp)).1, wf_len_le (hcs x (by simp)).2⟩
        · exact occ_of_wf (h + 1) c (hcs c (by simp)).2 x e
        · exact ih (fun c1 hc1 => hcs c1 (by simp [hc1])) x e
    exact key n.children hch

theorem occ_of_inv {root : Option (Node α)} (hinv : Inv cfg cmp root) :
    Occupancy cfg (MAXITEMS cfg / 2) root := by
  cases root with
  | none => trivial
  | some r =>
    exact ⟨hinv.2.1, wf_len_le hinv.1, occ_of_wf r.height r hinv.1⟩

end occupancy

/-- C5 (as the code has it): on a tree satisfying the invariants, with a
consistent comparator, the tree left by every mutating public operation
(`insert`, `push_front`, `push_back`, `insert_at`, `replace_at`, `delete`,
`delete_at`, `pop_front`, `pop_back`) has a root with between 1 and M items and
every non-root node with at least floor(M/2) = `BGEN_MINITEMS` and at most M
items, M = `BGEN_MAXITEMS`. -/
theorem occupancy_floor (cfg : Config) (cmp : α → α → Int) (root : Option (Node α))
    (item : α) (index : Nat) (mem : List Bool) (ho : OrdOK cfg cmp)
    (hinv : Inv cfg cmp root) :
    Occupancy cfg (MAXITEMS cfg / 2) (insert cfg cmp root item mem).root ∧
    Occupancy cfg (MAXITEMS cfg / 2) (push_front cfg cmp root item mem).root ∧
    Occupancy cfg (MAXITEMS cfg / 2) (push_back cfg cmp root item mem).root ∧
    Occupancy cfg (MAXITEMS cfg / 2) (insert_at cfg cmp root index item mem).root ∧
    Occupancy cfg (MAXITEMS cfg / 2) (replace_at cfg cmp root index item mem).root ∧
    Occupancy cfg (MAXITEMS cfg / 2) (delete cfg cmp root item mem).root ∧
    Occupancy cfg (MAXITEMS cfg / 2) (delete_at cfg cmp root index item mem).root ∧
    Occupancy cfg (MAXITEMS cfg / 2) (pop_front cfg cmp root item mem).root ∧
    Occupancy cfg (MAXITEMS cfg / 2) (pop_back cfg cmp root item mem).root := by
  have h1 : Inv cfg cmp (insert cfg cmp root item mem).root := by
    cases hno : cfg.noorder
    · exact (insert_spec ho hno item root mem hinv).1
    · unfold insert
      rw [hno]
      exact hinv
  have h2 := (push_front_spec ho item root mem hinv).1
  have h3 := (push_back_spec ho item root mem hinv).1
  have h4 : Inv cfg cmp (insert_at cfg cmp root index item mem).root :=
    (insert0_spec ho (fun h => by cases h) index root mem hinv).1
  have h5 : Inv cfg cmp (replace_at cfg cmp root index item mem).root :=
    (insert0_spec ho (fun h => by cases h) index root mem hinv).1
  have h6 : Inv cfg cmp (delete cfg cmp root item mem).root := by
    cases hno : cfg.noorder
    · exact delTreeOut_inv hinv (delete_spec ho hno item root mem hinv)
    · rw [delete_noorder hno]
      exact hinv
  have h7 := delTreeOut_inv hinv (delete_at_spec ho item index root mem hinv)
  have h8 := delTreeOut_inv hinv (pop_front_spec ho item root mem hinv)
  have h9 := delTreeOut_inv hinv (pop_back_spec ho item root mem hinv)
  exact ⟨occ_of_inv h1, occ_of_inv h2, occ_of_inv h3, occ_of_inv h4, occ_of_inv h5,
    occ_of_inv h6, occ_of_inv h7, occ_of_inv h8, occ_of_inv h9⟩

theorem occupancy_floor_witness :
    OrdOK cfgW icmp ∧ Inv cfgW icmp (some treeW) ∧
      Occupancy cfgW (MAXITEMS cfgW / 2) (insert cfgW icmp (some treeW) 35 []).root ∧
      Occupancy cfgW (MAXITEMS cfgW / 2) (delete cfgW icmp (some treeW) 10 []).root :=
  ⟨fun _ => icmp_ord, treeW_inv,
    (occupancy_floor cfgW icmp (some treeW) 35 0 [] (fun _ => icmp_ord) treeW_inv).1,
    (occupancy_floor cfgW icmp (some treeW) 10 0 [] (fun _ => icmp_ord) treeW_inv).2.2.2.2.2.1⟩

/-- C5 (as the specification words it) fails: with fanout 4 (M = 3, so
ceil(M/2) = 2) inserting 1, 2, 3, 4 into the empty tree splits the full root
leaf and leaves a non-root leaf with a single item, fewer than ceil(M/2). -/
theorem occupancy_ceil_counterexample :
    (∃ x ∈ nonroot_nodes ((insert cfgW icmp (insert cfgW icmp (insert cfgW icmp
        (insert cfgW icmp none 1 []).root 2 []).root 3 []).root 4 []).root),
      x.len < (MAXITEMS cfgW + 1) / 2) ∧
    ¬ Occupancy cfgW ((MAXITEMS cfgW + 1) / 2) ((insert cfgW icmp (insert cfgW icmp
        (insert cfgW icmp (insert cfgW icmp none 1 []).root 2 []).root 3 []).root 4 []).root) := by
  have h : ∃ x ∈ nonroot_nodes ((insert cfgW icmp (insert cfgW icmp (insert cfgW icmp
        (insert cfgW icmp none 1 []).root 2 []).root 3 []).root 4 []).root),
      x.len < (MAXITEMS cfgW + 1) / 2 := by decide
  refine ⟨h, ?_⟩
  obtain ⟨x, hx, hlt⟩ := h
  intro hocc
  cases hr : (insert cfgW icmp (insert cfgW icmp (insert cfgW icmp
        (insert cfgW icmp none 1 []).root 2 []).root 3 []).root 4 []).root with
  | none =>
    rw [hr] at hx
    simp [nonroot_nodes] at hx
  | some r =>
    rw [hr] at hx hocc
    have := (hocc.2.2 x hx).1
    omega

/-- C11: on a tree satisfying the invariants (ordered or not, counted or not),
`get_at n` returns `FOUND` with the item at position `n` (0-based) of the scan
when `n < count`, and `NOTFOUND` with nothing written when `n >= count`; on the
empty tree it returns `NOTFOUND` for every index. -/
theorem get_at_contract (cfg : Config) (cmp : α → α → Int) (root : Option (Node α))
    (n : Nat) (hinv : Inv cfg cmp root) :
    (n < count cfg root →
      get_at cfg root n =
        (Status.FOUND, (scan root (fun y (acc : List α) => (true, acc ++ [y])) []).2[n]?) ∧
      ∃ x, (scan root (fun y (acc : List α) => (true, acc ++ [y])) []).2[n]? = some x) ∧
    (count cfg root ≤ n → get_at cfg root n = (Status.NOTFOUND, none)) ∧
    get_at cfg none n = (Status.NOTFOUND, (none : Option α)) := by
  rw [inv_count hinv, scan_all]
  cases root with
  | none =>
    exact ⟨fun h => by simp [items_of] at h, fun _ => rfl, rfl⟩
  | some r =>
    have hget := @get_at_loop_spec α cfg r.height (depth r) r n hinv.1
      (by rw [inv_depth hinv])
    simp only [items_of, get_at]
    refine ⟨fun h => ⟨?_, (flat r)[n], List.getElem?_eq_getElem h⟩, fun h => ?_, trivial⟩
    · rw [hget, if_pos h]
    · rw [hget, if_neg (by omega)]

theorem get_at_contract_witness :
    Inv cfgW icmp (some treeW) ∧
      get_at cfgW (some treeW) 3 = (Status.FOUND, some 40) ∧
      get_at cfgW (some treeW) 4 = (Status.NOTFOUND, none) :=
  ⟨treeW_inv,
    ((get_at_contract cfgW icmp (some treeW) 3 treeW_inv).1 (by decide)).1.trans (by decide),
    (get_at_contract cfgW icmp (some treeW) 4 treeW_inv).2.1 (by decide)⟩

section posclaims
variable {cfg : Config} {cmp : α → α → Int}

/-- On a strictly ascending list the item fits at position `i` exactly when it
lies strictly between the two neighbours of the gap. -/
theorem fits_insat_iff (ho : OrdCmp cmp) {l : List α} (hp : l.Pairwise (lt cmp)) {i : Nat}
    {x : α} (hi : i ≤ l.length) :
    ActFits cmp InsAct.INSAT x i l ↔
      ((i = 0 ∨ ∃ y, l[i - 1]? = some y ∧ lt cmp y x) ∧
        (l.length ≤ i ∨ ∃ y, l[i]? = some y ∧ lt cmp x y)) := by
  constructor
  · rintro ⟨h1, h2⟩
    constructor
    · by_cases h0 : i = 0
      · exact Or.inl h0
      · have hlt : i - 1 < l.length := by omega
        exact Or.inr ⟨l[i - 1], List.getElem?_eq_getElem hlt,
          h1 _ (get_mem_take (List.getElem?_eq_getElem hlt) (by omega))⟩
    · by_cases h0 : l.length ≤ i
      · exact Or.inl h0
      · have hlt : i < l.length := by omega
        exact Or.inr ⟨l[i], List.getElem?_eq_getElem hlt,
          h2 _ (get_mem_drop (List.getElem?_eq_getElem hlt) (le_refl _))⟩
  · rintro ⟨h1, h2⟩
    exact ⟨take_lt_of_pred ho hp hi h1, drop_gt_of_succ ho hp h2⟩

theorem fits_repat_iff (ho : OrdCmp cmp) {l : List α} (hp : l.Pairwise (lt cmp)) {i : Nat}
    {x : α} (hi : i < l.length) :
    ActFits cmp InsAct.REPAT x i l ↔
      ((i = 0 ∨ ∃ y, l[i - 1]? = some y ∧ lt cmp y x) ∧
        (l.length ≤ i + 1 ∨ ∃ y, l[i + 1]? = some y ∧ lt cmp x y)) := by
  constructor
  · rintro ⟨h1, h2⟩
    constructor
    · by_cases h0 : i = 0
      · exact Or.inl h0
      · have hlt : i - 1 < l.length := by omega
        exact Or.inr ⟨l[i - 1], List.getElem?_eq_getElem hlt,
          h1 _ (get_mem_take (List.getElem?_eq_getElem hlt) (by omega))⟩
    · by_cases h0 : l.length ≤ i + 1
      · exact Or.inl h0
      · have hlt : i + 1 < l.length := by omega
        exact Or.inr ⟨l[i + 1], List.getElem?_eq_getElem hlt,
          h2 _ (get_mem_drop (List.getElem?_eq_getElem hlt) (le_refl _))⟩
  · rintro ⟨h1, h2⟩
    exact ⟨take_lt_of_pred ho hp (Nat.le_of_lt hi) h1, drop_gt_of_succ ho hp h2⟩

theorem fits_pushback_iff (ho : OrdCmp cmp) {l : List α} (hp : l.Pairwise (lt cmp)) {x : α} :
    ActFits cmp InsAct.PUSHBACK x 0 l ↔ ∀ y, l.getLast? = some y → lt cmp y x := by
  constructor
  · intro h y hy
    exact h y (List.mem_of_mem_getLast? hy)
  · intro h
    have := take_lt_of_pred ho hp (le_refl l.length) (x := x) (by
      cases hl : l.getLast? with
      | none =>
        rw [List.getLast?_eq_none_iff] at hl
        left; rw [hl]; rfl
      | some y =>
        right
        exact ⟨y, by rw [← hl, List.getLast?_eq_getElem?], h y hl⟩)
    simpa using this

theorem fits_pushfront_iff (ho : OrdCmp cmp) {l : List α} (hp : l.Pairwise (lt cmp)) {x : α} :
    ActFits cmp InsAct.PUSHFRONT x 0 l ↔ ∀ y, l.head? = some y → lt cmp x y := by
  constructor
  · intro h y hy
    exact h y (List.mem_of_mem_head? hy)
  · intro h
    have := drop_gt_of_succ ho hp (p := 0) (x := x) (by
      cases hl : l.head? with
      | none =>
        rw [List.head?_eq_none_iff] at hl
        left; rw [hl]; rfl
      | some y =>
        right
        exact ⟨y, by rw [← hl, List.head?_eq_getElem?], h y hl⟩)
    simpa using this

/-- The item fits, the index is in range and the allocator does not fail: the
action is carried out. -/
theorem treeOut_accept {act : InsAct} {item : α} {index : Nat} {root : Option (Node α)}
    {mem : List Bool} {t : TreeRes α}
    (ht : TreeOut cfg cmp act item index root mem t) (hmem : AllocOK mem)
    (hne : items_of root ≠ [])
    (hfit : cfg.noorder = false → ActFits cmp act item index (items_of root))
    (hb1 : act = InsAct.INSAT → index ≤ (items_of root).length)
    (hb2 : act = InsAct.REPAT → index < (items_of root).length) :
    (t.ret = Status.INSERTED ∧ t.old = none ∧
      ∃ p, items_of t.root = insert_pos (items_of root) p item ∧
        PosOf act index (items_of root) p) ∨
    (t.ret = Status.REPLACED ∧
      ∃ p y, t.old = some y ∧ (items_of root)[p]? = some y ∧
        items_of t.root = (items_of root).set p item ∧ (act = InsAct.REPAT → p = index) ∧
        (act = InsAct.INSITEM ∨ act = InsAct.REPAT)) := by
  rcases ht.2.2 with h | h | h | h
  · obtain ⟨e1, e2, p, e3, _, e5⟩ := h
    exact Or.inl ⟨e1, e2, p, e3, e5⟩
  · obtain ⟨e1, p, y, e2, e3, e4, _, _, e7, e8⟩ := h
    exact Or.inr ⟨e1, p, y, e2, e3, e4, e7, e8⟩
  · exact absurd hmem h.2.2.2
  · obtain ⟨e1, _, _, _, hrej⟩ := h
    rcases e1 with e1 | e1
    · obtain ⟨hno, hbad⟩ := hrej.1 e1
      exact absurd (hfit hno) (hbad hne)
    · rcases hrej.2 e1 with ⟨ha, hlt⟩ | ⟨ha, hle⟩
      · have := hb1 ha; omega
      · have := hb2 ha; omega

/-- The item does not fit on an ordered tree: the action is turned down with
`OUTOFORDER` and the item sequence stays. -/
theorem treeOut_reject {act : InsAct} {item : α} {index : Nat} {root : Option (Node α)}
    {mem : List Bool} {t : TreeRes α}
    (ht : TreeOut cfg cmp act item index root mem t) (hmem : AllocOK mem)
    (hact : act ≠ InsAct.INSITEM) (hno : cfg.noorder = false)
    (hbad : ¬ ActFits cmp act item index (items_of root))
    (hb1 : act = InsAct.INSAT → index ≤ (items_of root).length)
    (hb2 : act = InsAct.REPAT → index < (items_of root).length) :
    t.ret = Status.OUTOFORDER ∧ t.old = none ∧ items_of t.root = items_of root ∧
      Inv cfg cmp t.root := by
  rcases ht.2.2 with h | h | h | h
  · obtain ⟨_, _, p, _, e4, e5⟩ := h
    exfalso
    apply hbad
    obtain ⟨f1, f2⟩ := e4.2 hno
    cases act with
    | INSITEM => exact absurd rfl hact
    | REPAT => exact absurd rfl e5.2.2.2
    | INSAT =>
      have hp := e5.1 rfl
      subst hp
      exact ⟨f1, f2⟩
    | PUSHFRONT =>
      have hp := e5.2.1 rfl
      subst hp
      intro b hb
      exact f2 b (by simpa using hb)
    | PUSHBACK =>
      have hp := e5.2.2.1 rfl
      subst hp
      intro a ha
      exact f1 a (by simpa using ha)
  · obtain ⟨_, p, y, _, _, _, e5, _, e7, e8⟩ := h
    exfalso
    apply hbad
    rcases e8 with e8 | e8
    · exact absurd e8 hact
    · subst e8
      have hp := e7 rfl
      subst hp
      exact e5 hno
  · exact absurd hmem h.2.2.2
  · obtain ⟨e1, _, e3, e4, hrej⟩ := h
    refine ⟨?_, e3, e4, ht.1⟩
    rcases e1 with e1 | e1
    · exact e1
    · rcases hrej.2 e1 with ⟨ha, hlt⟩ | ⟨ha, hle⟩
      · have := hb1 ha; omega
      · have := hb2 ha; omega

theorem insert0_none_ok {act : InsAct} {index : Nat} (x : α) {mem : List Bool}
    (hact : ¬ (act = InsAct.REPAT ∨ (act = InsAct.INSAT ∧ index > 0))) (hmem : AllocOK mem) :
    (insert0 cfg cmp none act index x mem).ret = Status.INSERTED ∧
      items_of (insert0 cfg cmp none act index x mem).root = [x] := by
  unfold insert0
  dsimp only
  rw [if_neg hact, alloc_node_eq, if_neg hmem.head]
  simp [items_of, flat, fresh]

theorem push_back_none (x : α) (mem : List Bool) :
    push_back cfg cmp none x mem = insert0 cfg cmp none InsAct.PUSHBACK 0 x mem := by
  simp [push_back, push_back_fastpath]

theorem push_front_none (x : α) (mem : List Bool) :
    push_front cfg cmp none x mem = insert0 cfg cmp none InsAct.PUSHFRONT 0 x mem := by
  simp [push_front, push_front_fastpath]

end posclaims

/-- C13: on a tree satisfying the invariants, with an allocator that does not
fail: on an ordered tree (consistent comparator) `push_back x` returns
`INSERTED` with the scan followed by `x` when the tree is empty or its last item
is strictly below `x`, and otherwise `OUTOFORDER` with the item sequence
unchanged; `push_front x` returns `INSERTED` with `x` followed by the scan when
the tree is empty or `x` is strictly below its first item, and otherwise
`OUTOFORDER` with the item sequence unchanged; on an unordered tree both always
insert at their end.  The first conjunct says that `items_of` is what the scan
emits. -/
theorem push_contract (cfg : Config) (cmp : α → α → Int) (root : Option (Node α)) (x : α)
    (mem : List Bool) (ho : OrdOK cfg cmp) (hinv : Inv cfg cmp root) (hmem : AllocOK mem) :
    (∀ t : Option (Node α),
      (scan t (fun y (acc : List α) => (true, acc ++ [y])) []).2 = items_of t) ∧
    ((cfg.noorder = true ∨ ∀ y, (items_of root).getLast? = some y → lt cmp y x) →
      (push_back cfg cmp root x mem).ret = Status.INSERTED ∧
      items_of (push_back cfg cmp root x mem).root = items_of root ++ [x]) ∧
    (cfg.noorder = false → (∃ y, (items_of root).getLast? = some y ∧ ¬ lt cmp y x) →
      (push_back cfg cmp root x mem).ret = Status.OUTOFORDER ∧
      items_of (push_back cfg cmp root x mem).root = items_of root) ∧
    ((cfg.noorder = true ∨ ∀ y, (items_of root).head? = some y → lt cmp x y) →
      (push_front cfg cmp root x mem).ret = Status.INSERTED ∧
      items_of (push_front cfg cmp root x mem).root = x :: items_of root) ∧
    (cfg.noorder = false → (∃ y, (items_of root).head? = some y ∧ ¬ lt cmp x y) →
      (push_front cfg cmp root x mem).ret = Status.OUTOFORDER ∧
      items_of (push_front cfg cmp root x mem).root = items_of root) := by
  refine ⟨fun t => by rw [scan_all], fun hgood => ?_, fun hno hbad => ?_, fun hgood => ?_,
    fun hno hbad => ?_⟩
  · cases root with
    | none =>
      rw [push_back_none]
      obtain ⟨h1, h2⟩ := @insert0_none_ok α cfg cmp InsAct.PUSHBACK 0 x mem (by simp) hmem
      exact ⟨h1, by rw [h2]; rfl⟩
    | some r =>
      have ht := push_back_spec ho x (some r) mem hinv
      have hfit : cfg.noorder = false → ActFits cmp InsAct.PUSHBACK x 0 (items_of (some r)) := by
        intro hno
        rcases hgood with h | h
        · rw [hno] at h; cases h
        · exact (fits_pushback_iff (ho hno) (hinv.2.2 hno)).2 h
      rcases treeOut_accept ht hmem (inv_nonempty hinv) hfit (fun h => by cases h)
        (fun h => by cases h) with ⟨e1, _, p, e3, e4⟩ | ⟨_, _, _, _, _, _, _, e⟩
      · refine ⟨e1, ?_⟩
        rw [e3, e4.2.2.1 rfl]
        simp [insert_pos]
      · rcases e with e | e <;> cases e
  · obtain ⟨y, hy, hlt⟩ := hbad
    have ht := push_back_spec ho x root mem hinv
    obtain ⟨e1, _, e3, _⟩ := treeOut_reject ht hmem (by decide) hno
      (fun hf => hlt ((fits_pushback_iff (ho hno) (inv_sorted hinv hno)).1 hf y hy))
      (fun h => by cases h) (fun h => by cases h)
    exact ⟨e1, e3⟩
  · cases root with
    | none =>
      rw [push_front_none]
      obtain ⟨h1, h2⟩ := @insert0_none_ok α cfg cmp InsAct.PUSHFRONT 0 x mem (by simp) hmem
      exact ⟨h1, by rw [h2]; rfl⟩
    | some r =>
      have ht := push_front_spec ho x (some r) mem hinv
      have hfit : cfg.noorder = false →
          ActFits cmp InsAct.PUSHFRONT x 0 (items_of (some r)) := by
        intro hno
        rcases hgood with h | h
        · rw [hno] at h; cases h
        · exact (fits_pushfront_iff (ho hno) (hinv.2.2 hno)).2 h
      rcases treeOut_accept ht hmem (inv_nonempty hinv) hfit (fun h => by cases h)
        (fun h => by cases h) with ⟨e1, _, p, e3, e4⟩ | ⟨_, _, _, _, _, _, _, e⟩
      · refine ⟨e1, ?_⟩
        rw [e3, e4.2.1 rfl]
        simp [insert_pos]
      · rcases e with e | e <;> cases e
  · obtain ⟨y, hy, hlt⟩ := hbad
    have ht := push_front_spec ho x root mem hinv
    obtain ⟨e1, _, e3, _⟩ := treeOut_reject ht hmem (by decide) hno
      (fun hf => hlt ((fits_pushfront_iff (ho hno) (inv_sorted hinv hno)).1 hf y hy))
      (fun h => by cases h) (fun h => by cases h)
    exact ⟨e1, e3⟩

theorem push_contract_witness :
    OrdOK cfgW icmp ∧ Inv cfgW icmp (some treeW) ∧ AllocOK ([] : List Bool) ∧
      items_of (push_back cfgW icmp (some treeW) 50 []).root = [10, 20, 30, 40, 50] ∧
      (push_back cfgW icmp (some treeW) 35 []).ret = Status.OUTOFORDER ∧
      (push_front cfgW icmp (some treeW) 15 []).ret = Status.OUTOFORDER :=
  ⟨fun _ => icmp_ord, treeW_inv, fun _ h => absurd h (List.not_mem_nil _),
    ((push_contract cfgW icmp (some treeW) 50 [] (fun _ => icmp_ord) treeW_inv
      (fun _ h => absurd h (List.not_mem_nil _))).2.1 (Or.inr (by rw [show items_of (some treeW) = [10, 20, 30, 40] from by decide]; simp [lt, icmp]))).2.trans
      (by decide),
    ((push_contract cfgW icmp (some treeW) 35 [] (fun _ => icmp_ord) treeW_inv
      (fun _ h => absurd h (List.not_mem_nil _))).2.2.1 rfl ⟨40, by decide, by simp [lt, icmp]⟩).1,
    ((push_contract cfgW icmp (some treeW) 15 [] (fun _ => icmp_ord) treeW_inv
      (fun _ h => absurd h (List.not_mem_nil _))).2.2.2.2 rfl ⟨10, by decide, by simp [lt, icmp]⟩).1⟩

/-- C14: on a tree satisfying the invariants, with an allocator that does not
fail, for every index `i ≤ count`: on an unordered tree `insert_at i x` returns
`INSERTED` and the resulting sequence is the first `i` items of the scan, then
`x`, then the rest; on an ordered tree (consistent comparator) it does the same
exactly when the item at `i - 1` (if any) is strictly below `x` and `x` is
strictly below the item at `i` (if any), and otherwise returns `OUTOFORDER`
with the item sequence unchanged.  The first conjunct says that `items_of` is
what the scan emits. -/
theorem insert_at_contract (cfg : Config) (cmp : α → α → Int) (root : Option (Node α))
    (i : Nat) (x : α) (mem : List Bool) (ho : OrdOK cfg cmp) (hinv : Inv cfg cmp root)
    (hmem : AllocOK mem) (hi : i ≤ count cfg root) :
    (∀ t : Option (Node α),
      (scan t (fun y (acc : List α) => (true, acc ++ [y])) []).2 = items_of t) ∧
    ((cfg.noorder = true ∨
        ((i = 0 ∨ ∃ y, (items_of root)[i - 1]? = some y ∧ lt cmp y x) ∧
          ((items_of root).length ≤ i ∨ ∃ y, (items_of root)[i]? = some y ∧ lt cmp x y))) →
      (insert_at cfg cmp root i x mem).ret = Status.INSERTED ∧
      items_of (insert_at cfg cmp root i x mem).root =
        (items_of root).take i ++ x :: (items_of root).drop i) ∧
    (cfg.noorder = false →
      ¬ ((i = 0 ∨ ∃ y, (items_of root)[i - 1]? = some y ∧ lt cmp y x) ∧
          ((items_of root).length ≤ i ∨ ∃ y, (items_of root)[i]? = some y ∧ lt cmp x y)) →
      (insert_at cfg cmp root i x mem).ret = Status.OUTOFORDER ∧
      items_of (insert_at cfg cmp root i x mem).root = items_of root) := by
  rw [inv_count hinv] at hi
  have ht : TreeOut cfg cmp InsAct.INSAT x i root mem (insert_at cfg cmp root i x mem) :=
    insert0_spec ho (fun h => by cases h) i root mem hinv
  refine ⟨fun t => by rw [scan_all], fun hgood => ?_, fun hno hbad => ?_⟩
  · cases root with
    | none =>
      have h0 : i = 0 := by simpa [items_of] using hi
      subst h0
      obtain ⟨h1, h2⟩ := @insert0_none_ok α cfg cmp InsAct.INSAT 0 x mem (by simp) hmem
      exact ⟨h1, by rw [insert_at, h2]; rfl⟩
    | some r =>
      have hfit : cfg.noorder = false → ActFits cmp InsAct.INSAT x i (items_of (some r)) := by
        intro hno
        rcases hgood with h | h
        · rw [hno] at h; cases h
        · exact (fits_insat_iff (ho hno) (hinv.2.2 hno) hi).2 h
      rcases treeOut_accept ht hmem (inv_nonempty hinv) hfit (fun _ => hi)
        (fun h => by cases h) with ⟨e1, _, p, e3, e4⟩ | ⟨_, _, _, _, _, _, _, e⟩
      · refine ⟨e1, ?_⟩
        rw [e3, e4.1 rfl]
        rfl
      · rcases e with e | e <;> cases e
  · obtain ⟨e1, _, e3, _⟩ := treeOut_reject ht hmem (by decide) hno
      (fun hf => hbad ((fits_insat_iff (ho hno) (inv_sorted hinv hno) hi).1 hf))
      (fun _ => hi) (fun h => by cases h)
    exact ⟨e1, e3⟩

theorem insert_at_contract_witness :
    OrdOK cfgW icmp ∧ Inv cfgW icmp (some treeW) ∧ AllocOK ([] : List Bool) ∧
      1 ≤ count cfgW (some treeW) ∧
      items_of (insert_at cfgW icmp (some treeW) 1 15 []).root = [10, 15, 20, 30, 40] ∧
      (insert_at cfgW icmp (some treeW) 1 25 []).ret = Status.OUTOFORDER :=
  ⟨fun _ => icmp_ord, treeW_inv, fun _ h => absurd h (List.not_mem_nil _), by decide,
    ((insert_at_contract cfgW icmp (some treeW) 1 15 [] (fun _ => icmp_ord) treeW_inv
      (fun _ h => absurd h (List.not_mem_nil _)) (by decide)).2.1
        (Or.inr (by rw [show items_of (some treeW) = [10, 20, 30, 40] from by decide]; simp [lt, icmp]))).2.trans (by decide),
    ((insert_at_contract cfgW icmp (some treeW) 1 25 [] (fun _ => icmp_ord) treeW_inv
      (fun _ h => absurd h (List.not_mem_nil _)) (by decide)).2.2 rfl
        (by rw [show items_of (some treeW) = [10, 20, 30, 40] from by decide]; simp [lt, icmp])).1⟩

/-- C16: on a tree satisfying the invariants, with an allocator that does not
fail, for every index `i < count`: on an unordered tree, and on an ordered tree
(consistent comparator) when `x` lies strictly between the items at `i - 1` and
`i + 1` (as far as they exist), `replace_at i x` returns `REPLACED`, writes the
old item at position `i` to the output and leaves the sequence with `x` at
position `i`, every other position and the count unchanged; on an ordered tree
where `x` does not lie between its neighbours it returns `OUTOFORDER`, writes
nothing and leaves the item sequence and count unchanged; on the empty tree it
returns `NOTFOUND`.  The first conjunct says that `items_of` is what the scan
emits. -/
theorem replace_at_contract (cfg : Config) (cmp : α → α → Int) (root : Option (Node α))
    (i : Nat) (x : α) (mem : List Bool) (ho : OrdOK cfg cmp) (hinv : Inv cfg cmp root)
    (hmem : AllocOK mem) (hi : i < count cfg root) :
    (∀ t : Option (Node α),
      (scan t (fun y (acc : List α) => (true, acc ++ [y])) []).2 = items_of t) ∧
    ((cfg.noorder = true ∨
        ((i = 0 ∨ ∃ y, (items_of root)[i - 1]? = some y ∧ lt cmp y x) ∧
          ((items_of root).length ≤ i + 1 ∨
            ∃ y, (items_of root)[i + 1]? = some y ∧ lt cmp x y))) →
      (replace_at cfg cmp root i x mem).ret = Status.REPLACED ∧
      (replace_at cfg cmp root i x mem).old = (items_of root)[i]? ∧
      items_of (replace_at cfg cmp root i x mem).root = (items_of root).set i x ∧
      count cfg (replace_at cfg cmp root i x mem).root = count cfg root) ∧
    (cfg.noorder = false →
      ¬ ((i = 0 ∨ ∃ y, (items_of root)[i - 1]? = some y ∧ lt cmp y x) ∧
          ((items_of root).length ≤ i + 1 ∨
            ∃ y, (items_of root)[i + 1]? = some y ∧ lt cmp x y)) →
      (replace_at cfg cmp root i x mem).ret = Status.OUTOFORDER ∧
      (replace_at cfg cmp root i x mem).old = none ∧
      items_of (replace_at cfg cmp root i x mem).root = items_of root ∧
      count cfg (replace_at cfg cmp root i x mem).root = count cfg root) ∧
    (replace_at cfg cmp none i x mem).ret = Status.NOTFOUND := by
  rw [inv_count hinv] at hi
  have ht : TreeOut cfg cmp InsAct.REPAT x i root mem (replace_at cfg cmp root i x mem) :=
    insert0_spec ho (fun h => by cases h) i root mem hinv
  have hne : items_of root ≠ [] := by
    intro e; rw [e] at hi; simp at hi
  refine ⟨fun t => by rw [scan_all], fun hgood => ?_, fun hno hbad => ?_,
    by simp [replace_at, insert0]⟩
  · have hfit : cfg.noorder = false → ActFits cmp InsAct.REPAT x i (items_of root) := by
      intro hno
      rcases hgood with h | h
      · rw [hno] at h; cases h
      · exact (fits_repat_iff (ho hno) (inv_sorted hinv hno) hi).2 h
    rcases treeOut_accept ht hmem hne hfit (fun h => by cases h) (fun _ => hi) with
      ⟨_, _, p, _, e4⟩ | ⟨e1, p, y, e2, e3, e4, e5, _⟩
    · exact absurd rfl e4.2.2.2
    · have hp := e5 rfl
      subst hp
      refine ⟨e1, by rw [e2, e3], e4, ?_⟩
      rw [inv_count ht.1, inv_count hinv, e4, List.length_set]
  · obtain ⟨e1, e2, e3, e4⟩ := treeOut_reject ht hmem (by decide) hno
      (fun hf => hbad ((fits_repat_iff (ho hno) (inv_sorted hinv hno) hi).1 hf))
      (fun h => by cases h) (fun _ => hi)
    exact ⟨e1, e2, e3, by rw [inv_count e4, inv_count hinv, e3]⟩

theorem replace_at_contract_witness :
    OrdOK cfgW icmp ∧ Inv cfgW icmp (some treeW) ∧ AllocOK ([] : List Bool) ∧
      1 < count cfgW (some treeW) ∧
      items_of (replace_at cfgW icmp (some treeW) 1 25 []).root = [10, 25, 30, 40] ∧
      (replace_at cfgW icmp (some treeW) 1 35 []).ret = Status.OUTOFORDER :=
  ⟨fun _ => icmp_ord, treeW_inv, fun _ h => absurd h (List.not_mem_nil _), by decide,
    ((replace_at_contract cfgW icmp (some treeW) 1 25 [] (fun _ => icmp_ord) treeW_inv
      (fun _ h => absurd h (List.not_mem_nil _)) (by decide)).2.1
        (Or.inr (by rw [show items_of (some treeW) = [10, 20, 30, 40] from by decide]; simp [lt, icmp]))).2.2.1.trans (by decide),
    ((replace_at_contract cfgW icmp (some treeW) 1 35 [] (fun _ => icmp_ord) treeW_inv
      (fun _ h => absurd h (List.not_mem_nil _)) (by decide)).2.2.1 rfl
        (by rw [show items_of (some treeW) = [10, 20, 30, 40] from by decide]; simp [lt, icmp])).1⟩

/-- C15: evaluation of `insert_at` on the ordered, counted tree of fanout 4 that
holds 10, 20, 30, 40 as root `[20]` over the leaves `[10]` and `[30, 40]`, and
on the tree that inserting 10, 20, 30, 40 into the empty tree builds (the same
four items at height 2): the index 5 is above the count 4, and for the item 5
the call returns `OUTOFORDER`, not `NOTFOUND`, while for the item 50 at the
same index, and for the item 5 at index 2 of the single leaf `[10]`, it returns
`NOTFOUND`; the tree is unchanged every time. -/
theorem insert_at_beyond_count_eval :
    count cfgW (some treeW) = 4 ∧
    (insert_at cfgW icmp (some treeW) 5 5 []).ret = Status.OUTOFORDER ∧
    items_of (insert_at cfgW icmp (some treeW) 5 5 []).root = [10, 20, 30, 40] ∧
    (insert_at cfgW icmp (some treeW) 5 50 []).ret = Status.NOTFOUND ∧
    items_of (insert_at cfgW icmp (some treeW) 5 50 []).root = [10, 20, 30, 40] ∧
    (insert_at cfgW icmp (some (leafW [10])) 2 5 []).ret = Status.NOTFOUND ∧
    items_of (insert_at cfgW icmp (some (leafW [10])) 2 5 []).root = [10] ∧
    (insert_all cfgW icmp [10, 20, 30, 40] none []).1 =
      [Status.INSERTED, Status.INSERTED, Status.INSERTED, Status.INSERTED] ∧
    items_of (insert_all cfgW icmp [10, 20, 30, 40] none []).2.1 = [10, 20, 30, 40] ∧
    height (insert_all cfgW icmp [10, 20, 30, 40] none []).2.1 = 2 ∧
    count cfgW (insert_all cfgW icmp [10, 20, 30, 40] none []).2.1 = 4 ∧
    (insert_at cfgW icmp (insert_all cfgW icmp [10, 20, 30, 40] none []).2.1 5 5 []).ret =
      Status.OUTOFORDER ∧
    (insert_at cfgW icmp (insert_all cfgW icmp [10, 20, 30, 40] none []).2.1 5 50 []).ret =
      Status.NOTFOUND := by
  decide

section seekcb
variable {cfg : Config} {cmp : α → α → Int}

theorem cow_true (n : Node α) : cow n = true := rfl

mutual
theorem node_scan_mut_eq {σ : Type} (iter : α → σ → Bool × σ) :
    ∀ (n : Node α) (s : σ) (st : Status),
      node_scan_mut iter n s st = ((visit iter (flat n) s).1, (visit iter (flat n) s).2, st)
  | mk items _ isleaf children _, s, st => by
    rw [node_scan_mut, flat]
    cases isleaf
    · simp only [Bool.false_eq_true, if_false]
      exact node_scan_mutL_eq iter children items s st
    · simp only [if_true]
      rw [scan_items_eq iter items s]
theorem node_scan_mutL_eq {σ : Type} (iter : α → σ → Bool × σ) :
    ∀ (cs : List (Node α)) (ss : List α) (s : σ) (st : Status),
      node_scan_mutL iter cs ss s st =
        ((visit iter (flatL cs ss) s).1, (visit iter (flatL cs ss) s).2, st)
  | [], _, s, st => by simp [node_scan_mutL, flatL, visit]
  | c :: _, [], s, st => by
    rw [node_scan_mutL, flatL]
    simp only [cow_true, if_true]
    exact node_scan_mut_eq iter c s st
  | c :: cs, x :: xs, s, st => by
    rw [node_scan_mutL, flatL, visit_append]
    simp only [cow_true, if_true, node_scan_mut_eq iter c s st, visit]
    rw [node_scan_mutL_eq iter cs xs]
    split
    · split <;> rfl
    · rfl
end

mutual
theorem node_scan_desc_mut_eq {σ : Type} (iter : α → σ → Bool × σ) :
    ∀ (n : Node α) (s : σ) (st : Status),
      node_scan_desc_mut iter n s st =
        ((visit iter (flat n).reverse s).1, (visit iter (flat n).reverse s).2, st)
  | mk items _ isleaf children _, s, st => by
    rw [node_scan_desc_mut, flat]
    cases isleaf
    · simp only [Bool.false_eq_true, if_false]
      exact node_scan_desc_mutL_eq iter children items s st
    · simp only [if_true]
      rw [scan_items_eq iter items.reverse s]
theorem node_scan_desc_mutL_eq {σ : Type} (iter : α → σ → Bool × σ) :
    ∀ (cs : List (Node α)) (ss : List α) (s : σ) (st : Status),
      node_scan_desc_mutL iter cs ss s st =
        ((visit iter (flatL cs ss).reverse s).1, (visit iter (flatL cs ss).reverse s).2, st)
  | [], _, s, st => by simp [node_scan_desc_mutL, flatL, visit]
  | c :: _, [], s, st => by
    rw [node_scan_desc_mutL, flatL]
    simp only [cow_true, if_true]
    exact node_scan_desc_mut_eq iter c s st
  | c :: cs, x :: xs, s, st => by
    rw [node_scan_desc_mutL, flatL, List.reverse_append, List.reverse_cons, List.append_assoc,
      visit_append, node_scan_desc_mutL_eq iter cs xs s st]
    simp only [List.singleton_append, visit, cow_true, if_true]
    rw [node_scan_desc_mut_eq iter c]
    split
    · split <;> rfl
    · rfl
end

theorem node_seek_rest_leaf {σ : Type} (iter : α → σ → Bool × σ) :
    ∀ (T : List α) (B : List (Node α)) (s : σ), node_seek_rest iter true T B s = visit iter T s
  | [], _, _ => by simp [node_seek_rest, visit]
  | x :: T, B, s => by
    rw [node_seek_rest, visit]
    simp only [if_true]
    rw [node_seek_rest_leaf iter T B]

theorem node_seek_rest_branch {σ : Type} (iter : α → σ → Bool × σ) :
    ∀ (T : List α) (B : List (Node α)) (s : σ), B.length = T.length →
      node_seek_rest iter false T B s = visit iter (tailL B T) s
  | [], _, _, _ => by simp [node_seek_rest, visit, tailL]
  | x :: T, [], s, h => by simp at h
  | x :: T, c :: B, s, h => by
    have hl : B.length = T.length := by simpa using h
    rw [node_seek_rest, tailL, visit, flatL_cons, visit_append]
    simp only [Bool.false_eq_true, if_false, List.headD_cons, List.tail_cons, node_scan_eq]
    rw [node_seek_rest_branch iter T B _ hl]

theorem node_seek_mut_rest_eq {σ : Type} (iter : α → σ → Bool × σ) (isleaf : Bool) :
    ∀ (T : List α) (B : List (Node α)) (s : σ) (st : Status),
      node_seek_mut_rest iter isleaf T B s st =
        ((node_seek_rest iter isleaf T B s).1, (node_seek_rest iter isleaf T B s).2, st)
  | [], _, _, _ => by simp [node_seek_rest, node_seek_mut_rest]
  | x :: T, B, s, st => by
    rw [node_seek_rest, node_seek_mut_rest]
    simp only [cow_true, if_true, node_scan_mut_eq, node_scan_eq]
    split
    · split
      · exact node_seek_mut_rest_eq iter isleaf T B _ st
      · split
        · exact node_seek_mut_rest_eq iter isleaf T _ _ st
        · rfl
    · rfl

theorem all_ge_of_gt (ho : OrdCmp cmp) {key : α} {l : List α} (h : ∀ x ∈ l, lt cmp key x) :
    ∀ x ∈ l, ¬ lt cmp x key := by
  intro x hx hlt
  have h1 := (ho.symm key x).1 (h x hx)
  unfold lt at hlt
  omega

theorem all_le_of_lt (ho : OrdCmp cmp) {key : α} {l : List α} (h : ∀ x ∈ l, lt cmp x key) :
    ∀ x ∈ l, ¬ lt cmp key x := by
  intro x hx hlt
  have h1 := (ho.symm x key).1 (h x hx)
  unfold lt at hlt
  omega

theorem gt_of_head (ho : OrdCmp cmp) {key y : α} {l : List α}
    (hp : (y :: l).Pairwise (lt cmp)) (h0 : cmp key y = 0) : ∀ x ∈ l, lt cmp key x := by
  intro x hx
  simp only [List.pairwise_cons] at hp
  exact ho.lt_of_le_of_lt (by omega) (hp.1 x hx)

theorem lt_of_before (ho : OrdCmp cmp) {key y : α} {l r : List α}
    (hp : (l ++ y :: r).Pairwise (lt cmp)) (h0 : cmp key y = 0) : ∀ x ∈ l, lt cmp x key := by
  intro x hx
  simp only [List.pairwise_append, List.mem_cons] at hp
  have := ho.eq_symm h0
  exact ho.lt_of_lt_of_le (hp.2.2 x hx y (Or.inl rfl)) (by omega)

/-- What the search in a leaf says about the item array, by sides of the key. -/
theorem search_sides_leaf (ho : OrdCmp cmp) (n : Node α) (key : α)
    (hp : n.items.Pairwise (lt cmp)) :
    (search cmp n key).1 ≤ n.items.length ∧
    (∀ x ∈ n.items.take (search cmp n key).1, lt cmp x key) ∧
    ((search cmp n key).2 = true →
      ∃ y, n.items[(search cmp n key).1]? = some y ∧ cmp key y = 0 ∧
        ∀ x ∈ n.items.drop ((search cmp n key).1 + 1), lt cmp key x) ∧
    ((search cmp n key).2 = false → ∀ x ∈ n.items.drop (search cmp n key).1, lt cmp key x) := by
  obtain ⟨S, T, e1, e2, e3, e4, e5⟩ := search_items ho n key hp
  refine ⟨by rw [e1, ← e2]; simp, ?_, ?_, ?_⟩
  · rw [e1, app_take e2]; exact e3
  · intro hf
    obtain ⟨y, T1, hT, h0⟩ := e4 hf
    refine ⟨y, by rw [e1, hT]; exact app_get e2, h0, ?_⟩
    rw [e1, hT, app_drop1 e2]
    rw [e1, hT] at hp
    exact gt_of_head ho (List.pairwise_append.1 hp).2.1 h0
  · intro hf
    rw [e1, app_drop e2]
    exact e5 hf

end seekcb

section seekasc
variable {cfg : Config} {cmp : α → α → Int}

/-- A sequence cut into a part below the key and a part not below it. -/
theorem filter_ge_cut (key : α) (L R : List α) (hL : ∀ x ∈ L, lt cmp x key)
    (hR : ∀ x ∈ R, ¬ lt cmp x key) :
    (L ++ R).filter (fun x => decide (0 ≤ cmp x key)) = R := by
  rw [List.filter_append]
  have h1 : L.filter (fun x => decide (0 ≤ cmp x key)) = [] := by
    rw [List.filter_eq_nil_iff]
    intro x hx
    have := hL x hx
    unfold lt at this
    simp; omega
  have h2 : R.filter (fun x => decide (0 ≤ cmp x key)) = R := by
    rw [List.filter_eq_self]
    intro x hx
    have := hR x hx
    unfold lt at this
    simp; omega
  rw [h1, h2]; rfl

theorem node_seek_spec (ho : OrdCmp cmp) (key : α) {σ : Type} (iter : α → σ → Bool × σ) :
    ∀ (h fuel : Nat) (n : Node α), WF cfg h n → h ≤ fuel → (flat n).Pairwise (lt cmp) →
      ∃ L R, flat n = L ++ R ∧ (∀ x ∈ L, lt cmp x key) ∧ (∀ x ∈ R, ¬ lt cmp x key) ∧
        (∀ s, node_seek cmp key iter fuel n s = some (visit iter R s)) ∧
        (∀ s st, node_seek_mut cmp key iter fuel n s st =
          some ((visit iter R s).1, (visit iter R s).2, st))
  | 0, _, _, hw, _, _ => absurd hw (by simp [WF])
  | 1, fuel, n, hw, hf, hp => by
    obtain ⟨f, rfl⟩ : ∃ f, fuel = f + 1 := ⟨fuel - 1, by omega⟩
    have hl := (wf_leaf hw).1
    rw [flat_leaf n hl] at hp ⊢
    obtain ⟨S, T, e1, e2, e3, e4, e5⟩ := search_items ho n key hp
    have hT : ∀ x ∈ T, ¬ lt cmp x key := by
      cases hfound : (search cmp n key).2
      · exact all_ge_of_gt ho (e5 hfound)
      · obtain ⟨y, T1, hT, h0⟩ := e4 hfound
        rw [e1, hT] at hp
        have hgt := gt_of_head ho (List.pairwise_append.1 hp).2.1 h0
        intro x hx
        rw [hT] at hx
        rcases List.mem_cons.1 hx with rfl | hx
        · have := ho.eq_symm h0; unfold lt; omega
        · exact all_ge_of_gt ho hgt x hx
    have hd : n.items.drop (search cmp n key).1 = T := by rw [e1]; exact app_drop e2
    refine ⟨S, T, e1, e3, hT, fun s => ?_, fun s st => ?_⟩
    · rw [node_seek]
      simp only [hl, Bool.true_eq_false, and_false, if_false, hd, node_seek_rest_leaf]
    · rw [node_seek_mut]
      simp only [hl, Bool.true_eq_false, and_false, if_false, hd, node_seek_mut_rest_eq,
        node_seek_rest_leaf]
  | h + 2, fuel, n, hw, hf, hp => by
    obtain ⟨f, rfl⟩ : ∃ f, fuel = f + 1 := ⟨fuel - 1, by omega⟩
    obtain ⟨A, c, B, S, T, h1, h2, h3, h4, h5, h6, h7, h8, h9, h10⟩ := search_branch ho hw key hp
    have hl := (wf_branch hw).1
    have hi : (search cmp n key).1 ≤ n.items.length := by rw [h2, ← h4]; simp
    have hwc := (wf_child hw hi).1
    rw [h6] at hwc
    have hp2 := hp
    rw [h7] at hp2
    have hpc : (flat c).Pairwise (lt cmp) :=
      (List.pairwise_append.1 (List.pairwise_append.1 hp2).2.1).1
    have hdi : n.items.drop (search cmp n key).1 = T := by rw [h2]; exact app_drop h4
    have hdc : n.children.drop ((search cmp n key).1 + 1) = B := by rw [h1]; exact app_drop1 h3
    cases hfound : (search cmp n key).2
    · obtain ⟨L1, R1, hc1, hc2, hc3, hc4, hc5⟩ := node_seek_spec ho key iter (h + 1) f c hwc
        (by omega) hpc
      refine ⟨flatP A S ++ L1, R1 ++ tailL B T, by rw [h7, hc1]; simp, ?_, ?_, fun s => ?_,
        fun s st => ?_⟩
      · intro x hx
        rcases List.mem_append.1 hx with hx | hx
        · exact h8 x hx
        · exact hc2 x hx
      · intro x hx
        rcases List.mem_append.1 hx with hx | hx
        · exact hc3 x hx
        · exact all_ge_of_gt ho (h10 hfound) x hx
      · rw [node_seek]
        simp only [hfound, hl, and_self, if_true, h6, hc4, hdi, hdc, visit_append]
        rcases hv : visit iter R1 s with ⟨b, s1⟩
        cases b
        · simp
        · simp [node_seek_rest_branch iter T B s1 h5]
      · rw [node_seek_mut]
        simp only [hfound, hl, and_self, if_true, h6, hc5, hdi, hdc, visit_append, cow_true]
        rcases hv : visit iter R1 s with ⟨b, s1⟩
        cases b
        · simp
        · simp [node_seek_mut_rest_eq, node_seek_rest_branch iter T B s1 h5]
    · obtain ⟨y, T1, hT, h0⟩ := h9 hfound
      have hp3 : (flatP A S ++ flat c ++ tailL B T).Pairwise (lt cmp) := by
        rw [List.append_assoc]; exact hp2
      have htl : tailL B T = y :: flatL B T1 := by rw [hT]; rfl
      refine ⟨flatP A S ++ flat c, tailL B T, by rw [h7]; simp, ?_, ?_, fun s => ?_,
        fun s st => ?_⟩
      · rw [htl] at hp3
        exact lt_of_before ho hp3 h0
      · rw [htl]
        have hpt : (y :: flatL B T1).Pairwise (lt cmp) := by
          rw [htl] at hp3; exact (List.pairwise_append.1 hp3).2.1
        intro x hx
        rcases List.mem_cons.1 hx with rfl | hx
        · have := ho.eq_symm h0; unfold lt; omega
        · exact all_ge_of_gt ho (gt_of_head ho hpt h0) x hx
      · rw [node_seek]
        simp only [hfound, Bool.true_eq_false, false_and, if_false, hl, hdi, hdc,
          node_seek_rest_branch iter T B s h5]
      · rw [node_seek_mut]
        simp only [hfound, Bool.true_eq_false, false_and, if_false, hl, hdi, hdc,
          node_seek_mut_rest_eq, node_seek_rest_branch iter T B s h5]

/-- The callbacks of `seek` and `seek_mut` on a tree in strict order. -/
theorem seek_eq (ho : OrdCmp cmp) (hno : cfg.noorder = false) (root : Option (Node α))
    (hinv : Inv cfg cmp root) (key : α) {σ : Type} (iter : α → σ → Bool × σ) (s : σ) :
    seek cmp root key iter s =
      (if (visit iter ((items_of root).filter (fun x => decide (0 ≤ cmp x key))) s).1
        then Status.FINISHED else Status.STOPPED,
        (visit iter ((items_of root).filter (fun x => decide (0 ≤ cmp x key))) s).2) ∧
    seek_mut cmp root key iter s = seek cmp root key iter s := by
  cases root with
  | none => simp [seek, seek_mut, items_of, visit]
  | some r =>
    obtain ⟨L, R, e1, e2, e3, e4, e5⟩ := node_seek_spec ho key iter r.height (depth r) r hinv.1
      (by rw [wf_depth _ _ hinv.1]) (hinv.2.2 hno)
    have hR : (items_of (some r)).filter (fun x => decide (0 ≤ cmp x key)) = R := by
      simp only [items_of]; rw [e1]; exact filter_ge_cut key L R e2 e3
    rw [hR]
    simp only [seek, seek_mut, e4, e5, cow_true, if_true]
    rcases hv : visit iter R s with ⟨b, s1⟩
    cases b <;> simp

end seekasc

section slots
variable {cfg : Config} {cmp : α → α → Int}

theorem before_zero (n : Node α) : n.before 0 = [] := by
  simp [Node.before, flatP]

theorem after_len (n : Node α) : n.after n.items.length = [] := by
  simp [Node.after, tailL]

theorem node_cut {h : Nat} {n : Node α} (hw : WF cfg (h + 2) n) {i : Nat}
    (hi : i ≤ n.items.length) : n.before i ++ (flat (n.child i) ++ n.after i) = flat n := by
  obtain ⟨A, c, B, S, T, h1, h2, h3, h4, h5, h6, h7⟩ := branch_flat hw hi
  unfold Node.before Node.after
  rw [h7, h6]
  conv_lhs => rw [h1, h2]
  rw [app_take h3, app_take h4, app_drop1 h3, app_drop h4]

theorem before_succ {n : Node α} (hc : n.children.length = n.items.length + 1) {i : Nat}
    (hi : i < n.items.length) :
    n.before (i + 1) = n.before i ++ (flat (n.child i) ++ [n.items[i]]) := by
  unfold Node.before
  have hci : i < n.children.length := by omega
  rw [List.take_succ, List.take_succ, List.getElem?_eq_getElem hi,
    List.getElem?_eq_getElem hci]
  simp only [Option.toList_some]
  rw [flatP_app _ _ _ _ (by simp; omega), child_eq_getElem n i hci]
  simp [flatP]

theorem after_pred {n : Node α} (hc : n.children.length = n.items.length + 1) {i : Nat}
    (hi : i < n.items.length) :
    n.after i = n.items[i] :: (flat (n.child (i + 1)) ++ n.after (i + 1)) := by
  unfold Node.after
  have hci : i + 1 < n.children.length := by omega
  rw [List.drop_eq_getElem_cons hi, List.drop_eq_getElem_cons hci, tailL, flatL_cons,
    child_eq_getElem n (i + 1) hci]

end slots

section seekdesc
variable {cfg : Config} {cmp : α → α → Int}

theorem visit_one {σ : Type} (iter : α → σ → Bool × σ) (x : α) (s : σ) :
    visit iter [x] s = iter x s := by
  simp only [visit]
  split
  · rename_i h; rw [← h]
  · rename_i h
    have : (iter x s).1 = false := by simpa using h
    rw [← this]

theorem visit_cons_app {σ : Type} (iter : α → σ → Bool × σ) (x : α) (l : List α) (s : σ) :
    visit iter (x :: l) s =
      if (iter x s).1 then visit iter l (iter x s).2 else (false, (iter x s).2) := rfl

theorem seek_desc_body_leaf {σ : Type} (iter : α → σ → Bool × σ) {n : Node α}
    (hl : n.isleaf = true) {i : Nat} (hi : i < n.items.length) (s : σ) :
    node_seek_desc_body iter n i s = iter n.items[i] s := by
  unfold node_seek_desc_body
  rw [List.getElem?_eq_getElem hi]
  simp only [call_slot, hl, if_true]
  split
  · rename_i h; rw [← h]
  · rename_i h
    have : (iter n.items[i] s).1 = false := by simpa using h
    rw [← this]

theorem seek_desc_body_branch {σ : Type} (iter : α → σ → Bool × σ) {n : Node α}
    (hl : n.isleaf = false) {i : Nat} (hi : i < n.items.length) (s : σ) :
    node_seek_desc_body iter n i s = visit iter (n.items[i] :: (flat (n.child i)).reverse) s := by
  unfold node_seek_desc_body
  rw [List.getElem?_eq_getElem hi]
  simp only [call_slot, hl, Bool.false_eq_true, if_false, node_scan_desc_eq, visit]

theorem seek_desc_loop_leaf {σ : Type} (iter : α → σ → Bool × σ) {n : Node α}
    (hl : n.isleaf = true) :
    ∀ (i : Nat) (s : σ), i < n.items.length →
      node_seek_desc_loop iter n i s = visit iter (n.items.take (i + 1)).reverse s
  | 0, s, hi => by
    rw [node_seek_desc_loop, seek_desc_body_leaf iter hl hi, List.take_succ,
      List.getElem?_eq_getElem hi]
    simp [visit_one]
  | i + 1, s, hi => by
    rw [node_seek_desc_loop, seek_desc_body_leaf iter hl hi, List.take_succ,
      List.getElem?_eq_getElem hi]
    simp only [Option.toList_some, List.reverse_append, List.reverse_cons, List.reverse_nil,
      List.nil_append, List.singleton_append, visit]
    rw [seek_desc_loop_leaf iter hl i _ (by omega)]

theorem seek_desc_loop_branch {σ : Type} (iter : α → σ → Bool × σ) {n : Node α}
    (hl : n.isleaf = false) (hc : n.children.length = n.items.length + 1) :
    ∀ (i : Nat) (s : σ), i < n.items.length →
      node_seek_desc_loop iter n i s = visit iter (n.before (i + 1)).reverse s
  | 0, s, hi => by
    rw [node_seek_desc_loop, seek_desc_body_branch iter hl hi, before_succ hc hi, before_zero]
    simp
  | i + 1, s, hi => by
    rw [node_seek_desc_loop, seek_desc_body_branch iter hl hi, before_succ hc hi]
    simp only [List.reverse_append, List.reverse_cons, List.reverse_nil, List.nil_append,
      List.singleton_append, List.cons_append, List.append_assoc]
    rw [← List.cons_append, visit_append]
    rw [seek_desc_loop_branch iter hl hc i _ (by omega)]

theorem seek_desc_mut_loop_found {σ : Type} (iter : α → σ → Bool × σ)
    (sc : Node α → σ → Status → Option (Bool × σ × Status)) (n : Node α) :
    ∀ (i : Nat) (s : σ) (st : Status),
      node_seek_desc_mut_loop iter sc n i true s st =
        some ((node_seek_desc_loop iter n i s).1, (node_seek_desc_loop iter n i s).2, st)
  | 0, s, st => by
    rw [node_seek_desc_mut_loop, node_seek_desc_loop]
    simp only [node_seek_desc_mut_body, node_seek_desc_body, if_true, cow_true,
      node_scan_desc_mut_eq, node_scan_desc_eq]
    split
    · split <;> rfl
    · rfl
  | i + 1, s, st => by
    rw [node_seek_desc_mut_loop, node_seek_desc_loop]
    simp only [node_seek_desc_mut_body, node_seek_desc_body, if_true, cow_true,
      node_scan_desc_mut_eq, node_scan_desc_eq]
    by_cases h1 : (call_slot iter n.items[i + 1]? s).1 = true
    · simp only [h1, if_true]
      by_cases h2 : n.isleaf = true
      · simp only [h2, if_true]
        exact seek_desc_mut_loop_found iter sc n i _ st
      · have h2 : n.isleaf = false := by simpa using h2
        simp only [h2, Bool.false_eq_true, if_false]
        rcases hv : visit iter (flat (n.child (i + 1))).reverse (call_slot iter n.items[i + 1]? s).2
          with ⟨b, s1⟩
        cases b
        · simp
        · simp only [if_true]
          exact seek_desc_mut_loop_found iter sc n i _ st
    · have h1 : (call_slot iter n.items[i + 1]? s).1 = false := by simpa using h1
      simp [h1]

end seekdesc

section seekdesc2
variable {cfg : Config} {cmp : α → α → Int}

/-- A sequence cut into a part not above the key and a part above it. -/
theorem filter_le_cut (ho : OrdCmp cmp) (key : α) (L R : List α)
    (hL : ∀ x ∈ L, ¬ lt cmp key x) (hR : ∀ x ∈ R, lt cmp key x) :
    (L ++ R).filter (fun x => decide (cmp x key ≤ 0)) = L := by
  rw [List.filter_append]
  have h1 : L.filter (fun x => decide (cmp x key ≤ 0)) = L := by
    rw [List.filter_eq_self]
    intro x hx
    have h := hL x hx
    have h2 := ho.symm key x
    unfold lt at h
    simp only [decide_eq_true_eq]
    by_contra hc
    exact h (h2.2 (by omega))
  have h2 : R.filter (fun x => decide (cmp x key ≤ 0)) = [] := by
    rw [List.filter_eq_nil_iff]
    intro x hx
    have h := (ho.symm key x).1 (hR x hx)
    simp; omega
  rw [h1, h2]; simp

theorem mut_loop_notfound_leaf {σ : Type} (iter : α → σ → Bool × σ)
    (sc : Node α → σ → Status → Option (Bool × σ × Status)) {n : Node α}
    (hl : n.isleaf = true) (i : Nat) (s : σ) (st : Status) :
    node_seek_desc_mut_loop iter sc n i false s st =
      if i = 0 then some (true, s, st)
      else some ((node_seek_desc_loop iter n (i - 1) s).1,
        (node_seek_desc_loop iter n (i - 1) s).2, st) := by
  cases i with
  | zero => simp [node_seek_desc_mut_loop, node_seek_desc_mut_body, hl]
  | succ j =>
    rw [node_seek_desc_mut_loop]
    simp [node_seek_desc_mut_body, hl, seek_desc_mut_loop_found]

theorem mut_loop_notfound_branch {σ : Type} (iter : α → σ → Bool × σ)
    (sc : Node α → σ → Status → Option (Bool × σ × Status)) {n : Node α}
    (hl : n.isleaf = false) (i : Nat) (s : σ) (st : Status) (b : Bool) (s1 : σ)
    (hsc : sc (n.child i) s st = some (b, s1, st)) :
    node_seek_desc_mut_loop iter sc n i false s st =
      if b = false then some (false, s1, st)
      else if i = 0 then some (true, s1, st)
      else some ((node_seek_desc_loop iter n (i - 1) s1).1,
        (node_seek_desc_loop iter n (i - 1) s1).2, st) := by
  cases i with
  | zero =>
    cases b <;> simp [node_seek_desc_mut_loop, node_seek_desc_mut_body, hl, cow_true, hsc]
  | succ j =>
    rw [node_seek_desc_mut_loop]
    cases b <;>
      simp [node_seek_desc_mut_body, hl, cow_true, hsc, seek_desc_mut_loop_found]

theorem node_seek_desc_spec (ho : OrdCmp cmp) (key : α) {σ : Type} (iter : α → σ → Bool × σ) :
    ∀ (h fuel : Nat) (n : Node α), WF cfg h n → h ≤ fuel → (flat n).Pairwise (lt cmp) →
      ∃ L R, flat n = L ++ R ∧ (∀ x ∈ L, ¬ lt cmp key x) ∧ (∀ x ∈ R, lt cmp key x) ∧
        (∀ s, node_seek_desc cmp key iter fuel n s = some (visit iter L.reverse s)) ∧
        (∀ s st, node_seek_desc_mut cmp key iter fuel n s st =
          some ((visit iter L.reverse s).1, (visit iter L.reverse s).2, st))
  | 0, _, _, hw, _, _ => absurd hw (by simp [WF])
  | 1, fuel, n, hw, hf, hp => by
    obtain ⟨f, rfl⟩ : ∃ f, fuel = f + 1 := ⟨fuel - 1, by omega⟩
    have hl := (wf_leaf hw).1
    rw [flat_leaf n hl] at hp ⊢
    obtain ⟨S, T, e1, e2, e3, e4, e5⟩ := search_items ho n key hp
    cases hfound : (search cmp n key).2
    · have hS : n.items.take (search cmp n key).1 = S := by rw [e1]; exact app_take e2
      have hloop : (search cmp n key).1 ≠ 0 → ∀ s,
          node_seek_desc_loop iter n ((search cmp n key).1 - 1) s = visit iter S.reverse s := by
        intro h0 s
        have hlt : (search cmp n key).1 - 1 < n.items.length := by
          rw [e1, List.length_append]; omega
        rw [seek_desc_loop_leaf iter hl _ s hlt,
          show (search cmp n key).1 - 1 + 1 = (search cmp n key).1 from by omega, hS]
      have hnil : (search cmp n key).1 = 0 → S = [] := by
        intro h0; rw [h0] at e2; exact List.length_eq_zero.1 e2
      refine ⟨S, T, e1, all_le_of_lt ho e3, e5 hfound, fun s => ?_, fun s st => ?_⟩
      · rw [node_seek_desc]
        simp only [hfound, Bool.false_eq_true, if_false, hl, if_true]
        by_cases h0 : (search cmp n key).1 = 0
        · simp [h0, hnil h0, visit]
        · simp [h0, hloop h0]
      · rw [node_seek_desc_mut, hfound, mut_loop_notfound_leaf iter _ hl]
        by_cases h0 : (search cmp n key).1 = 0
        · simp [h0, hnil h0, visit]
        · simp [h0, hloop h0]
    · obtain ⟨y, T1, hT, h0⟩ := e4 hfound
      have hlt : (search cmp n key).1 < n.items.length := by
        rw [e1, hT, List.length_append, List.length_cons]; omega
      have hS : n.items.take ((search cmp n key).1 + 1) = S ++ [y] := by
        rw [e1, hT]; exact app_take1 e2
      have hp2 := hp
      rw [e1, hT] at hp2
      refine ⟨S ++ [y], T1, by rw [e1, hT]; simp, ?_, ?_, fun s => ?_, fun s st => ?_⟩
      · intro x hx
        rcases List.mem_append.1 hx with hx | hx
        · exact all_le_of_lt ho e3 x hx
        · simp only [List.mem_singleton] at hx
          subst hx; unfold lt; omega
      · exact gt_of_head ho (List.pairwise_append.1 hp2).2.1 h0
      · rw [node_seek_desc]
        simp only [hfound, if_true]
        rw [seek_desc_loop_leaf iter hl _ s hlt, hS]
      · rw [node_seek_desc_mut, hfound, seek_desc_mut_loop_found,
          seek_desc_loop_leaf iter hl _ s hlt, hS]
  | h + 2, fuel, n, hw, hf, hp => by
    obtain ⟨f, rfl⟩ : ∃ f, fuel = f + 1 := ⟨fuel - 1, by omega⟩
    obtain ⟨A, c, B, S, T, h1, h2, h3, h4, h5, h6, h7, h8, h9, h10⟩ := search_branch ho hw key hp
    obtain ⟨hl, _, _, hcl, _, _⟩ := wf_branch hw
    have hi : (search cmp n key).1 ≤ n.items.length := by rw [h2, ← h4]; simp
    have hwc := (wf_child hw hi).1
    rw [h6] at hwc
    have hp2 := hp
    rw [h7] at hp2
    have hpc : (flat c).Pairwise (lt cmp) :=
      (List.pairwise_append.1 (List.pairwise_append.1 hp2).2.1).1
    have hbef : n.before (search cmp n key).1 = flatP A S := by
      unfold Node.before
      rw [h1, h2, app_take h3, app_take h4]
    cases hfound : (search cmp n key).2
    · obtain ⟨L1, R1, hc1, hc2, hc3, hc4, hc5⟩ := node_seek_desc_spec ho key iter (h + 1) f c hwc
        (by omega) hpc
      have hloop : (search cmp n key).1 ≠ 0 → ∀ s,
          node_seek_desc_loop iter n ((search cmp n key).1 - 1) s =
            visit iter (flatP A S).reverse s := by
        intro h0 s
        have hlt : (search cmp n key).1 - 1 < n.items.length := by omega
        rw [seek_desc_loop_branch iter hl hcl _ s hlt,
          show (search cmp n key).1 - 1 + 1 = (search cmp n key).1 from by omega, hbef]
      have hnil : (search cmp n key).1 = 0 → flatP A S = [] := by
        intro h0; rw [← hbef, h0, before_zero]
      refine ⟨flatP A S ++ L1, R1 ++ tailL B T, by rw [h7, hc1]; simp, ?_, ?_, fun s => ?_,
        fun s st => ?_⟩
      · intro x hx
        rcases List.mem_append.1 hx with hx | hx
        · exact all_le_of_lt ho h8 x hx
        · exact hc2 x hx
      · intro x hx
        rcases List.mem_append.1 hx with hx | hx
        · exact hc3 x hx
        · exact h10 hfound x hx
      · rw [node_seek_desc]
        simp only [hfound, Bool.false_eq_true, if_false, hl, h6, hc4, List.reverse_append,
          visit_append]
        rcases hv : visit iter L1.reverse s with ⟨b, s1⟩
        cases b
        · simp
        · by_cases h0 : (search cmp n key).1 = 0
          · simp [h0, hnil h0, visit]
          · simp [h0, hloop h0]
      · rw [node_seek_desc_mut, hfound]
        rw [mut_loop_notfound_branch iter _ hl _ s st (visit iter L1.reverse s).1
          (visit iter L1.reverse s).2 (by rw [h6]; exact hc5 s st)]
        simp only [List.reverse_append, visit_append]
        rcases hv : visit iter L1.reverse s with ⟨b, s1⟩
        cases b
        · simp
        · by_cases h0 : (search cmp n key).1 = 0
          · simp [h0, hnil h0, visit]
          · simp [h0, hloop h0]
    · obtain ⟨y, T1, hT, h0⟩ := h9 hfound
      have hlt : (search cmp n key).1 < n.items.length := by
        rw [h2, hT, List.length_append, List.length_cons]; omega
      have hgy : n.items[(search cmp n key).1] = y := by
        have : n.items[(search cmp n key).1]? = some y := by rw [h2, hT]; exact app_get h4
        rw [List.getElem?_eq_getElem hlt] at this
        exact Option.some.inj this
      have hS : n.before ((search cmp n key).1 + 1) = flatP A S ++ (flat c ++ [y]) := by
        rw [before_succ hcl hlt, hbef, h6, hgy]
      have hp3 : (flatP A S ++ flat c ++ tailL B T).Pairwise (lt cmp) := by
        rw [List.append_assoc]; exact hp2
      have htl : tailL B T = y :: flatL B T1 := by rw [hT]; rfl
      rw [htl] at hp3
      refine ⟨flatP A S ++ (flat c ++ [y]), flatL B T1, by rw [h7, htl]; simp, ?_, ?_,
        fun s => ?_, fun s st => ?_⟩
      · intro x hx
        rw [← List.append_assoc] at hx
        rcases List.mem_append.1 hx with hx | hx
        · exact all_le_of_lt ho (lt_of_before ho hp3 h0) x hx
        · simp only [List.mem_singleton] at hx
          subst hx; unfold lt; omega
      · exact gt_of_head ho (List.pairwise_append.1 hp3).2.1 h0
      · rw [node_seek_desc]
        simp only [hfound, if_true]
        rw [seek_desc_loop_branch iter hl hcl _ s hlt, hS]
      · rw [node_seek_desc_mut, hfound, seek_desc_mut_loop_found,
          seek_desc_loop_branch iter hl hcl _ s hlt, hS]

/-- The callbacks of `seek_desc` and `seek_desc_mut` on a tree in strict order. -/
theorem seek_desc_eq (ho : OrdCmp cmp) (hno : cfg.noorder = false) (root : Option (Node α))
    (hinv : Inv cfg cmp root) (key : α) {σ : Type} (iter : α → σ → Bool × σ) (s : σ) :
    seek_desc cmp root key iter s =
      (if (visit iter ((items_of root).filter (fun x => decide (cmp x key ≤ 0))).reverse s).1
        then Status.FINISHED else Status.STOPPED,
        (visit iter ((items_of root).filter (fun x => decide (cmp x key ≤ 0))).reverse s).2) ∧
    seek_desc_mut cmp root key iter s = seek_desc cmp root key iter s := by
  cases root with
  | none => simp [seek_desc, seek_desc_mut, items_of, visit]
  | some r =>
    obtain ⟨L, R, e1, e2, e3, e4, e5⟩ := node_seek_desc_spec ho key iter r.height (depth r) r
      hinv.1 (by rw [wf_depth _ _ hinv.1]) (hinv.2.2 hno)
    have hL : (items_of (some r)).filter (fun x => decide (cmp x key ≤ 0)) = L := by
      simp only [items_of]; rw [e1]; exact filter_le_cut ho key L R e2 e3
    rw [hL]
    simp only [seek_desc, seek_desc_mut, e4, e5, cow_true, if_true]
    rcases hv : visit iter L.reverse s with ⟨b, s1⟩
    cases b <;> simp

end seekdesc2

section cursor
variable {cfg : Config} {cmp : α → α → Int}

theorem frame_nat (f : SNode α) (h : 0 ≤ f.index) : ∃ i : Nat, f = SNode.mk f.node (i : Int) := by
  obtain ⟨i, hi⟩ := Int.eq_ofNat_of_zero_le h
  exact ⟨i, by cases f; simp_all⟩

theorem wf_cases {h : Nat} {n : Node α} (hw : WF cfg h n) :
    (h = 1 ∧ n.isleaf = true) ∨ (∃ k, h = k + 2 ∧ n.isleaf = false) := by
  match h, hw with
  | 0, hw => exact absurd hw (by simp [WF])
  | 1, hw => exact Or.inl ⟨rfl, (wf_leaf hw).1⟩
  | k + 2, hw => exact Or.inr ⟨k, rfl, (wf_branch hw).1⟩

/-- A stack standing on an item has a current item, the first of `items_from`. -/
theorem onItem_cur {f : SNode α} {fs : List (SNode α)} (hS : OnItem cfg (f :: fs)) :
    ∃ i : Nat, f.index = (i : Int) ∧ ∃ hi : i < f.node.items.length,
      iter_item (Iter.mk none Kind.SCAN false true Status.NONE (f :: fs)) =
        some f.node.items[i] ∧
      items_from (f :: fs) =
        f.node.items[i] :: ((if f.node.isleaf then f.node.items.drop (i + 1)
          else flat (f.node.child (i + 1)) ++ f.node.after (i + 1)) ++ post_frames fs) := by
  obtain ⟨⟨h, hw⟩, h0, hlt, _⟩ := hS
  obtain ⟨i, hi⟩ := Int.eq_ofNat_of_zero_le h0
  rw [hi] at hlt
  simp only [Int.toNat_ofNat, len_eq] at hlt
  refine ⟨i, hi, hlt, ?_, ?_⟩
  · simp [iter_item, hi, List.getElem?_eq_getElem hlt]
  · simp only [items_from, hi, Int.toNat_ofNat]
    rcases wf_cases hw with ⟨_, hl⟩ | ⟨k, rfl, hl⟩
    · simp only [hl, if_true]
      rw [List.drop_eq_getElem_cons hlt]
      rfl
    · simp only [hl, Bool.false_eq_true, if_false]
      rw [after_pred (wf_branch hw).2.2.2.1 hlt]
      rfl

theorem pop_asc_spec : ∀ (fs : List (SNode α)) (top : SNode α) (c : Node α), Path cfg c fs →
    (post_frames fs = [] ∧ (iter_pop_asc top fs).1 = false) ∨
    ((iter_pop_asc top fs).1 = true ∧ OnItem cfg (iter_pop_asc top fs).2 ∧
      items_before (iter_pop_asc top fs).2 = pre_frames fs ++ flat c ∧
      items_from (iter_pop_asc top fs).2 = post_frames fs)
  | [], _, _, _ => Or.inl ⟨rfl, rfl⟩
  | g :: rest, top, c, hp => by
    obtain ⟨⟨h, hw⟩, h0, hle, hch, hrest⟩ := hp
    obtain ⟨i, hi⟩ := Int.eq_ofNat_of_zero_le h0
    rw [hi] at hle hch
    simp only [Int.toNat_ofNat, len_eq] at hle hch
    obtain ⟨hl, _, _, hcl, _, _⟩ := wf_branch hw
    rw [iter_pop_asc]
    by_cases hlt : g.index < (g.node.len : Int)
    · simp only [hlt, if_true]
      have hlt2 : i < g.node.items.length := by
        rw [hi] at hlt; simpa using hlt
      refine Or.inr ⟨trivial, ⟨⟨h + 2, hw⟩, h0, by rw [hi]; simpa using hlt2, hrest⟩, ?_, ?_⟩
      · simp only [items_before, pre_frames, hl, Bool.false_eq_true, if_false, hi,
          Int.toNat_ofNat, hch, List.append_assoc]
      · simp only [items_from, post_frames, hl, Bool.false_eq_true, if_false]
    · simp only [hlt, if_false]
      have heq : i = g.node.items.length := by
        rw [hi] at hlt
        have : ¬ i < g.node.items.length := by simpa using hlt
        omega
      have hpost : post_frames (g :: rest) = post_frames rest := by
        simp only [post_frames, hi, Int.toNat_ofNat, heq, after_len, List.nil_append]
      have hpre : pre_frames (g :: rest) ++ flat c = pre_frames rest ++ flat g.node := by
        simp only [pre_frames, hi, Int.toNat_ofNat, List.append_assoc]
        rw [← node_cut hw hle, hch, heq, after_len, List.append_nil]
      rw [hpost, hpre]
      exact pop_asc_spec rest g g.node hrest

end cursor

section cursor2
variable {cfg : Config} {cmp : α → α → Int}

theorem next_asc_descend : ∀ (h fuel : Nat) (c : Node α) (fs : List (SNode α)) (iter : Iter α),
    WF cfg h c → 1 ≤ c.items.length → h ≤ fuel → Path cfg c fs →
    iter.stack = SNode.mk c (-1) :: fs →
    ∃ S, iter_next_asc_loop fuel iter = { iter with stack := S } ∧ OnItem cfg S ∧
      items_before S = pre_frames fs ∧ items_from S = flat c ++ post_frames fs
  | 0, _, _, _, _, hw, _, _, _, _ => absurd hw (by simp [WF])
  | 1, fuel, c, fs, iter, hw, h1, hf, hp, hst => by
    obtain ⟨f, rfl⟩ : ∃ f, fuel = f + 1 := ⟨fuel - 1, by omega⟩
    have hl := (wf_leaf hw).1
    have hlt : (-1 : Int) + 1 < (c.len : Int) := by simp only [len_eq]; omega
    refine ⟨SNode.mk c 0 :: fs, ?_, ⟨⟨1, hw⟩, le_refl _, by simpa using h1, hp⟩, ?_, ?_⟩
    · rw [iter_next_asc_loop, hst]
      simp only [hl, hlt, and_self, if_true]
      rfl
    · simp [items_before, hl]
    · simp [items_from, hl, flat_leaf c hl]
  | h + 2, fuel, c, fs, iter, hw, h1, hf, hp, hst => by
    obtain ⟨f, rfl⟩ : ∃ f, fuel = f + 1 := ⟨fuel - 1, by omega⟩
    obtain ⟨hl, _, _, hcl, _, _⟩ := wf_branch hw
    have hc0 := wf_child hw (Nat.zero_le c.items.length)
    have hp2 : Path cfg (c.child 0) (SNode.mk c 0 :: fs) :=
      ⟨⟨h, hw⟩, le_refl _, by simp, by simp, hp⟩
    obtain ⟨S, e1, e2, e3, e4⟩ := next_asc_descend (h + 1) f (c.child 0) (SNode.mk c 0 :: fs)
      { iter with stack := SNode.mk (c.child 0) (-1) :: SNode.mk c 0 :: fs } hc0.1
      (Nat.le_trans (min_pos cfg) hc0.2) (by omega) hp2 rfl
    refine ⟨S, ?_, e2, ?_, ?_⟩
    · rw [iter_next_asc_loop, hst]
      have hne : ¬ ((-1 : Int) + 1 = (c.len : Int) + 1) := by simp only [len_eq]; omega
      simp only [hl, Bool.false_eq_true, false_and, if_false, false_or, hne, cow_true,
        Bool.not_true, Bool.and_false]
      have : ((-1 : Int) + 1).toNat = 0 := rfl
      rw [this]
      exact e1
    · rw [e3]; simp [pre_frames, before_zero]
    · rw [e4]
      simp only [post_frames, Int.toNat_ofNat]
      rw [← List.append_assoc, ← node_cut hw (Nat.zero_le _), before_zero]
      simp

theorem next_asc_step (iter : Iter α) (hS : OnItem cfg iter.stack) :
    ∃ x R, items_from iter.stack = x :: R ∧ iter_item iter = some x ∧
      ((R = [] ∧ ∃ S, iter_next_asc iter = { iter with stack := S, valid := false }) ∨
       (∃ S, iter_next_asc iter = { iter with stack := S } ∧ OnItem cfg S ∧
          items_before S = items_before iter.stack ++ [x] ∧ items_from S = R)) := by
  rcases hst : iter.stack with _ | ⟨f, fs⟩
  · rw [hst] at hS; exact absurd hS (by simp [OnItem])
  rw [hst] at hS
  obtain ⟨i, hi, hlt, hcur, hfrom⟩ := onItem_cur hS
  obtain ⟨⟨h, hw⟩, h0, _, hp⟩ := hS
  have hitem : iter_item iter = some f.node.items[i] := by
    simp [iter_item, hst, hi, List.getElem?_eq_getElem hlt]
  refine ⟨_, _, hfrom, hitem, ?_⟩
  have hfuel : iter_fuel iter = h := by
    simp only [iter_fuel, hst]; exact wf_depth _ _ hw
  rcases wf_cases hw with ⟨rfl, hl⟩ | ⟨k, rfl, hl⟩
  · -- the top frame is a leaf
    simp only [hl, if_true]
    by_cases hnext : i + 1 < f.node.items.length
    · right
      have hc : f.index + 1 < (f.node.len : Int) := by rw [hi]; simp only [len_eq]; omega
      refine ⟨SNode.mk f.node (f.index + 1) :: fs, ?_,
        ⟨⟨1, hw⟩, (show 0 ≤ f.index + 1 from by omega), ?_, hp⟩, ?_, ?_⟩
      · rw [iter_next_asc, hfuel, iter_next_asc_loop, hst]
        simp only [hl, hc, and_self, if_true]
      · rw [hi]
        simp only [len_eq]
        omega
      · simp only [items_before, hl, if_true, hi]
        have : ((i : Int) + 1).toNat = i + 1 := by omega
        rw [this, Int.toNat_ofNat, List.take_succ, List.getElem?_eq_getElem hlt]
        simp
      · simp only [items_from, hl, if_true, hi]
        have : ((i : Int) + 1).toNat = i + 1 := by omega
        rw [this]
    · have hc : ¬ (f.index + 1 < (f.node.len : Int)) := by
        rw [hi]; simp only [len_eq]; omega
      have hdrop : f.node.items.drop (i + 1) = [] := List.drop_eq_nil_of_le (by omega)
      have hloop : iter_next_asc iter =
          if (iter_pop_asc (SNode.mk f.node (f.index + 1)) fs).1 then
            { iter with stack := (iter_pop_asc (SNode.mk f.node (f.index + 1)) fs).2 }
          else
            { iter with stack := (iter_pop_asc (SNode.mk f.node (f.index + 1)) fs).2,
                        valid := false } := by
        rw [iter_next_asc, hfuel, iter_next_asc_loop, hst]
        simp only [hl, hc, and_false, if_false, true_or, if_true]
      rcases pop_asc_spec fs (SNode.mk f.node (f.index + 1)) f.node hp with
        ⟨e1, e2⟩ | ⟨e1, e2, e3, e4⟩
      · left
        refine ⟨by rw [hdrop, e1]; rfl,
          (iter_pop_asc (SNode.mk f.node (f.index + 1)) fs).2, ?_⟩
        rw [hloop, e2]
        simp
      · right
        refine ⟨(iter_pop_asc (SNode.mk f.node (f.index + 1)) fs).2, ?_, e2, ?_, ?_⟩
        · rw [hloop, e1]; simp
        · rw [e3]
          simp only [items_before, hl, if_true, hi, Int.toNat_ofNat, flat_leaf f.node hl,
            List.append_assoc]
          congr 1
          have : f.node.items = f.node.items.take i ++ f.node.items.drop i :=
            (List.take_append_drop i _).symm
          conv_lhs => rw [this]
          rw [List.drop_eq_getElem_cons hlt, hdrop]
        · rw [e4, hdrop]; rfl
  · -- the top frame is a branch
    simp only [hl, Bool.false_eq_true, if_false]
    right
    obtain ⟨_, _, _, hcl, _, _⟩ := wf_branch hw
    have hc1 := wf_child hw (show i + 1 ≤ f.node.items.length from hlt)
    have hp2 : Path cfg (f.node.child (i + 1)) (SNode.mk f.node ((i : Int) + 1) :: fs) := by
      have e : ((i : Int) + 1).toNat = i + 1 := by omega
      refine ⟨⟨k, hw⟩, (show (0 : Int) ≤ (i : Int) + 1 from by omega), ?_, ?_, hp⟩
      · show ((i : Int) + 1).toNat ≤ f.node.len
        rw [e]; exact hlt
      · show f.node.child ((i : Int) + 1).toNat = _
        rw [e]
    obtain ⟨S, e1, e2, e3, e4⟩ := next_asc_descend (k + 1) (k + 1) (f.node.child (i + 1))
      (SNode.mk f.node ((i : Int) + 1) :: fs)
      { iter with stack := SNode.mk (f.node.child (i + 1)) (-1) ::
          SNode.mk f.node ((i : Int) + 1) :: fs } hc1.1
      (Nat.le_trans (min_pos cfg) hc1.2) (le_refl _) hp2 rfl
    refine ⟨S, ?_, e2, ?_, ?_⟩
    · rw [iter_next_asc, hfuel, iter_next_asc_loop, hst]
      have hne : ¬ (f.index + 1 = (f.node.len : Int) + 1) := by
        rw [hi]; simp only [len_eq]; omega
      simp only [hl, Bool.false_eq_true, false_and, if_false, false_or, hne, cow_true,
        Bool.not_true, Bool.and_false]
      have : (f.index + 1).toNat = i + 1 := by omega
      rw [this, hi]
      exact e1
    · rw [e3]
      have e : ((i : Int) + 1).toNat = i + 1 := by omega
      simp only [pre_frames, items_before, hl, Bool.false_eq_true, if_false, hi, e,
        Int.toNat_ofNat, List.append_assoc]
      rw [before_succ hcl hlt]
    · rw [e4]
      have e : ((i : Int) + 1).toNat = i + 1 := by omega
      simp only [post_frames, e, List.append_assoc]

theorem iter_next_scan (iter : Iter α) (hk : iter.kind = Kind.SCAN)
    (hS : OnItem cfg iter.stack) : iter_next iter = iter_next_asc iter := by
  rcases hst : iter.stack with _ | ⟨f, fs⟩
  · rw [hst] at hS; exact absurd hS (by simp [OnItem])
  rw [hst] at hS
  obtain ⟨⟨h, hw⟩, _, _, _⟩ := hS
  have hfuel : iter_fuel iter = h := by
    simp only [iter_fuel, hst]; exact wf_depth _ _ hw
  obtain ⟨k, rfl⟩ : ∃ k, h = k + 1 := ⟨h - 1, by have := wf_pos hw; omega⟩
  rw [iter_next, hk]
  simp only [hst]
  split
  · rename_i hc
    rw [iter_next_asc, hfuel, iter_next_asc_loop, hst]
    simp only [hc, and_self, if_true]
    rw [hk]
  · rfl

end cursor2

section cursor3
variable {cfg : Config} {cmp : α → α → Int}

theorem pop_desc_spec : ∀ (fs : List (SNode α)) (top : SNode α) (c : Node α), Path cfg c fs →
    (pre_frames fs = [] ∧ (iter_pop_desc top fs).1 = false) ∨
    ((iter_pop_desc top fs).1 = true ∧ OnItem cfg (iter_pop_desc top fs).2 ∧
      ∃ x, pre_frames fs = items_before (iter_pop_desc top fs).2 ++ [x] ∧
        items_from (iter_pop_desc top fs).2 = x :: (flat c ++ post_frames fs))
  | [], _, _, _ => Or.inl ⟨rfl, rfl⟩
  | g :: rest, top, c, hp => by
    obtain ⟨⟨h, hw⟩, h0, hle, hch, hrest⟩ := hp
    obtain ⟨i, hi⟩ := Int.eq_ofNat_of_zero_le h0
    rw [hi] at hle hch
    simp only [Int.toNat_ofNat, len_eq] at hle hch
    obtain ⟨hl, _, _, hcl, _, _⟩ := wf_branch hw
    rw [iter_pop_desc]
    by_cases hgt : g.index - 1 > -1
    · simp only [hgt, if_true]
      obtain ⟨j, rfl⟩ : ∃ j, i = j + 1 := ⟨i - 1, by rw [hi] at hgt; omega⟩
      have hj : j < g.node.items.length := by omega
      have e : (g.index - 1).toNat = j := by rw [hi]; omega
      have e' : ((↑(j + 1) : Int) - 1).toNat = j := by omega
      refine Or.inr ⟨trivial, ⟨⟨h + 2, hw⟩, (show 0 ≤ g.index - 1 from by omega), ?_, hrest⟩,
        g.node.items[j], ?_, ?_⟩
      · show (g.index - 1).toNat < g.node.len
        rw [e]; exact hj
      · simp only [items_before, pre_frames, hl, Bool.false_eq_true, if_false, hi,
          Int.toNat_ofNat, e', List.append_assoc]
        rw [before_succ hcl hj]
      · simp only [items_from, post_frames, hl, Bool.false_eq_true, if_false, e', hi,
          Int.toNat_ofNat]
        rw [after_pred hcl hj, hch]
        simp
    · simp only [hgt, if_false]
      have heq : i = 0 := by rw [hi] at hgt; omega
      subst heq
      have hpre : pre_frames (g :: rest) = pre_frames rest := by
        simp only [pre_frames, hi, Int.toNat_ofNat, before_zero, List.append_nil]
      have hpost : flat c ++ post_frames (g :: rest) = flat g.node ++ post_frames rest := by
        simp only [post_frames, hi, Int.toNat_ofNat]
        rw [← node_cut hw hle, hch, before_zero]
        simp
      rw [hpre, hpost]
      exact pop_desc_spec rest (SNode.mk g.node (g.index - 1)) g.node hrest

theorem next_desc_descend : ∀ (h fuel : Nat) (c : Node α) (fs : List (SNode α)) (iter : Iter α),
    WF cfg h c → 1 ≤ c.items.length → h ≤ fuel → Path cfg c fs →
    iter.stack = SNode.mk c (c.len : Int) :: fs →
    ∃ S, iter_next_desc_loop fuel iter = { iter with stack := S } ∧ OnItem cfg S ∧
      ∃ x, pre_frames fs ++ flat c = items_before S ++ [x] ∧ items_from S = x :: post_frames fs
  | 0, _, _, _, _, hw, _, _, _, _ => absurd hw (by simp [WF])
  | 1, fuel, c, fs, iter, hw, h1, hf, hp, hst => by
    obtain ⟨f, rfl⟩ : ∃ f, fuel = f + 1 := ⟨fuel - 1, by omega⟩
    have hl := (wf_leaf hw).1
    have hgt : (c.len : Int) - 1 > -1 := by simp only [len_eq]; omega
    obtain ⟨j, hj⟩ : ∃ j, c.items.length = j + 1 := ⟨c.items.length - 1, by omega⟩
    have e : ((c.len : Int) - 1).toNat = j := by simp only [len_eq]; omega
    have hjl : j < c.items.length := by omega
    refine ⟨SNode.mk c ((c.len : Int) - 1) :: fs, ?_,
      ⟨⟨1, hw⟩, (show 0 ≤ (c.len : Int) - 1 from by omega), ?_, hp⟩, c.items[j], ?_, ?_⟩
    · rw [iter_next_desc_loop, hst]
      simp only [hl, hgt, and_self, if_true]
    · show ((c.len : Int) - 1).toNat < c.len
      rw [e]; exact hjl
    · simp only [items_before, hl, if_true, e, flat_leaf c hl, List.append_assoc]
      congr 1
      have : c.items = c.items.take j ++ c.items.drop j := (List.take_append_drop j _).symm
      conv_lhs => rw [this]
      rw [List.drop_eq_getElem_cons hjl, List.drop_eq_nil_of_le (by omega)]
    · simp only [items_from, hl, if_true, e]
      rw [List.drop_eq_getElem_cons hjl, List.drop_eq_nil_of_le (by omega)]
      rfl
  | h + 2, fuel, c, fs, iter, hw, h1, hf, hp, hst => by
    obtain ⟨f, rfl⟩ : ∃ f, fuel = f + 1 := ⟨fuel - 1, by omega⟩
    obtain ⟨hl, _, _, hcl, _, _⟩ := wf_branch hw
    have hc0 := wf_child hw (le_refl c.items.length)
    have hp2 : Path cfg (c.child c.items.length) (SNode.mk c (c.len : Int) :: fs) :=
      ⟨⟨h, hw⟩, by simp, by simp, by simp, hp⟩
    obtain ⟨S, e1, e2, x, e3, e4⟩ := next_desc_descend (h + 1) f (c.child c.items.length)
      (SNode.mk c (c.len : Int) :: fs)
      { iter with stack := (SNode.mk (c.child c.items.length)
          ((c.child c.items.length).len : Int) :: SNode.mk c (c.len : Int) :: fs) } hc0.1
      (Nat.le_trans (min_pos cfg) hc0.2) (by omega) hp2 rfl
    refine ⟨S, ?_, e2, x, ?_, ?_⟩
    · rw [iter_next_desc_loop, hst]
      simp only [hl, Bool.false_eq_true, false_and, if_false, cow_true,
        Bool.not_true, Bool.and_false, Int.toNat_ofNat, len_eq]
      exact e1
    · rw [← e3]
      simp only [pre_frames, Int.toNat_ofNat, len_eq, List.append_assoc]
      rw [← node_cut hw (le_refl _), after_len, List.append_nil]
    · rw [e4]
      simp only [post_frames, Int.toNat_ofNat, len_eq, after_len, List.nil_append]

theorem next_desc_step (iter : Iter α) (hS : OnItem cfg iter.stack) :
    (items_before iter.stack = [] ∧
      ∃ S, iter_next_desc iter = { iter with stack := S, valid := false }) ∨
    (∃ S x, iter_next_desc iter = { iter with stack := S } ∧ OnItem cfg S ∧
      items_before iter.stack = items_before S ++ [x] ∧
      items_from S = x :: items_from iter.stack) := by
  rcases hst : iter.stack with _ | ⟨f, fs⟩
  · rw [hst] at hS; exact absurd hS (by simp [OnItem])
  rw [hst] at hS
  obtain ⟨⟨h, hw⟩, h0, hlt, hp⟩ := hS
  obtain ⟨i, hi⟩ := Int.eq_ofNat_of_zero_le h0
  rw [hi] at hlt
  simp only [Int.toNat_ofNat, len_eq] at hlt
  have hfuel : iter_fuel iter = h := by
    simp only [iter_fuel, hst]; exact wf_depth _ _ hw
  rcases wf_cases hw with ⟨rfl, hl⟩ | ⟨k, rfl, hl⟩
  · by_cases hgt : f.index - 1 > -1
    · right
      obtain ⟨j, rfl⟩ : ∃ j, i = j + 1 := ⟨i - 1, by rw [hi] at hgt; omega⟩
      have e : (f.index - 1).toNat = j := by rw [hi]; omega
      have e' : ((↑(j + 1) : Int) - 1).toNat = j := by omega
      have hj : j < f.node.items.length := by omega
      refine ⟨SNode.mk f.node (f.index - 1) :: fs, f.node.items[j], ?_,
        ⟨⟨1, hw⟩, (show 0 ≤ f.index - 1 from by omega), ?_, hp⟩, ?_, ?_⟩
      · rw [iter_next_desc, hfuel, iter_next_desc_loop, hst]
        simp only [hl, hgt, and_self, if_true]
      · show (f.index - 1).toNat < f.node.len
        rw [e]; exact hj
      · simp only [items_before, hl, if_true, hi, e', Int.toNat_ofNat, List.append_assoc]
        rw [List.take_succ, List.getElem?_eq_getElem hj]
        simp
      · simp only [items_from, hl, if_true, hi, e', Int.toNat_ofNat]
        rw [List.drop_eq_getElem_cons hj]
        rfl
    · have heq : i = 0 := by rw [hi] at hgt; omega
      subst heq
      have hloop : iter_next_desc iter =
          if (iter_pop_desc (SNode.mk f.node (f.index - 1)) fs).1 then
            { iter with stack := (iter_pop_desc (SNode.mk f.node (f.index - 1)) fs).2 }
          else
            { iter with stack := (iter_pop_desc (SNode.mk f.node (f.index - 1)) fs).2,
                        valid := false } := by
        rw [iter_next_desc, hfuel, iter_next_desc_loop, hst]
        simp only [hl, hgt, and_false, if_false, if_true]
      rcases pop_desc_spec fs (SNode.mk f.node (f.index - 1)) f.node hp with
        ⟨e1, e2⟩ | ⟨e1, e2, x, e3, e4⟩
      · left
        refine ⟨by simp [items_before, hl, hi, e1],
          (iter_pop_desc (SNode.mk f.node (f.index - 1)) fs).2, ?_⟩
        rw [hloop, e2]
        simp
      · right
        refine ⟨(iter_pop_desc (SNode.mk f.node (f.index - 1)) fs).2, x, ?_, e2, ?_, ?_⟩
        · rw [hloop, e1]; simp
        · rw [← e3]; simp [items_before, hl, hi]
        · rw [e4]; simp [items_from, hl, hi, flat_leaf f.node hl]
  · right
    obtain ⟨_, _, _, hcl, _, _⟩ := wf_branch hw
    have hc1 := wf_child hw (show i ≤ f.node.items.length from by omega)
    have hp2 : Path cfg (f.node.child i) (f :: fs) :=
      ⟨⟨k, hw⟩, h0, by rw [hi]; simp only [Int.toNat_ofNat, len_eq]; omega,
        by rw [hi]; simp, hp⟩
    obtain ⟨S, e1, e2, x, e3, e4⟩ := next_desc_descend (k + 1) (k + 1) (f.node.child i)
      (f :: fs)
      { iter with stack := SNode.mk (f.node.child i) ((f.node.child i).len : Int) :: f :: fs }
      hc1.1 (Nat.le_trans (min_pos cfg) hc1.2) (le_refl _) hp2 rfl
    refine ⟨S, x, ?_, e2, ?_, ?_⟩
    · rw [iter_next_desc, hfuel, iter_next_desc_loop, hst]
      simp only [hl, Bool.false_eq_true, false_and, if_false, cow_true,
        Bool.not_true, Bool.and_false, hi, Int.toNat_ofNat]
      exact e1
    · rw [← e3]
      simp only [pre_frames, items_before, hl, Bool.false_eq_true, if_false, hi,
        Int.toNat_ofNat, List.append_assoc]
    · rw [e4]
      simp only [post_frames, items_from, hl, Bool.false_eq_true, if_false, hi,
        Int.toNat_ofNat]

end cursor3

section cursor4
variable {cfg : Config} {cmp : α → α → Int}

theorem scan_loop_spec : ∀ (h fuel : Nat) (c : Node α) (fs : List (SNode α)) (iter : Iter α),
    WF cfg h c → 1 ≤ c.items.length → h ≤ fuel → Path cfg c fs → iter.stack = fs →
    ∃ S, iter_scan_loop fuel iter c = { iter with stack := S } ∧ OnItem cfg S ∧
      items_before S = pre_frames fs ∧ items_from S = flat c ++ post_frames fs
  | 0, _, _, _, _, hw, _, _, _, _ => absurd hw (by simp [WF])
  | 1, fuel, c, fs, iter, hw, h1, hf, hp, hst => by
    obtain ⟨f, rfl⟩ : ∃ f, fuel = f + 1 := ⟨fuel - 1, by omega⟩
    have hl := (wf_leaf hw).1
    refine ⟨SNode.mk c 0 :: fs, ?_, ⟨⟨1, hw⟩, le_refl _, by simpa using h1, hp⟩, ?_, ?_⟩
    · rw [iter_scan_loop, hst]
      simp only [hl, if_true]
    · simp [items_before, hl]
    · simp [items_from, hl, flat_leaf c hl]
  | h + 2, fuel, c, fs, iter, hw, h1, hf, hp, hst => by
    obtain ⟨f, rfl⟩ : ∃ f, fuel = f + 1 := ⟨fuel - 1, by omega⟩
    obtain ⟨hl, _, _, hcl, _, _⟩ := wf_branch hw
    have hc0 := wf_child hw (Nat.zero_le c.items.length)
    have hp2 : Path cfg (c.child 0) (SNode.mk c 0 :: fs) :=
      ⟨⟨h, hw⟩, le_refl _, by simp, by simp, hp⟩
    obtain ⟨S, e1, e2, e3, e4⟩ := scan_loop_spec (h + 1) f (c.child 0) (SNode.mk c 0 :: fs)
      { iter with stack := SNode.mk c 0 :: fs } hc0.1
      (Nat.le_trans (min_pos cfg) hc0.2) (by omega) hp2 rfl
    refine ⟨S, ?_, e2, ?_, ?_⟩
    · rw [iter_scan_loop, hst]
      simp only [hl, Bool.false_eq_true, if_false, cow_true, Bool.not_true, Bool.and_false]
      exact e1
    · rw [e3]; simp [pre_frames, before_zero]
    · rw [e4]
      simp only [post_frames, Int.toNat_ofNat]
      rw [← List.append_assoc, ← node_cut hw (Nat.zero_le _), before_zero]
      simp

theorem scan_desc_loop_spec : ∀ (h fuel : Nat) (c : Node α) (fs : List (SNode α))
    (iter : Iter α),
    WF cfg h c → 1 ≤ c.items.length → h ≤ fuel → Path cfg c fs → iter.stack = fs →
    ∃ S, iter_scan_desc_loop fuel iter c = { iter with stack := S } ∧ OnItem cfg S ∧
      ∃ x, pre_frames fs ++ flat c = items_before S ++ [x] ∧ items_from S = x :: post_frames fs
  | 0, _, _, _, _, hw, _, _, _, _ => absurd hw (by simp [WF])
  | 1, fuel, c, fs, iter, hw, h1, hf, hp, hst => by
    obtain ⟨f, rfl⟩ : ∃ f, fuel = f + 1 := ⟨fuel - 1, by omega⟩
    have hl := (wf_leaf hw).1
    obtain ⟨j, hj⟩ : ∃ j, c.items.length = j + 1 := ⟨c.items.length - 1, by omega⟩
    have e : ((c.len : Int) - 1).toNat = j := by simp only [len_eq]; omega
    have hjl : j < c.items.length := by omega
    refine ⟨SNode.mk c ((c.len : Int) - 1) :: fs, ?_,
      ⟨⟨1, hw⟩, (show 0 ≤ (c.len : Int) - 1 from by simp only [len_eq]; omega), ?_, hp⟩,
      c.items[j], ?_, ?_⟩
    · rw [iter_scan_desc_loop, hst]
      simp only [hl, if_true]
    · show ((c.len : Int) - 1).toNat < c.len
      rw [e]; exact hjl
    · simp only [items_before, hl, if_true, e, flat_leaf c hl, List.append_assoc]
      congr 1
      have : c.items = c.items.take j ++ c.items.drop j := (List.take_append_drop j _).symm
      conv_lhs => rw [this]
      rw [List.drop_eq_getElem_cons hjl, List.drop_eq_nil_of_le (by omega)]
    · simp only [items_from, hl, if_true, e]
      rw [List.drop_eq_getElem_cons hjl, List.drop_eq_nil_of_le (by omega)]
      rfl
  | h + 2, fuel, c, fs, iter, hw, h1, hf, hp, hst => by
    obtain ⟨f, rfl⟩ : ∃ f, fuel = f + 1 := ⟨fuel - 1, by omega⟩
    obtain ⟨hl, _, _, hcl, _, _⟩ := wf_branch hw
    have hc0 := wf_child hw (le_refl c.items.length)
    have hp2 : Path cfg (c.child c.items.length) (SNode.mk c (c.len : Int) :: fs) :=
      ⟨⟨h, hw⟩, by simp, by simp, by simp, hp⟩
    obtain ⟨S, e1, e2, x, e3, e4⟩ := scan_desc_loop_spec (h + 1) f (c.child c.items.length)
      (SNode.mk c (c.len : Int) :: fs)
      { iter with stack := (SNode.mk c (c.len : Int) :: fs) } hc0.1
      (Nat.le_trans (min_pos cfg) hc0.2) (by omega) hp2 rfl
    refine ⟨S, ?_, e2, x, ?_, ?_⟩
    · rw [iter_scan_desc_loop, hst]
      simp only [hl, Bool.false_eq_true, if_false, cow_true, Bool.not_true, Bool.and_false,
        len_eq]
      exact e1
    · rw [← e3]
      simp only [pre_frames, Int.toNat_ofNat, len_eq, List.append_assoc]
      rw [← node_cut hw (le_refl _), after_len, List.append_nil]
    · rw [e4]
      simp only [post_frames, Int.toNat_ofNat, len_eq, after_len, List.nil_append]

/-- The cursor loop in ascending direction from a stack standing on an item. -/
theorem cursor_loop_asc {σ : Type} (f : α → σ → Bool × σ) :
    ∀ (n : Nat) (iter : Iter α) (s : σ) (fuel : Nat), iter.valid = true →
      iter.kind = Kind.SCAN → OnItem cfg iter.stack → (items_from iter.stack).length = n →
      n < fuel → cursor_loop f fuel iter s = some (visit f (items_from iter.stack) s)
  | n, iter, s, fuel, hv, hk, hS, hn, hf => by
    obtain ⟨k, rfl⟩ : ∃ k, fuel = k + 1 := ⟨fuel - 1, by omega⟩
    obtain ⟨x, R, e1, e2, e3⟩ := next_asc_step iter hS
    rw [cursor_loop, iter_valid, hv, e1]
    simp only [if_true, e2, visit]
    by_cases hx : (f x s).1 = true
    · simp only [hx, if_true]
      rw [iter_next_scan iter hk hS]
      rcases e3 with ⟨rfl, S, e4⟩ | ⟨S, e4, e5, e6, e7⟩
      · rw [e4]
        rw [e1] at hn
        have hn1 : n = 1 := by simpa using hn.symm
        obtain ⟨k2, rfl⟩ : ∃ k2, k = k2 + 1 := ⟨k - 1, by omega⟩
        simp [cursor_loop, iter_valid, visit]
      · rw [e4, ← e7]
        rw [e1] at hn
        have hn2 : n = R.length + 1 := by simpa using hn.symm
        exact cursor_loop_asc f (n - 1) _ _ k hv hk e5 (by rw [e7]; omega) (by omega)
    · have hx : (f x s).1 = false := by simpa using hx
      simp [hx]

/-- The cursor loop in descending direction from a stack standing on an item. -/
theorem cursor_loop_desc {σ : Type} (f : α → σ → Bool × σ) :
    ∀ (n : Nat) (iter : Iter α) (s : σ) (fuel : Nat), iter.valid = true →
      iter.kind = Kind.SCANDESC → OnItem cfg iter.stack →
      (items_before iter.stack).length = n → n + 1 < fuel →
      ∃ x R, items_from iter.stack = x :: R ∧
        cursor_loop f fuel iter s = some (visit f (x :: (items_before iter.stack).reverse) s)
  | n, iter, s, fuel, hv, hk, hS, hn, hf => by
    obtain ⟨k, rfl⟩ : ∃ k, fuel = k + 1 := ⟨fuel - 1, by omega⟩
    obtain ⟨x, R, e1, e2, _⟩ := next_asc_step iter hS
    refine ⟨x, R, e1, ?_⟩
    rw [cursor_loop, iter_valid, hv]
    simp only [if_true, e2, visit]
    by_cases hx : (f x s).1 = true
    · simp only [hx, if_true]
      have hnext : iter_next iter = iter_next_desc iter := by rw [iter_next, hk]
      rw [hnext]
      rcases next_desc_step iter hS with ⟨e3, S, e4⟩ | ⟨S, y, e4, e5, e6, e7⟩
      · rw [e4, e3]
        obtain ⟨k2, rfl⟩ : ∃ k2, k = k2 + 1 := ⟨k - 1, by omega⟩
        simp [cursor_loop, iter_valid, visit]
      · rw [e4, e6]
        have hlen : (items_before S).length = n - 1 := by
          rw [e6] at hn; simp at hn; omega
        have hpos : 1 ≤ n := by rw [e6] at hn; simp at hn; omega
        obtain ⟨x2, R2, e8, e9⟩ := cursor_loop_desc f (n - 1) { iter with stack := S }
          (f x s).2 k hv hk e5 hlen (by omega)
        rw [e9]
        have : x2 = y := by
          have := e8.symm.trans e7
          simp only [List.cons.injEq] at this
          exact this.1
        rw [this]
        simp
    · have hx : (f x s).1 = false := by simpa using hx
      simp [hx]

end cursor4

section cursor5
variable {cfg : Config} {cmp : α → α → Int}

theorem seek_loop_spec (ho : OrdCmp cmp) (key : α) :
    ∀ (h fuel : Nat) (c : Node α) (fs : List (SNode α)) (iter : Iter α),
    WF cfg h c → 1 ≤ c.items.length → h ≤ fuel → Path cfg c fs → iter.stack = fs →
    iter.kind = Kind.SCAN → (flat c).Pairwise (lt cmp) →
    ∃ L R, flat c = L ++ R ∧ (∀ x ∈ L, lt cmp x key) ∧ (∀ x ∈ R, ¬ lt cmp x key) ∧
      ((R ++ post_frames fs = [] ∧
          ∃ S, iter_seek_loop cmp key fuel iter c = { iter with stack := S, valid := false }) ∨
       (∃ S, iter_seek_loop cmp key fuel iter c = { iter with stack := S } ∧ OnItem cfg S ∧
          items_before S = pre_frames fs ++ L ∧ items_from S = R ++ post_frames fs))
  | 0, _, _, _, _, hw, _, _, _, _, _, _ => absurd hw (by simp [WF])
  | 1, fuel, c, fs, iter, hw, h1, hf, hp, hst, hk, hpw => by
    obtain ⟨f, rfl⟩ : ∃ f, fuel = f + 1 := ⟨fuel - 1, by omega⟩
    have hl := (wf_leaf hw).1
    rw [flat_leaf c hl] at hpw ⊢
    obtain ⟨S, T, e1, e2, e3, e4, e5⟩ := search_items ho c key hpw
    have hT : ∀ x ∈ T, ¬ lt cmp x key := by
      cases hfound : (search cmp c key).2
      · exact all_ge_of_gt ho (e5 hfound)
      · obtain ⟨y, T1, hT, h0⟩ := e4 hfound
        rw [e1, hT] at hpw
        have hgt := gt_of_head ho (List.pairwise_append.1 hpw).2.1 h0
        intro x hx
        rw [hT] at hx
        rcases List.mem_cons.1 hx with rfl | hx
        · have := ho.eq_symm h0; unfold lt; omega
        · exact all_ge_of_gt ho hgt x hx
    have htk : c.items.take (search cmp c key).1 = S := by rw [e1]; exact app_take e2
    have hdr : c.items.drop (search cmp c key).1 = T := by rw [e1]; exact app_drop e2
    have hile : (search cmp c key).1 ≤ c.items.length := by rw [e1, ← e2]; simp
    refine ⟨S, T, e1, e3, hT, ?_⟩
    by_cases hlt : (search cmp c key).1 < c.items.length
    · -- the cursor stops in this leaf
      right
      refine ⟨SNode.mk c ((search cmp c key).1 : Int) :: fs, ?_,
        ⟨⟨1, hw⟩, by simp, by simpa using hlt, hp⟩, ?_, ?_⟩
      · rw [iter_seek_loop, hst]
        cases hfound : (search cmp c key).2
        · simp only [Bool.false_eq_true, if_false, hl, if_true, iter_next, hk]
          have hc : ((search cmp c key).1 : Int) - 1 + 1 < (c.len : Int) := by
            simp only [len_eq]; omega
          simp only [hl, hc, and_self, if_true]
          have : ((search cmp c key).1 : Int) - 1 + 1 = ((search cmp c key).1 : Int) := by omega
          rw [this, ← hk]
        · simp only [if_true]
      · simp [items_before, hl, htk]
      · simp [items_from, hl, hdr]
    · -- the leaf has no item at or above the key
      have hi : (search cmp c key).1 = c.items.length := by omega
      have hfound : (search cmp c key).2 = false := by
        cases hfd : (search cmp c key).2
        · rfl
        · obtain ⟨y, T1, hT1, _⟩ := e4 hfd
          have := congrArg List.length e1
          rw [hT1, List.length_append, List.length_cons] at this
          omega
      have hTn : T = [] := by
        rw [← hdr, hi]; exact List.drop_length _
      obtain ⟨j, hj⟩ : ∃ j, c.items.length = j + 1 := ⟨c.items.length - 1, by omega⟩
      have e : (((search cmp c key).1 : Int) - 1).toNat = j := by omega
      have hjl : j < c.items.length := by omega
      have hS2 : OnItem cfg (SNode.mk c (((search cmp c key).1 : Int) - 1) :: fs) :=
        ⟨⟨1, hw⟩, (show 0 ≤ ((search cmp c key).1 : Int) - 1 from by omega),
          (show (((search cmp c key).1 : Int) - 1).toNat < c.len from by rw [e]; exact hjl), hp⟩
      have hloop : iter_seek_loop cmp key (f + 1) iter c =
          iter_next_asc
            { iter with stack := SNode.mk c (((search cmp c key).1 : Int) - 1) :: fs } := by
        rw [iter_seek_loop, hst]
        simp only [hfound, Bool.false_eq_true, if_false, hl, if_true]
        exact iter_next_scan _ hk hS2
      obtain ⟨x, R, g1, _, g3⟩ := next_asc_step
        { iter with stack := SNode.mk c (((search cmp c key).1 : Int) - 1) :: fs } hS2
      have hfrom : items_from (SNode.mk c (((search cmp c key).1 : Int) - 1) :: fs) =
          c.items[j] :: post_frames fs := by
        simp only [items_from, hl, if_true, e]
        rw [List.drop_eq_getElem_cons hjl, List.drop_eq_nil_of_le (by omega)]
        rfl
      have hbef : items_before (SNode.mk c (((search cmp c key).1 : Int) - 1) :: fs) ++
          [c.items[j]] = pre_frames fs ++ S := by
        simp only [items_before, hl, if_true, e, List.append_assoc]
        congr 1
        rw [← htk, hi]
        rw [List.take_length]
        have : c.items = c.items.take j ++ c.items.drop j := (List.take_append_drop j _).symm
        conv_rhs => rw [this]
        rw [List.drop_eq_getElem_cons hjl, List.drop_eq_nil_of_le (by omega)]
      have hxR : x = c.items[j] ∧ R = post_frames fs := by
        have := g1.symm.trans hfrom
        simpa using this
      rw [hTn, List.nil_append]
      rcases g3 with ⟨hR, S2, g4⟩ | ⟨S2, g4, g5, g6, g7⟩
      · left
        exact ⟨by rw [← hxR.2]; exact hR, S2, by rw [hloop, g4]⟩
      · right
        refine ⟨S2, by rw [hloop, g4], g5, ?_, by rw [g7, hxR.2]⟩
        rw [g6, hxR.1]
        exact hbef
  | h + 2, fuel, c, fs, iter, hw, h1, hf, hp, hst, hk, hpw => by
    obtain ⟨f, rfl⟩ : ∃ f, fuel = f + 1 := ⟨fuel - 1, by omega⟩
    obtain ⟨A, c1, B, S, T, k1, k2, k3, k4, k5, k6, k7, k8, k9, k10⟩ :=
      search_branch ho hw key hpw
    obtain ⟨hl, _, _, hcl, _, _⟩ := wf_branch hw
    have hi : (search cmp c key).1 ≤ c.items.length := by rw [k2, ← k4]; simp
    have hwc := wf_child hw hi
    rw [k6] at hwc
    have hp2 := hpw
    rw [k7] at hp2
    have hpc : (flat c1).Pairwise (lt cmp) :=
      (List.pairwise_append.1 (List.pairwise_append.1 hp2).2.1).1
    have hbef : c.before (search cmp c key).1 = flatP A S := by
      unfold Node.before
      rw [k1, k2, app_take k3, app_take k4]
    have haft : c.after (search cmp c key).1 = tailL B T := by
      unfold Node.after
      rw [k1, k2, app_drop1 k3, app_drop k4]
    cases hfound : (search cmp c key).2
    · have hpath : Path cfg c1 (SNode.mk c ((search cmp c key).1 : Int) :: fs) :=
        ⟨⟨h, hw⟩, by simp, by simpa using hi, by simpa using k6, hp⟩
      obtain ⟨L1, R1, c1e, c2, c3, c4⟩ := seek_loop_spec ho key (h + 1) f c1
        (SNode.mk c ((search cmp c key).1 : Int) :: fs)
        { iter with stack := (SNode.mk c ((search cmp c key).1 : Int) :: fs) } hwc.1
        (Nat.le_trans (min_pos cfg) hwc.2) (by omega) hpath rfl hk hpc
      have hloop : iter_seek_loop cmp key (f + 1) iter c =
          iter_seek_loop cmp key f
            { iter with stack := (SNode.mk c ((search cmp c key).1 : Int) :: fs) } c1 := by
        rw [iter_seek_loop, hst]
        simp only [hfound, Bool.false_eq_true, if_false, hl, cow_true, Bool.not_true,
          Bool.and_false, k6]
      refine ⟨flatP A S ++ L1, R1 ++ tailL B T, by rw [k7, c1e]; simp, ?_, ?_, ?_⟩
      · intro x hx
        rcases List.mem_append.1 hx with hx | hx
        · exact k8 x hx
        · exact c2 x hx
      · intro x hx
        rcases List.mem_append.1 hx with hx | hx
        · exact c3 x hx
        · exact all_ge_of_gt ho (k10 hfound) x hx
      · rcases c4 with ⟨g1, S2, g2⟩ | ⟨S2, g2, g3, g4, g5⟩
        · left
          refine ⟨?_, S2, by rw [hloop, g2]⟩
          rw [← g1]
          simp only [post_frames, Int.toNat_ofNat, haft, List.append_assoc]
        · right
          refine ⟨S2, by rw [hloop, g2], g3, ?_, ?_⟩
          · rw [g4]
            simp only [pre_frames, Int.toNat_ofNat, hbef, List.append_assoc]
          · rw [g5]
            simp only [post_frames, Int.toNat_ofNat, haft, List.append_assoc]
    · obtain ⟨y, T1, hT, h0⟩ := k9 hfound
      have hlt : (search cmp c key).1 < c.items.length := by
        rw [k2, hT, List.length_append, List.length_cons]; omega
      have hp3 : (flatP A S ++ flat c1 ++ tailL B T).Pairwise (lt cmp) := by
        rw [List.append_assoc]; exact hp2
      have htl : tailL B T = y :: flatL B T1 := by rw [hT]; rfl
      refine ⟨flatP A S ++ flat c1, tailL B T, by rw [k7]; simp, ?_, ?_, ?_⟩
      · rw [htl] at hp3
        exact lt_of_before ho hp3 h0
      · rw [htl]
        have hpt : (y :: flatL B T1).Pairwise (lt cmp) := by
          rw [htl] at hp3; exact (List.pairwise_append.1 hp3).2.1
        intro x hx
        rcases List.mem_cons.1 hx with rfl | hx
        · have := ho.eq_symm h0; unfold lt; omega
        · exact all_ge_of_gt ho (gt_of_head ho hpt h0) x hx
      · right
        refine ⟨SNode.mk c ((search cmp c key).1 : Int) :: fs, ?_,
          ⟨⟨h + 2, hw⟩, by simp, by simpa using hlt, hp⟩, ?_, ?_⟩
        · rw [iter_seek_loop, hst]
          simp only [hfound, if_true]
        · simp only [items_before, hl, Bool.false_eq_true, if_false, Int.toNat_ofNat, hbef, k6,
            List.append_assoc]
        · simp only [items_from, hl, Bool.false_eq_true, if_false, Int.toNat_ofNat, haft]

end cursor5

section cursor6
variable {cfg : Config} {cmp : α → α → Int}

theorem visit_all (l : List α) (log : List α) :
    visit (fun x (acc : List α) => (true, acc ++ [x])) l log = (true, log ++ l) := by
  induction l generalizing log with
  | nil => simp [visit]
  | cons x xs ih => simp [visit, ih]

theorem cursor_loop_invalid {σ : Type} (f : α → σ → Bool × σ) (iter : Iter α) (s : σ)
    (fuel : Nat) (hv : iter.valid = false) (hf : 0 < fuel) :
    cursor_loop f fuel iter s = some (true, s) := by
  obtain ⟨k, rfl⟩ : ∃ k, fuel = k + 1 := ⟨fuel - 1, by omega⟩
  simp [cursor_loop, iter_valid, hv]

/-- The state in which `iter_scan` leaves the cursor. -/
theorem iter_scan_state (iter : Iter α) (root : Option (Node α)) (hroot : iter.root = root)
    (hinv : Inv cfg cmp root) :
    (root = none ∧ iter_scan iter = { iter_reset iter Kind.SCAN with valid := false }) ∨
    (∃ S, iter_scan iter = { iter_reset iter Kind.SCAN with stack := S } ∧ OnItem cfg S ∧
      items_before S = [] ∧ items_from S = items_of root) := by
  cases root with
  | none => left; exact ⟨rfl, by simp [iter_scan, hroot]⟩
  | some r =>
    right
    obtain ⟨S, e1, e2, e3, e4⟩ := scan_loop_spec r.height (depth r) r [] (iter_reset iter Kind.SCAN)
      hinv.1 hinv.2.1 (by rw [wf_depth _ _ hinv.1]) trivial rfl
    refine ⟨S, ?_, e2, by rw [e3]; rfl, by rw [e4]; simp [post_frames, items_of]⟩
    simp only [iter_scan, hroot, cow_true, Bool.not_true, Bool.and_false, Bool.false_eq_true,
      if_false]
    exact e1

/-- The state in which `iter_scan_desc` leaves the cursor. -/
theorem iter_scan_desc_state (iter : Iter α) (root : Option (Node α))
    (hroot : iter.root = root) (hinv : Inv cfg cmp root) :
    (root = none ∧ iter_scan_desc iter = { iter_reset iter Kind.SCANDESC with valid := false }) ∨
    (∃ S x, iter_scan_desc iter = { iter_reset iter Kind.SCANDESC with stack := S } ∧
      OnItem cfg S ∧ items_of root = items_before S ++ [x] ∧ items_from S = [x]) := by
  cases root with
  | none => left; exact ⟨rfl, by simp [iter_scan_desc, hroot]⟩
  | some r =>
    right
    obtain ⟨S, e1, e2, x, e3, e4⟩ := scan_desc_loop_spec r.height (depth r) r []
      (iter_reset iter Kind.SCANDESC) hinv.1 hinv.2.1 (by rw [wf_depth _ _ hinv.1]) trivial rfl
    refine ⟨S, x, ?_, e2, by rw [← e3]; simp [pre_frames, items_of],
      by rw [e4]; simp [post_frames]⟩
    simp only [iter_scan_desc, hroot, cow_true, Bool.not_true, Bool.and_false,
      Bool.false_eq_true, if_false]
    exact e1

/-- The state in which `iter_seek` leaves the cursor on a tree in strict order. -/
theorem iter_seek_state (ho : OrdCmp cmp) (hno : cfg.noorder = false) (iter : Iter α)
    (root : Option (Node α)) (hroot : iter.root = root) (hinv : Inv cfg cmp root) (key : α) :
    ∃ L R S, items_of root = L ++ R ∧ (∀ x ∈ L, lt cmp x key) ∧ (∀ x ∈ R, ¬ lt cmp x key) ∧
      ((R = [] ∧ iter_seek cfg cmp iter key =
          { iter_reset iter Kind.SCAN with stack := S, valid := false }) ∨
       (iter_seek cfg cmp iter key = { iter_reset iter Kind.SCAN with stack := S } ∧
          OnItem cfg S ∧ items_before S = L ∧ items_from S = R)) := by
  cases root with
  | none =>
    refine ⟨[], [], [], rfl, by simp, by simp, Or.inl ⟨rfl, ?_⟩⟩
    simp [iter_seek, hno, hroot, iter_reset]
  | some r =>
    obtain ⟨L, R, e1, e2, e3, e4⟩ := seek_loop_spec ho key r.height (depth r) r []
      (iter_reset iter Kind.SCAN) hinv.1 hinv.2.1 (by rw [wf_depth _ _ hinv.1]) trivial rfl rfl
      (hinv.2.2 hno)
    have hs : iter_seek cfg cmp iter key =
        iter_seek_loop cmp key (depth r) (iter_reset iter Kind.SCAN) r := by
      simp only [iter_seek, hno, hroot, cow_true, Bool.not_true, Bool.and_false,
        Bool.false_eq_true, if_false]
    rcases e4 with ⟨g1, S, g2⟩ | ⟨S, g2, g3, g4, g5⟩
    · refine ⟨L, R, S, e1, e2, e3, Or.inl ⟨by simpa [post_frames] using g1, ?_⟩⟩
      rw [hs, g2]
    · refine ⟨L, R, S, e1, e2, e3, Or.inr ⟨by rw [hs, g2], g3, by rw [g4]; simp [pre_frames],
        by rw [g5]; simp [post_frames]⟩⟩

theorem iter_scan_run (iter : Iter α) (root : Option (Node α)) (hroot : iter.root = root)
    (hinv : Inv cfg cmp root) {σ : Type} (f : α → σ → Bool × σ) (s : σ) (fuel : Nat)
    (hf : count cfg root < fuel) :
    cursor_loop f fuel (iter_scan iter) s = some (visit f (items_of root) s) ∧
    (iter_valid (iter_scan iter) = true ↔ root ≠ none) := by
  rcases iter_scan_state iter root hroot hinv with ⟨rfl, e⟩ | ⟨S, e1, e2, e3, e4⟩
  · rw [e]
    exact ⟨by rw [cursor_loop_invalid f _ s fuel rfl (by omega)]; rfl, by simp [iter_valid]⟩
  · rw [e1]
    refine ⟨?_, ?_⟩
    · rw [← e4]
      exact cursor_loop_asc f _ _ s fuel rfl rfl e2 rfl
        (by rw [inv_count hinv] at hf; rw [e4]; exact hf)
    · have : root ≠ none := by
        rintro rfl
        obtain ⟨x, R, g1, _⟩ := next_asc_step (Iter.mk none Kind.SCAN false true Status.NONE S) e2
        rw [e4] at g1
        simp [items_of] at g1
      simp [iter_valid, iter_reset, this]

theorem iter_scan_desc_run (iter : Iter α) (root : Option (Node α)) (hroot : iter.root = root)
    (hinv : Inv cfg cmp root) {σ : Type} (f : α → σ → Bool × σ) (s : σ) (fuel : Nat)
    (hf : count cfg root < fuel) :
    cursor_loop f fuel (iter_scan_desc iter) s = some (visit f (items_of root).reverse s) ∧
    (iter_valid (iter_scan_desc iter) = true ↔ root ≠ none) := by
  rcases iter_scan_desc_state iter root hroot hinv with ⟨rfl, e⟩ | ⟨S, x, e1, e2, e3, e4⟩
  · rw [e]
    exact ⟨by rw [cursor_loop_invalid f _ s fuel rfl (by omega)]; rfl, by simp [iter_valid]⟩
  · rw [e1]
    rw [inv_count hinv, e3] at hf
    refine ⟨?_, ?_⟩
    · obtain ⟨x2, R2, g1, g2⟩ := cursor_loop_desc f (items_before S).length
        { iter_reset iter Kind.SCANDESC with stack := S } s fuel rfl rfl e2 rfl
        (by simp at hf; omega)
      rw [g2, e3]
      have : x2 = x := by
        have := g1.symm.trans e4
        simp only [List.cons.injEq] at this
        exact this.1
      rw [this]
      simp
    · have : root ≠ none := by
        rintro rfl
        simp [items_of] at e3
      simp [iter_valid, iter_reset, this]

end cursor6

section cursor7
variable {cfg : Config} {cmp : α → α → Int}

theorem iter_seek_run (ho : OrdCmp cmp) (hno : cfg.noorder = false) (iter : Iter α)
    (root : Option (Node α)) (hroot : iter.root = root) (hinv : Inv cfg cmp root) (key : α)
    {σ : Type} (f : α → σ → Bool × σ) (s : σ) (fuel : Nat) (hf : count cfg root < fuel) :
    cursor_loop f fuel (iter_seek cfg cmp iter key) s =
      some (visit f ((items_of root).filter (fun x => decide (0 ≤ cmp x key))) s) ∧
    (iter_valid (iter_seek cfg cmp iter key) = true ↔
      (items_of root).filter (fun x => decide (0 ≤ cmp x key)) ≠ []) := by
  obtain ⟨L, R, S, e1, e2, e3, e4⟩ := iter_seek_state ho hno iter root hroot hinv key
  have hG : (items_of root).filter (fun x => decide (0 ≤ cmp x key)) = R := by
    rw [e1]; exact filter_ge_cut key L R e2 e3
  rw [hG]
  rcases e4 with ⟨rfl, g⟩ | ⟨g1, g2, g3, g4⟩
  · rw [g]
    exact ⟨by rw [cursor_loop_invalid f _ s fuel rfl (by omega)]; rfl, by simp [iter_valid]⟩
  · rw [g1]
    refine ⟨?_, ?_⟩
    · rw [← g4]
      refine cursor_loop_asc f _ _ s fuel rfl rfl g2 rfl ?_
      rw [inv_count hinv, e1, List.length_append] at hf
      rw [g4]; omega
    · obtain ⟨x, R2, k1, _⟩ := next_asc_step (Iter.mk none Kind.SCAN false true Status.NONE S) g2
      have : R ≠ [] := by
        rw [← g4]
        show items_from S ≠ []
        rw [show items_from S = x :: R2 from k1]
        simp
      simp [iter_valid, iter_reset, this]

theorem iter_seek_desc_run (ho : OrdCmp cmp) (hno : cfg.noorder = false) (iter : Iter α)
    (root : Option (Node α)) (hroot : iter.root = root) (hinv : Inv cfg cmp root) (key : α)
    {σ : Type} (f : α → σ → Bool × σ) (s : σ) (fuel : Nat) (hf : count cfg root < fuel) :
    cursor_loop f fuel (iter_seek_desc cfg cmp iter key) s =
      some (visit f ((items_of root).filter (fun x => decide (cmp x key ≤ 0))).reverse s) ∧
    (iter_valid (iter_seek_desc cfg cmp iter key) = true ↔
      (items_of root).filter (fun x => decide (cmp x key ≤ 0)) ≠ []) := by
  obtain ⟨L, R, S, e1, e2, e3, e4⟩ := iter_seek_state ho hno iter root hroot hinv key
  have hpw : (L ++ R).Pairwise (lt cmp) := by rw [← e1]; exact inv_sorted hinv hno
  have hcnt : L.length + R.length < fuel := by
    rw [inv_count hinv, e1, List.length_append] at hf; exact hf
  rcases e4 with ⟨rfl, g⟩ | ⟨g1, g2, g3, g4⟩
  · -- no item at or above the key: the cursor restarts from the last item
    have hD : (items_of root).filter (fun x => decide (cmp x key ≤ 0)) = items_of root := by
      conv_lhs => rw [e1]
      rw [filter_le_cut ho key L [] (all_le_of_lt ho e2) (by simp), e1]; simp
    have hres : iter_seek_desc cfg cmp iter key =
        { iter_scan_desc (iter_seek cfg cmp iter key) with kind := Kind.SCANDESC } := by
      rw [iter_seek_desc]
      simp [hno, g, iter_valid, iter_status, iter_reset]
    rw [hD, hres]
    rcases iter_scan_desc_state (iter_seek cfg cmp iter key) root (by rw [g]; exact hroot) hinv
      with ⟨rfl, k⟩ | ⟨S2, x, k1, k2, k3, k4⟩
    · rw [k]
      exact ⟨by rw [cursor_loop_invalid f _ s fuel rfl (by omega)]; rfl,
        by simp [iter_valid, items_of]⟩
    · rw [k1]
      refine ⟨?_, ?_⟩
      · obtain ⟨x2, R2, m1, m2⟩ := cursor_loop_desc f (items_before S2).length
          { { iter_reset (iter_seek cfg cmp iter key) Kind.SCANDESC with stack := S2 } with
              kind := Kind.SCANDESC } s fuel rfl rfl k2 rfl
          (by
            have := congrArg List.length k3
            rw [e1] at this
            simp at this
            omega)
        rw [m2, k3]
        have : x2 = x := by
          have := m1.symm.trans k4
          simp only [List.cons.injEq] at this
          exact this.1
        rw [this]
        simp
      · have : items_of root ≠ [] := by rw [k3]; simp
        simp [iter_valid, iter_reset, this]
  · -- the cursor stands on the first item at or above the key
    obtain ⟨x, R2, k1, k2, _⟩ := next_asc_step (iter_seek cfg cmp iter key)
      (by rw [g1]; exact g2)
    have hR : R = x :: R2 := by
      rw [← g4]
      have : (iter_seek cfg cmp iter key).stack = S := by rw [g1]
      rw [← this]; exact k1
    subst hR
    have hpR : (x :: R2).Pairwise (lt cmp) := (List.pairwise_append.1 hpw).2.1
    have hxge : ¬ lt cmp x key := e3 x (by simp)
    have hvalid : iter_valid (iter_seek cfg cmp iter key) = true := by rw [g1]; rfl
    by_cases hgt : cmp x key > 0
    · -- the item is above the key: one step back
      have hRgt : ∀ y ∈ x :: R2, lt cmp key y := by
        have hx : lt cmp key x := (ho.gt_iff x key).1 hgt
        intro y hy
        rcases List.mem_cons.1 hy with rfl | hy
        · exact hx
        · exact ho.lt_trans hx ((List.pairwise_cons.1 hpR).1 y hy)
      have hD : (items_of root).filter (fun x => decide (cmp x key ≤ 0)) = L := by
        rw [e1]; exact filter_le_cut ho key L _ (all_le_of_lt ho e2) hRgt
      have hres : iter_seek_desc cfg cmp iter key =
          { iter_next_desc (iter_seek cfg cmp iter key) with kind := Kind.SCANDESC } := by
        rw [iter_seek_desc]
        simp [hno, hvalid, k2, hgt]
      rw [hD, hres]
      rcases next_desc_step (iter_seek cfg cmp iter key) (by rw [g1]; exact g2) with
        ⟨m1, S3, m2⟩ | ⟨S3, y, m2, m3, m4, m5⟩
      · have hL : L = [] := by
          rw [← g3]
          have : (iter_seek cfg cmp iter key).stack = S := by rw [g1]
          rw [← this]; exact m1
        rw [m2, hL]
        exact ⟨by rw [cursor_loop_invalid f _ s fuel rfl (by omega)]; rfl,
          by simp [iter_valid]⟩
      · have hL : L = items_before S3 ++ [y] := by
          rw [← g3]
          have : (iter_seek cfg cmp iter key).stack = S := by rw [g1]
          rw [← this]; exact m4
        rw [m2]
        refine ⟨?_, ?_⟩
        · obtain ⟨x2, R3, n1, n2⟩ := cursor_loop_desc f (items_before S3).length
            { { iter_seek cfg cmp iter key with stack := S3 } with kind := Kind.SCANDESC }
            s fuel (by rw [g1]; rfl) rfl m3 rfl
            (by rw [hL] at hcnt; simp at hcnt; omega)
          rw [n2, hL]
          have : x2 = y := by
            have := n1.symm.trans m5
            simp only [List.cons.injEq] at this
            exact this.1
          rw [this]
          simp
        · have : L ≠ [] := by rw [hL]; simp
          rw [g1]
          simp [iter_valid, iter_reset, this]
    · -- the item compares equal to the key: the cursor stays
      have hx0 : cmp x key = 0 := by unfold lt at hxge; omega
      have hRgt : ∀ y ∈ R2, lt cmp key y := gt_of_head ho hpR (ho.eq_symm hx0)
      have hLle : ∀ y ∈ L ++ [x], ¬ lt cmp key y := by
        intro y hy
        rcases List.mem_append.1 hy with hy | hy
        · exact all_le_of_lt ho e2 y hy
        · simp only [List.mem_singleton] at hy
          subst hy
          have := ho.eq_symm hx0
          unfold lt; omega
      have hD : (items_of root).filter (fun x => decide (cmp x key ≤ 0)) = L ++ [x] := by
        rw [e1]
        have : L ++ x :: R2 = (L ++ [x]) ++ R2 := by simp
        rw [this]
        exact filter_le_cut ho key _ _ hLle hRgt
      have hres : iter_seek_desc cfg cmp iter key =
          { iter_seek cfg cmp iter key with kind := Kind.SCANDESC } := by
        rw [iter_seek_desc]
        simp [hno, hvalid, k2, hgt]
      rw [hD, hres]
      refine ⟨?_, ?_⟩
      · obtain ⟨x2, R3, n1, n2⟩ := cursor_loop_desc f L.length
          { iter_seek cfg cmp iter key with kind := Kind.SCANDESC }
          s fuel (by rw [g1]; rfl) rfl (by rw [g1]; exact g2)
          (by rw [g1]; exact congrArg List.length g3)
          (by simp at hcnt; omega)
        rw [n2]
        have hst : (iter_seek cfg cmp iter key).stack = S := by rw [g1]
        have : x2 = x := by
          have h1 : items_from S = x2 :: R3 := by rw [← hst]; exact n1
          have := h1.symm.trans g4
          simp only [List.cons.injEq] at this
          exact this.1
        have hb : items_before (iter_seek cfg cmp iter key).stack = L := by rw [hst]; exact g3
        rw [this]
        show some (visit f (x :: (items_before (iter_seek cfg cmp iter key).stack).reverse) s) = _
        rw [hb]
        simp
      · rw [g1]
        simp [iter_valid, iter_reset]

end cursor7

/-- C18: on an ordered tree satisfying the invariants (consistent comparator),
for every key `k`, the callback `seek`, the copy-on-write `seek_mut` and the
cursor loop after `iter_seek` (read `iter_item`, call back, `iter_next`, while
`iter_valid`) all make their callbacks over exactly the items of the tree that
are not below `k`, in the ascending order of the scan, stopping after the first
callback that answers `false`; this holds for every cursor on the tree (made by
`iter_init` or `iter_init_mut`) and every loop budget above the count.  The
cursor is valid after `iter_seek` exactly when there is such an item, so it is
invalid at once when there is none or the tree is empty.  The first conjunct
says that `items_of` is what the scan emits; the callbacks are spelled out for
the callback that logs its argument. -/
theorem seek_visits_from_key (cfg : Config) (cmp : α → α → Int) (root : Option (Node α))
    (key : α) (iter : Iter α) {σ : Type} (f : α → σ → Bool × σ) (s : σ) (fuel : Nat)
    (ho : OrdCmp cmp) (hno : cfg.noorder = false) (hinv : Inv cfg cmp root)
    (hroot : iter.root = root) (hfuel : count cfg root < fuel) :
    (∀ t : Option (Node α),
      (scan t (fun y (acc : List α) => (true, acc ++ [y])) []).2 = items_of t) ∧
    ((items_of root).filter (fun x => decide (0 ≤ cmp x key))).Pairwise (lt cmp) ∧
    seek cmp root key f s =
      (if (visit f ((items_of root).filter (fun x => decide (0 ≤ cmp x key))) s).1
        then Status.FINISHED else Status.STOPPED,
        (visit f ((items_of root).filter (fun x => decide (0 ≤ cmp x key))) s).2) ∧
    seek_mut cmp root key f s = seek cmp root key f s ∧
    cursor_loop f fuel (iter_seek cfg cmp iter key) s =
      some (visit f ((items_of root).filter (fun x => decide (0 ≤ cmp x key))) s) ∧
    (iter_valid (iter_seek cfg cmp iter key) = true ↔
      (items_of root).filter (fun x => decide (0 ≤ cmp x key)) ≠ []) ∧
    seek cmp root key (fun y (acc : List α) => (true, acc ++ [y])) [] =
      (Status.FINISHED, (items_of root).filter (fun x => decide (0 ≤ cmp x key))) ∧
    cursor_loop (fun y (acc : List α) => (true, acc ++ [y])) fuel
        (iter_seek cfg cmp iter key) [] =
      some (true, (items_of root).filter (fun x => decide (0 ≤ cmp x key))) := by
  have h1 := @seek_eq α cfg cmp ho hno root hinv key
  have h2 := @iter_seek_run α cfg cmp ho hno iter root hroot hinv key
  refine ⟨fun t => by rw [scan_all], (inv_sorted hinv hno).sublist (List.filter_sublist _),
    (h1 f s).1, (h1 f s).2, (h2 f s fuel hfuel).1, (h2 f s fuel hfuel).2, ?_, ?_⟩
  · rw [(h1 _ _).1, visit_all]; simp
  · rw [(h2 _ _ fuel hfuel).1, visit_all]; simp

theorem seek_visits_from_key_witness :
    OrdCmp icmp ∧ cfgW.noorder = false ∧ Inv cfgW icmp (some treeW) ∧
      (iter_init (some treeW)).root = some treeW ∧ count cfgW (some treeW) < 5 ∧
      seek icmp (some treeW) 15 (fun y (acc : List Int) => (true, acc ++ [y])) [] =
        (Status.FINISHED, [20, 30, 40]) ∧
      cursor_loop (fun y (acc : List Int) => (true, acc ++ [y])) 5
          (iter_seek cfgW icmp (iter_init (some treeW)) 15) [] = some (true, [20, 30, 40]) :=
  ⟨icmp_ord, rfl, treeW_inv, rfl, by decide,
    (seek_visits_from_key cfgW icmp (some treeW) 15 (iter_init (some treeW))
      (fun y (acc : List Int) => (true, acc ++ [y])) [] 5 icmp_ord rfl treeW_inv rfl
      (by decide)).2.2.2.2.2.2.1.trans (by decide),
    (seek_visits_from_key cfgW icmp (some treeW) 15 (iter_init (some treeW))
      (fun y (acc : List Int) => (true, acc ++ [y])) [] 5 icmp_ord rfl treeW_inv rfl
      (by decide)).2.2.2.2.2.2.2.trans (by decide)⟩

/-- C19: on an ordered tree satisfying the invariants (consistent comparator),
for every key `k`, `seek_desc`, `seek_desc_mut` and the cursor loop after
`iter_seek_desc` all make their callbacks over the same sequence: exactly the
items of the tree that are not above `k`, in descending order (the reverse of
their order in the scan), stopping after the first callback that answers
`false`; nothing is visited, and the cursor is invalid at once, when every item
is above `k`.  This holds for every cursor on the tree and every loop budget
above the count.  The first conjunct says that `items_of` is what the scan
emits; the callbacks are spelled out for the callback that logs its argument. -/
theorem seek_desc_visits_to_key (cfg : Config) (cmp : α → α → Int) (root : Option (Node α))
    (key : α) (iter : Iter α) {σ : Type} (f : α → σ → Bool × σ) (s : σ) (fuel : Nat)
    (ho : OrdCmp cmp) (hno : cfg.noorder = false) (hinv : Inv cfg cmp root)
    (hroot : iter.root = root) (hfuel : count cfg root < fuel) :
    (∀ t : Option (Node α),
      (scan t (fun y (acc : List α) => (true, acc ++ [y])) []).2 = items_of t) ∧
    seek_desc cmp root key f s =
      (if (visit f ((items_of root).filter (fun x => decide (cmp x key ≤ 0))).reverse s).1
        then Status.FINISHED else Status.STOPPED,
        (visit f ((items_of root).filter (fun x => decide (cmp x key ≤ 0))).reverse s).2) ∧
    seek_desc_mut cmp root key f s = seek_desc cmp root key f s ∧
    cursor_loop f fuel (iter_seek_desc cfg cmp iter key) s =
      some (visit f ((items_of root).filter (fun x => decide (cmp x key ≤ 0))).reverse s) ∧
    (iter_valid (iter_seek_desc cfg cmp iter key) = true ↔
      (items_of root).filter (fun x => decide (cmp x key ≤ 0)) ≠ []) ∧
    seek_desc cmp root key (fun y (acc : List α) => (true, acc ++ [y])) [] =
      (Status.FINISHED, ((items_of root).filter (fun x => decide (cmp x key ≤ 0))).reverse) ∧
    cursor_loop (fun y (acc : List α) => (true, acc ++ [y])) fuel
        (iter_seek_desc cfg cmp iter key) [] =
      some (true, ((items_of root).filter (fun x => decide (cmp x key ≤ 0))).reverse) := by
  have h1 := @seek_desc_eq α cfg cmp ho hno root hinv key
  have h2 := @iter_seek_desc_run α cfg cmp ho hno iter root hroot hinv key
  refine ⟨fun t => by rw [scan_all], (h1 f s).1, (h1 f s).2, (h2 f s fuel hfuel).1,
    (h2 f s fuel hfuel).2, ?_, ?_⟩
  · rw [(h1 _ _).1, visit_all]; simp
  · rw [(h2 _ _ fuel hfuel).1, visit_all]; simp

theorem seek_desc_visits_to_key_witness :
    OrdCmp icmp ∧ cfgW.noorder = false ∧ Inv cfgW icmp (some treeW) ∧
      (iter_init_mut (some treeW)).root = some treeW ∧ count cfgW (some treeW) < 5 ∧
      seek_desc_mut icmp (some treeW) 35 (fun y (acc : List Int) => (true, acc ++ [y])) [] =
        (Status.FINISHED, [30, 20, 10]) ∧
      cursor_loop (fun y (acc : List Int) => (true, acc ++ [y])) 5
          (iter_seek_desc cfgW icmp (iter_init_mut (some treeW)) 35) [] =
        some (true, [30, 20, 10]) :=
  ⟨icmp_ord, rfl, treeW_inv, rfl, by decide,
    ((seek_desc_visits_to_key cfgW icmp (some treeW) 35 (iter_init_mut (some treeW))
      (fun y (acc : List Int) => (true, acc ++ [y])) [] 5 icmp_ord rfl treeW_inv rfl
      (by decide)).2.2.1.trans
      (seek_desc_visits_to_key cfgW icmp (some treeW) 35 (iter_init_mut (some treeW))
        (fun y (acc : List Int) => (true, acc ++ [y])) [] 5 icmp_ord rfl treeW_inv rfl
        (by decide)).2.2.2.2.2.1).trans (by decide),
    (seek_desc_visits_to_key cfgW icmp (some treeW) 35 (iter_init_mut (some treeW))
      (fun y (acc : List Int) => (true, acc ++ [y])) [] 5 icmp_ord rfl treeW_inv rfl
      (by decide)).2.2.2.2.2.2.trans (by decide)⟩

/-- C20: on a tree satisfying the invariants (ordered or not), the cursor loop
(read `iter_item`, call back, `iter_next`, while `iter_valid`) after
`iter_scan` makes exactly the callbacks that the callback `scan` makes, with
the same final user data, and ends by exhaustion exactly when `scan` returns
`FINISHED`; after `iter_scan_desc` it does so for `scan_desc`.  This holds for
every cursor on the tree (made by `iter_init` or `iter_init_mut`), every
callback and every loop budget above the count.  The cursor is valid after
`iter_scan` or `iter_scan_desc` exactly when the tree is not empty.  The
sequences are spelled out for the callback that logs its argument. -/
theorem cursor_scan_refines (cfg : Config) (cmp : α → α → Int) (root : Option (Node α))
    (iter : Iter α) {σ : Type} (f : α → σ → Bool × σ) (s : σ) (fuel : Nat)
    (hinv : Inv cfg cmp root) (hroot : iter.root = root) (hfuel : count cfg root < fuel) :
    cursor_loop f fuel (iter_scan iter) s =
      some (decide ((scan root f s).1 = Status.FINISHED), (scan root f s).2) ∧
    cursor_loop f fuel (iter_scan_desc iter) s =
      some (decide ((scan_desc root f s).1 = Status.FINISHED), (scan_desc root f s).2) ∧
    (iter_valid (iter_scan iter) = true ↔ root ≠ none) ∧
    (iter_valid (iter_scan_desc iter) = true ↔ root ≠ none) ∧
    cursor_loop (fun y (acc : List α) => (true, acc ++ [y])) fuel (iter_scan iter) [] =
      some (true, (scan root (fun y (acc : List α) => (true, acc ++ [y])) []).2) ∧
    cursor_loop (fun y (acc : List α) => (true, acc ++ [y])) fuel (iter_scan_desc iter) [] =
      some (true, (scan_desc root (fun y (acc : List α) => (true, acc ++ [y])) []).2) := by
  have h1 := @iter_scan_run α cfg cmp iter root hroot hinv
  have h2 := @iter_scan_desc_run α cfg cmp iter root hroot hinv
  have hd : ∀ {τ : Type} (g : α → τ → Bool × τ) (l : List α) (t : τ),
      some (visit g l t) =
        some (decide ((if (visit g l t).1 then Status.FINISHED else Status.STOPPED) =
          Status.FINISHED), (visit g l t).2) := by
    intro τ g l t
    rcases hv : visit g l t with ⟨b, t1⟩
    cases b <;> simp
  refine ⟨?_, ?_, (h1 f s fuel hfuel).2, (h2 f s fuel hfuel).2, ?_, ?_⟩
  · rw [(h1 f s fuel hfuel).1, scan_eq]; exact hd f _ s
  · rw [(h2 f s fuel hfuel).1, scan_desc_eq]; exact hd f _ s
  · rw [(h1 _ _ fuel hfuel).1, scan_eq, visit_all]
  · rw [(h2 _ _ fuel hfuel).1, scan_desc_eq, visit_all]

theorem cursor_scan_refines_witness :
    Inv cfgW icmp (some treeW) ∧ (iter_init (some treeW)).root = some treeW ∧
      count cfgW (some treeW) < 5 ∧
      cursor_loop (fun y (acc : List Int) => (decide (y < 30), acc ++ [y])) 5
          (iter_scan (iter_init (some treeW))) [] = some (false, [10, 20, 30]) ∧
      cursor_loop (fun y (acc : List Int) => (true, acc ++ [y])) 5
          (iter_scan_desc (iter_init (some treeW))) [] = some (true, [40, 30, 20, 10]) :=
  ⟨treeW_inv, rfl, by decide,
    (cursor_scan_refines cfgW icmp (some treeW) (iter_init (some treeW))
      (fun y (acc : List Int) => (decide (y < 30), acc ++ [y])) [] 5 treeW_inv rfl
      (by decide)).1.trans (by decide),
    (cursor_scan_refines cfgW icmp (some treeW) (iter_init (some treeW))
      (fun y (acc : List Int) => (true, acc ++ [y])) [] 5 treeW_inv rfl
      (by decide)).2.2.2.2.2.trans (by decide)⟩

/-- C28: on a tree type instantiated as unordered (`BGEN_NOORDER`), for every
tree and argument: `insert` and `delete` return `UNSUPPORTED` with the tree,
the allocator and the old-item output untouched; `get`, `get_mut` and
`index_of` return `UNSUPPORTED` and write nothing (they have no tree among
their results); `contains` returns `false`; the cursor after `iter_seek` or
`iter_seek_desc` is invalid with status `UNSUPPORTED`. -/
theorem noorder_unsupported (cfg : Config) (cmp : α → α → Int) (root : Option (Node α))
    (x : α) (mem : List Bool) (iter : Iter α) (hno : cfg.noorder = true) :
    insert cfg cmp root x mem = TreeRes.mk Status.UNSUPPORTED root none mem ∧
    delete cfg cmp root x mem = TreeRes.mk Status.UNSUPPORTED root none mem ∧
    get cfg cmp root x = (Status.UNSUPPORTED, none) ∧
    get_mut cfg cmp root x = (Status.UNSUPPORTED, none) ∧
    index_of cfg cmp root x = (Status.UNSUPPORTED, none) ∧
    contains cfg cmp root x = false ∧
    iter_valid (iter_seek cfg cmp iter x) = false ∧
    iter_status (iter_seek cfg cmp iter x) = Status.UNSUPPORTED ∧
    iter_valid (iter_seek_desc cfg cmp iter x) = false ∧
    iter_status (iter_seek_desc cfg cmp iter x) = Status.UNSUPPORTED := by
  simp [insert, delete, get, get_mut, index_of, contains, iter_seek, iter_seek_desc,
    iter_valid, iter_status, hno]

theorem noorder_unsupported_witness :
    (Config.mk (some 4) true true).noorder = true ∧
      insert (Config.mk (some 4) true true) icmp (some treeW) 25 [] =
        TreeRes.mk Status.UNSUPPORTED (some treeW) none [] ∧
      get (Config.mk (some 4) true true) icmp (some treeW) 20 = (Status.UNSUPPORTED, none) :=
  ⟨rfl,
    (noorder_unsupported (Config.mk (some 4) true true) icmp (some treeW) 25 []
      (iter_init (some treeW)) rfl).1,
    (noorder_unsupported (Config.mk (some 4) true true) icmp (some treeW) 20 []
      (iter_init (some treeW)) rfl).2.2.1⟩

section oom
variable {cfg : Config} {cmp : α → α → Int}

/-- A result of an insertion-type operation that reports `NOMEM` left the
invariants and the item sequence as they were. -/
theorem treeOut_nomem {act : InsAct} {item : α} {index : Nat} {root : Option (Node α)}
    {mem : List Bool} {t : TreeRes α} (hinv : Inv cfg cmp root)
    (h : TreeOut cfg cmp act item index root mem t) (hr : t.ret = Status.NOMEM) :
    Inv cfg cmp t.root ∧ sane cfg cmp t.root = true ∧ items_of t.root = items_of root ∧
      count cfg t.root = count cfg root ∧ t.old = none ∧ ¬ AllocOK mem := by
  obtain ⟨h1, _, h3⟩ := h
  rcases h3 with ⟨e, _⟩ | ⟨e, _⟩ | ⟨_, e1, e2, e3⟩ | ⟨e, _⟩
  · rw [hr] at e; cases e
  · rw [hr] at e; cases e
  · exact ⟨h1, sane_of_inv h1, e2, by rw [inv_count h1, inv_count hinv, e2], e1, e3⟩
  · rw [hr] at e; rcases e with e | e <;> cases e

end oom

/-- C30: the fanout actually used (`BGEN_FANOUTUSED`) is 16 when none is
requested and, for a requested fanout `f`, 4 when `f < 4`, 4096 when
`f > 4096`, `f - 1` when `f` is odd and in range, and `f` otherwise; it is
always even and within 4 and 4096 (9 becomes 8); `BGEN_MAXITEMS` is that
value minus one and `BGEN_MINITEMS` is half of `BGEN_MAXITEMS` rounded down
(fanout 16 gives 15 and 7). -/
theorem fanout_used (cfg : Config) :
    (cfg.fanout = none → FANOUTUSED cfg = 16) ∧
    (∀ f, cfg.fanout = some f →
      (f < 4 → FANOUTUSED cfg = 4) ∧
      (4096 < f → FANOUTUSED cfg = 4096) ∧
      (4 ≤ f → f ≤ 4096 → f % 2 = 1 → FANOUTUSED cfg = f - 1) ∧
      (4 ≤ f → f ≤ 4096 → f % 2 = 0 → FANOUTUSED cfg = f)) ∧
    FANOUTUSED cfg % 2 = 0 ∧ 4 ≤ FANOUTUSED cfg ∧ FANOUTUSED cfg ≤ 4096 ∧
    MAXITEMS cfg = FANOUTUSED cfg - 1 ∧ MINITEMS cfg = MAXITEMS cfg / 2 ∧
    FANOUTUSED (Config.mk (some 9) cfg.counted cfg.noorder) = 8 ∧
    FANOUTUSED (Config.mk none cfg.counted cfg.noorder) = 16 ∧
    MAXITEMS (Config.mk (some 16) cfg.counted cfg.noorder) = 15 ∧
    MINITEMS (Config.mk (some 16) cfg.counted cfg.noorder) = 7 := by
  refine ⟨fun h => by simp [FANOUTUSED, h], fun f h => ⟨fun h1 => ?_, fun h1 => ?_,
    fun h1 h2 h3 => ?_, fun h1 h2 h3 => ?_⟩, ?_, ?_, ?_, rfl, rfl, rfl, rfl, rfl,
    by simp [MINITEMS, MAXITEMS, FANOUTUSED]⟩
  · simp [FANOUTUSED, h, h1]
  · have : ¬ f < 4 := by omega
    simp [FANOUTUSED, h, h1, this]
  · have a : ¬ f < 4 := by omega
    have b : ¬ f > 4096 := by omega
    simp [FANOUTUSED, h, a, b, h3]
  · have a : ¬ f < 4 := by omega
    have b : ¬ f > 4096 := by omega
    have c : ¬ f % 2 = 1 := by omega
    simp [FANOUTUSED, h, a, b, c]
  · unfold FANOUTUSED; split
    · rfl
    · split_ifs <;> omega
  · unfold FANOUTUSED; split
    · decide
    · split_ifs <;> omega
  · unfold FANOUTUSED; split
    · decide
    · split_ifs <;> omega

theorem fanout_used_witness :
    (Config.mk (some 9) true false).fanout = some 9 ∧ 4 ≤ 9 ∧ 9 ≤ 4096 ∧ 9 % 2 = 1 ∧
      FANOUTUSED (Config.mk (some 9) true false) = 9 - 1 :=
  ⟨rfl, by decide, by decide, by decide,
    ((fanout_used (Config.mk (some 9) true false)).2.1 9 rfl).2.2.1 (by decide) (by decide)
      (by decide)⟩

/-- C27 (as the code has it): on a tree type instantiated without the spatial
feature, `intersects` and `intersects_mut` return `FINISHED` for every tree,
rectangle and callback and make no callback (the user data comes back as it
was), and the cursor after `iter_intersects` is invalid at once with status 0:
no capability error is reported. -/
theorem intersects_without_spatial (root : Option (Node α)) (min max : List Int) {σ : Type}
    (f : α → σ → Bool × σ) (s : σ) (iter : Iter α) :
    intersects root min max f s = (Status.FINISHED, s) ∧
    intersects_mut root min max f s = (Status.FINISHED, s) ∧
    iter_valid (iter_intersects iter min max) = false ∧
    iter_status (iter_intersects iter min max) = Status.NONE ∧
    (intersects root min max f s).1 ≠ Status.UNSUPPORTED :=
  ⟨rfl, rfl, rfl, rfl, by simp [intersects]⟩

/-- C27, counterexample: on the non-spatial tree `[10] 20 [30, 40]` the call of
`intersects` with the rectangle from (0, 0) to (100, 100) returns `FINISHED`,
not `UNSUPPORTED`, and logs no item. -/
theorem intersects_unsupported_counterexample :
    intersects (some treeW) [0, 0] [100, 100] (fun y (acc : List Int) => (true, acc ++ [y])) [] =
      (Status.FINISHED, []) ∧
    (intersects (some treeW) [0, 0] [100, 100]
      (fun y (acc : List Int) => (true, acc ++ [y])) []).1 ≠ Status.UNSUPPORTED := by
  decide

section sanechk
variable {cfg : Config} {cmp : α → α → Int}

theorem items_ascending_adj : ∀ (l : List α), items_ascending cmp l = true →
    ∀ i a b, l[i]? = some a → l[i + 1]? = some b → lt cmp a b
  | [], _, i, a, b, h1, _ => by simp at h1
  | [_], _, i, a, b, _, h2 => by simp at h2
  | x :: y :: rest, h, i, a, b, h1, h2 => by
    simp only [items_ascending, Bool.and_eq_true, decide_eq_true_eq] at h
    cases i with
    | zero =>
      simp only [List.getElem?_cons_zero, Option.some.injEq, zero_add,
        List.getElem?_cons_succ] at h1 h2
      subst h1 h2
      exact h.1
    | succ j =>
      simp only [List.getElem?_cons_succ] at h1 h2
      exact items_ascending_adj (y :: rest) h.2 j a b h1 (by simpa using h2)

theorem seps_ordered_adj (d : Node α) : ∀ (cs : List (Node α)) (xs : List α),
    seps_ordered cfg cmp cs xs = true →
    (∀ i, i ≤ xs.length → 1 ≤ (cs.getD i d).len ∧ (cs.getD i d).len ≤ MAXITEMS cfg) →
    xs.length + 1 ≤ cs.length →
    ∀ i s a b, xs[i]? = some s → (cs.getD i d).items.getLast? = some a →
      (cs.getD (i + 1) d).items.head? = some b → lt cmp a s ∧ lt cmp s b
  | [], _, _, _, hl, _, _, _, _, _, _, _ => by simp at hl
  | [_], [], _, _, _, i, s, _, _, h1, _, _ => by simp at h1
  | [_], _ :: _, _, _, hl, _, _, _, _, _, _, _ => by simp at hl
  | _ :: _ :: _, [], _, _, _, i, s, _, _, h1, _, _ => by simp at h1
  | c0 :: c1 :: cs, x :: xs, h, hb, hl, i, s, a, b, h1, h2, h3 => by
    simp only [seps_ordered, Bool.and_eq_true] at h
    cases i with
    | zero =>
      simp only [List.getElem?_cons_zero, Option.some.injEq] at h1
      subst h1
      simp only [List.getD_cons_zero, zero_add, List.getD_cons_succ] at h2 h3
      have b0 := hb 0 (Nat.zero_le _)
      have b1 := hb 1 (by simp)
      simp only [List.getD_cons_zero, List.getD_cons_succ, len_eq] at b0 b1
      have hg : 0 < c0.len ∧ c0.len ≤ MAXITEMS cfg ∧ 0 < c1.len ∧ c1.len ≤ MAXITEMS cfg := by
        simp only [len_eq]; omega
      have h0 := h.1
      simp only [hg, and_self, if_true, h2, h3, Bool.and_eq_true, decide_eq_true_eq] at h0
      exact h0
    | succ j =>
      simp only [List.getElem?_cons_succ] at h1
      simp only [List.getD_cons_succ] at h2 h3
      refine seps_ordered_adj d (c1 :: cs) xs h.2 (fun k hk => ?_) (by simpa using hl) j s a b
        h1 h2 h3
      have := hb (k + 1) (by simp; omega)
      simpa using this

mutual
theorem sane0_checks : ∀ (n : Node α) (depth : Nat), sane0 cfg cmp n depth = true →
    (if depth = 0 then 1 ≤ n.len else MINITEMS cfg ≤ n.len) ∧ n.len ≤ MAXITEMS cfg ∧
      ∀ x ∈ subnodes n, NodeChecked cfg cmp x
  | mk items height isleaf children counts, depth, h => by
    rw [sane0] at h
    simp only [Bool.and_eq_true, Bool.or_eq_true, decide_eq_true_eq,
      Bool.not_eq_true'] at h
    obtain ⟨⟨⟨⟨⟨h1, h2⟩, h3⟩, h4⟩, h5⟩, h6⟩ := h
    have hlen : (if depth = 0 then 1 ≤ items.length else MINITEMS cfg ≤ items.length) ∧
        items.length ≤ MAXITEMS cfg := by
      by_cases hd : depth = 0
      · simp only [hd, if_true, decide_eq_true_eq] at h1 ⊢; exact h1
      · simp only [hd, if_false, decide_eq_true_eq] at h1 ⊢; exact h1
    have hord : cfg.noorder = false →
        ∀ i a b, items[i]? = some a → items[i + 1]? = some b → lt cmp a b := by
      intro hno
      rcases h5 with h5 | h5
      · rw [hno] at h5; cases h5
      · exact items_ascending_adj items h5
    refine ⟨hlen.1, hlen.2, ?_⟩
    cases isleaf with
    | true =>
      intro x hx
      simp only [subnodes, if_true, List.mem_singleton] at hx
      subst hx
      exact ⟨hlen.2, fun _ => (by simpa using h2), fun hc => (by cases hc), h4, hord,
        fun hc => (by cases hc)⟩
    | false =>
      simp only [Bool.false_eq_true, false_or] at h6 h3
      obtain ⟨h7, h8⟩ := h6
      obtain ⟨k1, k2, k3⟩ := sane0L_checks children counts (items.length + 1) (depth + 1)
        (Nat.succ_ne_zero _) h8
      intro x hx
      simp only [subnodes, Bool.false_eq_true, if_false, List.mem_cons] at hx
      rcases hx with rfl | hx
      · refine ⟨hlen.2, fun hc => (by cases hc), fun _ => h3, h4, hord, fun _ => ⟨k1, ?_, ?_, ?_⟩⟩
        · intro i hi
          exact (k2 i (by simp only [len_mk] at hi; omega)).1
        · intro hk i hi
          exact (k2 i (by simp only [len_mk] at hi; omega)).2.2 hk
        · intro hno i s a b e1 e2 e3
          rcases h7 with h7 | h7
          · rw [hno] at h7; cases h7
          · refine seps_ordered_adj (fresh true) children items h7 (fun k hk => ?_) k1 i s a b
              e1 e2 e3
            have := k2 k (by omega)
            exact ⟨Nat.le_trans (min_pos cfg) this.1, this.2.1⟩
      · exact k3 x hx
theorem sane0L_checks : ∀ (cs : List (Node α)) (ks : List Nat) (n depth : Nat),
    depth ≠ 0 → sane0L cfg cmp cs ks n depth = true →
    n ≤ cs.length ∧
    (∀ i, i < n → MINITEMS cfg ≤ (cs.getD i (fresh true)).len ∧
      (cs.getD i (fresh true)).len ≤ MAXITEMS cfg ∧
      (cfg.counted = true → ks.getD i 0 = deepcount (cs.getD i (fresh true)))) ∧
    ∀ x ∈ subnodesL cs n, NodeChecked cfg cmp x
  | _, _, 0, _, _, _ => ⟨Nat.zero_le _, fun i hi => absurd hi (Nat.not_lt_zero _),
      fun x hx => by simp [subnodesL] at hx⟩
  | [], _, _ + 1, _, _, h => by simp [sane0L] at h
  | c :: cs, ks, n + 1, depth, hd, h => by
    rw [sane0L] at h
    simp only [Bool.and_eq_true, Bool.or_eq_true, decide_eq_true_eq,
      Bool.not_eq_true'] at h
    obtain ⟨⟨h1, h2⟩, h3⟩ := h
    obtain ⟨a1, a2, a3⟩ := sane0_checks c depth h2
    simp only [hd, if_false] at a1
    obtain ⟨b1, b2, b3⟩ := sane0L_checks cs ks.tail n depth hd h3
    refine ⟨by simp; omega, fun i hi => ?_, fun x hx => ?_⟩
    · cases i with
      | zero =>
        refine ⟨a1, a2, fun hk => ?_⟩
        rcases h1 with h1 | h1
        · rw [hk] at h1; cases h1
        · cases ks with
          | nil => simpa using h1.symm
          | cons k ks => simpa using h1.symm
      | succ j =>
        have := b2 j (by omega)
        refine ⟨this.1, this.2.1, fun hk => ?_⟩
        have e := this.2.2 hk
        cases ks with
        | nil => simpa using e
        | cons k ks => simpa using e
    · simp only [subnodesL, List.mem_append] at hx
      rcases hx with hx | hx
      · exact a3 x hx
      · exact b3 x hx
end

end sanechk

/-- C26, counterexample: `sane` returns `true` on a tree of height 3 whose
in-order item sequence 10, 20, 30, 99, 50, 60, 70, 80 is not ascending (the
item 99 sits in a leaf below the left child of the root, above the root
separator 50), and on a tree whose leaves are at depths 2 and 3 (its height
field 2 is not its structural height 3); neither tree satisfies the
invariants. -/
theorem sane_accepts_broken_counterexample :
    sane cfgW icmp (some treeDeepOrder) = true ∧
    items_of (some treeDeepOrder) = [10, 20, 30, 99, 50, 60, 70, 80] ∧
    ¬ (items_of (some treeDeepOrder)).Pairwise (lt icmp) ∧
    ¬ Inv cfgW icmp (some treeDeepOrder) ∧
    sane cfgW icmp (some treeUneven) = true ∧
    treeUneven.height = 2 ∧ depth treeUneven = 3 ∧
    ¬ Inv cfgW icmp (some treeUneven) := by
  have h1 : items_of (some treeDeepOrder) = [10, 20, 30, 99, 50, 60, 70, 80] := by decide
  have h2 : ¬ (items_of (some treeDeepOrder)).Pairwise (lt icmp) := by
    rw [h1]; simp [lt, icmp]
  refine ⟨by decide, h1, h2, fun hinv => h2 (inv_sorted hinv rfl), by decide, rfl, by decide,
    fun hinv => ?_⟩
  have hw := hinv.1
  have : treeUneven.height = 2 := rfl
  rw [this] at hw
  have hc := (wf_child hw (show 1 ≤ treeUneven.items.length from by decide)).1
  have hl := (wf_leaf hc).1
  simp [treeUneven, Node.child] at hl

section seekat
variable {cfg : Config}

/-- Dropping `p + k` items of a sequence cut at `p`, when the cut point `k` of
the middle part lies inside it or nothing follows it. -/
theorem drop_mid (P M Q : List α) (k : Nat) (h : k ≤ M.length ∨ Q = []) :
    (P ++ (M ++ Q)).drop (P.length + k) = M.drop k ++ Q := by
  rw [List.drop_append]
  rcases h with h | rfl
  · rw [List.drop_append_of_le_length h]
  · simp

theorem take_mid (P M Q : List α) (k : Nat) (h : k ≤ M.length ∨ Q = []) :
    (P ++ (M ++ Q)).take (P.length + k) = P ++ M.take k := by
  rw [List.take_append]
  rcases h with h | rfl
  · rw [List.take_append_of_le_length h]
  · simp

theorem node_seek_at_spec {σ : Type} (iter : α → σ → Bool × σ) :
    ∀ (h fuel : Nat) (n : Node α) (index : Nat), WF cfg h n → h ≤ fuel →
      ∀ s, node_seek_at cfg iter fuel n index s = some (visit iter ((flat n).drop index) s)
  | 0, _, _, _, hw, _ => absurd hw (by simp [WF])
  | 1, fuel, n, index, hw, hf => by
    intro s
    obtain ⟨f, rfl⟩ : ∃ f, fuel = f + 1 := ⟨fuel - 1, by omega⟩
    have hl := (wf_leaf hw).1
    rw [node_seek_at, flat_leaf n hl]
    simp only [hl, if_true, scan_items_eq]
  | h + 2, fuel, n, index, hw, hf => by
    intro s
    obtain ⟨f, rfl⟩ : ∃ f, fuel = f + 1 := ⟨fuel - 1, by omega⟩
    obtain ⟨A, c1, B, S, T, b, k2, k3, k4, k5, k6, k7, k8, k9, k10, k11, k12, k13⟩ :=
      walk_branch_spec hw index
    have hl := b.isleaf_eq
    have hch : n.child (index_walk cfg n n.len 0 index).1 = c1 := by
      unfold Node.child; rw [b.children_eq]; exact app_getD k2
    have hdi : n.items.drop (index_walk cfg n n.len 0 index).1 = T := by
      rw [b.items_eq]; exact app_drop k3
    have hdc : n.children.drop ((index_walk cfg n n.len 0 index).1 + 1) = B := by
      rw [b.children_eq]; exact app_drop1 k2
    have hcut : (index_walk cfg n n.len 0 index).2.2 ≤ (flat c1).length ∨ tailL B T = [] := by
      by_cases hT : T = []
      · right
        subst hT
        have : B = [] := by simpa using k4
        subst this
        rfl
      · exact Or.inl (k12 hT).1
    have hdrop : (flat n).drop index =
        (flat c1).drop (index_walk cfg n n.len 0 index).2.2 ++ tailL B T := by
      rw [k5]
      conv_lhs => rw [k11]
      exact drop_mid _ _ _ _ hcut
    rw [node_seek_at, hdrop, visit_append]
    simp only [hl, Bool.false_eq_true, if_false, hch, hdi, hdc]
    rw [node_seek_at_spec iter (h + 1) f c1 _ k6 (by omega), node_seek_rest_branch iter T B _ k4]
    cases hfound : (index_walk cfg n n.len 0 index).2.1
    · simp only [Bool.false_eq_true, if_false]
      rcases hv : visit iter ((flat c1).drop (index_walk cfg n n.len 0 index).2.2) s with ⟨r, s1⟩
      cases r
      · simp
      · simp [node_seek_rest_branch iter T B _ k4]
    · have hT : T ≠ [] := by
        intro e; have := k13 e; rw [hfound] at this; cases this
      have := ((k12 hT).2).1 hfound
      rw [this]
      simp [visit]

/-- The loop `for (; i >= 0; i--)` of `node_seek_at_desc` in a branch visits the
items before child `k` backwards. -/
theorem seek_at_desc_for_branch {σ : Type} (iter : α → σ → Bool × σ) {n : Node α}
    (hl : n.isleaf = false) (hc : n.children.length = n.items.length + 1) :
    ∀ (k : Nat) (s : σ), k ≤ n.items.length →
      node_seek_at_desc_for iter n k s = visit iter (n.before k).reverse s
  | 0, s, _ => by simp [node_seek_at_desc_for, before_zero, visit]
  | k + 1, s, hk => by
    have hi : k < n.items.length := by omega
    rw [node_seek_at_desc_for, seek_desc_body_branch iter hl hi, before_succ hc hi]
    simp only [List.reverse_append, List.reverse_cons, List.reverse_nil, List.nil_append,
      List.singleton_append, List.cons_append, List.append_assoc]
    rw [← List.cons_append, visit_append]
    rw [seek_at_desc_for_branch iter hl hc k _ (by omega)]

theorem node_seek_at_desc_spec {σ : Type} (iter : α → σ → Bool × σ) :
    ∀ (h fuel : Nat) (n : Node α) (index : Nat), WF cfg h n → 1 ≤ n.items.length → h ≤ fuel →
      ∀ s, node_seek_at_desc cfg iter fuel n index s =
        some (visit iter ((flat n).take (index + 1)).reverse s)
  | 0, _, _, _, hw, _, _ => absurd hw (by simp [WF])
  | 1, fuel, n, index, hw, h1, hf => by
    intro s
    obtain ⟨f, rfl⟩ : ∃ f, fuel = f + 1 := ⟨fuel - 1, by omega⟩
    have hl := (wf_leaf hw).1
    rw [node_seek_at_desc, flat_leaf n hl]
    simp only [hl, if_true, scan_items_eq, len_eq]
    by_cases hge : index ≥ n.items.length
    · simp only [hge, if_true]
      rw [List.take_of_length_le (Nat.le_refl _), List.take_of_length_le (by omega)]
    · simp only [hge, if_false]
  | h + 2, fuel, n, index, hw, h1, hf => by
    intro s
    obtain ⟨f, rfl⟩ : ∃ f, fuel = f + 1 := ⟨fuel - 1, by omega⟩
    obtain ⟨A, c1, B, S, T, b, k2, k3, k4, k5, k6, k7, k8, k9, k10, k11, k12, k13⟩ :=
      walk_branch_spec hw index
    obtain ⟨hl, _, _, hcl, _, _⟩ := wf_branch hw
    have hch : n.child (index_walk cfg n n.len 0 index).1 = c1 := by
      unfold Node.child; rw [b.children_eq]; exact app_getD k2
    have hile : (index_walk cfg n n.len 0 index).1 ≤ n.items.length := by
      rw [b.items_eq, ← k3]; simp
    have hbef : n.before (index_walk cfg n n.len 0 index).1 = flatP A S := by
      unfold Node.before
      rw [b.children_eq, b.items_eq, app_take k2, app_take k3]
    have hpos : 1 ≤ (flat c1).length := wf_flat_pos k6 (Nat.le_trans (min_pos cfg) k7)
    rw [node_seek_at_desc]
    simp only [hl, Bool.false_eq_true, if_false, hch]
    cases hfound : (index_walk cfg n n.len 0 index).2.1
    · simp only [Bool.false_eq_true, if_false]
      have hcut : (index_walk cfg n n.len 0 index).2.2 + 1 ≤ (flat c1).length ∨
          tailL B T = [] := by
        by_cases hT : T = []
        · right
          subst hT
          have : B = [] := by simpa using k4
          subst this
          rfl
        · left
          have h1 := (k12 hT).1
          have h2 := (k12 hT).2
          rw [hfound] at h2
          have : (index_walk cfg n n.len 0 index).2.2 ≠ (flat c1).length := by
            intro e; have := h2.2 e; cases this
          omega
      have htake : (flat n).take (index + 1) =
          flatP A S ++ (flat c1).take ((index_walk cfg n n.len 0 index).2.2 + 1) := by
        rw [k5]
        conv_lhs => rw [k11]
        rw [Nat.add_assoc]
        exact take_mid _ _ _ _ hcut
      rw [node_seek_at_desc_spec iter (h + 1) f c1 _ k6 (Nat.le_trans (min_pos cfg) k7) (by omega),
        htake, List.reverse_append, visit_append]
      rcases hv : visit iter
        ((flat c1).take ((index_walk cfg n n.len 0 index).2.2 + 1)).reverse s with ⟨r, s1⟩
      cases r
      · simp
      · have e := seek_at_desc_for_branch iter hl hcl _ s1 hile
        rw [hbef] at e
        simpa using e
    · have hT : T ≠ [] := by
        intro e; have := k13 e; rw [hfound] at this; cases this
      have hci := ((k12 hT).2).1 hfound
      obtain ⟨y, T1, rfl⟩ : ∃ y T1, T = y :: T1 := by
        cases T with
        | nil => exact absurd rfl hT
        | cons y T1 => exact ⟨y, T1, rfl⟩
      have hlt : (index_walk cfg n n.len 0 index).1 < n.items.length := by
        rw [b.items_eq, ← k3]; simp
      have hy : n.items[(index_walk cfg n n.len 0 index).1] = y := by
        have : n.items[(index_walk cfg n n.len 0 index).1]? = some y := by
          rw [b.items_eq]; exact app_get k3
        rw [List.getElem?_eq_getElem hlt] at this
        exact Option.some.inj this
      have htake : (flat n).take (index + 1) = flatP A S ++ (flat c1 ++ [y]) := by
        rw [k5]
        conv_lhs => rw [k11, hci]
        have e : (flatP A S ++ (flat c1 ++ tailL B (y :: T1))) =
            (flatP A S ++ (flat c1 ++ [y])) ++ flatL B T1 := by
          simp [tailL]
        rw [e, List.take_left']
        simp; omega
      simp only [if_true]
      rw [seek_at_desc_for_branch iter hl hcl _ _ (by omega), before_succ hcl hlt, hbef, hch, hy,
        htake]

end seekat

section seekatcur
variable {cfg : Config}

theorem seek_at_loop_spec :
    ∀ (h fuel : Nat) (c : Node α) (index : Nat) (fs : List (SNode α)) (iter : Iter α),
    WF cfg h c → 1 ≤ c.items.length → h ≤ fuel → Path cfg c fs → iter.stack = fs →
    iter.kind = Kind.SCAN →
      (((flat c).drop index ++ post_frames fs = [] ∧
          ∃ S, iter_seek_at_loop cfg fuel iter c index =
            { iter with stack := S, valid := false }) ∨
       (∃ S, iter_seek_at_loop cfg fuel iter c index = { iter with stack := S } ∧
          OnItem cfg S ∧ items_before S = pre_frames fs ++ (flat c).take index ∧
          items_from S = (flat c).drop index ++ post_frames fs))
  | 0, _, _, _, _, _, hw, _, _, _, _, _ => absurd hw (by simp [WF])
  | 1, fuel, c, index, fs, iter, hw, h1, hf, hp, hst, hk => by
    obtain ⟨f, rfl⟩ : ∃ f, fuel = f + 1 := ⟨fuel - 1, by omega⟩
    have hl := (wf_leaf hw).1
    rw [flat_leaf c hl]
    by_cases hlt : index < c.items.length
    · right
      refine ⟨SNode.mk c (index : Int) :: fs, ?_,
        ⟨⟨1, hw⟩, by simp, by simpa using hlt, hp⟩, ?_, ?_⟩
      · rw [iter_seek_at_loop, hst]
        have hge : ¬ index ≥ c.len := by simp only [len_eq]; omega
        simp only [hl, if_true, hge, if_false, iter_next, hk]
        have hc : (index : Int) - 1 + 1 < (c.len : Int) := by
          simp only [len_eq]; omega
        simp only [hl, hc, and_self, if_true]
        have : (index : Int) - 1 + 1 = (index : Int) := by omega
        rw [this, ← hk]
      · simp [items_before, hl]
      · simp [items_from, hl]
    · have hge : index ≥ c.len := by simp only [len_eq]; omega
      obtain ⟨j, hj⟩ : ∃ j, c.items.length = j + 1 := ⟨c.items.length - 1, by omega⟩
      have e : ((c.len : Int) - 1).toNat = j := by simp only [len_eq]; omega
      have hjl : j < c.items.length := by omega
      have hS2 : OnItem cfg (SNode.mk c ((c.len : Int) - 1) :: fs) :=
        ⟨⟨1, hw⟩, (show 0 ≤ (c.len : Int) - 1 from by simp only [len_eq]; omega),
          (show ((c.len : Int) - 1).toNat < c.len from by rw [e]; exact hjl), hp⟩
      have hloop : iter_seek_at_loop cfg (f + 1) iter c index =
          iter_next_asc { iter with stack := SNode.mk c ((c.len : Int) - 1) :: fs } := by
        rw [iter_seek_at_loop, hst]
        simp only [hl, if_true, hge]
        exact iter_next_scan _ hk hS2
      obtain ⟨x, R, g1, _, g3⟩ := next_asc_step
        { iter with stack := SNode.mk c ((c.len : Int) - 1) :: fs } hS2
      have hfrom : items_from (SNode.mk c ((c.len : Int) - 1) :: fs) =
          c.items[j] :: post_frames fs := by
        simp only [items_from, hl, if_true, e]
        rw [List.drop_eq_getElem_cons hjl, List.drop_eq_nil_of_le (by omega)]
        rfl
      have hbef : items_before (SNode.mk c ((c.len : Int) - 1) :: fs) ++
          [c.items[j]] = pre_frames fs ++ c.items.take index := by
        simp only [items_before, hl, if_true, e, List.append_assoc]
        congr 1
        rw [List.take_of_length_le (show c.items.length ≤ index from by omega)]
        have : c.items = c.items.take j ++ c.items.drop j := (List.take_append_drop j _).symm
        conv_rhs => rw [this]
        rw [List.drop_eq_getElem_cons hjl, List.drop_eq_nil_of_le (by omega)]
      have hxR : x = c.items[j] ∧ R = post_frames fs := by
        have := g1.symm.trans hfrom
        simpa using this
      have hdn : c.items.drop index = [] := List.drop_eq_nil_of_le (by omega)
      rw [hdn, List.nil_append]
      rcases g3 with ⟨hR, S2, g4⟩ | ⟨S2, g4, g5, g6, g7⟩
      · left
        exact ⟨by rw [← hxR.2]; exact hR, S2, by rw [hloop, g4]⟩
      · right
        refine ⟨S2, by rw [hloop, g4], g5, ?_, by rw [g7, hxR.2]⟩
        rw [g6, hxR.1]
        exact hbef
  | h + 2, fuel, c, index, fs, iter, hw, h1, hf, hp, hst, hk => by
    obtain ⟨f, rfl⟩ : ∃ f, fuel = f + 1 := ⟨fuel - 1, by omega⟩
    obtain ⟨A, c1, B, S, T, b, k2, k3, k4, k5, k6, k7, k8, k9, k10, k11, k12, k13⟩ :=
      walk_branch_spec hw index
    have hl := b.isleaf_eq
    have hch : c.child (index_walk cfg c c.len 0 index).1 = c1 := by
      unfold Node.child; rw [b.children_eq]; exact app_getD k2
    have hile : (index_walk cfg c c.len 0 index).1 ≤ c.items.length := by
      rw [b.items_eq, ← k3]; simp
    have hbef : c.before (index_walk cfg c c.len 0 index).1 = flatP A S := by
      unfold Node.before
      rw [b.children_eq, b.items_eq, app_take k2, app_take k3]
    have haft : c.after (index_walk cfg c c.len 0 index).1 = tailL B T := by
      unfold Node.after
      rw [b.children_eq, b.items_eq, app_drop1 k2, app_drop k3]
    have hcut : (index_walk cfg c c.len 0 index).2.2 ≤ (flat c1).length ∨ tailL B T = [] := by
      by_cases hT : T = []
      · right
        subst hT
        have : B = [] := by simpa using k4
        subst this
        rfl
      · exact Or.inl (k12 hT).1
    have hdrop : (flat c).drop index =
        (flat c1).drop (index_walk cfg c c.len 0 index).2.2 ++ tailL B T := by
      rw [k5]
      conv_lhs => rw [k11]
      exact drop_mid _ _ _ _ hcut
    have htake : (flat c).take index =
        flatP A S ++ (flat c1).take (index_walk cfg c c.len 0 index).2.2 := by
      rw [k5]
      conv_lhs => rw [k11]
      exact take_mid _ _ _ _ hcut
    rw [hdrop, htake]
    cases hfound : (index_walk cfg c c.len 0 index).2.1
    · have hpath : Path cfg c1 (SNode.mk c ((index_walk cfg c c.len 0 index).1 : Int) :: fs) :=
        ⟨⟨h, hw⟩, by simp, by simpa using hile, by simpa using hch, hp⟩
      have c4 := seek_at_loop_spec (h + 1) f c1 (index_walk cfg c c.len 0 index).2.2
        (SNode.mk c ((index_walk cfg c c.len 0 index).1 : Int) :: fs)
        { iter with stack := (SNode.mk c ((index_walk cfg c c.len 0 index).1 : Int) :: fs) } k6
        (Nat.le_trans (min_pos cfg) k7) (by omega) hpath rfl hk
      have hloop : iter_seek_at_loop cfg (f + 1) iter c index =
          iter_seek_at_loop cfg f
            { iter with stack := (SNode.mk c ((index_walk cfg c c.len 0 index).1 : Int) :: fs) }
            c1 (index_walk cfg c c.len 0 index).2.2 := by
        rw [iter_seek_at_loop, hst]
        simp only [hfound, Bool.false_eq_true, if_false, hl, cow_true, Bool.not_true,
          Bool.and_false, hch]
      rcases c4 with ⟨g1, S2, g2⟩ | ⟨S2, g2, g3, g4, g5⟩
      · left
        refine ⟨?_, S2, by rw [hloop, g2]⟩
        rw [← g1]
        simp only [post_frames, Int.toNat_ofNat, haft, List.append_assoc]
      · right
        refine ⟨S2, by rw [hloop, g2], g3, ?_, ?_⟩
        · rw [g4]
          simp only [pre_frames, Int.toNat_ofNat, hbef, List.append_assoc]
        · rw [g5]
          simp only [post_frames, Int.toNat_ofNat, haft, List.append_assoc]
    · have hT : T ≠ [] := by
        intro e; have := k13 e; rw [hfound] at this; cases this
      have hci := ((k12 hT).2).1 hfound
      have hlt : (index_walk cfg c c.len 0 index).1 < c.items.length := by
        rw [b.items_eq, ← k3, List.length_append]
        have : 0 < T.length := List.length_pos.2 hT
        omega
      right
      refine ⟨SNode.mk c ((index_walk cfg c c.len 0 index).1 : Int) :: fs, ?_,
        ⟨⟨h + 2, hw⟩, by simp, by simpa using hlt, hp⟩, ?_, ?_⟩
      · rw [iter_seek_at_loop, hst]
        simp only [hfound, if_true, hl, Bool.false_eq_true, if_false]
      · simp only [items_before, hl, Bool.false_eq_true, if_false, Int.toNat_ofNat, hbef, hch,
          hci, List.take_length, List.append_assoc]
      · simp only [items_from, hl, Bool.false_eq_true, if_false, Int.toNat_ofNat, haft, hci,
          List.drop_length, List.nil_append]

theorem seek_at_desc_loop_spec :
    ∀ (h fuel : Nat) (c : Node α) (index : Nat) (fs : List (SNode α)) (iter : Iter α),
    WF cfg h c → 1 ≤ c.items.length → h ≤ fuel → Path cfg c fs → iter.stack = fs →
      ∃ S x, iter_seek_at_desc_loop cfg fuel iter c index = { iter with stack := S } ∧
        OnItem cfg S ∧
        items_before S ++ [x] = pre_frames fs ++ (flat c).take (index + 1) ∧
        items_from S = x :: ((flat c).drop (index + 1) ++ post_frames fs)
  | 0, _, _, _, _, _, hw, _, _, _, _ => absurd hw (by simp [WF])
  | 1, fuel, c, index, fs, iter, hw, h1, hf, hp, hst => by
    obtain ⟨f, rfl⟩ : ∃ f, fuel = f + 1 := ⟨fuel - 1, by omega⟩
    have hl := (wf_leaf hw).1
    rw [flat_leaf c hl]
    by_cases hlt : index < c.items.length
    · have hge : ¬ index ≥ c.len := by simp only [len_eq]; omega
      refine ⟨SNode.mk c (index : Int) :: fs, c.items[index], ?_,
        ⟨⟨1, hw⟩, by simp, by simpa using hlt, hp⟩, ?_, ?_⟩
      · rw [iter_seek_at_desc_loop, hst]
        simp only [hl, if_true, hge, if_false]
      · simp only [items_before, hl, if_true, Int.toNat_ofNat, List.append_assoc]
        rw [List.take_succ, List.getElem?_eq_getElem hlt]
        rfl
      · simp only [items_from, hl, if_true, Int.toNat_ofNat]
        rw [List.drop_eq_getElem_cons hlt]
        rfl
    · have hge : index ≥ c.len := by simp only [len_eq]; omega
      obtain ⟨j, hj⟩ : ∃ j, c.items.length = j + 1 := ⟨c.items.length - 1, by omega⟩
      have e : ((c.len : Int) - 1).toNat = j := by simp only [len_eq]; omega
      have hjl : j < c.items.length := by omega
      refine ⟨SNode.mk c ((c.len : Int) - 1) :: fs, c.items[j], ?_,
        ⟨⟨1, hw⟩, (show 0 ≤ (c.len : Int) - 1 from by simp only [len_eq]; omega),
          (show ((c.len : Int) - 1).toNat < c.len from by rw [e]; exact hjl), hp⟩, ?_, ?_⟩
      · rw [iter_seek_at_desc_loop, hst]
        simp only [hl, if_true, hge]
      · simp only [items_before, hl, if_true, e, List.append_assoc]
        congr 1
        rw [List.take_of_length_le (show c.items.length ≤ index + 1 from by omega)]
        have : c.items = c.items.take j ++ c.items.drop j := (List.take_append_drop j _).symm
        conv_rhs => rw [this]
        rw [List.drop_eq_getElem_cons hjl, List.drop_eq_nil_of_le (by omega)]
      · simp only [items_from, hl, if_true, e]
        rw [List.drop_eq_getElem_cons hjl, List.drop_eq_nil_of_le (by omega),
          List.drop_eq_nil_of_le (show c.items.length ≤ index + 1 from by omega)]
        rfl
  | h + 2, fuel, c, index, fs, iter, hw, h1, hf, hp, hst => by
    obtain ⟨f, rfl⟩ : ∃ f, fuel = f + 1 := ⟨fuel - 1, by omega⟩
    obtain ⟨A, c1, B, S, T, b, k2, k3, k4, k5, k6, k7, k8, k9, k10, k11, k12, k13⟩ :=
      walk_branch_spec hw index
    obtain ⟨hl, _, _, hcl, _, _⟩ := wf_branch hw
    have hch : c.child (index_walk cfg c c.len 0 index).1 = c1 := by
      unfold Node.child; rw [b.children_eq]; exact app_getD k2
    have hile : (index_walk cfg c c.len 0 index).1 ≤ c.items.length := by
      rw [b.items_eq, ← k3]; simp
    have hbef : c.before (index_walk cfg c c.len 0 index).1 = flatP A S := by
      unfold Node.before
      rw [b.children_eq, b.items_eq, app_take k2, app_take k3]
    have haft : c.after (index_walk cfg c c.len 0 index).1 = tailL B T := by
      unfold Node.after
      rw [b.children_eq, b.items_eq, app_drop1 k2, app_drop k3]
    cases hfound : (index_walk cfg c c.len 0 index).2.1
    · have hcut : (index_walk cfg c c.len 0 index).2.2 + 1 ≤ (flat c1).length ∨
          tailL B T = [] := by
        by_cases hT : T = []
        · right
          subst hT
          have : B = [] := by simpa using k4
          subst this
          rfl
        · left
          have h1 := (k12 hT).1
          have h2 := (k12 hT).2
          rw [hfound] at h2
          have : (index_walk cfg c c.len 0 index).2.2 ≠ (flat c1).length := by
            intro e; have := h2.2 e; cases this
          omega
      have htake : (flat c).take (index + 1) =
          flatP A S ++ (flat c1).take ((index_walk cfg c c.len 0 index).2.2 + 1) := by
        rw [k5]
        conv_lhs => rw [k11]
        rw [Nat.add_assoc]
        exact take_mid _ _ _ _ hcut
      have hdrop : (flat c).drop (index + 1) =
          (flat c1).drop ((index_walk cfg c c.len 0 index).2.2 + 1) ++ tailL B T := by
        rw [k5]
        conv_lhs => rw [k11]
        rw [Nat.add_assoc]
        exact drop_mid _ _ _ _ hcut
      have hpath : Path cfg c1 (SNode.mk c ((index_walk cfg c c.len 0 index).1 : Int) :: fs) :=
        ⟨⟨h, hw⟩, by simp, by simpa using hile, by simpa using hch, hp⟩
      obtain ⟨S2, x, g2, g3, g4, g5⟩ := seek_at_desc_loop_spec (h + 1) f c1
        (index_walk cfg c c.len 0 index).2.2
        (SNode.mk c ((index_walk cfg c c.len 0 index).1 : Int) :: fs)
        { iter with stack := (SNode.mk c ((index_walk cfg c c.len 0 index).1 : Int) :: fs) } k6
        (Nat.le_trans (min_pos cfg) k7) (by omega) hpath rfl
      have hloop : iter_seek_at_desc_loop cfg (f + 1) iter c index =
          iter_seek_at_desc_loop cfg f
            { iter with stack := (SNode.mk c ((index_walk cfg c c.len 0 index).1 : Int) :: fs) }
            c1 (index_walk cfg c c.len 0 index).2.2 := by
        rw [iter_seek_at_desc_loop, hst]
        simp only [hfound, Bool.false_eq_true, if_false, hl, cow_true, Bool.not_true,
          Bool.and_false, hch]
      refine ⟨S2, x, by rw [hloop, g2], g3, ?_, ?_⟩
      · rw [g4, htake]
        simp only [pre_frames, Int.toNat_ofNat, hbef, List.append_assoc]
      · rw [g5, hdrop]
        simp only [post_frames, Int.toNat_ofNat, haft, List.append_assoc]
    · have hT : T ≠ [] := by
        intro e; have := k13 e; rw [hfound] at this; cases this
      have hci := ((k12 hT).2).1 hfound
      obtain ⟨y, T1, rfl⟩ : ∃ y T1, T = y :: T1 := by
        cases T with
        | nil => exact absurd rfl hT
        | cons y T1 => exact ⟨y, T1, rfl⟩
      have hlt : (index_walk cfg c c.len 0 index).1 < c.items.length := by
        rw [b.items_eq, ← k3]; simp
      have e : (flatP A S ++ (flat c1 ++ tailL B (y :: T1))) =
          (flatP A S ++ (flat c1 ++ [y])) ++ flatL B T1 := by
        simp [tailL]
      have hlen : (flatP A S ++ (flat c1 ++ [y])).length = index + 1 := by
        conv_rhs => rw [k11, hci]
        simp; omega
      have htake : (flat c).take (index + 1) = flatP A S ++ (flat c1 ++ [y]) := by
        rw [k5, e, List.take_left' hlen]
      have hdrop : (flat c).drop (index + 1) = flatL B T1 := by
        rw [k5, e, List.drop_left' hlen]
      refine ⟨SNode.mk c ((index_walk cfg c c.len 0 index).1 : Int) :: fs, y, ?_,
        ⟨⟨h + 2, hw⟩, by simp, by simpa using hlt, hp⟩, ?_, ?_⟩
      · rw [iter_seek_at_desc_loop, hst]
        simp only [hfound, if_true, hl, Bool.false_eq_true, if_false]
      · rw [htake]
        simp only [items_before, hl, Bool.false_eq_true, if_false, Int.toNat_ofNat, hbef, hch,
          List.append_assoc]
      · rw [hdrop]
        simp only [items_from, hl, Bool.false_eq_true, if_false, Int.toNat_ofNat, haft, tailL,
          List.cons_append]

theorem iter_seek_at_run (iter : Iter α) (root : Option (Node α)) (hroot : iter.root = root)
    {cmp : α → α → Int} (hinv : Inv cfg cmp root) (index : Nat)
    {σ : Type} (f : α → σ → Bool × σ) (s : σ) (fuel : Nat) (hf : count cfg root < fuel) :
    cursor_loop f fuel (iter_seek_at cfg iter index) s =
      some (visit f ((items_of root).drop index) s) ∧
    (iter_valid (iter_seek_at cfg iter index) = true ↔ index < count cfg root) := by
  rw [inv_count hinv] at hf ⊢
  cases root with
  | none =>
    have hs : iter_seek_at cfg iter index = { iter_reset iter Kind.SCAN with valid := false } := by
      simp [iter_seek_at, hroot]
    rw [hs]
    exact ⟨by rw [cursor_loop_invalid f _ s fuel rfl (by omega)]; simp [items_of, visit],
      by simp [iter_valid, items_of]⟩
  | some r =>
    have hs : iter_seek_at cfg iter index =
        iter_seek_at_loop cfg (depth r) (iter_reset iter Kind.SCAN) r index := by
      simp only [iter_seek_at, hroot, cow_true, Bool.not_true, Bool.and_false,
        Bool.false_eq_true, if_false]
    rw [hs]
    simp only [items_of] at hf ⊢
    rcases seek_at_loop_spec r.height (depth r) r index [] (iter_reset iter Kind.SCAN) hinv.1
      hinv.2.1 (by rw [wf_depth _ _ hinv.1]) trivial rfl rfl with ⟨g1, S, g2⟩ | ⟨S, g2, g3, g4, g5⟩
    · rw [g2]
      have hd : (flat r).drop index = [] := by simpa [post_frames] using g1
      rw [hd]
      refine ⟨by rw [cursor_loop_invalid f _ s fuel rfl (by omega)]; rfl, ?_⟩
      have : (flat r).length ≤ index := List.drop_eq_nil_iff.1 hd
      simp [iter_valid]; omega
    · rw [g2]
      have g5 : items_from S = (flat r).drop index := by rw [g5]; simp [post_frames]
      refine ⟨?_, ?_⟩
      · rw [← g5]
        refine cursor_loop_asc f _ _ s fuel rfl rfl g3 rfl ?_
        rw [g5, List.length_drop]; omega
      · obtain ⟨x, R2, k1, _⟩ :=
          next_asc_step (Iter.mk none Kind.SCAN false true Status.NONE S) g3
        have hne : (flat r).drop index ≠ [] := by
          rw [← g5, show items_from S = x :: R2 from k1]; simp
        have : index < (flat r).length := by
          by_contra hge
          exact hne (List.drop_eq_nil_of_le (by omega))
        simp [iter_valid, iter_reset, this]

theorem iter_seek_at_desc_run (iter : Iter α) (root : Option (Node α)) (hroot : iter.root = root)
    {cmp : α → α → Int} (hinv : Inv cfg cmp root) (index : Nat)
    {σ : Type} (f : α → σ → Bool × σ) (s : σ) (fuel : Nat) (hf : count cfg root < fuel) :
    cursor_loop f fuel (iter_seek_at_desc cfg iter index) s =
      some (visit f ((items_of root).take (index + 1)).reverse s) ∧
    (iter_valid (iter_seek_at_desc cfg iter index) = true ↔ root ≠ none) := by
  rw [inv_count hinv] at hf
  cases root with
  | none =>
    have hs : iter_seek_at_desc cfg iter index =
        { iter_reset iter Kind.SCANDESC with valid := false } := by
      simp [iter_seek_at_desc, hroot]
    rw [hs]
    exact ⟨by rw [cursor_loop_invalid f _ s fuel rfl (by omega)]; simp [items_of, visit],
      by simp [iter_valid]⟩
  | some r =>
    have hs : iter_seek_at_desc cfg iter index =
        iter_seek_at_desc_loop cfg (depth r) (iter_reset iter Kind.SCANDESC) r index := by
      simp only [iter_seek_at_desc, hroot, cow_true, Bool.not_true, Bool.and_false,
        Bool.false_eq_true, if_false]
    rw [hs]
    simp only [items_of] at hf ⊢
    obtain ⟨S, x, g2, g3, g4, g5⟩ := seek_at_desc_loop_spec r.height (depth r) r index []
      (iter_reset iter Kind.SCANDESC) hinv.1 hinv.2.1 (by rw [wf_depth _ _ hinv.1]) trivial rfl
    rw [g2]
    have g4 : items_before S ++ [x] = (flat r).take (index + 1) := by
      rw [g4]; simp [pre_frames]
    refine ⟨?_, by simp [iter_valid, iter_reset]⟩
    obtain ⟨x2, R2, m1, m2⟩ := cursor_loop_desc f (items_before S).length
      { iter_reset iter Kind.SCANDESC with stack := S } s fuel rfl rfl g3 rfl
      (by
        have := congrArg List.length g4
        rw [List.length_take] at this
        simp at this
        omega)
    rw [m2, ← g4]
    have : x2 = x := by
      have := m1.symm.trans g5
      simp only [List.cons.injEq] at this
      exact this.1
    rw [this]
    simp

theorem seek_at_eq (root : Option (Node α)) {cmp : α → α → Int} (hinv : Inv cfg cmp root)
    (index : Nat) {σ : Type} (f : α → σ → Bool × σ) (s : σ) :
    seek_at cfg root index f s =
      (if (visit f ((items_of root).drop index) s).1 then Status.FINISHED else Status.STOPPED,
        (visit f ((items_of root).drop index) s).2) ∧
    seek_at_desc cfg root index f s =
      (if (visit f ((items_of root).take (index + 1)).reverse s).1 then Status.FINISHED
        else Status.STOPPED,
        (visit f ((items_of root).take (index + 1)).reverse s).2) := by
  cases root with
  | none => simp [seek_at, seek_at_desc, items_of, visit]
  | some r =>
    have e1 := node_seek_at_spec f r.height (depth r) r index hinv.1
      (by rw [wf_depth _ _ hinv.1])
    have e2 := node_seek_at_desc_spec f r.height (depth r) r index hinv.1 hinv.2.1
      (by rw [wf_depth _ _ hinv.1])
    simp only [seek_at, seek_at_desc, items_of, e1, e2]
    constructor
    · split
      · rename_i h; cases h
      · rename_i s1 h; have hh := Option.some.inj h; simp [hh]
      · rename_i s1 h; have hh := Option.some.inj h; simp [hh]
    · split
      · rename_i h; cases h
      · rename_i s1 h; have hh := Option.some.inj h; simp [hh]
      · rename_i s1 h; have hh := Option.some.inj h; simp [hh]

end seekatcur

/-- Position `k` of the first `n + 1` items taken backwards is position
`min n (len - 1) - k` of the sequence. -/
theorem take_reverse_get (l : List α) (n k : Nat) (hk : k ≤ min n (l.length - 1))
    (hl : l ≠ []) : ((l.take (n + 1)).reverse)[k]? = l[min n (l.length - 1) - k]? := by
  have hpos : 0 < l.length := List.length_pos.2 hl
  have hlen : (l.take (n + 1)).length = min n (l.length - 1) + 1 := by
    rw [List.length_take]; omega
  rw [List.getElem?_reverse (by rw [hlen]; omega), hlen, List.getElem?_take_of_lt (by omega)]
  congr 1

/-- C21: on a tree satisfying the invariants, for every index `n`, the callback
`seek_at` and the cursor loop after `iter_seek_at` (read `iter_item`, call back,
`iter_next`, while `iter_valid`) make their callbacks over exactly the items at
positions `n, n + 1, ...` of the scan, in ascending order, stopping after the
first callback that answers `false`; there is no callback at all when `n` is at
least the count, and the cursor is valid after `iter_seek_at` exactly when `n`
is below the count.  The callback `seek_at_desc` and the cursor loop after
`iter_seek_at_desc` make their callbacks over the items at positions
`min n (count - 1), ..., 1, 0` in descending order, so an index past the end
starts at the last item and the whole scan is visited backwards; that cursor is
valid exactly when the tree is not empty.  This holds for every cursor on the
tree and every loop budget above the count.  The first conjunct says that
`items_of` is what the scan emits; the callbacks are spelled out for the
callback that logs its argument. -/
theorem seek_at_visits_from_index (cfg : Config) (cmp : α → α → Int) (root : Option (Node α))
    (n : Nat) (iter : Iter α) {σ : Type} (f : α → σ → Bool × σ) (s : σ) (fuel : Nat)
    (hinv : Inv cfg cmp root) (hroot : iter.root = root) (hfuel : count cfg root < fuel) :
    (∀ t : Option (Node α),
      (scan t (fun y (acc : List α) => (true, acc ++ [y])) []).2 = items_of t) ∧
    seek_at cfg root n f s =
      (if (visit f ((items_of root).drop n) s).1 then Status.FINISHED else Status.STOPPED,
        (visit f ((items_of root).drop n) s).2) ∧
    cursor_loop f fuel (iter_seek_at cfg iter n) s =
      some (visit f ((items_of root).drop n) s) ∧
    (iter_valid (iter_seek_at cfg iter n) = true ↔ n < count cfg root) ∧
    (∀ k, ((items_of root).drop n)[k]? = (items_of root)[n + k]?) ∧
    (count cfg root ≤ n → (items_of root).drop n = []) ∧
    seek_at_desc cfg root n f s =
      (if (visit f ((items_of root).take (n + 1)).reverse s).1 then Status.FINISHED
        else Status.STOPPED,
        (visit f ((items_of root).take (n + 1)).reverse s).2) ∧
    cursor_loop f fuel (iter_seek_at_desc cfg iter n) s =
      some (visit f ((items_of root).take (n + 1)).reverse s) ∧
    (iter_valid (iter_seek_at_desc cfg iter n) = true ↔ root ≠ none) ∧
    (root ≠ none →
      ((items_of root).take (n + 1)).reverse.length = min n (count cfg root - 1) + 1) ∧
    (∀ k, k ≤ min n (count cfg root - 1) → root ≠ none →
      (((items_of root).take (n + 1)).reverse)[k]? =
        (items_of root)[min n (count cfg root - 1) - k]?) ∧
    (count cfg root ≤ n + 1 →
      ((items_of root).take (n + 1)).reverse = (items_of root).reverse) ∧
    seek_at cfg root n (fun y (acc : List α) => (true, acc ++ [y])) [] =
      (Status.FINISHED, (items_of root).drop n) ∧
    cursor_loop (fun y (acc : List α) => (true, acc ++ [y])) fuel (iter_seek_at cfg iter n) [] =
      some (true, (items_of root).drop n) ∧
    seek_at_desc cfg root n (fun y (acc : List α) => (true, acc ++ [y])) [] =
      (Status.FINISHED, ((items_of root).take (n + 1)).reverse) ∧
    cursor_loop (fun y (acc : List α) => (true, acc ++ [y])) fuel
        (iter_seek_at_desc cfg iter n) [] =
      some (true, ((items_of root).take (n + 1)).reverse) := by
  have h1 := @seek_at_eq α cfg root cmp hinv n
  have h2 := @iter_seek_at_run α cfg iter root hroot cmp hinv n
  have h3 := @iter_seek_at_desc_run α cfg iter root hroot cmp hinv n
  have hc := inv_count hinv
  have hne : root ≠ none → items_of root ≠ [] := by
    intro h
    cases root with
    | none => exact absurd rfl h
    | some r => exact inv_nonempty hinv
  refine ⟨fun t => by rw [scan_all], (h1 f s).1, (h2 f s fuel hfuel).1, (h2 f s fuel hfuel).2,
    fun k => by rw [List.getElem?_drop], fun h => List.drop_eq_nil_of_le (by rw [← hc]; exact h),
    (h1 f s).2, (h3 f s fuel hfuel).1, (h3 f s fuel hfuel).2, ?_, ?_, ?_, ?_, ?_, ?_, ?_⟩
  · intro hr
    rw [List.length_reverse, List.length_take, ← hc]
    have := List.length_pos.2 (hne hr)
    rw [← hc] at this
    omega
  · intro k hk hr
    rw [hc] at hk ⊢
    exact take_reverse_get _ n k hk (hne hr)
  · intro h
    rw [List.take_of_length_le (by rw [← hc]; exact h)]
  · rw [(h1 _ _).1, visit_all]; simp
  · rw [(h2 _ _ fuel hfuel).1, visit_all]; simp
  · rw [(h1 _ _).2, visit_all]; simp
  · rw [(h3 _ _ fuel hfuel).1, visit_all]; simp

theorem seek_at_visits_from_index_witness :
    Inv cfgW icmp (some treeW) ∧ (iter_init (some treeW)).root = some treeW ∧
      count cfgW (some treeW) < 5 ∧
      seek_at cfgW (some treeW) 2 (fun y (acc : List Int) => (true, acc ++ [y])) [] =
        (Status.FINISHED, [30, 40]) ∧
      cursor_loop (fun y (acc : List Int) => (true, acc ++ [y])) 5
          (iter_seek_at cfgW (iter_init (some treeW)) 2) [] = some (true, [30, 40]) ∧
      seek_at_desc cfgW (some treeW) 7 (fun y (acc : List Int) => (true, acc ++ [y])) [] =
        (Status.FINISHED, [40, 30, 20, 10]) ∧
      cursor_loop (fun y (acc : List Int) => (true, acc ++ [y])) 5
          (iter_seek_at_desc cfgW (iter_init (some treeW)) 7) [] =
        some (true, [40, 30, 20, 10]) :=
  ⟨treeW_inv, rfl, by decide,
    (seek_at_visits_from_index cfgW icmp (some treeW) 2 (iter_init (some treeW))
      (fun y (acc : List Int) => (true, acc ++ [y])) [] 5 treeW_inv rfl
      (by decide)).2.2.2.2.2.2.2.2.2.2.2.2.1.trans (by decide),
    (seek_at_visits_from_index cfgW icmp (some treeW) 2 (iter_init (some treeW))
      (fun y (acc : List Int) => (true, acc ++ [y])) [] 5 treeW_inv rfl
      (by decide)).2.2.2.2.2.2.2.2.2.2.2.2.2.1.trans (by decide),
    (seek_at_visits_from_index cfgW icmp (some treeW) 7 (iter_init (some treeW))
      (fun y (acc : List Int) => (true, acc ++ [y])) [] 5 treeW_inv rfl
      (by decide)).2.2.2.2.2.2.2.2.2.2.2.2.2.2.1.trans (by decide),
    (seek_at_visits_from_index cfgW icmp (some treeW) 7 (iter_init (some treeW))
      (fun y (acc : List Int) => (true, acc ++ [y])) [] 5 treeW_inv rfl
      (by decide)).2.2.2.2.2.2.2.2.2.2.2.2.2.2.2.trans (by decide)⟩

namespace Spatial

theorem range_map_getD (dims : Nat) (f : Nat → Int) {i : Nat} (hi : i < dims) :
    ((List.range dims).map f).getD i 0 = f i := by
  rw [List.getD_eq_getElem?_getD, List.getElem?_map, List.getElem?_range hi]
  rfl

theorem rect_join_lo (dims : Nat) (a b : Rect) {i : Nat} (hi : i < dims) :
    (rect_join dims a b).lo i = min (a.lo i) (b.lo i) := by
  unfold rect_join
  simp only [Rect.lo]
  rw [range_map_getD dims _ hi]
  split <;> omega

theorem rect_join_hi (dims : Nat) (a b : Rect) {i : Nat} (hi : i < dims) :
    (rect_join dims a b).hi i = max (a.hi i) (b.hi i) := by
  unfold rect_join
  simp only [Rect.hi]
  rw [range_map_getD dims _ hi]
  split <;> omega

theorem isBox_join {dims : Nat} {itemrect : α → List Int × List Int} {l1 l2 : List α}
    {r1 r2 : Rect} (h1 : IsBox dims itemrect l1 r1) (h2 : IsBox dims itemrect l2 r2) :
    IsBox dims itemrect (l1 ++ l2) (rect_join dims r1 r2) := by
  intro i hi
  obtain ⟨a1, ⟨x1, m1, e1⟩, ⟨y1, n1, f1⟩⟩ := h1 i hi
  obtain ⟨a2, ⟨x2, m2, e2⟩, ⟨y2, n2, f2⟩⟩ := h2 i hi
  rw [rect_join_lo dims r1 r2 hi, rect_join_hi dims r1 r2 hi]
  refine ⟨?_, ?_, ?_⟩
  · intro x hx
    rcases List.mem_append.1 hx with hx | hx
    · have := a1 x hx; omega
    · have := a2 x hx; omega
  · by_cases hc : r1.lo i ≤ r2.lo i
    · exact ⟨x1, List.mem_append.2 (Or.inl m1), by rw [e1]; omega⟩
    · exact ⟨x2, List.mem_append.2 (Or.inr m2), by rw [e2]; omega⟩
  · by_cases hc : r2.hi i ≤ r1.hi i
    · exact ⟨y1, List.mem_append.2 (Or.inl n1), by rw [f1]; omega⟩
    · exact ⟨y2, List.mem_append.2 (Or.inr n2), by rw [f2]; omega⟩

theorem isBox_single (dims : Nat) (itemrect : α → List Int × List Int) (x : α) :
    IsBox dims itemrect [x] (item_rect dims itemrect x) := by
  intro i _
  exact ⟨fun y hy => by rw [List.mem_singleton.1 hy]; omega, ⟨x, by simp, rfl⟩, ⟨x, by simp, rfl⟩⟩

theorem join_all_items {dims : Nat} {itemrect : α → List Int × List Int} :
    ∀ (l : List α) (L : List α) (acc : Rect), IsBox dims itemrect L acc →
      IsBox dims itemrect (L ++ l) (join_all dims acc (l.map (item_rect dims itemrect)))
  | [], L, acc, h => by simpa [join_all] using h
  | x :: xs, L, acc, h => by
    have := join_all_items xs (L ++ [x]) _ (isBox_join h (isBox_single dims itemrect x))
    simpa [join_all] using this

theorem join_all_tight {dims : Nat} {itemrect : α → List Int × List Int} :
    ∀ (cs : List (Node α)) (rs : List Rect) (items : List α) (L : List α) (acc : Rect),
      IsBox dims itemrect L acc → TightL dims itemrect cs rs items →
      (cs.length = items.length + 1 ∨ (cs = [] ∧ items = [])) →
      IsBox dims itemrect (L ++ flatL cs items) (join_all dims acc (rs.take cs.length))
  | [], rs, items, L, acc, h, _, _ => by simpa [flatL, join_all] using h
  | c :: cs, [], items, L, acc, _, ht, _ => by simp [TightL] at ht
  | c :: cs, r :: rs, [], L, acc, h, ht, hl => by
    have hcs : cs = [] := by
      rcases hl with hl | hl
      · simpa using hl
      · exact absurd hl.1 (by simp)
    subst hcs
    simp only [TightL, List.head?_nil, Option.toList_none, List.append_nil] at ht
    simpa [flatL, join_all] using isBox_join h ht.1
  | c :: cs, r :: rs, s :: ss, L, acc, h, ht, hl => by
    simp only [TightL, List.head?_cons, Option.toList_some, List.tail_cons] at ht
    have hl2 : cs.length = ss.length + 1 ∨ (cs = [] ∧ ss = []) := by
      rcases hl with hl | hl
      · left; simpa using hl
      · exact absurd hl.1 (by simp)
    have := join_all_tight cs rs ss (L ++ (flat c ++ [s])) _ (isBox_join h ht.1) ht.2 hl2
    simpa [flatL, join_all] using this

theorem isBox_congr {dims : Nat} {itemrect : α → List Int × List Int} {l : List α}
    {r q : Rect} (h : IsBox dims itemrect l r)
    (e : ∀ i, i < dims → q.lo i = r.lo i ∧ q.hi i = r.hi i) : IsBox dims itemrect l q := by
  intro i hi
  rw [(e i hi).1, (e i hi).2]
  exact h i hi

theorem range_map_rect (dims : Nat) (r : Rect) :
    ∀ i, i < dims →
      (Rect.mk ((List.range dims).map (fun i => r.lo i))
        ((List.range dims).map (fun i => r.hi i))).lo i = r.lo i ∧
      (Rect.mk ((List.range dims).map (fun i => r.lo i))
        ((List.range dims).map (fun i => r.hi i))).hi i = r.hi i := by
  intro i hi
  exact ⟨range_map_getD dims _ hi, range_map_getD dims _ hi⟩

/-- The rectangle that `rect` returns for a root with tight rectangles is the
tight cover of all items of the tree. -/
theorem rect_tight {dims : Nat} {itemrect : α → List Int × List Int} {r : Node α}
    (ht : TightRoot dims itemrect r) :
    IsBox dims itemrect (flat r)
      (Rect.mk (rect dims itemrect (some r)).1 (rect dims itemrect (some r)).2) := by
  obtain ⟨items, height, isleaf, children, rects⟩ := r
  cases isleaf with
  | true =>
    simp only [TightRoot, Node.isleaf, Node.items, if_true] at ht
    obtain ⟨x, xs, rfl⟩ : ∃ x xs, items = x :: xs := by
      cases items with
      | nil => exact absurd rfl ht
      | cons x xs => exact ⟨x, xs, rfl⟩
    have h := join_all_items xs [x] _ (isBox_single dims itemrect x)
    have hf : flat (Node.mk (x :: xs) height true children rects) = [x] ++ xs := by
      simp [flat]
    rw [hf]
    exact isBox_congr h (range_map_rect dims _)
  | false =>
    simp only [TightRoot, Node.isleaf, Node.items, Node.children, Node.rects,
      Bool.false_eq_true, if_false] at ht
    obtain ⟨hlen, htl⟩ := ht
    obtain ⟨c, cs, rfl⟩ : ∃ c cs, children = c :: cs := by
      cases children with
      | nil => simp at hlen
      | cons c cs => exact ⟨c, cs, rfl⟩
    obtain ⟨r0, rs, rfl⟩ : ∃ r0 rs, rects = r0 :: rs := by
      cases rects with
      | nil => simp [TightL] at htl
      | cons r0 rs => exact ⟨r0, rs, rfl⟩
    simp only [TightL] at htl
    have hcl : cs.length = items.length := by simpa using hlen
    have hl2 : cs.length = items.tail.length + 1 ∨ (cs = [] ∧ items.tail = []) := by
      cases items with
      | nil => right; exact ⟨List.length_eq_zero.1 hcl, rfl⟩
      | cons s ss => left; simpa using hcl
    have h := join_all_tight cs rs items.tail _ r0 htl.1 htl.2 hl2
    have hflat : flat (Node.mk items height false (c :: cs) (r0 :: rs)) =
        flat c ++ items.head?.toList ++ flatL cs items.tail := by
      cases items with
      | nil =>
        have : cs = [] := List.length_eq_zero.1 hcl
        subst this
        simp [flat, flatL]
      | cons s ss => simp [flat, flatL]
    rw [hflat]
    have hr : (List.take ((Node.mk items height false (c :: cs) (r0 :: rs)).len + 1)
        (Node.mk items height false (c :: cs) (r0 :: rs)).rects).drop 1 = rs.take cs.length := by
      simp [Node.len, Node.items, Node.rects, hcl]
    have hr0 : (Node.mk items height false (c :: cs) (r0 :: rs)).rect 0 = r0 := by
      simp [Node.rect, Node.rects]
    refine isBox_congr h ?_
    simp only [rect, Node.isleaf, Bool.not_false, if_true, hr, hr0]
    exact range_map_rect dims _

end Spatial

namespace Spatial

/-- C24: on a spatial build, for every non-empty tree whose root rectangles are
tight covers (a leaf root with at least one item; a branch root in which the
rectangle of every slot is the tight cover of the child subtree and the
separator of that slot), `rect` writes `dims` coordinates to `min` and to `max`,
and in every dimension the `min` written is the least `min` of the rectangles
of the items of the scan and the `max` written is the greatest `max`: it is a
bound of every item and it is attained by an item.  For the empty tree `rect`
writes zeros. -/
theorem rect_is_bounding_box (dims : Nat) (itemrect : α → List Int × List Int) (r : Node α)
    (ht : TightRoot dims itemrect r) :
    (rect dims itemrect (some r)).1.length = dims ∧
    (rect dims itemrect (some r)).2.length = dims ∧
    (∀ i, i < dims →
      (∀ x ∈ items_of (some r),
        (rect dims itemrect (some r)).1.getD i 0 ≤ (item_rect dims itemrect x).lo i ∧
        (item_rect dims itemrect x).hi i ≤ (rect dims itemrect (some r)).2.getD i 0) ∧
      (∃ x ∈ items_of (some r),
        (item_rect dims itemrect x).lo i = (rect dims itemrect (some r)).1.getD i 0) ∧
      (∃ x ∈ items_of (some r),
        (item_rect dims itemrect x).hi i = (rect dims itemrect (some r)).2.getD i 0)) ∧
    (∀ (x : α) i, i < dims →
      (item_rect dims itemrect x).lo i = (itemrect x).1.getD i 0 ∧
      (item_rect dims itemrect x).hi i = (itemrect x).2.getD i 0) ∧
    rect dims itemrect (none : Option (Node α)) =
      (List.replicate dims 0, List.replicate dims 0) := by
  refine ⟨?_, ?_, fun i hi => rect_tight ht i hi, fun x i hi => ?_, ?_⟩
  · unfold rect
    split
    · split <;> simp
    · simp
  · unfold rect
    split
    · split <;> simp
    · simp
  · exact ⟨range_map_getD dims _ hi, range_map_getD dims _ hi⟩
  · simp only [rect]
    congr 1 <;> exact List.ext_getElem (by simp) (fun n h1 h2 => by simp)

theorem rect_is_bounding_box_witness :
    TightRoot 2 pointW treeS ∧ rect 2 pointW (some treeS) = ([10, 0], [40, 0]) ∧
      ∀ x ∈ items_of (some treeS),
        (rect 2 pointW (some treeS)).1.getD 0 0 ≤ (item_rect 2 pointW x).lo 0 ∧
        (item_rect 2 pointW x).hi 0 ≤ (rect 2 pointW (some treeS)).2.getD 0 0 :=
  ⟨by simp [TightRoot, TightL, IsBox, treeS, leafS, flat, Node.isleaf, Node.items,
      Node.children, Node.rects, item_rect, pointW, Rect.lo, Rect.hi]; decide,
    by decide,
    ((rect_is_bounding_box 2 pointW treeS
      (by simp [TightRoot, TightL, IsBox, treeS, leafS, flat, Node.isleaf, Node.items,
        Node.children, Node.rects, item_rect, pointW, Rect.lo, Rect.hi]; decide)).2.2.1 0
      (by decide)).1⟩

end Spatial

namespace Spatial

theorem foldl_bits (p : Nat → Bool) :
    ∀ (l : List Nat) (b : Bool), l.foldl (fun bits i => bits || p i) b = (b || l.any p)
  | [], b => by simp
  | x :: xs, b => by
    rw [List.foldl_cons, foldl_bits p xs]
    simp [Bool.or_assoc]

/-- The test `rect_intersects` is closed-interval overlap in every dimension. -/
theorem rect_intersects_iff (dims : Nat) (a b : Rect) :
    rect_intersects dims a b = true ↔ ∀ i, i < dims → b.lo i ≤ a.hi i ∧ a.lo i ≤ b.hi i := by
  unfold rect_intersects
  have e : (fun (bits : Bool) (i : Nat) =>
      bits || decide (b.lo i > a.hi i) || decide (b.hi i < a.lo i)) =
      (fun bits i => bits || (decide (b.lo i > a.hi i) || decide (b.hi i < a.lo i))) := by
    funext bits i
    rw [Bool.or_assoc]
  rw [e, foldl_bits]
  simp only [Bool.false_or, beq_iff_eq, List.any_eq_false, List.mem_range, Bool.or_eq_true,
    decide_eq_true_eq, not_or, not_lt]

theorem inside_intersects {dims : Nat} {t q r : Rect} (hin : Inside dims q r)
    (h : rect_intersects dims t q = true) : rect_intersects dims t r = true := by
  rw [rect_intersects_iff] at h ⊢
  intro i hi
  have h1 := h i hi
  have h2 := hin i hi
  omega

theorem intersects_items_eq {σ : Type} (dims : Nat) (itemrect : α → List Int × List Int)
    (target : Rect) (iter : α → σ → Bool × σ) :
    ∀ (l : List α) (s : σ), intersects_items dims itemrect target iter l s =
      visit iter (l.filter (fun x => rect_intersects dims target (item_rect dims itemrect x))) s
  | [], s => by simp [intersects_items, visit]
  | x :: xs, s => by
    rw [intersects_items, List.filter_cons]
    by_cases h : rect_intersects dims target (item_rect dims itemrect x) = true
    · simp only [h, if_true, visit]
      rw [intersects_items_eq dims itemrect target iter xs]
    · simp only [h, if_false, Bool.false_eq_true]
      exact intersects_items_eq dims itemrect target iter xs s

mutual
theorem node_intersects_eq {σ : Type} (dims : Nat) (itemrect : α → List Int × List Int)
    (target : Rect) (iter : α → σ → Bool × σ) :
    ∀ (n : Node α) (s : σ), node_intersects dims itemrect target iter n s =
      visit iter (hits dims itemrect target n) s
  | Node.mk items _ isleaf children rects, s => by
    rw [node_intersects, hits]
    cases isleaf
    · simp only [Bool.false_eq_true, if_false]
      exact node_intersectsL_eq dims itemrect target iter children rects items s
    · simp only [if_true]
      exact intersects_items_eq dims itemrect target iter items s
theorem node_intersectsL_eq {σ : Type} (dims : Nat) (itemrect : α → List Int × List Int)
    (target : Rect) (iter : α → σ → Bool × σ) :
    ∀ (cs : List (Node α)) (rs : List Rect) (ss : List α) (s : σ),
      node_intersectsL dims itemrect target iter cs rs ss s =
        visit iter (hitsL dims itemrect target cs rs ss) s
  | [], _, _, s => by simp [node_intersectsL, hitsL, visit]
  | c :: cs, rs, [], s => by
    rw [node_intersectsL, hitsL]
    by_cases h : rect_intersects dims target (rs.headD (Rect.mk [] [])) = true
    · simp only [h, if_true]
      exact node_intersects_eq dims itemrect target iter c s
    · simp only [h, if_false, Bool.false_eq_true, visit]
  | c :: cs, rs, x :: xs, s => by
    rw [node_intersectsL, hitsL]
    by_cases h : rect_intersects dims target (rs.headD (Rect.mk [] [])) = true
    · simp only [h, if_true]
      rw [visit_append, visit_append, node_intersects_eq dims itemrect target iter c s]
      by_cases hc : (visit iter (hits dims itemrect target c) s).1 = true
      · simp only [hc, if_true]
        by_cases hx : rect_intersects dims target (item_rect dims itemrect x) = true
        · simp only [hx, if_true, List.filter_cons, List.filter_nil, visit]
          by_cases hi : (iter x (visit iter (hits dims itemrect target c) s).2).1 = true
          · simp only [hi, if_true]
            exact node_intersectsL_eq dims itemrect target iter cs rs.tail xs _
          · simp only [hi, if_false, Bool.false_eq_true]
        · simp only [hx, if_false, Bool.false_eq_true, List.filter_cons, List.filter_nil, visit,
            if_true]
          exact node_intersectsL_eq dims itemrect target iter cs rs.tail xs _
      · simp only [hc, if_false, Bool.false_eq_true]
    · simp only [h, if_false, Bool.false_eq_true, List.nil_append]
      exact node_intersectsL_eq dims itemrect target iter cs rs.tail xs s
end

end Spatial

namespace Spatial

theorem filter_nil_of_miss {dims : Nat} {itemrect : α → List Int × List Int} {target r : Rect}
    {l : List α} (hc : ∀ x ∈ l, Inside dims (item_rect dims itemrect x) r)
    (h : ¬ rect_intersects dims target r = true) :
    l.filter (fun x => rect_intersects dims target (item_rect dims itemrect x)) = [] := by
  rw [List.filter_eq_nil_iff]
  intro x hx hp
  exact h (inside_intersects (hc x hx) hp)

mutual
theorem hits_filter (dims : Nat) (itemrect : α → List Int × List Int) (target : Rect) :
    ∀ (n : Node α), Covered dims itemrect n →
      hits dims itemrect target n =
        (flat n).filter (fun x => rect_intersects dims target (item_rect dims itemrect x))
  | Node.mk items _ isleaf children rects, hc => by
    rw [hits, flat]
    cases isleaf
    · simp only [Covered, Bool.false_eq_true, if_false] at hc
      simp only [Bool.false_eq_true, if_false]
      exact hitsL_filter dims itemrect target children rects items hc.2 (Or.inl hc.1)
    · simp only [if_true]
theorem hitsL_filter (dims : Nat) (itemrect : α → List Int × List Int) (target : Rect) :
    ∀ (cs : List (Node α)) (rs : List Rect) (ss : List α), CoveredL dims itemrect cs rs ss →
      (cs.length = ss.length + 1 ∨ (cs = [] ∧ ss = [])) →
      hitsL dims itemrect target cs rs ss =
        (flatL cs ss).filter (fun x => rect_intersects dims target (item_rect dims itemrect x))
  | [], _, _, _, _ => by simp [hitsL, flatL]
  | c :: cs, [], ss, hc, _ => by simp [CoveredL] at hc
  | c :: cs, r :: rs, [], hc, hl => by
    simp only [CoveredL, List.head?_nil, Option.toList_none, List.append_nil] at hc
    rw [hitsL, flatL]
    by_cases h : rect_intersects dims target r = true
    · simp only [List.headD_cons, h, if_true]
      exact hits_filter dims itemrect target c hc.2.1
    · simp only [List.headD_cons, h, if_false, Bool.false_eq_true]
      exact (filter_nil_of_miss hc.1 h).symm
  | c :: cs, r :: rs, x :: xs, hc, hl => by
    simp only [CoveredL, List.head?_cons, Option.toList_some, List.tail_cons] at hc
    have hl2 : cs.length = xs.length + 1 ∨ (cs = [] ∧ xs = []) := by
      rcases hl with hl | hl
      · left; simpa using hl
      · exact absurd hl.1 (by simp)
    rw [hitsL, flatL]
    show _ = List.filter _ (flat c ++ ([x] ++ flatL cs xs))
    rw [List.filter_append, List.filter_append,
      ← hitsL_filter dims itemrect target cs rs xs hc.2.2 hl2]
    by_cases h : rect_intersects dims target r = true
    · simp only [List.headD_cons, h, if_true, List.tail_cons]
      rw [hits_filter dims itemrect target c hc.2.1, List.append_assoc]
    · simp only [List.headD_cons, h, if_false, Bool.false_eq_true, List.tail_cons,
        List.nil_append]
      have e1 := filter_nil_of_miss (fun y hy => hc.1 y (List.mem_append.2 (Or.inl hy))) h
      have e2 := filter_nil_of_miss (show ∀ y ∈ [x], Inside dims (item_rect dims itemrect y) r
        from fun y hy => hc.1 y (List.mem_append.2 (Or.inr hy))) h
      rw [e1, e2]
      rfl
end

/-- The callback `intersects` runs over the items whose rectangle meets the
target, in the order of the scan. -/
theorem intersects_eq (dims : Nat) (itemrect : α → List Int × List Int)
    (root : Option (Node α)) (hc : ∀ r, root = some r → Covered dims itemrect r)
    (min max : List Int) {σ : Type} (iter : α → σ → Bool × σ) (s : σ) :
    intersects dims itemrect root min max iter s =
      (if (visit iter ((items_of root).filter (fun x =>
            rect_intersects dims (target_rect dims min max) (item_rect dims itemrect x))) s).1
        then Status.FINISHED else Status.STOPPED,
        (visit iter ((items_of root).filter (fun x =>
            rect_intersects dims (target_rect dims min max) (item_rect dims itemrect x))) s).2) := by
  cases root with
  | none => simp [intersects, items_of, visit]
  | some r =>
    simp only [intersects, items_of, node_intersects_eq, hits_filter dims itemrect _ r (hc r rfl)]
    split <;> rename_i h <;> simp [h]

end Spatial

namespace Spatial

section cursorS
variable {dims : Nat} {itemrect : α → List Int × List Int} {target : Rect}

theorem covered_shape {n : Node α} (hc : Covered dims itemrect n) (hl : n.isleaf = false) :
    n.children.length = n.items.length + 1 ∧
      CoveredL dims itemrect n.children n.rects n.items := by
  obtain ⟨items, height, isleaf, children, rects⟩ := n
  simp only [Node.isleaf] at hl
  subst hl
  simpa [Covered, Node.children, Node.items, Node.rects] using hc

theorem coveredL_drop :
    ∀ (k : Nat) (cs : List (Node α)) (rs : List Rect) (ss : List α),
      CoveredL dims itemrect cs rs ss →
      CoveredL dims itemrect (cs.drop k) (rs.drop k) (ss.drop k)
  | 0, _, _, _, h => by simpa using h
  | k + 1, [], _, _, _ => by simp [CoveredL]
  | k + 1, c :: cs, [], _, h => by simp [CoveredL] at h
  | k + 1, c :: cs, r :: rs, ss, h => by
    simp only [CoveredL] at h
    have := coveredL_drop k cs rs ss.tail h.2.2
    cases ss with
    | nil => simpa using this
    | cons s ss => simpa using this

theorem coveredL_head {c : Node α} {cs : List (Node α)} {rs : List Rect} {ss : List α}
    (h : CoveredL dims itemrect (c :: cs) rs ss) : Covered dims itemrect c := by
  cases rs with
  | nil => simp [CoveredL] at h
  | cons r rs => simp only [CoveredL] at h; exact h.2.1

theorem drop_child {n : Node α} {k : Nat} (hk : k < n.children.length) :
    n.children.drop k = n.child k :: n.children.drop (k + 1) := by
  rw [List.drop_eq_getElem_cons hk]
  congr 1
  unfold Node.child
  rw [List.getD_eq_getElem _ _ hk]

theorem covered_child {n : Node α} (hc : Covered dims itemrect n) (hl : n.isleaf = false)
    {k : Nat} (hk : k ≤ n.items.length) : Covered dims itemrect (n.child k) := by
  obtain ⟨h1, h2⟩ := covered_shape hc hl
  have h3 := coveredL_drop k _ _ _ h2
  rw [drop_child (by omega)] at h3
  exact coveredL_head h3

theorem hits_after_zero (n : Node α) :
    hits_after dims itemrect target n 0 = hits dims itemrect target n := by
  obtain ⟨items, height, isleaf, children, rects⟩ := n
  cases isleaf <;> simp [hits_after, hits, Node.isleaf, Node.items, Node.children, Node.rects]

theorem hits_after_leaf_end {n : Node α} (hl : n.isleaf = true) {k : Nat}
    (hk : n.items.length ≤ k) : hits_after dims itemrect target n k = [] := by
  simp [hits_after, hl, List.drop_eq_nil_of_le hk]

theorem hits_after_leaf_step {n : Node α} (hl : n.isleaf = true) {k : Nat} {x : α}
    (hx : n.items[k]? = some x) :
    hits_after dims itemrect target n k =
      [x].filter (fun x => rect_intersects dims target (item_rect dims itemrect x)) ++
        hits_after dims itemrect target n (k + 1) := by
  have hk : k < n.items.length := by
    by_contra h
    rw [List.getElem?_eq_none (by omega)] at hx
    cases hx
  have hx2 : n.items[k] = x := by
    rw [List.getElem?_eq_getElem hk] at hx
    exact Option.some.inj hx
  simp only [hits_after, hl, if_true]
  rw [List.drop_eq_getElem_cons hk, hx2]
  simp [List.filter_cons]
  split <;> rfl

theorem hits_after_branch_end {n : Node α} (hc : Covered dims itemrect n)
    (hl : n.isleaf = false) {k : Nat} (hk : n.items.length + 1 ≤ k) :
    hits_after dims itemrect target n k = [] := by
  obtain ⟨h1, _⟩ := covered_shape hc hl
  simp [hits_after, hl, List.drop_eq_nil_of_le (show n.children.length ≤ k from by omega), hitsL]

theorem hits_after_branch_step {n : Node α} (hc : Covered dims itemrect n)
    (hl : n.isleaf = false) {k : Nat} (hk : k ≤ n.items.length) :
    hits_after dims itemrect target n k =
      (if rect_intersects dims target (n.rect k) then
        hits dims itemrect target (n.child k) ++
          ((n.items[k]?).toList).filter
            (fun x => rect_intersects dims target (item_rect dims itemrect x))
       else []) ++ hits_after dims itemrect target n (k + 1) := by
  obtain ⟨h1, _⟩ := covered_shape hc hl
  have hr : (n.rects.drop k).headD (Rect.mk [] []) = n.rect k := by
    unfold Node.rect
    rw [List.getD_eq_getElem?_getD]
    cases h : n.rects.drop k with
    | nil =>
      have : n.rects.length ≤ k := List.drop_eq_nil_iff.1 h
      simp [List.getElem?_eq_none this]
    | cons r rs =>
      have hlt : k < n.rects.length := by
        by_contra hge
        rw [List.drop_eq_nil_of_le (by omega)] at h
        cases h
      rw [List.drop_eq_getElem_cons hlt] at h
      simp only [List.cons.injEq] at h
      simp [List.getElem?_eq_getElem hlt, h.1]
  have ht : (n.rects.drop k).tail = n.rects.drop (k + 1) := by
    rw [List.tail_drop]
  simp only [hits_after, hl, Bool.false_eq_true, if_false]
  rw [drop_child (show k < n.children.length from by omega)]
  by_cases hlt : k < n.items.length
  · rw [List.drop_eq_getElem_cons hlt, hitsL, hr, ht, List.getElem?_eq_getElem hlt]
    simp only [Option.toList_some]
  · have hk2 : k = n.items.length := by omega
    have hd : n.items.drop k = [] := List.drop_eq_nil_of_le (by omega)
    have hd1 : n.items.drop (k + 1) = [] := List.drop_eq_nil_of_le (by omega)
    have hc1 : n.children.drop (k + 1) = [] := List.drop_eq_nil_of_le (by omega)
    rw [hd, hd1, hc1, List.getElem?_eq_none (show n.items.length ≤ k from by omega)]
    simp only [hitsL, hr, List.append_nil, Option.toList_none, List.filter_nil]

theorem rounds_from_pos (n : Node α) (k : Nat) : 1 ≤ rounds_from n k := by
  unfold rounds_from
  split <;> omega

theorem rounds_from_zero (n : Node α) : rounds_from n 0 = rounds n := by
  obtain ⟨items, height, isleaf, children, rects⟩ := n
  cases isleaf <;> simp [rounds_from, rounds, Node.isleaf, Node.items, Node.children, Node.len]

theorem rounds_from_leaf {n : Node α} (hl : n.isleaf = true) (k : Nat) :
    rounds_from n k = (n.items.length - k) + 1 := by
  simp [rounds_from, hl, Node.len]

theorem rounds_from_branch {n : Node α} (hc : Covered dims itemrect n) (hl : n.isleaf = false)
    {k : Nat} (hk : k ≤ n.items.length) :
    rounds_from n k = 1 + rounds (n.child k) + rounds_from n (k + 1) := by
  obtain ⟨h1, _⟩ := covered_shape hc hl
  simp only [rounds_from, hl, Bool.false_eq_true, if_false]
  rw [drop_child (show k < n.children.length from by omega), roundsL]
  omega

end cursorS

end Spatial

namespace Spatial

section cursorS2
variable {dims : Nat} {itemrect : α → List Int × List Int}

theorem pop_asc_spatial (target : Rect) :
    ∀ (rest : List (SNode α)) (top : SNode α), FramesOK dims itemrect false rest →
      ((iter_pop_asc top rest).1 = false ∧ pending_below dims itemrect target rest = []) ∨
      (∃ g below, iter_pop_asc top rest = (true, g :: below) ∧ 0 ≤ g.index ∧
        g.index < (g.node.len : Int) ∧ FramesOK dims itemrect false (g :: below) ∧
        pending_below dims itemrect target rest =
          pending_below dims itemrect target (g :: below) ∧
        stack_rounds (g :: below) ≤ stack_rounds rest)
  | [], top, _ => Or.inl ⟨rfl, rfl⟩
  | g :: rest, top, hf => by
    obtain ⟨hc, h0, hb, hr⟩ := hf
    simp only [Bool.false_eq_true, if_false] at h0
    rw [iter_pop_asc]
    by_cases hlt : g.index < (g.node.len : Int)
    · right
      exact ⟨g, rest, by simp [hlt], h0, hlt, ⟨hc, by simpa using h0, hb, hr⟩, rfl, Nat.le_refl _⟩
    · simp only [hlt, if_false]
      have hge : g.node.items.length ≤ g.index.toNat := by
        simp only [Node.len] at hlt; omega
      have hnone : g.node.items[g.index.toNat]? = none := List.getElem?_eq_none hge
      have hafter : hits_after dims itemrect target g.node (g.index + 1).toNat = [] := by
        cases hl : g.node.isleaf
        · have := hb hl
          simp only [Node.len] at this
          exact hits_after_branch_end hc hl (by omega)
        · exact hits_after_leaf_end hl (by omega)
      have hpb : pending_below dims itemrect target (g :: rest) =
          pending_below dims itemrect target rest := by
        simp [pending_below, hnone, hafter]
      rcases pop_asc_spatial target rest g hr with ⟨e1, e2⟩ | ⟨g2, below, e1, e2, e3, e4, e5, e6⟩
      · exact Or.inl ⟨e1, by rw [hpb, e2]⟩
      · right
        refine ⟨g2, below, e1, e2, e3, e4, by rw [hpb, e5], ?_⟩
        simp only [stack_rounds] at e6 ⊢
        omega

end cursorS2

end Spatial

namespace Spatial

section cursorS3
variable {dims : Nat} {itemrect : α → List Int × List Int}

theorem nextOut_of_same {iter : Iter α} {S : List (SNode α)} {out : Iter α}
    (h : NextOut dims itemrect { iter with stack := S } out)
    (hp : pending dims itemrect iter.itarget iter.stack = pending dims itemrect iter.itarget S) :
    NextOut dims itemrect iter out := by
  rcases h with ⟨e1, S2, e2⟩ | ⟨S2, x, e1, e2, e3, e4⟩
  · exact Or.inl ⟨by rw [hp]; exact e1, S2, e2⟩
  · exact Or.inr ⟨S2, x, e1, e2, e3, by rw [hp]; exact e4⟩

theorem skip_item_eq (dims : Nat) (itemrect : α → List Int × List Int) {iter : Iter α}
    (hk : iter.kind = Kind.INTERSECTS) (snode : SNode α) {x : α}
    (hx : snode.node.items[snode.index.toNat]? = some x) :
    iter_skip_item dims itemrect iter snode =
      !rect_intersects dims iter.itarget (item_rect dims itemrect x) := by
  simp only [iter_skip_item, hk, if_true, hx]

theorem skip_node_eq {iter : Iter α} (hk : iter.kind = Kind.INTERSECTS) (n : Node α)
    (idx : Int) :
    iter_skip_node dims iter (SNode.mk n idx) =
      !rect_intersects dims iter.itarget (n.rect idx.toNat) := by
  simp only [iter_skip_node, hk, if_true]

theorem next_asc_loop_spec :
    ∀ (fuel : Nat) (iter : Iter α), stack_rounds iter.stack ≤ fuel → iter.stack ≠ [] →
      FramesOK dims itemrect true iter.stack → iter.kind = Kind.INTERSECTS →
      NextOut dims itemrect iter (iter_next_asc_loop dims itemrect fuel iter)
  | 0, iter, hf, hne, _, _ => by
    rcases hst : iter.stack with _ | ⟨f, rest⟩
    · exact absurd hst hne
    · rw [hst] at hf
      have := rounds_from_pos f.node (f.index + 1).toNat
      simp only [stack_rounds] at hf
      omega
  | fuel + 1, iter, hf, hne, hok, hk => by
    rcases hst : iter.stack with _ | ⟨f, rest⟩
    · exact absurd hst hne
    rw [hst] at hf hok
    obtain ⟨hc, h0, hb, hr⟩ := hok
    simp only [if_true] at h0
    simp only [stack_rounds] at hf
    obtain ⟨k, hkk⟩ : ∃ k : Nat, (k : Int) = f.index + 1 := ⟨(f.index + 1).toNat, by omega⟩
    have hk1 : (f.index + 1).toNat = k := by omega
    have hk2 : (f.index + 1 + 1).toNat = k + 1 := by omega
    rw [hk1] at hf
    have hpend : pending dims itemrect iter.itarget iter.stack =
        hits_after dims itemrect iter.itarget f.node k ++
          pending_below dims itemrect iter.itarget rest := by
      rw [hst, pending, hk1]
    rw [iter_next_asc_loop]
    simp only [hst]
    by_cases hleaf : f.node.isleaf = true
    · -- the top frame is a leaf
      by_cases hlt : f.index + 1 < (f.node.len : Int)
      · have hklt : k < f.node.items.length := by simp only [Node.len] at hlt; omega
        have hx : f.node.items[k]? = some f.node.items[k] := List.getElem?_eq_getElem hklt
        have hstep := @hits_after_leaf_step α dims itemrect iter.itarget f.node hleaf k _ hx
        have hx1 : f.node.items[(f.index + 1).toNat]? = some f.node.items[k] := by rw [hk1, hx]
        simp only [hleaf, hlt, and_self, if_true,
          skip_item_eq dims itemrect hk (SNode.mk f.node (f.index + 1)) hx1]
        by_cases hp : rect_intersects dims iter.itarget
            (item_rect dims itemrect f.node.items[k]) = true
        · simp only [hp, Bool.not_true, Bool.false_eq_true, if_false]
          right
          refine ⟨SNode.mk f.node (f.index + 1) :: rest, f.node.items[k], rfl,
            ⟨⟨hc, by simp only [if_true]; omega, fun h => (by rw [hleaf] at h; cases h), hr⟩,
              (show 0 ≤ f.index + 1 from by omega), hlt⟩, ?_, ?_⟩
          · simp only [iter_item]
            rw [if_neg (show ¬ f.index + 1 < 0 from by omega), hk1, hx]
          · rw [hpend, hstep, pending, hk2]
            simp [List.filter_cons, hp]
        · simp only [hp, Bool.not_false, if_true]
          have hp2 : rect_intersects dims iter.itarget
              (item_rect dims itemrect f.node.items[k]) = false := by simpa using hp
          refine nextOut_of_same (next_asc_loop_spec fuel
            { iter with stack := SNode.mk f.node (f.index + 1) :: rest } ?_ (by simp)
            ⟨hc, by simp only [if_true]; omega, fun h => (by rw [hleaf] at h; cases h), hr⟩ hk) ?_
          · simp only [stack_rounds, hk2]
            rw [rounds_from_leaf hleaf] at hf ⊢
            omega
          · rw [hpend, hstep, pending, hk2]
            simp [List.filter_cons, hp2]
      · -- the leaf is exhausted: pop
        have hge : f.node.items.length ≤ k := by simp only [Node.len] at hlt; omega
        have htop : hits_after dims itemrect iter.itarget f.node k = [] :=
          hits_after_leaf_end hleaf hge
        simp only [hleaf, hlt, and_false, if_false, true_or, if_true]
        rcases pop_asc_spatial iter.itarget rest (SNode.mk f.node (f.index + 1)) hr with
          ⟨e1, e2⟩ | ⟨g, below, e1, e2, e3, e4, e5, e6⟩
        · simp only [e1, Bool.false_eq_true, if_false]
          exact Or.inl ⟨by rw [hpend, htop, e2]; rfl, _, rfl⟩
        · obtain ⟨j, hj⟩ := Int.eq_ofNat_of_zero_le e2
          have hjlt : j < g.node.items.length := by
            simp only [Node.len] at e3; omega
          have hx : g.node.items[g.index.toNat]? = some g.node.items[j] := by
            rw [hj]; exact List.getElem?_eq_getElem hjlt
          simp only [e1, if_true, skip_item_eq dims itemrect hk g hx]
          have hpb : pending dims itemrect iter.itarget iter.stack =
              [g.node.items[j]].filter
                  (fun x => rect_intersects dims iter.itarget (item_rect dims itemrect x)) ++
                pending dims itemrect iter.itarget (g :: below) := by
            rw [hpend, htop, List.nil_append, e5, pending_below, hx, pending]
            simp
          obtain ⟨gc, g0, gb, gr⟩ := e4
          have gok : FramesOK dims itemrect true (g :: below) :=
            ⟨gc, by simp only [if_true]; omega, gb, gr⟩
          by_cases hp : rect_intersects dims iter.itarget
              (item_rect dims itemrect g.node.items[j]) = true
          · simp only [hp, Bool.not_true, Bool.false_eq_true, if_false]
            right
            refine ⟨g :: below, g.node.items[j], rfl, ⟨gok, e2, e3⟩, ?_, ?_⟩
            · simp only [iter_item]
              rw [if_neg (show ¬ g.index < 0 from by omega), hx]
            · rw [hpb]; simp [List.filter_cons, hp]
          · simp only [hp, Bool.not_false, if_true]
            have hp2 : rect_intersects dims iter.itarget
                (item_rect dims itemrect g.node.items[j]) = false := by simpa using hp
            refine nextOut_of_same (next_asc_loop_spec fuel
              { iter with stack := g :: below } ?_ (by simp) gok hk) ?_
            · have := rounds_from_pos f.node k
              show stack_rounds (g :: below) ≤ fuel
              omega
            · rw [hpb]; simp [List.filter_cons, hp2]
    · -- the top frame is a branch
      have hleaf : f.node.isleaf = false := by simpa using hleaf
      have hble := hb hleaf
      by_cases hend : f.index + 1 = (f.node.len : Int) + 1
      · -- all children done: pop
        have hge : f.node.items.length + 1 ≤ k := by simp only [Node.len] at hend; omega
        have htop : hits_after dims itemrect iter.itarget f.node k = [] :=
          hits_after_branch_end hc hleaf hge
        simp only [hleaf, Bool.false_eq_true, false_and, if_false, hend, or_true, if_true]
        have hend2 : SNode.mk f.node ((f.node.len : Int) + 1) = SNode.mk f.node (f.index + 1) := by
          rw [hend]
        rcases pop_asc_spatial iter.itarget rest (SNode.mk f.node ((f.node.len : Int) + 1)) hr with
          ⟨e1, e2⟩ | ⟨g, below, e1, e2, e3, e4, e5, e6⟩
        · simp only [e1, Bool.false_eq_true, if_false]
          exact Or.inl ⟨by rw [hpend, htop, e2]; rfl, _, rfl⟩
        · obtain ⟨j, hj⟩ := Int.eq_ofNat_of_zero_le e2
          have hjlt : j < g.node.items.length := by
            simp only [Node.len] at e3; omega
          have hx : g.node.items[g.index.toNat]? = some g.node.items[j] := by
            rw [hj]; exact List.getElem?_eq_getElem hjlt
          simp only [e1, if_true, skip_item_eq dims itemrect hk g hx]
          have hpb : pending dims itemrect iter.itarget iter.stack =
              [g.node.items[j]].filter
                  (fun x => rect_intersects dims iter.itarget (item_rect dims itemrect x)) ++
                pending dims itemrect iter.itarget (g :: below) := by
            rw [hpend, htop, List.nil_append, e5, pending_below, hx, pending]
            simp
          obtain ⟨gc, g0, gb, gr⟩ := e4
          have gok : FramesOK dims itemrect true (g :: below) :=
            ⟨gc, by simp only [if_true]; omega, gb, gr⟩
          by_cases hp : rect_intersects dims iter.itarget
              (item_rect dims itemrect g.node.items[j]) = true
          · simp only [hp, Bool.not_true, Bool.false_eq_true, if_false]
            right
            refine ⟨g :: below, g.node.items[j], rfl, ⟨gok, e2, e3⟩, ?_, ?_⟩
            · simp only [iter_item]
              rw [if_neg (show ¬ g.index < 0 from by omega), hx]
            · rw [hpb]; simp [List.filter_cons, hp]
          · simp only [hp, Bool.not_false, if_true]
            have hp2 : rect_intersects dims iter.itarget
                (item_rect dims itemrect g.node.items[j]) = false := by simpa using hp
            refine nextOut_of_same (next_asc_loop_spec fuel
              { iter with stack := g :: below } ?_ (by simp) gok hk) ?_
            · have := rounds_from_pos f.node k
              show stack_rounds (g :: below) ≤ fuel
              omega
            · rw [hpb]; simp [List.filter_cons, hp2]
      · -- the next child
        have hkle : k ≤ f.node.items.length := by simp only [Node.len] at hend hble; omega
        have hstep := @hits_after_branch_step α dims itemrect iter.itarget f.node hc hleaf k hkle
        have hrnd := rounds_from_branch hc hleaf hkle
        have hfr : FramesOK dims itemrect false (SNode.mk f.node (f.index + 1) :: rest) :=
          ⟨hc, by simp only [Bool.false_eq_true, if_false]; omega,
            fun _ => (by simp only [Node.len] at hend hble ⊢; omega), hr⟩
        simp only [hleaf, Bool.false_eq_true, false_and, if_false, hend, or_self,
          skip_node_eq hk, if_true, hk1, cow, Bool.not_true, Bool.and_false]
        by_cases hp : rect_intersects dims iter.itarget (f.node.rect k) = true
        · simp only [hp, Bool.not_true, Bool.false_eq_true, if_false]
          refine nextOut_of_same (next_asc_loop_spec fuel
            { iter with stack := SNode.mk (f.node.child k) (-1) ::
                SNode.mk f.node (f.index + 1) :: rest } ?_ (by simp)
            ⟨covered_child hc hleaf hkle, by simp, fun _ => (by simp only [Node.len]; omega),
              hfr⟩ hk) ?_
          · simp only [stack_rounds, hk2]
            simp only [show ((-1 : Int) + 1).toNat = 0 from rfl, rounds_from_zero]
            omega
          · rw [hpend, hstep]
            simp only [hp, if_true, pending, pending_below, hk2, hk1,
              show ((-1 : Int) + 1).toNat = 0 from rfl, hits_after_zero, List.append_assoc]
        · simp only [hp, Bool.not_false, if_true]
          refine nextOut_of_same (next_asc_loop_spec fuel
            { iter with stack := SNode.mk f.node (f.index + 1) :: rest } ?_ (by simp)
            ⟨hc, by simp only [if_true]; omega,
              fun _ => (by simp only [Node.len] at hend hble ⊢; omega), hr⟩ hk) ?_
          · simp only [stack_rounds, hk2]
            omega
          · rw [hpend, hstep]
            simp only [hp, Bool.false_eq_true, if_false, List.nil_append, pending, hk2]

end cursorS3

end Spatial

namespace Spatial

section cursorS4
variable {dims : Nat} {itemrect : α → List Int × List Int}

theorem set_index_app (F : List (SNode α)) (node : Node α) (old : List (SNode α)) (i : Nat) :
    set_index (F ++ SNode.mk node 0 :: old) old.length i = F ++ SNode.mk node (i : Int) :: old := by
  unfold set_index
  have e : (F ++ SNode.mk node 0 :: old).length - 1 - old.length = F.length := by
    simp
  rw [e, List.getElem?_append_right (Nat.le_refl _)]
  simp

theorem set_index_one (node : Node α) (old : List (SNode α)) (i : Nat) :
    set_index (SNode.mk node 0 :: old) old.length i = SNode.mk node (i : Int) :: old :=
  set_index_app [] node old i

theorem framesOK_app {top : Bool} :
    ∀ (F G : List (SNode α)), F ≠ [] → FramesOK dims itemrect top F →
      FramesOK dims itemrect false G → FramesOK dims itemrect top (F ++ G)
  | [], _, h, _, _ => absurd rfl h
  | [f], G, _, hF, hG => ⟨hF.1, hF.2.1, hF.2.2.1, hG⟩
  | f :: g :: F, G, _, hF, hG =>
    ⟨hF.1, hF.2.1, hF.2.2.1, framesOK_app (g :: F) G (by simp) hF.2.2.2 hG⟩

theorem pending_below_app (target : Rect) :
    ∀ (F G : List (SNode α)),
      pending_below dims itemrect target (F ++ G) =
        pending_below dims itemrect target F ++ pending_below dims itemrect target G
  | [], _ => rfl
  | f :: F, G => by
    rw [List.cons_append, pending_below, pending_below, pending_below_app target F G]
    simp only [List.append_assoc]

theorem pending_app (target : Rect) (F G : List (SNode α)) (h : F ≠ []) :
    pending dims itemrect target (F ++ G) =
      pending dims itemrect target F ++ pending_below dims itemrect target G := by
  cases F with
  | nil => exact absurd rfl h
  | cons f F =>
    simp only [List.cons_append, pending, pending_below_app, List.append_assoc]

theorem standing_app {F : List (SNode α)} (g : SNode α) (hF : Standing dims itemrect F)
    (hg : FramesOK dims itemrect false [g]) : Standing dims itemrect (F ++ [g]) := by
  cases F with
  | nil => exact absurd hF (by simp [Standing])
  | cons f F =>
    obtain ⟨h1, h2, h3⟩ := hF
    exact ⟨framesOK_app (f :: F) [g] (by simp) h1 hg, h2, h3⟩

theorem iter_item_top (iter : Iter α) (f : SNode α) (F G : List (SNode α)) :
    iter_item { iter with stack := f :: F } = iter_item { iter with stack := f :: G } := rfl

theorem hitsL_cons (target : Rect) (c : Node α) (cs : List (Node α)) (r : Rect)
    (rs : List Rect) (ss : List α) (h : ss = [] → cs = []) :
    hitsL dims itemrect target (c :: cs) (r :: rs) ss =
      (if rect_intersects dims target r then
        hits dims itemrect target c ++
          (ss.head?.toList).filter
            (fun x => rect_intersects dims target (item_rect dims itemrect x))
       else []) ++ hitsL dims itemrect target cs rs ss.tail := by
  cases ss with
  | nil =>
    rw [h rfl, hitsL]
    simp [hitsL]
  | cons x xs => rw [hitsL]; rfl

theorem first_item_spec (target : Rect) :
    ∀ (l : List α) (i : Nat),
      (first_item dims itemrect target l i = none ∧
        l.filter (fun x => rect_intersects dims target (item_rect dims itemrect x)) = []) ∨
      (∃ j x, first_item dims itemrect target l i = some (i + j) ∧ l[j]? = some x ∧
        l.filter (fun x => rect_intersects dims target (item_rect dims itemrect x)) =
          x :: (l.drop (j + 1)).filter
            (fun x => rect_intersects dims target (item_rect dims itemrect x)))
  | [], i => Or.inl ⟨rfl, rfl⟩
  | y :: ys, i => by
    rw [first_item]
    by_cases hp : rect_intersects dims target (item_rect dims itemrect y) = true
    · right
      exact ⟨0, y, by simp [hp], by simp, by simp [List.filter_cons, hp]⟩
    · simp only [hp, if_false, Bool.false_eq_true]
      rcases first_item_spec target ys (i + 1) with ⟨e1, e2⟩ | ⟨j, x, e1, e2, e3⟩
      · exact Or.inl ⟨e1, by simp [List.filter_cons, hp, e2]⟩
      · right
        refine ⟨j + 1, x, by rw [e1]; congr 1; omega, by simpa using e2, ?_⟩
        simp only [List.filter_cons, hp, if_false, Bool.false_eq_true, List.drop_succ_cons]
        exact e3

mutual
theorem first_spec :
    ∀ (n : Node α) (iter : Iter α), Covered dims itemrect n →
      (hits dims itemrect iter.itarget n = [] ∧
        iter_intersects_first dims itemrect iter n = (false, iter)) ∨
      (∃ F x, iter_intersects_first dims itemrect iter n =
          (true, { iter with stack := F ++ iter.stack }) ∧
        Standing dims itemrect F ∧ iter_item { iter with stack := F } = some x ∧
        hits dims itemrect iter.itarget n = x :: pending dims itemrect iter.itarget F)
  | Node.mk items height isleaf children rects, iter, hc => by
    rw [iter_intersects_first, hits]
    cases isleaf
    · simp only [Bool.false_eq_true, if_false]
      have hs := covered_shape hc rfl
      simp only [Node.children, Node.items, Node.rects] at hs
      exact firstL_spec children rects items 0 iter (Node.mk items height false children rects)
        rfl hc rfl rfl rfl hs.2 (Or.inl hs.1)
    · simp only [if_true]
      rcases @first_item_spec α dims itemrect iter.itarget items 0 with
        ⟨e1, e2⟩ | ⟨j, x, e1, e2, e3⟩
      · left
        simp only [e1]
        exact ⟨e2, trivial⟩
      · right
        have hjlt : j < items.length := by
          by_contra h
          rw [List.getElem?_eq_none (by omega)] at e2
          cases e2
        refine ⟨[SNode.mk (Node.mk items height true children rects) (j : Int)], x, ?_,
          ⟨⟨hc, by simp only [if_true]; omega, fun h => (by simp [Node.isleaf] at h), trivial⟩,
            by simp, by simpa [Node.len, Node.items] using hjlt⟩, ?_, ?_⟩
        · simp only [e1, Nat.zero_add]
          rw [set_index_one _ iter.stack j]
          rfl
        · simp [iter_item, Node.items, e2]
        · rw [e3]
          simp [pending, pending_below, hits_after, Node.isleaf, Node.items]
theorem firstL_spec :
    ∀ (cs : List (Node α)) (rs : List Rect) (ss : List α) (i : Nat) (iter : Iter α)
      (node : Node α), node.isleaf = false → Covered dims itemrect node →
      node.children.drop i = cs → node.rects.drop i = rs → node.items.drop i = ss →
      CoveredL dims itemrect cs rs ss → (cs.length = ss.length + 1 ∨ (cs = [] ∧ ss = [])) →
      (hitsL dims itemrect iter.itarget cs rs ss = [] ∧
        iter_intersects_firstL dims itemrect iter node cs rs ss i = (false, iter)) ∨
      (∃ F x, iter_intersects_firstL dims itemrect iter node cs rs ss i =
          (true, { iter with stack := F ++ iter.stack }) ∧
        Standing dims itemrect F ∧ iter_item { iter with stack := F } = some x ∧
        hitsL dims itemrect iter.itarget cs rs ss =
          x :: pending dims itemrect iter.itarget F)
  | [], _, _, _, iter, _, _, _, _, _, _, _, _ => Or.inl ⟨by simp [hitsL], rfl⟩
  | c :: cs, [], ss, _, _, _, _, _, _, _, _, hcl, _ => by simp [CoveredL] at hcl
  | c :: cs, r :: rs, ss, i, iter, node, hl, hc, hcs, hrs, hss, hcl, hlen => by
    simp only [CoveredL] at hcl
    obtain ⟨hin, hcc, hcl2⟩ := hcl
    have hshape : ss = [] → cs = [] := by
      intro e
      rcases hlen with h | h
      · rw [e] at h; simpa using h
      · exact absurd h.1 (by simp)
    have hlen2 : cs.length = ss.tail.length + 1 ∨ (cs = [] ∧ ss.tail = []) := by
      cases ss with
      | nil => right; exact ⟨hshape rfl, rfl⟩
      | cons y ys =>
        rcases hlen with h | h
        · left; simpa using h
        · exact absurd h.1 (by simp)
    have hcs2 : node.children.drop (i + 1) = cs := by
      rw [← List.tail_drop, hcs]; rfl
    have hrs2 : node.rects.drop (i + 1) = rs := by
      rw [← List.tail_drop, hrs]; rfl
    have hss2 : node.items.drop (i + 1) = ss.tail := by
      rw [← List.tail_drop, hss]
    have hitem : node.items[i]? = ss.head? := by
      rw [← hss, List.head?_drop]
    have hile : i ≤ node.items.length := by
      have h1 := (covered_shape hc hl).1
      have h2 := congrArg List.length hcs
      simp at h2
      omega
    have hafter : hits_after dims itemrect iter.itarget node (i + 1) =
        hitsL dims itemrect iter.itarget cs rs ss.tail := by
      simp only [hits_after, hl, Bool.false_eq_true, if_false, hcs2, hrs2, hss2]
    have hgok : FramesOK dims itemrect false [SNode.mk node (i : Int)] :=
      ⟨hc, by simp, fun _ => (by simp only [Node.len]; omega), trivial⟩
    have ih := firstL_spec cs rs ss.tail (i + 1) iter node hl hc hcs2 hrs2 hss2 hcl2 hlen2
    rw [hitsL_cons iter.itarget c cs r rs ss hshape]
    simp only [iter_intersects_firstL, List.headD_cons, List.tail_cons]
    by_cases hr : rect_intersects dims iter.itarget r = true
    · simp only [hr, if_true]
      rcases first_spec c { iter with stack := SNode.mk node 0 :: iter.stack } hcc with
        ⟨e1, e2⟩ | ⟨F, x, e1, e2, e3, e4⟩
      · -- nothing in the child
        have e1 : hits dims itemrect iter.itarget c = [] := e1
        simp only [e2, Bool.false_eq_true, if_false, e1, List.nil_append]
        cases ss with
        | nil =>
          simp only [List.head?_nil, Option.toList_none, List.filter_nil, List.nil_append]
          exact ih
        | cons y ys =>
          simp only [List.head?_cons, Option.toList_some, List.tail_cons] at ih ⊢
          by_cases hp : rect_intersects dims iter.itarget (item_rect dims itemrect y) = true
          · simp only [hp, if_true, List.filter_cons, List.filter_nil]
            right
            have hlt : i < node.items.length := by
              have := congrArg List.length hss
              simp at this
              omega
            have hy : node.items[i]? = some y := by rw [hitem]; rfl
            refine ⟨[SNode.mk node (i : Int)], y, ?_,
              ⟨⟨hc, by simp only [if_true]; omega, fun _ => (by simp only [Node.len]; omega),
                trivial⟩, by simp, by simpa [Node.len] using hlt⟩, ?_, ?_⟩
            · rw [set_index_one node iter.stack i]
              rfl
            · simp [iter_item, hy]
            · have ei : ((i : Int) + 1).toNat = i + 1 := by omega
              simp only [pending, pending_below, List.append_nil, List.singleton_append,
                List.cons.injEq, true_and, ei]
              rw [hafter]
              rfl
          · simp only [hp, if_false, Bool.false_eq_true, List.filter_cons, List.filter_nil,
              List.nil_append]
            exact ih
      · -- found in the child
        have e4 : hits dims itemrect iter.itarget c = x :: pending dims itemrect iter.itarget F :=
          e4
        right
        have hFne : F ≠ [] := by
          intro e; rw [e] at e2; exact absurd e2 (by simp [Standing])
        refine ⟨F ++ [SNode.mk node (i : Int)], x, ?_, standing_app _ e2 hgok, ?_, ?_⟩
        · simp only [e1, if_true]
          rw [set_index_app F node iter.stack i]
          simp
        · cases F with
          | nil => exact absurd rfl hFne
          | cons f F => exact e3
        · have ei : ((i : Int) + 1).toNat = i + 1 := by omega
          rw [e4, pending_app _ _ _ hFne]
          simp only [pending_below, List.append_nil, Int.toNat_ofNat, hitem, ei, hafter,
            List.cons_append, List.append_assoc]
    · simp only [hr, if_false, Bool.false_eq_true, List.nil_append]
      exact ih
end

end cursorS4

end Spatial

namespace Spatial

section cursorS5
variable {dims : Nat} {itemrect : α → List Int × List Int}

mutual
theorem node_scan_flat {σ : Type} (iter : α → σ → Bool × σ) :
    ∀ (n : Node α) (s : σ), node_scan iter n s = visit iter (flat n) s
  | Node.mk items _ isleaf children _, s => by
    rw [node_scan, flat]
    cases isleaf
    · simp only [Bool.false_eq_true, if_false]
      exact node_scanL_flat iter children items s
    · simp only [if_true]
      exact scan_items_eq iter items s
theorem node_scanL_flat {σ : Type} (iter : α → σ → Bool × σ) :
    ∀ (cs : List (Node α)) (ss : List α) (s : σ),
      node_scanL iter cs ss s = visit iter (flatL cs ss) s
  | [], _, s => by simp [node_scanL, flatL, visit]
  | c :: _, [], s => by
    rw [node_scanL, flatL]
    exact node_scan_flat iter c s
  | c :: cs, x :: xs, s => by
    rw [node_scanL, flatL, visit_append, node_scan_flat iter c s]
    simp only [visit]
    rw [node_scanL_flat iter cs xs]
end

/-- The sequence `items_of` is what the scan of a spatial tree emits. -/
theorem scan_items_of (t : Option (Node α)) :
    (scan t (fun y (acc : List α) => (true, acc ++ [y])) []).2 = items_of t := by
  cases t with
  | none => rfl
  | some r =>
    simp only [scan, items_of, node_scan_flat, visit_all]
    simp

theorem cursor_loop_hits {σ : Type} (f : α → σ → Bool × σ) :
    ∀ (n : Nat) (iter : Iter α) (s : σ) (fuel : Nat) (x : α), iter.valid = true →
      iter.kind = Kind.INTERSECTS → Standing dims itemrect iter.stack →
      iter_item iter = some x →
      (pending dims itemrect iter.itarget iter.stack).length = n → n + 1 < fuel →
      cursor_loop dims itemrect f fuel iter s =
        some (visit f (x :: pending dims itemrect iter.itarget iter.stack) s)
  | n, iter, s, fuel, x, hv, hk, hS, hx, hn, hf => by
    obtain ⟨k, rfl⟩ : ∃ k, fuel = k + 1 := ⟨fuel - 1, by omega⟩
    rw [cursor_loop, iter_valid, hv]
    simp only [if_true, hx, visit]
    by_cases hfx : (f x s).1 = true
    · simp only [hfx, if_true]
      have hne : iter.stack ≠ [] := by
        intro e; rw [e] at hS; exact absurd hS (by simp [Standing])
      have hok : FramesOK dims itemrect true iter.stack := by
        rcases hst : iter.stack with _ | ⟨g, rest⟩
        · exact absurd hst hne
        · rw [hst] at hS; exact hS.1
      have hnext : iter_next dims itemrect iter =
          iter_next_asc_loop dims itemrect (stack_rounds iter.stack + 1) iter := by
        rw [iter_next, hk]; rfl
      rw [hnext]
      rcases next_asc_loop_spec (stack_rounds iter.stack + 1) iter (by omega) hne hok hk with
        ⟨e1, S, e2⟩ | ⟨S, y, e1, e2, e3, e4⟩
      · rw [e2, e1]
        obtain ⟨k2, rfl⟩ : ∃ k2, k = k2 + 1 := ⟨k - 1, by omega⟩
        simp [cursor_loop, iter_valid, visit]
      · rw [e1, e4]
        have hlen : (pending dims itemrect iter.itarget S).length = n - 1 := by
          rw [e4] at hn; simp at hn; omega
        have hpos : 1 ≤ n := by rw [e4] at hn; simp at hn; omega
        exact cursor_loop_hits f (n - 1) { iter with stack := S } (f x s).2 k y hv hk e2 e3 hlen
          (by omega)
    · have hfx : (f x s).1 = false := by simpa using hfx
      simp [hfx]

theorem cursor_invalid {σ : Type} (f : α → σ → Bool × σ) (iter : Iter α) (s : σ)
    (fuel : Nat) (hv : iter.valid = false) (hf : 0 < fuel) :
    cursor_loop dims itemrect f fuel iter s = some (true, s) := by
  obtain ⟨k, rfl⟩ : ∃ k, fuel = k + 1 := ⟨fuel - 1, by omega⟩
  simp [cursor_loop, iter_valid, hv]

theorem iter_intersects_run (iter : Iter α) (root : Option (Node α)) (hroot : iter.root = root)
    (hc : ∀ r, root = some r → Covered dims itemrect r) (min max : List Int)
    {σ : Type} (f : α → σ → Bool × σ) (s : σ) (fuel : Nat)
    (hf : (items_of root).length < fuel) :
    cursor_loop dims itemrect f fuel (iter_intersects dims itemrect iter min max) s =
      some (visit f ((items_of root).filter (fun x =>
        rect_intersects dims (target_rect dims min max) (item_rect dims itemrect x))) s) ∧
    (iter_valid (iter_intersects dims itemrect iter min max) = true ↔
      (items_of root).filter (fun x =>
        rect_intersects dims (target_rect dims min max) (item_rect dims itemrect x)) ≠ []) := by
  cases root with
  | none =>
    have hs : iter_intersects dims itemrect iter min max =
        { iter_reset iter Kind.INTERSECTS with
          itarget := (target_rect dims min max), valid := false } := by
      simp [iter_intersects, hroot]
    rw [hs]
    exact ⟨by rw [cursor_invalid f _ s fuel rfl (by omega)]; simp [items_of, visit],
      by simp [iter_valid, items_of]⟩
  | some r =>
    have hcr := hc r rfl
    have hfl := hits_filter dims itemrect (target_rect dims min max) r hcr
    simp only [items_of] at hf ⊢
    rw [← hfl]
    have hs : iter_intersects dims itemrect iter min max =
        { (iter_intersects_first dims itemrect
            { iter_reset iter Kind.INTERSECTS with itarget := (target_rect dims min max) } r).2 with
          valid := ((iter_intersects_first dims itemrect
            { iter_reset iter Kind.INTERSECTS with
              itarget := (target_rect dims min max) } r).1) } := by
      simp only [iter_intersects, hroot, cow, Bool.not_true, Bool.and_false,
        Bool.false_eq_true, if_false]
    rw [hs]
    rcases first_spec r
      { iter_reset iter Kind.INTERSECTS with itarget := (target_rect dims min max) } hcr with
      ⟨e1, e2⟩ | ⟨F, x, e1, e2, e3, e4⟩
    · have e1 : hits dims itemrect (target_rect dims min max) r = [] := e1
      rw [e2, e1]
      exact ⟨by rw [cursor_invalid f _ s fuel rfl (by omega)]; simp [visit],
        by simp [iter_valid]⟩
    · have e4 : hits dims itemrect (target_rect dims min max) r =
          x :: pending dims itemrect (target_rect dims min max) F := e4
      rw [e1, e4]
      have hlen : (x :: pending dims itemrect (target_rect dims min max) F).length ≤
          (flat r).length := by
        rw [← e4, hfl]; exact List.length_filter_le _ _
      refine ⟨?_, by simp [iter_valid]⟩
      have := cursor_loop_hits f (pending dims itemrect (target_rect dims min max) F).length
        { iter_reset iter Kind.INTERSECTS with
          itarget := (target_rect dims min max), stack := F, valid := true } s fuel x rfl rfl
        e2 e3 rfl (by simp at hlen; omega)
      simpa [iter_reset] using this

end cursorS5

end Spatial

namespace Spatial

/-- C22: on a spatial build, for every tree whose stored child rectangles cover
their subtrees and slot items and every query rectangle given by `min` and
`max`, the callback `intersects` and the cursor loop after `iter_intersects`
(read `iter_item`, call back, `iter_next`, while `iter_valid`) make their
callbacks over exactly the items of the scan whose item rectangle meets the
query, in the order of the scan and each once (the scan sequence filtered by
the test), stopping after the first callback that answers `false`.  The test
`rect_intersects` is closed-interval overlap in every dimension.  The cursor is
valid after `iter_intersects` exactly when there is such an item.  This holds
for every cursor on the tree and every loop budget above the number of items.
The first conjunct says that `items_of` is what the scan emits; the callbacks
are spelled out for the callback that logs its argument. -/
theorem intersects_emits_overlapping (dims : Nat) (itemrect : α → List Int × List Int)
    (root : Option (Node α)) (min max : List Int) (iter : Iter α) {σ : Type}
    (f : α → σ → Bool × σ) (s : σ) (fuel : Nat)
    (hc : ∀ r, root = some r → Covered dims itemrect r) (hroot : iter.root = root)
    (hfuel : (items_of root).length < fuel) :
    (∀ t : Option (Node α),
      (scan t (fun y (acc : List α) => (true, acc ++ [y])) []).2 = items_of t) ∧
    intersects dims itemrect root min max f s =
      (if (visit f ((items_of root).filter (fun x =>
            rect_intersects dims (target_rect dims min max) (item_rect dims itemrect x))) s).1
        then Status.FINISHED else Status.STOPPED,
        (visit f ((items_of root).filter (fun x =>
            rect_intersects dims (target_rect dims min max) (item_rect dims itemrect x))) s).2) ∧
    cursor_loop dims itemrect f fuel (iter_intersects dims itemrect iter min max) s =
      some (visit f ((items_of root).filter (fun x =>
        rect_intersects dims (target_rect dims min max) (item_rect dims itemrect x))) s) ∧
    (iter_valid (iter_intersects dims itemrect iter min max) = true ↔
      (items_of root).filter (fun x =>
        rect_intersects dims (target_rect dims min max) (item_rect dims itemrect x)) ≠ []) ∧
    ((items_of root).filter (fun x =>
        rect_intersects dims (target_rect dims min max) (item_rect dims itemrect x))).Sublist
      (items_of root) ∧
    (∀ x : α, rect_intersects dims (target_rect dims min max) (item_rect dims itemrect x) = true ↔
      ∀ i, i < dims → (itemrect x).1.getD i 0 ≤ max.getD i 0 ∧
        min.getD i 0 ≤ (itemrect x).2.getD i 0) ∧
    intersects dims itemrect root min max (fun y (acc : List α) => (true, acc ++ [y])) [] =
      (Status.FINISHED, (items_of root).filter (fun x =>
        rect_intersects dims (target_rect dims min max) (item_rect dims itemrect x))) ∧
    cursor_loop dims itemrect (fun y (acc : List α) => (true, acc ++ [y])) fuel
        (iter_intersects dims itemrect iter min max) [] =
      some (true, (items_of root).filter (fun x =>
        rect_intersects dims (target_rect dims min max) (item_rect dims itemrect x))) := by
  have h1 := @intersects_eq α dims itemrect root hc min max
  have h2 := @iter_intersects_run α dims itemrect iter root hroot hc min max
  refine ⟨scan_items_of, h1 f s, (h2 f s fuel hfuel).1, (h2 f s fuel hfuel).2,
    List.filter_sublist _, fun x => ?_, ?_, ?_⟩
  · rw [rect_intersects_iff]
    constructor
    · intro h i hi
      have := h i hi
      simp only [item_rect, target_rect, Rect.lo, Rect.hi, range_map_getD dims _ hi] at this
      exact this
    · intro h i hi
      have := h i hi
      simp only [item_rect, target_rect, Rect.lo, Rect.hi, range_map_getD dims _ hi]
      exact this
  · rw [h1, visit_all]; simp
  · rw [(h2 _ _ fuel hfuel).1, visit_all]; simp

theorem intersects_emits_overlapping_witness :
    (∀ r, some treeS = some r → Covered 2 pointW r) ∧
      (iter_init (some treeS)).root = some treeS ∧ (items_of (some treeS)).length < 5 ∧
      intersects 2 pointW (some treeS) [15, 0] [35, 0]
          (fun y (acc : List Int) => (true, acc ++ [y])) [] = (Status.FINISHED, [20, 30]) ∧
      cursor_loop 2 pointW (fun y (acc : List Int) => (true, acc ++ [y])) 5
          (iter_intersects 2 pointW (iter_init (some treeS)) [15, 0] [35, 0]) [] =
        some (true, [20, 30]) :=
  ⟨fun r e => by
      cases e
      simp [Covered, CoveredL, Inside, treeS, leafS, flat, flatL, item_rect, pointW, Rect.lo,
        Rect.hi]
      decide,
    rfl, by decide,
    (intersects_emits_overlapping 2 pointW (some treeS) [15, 0] [35, 0] (iter_init (some treeS))
      (fun y (acc : List Int) => (true, acc ++ [y])) [] 5
      (fun r e => by
        cases e
        simp [Covered, CoveredL, Inside, treeS, leafS, flat, flatL, item_rect, pointW, Rect.lo,
          Rect.hi]
        decide) rfl (by decide)).2.2.2.2.2.2.1.trans (by decide),
    (intersects_emits_overlapping 2 pointW (some treeS) [15, 0] [35, 0] (iter_init (some treeS))
      (fun y (acc : List Int) => (true, acc ++ [y])) [] 5
      (fun r e => by
        cases e
        simp [Covered, CoveredL, Inside, treeS, leafS, flat, flatL, item_rect, pointW, Rect.lo,
          Rect.hi]
        decide) rfl (by decide)).2.2.2.2.2.2.2.trans (by decide)⟩

end Spatial

namespace Spatial

section heap
variable {cmp : α → α → Int}

theorem item_compare_symm (ho : OrdCmp cmp) (a b : Option α) :
    item_compare cmp a b < 0 ↔ 0 < item_compare cmp b a := by
  cases a <;> cases b <;> simp [item_compare, ho.symm]

theorem item_compare_trans (ho : OrdCmp cmp) (a b c : Option α)
    (h1 : item_compare cmp a b ≤ 0) (h2 : item_compare cmp b c ≤ 0) :
    item_compare cmp a c ≤ 0 := by
  cases a <;> cases b <;> cases c <;> simp [item_compare] at h1 h2 ⊢
  exact ho.le_trans _ _ _ h1 h2

theorem ple_iff (a b : PItem α) :
    PLe cmp a b ↔ a.dist < b.dist ∨ (a.dist = b.dist ∧
      (a.index < b.index ∨ (a.index = b.index ∧ item_compare cmp a.item b.item ≤ 0))) := by
  unfold PLe pitem_compare
  by_cases h1 : a.dist < b.dist
  · simp [h1]
  · by_cases h2 : a.dist > b.dist
    · simp [h1, h2]; omega
    · have e : a.dist = b.dist := by omega
      by_cases h3 : a.index < b.index
      · simp [h1, h2, h3, e]
      · by_cases h4 : a.index > b.index
        · simp [h1, h2, h3, h4, e]; omega
        · have e2 : a.index = b.index := by omega
          simp [e, e2]

theorem ple_total (ho : OrdCmp cmp) (a b : PItem α) (h : ¬ PLe cmp a b) : PLe cmp b a := by
  rw [ple_iff] at h ⊢
  have hs := item_compare_symm ho b.item a.item
  by_cases h1 : b.dist < a.dist
  · exact Or.inl h1
  · right
    have e : a.dist = b.dist := by
      by_contra hne
      exact h (Or.inl (by omega))
    refine ⟨e.symm, ?_⟩
    by_cases h2 : b.index < a.index
    · exact Or.inl h2
    · right
      have e2 : a.index = b.index := by
        by_contra hne
        exact h (Or.inr ⟨e, Or.inl (by omega)⟩)
      refine ⟨e2.symm, ?_⟩
      by_contra hgt
      have : item_compare cmp a.item b.item < 0 := by
        have := (item_compare_symm ho a.item b.item).2 (by omega)
        exact this
      exact h (Or.inr ⟨e, Or.inr ⟨e2, by omega⟩⟩)

theorem ple_trans (ho : OrdCmp cmp) {a b c : PItem α} (h1 : PLe cmp a b) (h2 : PLe cmp b c) :
    PLe cmp a c := by
  rw [ple_iff] at h1 h2 ⊢
  rcases h1 with h1 | ⟨e1, h1⟩
  · rcases h2 with h2 | ⟨e2, h2⟩
    · exact Or.inl (by omega)
    · exact Or.inl (by omega)
  · rcases h2 with h2 | ⟨e2, h2⟩
    · exact Or.inl (by omega)
    · right
      refine ⟨by omega, ?_⟩
      rcases h1 with h1 | ⟨f1, h1⟩
      · rcases h2 with h2 | ⟨f2, h2⟩
        · exact Or.inl (by omega)
        · exact Or.inl (by omega)
      · rcases h2 with h2 | ⟨f2, h2⟩
        · exact Or.inl (by omega)
        · exact Or.inr ⟨by omega, item_compare_trans ho _ _ _ h1 h2⟩

theorem pcompare_gt (q : List (PItem α)) (i j : Nat) :
    pcompare cmp q i j > 0 ↔ ¬ PLe cmp (pget q i) (pget q j) := by
  unfold pcompare PLe pget
  omega

theorem pcompare_le (q : List (PItem α)) (i j : Nat) :
    pcompare cmp q i j ≤ 0 ↔ PLe cmp (pget q i) (pget q j) := Iff.rfl

theorem pget_swap (q : List (PItem α)) {i j : Nat} (hi : i < q.length) (hj : j < q.length)
    (k : Nat) :
    pget (pswap q i j) k = if k = j then pget q i else if k = i then pget q j else pget q k := by
  unfold pget pswap
  simp only [List.getD_eq_getElem?_getD, List.getElem?_set]
  by_cases h1 : k = j
  · subst h1
    simp [hj]
  · by_cases h2 : k = i
    · subst h2
      simp [h1, hi, Ne.symm h1]
    · simp [h1, h2, Ne.symm h1, Ne.symm h2]

theorem pswap_length (q : List (PItem α)) (i j : Nat) : (pswap q i j).length = q.length := by
  simp [pswap]

theorem pswap_perm (q : List (PItem α)) {i j : Nat} (hij : i < j) (hj : j < q.length) :
    (pswap q i j).Perm q := by
  obtain ⟨A, x, R, e1, e2⟩ := split_at_lt q i (by omega)
  have hjR : j - i - 1 < R.length := by
    have := congrArg List.length e1
    simp at this
    omega
  obtain ⟨B, y, C, f1, f2⟩ := split_at_lt R (j - i - 1) hjR
  have hx : q.getD i PItem.blank = x := by rw [e1]; exact app_getD e2
  have hy : q.getD j PItem.blank = y := by
    rw [e1, f1]
    have : (A ++ x :: (B ++ y :: C)) = (A ++ x :: B) ++ y :: C := by simp
    rw [this]
    exact app_getD (by simp; omega)
  unfold pswap
  rw [hx, hy, e1, app_set e2, f1]
  have h1 : (A ++ y :: (B ++ y :: C)) = (A ++ y :: B) ++ y :: C := by simp
  rw [h1, app_set (show (A ++ y :: B).length = j from by simp; omega)]
  simp only [List.append_assoc, List.cons_append]
  refine List.Perm.append_left A ?_
  have p1 : (y :: (B ++ x :: C)).Perm (y :: x :: (B ++ C)) :=
    List.Perm.cons y List.perm_middle
  have p2 : (x :: (B ++ y :: C)).Perm (x :: y :: (B ++ C)) :=
    List.Perm.cons x List.perm_middle
  exact p1.trans ((List.Perm.swap x y (B ++ C)).trans p2.symm)

theorem pswap_comm (q : List (PItem α)) {i j : Nat} (hij : i ≠ j) :
    pswap q i j = pswap q j i := by
  unfold pswap
  exact List.set_comm _ _ q hij

end heap

end Spatial

namespace Spatial

section heap2
variable {cmp : α → α → Int}

theorem sift_up_spec (ho : OrdCmp cmp) :
    ∀ (fuel : Nat) (q : List (PItem α)) (i : Nat), i < q.length → i < fuel → UpInv cmp q i →
      IsHeap cmp (sift_up cmp fuel q i) ∧ (sift_up cmp fuel q i).Perm q
  | 0, _, _, _, hf, _ => absurd hf (by omega)
  | fuel + 1, q, i, hi, hf, hinv => by
    rw [sift_up]
    by_cases h0 : i = 0
    · simp only [h0, if_true]
      refine ⟨fun j hj hl => hinv.1 j hj hl (by omega), List.Perm.refl _⟩
    · simp only [h0, if_false]
      have hp : (i - 1) / 2 < i := by omega
      by_cases hc : pcompare cmp q ((i - 1) / 2) i > 0
      · simp only [hc, decide_True, Bool.not_true, Bool.false_eq_true, if_false]
        have hip : PLe cmp (pget q i) (pget q ((i - 1) / 2)) :=
          ple_total ho _ _ ((pcompare_gt q _ _).1 hc)
        have hg := pget_swap q (show (i - 1) / 2 < q.length from by omega) hi
        have hinv2 : UpInv cmp (pswap q ((i - 1) / 2) i) ((i - 1) / 2) := by
          constructor
          · intro j hj hl hne
            rw [pswap_length] at hl
            rw [hg, hg]
            by_cases hji : j = i
            · subst hji
              simp only [if_true]
              rw [if_neg (show ¬ (j - 1) / 2 = j from by omega)]
              exact hip
            · simp only [hji, if_false, hne]
              by_cases hpi : (j - 1) / 2 = i
              · rw [if_pos hpi]
                have := hinv.2 j hj hl hpi (by omega)
                exact this
              · rw [if_neg hpi]
                by_cases hpp : (j - 1) / 2 = (i - 1) / 2
                · rw [if_pos hpp]
                  have h1 := hinv.1 j hj hl hji
                  rw [hpp] at h1
                  exact ple_trans ho hip h1
                · rw [if_neg hpp]
                  exact hinv.1 j hj hl hji
          · intro j hj hl hpj hpos
            rw [pswap_length] at hl
            rw [hg, hg]
            have hgp : PLe cmp (pget q (((i - 1) / 2 - 1) / 2)) (pget q ((i - 1) / 2)) :=
              hinv.1 ((i - 1) / 2) hpos (by omega) (by omega)
            rw [if_neg (show ¬ ((i - 1) / 2 - 1) / 2 = i from by omega),
              if_neg (show ¬ ((i - 1) / 2 - 1) / 2 = (i - 1) / 2 from by omega)]
            by_cases hji : j = i
            · rw [if_pos hji]
              exact hgp
            · rw [if_neg hji, if_neg (show ¬ j = (i - 1) / 2 from by omega)]
              have h1 := hinv.1 j hj hl hji
              rw [hpj] at h1
              exact ple_trans ho hgp h1
        obtain ⟨r1, r2⟩ := sift_up_spec ho fuel (pswap q ((i - 1) / 2) i) ((i - 1) / 2)
          (by rw [pswap_length]; omega) (by omega) hinv2
        exact ⟨r1, r2.trans (pswap_perm q hp hi)⟩
      · simp only [hc, decide_False, Bool.not_false, if_true]
        have hle : PLe cmp (pget q ((i - 1) / 2)) (pget q i) := by
          by_contra hn
          exact hc ((pcompare_gt q _ _).2 hn)
        refine ⟨fun j hj hl => ?_, List.Perm.refl _⟩
        by_cases hji : j = i
        · subst hji; exact hle
        · exact hinv.1 j hj hl hji

theorem ple_refl (ho : OrdCmp cmp) (a : PItem α) : PLe cmp a a := by
  by_contra h
  exact h (ple_total ho a a h)

theorem smallest_cases (ho : OrdCmp cmp) (q : List (PItem α)) (i : Nat) :
    (ppop_smallest cmp q i = i ∧
      (∀ j, j < q.length → (j = i * 2 + 1 ∨ j = i * 2 + 2) → PLe cmp (pget q i) (pget q j))) ∨
    ((ppop_smallest cmp q i = i * 2 + 1 ∨ ppop_smallest cmp q i = i * 2 + 2) ∧
      ppop_smallest cmp q i < q.length ∧
      PLe cmp (pget q (ppop_smallest cmp q i)) (pget q i) ∧
      (∀ j, j < q.length → (j = i * 2 + 1 ∨ j = i * 2 + 2) →
        PLe cmp (pget q (ppop_smallest cmp q i)) (pget q j))) := by
  by_cases hl : i * 2 + 1 < q.length ∧ pcompare cmp q (i * 2 + 1) i ≤ 0
  · have hli : PLe cmp (pget q (i * 2 + 1)) (pget q i) := hl.2
    by_cases hr : i * 2 + 2 < q.length ∧ pcompare cmp q (i * 2 + 2) (i * 2 + 1) ≤ 0
    · have hs : ppop_smallest cmp q i = i * 2 + 2 := by
        unfold ppop_smallest
        simp only [hl, hr, and_self, if_true]
      rw [hs]
      right
      have hrl : PLe cmp (pget q (i * 2 + 2)) (pget q (i * 2 + 1)) := hr.2
      refine ⟨Or.inr rfl, hr.1, ple_trans ho hrl hli, fun j hj hjc => ?_⟩
      rcases hjc with rfl | rfl
      · exact hrl
      · exact ple_refl ho _
    · have hs : ppop_smallest cmp q i = i * 2 + 1 := by
        unfold ppop_smallest
        simp only [hl, hr, and_self, if_true, if_false]
      rw [hs]
      right
      refine ⟨Or.inl rfl, hl.1, hli, fun j hj hjc => ?_⟩
      rcases hjc with rfl | rfl
      · exact ple_refl ho _
      · by_contra hn
        exact hr ⟨hj, ple_total ho _ _ hn⟩
  · have hil : ∀ j, j < q.length → j = i * 2 + 1 → PLe cmp (pget q i) (pget q j) := by
      intro j hj e
      subst e
      by_contra hn
      exact hl ⟨hj, ple_total ho _ _ hn⟩
    by_cases hr : i * 2 + 2 < q.length ∧ pcompare cmp q (i * 2 + 2) i ≤ 0
    · have hs : ppop_smallest cmp q i = i * 2 + 2 := by
        unfold ppop_smallest
        simp only [hl, hr, and_self, if_true, if_false]
      rw [hs]
      right
      have hri : PLe cmp (pget q (i * 2 + 2)) (pget q i) := hr.2
      refine ⟨Or.inr rfl, hr.1, hri, fun j hj hjc => ?_⟩
      rcases hjc with rfl | rfl
      · exact ple_trans ho hri (hil _ hj rfl)
      · exact ple_refl ho _
    · have hs : ppop_smallest cmp q i = i := by
        unfold ppop_smallest
        simp only [hl, hr, if_false]
      rw [hs]
      left
      refine ⟨rfl, fun j hj hjc => ?_⟩
      rcases hjc with rfl | rfl
      · exact hil _ hj rfl
      · by_contra hn
        exact hr ⟨hj, ple_total ho _ _ hn⟩

theorem sift_down_spec (ho : OrdCmp cmp) :
    ∀ (fuel : Nat) (q : List (PItem α)) (i : Nat), q.length ≤ fuel + i → DownInv cmp q i →
      IsHeap cmp (sift_down cmp fuel q i) ∧ (sift_down cmp fuel q i).Perm q
  | 0, q, i, hf, hinv => by
    rw [sift_down]
    refine ⟨fun j hj hl => hinv.1 j hj hl (by omega), List.Perm.refl _⟩
  | fuel + 1, q, i, hf, hinv => by
    rw [sift_down]
    rcases smallest_cases ho q i with ⟨e1, e2⟩ | ⟨e1, e2, e3, e4⟩
    · simp only [e1, if_true]
      refine ⟨fun j hj hl => ?_, List.Perm.refl _⟩
      by_cases hp : (j - 1) / 2 = i
      · rw [hp]
        exact e2 j hl (by omega)
      · exact hinv.1 j hj hl hp
    · have hne : ppop_smallest cmp q i ≠ i := by omega
      simp only [hne, if_false]
      generalize ppop_smallest cmp q i = m at e1 e2 e3 e4 hne
      have hil : i < q.length := by omega
      have hg := pget_swap q e2 hil
      have hinv2 : DownInv cmp (pswap q m i) m := by
        constructor
        · intro j hj hl hpm
          rw [pswap_length] at hl
          rw [hg, hg]
          by_cases hpi : (j - 1) / 2 = i
          · rw [if_pos hpi]
            by_cases hjm : j = m
            · rw [if_neg (show ¬ j = i from by omega), if_pos hjm]
              exact e3
            · rw [if_neg (show ¬ j = i from by omega), if_neg hjm]
              exact e4 j hl (by omega)
          · rw [if_neg hpi, if_neg hpm]
            by_cases hji : j = i
            · rw [if_pos hji]
              subst hji
              exact hinv.2 m (by omega) e2 (by omega) (by omega)
            · rw [if_neg hji, if_neg (show ¬ j = m from by omega)]
              exact hinv.1 j hj hl hpi
        · intro j hj hl hpj hpos
          rw [pswap_length] at hl
          rw [hg, hg]
          have hpm : (m - 1) / 2 = i := by omega
          rw [hpm, if_pos rfl, if_neg (show ¬ j = i from by omega),
            if_neg (show ¬ j = m from by omega)]
          have h1 := hinv.1 j hj hl (by omega)
          rw [hpj] at h1
          exact h1
      obtain ⟨r1, r2⟩ := sift_down_spec ho fuel (pswap q m i) m
        (by rw [pswap_length]; omega) hinv2
      have hperm : (pswap q m i).Perm q := by
        rw [pswap_comm q hne]
        exact pswap_perm q (by omega) e2
      exact ⟨r1, r2.trans hperm⟩

theorem heap_min (ho : OrdCmp cmp) {q : List (PItem α)} (hh : IsHeap cmp q) :
    ∀ (n j : Nat), j ≤ n → j < q.length → PLe cmp (pget q 0) (pget q j)
  | 0, j, hn, hl => by
    have : j = 0 := by omega
    subst this
    exact ple_refl ho _
  | n + 1, j, hn, hl => by
    by_cases h0 : j = 0
    · subst h0
      exact ple_refl ho _
    · have h1 := heap_min ho hh n ((j - 1) / 2) (by omega) (by omega)
      exact ple_trans ho h1 (hh j (by omega) hl)

end heap2

end Spatial

namespace Spatial

section heap3
variable {cmp : α → α → Int}

theorem pget_append_left (q : List (PItem α)) (e : PItem α) {j : Nat} (hj : j < q.length) :
    pget (q ++ [e]) j = pget q j := by
  unfold pget
  rw [List.getD_eq_getElem?_getD, List.getD_eq_getElem?_getD, List.getElem?_append_left hj]

theorem upInv_append (q : List (PItem α)) (e : PItem α) (hh : IsHeap cmp q) :
    UpInv cmp (q ++ [e]) q.length := by
  constructor
  · intro j hj hl hne
    have hjl : j < q.length := by simp at hl; omega
    rw [pget_append_left q e hjl, pget_append_left q e (show (j - 1) / 2 < q.length from by omega)]
    exact hh j hj hjl
  · intro j hj hl hp _
    simp at hl
    omega

/-- A successful `ppush0` keeps the heap and adds the entry. -/
theorem ppush0_spec (ho : OrdCmp cmp) (queue : PQueue α) (e : PItem α) (mem : List Bool)
    (hh : IsHeap cmp queue.items) (hmem : AllocOK mem) :
    (ppush0 cmp queue e mem).1 = Status.NONE ∧
    IsHeap cmp (ppush0 cmp queue e mem).2.1.items ∧
    (ppush0 cmp queue e mem).2.1.items.Perm (e :: queue.items) ∧
    (ppush0 cmp queue e mem).2.1.index = queue.index ∧
    AllocOK (ppush0 cmp queue e mem).2.2 := by
  obtain ⟨r1, r2⟩ := sift_up_spec ho (queue.items.length + 1) (queue.items ++ [e])
    queue.items.length (by simp) (by omega) (upInv_append queue.items e hh)
  have r3 : (sift_up cmp (queue.items.length + 1) (queue.items ++ [e])
      queue.items.length).Perm (e :: queue.items) :=
    r2.trans (List.perm_append_singleton e queue.items)
  unfold ppush0
  by_cases hc : queue.items.length = queue.cap
  · simp only [hc, if_true]
    rw [hc] at r1 r3
    cases mem with
    | nil => exact ⟨rfl, r1, r3, rfl, hmem⟩
    | cons b rest =>
      have hb : b = true := hmem b (by simp)
      subst hb
      exact ⟨rfl, r1, r3, rfl, AllocOK.tail hmem⟩
  · simp only [hc, if_false]
    exact ⟨trivial, r1, r3, trivial, hmem⟩

theorem mem_pget {q : List (PItem α)} {y : PItem α} (hy : y ∈ q) :
    ∃ k, k < q.length ∧ pget q k = y := by
  obtain ⟨k, hk, e⟩ := List.mem_iff_getElem.1 hy
  refine ⟨k, hk, ?_⟩
  unfold pget
  rw [List.getD_eq_getElem _ _ hk, e]

/-- The function `ppop` on a non-empty heap removes the first entry, which
comes before no entry left, and keeps the heap. -/
theorem ppop_spec (ho : OrdCmp cmp) (queue : PQueue α) (hh : IsHeap cmp queue.items)
    (hne : queue.items ≠ []) :
    queue.items.Perm ((ppop cmp queue).1 :: (ppop cmp queue).2.items) ∧
    IsHeap cmp (ppop cmp queue).2.items ∧
    (∀ y ∈ (ppop cmp queue).2.items, PLe cmp (ppop cmp queue).1 y) ∧
    (ppop cmp queue).2.index = queue.index ∧
    (ppop cmp queue).1 ∈ queue.items := by
  obtain ⟨items, cap, index⟩ := queue
  simp only at hh hne
  obtain ⟨e, t, rfl⟩ : ∃ e t, items = e :: t := by
    cases items with
    | nil => exact absurd rfl hne
    | cons e t => exact ⟨e, t, rfl⟩
  have hfirst : (pswap_remove (e :: t) 0).1 = e := rfl
  have hmin : ∀ y ∈ e :: t, PLe cmp e y := by
    intro y hy
    obtain ⟨k, hk, ek⟩ := mem_pget hy
    have := heap_min ho hh k k (Nat.le_refl _) hk
    rw [ek] at this
    exact this
  -- the array after the last entry has moved to the front
  have hrest : (pswap_remove (e :: t) 0).2 =
      ((pget (e :: t) t.length) :: t).take t.length := by
    simp [pswap_remove, pget]
  have hperm : (e :: t).Perm (e :: (pswap_remove (e :: t) 0).2) := by
    rw [hrest]
    refine List.Perm.cons e ?_
    cases ht : t with
    | nil => simp
    | cons a t2 =>
      have hlast : pget (e :: a :: t2) (a :: t2).length = (a :: t2).getLast (by simp) := by
        unfold pget
        rw [List.getD_eq_getElem _ _ (by simp)]
        simp [List.getLast_eq_getElem]
      rw [hlast]
      have e1 : (((a :: t2).getLast (by simp)) :: a :: t2).take (a :: t2).length =
          ((a :: t2).getLast (by simp)) :: (a :: t2).dropLast := by
        rw [List.dropLast_eq_take]
        simp
      rw [e1]
      have e2 : (a :: t2) = (a :: t2).dropLast ++ [(a :: t2).getLast (by simp)] :=
        (List.dropLast_append_getLast (by simp)).symm
      conv_lhs => rw [e2]
      exact List.perm_append_singleton _ _
  have hdown : DownInv cmp (pswap_remove (e :: t) 0).2 0 := by
    constructor
    · intro j hj hl hp
      rw [hrest] at hl ⊢
      have hjl : j < t.length := by
        simp at hl; omega
      have g : ∀ k, 0 < k → k < t.length →
          pget (((pget (e :: t) t.length) :: t).take t.length) k = pget (e :: t) k := by
        intro k hk0 hk
        unfold pget
        rw [List.getD_eq_getElem?_getD, List.getD_eq_getElem?_getD, List.getElem?_take_of_lt hk]
        obtain ⟨k2, rfl⟩ : ∃ k2, k = k2 + 1 := ⟨k - 1, by omega⟩
        simp
      rw [g j hj hjl, g ((j - 1) / 2) (by omega) (by omega)]
      exact hh j hj (by simp; omega)
    · intro j hj hl hp h0
      omega
  obtain ⟨r1, r2⟩ := sift_down_spec ho (e :: t).length (pswap_remove (e :: t) 0).2 0
    (by rw [hrest]; simp) hdown
  refine ⟨?_, r1, ?_, rfl, by simp [ppop, hfirst]⟩
  · exact hperm.trans (List.Perm.cons e r2.symm)
  · intro y hy
    have hy2 : y ∈ (pswap_remove (e :: t) 0).2 := r2.subset hy
    have hy3 : y ∈ e :: (pswap_remove (e :: t) 0).2 := List.mem_cons_of_mem _ hy2
    exact hmin y (hperm.symm.subset hy3)

end heap3

end Spatial

namespace Spatial

section addc
variable {cmp : α → α → Int} {dims : Nat} {itemrect : α → List Int × List Int}
  {dist : List Int → List Int → Int}

theorem queue_items_append (a b : List (PItem α)) :
    queue_items (a ++ b) = queue_items a ++ queue_items b := by
  induction a with
  | nil => rfl
  | cons e a ih => simp [queue_items, ih]

theorem queue_pend_append (a b : List (PItem α)) :
    queue_pend (a ++ b) = queue_pend a + queue_pend b := by
  induction a with
  | nil => simp [queue_pend]
  | cons e a ih => simp [queue_pend, ih]; omega

theorem queue_items_perm {a b : List (PItem α)} (h : a.Perm b) :
    (queue_items a).Perm (queue_items b) := by
  induction h with
  | nil => exact List.Perm.refl _
  | cons x _ ih => exact List.Perm.append_left _ ih
  | swap x y l =>
    simp only [queue_items]
    rw [← List.append_assoc, ← List.append_assoc]
    exact List.Perm.append_right _ List.perm_append_comm
  | trans _ _ ih1 ih2 => exact ih1.trans ih2

theorem queue_pend_perm {a b : List (PItem α)} (h : a.Perm b) :
    queue_pend a = queue_pend b := by
  induction h with
  | nil => rfl
  | cons x _ ih => simp [queue_pend, ih]
  | swap x y l => simp only [queue_pend]; omega
  | trans _ _ ih1 ih2 => exact ih1.trans ih2

theorem mem_queue_items {q : List (PItem α)} {y : α} (h : y ∈ queue_items q) :
    ∃ e ∈ q, y ∈ entry_items e := by
  induction q with
  | nil => simp [queue_items] at h
  | cons e q ih =>
    simp only [queue_items, List.mem_append] at h
    rcases h with h | h
    · exact ⟨e, by simp, h⟩
    · obtain ⟨e2, h1, h2⟩ := ih h
      exact ⟨e2, List.mem_cons_of_mem _ h1, h2⟩

theorem additems_spec (ho : OrdCmp cmp) :
    ∀ (items : List α) (queue : PQueue α) (mem : List Bool), IsHeap cmp queue.items →
      AllocOK mem → queue.index + items.length < 2 ^ 64 →
      (nearby_additems cmp dims itemrect dist items queue mem).1 = Status.NONE ∧
      IsHeap cmp (nearby_additems cmp dims itemrect dist items queue mem).2.1.items ∧
      AllocOK (nearby_additems cmp dims itemrect dist items queue mem).2.2 ∧
      (nearby_additems cmp dims itemrect dist items queue mem).2.1.index =
        queue.index + items.length ∧
      ∃ new, (nearby_additems cmp dims itemrect dist items queue mem).2.1.items.Perm
          (new ++ queue.items) ∧
        (∀ e ∈ new, EntryOK dims itemrect dist e) ∧ (queue_items new).Perm items ∧
        queue_pend new = 0 ∧ new.length = items.length
  | [], queue, mem, hh, hm, _ =>
    ⟨rfl, hh, hm, rfl, [], List.Perm.refl _, by simp, List.Perm.refl _, rfl, rfl⟩
  | x :: xs, queue, mem, hh, hm, hi => by
    have hidx : (queue.index + 1) % 2 ^ 64 = queue.index + 1 :=
      Nat.mod_eq_of_lt (by simp at hi; omega)
    obtain ⟨p1, p2, p3, p4, p5⟩ := ppush0_spec ho
      { queue with index := (queue.index + 1) % 2 ^ 64 }
      (PItem.mk (dist (item_rect dims itemrect x).min (item_rect dims itemrect x).max)
        UINT64_MAX (some x) none) mem hh hm
    rw [nearby_additems]
    simp only [ppush_item, p1, ne_eq, not_true_eq_false, if_false]
    obtain ⟨r1, r2, r3, r4, new, r5, r6, r7, r8, r9⟩ := additems_spec ho xs
      (ppush0 cmp { queue with index := (queue.index + 1) % 2 ^ 64 }
        (PItem.mk (dist (item_rect dims itemrect x).min (item_rect dims itemrect x).max)
          UINT64_MAX (some x) none) mem).2.1
      (ppush0 cmp { queue with index := (queue.index + 1) % 2 ^ 64 }
        (PItem.mk (dist (item_rect dims itemrect x).min (item_rect dims itemrect x).max)
          UINT64_MAX (some x) none) mem).2.2 p2 p5
      (by rw [p4]; simp only [hidx]; simp at hi; omega)
    refine ⟨r1, r2, r3, by rw [r4, p4]; simp only [hidx]; simp; omega,
      new ++ [PItem.mk (dist (item_rect dims itemrect x).min (item_rect dims itemrect x).max)
        UINT64_MAX (some x) none], ?_, ?_, ?_, ?_, ?_⟩
    · refine r5.trans ?_
      rw [List.append_assoc]
      exact List.Perm.append_left _ p3
    · intro e he
      rcases List.mem_append.1 he with he | he
      · exact r6 e he
      · rw [List.mem_singleton.1 he]
        exact Or.inl ⟨rfl, rfl, x, rfl, rfl⟩
    · rw [queue_items_append]
      simp only [queue_items, entry_items, Option.toList_some, List.append_nil]
      exact (List.Perm.append_right _ r7).trans
        ((List.perm_append_comm).trans (by simp))
    · rw [queue_pend_append, r8]
      simp [queue_pend, entry_pend]
    · simp [r9]

theorem addchildren_spec (ho : OrdCmp cmp) (is_mut : Bool) :
    ∀ (cs : List (Node α)) (rects : List Rect) (ss : List α) (queue : PQueue α)
      (mem : List Bool), IsHeap cmp queue.items → AllocOK mem →
      queue.index + cs.length < UINT64_MAX → DistCoveredL dims itemrect dist cs rects ss →
      (nearby_addchildren cmp dist is_mut cs rects queue mem).1 = Status.NONE ∧
      IsHeap cmp (nearby_addchildren cmp dist is_mut cs rects queue mem).2.1.items ∧
      AllocOK (nearby_addchildren cmp dist is_mut cs rects queue mem).2.2 ∧
      (nearby_addchildren cmp dist is_mut cs rects queue mem).2.1.index =
        queue.index + cs.length ∧
      ∃ new, (nearby_addchildren cmp dist is_mut cs rects queue mem).2.1.items.Perm
          (new ++ queue.items) ∧
        (∀ e ∈ new, EntryOK dims itemrect dist e) ∧ (queue_items new).Perm (flats cs) ∧
        queue_pend new + new.length = entriesL cs ∧ new.length = cs.length
  | [], _, _, queue, mem, hh, hm, _, _ =>
    ⟨rfl, hh, hm, rfl, [], List.Perm.refl _, by simp, List.Perm.refl _, rfl, rfl⟩
  | c :: cs, [], ss, _, _, _, _, _, hd => by simp [DistCoveredL] at hd
  | c :: cs, r :: rs, ss, queue, mem, hh, hm, hi, hd => by
    simp only [DistCoveredL] at hd
    obtain ⟨hd1, hd2, hd3⟩ := hd
    have hmax : UINT64_MAX = 2 ^ 64 - 1 := rfl
    have hidx : (queue.index + 1) % 2 ^ 64 = queue.index + 1 :=
      Nat.mod_eq_of_lt (by simp at hi; omega)
    obtain ⟨p1, p2, p3, p4, p5⟩ := ppush0_spec ho
      { queue with index := (queue.index + 1) % 2 ^ 64 }
      (PItem.mk (dist r.min r.max) ((queue.index + 1) % 2 ^ 64) none (some c)) mem hh hm
    rw [nearby_addchildren]
    simp only [cow, Bool.not_true, Bool.and_false, Bool.false_eq_true, if_false, ppush_node,
      List.headD_cons, List.tail_cons, p1, ne_eq, not_true_eq_false]
    obtain ⟨r1, r2, r3, r4, new, r5, r6, r7, r8, r9⟩ := addchildren_spec ho is_mut cs rs ss.tail
      (ppush0 cmp { queue with index := (queue.index + 1) % 2 ^ 64 }
        (PItem.mk (dist r.min r.max) ((queue.index + 1) % 2 ^ 64) none (some c)) mem).2.1
      (ppush0 cmp { queue with index := (queue.index + 1) % 2 ^ 64 }
        (PItem.mk (dist r.min r.max) ((queue.index + 1) % 2 ^ 64) none (some c)) mem).2.2 p2 p5
      (by rw [p4]; simp only [hidx]; simp at hi; omega) hd3
    refine ⟨r1, r2, r3, by rw [r4, p4]; simp only [hidx]; simp; omega,
      new ++ [PItem.mk (dist r.min r.max) ((queue.index + 1) % 2 ^ 64) none (some c)],
      ?_, ?_, ?_, ?_, ?_⟩
    · refine r5.trans ?_
      rw [List.append_assoc]
      exact List.Perm.append_left _ p3
    · intro e he
      rcases List.mem_append.1 he with he | he
      · exact r6 e he
      · rw [List.mem_singleton.1 he]
        refine Or.inr ⟨?_, rfl, c, rfl, hd2, fun x hx => hd1 x (List.mem_append.2 (Or.inl hx))⟩
        simp only [hidx]
        simp at hi
        omega
    · rw [queue_items_append]
      simp only [queue_items, entry_items, Option.toList_none, List.nil_append, List.append_nil,
        flats]
      exact (List.Perm.append_right _ r7).trans List.perm_append_comm
    · rw [queue_pend_append]
      simp only [queue_pend, entry_pend, List.length_append, List.length_singleton, entriesL]
      omega
    · simp [r9]

theorem flatL_perm :
    ∀ (cs : List (Node α)) (ss : List α), (cs.length = ss.length + 1 ∨ (cs = [] ∧ ss = [])) →
      (flatL cs ss).Perm (ss ++ flats cs)
  | [], ss, h => by
    rcases h with h | h
    · simp at h
    · rw [h.2]; simp [flatL, flats]
  | c :: cs, [], h => by
    have : cs = [] := by
      rcases h with h | h
      · simpa using h
      · exact absurd h.1 (by simp)
    subst this
    simp [flatL, flats]
  | c :: cs, s :: ss, h => by
    have h2 : cs.length = ss.length + 1 ∨ (cs = [] ∧ ss = []) := by
      rcases h with h | h
      · left; simpa using h
      · exact absurd h.1 (by simp)
    have ih := flatL_perm cs ss h2
    simp only [flatL, flats]
    have p1 : (flat c ++ s :: flatL cs ss).Perm (s :: (flat c ++ flatL cs ss)) :=
      List.perm_middle
    have p2 : (s :: (flat c ++ flatL cs ss)).Perm (s :: (flat c ++ (ss ++ flats cs))) :=
      List.Perm.cons s (List.Perm.append_left _ ih)
    have p3 : (flat c ++ (ss ++ flats cs)).Perm (ss ++ (flat c ++ flats cs)) := by
      rw [← List.append_assoc, ← List.append_assoc]
      exact List.Perm.append_right _ List.perm_append_comm
    exact p1.trans (p2.trans (List.Perm.cons s p3))

theorem distCovered_shape {n : Node α} (hc : DistCovered dims itemrect dist n)
    (hl : n.isleaf = false) :
    n.children.length = n.items.length + 1 ∧
      DistCoveredL dims itemrect dist n.children n.rects n.items := by
  obtain ⟨items, height, isleaf, children, rects⟩ := n
  simp only [Node.isleaf] at hl
  subst hl
  simpa [DistCovered, Node.children, Node.items, Node.rects] using hc

/-- A successful `nearby_addnodecontents` adds the contents of the node to the
heap: entries that stand for exactly the items of its subtree. -/
theorem addnodecontents_spec (ho : OrdCmp cmp) (is_mut : Bool) (n : Node α) (queue : PQueue α)
    (mem : List Bool) (hh : IsHeap cmp queue.items) (hm : AllocOK mem)
    (hd : DistCovered dims itemrect dist n) (hi : queue.index + entries n < UINT64_MAX) :
    (nearby_addnodecontents cmp dims itemrect dist queue n is_mut mem).1 = Status.NONE ∧
    IsHeap cmp (nearby_addnodecontents cmp dims itemrect dist queue n is_mut mem).2.1.items ∧
    AllocOK (nearby_addnodecontents cmp dims itemrect dist queue n is_mut mem).2.2 ∧
    ∃ new, (nearby_addnodecontents cmp dims itemrect dist queue n is_mut mem).2.1.items.Perm
        (new ++ queue.items) ∧
      (∀ e ∈ new, EntryOK dims itemrect dist e) ∧ (queue_items new).Perm (flat n) ∧
      queue_pend new + new.length = entries n ∧
      (nearby_addnodecontents cmp dims itemrect dist queue n is_mut mem).2.1.index =
        queue.index + new.length := by
  have hmax : UINT64_MAX = 2 ^ 64 - 1 := rfl
  have hent : entries n = n.items.length + (if n.isleaf then 0 else entriesL n.children) := by
    obtain ⟨items, height, isleaf, children, rects⟩ := n
    simp [entries, Node.items, Node.isleaf, Node.children]
  obtain ⟨a1, a2, a3, a4, newI, a5, a6, a7, a8, a9⟩ := @additems_spec α cmp dims itemrect dist ho
    n.items queue mem hh hm (by omega)
  unfold nearby_addnodecontents
  simp only [a1, ne_eq, not_true_eq_false, if_false]
  cases hl : n.isleaf
  · -- a branch
    obtain ⟨s1, s2⟩ := distCovered_shape hd hl
    have htake : n.children.take (n.len + 1) = n.children := by
      rw [List.take_of_length_le]; simp only [Node.len]; omega
    have hel : entriesL n.children = n.children.length + (entriesL n.children - n.children.length) := by
      have : ∀ cs : List (Node α), cs.length ≤ entriesL cs := by
        intro cs
        induction cs with
        | nil => simp [entriesL]
        | cons c cs ih => simp only [entriesL, List.length_cons]; omega
      have := this n.children
      omega
    simp only [Bool.not_false, if_true, htake]
    rw [hl] at hent
    simp only [Bool.false_eq_true, if_false] at hent
    obtain ⟨b1, b2, b3, b4, newC, b5, b6, b7, b8, b9⟩ := @addchildren_spec α cmp dims itemrect dist
      ho is_mut n.children n.rects n.items
      (nearby_additems cmp dims itemrect dist n.items queue mem).2.1
      (nearby_additems cmp dims itemrect dist n.items queue mem).2.2 a2 a3
      (by rw [a4]; omega) s2
    refine ⟨b1, b2, b3, newC ++ newI, ?_, ?_, ?_, ?_, ?_⟩
    · refine b5.trans ?_
      rw [List.append_assoc]
      exact List.Perm.append_left _ a5
    · intro e he
      rcases List.mem_append.1 he with he | he
      · exact b6 e he
      · exact a6 e he
    · rw [queue_items_append]
      have hf : flat n = flatL n.children n.items := by
        obtain ⟨items, height, isleaf, children, rects⟩ := n
        simp only [Node.isleaf] at hl
        subst hl
        simp [flat, Node.children, Node.items]
      rw [hf]
      exact ((List.Perm.append b7 a7).trans List.perm_append_comm).trans
        (flatL_perm n.children n.items (Or.inl s1)).symm
    · rw [queue_pend_append, List.length_append, hent]
      omega
    · rw [b4, a4, List.length_append]
      omega
  · -- a leaf
    simp only [Bool.not_true, Bool.false_eq_true, if_false]
    rw [hl] at hent
    simp only [if_true] at hent
    refine ⟨a1, a2, a3, newI, a5, a6, ?_, by omega, by rw [a4, a9]⟩
    have hf : flat n = n.items := by
      obtain ⟨items, height, isleaf, children, rects⟩ := n
      simp only [Node.isleaf] at hl
      subst hl
      simp [flat, Node.items]
    rw [hf]
    exact a7

end addc

end Spatial

namespace Spatial

section nearbyloop
variable {cmp : α → α → Int} {dims : Nat} {itemrect : α → List Int × List Int}
  {dist : List Int → List Int → Int}

/-- An item entry that does not come after an entry is, in the order of the
output, not after any item the entry stands for. -/
theorem key_of_ple {e e2 : PItem α} {x y : α} (he : e.index = UINT64_MAX)
    (hx : e.item = some x) (hdx : e.dist = item_dist dims itemrect dist x)
    (h2 : EntryOK dims itemrect dist e2) (hle : PLe cmp e e2) (hy : y ∈ entry_items e2) :
    KeyLe cmp dims itemrect dist x y := by
  rw [ple_iff] at hle
  rcases h2 with ⟨i1, i2, z, i3, i4⟩ | ⟨n1, n2, n, n3, n4, n5⟩
  · have hyz : y = z := by
      simpa [entry_items, i2, i3] using hy
    subst hyz
    rw [hdx, i4, he, i1, hx, i3] at hle
    rcases hle with h | ⟨h1, h | ⟨_, h⟩⟩
    · exact Or.inl h
    · omega
    · exact Or.inr ⟨h1, h⟩
  · have hyn : y ∈ flat n := by
      simpa [entry_items, n2, n3] using hy
    have hb := n5 y hyn
    rw [hdx, he] at hle
    rcases hle with h | ⟨h1, h | ⟨h, _⟩⟩
    · exact Or.inl (by omega)
    · omega
    · omega

theorem nearby_loop_spec (ho : OrdCmp cmp) (is_mut : Bool) :
    ∀ (fuel : Nat) (queue : PQueue α) (mem : List Bool), IsHeap cmp queue.items →
      AllocOK mem → (∀ e ∈ queue.items, EntryOK dims itemrect dist e) →
      queue.index + queue_pend queue.items < UINT64_MAX →
      queue_pend queue.items + queue.items.length < fuel →
      ∃ out : List α, out.Perm (queue_items queue.items) ∧
        out.Pairwise (KeyLe cmp dims itemrect dist) ∧
        ∀ {σ : Type} (f : α → σ → Bool × σ) (s : σ),
          nearby_loop cmp dims itemrect dist f is_mut fuel queue mem s =
            (if (visit f out s).1 then Status.NONE else Status.STOPPED, (visit f out s).2)
  | 0, _, _, _, _, _, _, hf => absurd hf (by omega)
  | fuel + 1, queue, mem, hh, hm, hok, hidx, hf => by
    by_cases hne : queue.items = []
    · refine ⟨[], by rw [hne]; exact List.Perm.refl _, List.Pairwise.nil, fun f s => ?_⟩
      rw [nearby_loop]
      simp [hne, visit]
    · obtain ⟨p1, p2, p3, p4, p5⟩ := ppop_spec ho queue hh hne
      have hlen : queue.items.length = (ppop cmp queue).2.items.length + 1 := by
        have := p1.length_eq
        simpa using this
      have hpend : queue_pend queue.items =
          entry_pend (ppop cmp queue).1 + queue_pend (ppop cmp queue).2.items := by
        rw [queue_pend_perm p1]; rfl
      have hitems : (queue_items queue.items).Perm
          (entry_items (ppop cmp queue).1 ++ queue_items (ppop cmp queue).2.items) :=
        queue_items_perm p1
      have hok2 : ∀ e ∈ (ppop cmp queue).2.items, EntryOK dims itemrect dist e :=
        fun e he => hok e (p1.symm.subset (List.mem_cons_of_mem _ he))
      have hpos : queue.items.length > 0 := List.length_pos.2 hne
      rcases hok _ p5 with ⟨i1, i2, x, i3, i4⟩ | ⟨n1, n2, n, n3, n4, n5⟩
      · -- an item comes out
        have hp0 : entry_pend (ppop cmp queue).1 = 0 := by simp [entry_pend, i2]
        obtain ⟨out, o1, o2, o3⟩ := nearby_loop_spec ho is_mut fuel (ppop cmp queue).2 mem p2 hm
          hok2 (by rw [p4]; omega) (by omega)
        refine ⟨x :: out, ?_, ?_, fun f s => ?_⟩
        · refine (List.Perm.cons x o1).trans (List.Perm.symm ?_)
          refine hitems.trans ?_
          simp [entry_items, i2, i3]
        · refine List.Pairwise.cons (fun y hy => ?_) o2
          obtain ⟨e2, m1, m2⟩ := mem_queue_items (o1.subset hy)
          exact key_of_ple i1 i3 i4 (hok2 e2 m1) (p3 e2 m1) m2
        · rw [nearby_loop]
          simp only [hpos, if_true, i1, i3, visit]
          by_cases hfx : (f x s).1 = true
          · simp only [hfx, if_true]
            exact o3 f (f x s).2
          · simp only [hfx, if_false, Bool.false_eq_true]
      · -- a node comes out
        have hpn : entry_pend (ppop cmp queue).1 = entries n := by simp [entry_pend, n3]
        obtain ⟨a1, a2, a3, new, a4, a5, a6, a7, a8⟩ := @addnodecontents_spec α cmp dims itemrect
          dist ho is_mut n (ppop cmp queue).2 mem p2 hm n4 (by rw [p4]; omega)
        have hpend2 : queue_pend
            (nearby_addnodecontents cmp dims itemrect dist (ppop cmp queue).2 n is_mut mem).2.1.items
            = queue_pend new + queue_pend (ppop cmp queue).2.items := by
          rw [queue_pend_perm a4, queue_pend_append]
        have hlen2 : (nearby_addnodecontents cmp dims itemrect dist (ppop cmp queue).2 n is_mut
            mem).2.1.items.length = new.length + (ppop cmp queue).2.items.length := by
          have := a4.length_eq
          simpa using this
        obtain ⟨out, o1, o2, o3⟩ := nearby_loop_spec ho is_mut fuel
          (nearby_addnodecontents cmp dims itemrect dist (ppop cmp queue).2 n is_mut mem).2.1
          (nearby_addnodecontents cmp dims itemrect dist (ppop cmp queue).2 n is_mut mem).2.2
          a2 a3
          (fun e he => by
            rcases List.mem_append.1 (a4.subset he) with h | h
            · exact a5 e h
            · exact hok2 e h)
          (by rw [a8, p4, hpend2]; omega) (by rw [hpend2, hlen2]; omega)
        refine ⟨out, ?_, o2, fun f s => ?_⟩
        · refine o1.trans ((queue_items_perm a4).trans ?_)
          rw [queue_items_append]
          refine (List.Perm.append_right _ a6).trans (List.Perm.symm ?_)
          refine hitems.trans ?_
          simp [entry_items, n2, n3]
        · rw [nearby_loop]
          have hnm : ¬ (ppop cmp queue).1.index = UINT64_MAX := by omega
          simp only [hpos, if_true, hnm, if_false, n3, a1, ne_eq, not_true_eq_false]
          exact o3 f s

end nearbyloop

end Spatial

namespace Spatial

section nearbytop
variable {cmp : α → α → Int} {dims : Nat} {itemrect : α → List Int × List Int}
  {dist : List Int → List Int → Int}

theorem nearby0_spec (ho : OrdCmp cmp) (is_mut : Bool) (r : Node α) (mem : List Bool)
    (hd : DistCovered dims itemrect dist r) (hsize : entries r < UINT64_MAX)
    (hm : AllocOK mem) :
    ∃ out : List α, out.Perm (flat r) ∧ out.Pairwise (KeyLe cmp dims itemrect dist) ∧
      ∀ {σ : Type} (f : α → σ → Bool × σ) (s : σ),
        nearby0 cmp dims itemrect (some r) dist f s is_mut mem =
          (if (visit f out s).1 then Status.FINISHED else Status.STOPPED, (visit f out s).2) := by
  have hh0 : IsHeap cmp (pqueue_init : PQueue α).items := by
    intro j _ hl
    simp [pqueue_init] at hl
  obtain ⟨a1, a2, a3, new, a4, a5, a6, a7, a8⟩ := @addnodecontents_spec α cmp dims itemrect
    dist ho is_mut r pqueue_init mem hh0 hm hd (by simpa [pqueue_init] using hsize)
  have a4 : (nearby_addnodecontents cmp dims itemrect dist pqueue_init r is_mut mem).2.1.items.Perm
      new := by simpa [pqueue_init] using a4
  have hpend : queue_pend
      (nearby_addnodecontents cmp dims itemrect dist pqueue_init r is_mut mem).2.1.items =
      queue_pend new := queue_pend_perm a4
  have hlen : (nearby_addnodecontents cmp dims itemrect dist pqueue_init r is_mut
      mem).2.1.items.length = new.length := a4.length_eq
  have a8 : (nearby_addnodecontents cmp dims itemrect dist pqueue_init r is_mut mem).2.1.index =
      new.length := by simpa [pqueue_init] using a8
  obtain ⟨out, o1, o2, o3⟩ := @nearby_loop_spec α cmp dims itemrect dist ho is_mut
    (entries r + 1)
    (nearby_addnodecontents cmp dims itemrect dist pqueue_init r is_mut mem).2.1
    (nearby_addnodecontents cmp dims itemrect dist pqueue_init r is_mut mem).2.2 a2 a3
    (fun e he => a5 e (a4.subset he)) (by rw [a8, hpend]; omega) (by rw [hpend, hlen]; omega)
  refine ⟨out, o1.trans ((queue_items_perm a4).trans a6), o2, fun f s => ?_⟩
  simp only [nearby0, cow, Bool.not_true, Bool.and_false, Bool.false_eq_true, if_false, a1,
    ne_eq, not_true_eq_false, o3 f s]
  by_cases hv : (visit f out s).1 = true
  · simp [hv]
  · simp [hv]

end nearbytop

/-- C23: on a spatial build, for every tree whose items are strictly ascending
in the scan (an ordered tree, consistent comparator), whose branches have one
child more than items, and every distance function that never gives a stored
child rectangle a larger distance than an item it covers, `nearby` makes its
callbacks over a sequence `out` that holds every item of the tree exactly once
(a permutation of the scan), in non-decreasing distance of the item rectangle,
items at one distance in ascending order of the comparator; it stops after the
first callback that answers `false`.  So the callback that logs its argument
gets the items sorted by (distance, comparator).  On the empty tree `nearby`
returns `FINISHED` without a callback.  The allocator does not fail, and the
tree has fewer than `UINT64_MAX` entries (items and nodes), so that the 64-bit
push counter of the queue does not wrap. -/
theorem nearby_sorted_by_distance (cmp : α → α → Int) (dims : Nat)
    (itemrect : α → List Int × List Int) (dist : List Int → List Int → Int)
    (root : Option (Node α)) (mem : List Bool) (ho : OrdCmp cmp)
    (hd : ∀ r, root = some r → DistCovered dims itemrect dist r)
    (hsorted : (items_of root).Pairwise (lt cmp))
    (hsize : ∀ r, root = some r → entries r < UINT64_MAX) (hm : AllocOK mem) :
    ∃ out : List α, out.Perm (items_of root) ∧
      out.Pairwise (fun a b =>
        item_dist dims itemrect dist a < item_dist dims itemrect dist b ∨
          (item_dist dims itemrect dist a = item_dist dims itemrect dist b ∧ lt cmp a b)) ∧
      (∀ {σ : Type} (f : α → σ → Bool × σ) (s : σ),
        nearby cmp dims itemrect root dist f s mem =
          (if (visit f out s).1 then Status.FINISHED else Status.STOPPED,
            (visit f out s).2)) ∧
      nearby cmp dims itemrect root dist (fun y (acc : List α) => (true, acc ++ [y])) [] mem =
        (Status.FINISHED, out) ∧
      (∀ t : Option (Node α),
        (scan t (fun y (acc : List α) => (true, acc ++ [y])) []).2 = items_of t) ∧
      (∀ {σ : Type} (f : α → σ → Bool × σ) (s : σ),
        nearby cmp dims itemrect (none : Option (Node α)) dist f s mem =
          (Status.FINISHED, s)) := by
  cases root with
  | none =>
    refine ⟨[], List.Perm.refl _, List.Pairwise.nil, fun f s => ?_, rfl, scan_items_of,
      fun f s => rfl⟩
    simp [nearby, nearby0, visit]
  | some r =>
    obtain ⟨out, o1, o2, o3⟩ := @nearby0_spec α cmp dims itemrect dist ho false r mem
      (hd r rfl) (hsize r rfl) hm
    have hne : out.Pairwise (fun a b => cmp a b ≠ 0) := by
      have h1 : (flat r).Pairwise (fun a b => cmp a b ≠ 0) :=
        hsorted.imp (fun h => by unfold lt at h; omega)
      refine (List.Perm.pairwise_iff ?_ o1).2 h1
      intro a b h e
      exact h (ho.eq_symm e)
    refine ⟨out, o1, ?_, fun f s => o3 f s, ?_, scan_items_of, fun f s => rfl⟩
    · refine (o2.and hne).imp ?_
      intro a b h
      rcases h.1 with h1 | ⟨h1, h2⟩
      · exact Or.inl h1
      · exact Or.inr ⟨h1, by have := h.2; unfold lt; omega⟩
    · show nearby0 cmp dims itemrect (some r) dist _ [] false mem = _
      rw [o3, visit_all]
      simp

theorem nearby_sorted_by_distance_witness :
    OrdCmp icmp ∧ (∀ r, some treeS = some r → DistCovered 2 pointW distW r) ∧
      (items_of (some treeS)).Pairwise (lt icmp) ∧
      (∀ r, some treeS = some r → entries r < UINT64_MAX) ∧ AllocOK [] ∧
      nearby icmp 2 pointW (some treeS) distW (fun y (acc : List Int) => (true, acc ++ [y])) []
          [] = (Status.FINISHED, [20, 30, 10, 40]) ∧
      ∃ out : List Int, out.Perm (items_of (some treeS)) ∧
        nearby icmp 2 pointW (some treeS) distW (fun y (acc : List Int) => (true, acc ++ [y]))
          [] [] = (Status.FINISHED, out) :=
  ⟨icmp_ord,
    fun r e => by
      cases e
      simp [DistCovered, DistCoveredL, treeS, leafS, flat, flatL, item_dist, item_rect, pointW,
        distW],
    by simp [items_of, treeS, leafS, flat, flatL, lt, icmp],
    fun r e => by cases e; decide,
    fun b hb => by simp at hb,
    by decide,
    (nearby_sorted_by_distance icmp 2 pointW distW (some treeS) [] icmp_ord
      (fun r e => by
        cases e
        simp [DistCovered, DistCoveredL, treeS, leafS, flat, flatL, item_dist, item_rect, pointW,
          distW])
      (by simp [items_of, treeS, leafS, flat, flatL, lt, icmp])
      (fun r e => by cases e; decide)
      (fun b hb => by simp at hb)).imp (fun out h => ⟨h.1, h.2.2.2.1⟩)⟩

end Spatial

section maxheight
variable {cfg : Config}

end maxheight

section searchspec
variable {cmp : α → α → Int}

theorem search_linear_cons (x : α) (xs : List α) (key : α) :
    search_linear cmp (x :: xs) key =
      if cmp key x ≤ 0 then (0, decide (cmp key x = 0))
      else ((search_linear cmp xs key).1 + 1, (search_linear cmp xs key).2) := rfl

theorem search_linear_found {S T : List α} {y key : α} (hS : ∀ x ∈ S, 0 < cmp key x)
    (hy : cmp key y = 0) : search_linear cmp (S ++ y :: T) key = (S.length, true) := by
  induction S with
  | nil => simp [search_linear, hy]
  | cons s S ih =>
    have h1 := hS s (by simp)
    have h2 := ih (fun x hx => hS x (by simp [hx]))
    rw [List.cons_append, search_linear_cons, if_neg (by omega), h2]
    rfl

theorem search_linear_notfound {S T : List α} {key : α} (hS : ∀ x ∈ S, 0 < cmp key x)
    (hT : ∀ y T1, T = y :: T1 → cmp key y < 0) :
    search_linear cmp (S ++ T) key = (S.length, false) := by
  induction S with
  | nil =>
    cases T with
    | nil => rfl
    | cons y T1 =>
      have := hT y T1 rfl
      simp only [List.nil_append, search_linear, List.length_nil]
      rw [if_pos (by omega)]
      simp; omega
  | cons s S ih =>
    have h1 := hS s (by simp)
    have h2 := ih (fun x hx => hS x (by simp [hx]))
    rw [List.cons_append, search_linear_cons, if_neg (by omega), h2]
    rfl

theorem search_linear_stops_early {l1 : List α} (l2 : List α) {key : α}
    (h : ∃ x ∈ l1, cmp key x ≤ 0) :
    search_linear cmp (l1 ++ l2) key = search_linear cmp l1 key := by
  induction l1 with
  | nil => simp at h
  | cons a l ih =>
    by_cases ha : cmp key a ≤ 0
    · simp [search_linear, ha]
    · obtain ⟨x, hx, hxk⟩ := h
      simp only [List.mem_cons] at hx
      rcases hx with rfl | hx
      · exact absurd hxk ha
      · simp [search_linear, ha, ih ⟨x, hx, hxk⟩]

theorem search_linear_skip {S : List α} (T : List α) {key : α} (hS : ∀ x ∈ S, 0 < cmp key x) :
    search_linear cmp (S ++ T) key =
      (S.length + (search_linear cmp T key).1, (search_linear cmp T key).2) := by
  induction S with
  | nil => simp
  | cons s S ih =>
    have h1 := hS s (by simp)
    have h2 := ih (fun x hx => hS x (by simp [hx]))
    rw [List.cons_append, search_linear_cons, if_neg (by omega), h2]
    simp; omega

/-- In an ascending list every item before an item not above the key is below
the key. -/
theorem before_lt_key (ho : OrdCmp cmp) {l : List α} (hp : l.Pairwise (lt cmp)) {key : α}
    {j : Nat} {x : α} (hj : l[j]? = some x) (hx : 0 ≤ cmp key x) :
    ∀ y ∈ l.take j, 0 < cmp key y := by
  intro y hy
  obtain ⟨p, hp1, hp2⟩ := List.getElem_of_mem hy
  have hjl : j < l.length := by
    rcases Nat.lt_or_ge j l.length with h | h
    · exact h
    · rw [List.getElem?_eq_none h] at hj; cases hj
  have hpj : p < j := by simp at hp1; omega
  rw [List.getElem_take] at hp2
  have hxe : l[j] = x := by
    rw [List.getElem?_eq_getElem hjl] at hj; exact Option.some.inj hj
  have h1 : lt cmp l[p] l[j] := List.pairwise_iff_getElem.1 hp p j (by omega) hjl hpj
  rw [hp2, hxe] at h1
  have h2 : cmp x key ≤ 0 := by
    have := ho.symm x key
    have := ho.symm key x
    omega
  have h3 := ho.lt_of_lt_of_le h1 h2
  exact (ho.symm y key).1 h3

/-- In an ascending list every item after an item not below the key is above
the key. -/
theorem after_gt_key (ho : OrdCmp cmp) {l : List α} (hp : l.Pairwise (lt cmp)) {key : α}
    {j : Nat} {x : α} (hj : l[j]? = some x) (hx : cmp key x ≤ 0) :
    ∀ y ∈ l.drop (j + 1), cmp key y < 0 := by
  intro y hy
  obtain ⟨p, hp1, hp2⟩ := List.getElem_of_mem hy
  have hjl : j < l.length := by
    rcases Nat.lt_or_ge j l.length with h | h
    · exact h
    · rw [List.getElem?_eq_none h] at hj; cases hj
  simp only [List.length_drop] at hp1
  rw [List.getElem_drop] at hp2
  have hxe : l[j] = x := by
    rw [List.getElem?_eq_getElem hjl] at hj; exact Option.some.inj hj
  have h1 : lt cmp l[j] l[j + 1 + p] :=
    List.pairwise_iff_getElem.1 hp j (j + 1 + p) hjl (by omega) (by omega)
  rw [hp2, hxe] at h1
  exact ho.lt_of_le_of_lt hx h1

theorem search_bsearch_loop_spec (ho : OrdCmp cmp) {items : List α}
    (hp : items.Pairwise (lt cmp)) (key : α) :
    ∀ (fuel i n : Nat), n - i ≤ fuel → i ≤ n → n ≤ items.length →
      (∀ y ∈ items.take i, 0 < cmp key y) → (∀ y ∈ items.drop n, cmp key y < 0) →
      search_bsearch_loop cmp items key fuel i n = search_linear cmp items key := by
  intro fuel
  induction fuel with
  | zero =>
    intro i n hf hin hn hlo hhi
    have e : i = n := by omega
    subst e
    have h := @search_linear_notfound α cmp (items.take i) (items.drop i) key hlo
      (fun y T1 hT => hhi y (by rw [hT]; simp))
    rw [List.take_append_drop] at h
    rw [h]
    simp [search_bsearch_loop]
    omega
  | succ fuel ih =>
    intro i n hf hin hn hlo hhi
    unfold search_bsearch_loop
    by_cases hlt : i < n
    · rw [if_pos hlt]
      have hj : (i + n) / 2 < items.length := by omega
      rw [List.getElem?_eq_getElem hj]
      dsimp only
      have hjx : items[(i + n) / 2]? = some items[(i + n) / 2] := List.getElem?_eq_getElem hj
      by_cases h1 : cmp key items[(i + n) / 2] < 0
      · rw [if_pos h1]
        refine ih i ((i + n) / 2) (by omega) (by omega) (by omega) hlo ?_
        intro y hy
        rw [List.drop_eq_getElem_cons hj] at hy
        simp only [List.mem_cons] at hy
        rcases hy with rfl | hy
        · exact h1
        · exact after_gt_key ho hp hjx (by omega) y hy
      · rw [if_neg h1]
        by_cases h2 : cmp key items[(i + n) / 2] > 0
        · rw [if_pos h2]
          refine ih ((i + n) / 2 + 1) n (by omega) (by omega) hn ?_ hhi
          intro y hy
          rw [List.take_succ, hjx] at hy
          simp only [Option.toList_some, List.mem_append, List.mem_singleton] at hy
          rcases hy with hy | rfl
          · exact before_lt_key ho hp hjx (by omega) y hy
          · exact h2
        · rw [if_neg h2]
          have h0 : cmp key items[(i + n) / 2] = 0 := by omega
          have h := @search_linear_found α cmp (items.take ((i + n) / 2))
            (items.drop ((i + n) / 2 + 1)) items[(i + n) / 2] key
            (before_lt_key ho hp hjx (by omega)) h0
          rw [List.getElem_cons_drop _ _ hj, List.take_append_drop] at h
          rw [h]
          simp
          omega
    · rw [if_neg hlt]
      have e : i = n := by omega
      subst e
      have h := @search_linear_notfound α cmp (items.take i) (items.drop i) key hlo
        (fun y T1 hT => hhi y (by rw [hT]; simp))
      rw [List.take_append_drop] at h
      rw [h]
      simp
      omega

theorem search_bsearch_eq (ho : OrdCmp cmp) {items : List α} (hp : items.Pairwise (lt cmp))
    (key : α) : search_bsearch cmp items key = search_linear cmp items key :=
  search_bsearch_loop_spec ho hp key items.length 0 items.length (by omega) (by omega)
    (Nat.le_refl _) (by simp) (by simp)

theorem search_linear_less_eq (less : α → α → Bool) (l : List α) (key : α) :
    search_linear_less less l key = search_linear (compare_of_less less) l key := by
  induction l with
  | nil => rfl
  | cons x xs ih =>
    simp only [search_linear_less, search_linear, compare_of_less, ih]
    by_cases h1 : less key x = true <;> by_cases h2 : less x key = true <;> simp [h1, h2]

theorem skip_maybelessequal_spec (mle : α → α → Bool) (key : α) :
    ∀ l : List α, (∀ x ∈ l, cmp key x ≤ 0 → mle key x = true) →
      skip_maybelessequal mle l key ≤ l.length ∧
      ∀ x ∈ l.take (skip_maybelessequal mle l key), 0 < cmp key x
  | [], _ => by simp [skip_maybelessequal]
  | x :: xs, h => by
    cases hm : mle key x
    · have hx : 0 < cmp key x := by
        by_contra hc
        have := h x (by simp) (by omega)
        rw [hm] at this; cases this
      obtain ⟨h1, h2⟩ := skip_maybelessequal_spec mle key xs (fun y hy => h y (by simp [hy]))
      simp only [skip_maybelessequal, hm, Bool.false_eq_true, if_false, List.length_cons,
        List.take_succ_cons, List.mem_cons]
      refine ⟨by omega, ?_⟩
      rintro y (rfl | hy)
      · exact hx
      · exact h2 y hy
    · simp [skip_maybelessequal, hm]

theorem search_linear_mle_eq (mle : α → α → Bool) (l : List α) (key : α)
    (h : ∀ x ∈ l, cmp key x ≤ 0 → mle key x = true) :
    search_linear_mle (search_linear cmp) mle l key = search_linear cmp l key := by
  obtain ⟨h1, h2⟩ := @skip_maybelessequal_spec α cmp mle key l h
  have h3 := @search_linear_skip α cmp (l.take (skip_maybelessequal mle l key))
    (l.drop (skip_maybelessequal mle l key)) key h2
  rw [List.take_append_drop] at h3
  rw [h3]
  unfold search_linear_mle
  simp only [List.length_take]
  rw [Nat.min_eq_left h1, Nat.add_comm]

/-- The index of `search_linear` is the number of items below the key, and it
reports an item found exactly when the item at that index equals the key. -/
theorem search_linear_rank (ho : OrdCmp cmp) {l : List α} (hp : l.Pairwise (lt cmp))
    (key : α) :
    (search_linear cmp l key).1 = (l.filter (fun x => decide (cmp x key < 0))).length ∧
      ((search_linear cmp l key).2 = true ↔
        ∃ x, l[(search_linear cmp l key).1]? = some x ∧ cmp key x = 0) := by
  induction l with
  | nil => simp [search_linear]
  | cons a l ih =>
    have hpl : l.Pairwise (lt cmp) := (List.pairwise_cons.1 hp).2
    have ha := (List.pairwise_cons.1 hp).1
    by_cases hk : cmp key a ≤ 0
    · rw [search_linear_cons, if_pos hk]
      constructor
      · symm
        rw [List.length_eq_zero, List.filter_eq_nil_iff]
        intro x hx
        have hkx : cmp key x ≤ 0 := by
          simp only [List.mem_cons] at hx
          rcases hx with rfl | hx
          · exact hk
          · exact le_of_lt (ho.lt_of_le_of_lt hk (ha x hx))
        have h2 := ho.symm x key
        simp only [decide_eq_true_eq]
        omega
      · simp
    · have h2 : cmp a key < 0 := (ho.symm a key).2 (by omega)
      rw [search_linear_cons, if_neg hk, List.filter_cons, if_pos (by simpa using h2)]
      simp only [List.length_cons, List.getElem?_cons_succ]
      exact ⟨by rw [(ih hpl).1], (ih hpl).2⟩

end searchspec

section hintspec
variable {cmp : α → α → Int}

theorem take_pred_snoc {l : List α} {j : Nat} {y : α} (hj : 0 < j) (hy : l[j - 1]? = some y) :
    l.take j = l.take (j - 1) ++ [y] := by
  obtain ⟨k, rfl⟩ : ∃ k, j = k + 1 := ⟨j - 1, by omega⟩
  simp only [Nat.add_sub_cancel] at hy ⊢
  rw [List.take_succ, hy]
  rfl

theorem drop_of_get {l : List α} {j : Nat} {x : α} (hx : l[j]? = some x) :
    l.drop j = x :: l.drop (j + 1) := by
  have hjl : j < l.length := by
    rcases Nat.lt_or_ge j l.length with h | h
    · exact h
    · rw [List.getElem?_eq_none h] at hx; cases hx
  rw [List.drop_eq_getElem_cons hjl]
  rw [List.getElem?_eq_getElem hjl] at hx
  rw [Option.some.inj hx]

theorem search_from_hint_spec (ho : OrdCmp cmp) (inner : List α → α → Nat × Bool)
    (node : Node α) (key : α) (hp : node.items.Pairwise (lt cmp))
    (hin : ∀ l : List α, l.Sublist node.items → inner l key = search_linear cmp l key)
    (ghint : List Nat) (depth j : Nat) (hj : j < node.items.length) :
    (search_from_hint inner cmp node key ghint depth j).1 = search_linear cmp node.items key := by
  obtain ⟨x, hjx⟩ : ∃ x, node.items[j]? = some x := ⟨_, List.getElem?_eq_getElem hj⟩
  have hsplit : node.items = node.items.take j ++ node.items.drop j :=
    (List.take_append_drop j node.items).symm
  unfold search_from_hint
  rw [hjx]
  dsimp only
  by_cases h0 : cmp key x = 0
  · rw [if_pos h0]
    have h := @search_linear_found α cmp (node.items.take j) (node.items.drop (j + 1))
      x key (before_lt_key ho hp hjx (by omega)) h0
    rw [← drop_of_get hjx, List.take_append_drop] at h
    rw [h]
    simp
    omega
  rw [if_neg h0]
  by_cases h1 : cmp key x < 0
  · rw [if_pos h1]
    by_cases hz : j = 0
    · rw [if_pos hz]
      subst hz
      have h := @search_linear_notfound α cmp [] node.items key (by simp) (by
        intro y T1 hT
        rw [hT] at hjx
        simp only [List.getElem?_cons_zero, Option.some.injEq] at hjx
        rw [hjx]; exact h1)
      simpa using h.symm
    · rw [if_neg hz]
      have hj1 : j - 1 < node.items.length := by omega
      obtain ⟨y, hjy⟩ : ∃ y, node.items[j - 1]? = some y :=
        ⟨_, List.getElem?_eq_getElem hj1⟩
      rw [hjy]
      dsimp only
      have htk := take_pred_snoc (Nat.pos_of_ne_zero hz) hjy
      by_cases h2 : cmp y key = 0
      · rw [if_pos h2]
        have h := @search_linear_found α cmp (node.items.take (j - 1)) (node.items.drop j)
          y key (before_lt_key ho hp hjy (by rw [ho.eq_symm h2])) (ho.eq_symm h2)
        rw [show node.items.take (j - 1) ++ y :: node.items.drop j = node.items from by
            rw [← List.singleton_append, ← List.append_assoc, ← htk, List.take_append_drop]] at h
        rw [h]
        simp
        omega
      · rw [if_neg h2]
        by_cases h3 : cmp y key < 0
        · rw [if_pos h3]
          have hgt : 0 < cmp key y := (ho.symm _ _).1 h3
          have h := @search_linear_notfound α cmp (node.items.take j) (node.items.drop j) key
            (by
              intro w hw
              rw [htk] at hw
              simp only [List.mem_append, List.mem_singleton] at hw
              rcases hw with hw | rfl
              · exact before_lt_key ho hp hjy (by omega) w hw
              · exact hgt)
            (by
              intro w T1 hT
              rw [drop_of_get hjx] at hT
              simp only [List.cons.injEq] at hT
              rw [← hT.1]; exact h1)
          rw [List.take_append_drop] at h
          rw [h]
          simp
          omega
        · rw [if_neg h3]
          have hlt : cmp key y < 0 := by
            have := ho.symm key y
            omega
          show (okhint ghint depth (inner (node.items.take j) key)).1 = _
          rw [hin _ (List.take_sublist _ _)]
          have hmem : y ∈ node.items.take j := by rw [htk]; simp
          have h := @search_linear_stops_early α cmp (node.items.take j) (node.items.drop j) key
            ⟨y, hmem, by omega⟩
          rw [List.take_append_drop] at h
          rw [h]
          rfl
  · rw [if_neg h1]
    have hgt : 0 < cmp key x := by omega
    have hbefore := before_lt_key ho hp hjx (by omega : 0 ≤ cmp key x)
    have htk1 : node.items.take (j + 1) = node.items.take j ++ [x] := by
      rw [List.take_succ, hjx]; rfl
    have hbefore1 : ∀ y ∈ node.items.take (j + 1), 0 < cmp key y := by
      intro y hy
      rw [htk1] at hy
      simp only [List.mem_append, List.mem_singleton] at hy
      rcases hy with hy | rfl
      · exact hbefore y hy
      · exact hgt
    by_cases hl : j = node.len - 1
    · rw [if_pos hl]
      have hlen : j + 1 = node.items.length := by
        have : node.len = node.items.length := rfl
        omega
      have h := @search_linear_notfound α cmp node.items [] key (by
        rw [← List.take_length node.items, ← hlen]; exact hbefore1) (by simp)
      rw [List.append_nil] at h
      rw [h]
      rfl
    · rw [if_neg hl]
      have hj1 : j + 1 < node.items.length := by
        have : node.len = node.items.length := rfl
        omega
      obtain ⟨z, hjz⟩ : ∃ z, node.items[j + 1]? = some z :=
        ⟨_, List.getElem?_eq_getElem hj1⟩
      rw [hjz]
      dsimp only
      by_cases h2 : cmp key z = 0
      · rw [if_pos h2]
        have h := @search_linear_found α cmp (node.items.take (j + 1))
          (node.items.drop (j + 1 + 1)) z key hbefore1 h2
        rw [← drop_of_get hjz, List.take_append_drop] at h
        rw [h]
        simp [okhint]
        omega
      · rw [if_neg h2]
        by_cases h3 : cmp key z < 0
        · rw [if_pos h3]
          have h := @search_linear_notfound α cmp (node.items.take (j + 1))
            (node.items.drop (j + 1)) key hbefore1
            (by
              intro w T1 hT
              rw [drop_of_get hjz] at hT
              simp only [List.cons.injEq] at hT
              rw [← hT.1]; exact h3)
          rw [List.take_append_drop] at h
          rw [h]
          simp [okhint]
          omega
        · rw [if_neg h3]
          have h := @search_linear_skip α cmp (node.items.take j) (node.items.drop j) key hbefore
          rw [List.take_append_drop] at h
          rw [h, hin _ (List.drop_sublist _ _)]
          simp [okhint]
          omega

theorem hint_at_lt (ghint : List Nat) (depth len : Nat) (h : 0 < len) :
    hint_at ghint depth len < len := by
  unfold hint_at
  split <;> omega

theorem search_from_hint_frame (inner : List α → α → Nat × Bool) (node : Node α) (key : α)
    (ghint : List Nat) (depth j : Nat) :
    (search_from_hint inner cmp node key ghint depth j).2.length = ghint.length ∧
      ∀ d, d ≠ depth →
        (search_from_hint inner cmp node key ghint depth j).2.getD d 0 = ghint.getD d 0 := by
  have hk : ∀ r : Nat × Bool, (okhint ghint depth r).2.length = ghint.length ∧
      ∀ d, d ≠ depth → (okhint ghint depth r).2.getD d 0 = ghint.getD d 0 := by
    intro r
    refine ⟨by simp [okhint], fun d hd => ?_⟩
    simp only [okhint, List.getD_eq_getElem?_getD]
    rw [List.getElem?_set_ne (Ne.symm hd)]
  have hs : ((0, false), ghint).2.length = ghint.length ∧
      ∀ d, d ≠ depth → ((((0 : Nat), false), ghint) : (Nat × Bool) × List Nat).2.getD d 0
        = ghint.getD d 0 := ⟨rfl, fun _ _ => rfl⟩
  unfold search_from_hint
  split
  · exact ⟨rfl, fun _ _ => rfl⟩
  · split
    · exact ⟨rfl, fun _ _ => rfl⟩
    · split
      · split
        · exact ⟨rfl, fun _ _ => rfl⟩
        · split
          · exact ⟨rfl, fun _ _ => rfl⟩
          · split
            · exact ⟨rfl, fun _ _ => rfl⟩
            · split
              · exact ⟨rfl, fun _ _ => rfl⟩
              · exact hk _
      · split
        · exact hk _
        · split
          · exact ⟨rfl, fun _ _ => rfl⟩
          · split
            · exact hk _
            · split
              · exact hk _
              · exact hk _

end hintspec

/-- C35: on items that are strictly ascending under a consistent comparator,
`search_bsearch` returns the pair of `search_linear`; the index is the number
of items below the key, every item before it is below the key and no item from
it on is; `found` holds exactly when the item at the index equals the key.  The
loop of a build with `BGEN_LESS` returns the pair of the loop with the derived
comparator, and the pre-filter `BGEN_MAYBELESSEQUAL` does not change the pair
of either loop when it answers `true` wherever the key is not above the item. -/
theorem search_variants_agree (cmp : α → α → Int) (items : List α) (key : α)
    (ho : OrdCmp cmp) (hp : items.Pairwise (lt cmp)) :
    search_bsearch cmp items key = search_linear cmp items key ∧
    (search_linear cmp items key).1 =
      (items.filter (fun x => decide (cmp x key < 0))).length ∧
    (∀ y ∈ items.take (search_linear cmp items key).1, cmp y key < 0) ∧
    (∀ y ∈ items.drop (search_linear cmp items key).1, cmp key y ≤ 0) ∧
    ((search_linear cmp items key).2 = true ↔
      ∃ x, items[(search_linear cmp items key).1]? = some x ∧ cmp key x = 0) ∧
    (∀ mle : α → α → Bool, (∀ x ∈ items, cmp key x ≤ 0 → mle key x = true) →
      search_linear_mle (search_linear cmp) mle items key = search_linear cmp items key) ∧
    (∀ less : α → α → Bool,
      search_linear_less less items key = search_linear (compare_of_less less) items key) ∧
    (∀ (less : α → α → Bool) (mle : α → α → Bool),
      (∀ x ∈ items, compare_of_less less key x ≤ 0 → mle key x = true) →
      search_linear_mle (search_linear_less less) mle items key =
        search_linear_less less items key) := by
  obtain ⟨S, T, h1, h2, h3, h4, h5⟩ := search_linear_spec cmp items key
  have hrank := search_linear_rank ho hp key
  refine ⟨search_bsearch_eq ho hp key, hrank.1, ?_, ?_, hrank.2,
    fun mle h => search_linear_mle_eq mle items key h,
    fun less => search_linear_less_eq less items key, fun less mle h => ?_⟩
  · intro y hy
    rw [← h2, h1, List.take_left] at hy
    exact (ho.symm y key).2 (h3 y hy)
  · intro y hy
    rw [← h2, h1, List.drop_left] at hy
    cases hf : (search_linear cmp items key).2
    · cases T with
      | nil => simp at hy
      | cons t T1 =>
        have ht := h5 hf t T1 rfl
        have hpT : (t :: T1).Pairwise (lt cmp) := by
          rw [h1] at hp
          exact (List.pairwise_append.1 hp).2.1
        simp only [List.mem_cons] at hy
        rcases hy with rfl | hy
        · omega
        · exact le_of_lt (ho.lt_trans ht ((List.pairwise_cons.1 hpT).1 y hy))
    · obtain ⟨t, T1, hT, ht⟩ := h4 hf
      have hpT : (t :: T1).Pairwise (lt cmp) := by
        rw [h1, hT] at hp
        exact (List.pairwise_append.1 hp).2.1
      rw [hT] at hy
      simp only [List.mem_cons] at hy
      rcases hy with rfl | hy
      · omega
      · exact le_of_lt (ho.lt_of_le_of_lt (by omega) ((List.pairwise_cons.1 hpT).1 y hy))
  · have e : search_linear_less less = search_linear (compare_of_less less) :=
      funext fun l => funext fun k => search_linear_less_eq less l k
    rw [e]
    exact search_linear_mle_eq mle items key h

theorem search_variants_agree_witness :
    OrdCmp icmp ∧ ([10, 20, 30] : List Int).Pairwise (lt icmp) ∧
      search_bsearch icmp [10, 20, 30] 20 = (1, true) ∧
      search_bsearch icmp [10, 20, 30] 20 = search_linear icmp [10, 20, 30] 20 :=
  ⟨icmp_ord, by simp [lt, icmp], by decide,
    (search_variants_agree icmp [10, 20, 30] 20 icmp_ord (by simp [lt, icmp])).1⟩

/-- C36: on a node that holds items, strictly ascending under a consistent
comparator, `search` with the path hint returns for every key, every depth and
every content of the hint array the pair that the plain search returns, with
the linear and with the binary inner search; afterwards the hint array differs
from the one before at most in the entry of that depth. -/
theorem hint_is_pure_optimization (cmp : α → α → Int) (node : Node α) (key : α)
    (ghint : List Nat) (depth : Nat) (ho : OrdCmp cmp) (hne : node.items ≠ [])
    (hp : node.items.Pairwise (lt cmp)) :
    (search_hint (search_linear cmp) cmp node key ghint depth).1 = search cmp node key ∧
    (search_hint (search_bsearch cmp) cmp node key ghint depth).1 =
      search_bsearch cmp node.items key ∧
    search_bsearch cmp node.items key = search cmp node key ∧
    (∀ inner : List α → α → Nat × Bool,
      (search_hint inner cmp node key ghint depth).2.length = ghint.length ∧
      ∀ d, d ≠ depth →
        (search_hint inner cmp node key ghint depth).2.getD d 0 = ghint.getD d 0) := by
  have hlen : 0 < node.len := List.length_pos.2 hne
  have hj := hint_at_lt ghint depth node.len hlen
  have hb := search_bsearch_eq ho hp key
  refine ⟨?_, ?_, hb, fun inner => search_from_hint_frame inner node key ghint depth _⟩
  · exact search_from_hint_spec ho _ node key hp (fun _ _ => rfl) ghint depth _ hj
  · rw [hb]
    exact search_from_hint_spec ho _ node key hp
      (fun l hl => search_bsearch_eq ho (hp.sublist hl) key) ghint depth _ hj

theorem hint_is_pure_optimization_witness :
    OrdCmp icmp ∧ (leafW [10, 20, 30]).items ≠ [] ∧
      (leafW [10, 20, 30]).items.Pairwise (lt icmp) ∧
      search_hint (search_bsearch icmp) icmp (leafW [10, 20, 30]) 30 [7, 0] 0 =
        ((2, true), [7, 0]) ∧
      search_hint (search_bsearch icmp) icmp (leafW [10, 20, 30]) 10 [7, 0] 0 =
        ((0, true), [0, 0]) ∧
      (search_hint (search_linear icmp) icmp (leafW [10, 20, 30]) 10 [7, 0] 0).1 =
        search icmp (leafW [10, 20, 30]) 10 :=
  ⟨icmp_ord, by decide, by simp [leafW, lt, icmp], by decide, by decide,
    (hint_is_pure_optimization icmp (leafW [10, 20, 30]) 10 [7, 0] 0 icmp_ord (by decide)
      (by simp [leafW, lt, icmp])).1⟩

section giveitems
variable {cfg : Config}

theorem child_set_same (n : Node α) (i : Nat) (c : Node α) (h : i < n.children.length) :
    (n.setChild i c).child i = c := by
  simp [Node.child, List.getD_eq_getElem?_getD, List.getElem?_set_self, h]

theorem child_set_other (n : Node α) (i j : Nat) (c : Node α) (h : i ≠ j) :
    (n.setChild i c).child j = n.child j := by
  simp [Node.child, List.getD_eq_getElem?_getD, List.getElem?_set_ne h]

theorem child_setItems (n : Node α) (its : List α) (j : Nat) :
    (n.setItems its).child j = n.child j := rfl

theorem child_setCount (n : Node α) (i k j : Nat) :
    (n.setCount i k).child j = n.child j := rfl

/-- What `give_left` does to the item arrays when it moves `m + 1` items. -/
theorem give_left_items (node : Node α) (index : Nat) (balance : Bool) (sep : α) (m : Nat)
    (hi : 1 ≤ index) (hc : index < node.children.length)
    (hs : node.items[index - 1]? = some sep)
    (hn : give_n balance (node.child index).len (node.child (index - 1)).len = m + 1)
    (hm : m < (node.child index).items.length) :
    ∃ newsep, (node.child index).items[m]? = some newsep ∧
      (give_left cfg node index balance).items = node.items.set (index - 1) newsep ∧
      ((give_left cfg node index balance).child (index - 1)).items =
        (node.child (index - 1)).items ++ sep :: (node.child index).items.take m ∧
      ((give_left cfg node index balance).child index).items =
        (node.child index).items.drop (m + 1) ∧
      ∀ k, k ≠ index - 1 → k ≠ index →
        (give_left cfg node index balance).child k = node.child k := by
  obtain ⟨newsep, hns⟩ : ∃ x, (node.child index).items[m]? = some x :=
    ⟨_, List.getElem?_eq_getElem hm⟩
  refine ⟨newsep, hns, ?_⟩
  unfold give_left
  simp only [hn, Nat.add_sub_cancel, hs, hns]
  have h1 : index - 1 < node.children.length := by omega
  have h2 : index - 1 ≠ index := by omega
  cases hk : cfg.counted
  · simp only [Bool.false_eq_true, if_false]
    refine ⟨rfl, ?_, ?_, fun k hk1 hk2 => ?_⟩
    · rw [child_set_other _ _ _ _ (by omega), child_set_same _ _ _ (by simpa using h1)]
      rfl
    · rw [child_set_same _ _ _ (by simpa using hc)]
      rfl
    · rw [child_set_other _ _ _ _ (by omega), child_set_other _ _ _ _ (by omega)]
      rfl
  · simp only [if_true]
    refine ⟨rfl, ?_, ?_, fun k hk1 hk2 => ?_⟩
    · rw [child_setCount, child_setCount, child_set_other _ _ _ _ (by omega),
        child_set_same _ _ _ (by simpa using h1)]
      rfl
    · rw [child_setCount, child_setCount, child_set_same _ _ _ (by simpa using hc)]
      rfl
    · rw [child_setCount, child_setCount, child_set_other _ _ _ _ (by omega),
        child_set_other _ _ _ _ (by omega)]
      rfl

/-- What `give_right` does to the item arrays when it moves `m + 1` items. -/
theorem give_right_items (node : Node α) (index : Nat) (balance : Bool) (sep : α) (m : Nat)
    (hc : index + 1 < node.children.length) (hs : node.items[index]? = some sep)
    (hn : give_n balance (node.child index).len (node.child (index + 1)).len = m + 1)
    (hm : m < (node.child index).items.length) :
    ∃ newsep, (node.child index).items[(node.child index).items.length - (m + 1)]? =
        some newsep ∧
      (give_right cfg node index balance).items = node.items.set index newsep ∧
      ((give_right cfg node index balance).child index).items =
        (node.child index).items.take ((node.child index).items.length - (m + 1)) ∧
      ((give_right cfg node index balance).child (index + 1)).items =
        (node.child index).items.drop ((node.child index).items.length - (m + 1) + 1) ++
          sep :: (node.child (index + 1)).items ∧
      ∀ k, k ≠ index → k ≠ index + 1 →
        (give_right cfg node index balance).child k = node.child k := by
  obtain ⟨newsep, hns⟩ : ∃ x,
      (node.child index).items[(node.child index).items.length - (m + 1)]? = some x :=
    ⟨_, List.getElem?_eq_getElem (by omega)⟩
  refine ⟨newsep, hns, ?_⟩
  have hl : (node.child index).len = (node.child index).items.length := rfl
  unfold give_right
  simp only [hn]
  simp only [hs, hl, hns]
  have h1 : index < node.children.length := by omega
  have h2 : index ≠ index + 1 := by omega
  cases hk : cfg.counted
  · simp only [Bool.false_eq_true, if_false]
    refine ⟨rfl, ?_, ?_, fun k hk1 hk2 => ?_⟩
    · rw [child_set_other _ _ _ _ (by omega), child_set_same _ _ _ (by simpa using h1)]
      rfl
    · rw [child_set_same _ _ _ (by simpa using hc)]
      rfl
    · rw [child_set_other _ _ _ _ (by omega), child_set_other _ _ _ _ (by omega)]
      rfl
  · simp only [if_true]
    refine ⟨rfl, ?_, ?_, fun k hk1 hk2 => ?_⟩
    · rw [child_setCount, child_setCount, child_set_other _ _ _ _ (by omega),
        child_set_same _ _ _ (by simpa using h1)]
      rfl
    · rw [child_setCount, child_setCount, child_set_same _ _ _ (by simpa using hc)]
      rfl
    · rw [child_setCount, child_setCount, child_set_other _ _ _ _ (by omega),
        child_set_other _ _ _ _ (by omega)]
      rfl

end giveitems

/-- C38: for a parent with the separator `sep` in slot `i` between its children
`i` and `i + 1`, neither longer than `BGEN_MAXITEMS`: when the right child is
longer than the left one by at least two, `give_left(parent, i + 1, balance)`,
and when the left child is longer than the right one by at least two,
`give_right(parent, i, balance)`, writes a new separator into slot `i` and
leaves the sequence left items, separator, right items as it was, the sum of
the two lengths as it was, both children within `BGEN_MAXITEMS` and every other
child untouched; with `balance = true` the shorter child grows by exactly half
the difference, rounded down. -/
theorem give_keeps_sequence (cfg : Config) (node : Node α) (i : Nat) (balance : Bool) (sep : α)
    (hc : i + 1 < node.children.length) (hs : node.items[i]? = some sep)
    (hl : (node.child i).len ≤ MAXITEMS cfg) (hr : (node.child (i + 1)).len ≤ MAXITEMS cfg) :
    ((node.child i).len + 2 ≤ (node.child (i + 1)).len →
      ∃ newsep, (give_left cfg node (i + 1) balance).items = node.items.set i newsep ∧
        ((give_left cfg node (i + 1) balance).child i).items ++
            newsep :: ((give_left cfg node (i + 1) balance).child (i + 1)).items =
          (node.child i).items ++ sep :: (node.child (i + 1)).items ∧
        ((give_left cfg node (i + 1) balance).child i).len +
            ((give_left cfg node (i + 1) balance).child (i + 1)).len =
          (node.child i).len + (node.child (i + 1)).len ∧
        ((give_left cfg node (i + 1) balance).child i).len ≤ MAXITEMS cfg ∧
        ((give_left cfg node (i + 1) balance).child (i + 1)).len ≤ MAXITEMS cfg ∧
        (balance = true →
          ((give_left cfg node (i + 1) balance).child i).len =
            (node.child i).len + ((node.child (i + 1)).len - (node.child i).len) / 2) ∧
        ∀ k, k ≠ i → k ≠ i + 1 →
          (give_left cfg node (i + 1) balance).child k = node.child k) ∧
    ((node.child (i + 1)).len + 2 ≤ (node.child i).len →
      ∃ newsep, (give_right cfg node i balance).items = node.items.set i newsep ∧
        ((give_right cfg node i balance).child i).items ++
            newsep :: ((give_right cfg node i balance).child (i + 1)).items =
          (node.child i).items ++ sep :: (node.child (i + 1)).items ∧
        ((give_right cfg node i balance).child i).len +
            ((give_right cfg node i balance).child (i + 1)).len =
          (node.child i).len + (node.child (i + 1)).len ∧
        ((give_right cfg node i balance).child i).len ≤ MAXITEMS cfg ∧
        ((give_right cfg node i balance).child (i + 1)).len ≤ MAXITEMS cfg ∧
        (balance = true →
          ((give_right cfg node i balance).child (i + 1)).len =
            (node.child (i + 1)).len + ((node.child i).len - (node.child (i + 1)).len) / 2) ∧
        ∀ k, k ≠ i → k ≠ i + 1 →
          (give_right cfg node i balance).child k = node.child k) := by
  simp only [Node.len] at hl hr ⊢
  constructor
  · intro hd
    obtain ⟨m, hm⟩ : ∃ m, give_n balance (node.child (i + 1)).items.length (node.child i).items.length = m + 1 := by
      unfold give_n
      cases balance
      · exact ⟨(node.child (i + 1)).items.length - (node.child i).items.length - 1, by simp; omega⟩
      · exact ⟨((node.child (i + 1)).items.length - (node.child i).items.length) / 2 - 1, by simp; omega⟩
    have hmv : m + 1 ≤ (node.child (i + 1)).items.length - (node.child i).items.length ∧
        (balance = true → m + 1 = ((node.child (i + 1)).items.length - (node.child i).items.length) / 2) := by
      unfold give_n at hm
      cases balance
      · simp at hm; exact ⟨by omega, by simp⟩
      · simp at hm; exact ⟨by omega, fun _ => by omega⟩
    obtain ⟨newsep, h1, h2, h3, h4, h5⟩ := @give_left_items α cfg node (i + 1) balance sep m
      (by omega) hc (by simpa using hs) hm (by omega)
    simp only [Nat.add_sub_cancel] at h2 h3 h5
    refine ⟨newsep, h2, ?_, ?_, ?_, ?_, ?_, fun k hk1 hk2 => h5 k hk1 hk2⟩
    · rw [h3, h4]
      conv_rhs => rw [take_get_drop h1]
      simp
    · rw [h3, h4]
      simp
      omega
    · rw [h3]; simp; omega
    · rw [h4]; simp; omega
    · intro hb
      rw [h3]
      simp
      have := hmv.2 hb
      omega
  · intro hd
    obtain ⟨m, hm⟩ : ∃ m, give_n balance (node.child i).items.length (node.child (i + 1)).items.length = m + 1 := by
      unfold give_n
      cases balance
      · exact ⟨(node.child i).items.length - (node.child (i + 1)).items.length - 1, by simp; omega⟩
      · exact ⟨((node.child i).items.length - (node.child (i + 1)).items.length) / 2 - 1, by simp; omega⟩
    have hmv : m + 1 ≤ (node.child i).items.length - (node.child (i + 1)).items.length ∧
        (balance = true → m + 1 = ((node.child i).items.length - (node.child (i + 1)).items.length) / 2) := by
      unfold give_n at hm
      cases balance
      · simp at hm; exact ⟨by omega, by simp⟩
      · simp at hm; exact ⟨by omega, fun _ => by omega⟩
    obtain ⟨newsep, h1, h2, h3, h4, h5⟩ := @give_right_items α cfg node i balance sep m
      hc hs hm (by omega)
    refine ⟨newsep, h2, ?_, ?_, ?_, ?_, ?_, fun k hk1 hk2 => h5 k hk1 hk2⟩
    · rw [h3, h4]
      conv_rhs => rw [take_get_drop h1]
      simp
    · rw [h3, h4]
      simp
      omega
    · rw [h3]; simp; omega
    · rw [h4]; simp; omega
    · intro hb
      rw [h4]
      simp
      have := hmv.2 hb
      omega

theorem give_keeps_sequence_witness :
    (0 : Nat) + 1 < treeGive.children.length ∧ treeGive.items[0]? = some 20 ∧
      (treeGive.child 0).len + 2 ≤ (treeGive.child (0 + 1)).len ∧
      ((give_left cfgW treeGive 1 true).child 0).items = [10, 20] ∧
      (give_left cfgW treeGive 1 true).items = [30] ∧
      ((give_left cfgW treeGive 1 true).child 1).items = [40, 50] ∧
      ((give_left cfgW treeGive (0 + 1) true).child 0).len +
          ((give_left cfgW treeGive (0 + 1) true).child (0 + 1)).len =
        (treeGive.child 0).len + (treeGive.child (0 + 1)).len :=
  ⟨by decide, by decide, by decide, by decide, by decide, by decide,
    match (give_keeps_sequence cfgW treeGive 0 true 20 (by decide) (by decide)
      (by decide) (by decide)).1 (by decide) with
    | ⟨_, h⟩ => h.2.2.1⟩

/-- C39: with `balance = false` the transfer moves as many items as the giving
child is longer: `give_left(parent, i + 1, false)` on a longer right child and
`give_right(parent, i, false)` on a longer left child leave the sequence left
items, separator, right items as it was and the two children with their
lengths exchanged. -/
theorem give_unbalanced_exchanges_lengths (cfg : Config) (node : Node α) (i : Nat) (sep : α)
    (hc : i + 1 < node.children.length) (hs : node.items[i]? = some sep) :
    ((node.child i).len < (node.child (i + 1)).len →
      ((give_left cfg node (i + 1) false).child i).len = (node.child (i + 1)).len ∧
      ((give_left cfg node (i + 1) false).child (i + 1)).len = (node.child i).len ∧
      ∃ newsep, (give_left cfg node (i + 1) false).items = node.items.set i newsep ∧
        ((give_left cfg node (i + 1) false).child i).items ++
            newsep :: ((give_left cfg node (i + 1) false).child (i + 1)).items =
          (node.child i).items ++ sep :: (node.child (i + 1)).items) ∧
    ((node.child (i + 1)).len < (node.child i).len →
      ((give_right cfg node i false).child i).len = (node.child (i + 1)).len ∧
      ((give_right cfg node i false).child (i + 1)).len = (node.child i).len ∧
      ∃ newsep, (give_right cfg node i false).items = node.items.set i newsep ∧
        ((give_right cfg node i false).child i).items ++
            newsep :: ((give_right cfg node i false).child (i + 1)).items =
          (node.child i).items ++ sep :: (node.child (i + 1)).items) := by
  simp only [Node.len]
  constructor
  · intro hd
    obtain ⟨m, hm⟩ : ∃ m, give_n false (node.child (i + 1)).items.length
        (node.child i).items.length = m + 1 :=
      ⟨(node.child (i + 1)).items.length - (node.child i).items.length - 1, by
        simp [give_n]; omega⟩
    have hmv : m + 1 = (node.child (i + 1)).items.length - (node.child i).items.length := by
      simpa [give_n] using hm.symm
    obtain ⟨newsep, h1, h2, h3, h4, h5⟩ := @give_left_items α cfg node (i + 1) false sep m
      (by omega) hc (by simpa using hs) hm (by omega)
    simp only [Nat.add_sub_cancel] at h2 h3 h5
    refine ⟨by rw [h3]; simp; omega, by rw [h4]; simp; omega, newsep, h2, ?_⟩
    rw [h3, h4]
    conv_rhs => rw [take_get_drop h1]
    simp
  · intro hd
    obtain ⟨m, hm⟩ : ∃ m, give_n false (node.child i).items.length
        (node.child (i + 1)).items.length = m + 1 :=
      ⟨(node.child i).items.length - (node.child (i + 1)).items.length - 1, by
        simp [give_n]; omega⟩
    have hmv : m + 1 = (node.child i).items.length - (node.child (i + 1)).items.length := by
      simpa [give_n] using hm.symm
    obtain ⟨newsep, h1, h2, h3, h4, h5⟩ := @give_right_items α cfg node i false sep m
      hc hs hm (by omega)
    refine ⟨by rw [h3]; simp; omega, by rw [h4]; simp; omega, newsep, h2, ?_⟩
    rw [h3, h4]
    conv_rhs => rw [take_get_drop h1]
    simp

theorem give_unbalanced_exchanges_lengths_witness :
    (0 : Nat) + 1 < treeGive.children.length ∧ treeGive.items[0]? = some 20 ∧
      (treeGive.child 0).len < (treeGive.child (0 + 1)).len ∧
      (treeGive.child 0).len = 1 ∧ (treeGive.child (0 + 1)).len = 3 ∧
      ((give_left cfgW treeGive (0 + 1) false).child 0).len = (treeGive.child (0 + 1)).len ∧
      ((give_left cfgW treeGive (0 + 1) false).child (0 + 1)).len = (treeGive.child 0).len :=
  ⟨by decide, by decide, by decide, by decide, by decide,
    ((give_unbalanced_exchanges_lengths cfgW treeGive 0 20 (by decide) (by decide)).1
      (by decide)).1,
    ((give_unbalanced_exchanges_lengths cfgW treeGive 0 20 (by decide) (by decide)).1
      (by decide)).2.1⟩

/-- C39, the counterexample: with fanout 4, `give_left(parent, 1, false)` on the
parent `[20]` over the leaves `[10]` and `[30, 40, 50]` yields the parent `[40]`
over `[10, 20, 30]` and `[50]`: the lengths 3 and 1 differ by two. -/
theorem give_unbalanced_counterexample :
    ((give_left cfgW treeGive 1 false).child 0).items = [10, 20, 30] ∧
      (give_left cfgW treeGive 1 false).items = [40] ∧
      ((give_left cfgW treeGive 1 false).child 1).items = [50] ∧
      ¬ (((give_left cfgW treeGive 1 false).child 0).len ≤
        ((give_left cfgW treeGive 1 false).child 1).len + 1) := by
  decide

namespace Nearby
open Spatial

/-- C34, the failing input: on the spatial tree `[10] 20 [30, 40]` a fresh
cursor reset with `iter_nearby` (target `(25, 0)`) yields 20, 30, 10, 40.  The
same reset on a cursor that stands on the second item of that walk yields
20, 30, 10, 10, 40, 40: the two entries left in the queue are served again,
because `iter_reset` neither clears nor initialises the queue when the kind was
and stays `BGEN_NEARBY`.  A reset to `iter_intersects` in between clears it. -/
theorem nearby_reset_keeps_queue :
    cursor_items icmp 2 pointW 20
        (iter_nearby icmp 2 pointW (iter_init (some treeS) []) distW) =
      some (true, [20, 30, 10, 40]) ∧
    iter_item (iter_next icmp 2 pointW
        (iter_nearby icmp 2 pointW (iter_init (some treeS) []) distW)) = some 30 ∧
    cursor_items icmp 2 pointW 20
        (iter_nearby icmp 2 pointW
          (iter_next icmp 2 pointW
            (iter_nearby icmp 2 pointW (iter_init (some treeS) []) distW)) distW) =
      some (true, [20, 30, 10, 10, 40, 40]) ∧
    cursor_items icmp 2 pointW 20
        (iter_nearby icmp 2 pointW
          (iter_intersects 2 pointW
            (iter_next icmp 2 pointW
              (iter_nearby icmp 2 pointW (iter_init (some treeS) []) distW)) [0, 0] [50, 0])
          distW) =
      some (true, [20, 30, 10, 40]) := by
  decide

end Nearby

namespace Cow

/-- C33, the failing input: the tree of height 3 with the items 1 to 7 is cloned
(the root at address 0 gets the reference count 1) and `seek_at_desc_mut` runs
on one handle from the last index.  The items 3 and 1 reach the callback from
the leaves at the addresses 4 and 3 while their reference count is 1: they are
the leaves of the other handle, whose root 0 still leads to them through the
branch 1.  `scan_desc_mut` on the same input hands out every item from a node
with the reference count 0. -/
theorem seek_at_desc_mut_emits_shared :
    rc_load (clone heapC (some 0)).2 0 = 1 ∧
    (seek_at_desc_mut (clone heapC (some 0)).2 (some 0) 6 log_rc [] []).1 = Status.FINISHED ∧
    (seek_at_desc_mut (clone heapC (some 0)).2 (some 0) 6 log_rc [] []).2.1 =
      [(7, 9, 0), (6, 8, 0), (5, 10, 0), (4, 7, 0), (3, 4, 1), (2, 11, 0), (1, 3, 1)] ∧
    (seek_at_desc_mut (clone heapC (some 0)).2 (some 0) 6 log_rc [] []).2.2.1 = some 7 ∧
    (node_at (seek_at_desc_mut (clone heapC (some 0)).2 (some 0) 6 log_rc [] []).2.2.2.1
      0).children = [1, 2] ∧
    (node_at (seek_at_desc_mut (clone heapC (some 0)).2 (some 0) 6 log_rc [] []).2.2.2.1
      1).children = [3, 4] ∧
    (scan_desc_mut (clone heapC (some 0)).2 (some 0) log_rc [] []).2.1 =
      [(7, 9, 0), (6, 8, 0), (5, 10, 0), (4, 7, 0), (3, 12, 0), (2, 11, 0), (1, 13, 0)] := by
  decide

end Cow

namespace Spatial

/-- C31, the failing input: the spatial tree of fanout 4 over the items
`(key, x)`, compared by key and with the point `(x, 0)` as rectangle, that
`insert` builds from the empty tree with `(10, 10)`, `(20, 20)`, `(30, 30)`,
`(40, 40)`: the root `[(20, 20)]` over the leaves `[(10, 10)]` and
`[(30, 30), (40, 40)]` with the tight rectangles `[10, 20]` and `[30, 40]`.
`insert` of `(30, 100)` returns `REPLACED` with the old item `(30, 30)` through
the fast path, and the rectangle of slot 1 is still `[30, 40]`, which does not
contain the new item at `x = 100`: the rectangles are no tight covers any more,
and `intersects` with the target `[90, 110]` does not visit `(30, 100)`.  The
same holds when the separator `(20, 20)` is replaced by `(20, 100)`.  The slow
path `insert0` on the same inputs stores `[40, 100]` (respectively `[10, 100]`)
and `intersects` then visits the item. -/
theorem insert_replace_stale_rect :
    (insert cfgS kcmp 2 krect
        (insert cfgS kcmp 2 krect
          (insert cfgS kcmp 2 krect
            (insert cfgS kcmp 2 krect none (10, 10) []).root (20, 20) []).root
          (30, 30) []).root (40, 40) []).root = some treeK ∧
    TightRoot 2 krect treeK ∧
    (insert cfgS kcmp 2 krect (some treeK) (30, 100) []).ret = Status.REPLACED ∧
    (insert cfgS kcmp 2 krect (some treeK) (30, 100) []).old = some (30, 30) ∧
    (insert cfgS kcmp 2 krect (some treeK) (30, 100) []).root =
      some (Node.mk [(20, 20)] 2 false
        [Node.mk [(10, 10)] 1 true [] [], Node.mk [(30, 100), (40, 40)] 1 true [] []]
        [Rect.mk [10, 0] [20, 0], Rect.mk [30, 0] [40, 0]]) ∧
    ¬ TightRoot 2 krect
      (Node.mk [(20, 20)] 2 false
        [Node.mk [(10, 10)] 1 true [] [], Node.mk [(30, 100), (40, 40)] 1 true [] []]
        [Rect.mk [10, 0] [20, 0], Rect.mk [30, 0] [40, 0]]) ∧
    intersects 2 krect (insert cfgS kcmp 2 krect (some treeK) (30, 100) []).root
      [90, 0] [110, 0] collectK [] = (Status.FINISHED, []) ∧
    (insert cfgS kcmp 2 krect (some treeK) (20, 100) []).ret = Status.REPLACED ∧
    (insert cfgS kcmp 2 krect (some treeK) (20, 100) []).root =
      some (Node.mk [(20, 100)] 2 false
        [Node.mk [(10, 10)] 1 true [] [], Node.mk [(30, 30), (40, 40)] 1 true [] []]
        [Rect.mk [10, 0] [20, 0], Rect.mk [30, 0] [40, 0]]) ∧
    ¬ TightRoot 2 krect
      (Node.mk [(20, 100)] 2 false
        [Node.mk [(10, 10)] 1 true [] [], Node.mk [(30, 30), (40, 40)] 1 true [] []]
        [Rect.mk [10, 0] [20, 0], Rect.mk [30, 0] [40, 0]]) ∧
    intersects 2 krect (insert cfgS kcmp 2 krect (some treeK) (20, 100) []).root
      [90, 0] [110, 0] collectK [] = (Status.FINISHED, []) ∧
    (insert0 cfgS kcmp 2 krect (some treeK) (30, 100) []).ret = Status.REPLACED ∧
    (insert0 cfgS kcmp 2 krect (some treeK) (30, 100) []).root =
      some (Node.mk [(20, 20)] 2 false
        [Node.mk [(10, 10)] 1 true [] [], Node.mk [(30, 100), (40, 40)] 1 true [] []]
        [Rect.mk [10, 0] [20, 0], Rect.mk [40, 0] [100, 0]]) ∧
    intersects 2 krect (insert0 cfgS kcmp 2 krect (some treeK) (30, 100) []).root
      [90, 0] [110, 0] collectK [] = (Status.FINISHED, [(30, 100)]) ∧
    (insert0 cfgS kcmp 2 krect (some treeK) (20, 100) []).root =
      some (Node.mk [(20, 100)] 2 false
        [Node.mk [(10, 10)] 1 true [] [], Node.mk [(30, 30), (40, 40)] 1 true [] []]
        [Rect.mk [10, 0] [100, 0], Rect.mk [30, 0] [40, 0]]) ∧
    intersects 2 krect (insert0 cfgS kcmp 2 krect (some treeK) (20, 100) []).root
      [90, 0] [110, 0] collectK [] = (Status.FINISHED, [(20, 100)]) := by
  refine ⟨by rfl, ?_, by decide, by decide, by rfl, ?_, by decide, by decide, by rfl, ?_,
    by decide, by decide, by rfl, by decide, by rfl, by decide⟩
  · simp [TightRoot, TightL, IsBox, treeK, flat, Node.isleaf, Node.items,
      Node.children, Node.rects, item_rect, krect, Rect.lo, Rect.hi]
    decide
  · intro h
    simp [TightRoot, TightL, IsBox, flat, Node.isleaf, Node.items,
      Node.children, Node.rects, item_rect, krect, Rect.lo, Rect.hi] at h
    have := h.2 0 (by decide)
    simp at this
  · intro h
    simp [TightRoot, TightL, IsBox, flat, Node.isleaf, Node.items,
      Node.children, Node.rects, item_rect, krect, Rect.lo, Rect.hi] at h
    have := h.1 0 (by decide)
    simp at this

end Spatial

namespace Spatial

section sdbasic
variable {cfg : Config} {dims : Nat} {itemrect : α → List Int × List Int}

@[simp] theorem sd_items_mk (a : List α) (b : Nat) (c : Bool) (d : List (Node α))
    (e : List Rect) : (Node.mk a b c d e).items = a := rfl

@[simp] theorem sd_height_mk (a : List α) (b : Nat) (c : Bool) (d : List (Node α))
    (e : List Rect) : (Node.mk a b c d e).height = b := rfl

@[simp] theorem sd_isleaf_mk (a : List α) (b : Nat) (c : Bool) (d : List (Node α))
    (e : List Rect) : (Node.mk a b c d e).isleaf = c := rfl

@[simp] theorem sd_children_mk (a : List α) (b : Nat) (c : Bool) (d : List (Node α))
    (e : List Rect) : (Node.mk a b c d e).children = d := rfl

@[simp] theorem sd_rects_mk (a : List α) (b : Nat) (c : Bool) (d : List (Node α))
    (e : List Rect) : (Node.mk a b c d e).rects = e := rfl

theorem sd_flat_leaf (n : Node α) (h : n.isleaf = true) : flat n = n.items := by
  cases n; simp_all [flat, Node.isleaf, Node.items]

theorem sd_flat_branch (n : Node α) (h : n.isleaf = false) :
    flat n = flatL n.children n.items := by
  cases n; simp_all [flat, Node.isleaf, Node.items, Node.children]

theorem sd_mem_flatL : ∀ (cs : List (Node α)) (ss : List α) (x : α),
    cs.length = ss.length + 1 → (x ∈ flatL cs ss ↔ x ∈ ss ∨ ∃ c ∈ cs, x ∈ flat c)
  | [], _, _, h => by simp at h
  | [c], [], x, _ => by simp [flatL]
  | [c], _ :: _, x, h => by simp at h
  | c :: c1 :: cs, [], x, h => by simp at h
  | c :: c1 :: cs, s :: ss, x, h => by
    have ih := sd_mem_flatL (c1 :: cs) ss x (by simpa using h)
    simp only [flatL, List.mem_append, List.mem_cons, ih]
    constructor
    · rintro (h1 | h1 | h1 | ⟨c2, h2, h3⟩)
      · exact Or.inr ⟨c, Or.inl rfl, h1⟩
      · exact Or.inl (Or.inl h1)
      · exact Or.inl (Or.inr h1)
      · exact Or.inr ⟨c2, Or.inr h2, h3⟩
    · rintro ((h1 | h1) | ⟨c2, h2 | h2, h3⟩)
      · exact Or.inr (Or.inl h1)
      · exact Or.inr (Or.inr (Or.inl h1))
      · subst h2; exact Or.inl h3
      · exact Or.inr (Or.inr (Or.inr ⟨c2, h2, h3⟩))

theorem sd_mem_mk (items : List α) (ht : Nat) (children : List (Node α)) (rects : List Rect)
    (x : α) (h : children.length = items.length + 1) :
    x ∈ flat (Node.mk items ht false children rects) ↔
      x ∈ items ∨ ∃ c ∈ children, x ∈ flat c := by
  rw [sd_flat_branch (Node.mk items ht false children rects) rfl]
  exact sd_mem_flatL children items x h

theorem sd_isBox_iff {l l2 : List α} {r : Rect} (h : ∀ x, x ∈ l2 ↔ x ∈ l)
    (hb : IsBox dims itemrect l r) : IsBox dims itemrect l2 r := by
  intro i hi
  obtain ⟨a, ⟨x, m, e⟩, ⟨y, n, f⟩⟩ := hb i hi
  exact ⟨fun z hz => a z ((h z).1 hz), ⟨x, (h x).2 m, e⟩, ⟨y, (h y).2 n, f⟩⟩

theorem sd_onedge_false {a r : Rect} (h : rect_onedge dims a r = false) :
    ∀ i, i < dims → a.lo i ≠ r.lo i ∧ a.hi i ≠ r.hi i := by
  intro i hi
  unfold rect_onedge at h
  rw [List.any_eq_false] at h
  have := h i (List.mem_range.2 hi)
  simp only [feq, Bool.or_eq_true, decide_eq_true_eq, Bool.not_eq_true, Bool.not_eq_true',
    Bool.or_eq_false_iff, decide_eq_false_iff_not, not_or, not_and, not_lt] at this
  constructor
  · intro e; omega
  · intro e; omega

theorem sd_isBox_remove {l l2 : List α} {r : Rect} {d : α} (hb : IsBox dims itemrect l r)
    (h1 : ∀ x ∈ l2, x ∈ l) (h2 : ∀ x ∈ l, x = d ∨ x ∈ l2)
    (he : rect_onedge dims (item_rect dims itemrect d) r = false) :
    IsBox dims itemrect l2 r := by
  intro i hi
  obtain ⟨a, ⟨x, m, e⟩, ⟨y, n, f⟩⟩ := hb i hi
  have hne := sd_onedge_false he i hi
  refine ⟨fun z hz => a z (h1 z hz), ⟨x, ?_, e⟩, ⟨y, ?_, f⟩⟩
  · rcases h2 x m with hx | hx
    · subst hx; exact absurd e hne.1
    · exact hx
  · rcases h2 y n with hy | hy
    · subst hy; exact absurd f hne.2
    · exact hy

theorem sd_tightL_append : ∀ (A : List (Node α)) (RA : List Rect) (S : List α)
    (X : List (Node α)) (RX : List Rect) (SX : List α),
    A.length = S.length → A.length = RA.length →
    (TightL dims itemrect (A ++ X) (RA ++ RX) (S ++ SX) ↔
      TightL dims itemrect A RA S ∧ TightL dims itemrect X RX SX)
  | [], [], [], X, RX, SX, _, _ => by simp [TightL]
  | [], [], _ :: _, _, _, _, h, _ => by simp at h
  | [], _ :: _, _, _, _, _, _, h => by simp at h
  | _ :: _, [], _, _, _, _, _, h => by simp at h
  | _ :: _, _ :: _, [], _, _, _, h, _ => by simp at h
  | a :: A, ra :: RA, s :: S, X, RX, SX, h1, h2 => by
    have ih := @sd_tightL_append A RA S X RX SX (by simpa using h1) (by simpa using h2)
    show (IsBox dims itemrect (flat a ++ (s :: (S ++ SX)).head?.toList) ra ∧
        TightL dims itemrect (A ++ X) (RA ++ RX) (S ++ SX)) ↔
      (IsBox dims itemrect (flat a ++ (s :: S).head?.toList) ra ∧ TightL dims itemrect A RA S) ∧
        TightL dims itemrect X RX SX
    rw [ih]
    exact and_assoc.symm

theorem sd_rect_eq (c : Node α) :
    rect dims itemrect (some c) =
      ((List.range dims).map (fun i => (child_rect dims itemrect c).lo i),
       (List.range dims).map (fun i => (child_rect dims itemrect c).hi i)) := by
  simp only [rect, child_rect]
  split <;> rfl

theorem sd_stight_leaf {n : Node α} (h : STight cfg dims itemrect 1 n) :
    n.isleaf = true ∧ n.items.length ≤ MAXITEMS cfg := by
  unfold STight at h
  exact ⟨h.2.1.2 rfl, h.1⟩

theorem sd_stight_branch {h : Nat} {n : Node α} (hs : STight cfg dims itemrect (h + 2) n) :
    n.isleaf = false ∧ n.items.length ≤ MAXITEMS cfg ∧
      n.children.length = n.items.length + 1 ∧ n.rects.length = n.items.length + 1 ∧
      TightL dims itemrect n.children n.rects n.items ∧
      ∀ c ∈ n.children, MINITEMS cfg ≤ c.items.length ∧ STight cfg dims itemrect (h + 1) c := by
  unfold STight at hs
  have hl : n.isleaf = false := by
    cases hn : n.isleaf
    · rfl
    · have := hs.2.1.1 hn
      omega
  exact ⟨hl, hs.1, hs.2.2 hl⟩

theorem sd_stight_mk_leaf {n : Node α} (hl : n.isleaf = true)
    (hm : n.items.length ≤ MAXITEMS cfg) : STight cfg dims itemrect 1 n := by
  unfold STight
  exact ⟨hm, ⟨fun _ => rfl, fun _ => hl⟩, fun h => by rw [hl] at h; cases h⟩

theorem sd_stight_mk_branch {h : Nat} {n : Node α} (hl : n.isleaf = false)
    (hm : n.items.length ≤ MAXITEMS cfg) (hc : n.children.length = n.items.length + 1)
    (hr : n.rects.length = n.items.length + 1)
    (ht : TightL dims itemrect n.children n.rects n.items)
    (hch : ∀ c ∈ n.children, MINITEMS cfg ≤ c.items.length ∧
      STight cfg dims itemrect (h + 1) c) : STight cfg dims itemrect (h + 2) n := by
  unfold STight
  exact ⟨hm, ⟨fun e => (by rw [hl] at e; cases e), fun e => (by omega)⟩,
    fun _ => ⟨hc, hr, ht, hch⟩⟩

theorem sd_tightRoot {h : Nat} {c : Node α} (hc : STight cfg dims itemrect (h + 1) c)
    (hm : 1 ≤ c.items.length) : TightRoot dims itemrect c := by
  unfold TightRoot
  cases h with
  | zero =>
    rw [if_pos (sd_stight_leaf hc).1]
    intro e
    rw [e] at hm
    simp at hm
  | succ h =>
    obtain ⟨hl, _, h1, _, h2, _⟩ := sd_stight_branch hc
    rw [if_neg (by rw [hl]; simp)]
    exact ⟨h1, h2⟩

theorem sd_child_rect {h : Nat} {c : Node α} (hc : STight cfg dims itemrect (h + 1) c)
    (hm : 1 ≤ c.items.length) :
    IsBox dims itemrect (flat c) (child_rect dims itemrect c) := by
  have h1 := rect_tight (sd_tightRoot hc hm)
  rw [sd_rect_eq] at h1
  refine isBox_congr h1 (fun i hi => ?_)
  have := range_map_rect dims (child_rect dims itemrect c) i hi
  exact ⟨this.1.symm, this.2.symm⟩

theorem sd_rect_calc {h i : Nat} {n c : Node α} (hch : n.child i = c)
    (hc : STight cfg dims itemrect (h + 1) c) (hm : 1 ≤ c.items.length) :
    IsBox dims itemrect (flat c ++ (n.items[i]?).toList) (rect_calc dims itemrect n i) := by
  unfold rect_calc
  rw [hch]
  cases n.items[i]? with
  | none => simpa using sd_child_rect hc hm
  | some x => exact isBox_join (sd_child_rect hc hm) (isBox_single dims itemrect x)

end sdbasic

end Spatial

namespace Spatial

section sdmerge
variable {cfg : Config} {dims : Nat} {itemrect : α → List Int × List Int}

theorem sd_close {β : Type} {A B : List β} {c : β} {i n : Nat} (hA : A.length = i)
    (hn : n = A.length + B.length) : close_slot (A ++ c :: B) i n = A ++ B := by
  unfold close_slot
  rw [app_erase hA, List.take_of_length_le (by simp; omega)]

theorem sd_close1 {β : Type} {A B : List β} {c d : β} {i n : Nat} (hA : A.length = i)
    (hn : n = A.length + 1 + B.length) :
    close_slot (A ++ c :: d :: B) (i + 1) n = A ++ c :: B := by
  unfold close_slot
  rw [app_erase1 hA, List.take_of_length_le (by simp; omega)]

theorem sd_mem_one {ht : Nat} {A B : List (Node α)} {R : List Rect} {S T : List α}
    {c : Node α} (x : α) (hAS : A.length = S.length) (hBT : B.length = T.length) :
    x ∈ flat (Node.mk (S ++ T) ht false (A ++ c :: B) R) ↔
      (x ∈ S ∨ x ∈ T ∨ (∃ a ∈ A, x ∈ flat a) ∨ (∃ b ∈ B, x ∈ flat b)) ∨ x ∈ flat c := by
  rw [sd_mem_mk _ _ _ _ _ (by simp; omega)]
  simp only [List.mem_append, List.mem_cons]
  constructor
  · rintro ((h | h) | ⟨a, h1 | h1 | h1, h2⟩)
    · exact Or.inl (Or.inl h)
    · exact Or.inl (Or.inr (Or.inl h))
    · exact Or.inl (Or.inr (Or.inr (Or.inl ⟨a, h1, h2⟩)))
    · subst h1; exact Or.inr h2
    · exact Or.inl (Or.inr (Or.inr (Or.inr ⟨a, h1, h2⟩)))
  · rintro ((h | h | ⟨a, h1, h2⟩ | ⟨a, h1, h2⟩) | h)
    · exact Or.inl (Or.inl h)
    · exact Or.inl (Or.inr h)
    · exact Or.inr ⟨a, Or.inl h1, h2⟩
    · exact Or.inr ⟨a, Or.inr (Or.inr h1), h2⟩
    · exact Or.inr ⟨c, Or.inr (Or.inl rfl), h⟩

theorem sd_mem_pair {ht : Nat} {A B : List (Node α)} {R : List Rect} {S T : List α}
    {l r : Node α} {sep : α} (x : α) (hAS : A.length = S.length) (hBT : B.length = T.length) :
    x ∈ flat (Node.mk (S ++ sep :: T) ht false (A ++ l :: r :: B) R) ↔
      (x ∈ S ∨ x ∈ T ∨ (∃ a ∈ A, x ∈ flat a) ∨ (∃ b ∈ B, x ∈ flat b)) ∨
        (x ∈ flat l ∨ x = sep ∨ x ∈ flat r) := by
  rw [sd_mem_mk _ _ _ _ _ (by simp; omega)]
  simp only [List.mem_append, List.mem_cons]
  constructor
  · rintro ((h | h | h) | ⟨a, h1 | h1 | h1 | h1, h2⟩)
    · exact Or.inl (Or.inl h)
    · exact Or.inr (Or.inr (Or.inl h))
    · exact Or.inl (Or.inr (Or.inl h))
    · exact Or.inl (Or.inr (Or.inr (Or.inl ⟨a, h1, h2⟩)))
    · subst h1; exact Or.inr (Or.inl h2)
    · subst h1; exact Or.inr (Or.inr (Or.inr h2))
    · exact Or.inl (Or.inr (Or.inr (Or.inr ⟨a, h1, h2⟩)))
  · rintro ((h | h | ⟨a, h1, h2⟩ | ⟨a, h1, h2⟩) | h | h | h)
    · exact Or.inl (Or.inl h)
    · exact Or.inl (Or.inr (Or.inr h))
    · exact Or.inr ⟨a, Or.inl h1, h2⟩
    · exact Or.inr ⟨a, Or.inr (Or.inr (Or.inr h1)), h2⟩
    · exact Or.inr ⟨l, Or.inr (Or.inl rfl), h⟩
    · exact Or.inl (Or.inr (Or.inl h))
    · exact Or.inr ⟨r, Or.inr (Or.inr (Or.inl rfl)), h⟩

theorem sd_snoc {β : Type} (l : List β) (h : 1 ≤ l.length) : ∃ L x, l = L ++ [x] := by
  rcases List.eq_nil_or_concat l with e | ⟨L, b, e⟩
  · subst e; simp at h
  · exact ⟨L, b, by rw [e, List.concat_eq_append]⟩

theorem sd_join_spec {h : Nat} {l r : Node α} (sep : α)
    (hl : STight cfg dims itemrect (h + 1) l) (hr : STight cfg dims itemrect (h + 1) r)
    (hsum : l.items.length + r.items.length < MAXITEMS cfg) :
    STight cfg dims itemrect (h + 1) (join dims itemrect (l.setItems (l.items ++ [sep])) r) ∧
      (∀ x, x ∈ flat (join dims itemrect (l.setItems (l.items ++ [sep])) r) ↔
        x ∈ flat l ∨ x = sep ∨ x ∈ flat r) ∧
      (join dims itemrect (l.setItems (l.items ++ [sep])) r).items.length =
        l.items.length + 1 + r.items.length := by
  have hmin := min_pos cfg
  obtain ⟨li, lh, lf, lc, lr⟩ := l
  obtain ⟨ri, rh, rf, rc, rr⟩ := r
  simp only [sd_items_mk] at hsum ⊢
  cases h with
  | zero =>
    have e1 := (sd_stight_leaf hl).1
    have e2 := (sd_stight_leaf hr).1
    simp only [sd_isleaf_mk] at e1 e2
    subst e1 e2
    have e : join dims itemrect ((Node.mk li lh true lc lr).setItems (li ++ [sep]))
        (Node.mk ri rh true rc rr) = Node.mk (li ++ [sep] ++ ri) lh true lc lr := by
      simp [join, Node.setItems, sd_isleaf_mk, sd_items_mk, sd_height_mk, sd_children_mk,
        sd_rects_mk]
    rw [e]
    refine ⟨sd_stight_mk_leaf rfl (by simp [sd_items_mk]; omega), fun x => ?_,
      by simp [sd_items_mk]; omega⟩
    rw [sd_flat_leaf (Node.mk (li ++ [sep] ++ ri) lh true lc lr) rfl,
      sd_flat_leaf (Node.mk li lh true lc lr) rfl,
      sd_flat_leaf (Node.mk ri rh true rc rr) rfl]
    simp [Node.items, or_assoc]
  | succ h =>
    obtain ⟨e1, _, hlc, hlr, hlt, hlch⟩ := sd_stight_branch hl
    obtain ⟨e2, _, hrc, hrr, hrt, hrch⟩ := sd_stight_branch hr
    simp only [sd_isleaf_mk, sd_items_mk, sd_children_mk, sd_rects_mk] at e1 e2 hlc hlr hlt hlch
    simp only [sd_isleaf_mk, sd_items_mk, sd_children_mk, sd_rects_mk] at hrc hrr hrt hrch
    subst e1 e2
    obtain ⟨LC, cl, rfl⟩ := sd_snoc lc (by omega)
    obtain ⟨LR, rl, rfl⟩ := sd_snoc lr (by omega)
    have hLC : LC.length = li.length := by simpa using hlc
    have hLR : LR.length = li.length := by simpa using hlr
    have e : join dims itemrect ((Node.mk li lh false (LC ++ [cl]) (LR ++ [rl])).setItems
        (li ++ [sep])) (Node.mk ri rh false rc rr) =
        Node.mk (li ++ sep :: ri) lh false (LC ++ cl :: rc)
          (LR ++ rect_calc dims itemrect
            (Node.mk (li ++ [sep]) lh false (LC ++ [cl]) (LR ++ [rl])) li.length :: rr) := by
      simp only [join, Node.setItems, sd_isleaf_mk, sd_items_mk, sd_height_mk, sd_children_mk,
        sd_rects_mk, Node.len, Bool.false_eq_true, if_false, List.length_append,
        List.length_singleton, Nat.add_sub_cancel, List.append_assoc, List.singleton_append]
      rw [app_set hLR]
    rw [e]
    have hcl := hlch cl (by simp)
    have hbox : IsBox dims itemrect (flat cl ++ [sep])
        (rect_calc dims itemrect (Node.mk (li ++ [sep]) lh false (LC ++ [cl]) (LR ++ [rl]))
          li.length) := by
      have := @sd_rect_calc α cfg dims itemrect h li.length
        (Node.mk (li ++ [sep]) lh false (LC ++ [cl]) (LR ++ [rl])) cl
        (by simp only [Node.child, sd_children_mk]; exact app_getD hLC) hcl.2 (by omega)
      simpa [sd_items_mk] using this
    have hlt2 := (sd_tightL_append LC LR li [cl] [rl] [] hLC (hLC.trans hLR.symm)).1
      (by simpa using hlt)
    refine ⟨sd_stight_mk_branch rfl (by simp [sd_items_mk]; omega)
      (by simp [sd_items_mk, sd_children_mk]; omega) (by simp [sd_items_mk, sd_rects_mk]; omega) ?_ ?_,
      fun x => ?_, by simp [sd_items_mk]; omega⟩
    · simp only [sd_children_mk, sd_rects_mk, sd_items_mk]
      rw [sd_tightL_append LC LR li _ _ _ hLC (hLC.trans hLR.symm)]
      refine ⟨hlt2.1, ?_⟩
      simp only [TightL, List.head?_cons, Option.toList_some, List.tail_cons]
      exact ⟨hbox, hrt⟩
    · intro c hc
      simp only [sd_children_mk, List.mem_append, List.mem_cons] at hc
      rcases hc with hc | hc | hc
      · exact hlch c (by simp [hc])
      · subst hc; exact hcl
      · exact hrch c hc
    · have q1 := @sd_mem_one α lh LC rc
        (LR ++ rect_calc dims itemrect
            (Node.mk (li ++ [sep]) lh false (LC ++ [cl]) (LR ++ [rl])) li.length :: rr)
        li (sep :: ri) cl x hLC (by simp; omega)
      have q2 := @sd_mem_one α lh LC [] (LR ++ [rl]) li [] cl x hLC rfl
      have q3 := sd_mem_mk ri rh rc rr x hrc
      rw [List.append_nil] at q2
      rw [q1, q2, q3]
      simp only [List.mem_cons, List.not_mem_nil, false_and, exists_false, or_false, false_or]
      exact Iff.of_eq (by ac_rfl)

end sdmerge

end Spatial

namespace Spatial

section sdmerge2
variable {cfg : Config} {dims : Nat} {itemrect : α → List Int × List Int}

theorem sd_child_at {ht : Nat} {lf : Bool} {A B : List (Node α)} {R : List Rect} {S : List α}
    {c : Node α} {i : Nat} (hA : A.length = i) :
    (Node.mk S ht lf (A ++ c :: B) R).child i = c := by
  simp only [Node.child, sd_children_mk]
  exact app_getD hA

theorem sd_child_at1 {ht : Nat} {lf : Bool} {A B : List (Node α)} {R : List Rect} {S : List α}
    {c d : Node α} {i : Nat} (hA : A.length = i) :
    (Node.mk S ht lf (A ++ c :: d :: B) R).child (i + 1) = d := by
  simp only [Node.child, sd_children_mk]
  exact app_getD1 hA

theorem sd_merge_eq {i ht : Nat} {A B : List (Node α)} {RA RB : List Rect} {S T : List α}
    {l r : Node α} {sep : α} {rl rr : Rect}
    (hA : A.length = i) (hS : S.length = i) (hRA : RA.length = i)
    (hB : B.length = T.length) (hRB : RB.length = T.length) :
    merge_children dims itemrect
        (Node.mk (S ++ sep :: T) ht false (A ++ l :: r :: B) (RA ++ rl :: rr :: RB)) i =
      Node.mk (S ++ T) ht false
        (A ++ join dims itemrect (l.setItems (l.items ++ [sep])) r :: B)
        (RA ++ rect_calc dims itemrect
          (Node.mk (S ++ T) ht false
            (A ++ join dims itemrect (l.setItems (l.items ++ [sep])) r :: B)
            (RA ++ rl :: RB)) i :: RB) := by
  unfold merge_children
  simp only [sd_items_mk]
  rw [app_get hS]
  simp only []
  rw [sd_child_at hA, sd_child_at1 hA]
  simp only [Node.setChild, sd_items_mk, sd_height_mk, sd_isleaf_mk, sd_children_mk,
    sd_rects_mk, shift_left, Bool.false_eq_true, if_false, if_true, Node.len, Node.setRect]
  rw [app_set hA, sd_close hS (by simp), sd_close1 hA (by simp; omega),
    sd_close1 hRA (by simp; omega), app_set hRA]

theorem sd_tight_tail {B : List (Node α)} {RB : List Rect} {T : List α} {c : Node α} {rc : Rect}
    (hb : IsBox dims itemrect (flat c ++ T.head?.toList) rc)
    (hBt : TightL dims itemrect B RB T.tail) :
    TightL dims itemrect (c :: B) (rc :: RB) T := by
  unfold TightL
  exact ⟨hb, hBt⟩

theorem sd_get_head {S T : List α} {i : Nat} (hS : S.length = i) : (S ++ T)[i]? = T.head? := by
  subst hS
  cases T with
  | nil => simp
  | cons t T => rw [List.getElem?_append_right (le_refl _)]; simp

theorem sd_merge_spec {h i ht : Nat} {A B : List (Node α)} {RA RB : List Rect} {S T : List α}
    {l r : Node α} {sep : α} {rl rr : Rect}
    (hA : A.length = i) (hS : S.length = i) (hRA : RA.length = i)
    (hB : B.length = T.length) (hRB : RB.length = T.length)
    (hlen : (S ++ sep :: T).length ≤ MAXITEMS cfg)
    (hAt : TightL dims itemrect A RA S) (hBt : TightL dims itemrect B RB T.tail)
    (hAw : ∀ c ∈ A, MINITEMS cfg ≤ c.items.length ∧ STight cfg dims itemrect (h + 1) c)
    (hBw : ∀ c ∈ B, MINITEMS cfg ≤ c.items.length ∧ STight cfg dims itemrect (h + 1) c)
    (hl : STight cfg dims itemrect (h + 1) l) (hr : STight cfg dims itemrect (h + 1) r)
    (hsum : l.items.length + r.items.length < MAXITEMS cfg)
    (hge : MINITEMS cfg ≤ l.items.length + 1 + r.items.length) :
    STight cfg dims itemrect (h + 2)
      (merge_children dims itemrect
        (Node.mk (S ++ sep :: T) ht false (A ++ l :: r :: B) (RA ++ rl :: rr :: RB)) i) ∧
    (∀ x, x ∈ flat (merge_children dims itemrect
        (Node.mk (S ++ sep :: T) ht false (A ++ l :: r :: B) (RA ++ rl :: rr :: RB)) i) ↔
      x ∈ flat (Node.mk (S ++ sep :: T) ht false (A ++ l :: r :: B) (RA ++ rl :: rr :: RB))) ∧
    (S ++ sep :: T).length ≤
      (merge_children dims itemrect
        (Node.mk (S ++ sep :: T) ht false (A ++ l :: r :: B) (RA ++ rl :: rr :: RB)) i).items.length
        + 1 := by
  have hmin := min_pos cfg
  obtain ⟨hm1, hm2, hm3⟩ := @sd_join_spec α cfg dims itemrect h l r sep hl hr hsum
  rw [sd_merge_eq hA hS hRA hB hRB]
  generalize join dims itemrect (l.setItems (l.items ++ [sep])) r = m at hm1 hm2 hm3 ⊢
  have hbox := @sd_rect_calc α cfg dims itemrect h i
    (Node.mk (S ++ T) ht false (A ++ m :: B) (RA ++ rl :: RB)) m (sd_child_at hA) hm1 (by omega)
  rw [sd_items_mk, sd_get_head hS] at hbox
  refine ⟨sd_stight_mk_branch rfl (by simp at hlen ⊢; omega) (by simp; omega) (by simp; omega)
    ?_ ?_, fun x => ?_, by simp; omega⟩
  · simp only [sd_children_mk, sd_rects_mk, sd_items_mk]
    rw [sd_tightL_append A RA S _ _ _ (hA.trans hS.symm) (hA.trans hRA.symm)]
    exact ⟨hAt, sd_tight_tail hbox hBt⟩
  · intro c hc
    simp only [sd_children_mk, List.mem_append, List.mem_cons] at hc
    rcases hc with hc | hc | hc
    · exact hAw c hc
    · subst hc; exact ⟨by omega, hm1⟩
    · exact hBw c hc
  · rw [sd_mem_one x (hA.trans hS.symm) hB, sd_mem_pair x (hA.trans hS.symm) hB, hm2]

end sdmerge2

end Spatial

namespace Spatial

section sdpair
variable {cfg : Config} {dims : Nat} {itemrect : α → List Int × List Int}

theorem sd_stight_one {h i ht : Nat} {A B : List (Node α)} {RA RB : List Rect} {S T : List α}
    {c : Node α} {rc : Rect}
    (hA : A.length = i) (hS : S.length = i) (hRA : RA.length = i)
    (hB : B.length = T.length) (hRB : RB.length = T.length)
    (hlen : (S ++ T).length ≤ MAXITEMS cfg)
    (hAt : TightL dims itemrect A RA S) (hBt : TightL dims itemrect B RB T.tail)
    (hAw : ∀ c ∈ A, MINITEMS cfg ≤ c.items.length ∧ STight cfg dims itemrect (h + 1) c)
    (hBw : ∀ c ∈ B, MINITEMS cfg ≤ c.items.length ∧ STight cfg dims itemrect (h + 1) c)
    (hc : MINITEMS cfg ≤ c.items.length ∧ STight cfg dims itemrect (h + 1) c)
    (hbox : IsBox dims itemrect (flat c ++ T.head?.toList) rc) :
    STight cfg dims itemrect (h + 2) (Node.mk (S ++ T) ht false (A ++ c :: B) (RA ++ rc :: RB)) := by
  refine sd_stight_mk_branch rfl (by simpa using hlen) (by simp; omega) (by simp; omega) ?_ ?_
  · simp only [sd_children_mk, sd_rects_mk, sd_items_mk]
    rw [sd_tightL_append A RA S _ _ _ (hA.trans hS.symm) (hA.trans hRA.symm)]
    exact ⟨hAt, sd_tight_tail hbox hBt⟩
  · intro c hc
    simp only [sd_children_mk, List.mem_append, List.mem_cons] at hc
    rcases hc with hc | hc | hc
    · exact hAw c hc
    · subst hc; assumption
    · exact hBw c hc

theorem sd_stight_one_inv {h i ht : Nat} {A B : List (Node α)} {RA RB : List Rect}
    {S T : List α} {c : Node α} {rc : Rect} {lf : Bool}
    (hA : A.length = i) (hS : S.length = i) (hRA : RA.length = i)
    (hs : STight cfg dims itemrect (h + 2) (Node.mk (S ++ T) ht lf (A ++ c :: B) (RA ++ rc :: RB))) :
    lf = false ∧ B.length = T.length ∧ RB.length = T.length ∧
    (S ++ T).length ≤ MAXITEMS cfg ∧
    TightL dims itemrect A RA S ∧ TightL dims itemrect B RB T.tail ∧
    (∀ c ∈ A, MINITEMS cfg ≤ c.items.length ∧ STight cfg dims itemrect (h + 1) c) ∧
    (∀ c ∈ B, MINITEMS cfg ≤ c.items.length ∧ STight cfg dims itemrect (h + 1) c) ∧
    (MINITEMS cfg ≤ c.items.length ∧ STight cfg dims itemrect (h + 1) c) ∧
    IsBox dims itemrect (flat c ++ T.head?.toList) rc := by
  obtain ⟨h1, h2, h3, h4, h5, h6⟩ := sd_stight_branch hs
  simp only [sd_isleaf_mk, sd_items_mk, sd_children_mk, sd_rects_mk] at h1 h2 h3 h4 h5 h6
  rw [sd_tightL_append A RA S _ _ _ (hA.trans hS.symm) (hA.trans hRA.symm)] at h5
  have h7 := h5.2
  unfold TightL at h7
  refine ⟨h1, by simp at h3; omega, by simp at h4; omega, h2, h5.1, h7.2,
    fun c hc => h6 c (by simp [hc]), fun c hc => h6 c (by simp [hc]), h6 c (by simp), h7.1⟩

theorem sd_recalc_eq {i ht : Nat} {A B : List (Node α)} {RA RB : List Rect} {S : List α}
    {l r : Node α} {ra rb : Rect} (hRA : RA.length = i) :
    recalc_pair dims itemrect (Node.mk S ht false (A ++ l :: r :: B) (RA ++ ra :: rb :: RB)) i =
      Node.mk S ht false (A ++ l :: r :: B)
        (RA ++ rect_calc dims itemrect
            (Node.mk S ht false (A ++ l :: r :: B) (RA ++ ra :: rb :: RB)) i ::
          rect_calc dims itemrect
            (Node.mk S ht false (A ++ l :: r :: B)
              (RA ++ rect_calc dims itemrect
                (Node.mk S ht false (A ++ l :: r :: B) (RA ++ ra :: rb :: RB)) i :: rb :: RB))
            (i + 1) :: RB) := by
  simp only [recalc_pair, Node.setRect, sd_items_mk, sd_height_mk, sd_isleaf_mk, sd_children_mk,
    sd_rects_mk]
  rw [app_set hRA, app_set1 hRA]

theorem sd_pair_update {h i ht : Nat} {A B : List (Node α)} {RA RB : List Rect} {S T : List α}
    {l r : Node α} {sep : α} {ra rb : Rect}
    (hA : A.length = i) (hS : S.length = i) (hRA : RA.length = i)
    (hB : B.length = T.length) (hRB : RB.length = T.length)
    (hlen : (S ++ sep :: T).length ≤ MAXITEMS cfg)
    (hAt : TightL dims itemrect A RA S) (hBt : TightL dims itemrect B RB T.tail)
    (hAw : ∀ c ∈ A, MINITEMS cfg ≤ c.items.length ∧ STight cfg dims itemrect (h + 1) c)
    (hBw : ∀ c ∈ B, MINITEMS cfg ≤ c.items.length ∧ STight cfg dims itemrect (h + 1) c)
    (hl : MINITEMS cfg ≤ l.items.length ∧ STight cfg dims itemrect (h + 1) l)
    (hr : MINITEMS cfg ≤ r.items.length ∧ STight cfg dims itemrect (h + 1) r) :
    STight cfg dims itemrect (h + 2)
      (recalc_pair dims itemrect
        (Node.mk (S ++ sep :: T) ht false (A ++ l :: r :: B) (RA ++ ra :: rb :: RB)) i) ∧
    (∀ x, x ∈ flat (recalc_pair dims itemrect
        (Node.mk (S ++ sep :: T) ht false (A ++ l :: r :: B) (RA ++ ra :: rb :: RB)) i) ↔
      (x ∈ S ∨ x ∈ T ∨ (∃ a ∈ A, x ∈ flat a) ∨ (∃ b ∈ B, x ∈ flat b)) ∨
        (x ∈ flat l ∨ x = sep ∨ x ∈ flat r)) ∧
    (recalc_pair dims itemrect
        (Node.mk (S ++ sep :: T) ht false (A ++ l :: r :: B) (RA ++ ra :: rb :: RB)) i).items =
      S ++ sep :: T := by
  have hmin := min_pos cfg
  rw [sd_recalc_eq hRA]
  have hb1 := @sd_rect_calc α cfg dims itemrect h i
    (Node.mk (S ++ sep :: T) ht false (A ++ l :: r :: B) (RA ++ ra :: rb :: RB)) l
    (sd_child_at hA) hl.2 (by omega)
  rw [sd_items_mk, app_get hS] at hb1
  generalize rect_calc dims itemrect
    (Node.mk (S ++ sep :: T) ht false (A ++ l :: r :: B) (RA ++ ra :: rb :: RB)) i = r1 at hb1 ⊢
  have hb2 := @sd_rect_calc α cfg dims itemrect h (i + 1)
    (Node.mk (S ++ sep :: T) ht false (A ++ l :: r :: B) (RA ++ r1 :: rb :: RB)) r
    (sd_child_at1 hA) hr.2 (by omega)
  have e : (S ++ sep :: T)[i + 1]? = T.head? := by
    rw [show S ++ sep :: T = (S ++ [sep]) ++ T from by simp]
    exact sd_get_head (by simp [hS])
  rw [sd_items_mk, e] at hb2
  generalize rect_calc dims itemrect
    (Node.mk (S ++ sep :: T) ht false (A ++ l :: r :: B) (RA ++ r1 :: rb :: RB)) (i + 1) = r2
    at hb2 ⊢
  refine ⟨?_, fun x => sd_mem_pair x (hA.trans hS.symm) hB, rfl⟩
  exact @sd_stight_one α cfg dims itemrect h i ht A (r :: B) RA (r2 :: RB) S (sep :: T) l r1
    hA hS hRA (by simp [hB]) (by simp [hRB]) hlen hAt (sd_tight_tail hb2 hBt) hAw
    (fun c hc => by
      rcases List.mem_cons.1 hc with e | e
      · subst e; exact hr
      · exact hBw c e) hl (by simpa using hb1)

end sdpair

end Spatial

namespace Spatial

section sdgive
variable {cfg : Config} {dims : Nat} {itemrect : α → List Int × List Int}

theorem sd_give_left_eq {i ht : Nat} {A B : List (Node α)} {R : List Rect} {S T : List α}
    {l r : Node α} {sep newsep : α} (hA : A.length = i) (hS : S.length = i)
    (hn : r.items[give_n true r.len l.len - 1]? = some newsep) :
    give_left (Node.mk (S ++ sep :: T) ht false (A ++ l :: r :: B) R) (i + 1) true =
      Node.mk (S ++ newsep :: T) ht false
        (A ++ l.setItems (l.items ++ sep :: r.items.take (give_n true r.len l.len - 1)) ::
          r.setItems (r.items.drop (give_n true r.len l.len)) :: B) R := by
  unfold give_left
  simp only [Nat.add_sub_cancel]
  rw [sd_child_at hA, sd_child_at1 hA]
  simp only [sd_items_mk]
  rw [app_get hS, hn]
  simp only [Node.setItems, Node.setChild, sd_items_mk, sd_height_mk, sd_isleaf_mk,
    sd_children_mk, sd_rects_mk]
  rw [app_set hS, app_set hA, app_set1 hA]

theorem sd_give_right_eq {i ht : Nat} {A B : List (Node α)} {R : List Rect} {S T : List α}
    {l r : Node α} {sep newsep : α} (hA : A.length = i) (hS : S.length = i)
    (hn : l.items[l.len - give_n true l.len r.len]? = some newsep) :
    give_right (Node.mk (S ++ sep :: T) ht false (A ++ l :: r :: B) R) i true =
      Node.mk (S ++ newsep :: T) ht false
        (A ++ l.setItems (l.items.take (l.len - give_n true l.len r.len)) ::
          r.setItems (l.items.drop (l.len - give_n true l.len r.len + 1) ++ sep :: r.items) :: B)
        R := by
  unfold give_right
  rw [sd_child_at hA, sd_child_at1 hA]
  simp only [sd_items_mk]
  rw [app_get hS, hn]
  simp only [Node.setItems, Node.setChild, sd_items_mk, sd_height_mk, sd_isleaf_mk,
    sd_children_mk, sd_rects_mk]
  rw [app_set hS, app_set hA, app_set1 hA]

theorem sd_give_left_leaf {i ht : Nat} {A B : List (Node α)} {R : List Rect} {S T : List α}
    {l r : Node α} {sep : α} (hA : A.length = i) (hS : S.length = i)
    (hl : STight cfg dims itemrect 1 l) (hr : STight cfg dims itemrect 1 r)
    (hdef : l.items.length + 1 = MINITEMS cfg)
    (hsum : MAXITEMS cfg ≤ l.items.length + r.items.length) :
    ∃ l2 r2 sep2,
      give_left (Node.mk (S ++ sep :: T) ht false (A ++ l :: r :: B) R) (i + 1) true =
        Node.mk (S ++ sep2 :: T) ht false (A ++ l2 :: r2 :: B) R ∧
      (MINITEMS cfg ≤ l2.items.length ∧ STight cfg dims itemrect 1 l2) ∧
      (MINITEMS cfg ≤ r2.items.length ∧ STight cfg dims itemrect 1 r2) ∧
      ∀ x, (x ∈ flat l2 ∨ x = sep2 ∨ x ∈ flat r2) ↔ (x ∈ flat l ∨ x = sep ∨ x ∈ flat r) := by
  have hmax := max_eq cfg
  have hmin := min_pos cfg
  obtain ⟨e1, hlm⟩ := sd_stight_leaf hl
  obtain ⟨e2, hrm⟩ := sd_stight_leaf hr
  obtain ⟨li, lh, lf, lc, lr⟩ := l
  obtain ⟨ri, rh, rf, rc, rr⟩ := r
  simp only [sd_isleaf_mk, sd_items_mk] at e1 e2 hlm hrm hdef hsum
  subst e1 e2
  have hk : give_n true (Node.mk ri rh true rc rr).len (Node.mk li lh true lc lr).len =
      (ri.length - li.length) / 2 := by
    simp [give_n, Node.len]
  have hlt : (ri.length - li.length) / 2 - 1 < ri.length := by omega
  have hn : ri[(ri.length - li.length) / 2 - 1]? = some ri[(ri.length - li.length) / 2 - 1] :=
    List.getElem?_eq_getElem hlt
  have hsplit := take_get_drop hn
  have hk1 : (ri.length - li.length) / 2 - 1 + 1 = (ri.length - li.length) / 2 := by omega
  rw [hk1] at hsplit
  refine ⟨_, _, _, sd_give_left_eq hA hS (by rw [hk, sd_items_mk]; exact hn), ?_, ?_, ?_⟩
  · rw [hk]
    simp only [Node.setItems, sd_items_mk, sd_height_mk, sd_isleaf_mk, sd_children_mk,
      sd_rects_mk]
    have : (li ++ sep :: List.take ((ri.length - li.length) / 2 - 1) ri).length =
        li.length + (ri.length - li.length) / 2 := by
      simp; omega
    exact ⟨by omega, sd_stight_mk_leaf rfl (by rw [sd_items_mk]; omega)⟩
  · rw [hk]
    simp only [Node.setItems, sd_items_mk, sd_height_mk, sd_isleaf_mk, sd_children_mk,
      sd_rects_mk]
    have : (List.drop ((ri.length - li.length) / 2) ri).length =
        ri.length - (ri.length - li.length) / 2 := by
      simp
    exact ⟨by omega, sd_stight_mk_leaf rfl (by rw [sd_items_mk]; omega)⟩
  · intro x
    rw [hk]
    simp only [Node.setItems, sd_items_mk, sd_height_mk, sd_isleaf_mk, sd_children_mk,
      sd_rects_mk]
    rw [sd_flat_leaf (Node.mk _ lh true lc lr) rfl, sd_flat_leaf (Node.mk _ rh true rc rr) rfl,
      sd_flat_leaf (Node.mk li lh true lc lr) rfl, sd_flat_leaf (Node.mk ri rh true rc rr) rfl]
    simp only [sd_items_mk]
    conv_rhs => rw [hsplit]
    simp only [List.mem_append, List.mem_cons]
    exact Iff.of_eq (by ac_rfl)

theorem sd_give_right_leaf {i ht : Nat} {A B : List (Node α)} {R : List Rect} {S T : List α}
    {l r : Node α} {sep : α} (hA : A.length = i) (hS : S.length = i)
    (hl : STight cfg dims itemrect 1 l) (hr : STight cfg dims itemrect 1 r)
    (hdef : r.items.length + 1 = MINITEMS cfg)
    (hsum : MAXITEMS cfg ≤ l.items.length + r.items.length) :
    ∃ l2 r2 sep2,
      give_right (Node.mk (S ++ sep :: T) ht false (A ++ l :: r :: B) R) i true =
        Node.mk (S ++ sep2 :: T) ht false (A ++ l2 :: r2 :: B) R ∧
      (MINITEMS cfg ≤ l2.items.length ∧ STight cfg dims itemrect 1 l2) ∧
      (MINITEMS cfg ≤ r2.items.length ∧ STight cfg dims itemrect 1 r2) ∧
      ∀ x, (x ∈ flat l2 ∨ x = sep2 ∨ x ∈ flat r2) ↔ (x ∈ flat l ∨ x = sep ∨ x ∈ flat r) := by
  have hmax := max_eq cfg
  have hmin := min_pos cfg
  obtain ⟨e1, hlm⟩ := sd_stight_leaf hl
  obtain ⟨e2, hrm⟩ := sd_stight_leaf hr
  obtain ⟨li, lh, lf, lc, lr⟩ := l
  obtain ⟨ri, rh, rf, rc, rr⟩ := r
  simp only [sd_isleaf_mk, sd_items_mk] at e1 e2 hlm hrm hdef hsum
  subst e1 e2
  have hk : give_n true (Node.mk li lh true lc lr).len (Node.mk ri rh true rc rr).len =
      (li.length - ri.length) / 2 := by
    simp [give_n, Node.len]
  have hll : (Node.mk li lh true lc lr).len = li.length := rfl
  have hlt : li.length - (li.length - ri.length) / 2 < li.length := by omega
  have hn : li[li.length - (li.length - ri.length) / 2]? =
      some li[li.length - (li.length - ri.length) / 2] :=
    List.getElem?_eq_getElem hlt
  have hsplit := take_get_drop hn
  refine ⟨_, _, _, sd_give_right_eq hA hS (by rw [hk, hll, sd_items_mk]; exact hn), ?_, ?_, ?_⟩
  · rw [hk, hll]
    simp only [Node.setItems, sd_items_mk, sd_height_mk, sd_isleaf_mk, sd_children_mk,
      sd_rects_mk]
    have : (List.take (li.length - (li.length - ri.length) / 2) li).length =
        li.length - (li.length - ri.length) / 2 := by
      simp
    exact ⟨by omega, sd_stight_mk_leaf rfl (by rw [sd_items_mk]; omega)⟩
  · rw [hk, hll]
    simp only [Node.setItems, sd_items_mk, sd_height_mk, sd_isleaf_mk, sd_children_mk,
      sd_rects_mk]
    have : (List.drop (li.length - (li.length - ri.length) / 2 + 1) li ++ sep :: ri).length =
        ri.length + (li.length - ri.length) / 2 := by
      simp; omega
    exact ⟨by omega, sd_stight_mk_leaf rfl (by rw [sd_items_mk]; omega)⟩
  · intro x
    rw [hk, hll]
    simp only [Node.setItems, sd_items_mk, sd_height_mk, sd_isleaf_mk, sd_children_mk,
      sd_rects_mk]
    rw [sd_flat_leaf (Node.mk _ lh true lc lr) rfl, sd_flat_leaf (Node.mk _ rh true rc rr) rfl,
      sd_flat_leaf (Node.mk li lh true lc lr) rfl, sd_flat_leaf (Node.mk ri rh true rc rr) rfl]
    simp only [sd_items_mk]
    conv_rhs => rw [hsplit]
    simp only [List.mem_append, List.mem_cons]
    exact Iff.of_eq (by ac_rfl)

end sdgive

end Spatial

namespace Spatial

section sdrot
variable {cfg : Config} {dims : Nat} {itemrect : α → List Int × List Int}

theorem sd_rotate_left_eq {i ht : Nat} {A B : List (Node α)} {R : List Rect} {S T : List α}
    {l r : Node α} {sep first : α} (hA : A.length = i) (hS : S.length = i)
    (hn : r.items.head? = some first) :
    rotate_left dims itemrect (Node.mk (S ++ sep :: T) ht false (A ++ l :: r :: B) R) i =
      Node.mk (S ++ first :: T) ht false
        (A ++ rotate_left_taker dims itemrect l r sep :: shift_left r 0 false :: B) R := by
  unfold rotate_left
  rw [sd_child_at hA, sd_child_at1 hA]
  simp only [sd_items_mk]
  rw [app_get hS, hn]
  simp only [Node.setItems, Node.setChild, sd_items_mk, sd_height_mk, sd_isleaf_mk,
    sd_children_mk, sd_rects_mk]
  rw [app_set hS, app_set hA, app_set1 hA]

theorem sd_rotate_right_eq {i ht : Nat} {A B : List (Node α)} {R : List Rect} {S T : List α}
    {l r : Node α} {sep last : α} (hA : A.length = i) (hS : S.length = i)
    (hn : l.items.getLast? = some last) :
    rotate_right dims itemrect (Node.mk (S ++ sep :: T) ht false (A ++ l :: r :: B) R) i =
      Node.mk (S ++ last :: T) ht false
        (A ++ rotate_right_giver dims itemrect l :: rotate_right_taker dims itemrect l r sep :: B)
        R := by
  unfold rotate_right
  rw [sd_child_at hA, sd_child_at1 hA]
  simp only [sd_items_mk]
  rw [app_get hS, hn]
  simp only [Node.setItems, Node.setChild, sd_items_mk, sd_height_mk, sd_isleaf_mk,
    sd_children_mk, sd_rects_mk]
  rw [app_set hS, app_set hA, app_set1 hA]

theorem sd_parts_cons {h : Nat} {n : Node α} (hs : STight cfg dims itemrect (h + 2) n) :
    ∃ ni ht cf RC rf RR, n = Node.mk ni ht false (cf :: RC) (rf :: RR) ∧
      RC.length = ni.length ∧ RR.length = ni.length := by
  obtain ⟨e, _, hc, hr, _, _⟩ := sd_stight_branch hs
  obtain ⟨ni, nh, nf, nc, nr⟩ := n
  simp only [sd_isleaf_mk, sd_items_mk, sd_children_mk, sd_rects_mk] at e hc hr
  subst e
  cases nc with
  | nil => simp at hc
  | cons cf RC =>
    cases nr with
    | nil => simp at hr
    | cons rf RR =>
      exact ⟨ni, nh, cf, RC, rf, RR, rfl, by simpa using hc, by simpa using hr⟩

theorem sd_parts_snoc {h : Nat} {n : Node α} (hs : STight cfg dims itemrect (h + 2) n) :
    ∃ ni ht LC cl LR rl, n = Node.mk ni ht false (LC ++ [cl]) (LR ++ [rl]) ∧
      LC.length = ni.length ∧ LR.length = ni.length := by
  obtain ⟨e, _, hc, hr, _, _⟩ := sd_stight_branch hs
  obtain ⟨ni, nh, nf, nc, nr⟩ := n
  simp only [sd_isleaf_mk, sd_items_mk, sd_children_mk, sd_rects_mk] at e hc hr
  subst e
  obtain ⟨LC, cl, rfl⟩ := sd_snoc nc (by omega)
  obtain ⟨LR, rl, rfl⟩ := sd_snoc nr (by omega)
  exact ⟨ni, nh, LC, cl, LR, rl, rfl, by simpa using hc, by simpa using hr⟩

theorem sd_rotl_case {h i ht : Nat} {A B : List (Node α)} {R : List Rect} {S T : List α}
    {l r : Node α} {sep : α} (hA : A.length = i) (hS : S.length = i)
    (hl : STight cfg dims itemrect (h + 2) l) (hr : STight cfg dims itemrect (h + 2) r)
    (hlm : MINITEMS cfg ≤ l.items.length + 1) (hlen : l.items.length + 1 ≤ MAXITEMS cfg)
    (hrm : MINITEMS cfg + 1 ≤ r.items.length) :
    ∃ l2 r2 sep2,
      rotate_left dims itemrect (Node.mk (S ++ sep :: T) ht false (A ++ l :: r :: B) R) i =
        Node.mk (S ++ sep2 :: T) ht false (A ++ l2 :: r2 :: B) R ∧
      (MINITEMS cfg ≤ l2.items.length ∧ STight cfg dims itemrect (h + 2) l2) ∧
      (MINITEMS cfg ≤ r2.items.length ∧ STight cfg dims itemrect (h + 2) r2) ∧
      ∀ x, (x ∈ flat l2 ∨ x = sep2 ∨ x ∈ flat r2) ↔ (x ∈ flat l ∨ x = sep ∨ x ∈ flat r) := by
  have hmin := min_pos cfg
  obtain ⟨li, lh, LC, cl, LR, rl, rfl, hLC, hLR⟩ := sd_parts_snoc hl
  obtain ⟨ri, rh, cf, RC, rf, RR, rfl, hRC, hRR⟩ := sd_parts_cons hr
  simp only [sd_items_mk] at hlm hlen hrm
  obtain ⟨first, RI, rfl⟩ : ∃ first RI, ri = first :: RI := by
    cases ri with
    | nil => simp at hrm
    | cons a t => exact ⟨a, t, rfl⟩
  obtain ⟨_, _, _, _, hlt, _, hlw, _, hcl, _⟩ :=
    @sd_stight_one_inv α cfg dims itemrect h li.length lh LC [] LR [] li [] cl rl false hLC rfl hLR
      (by simpa using hl)
  obtain ⟨_, _, _, _, _, hrt, _, hrw, hcf, _⟩ :=
    @sd_stight_one_inv α cfg dims itemrect h 0 rh [] RC [] RR [] (first :: RI) cf rf false rfl rfl
      rfl (by simpa using hr)
  have et : rotate_left_taker dims itemrect (Node.mk li lh false (LC ++ [cl]) (LR ++ [rl]))
      (Node.mk (first :: RI) rh false (cf :: RC) (rf :: RR)) sep =
      recalc_pair dims itemrect
        (Node.mk (li ++ sep :: []) lh false (LC ++ cl :: cf :: []) (LR ++ rl :: Rect.mk [] [] :: []))
        li.length := by
    simp [rotate_left_taker, Node.child, Node.len]
  have eg : shift_left (Node.mk (first :: RI) rh false (cf :: RC) (rf :: RR)) 0 false =
      Node.mk RI rh false RC RR := by
    simp only [shift_left, sd_isleaf_mk, Bool.false_eq_true, if_false, sd_items_mk, sd_height_mk,
      sd_children_mk, sd_rects_mk, Node.len]
    simp only [close_slot, List.eraseIdx_cons_zero]
    rw [List.take_of_length_le (by simp), List.take_of_length_le (by omega),
      List.take_of_length_le (by omega)]
  obtain ⟨p1, p2, p3⟩ := @sd_pair_update α cfg dims itemrect h li.length lh LC [] LR [] li [] cl cf sep
    rl (Rect.mk [] []) hLC rfl hLR rfl rfl (by simpa using hlen) hlt (by simp [TightL]) hlw
    (by simp) hcl hcf
  refine ⟨_, _, _, sd_rotate_left_eq hA hS rfl, ?_, ?_, fun x => ?_⟩
  · rw [et]
    exact ⟨by rw [p3]; simp; omega, p1⟩
  · rw [eg]
    refine ⟨by simp at hrm ⊢; omega, sd_stight_mk_branch rfl (by simp at hr ⊢; have := (sd_stight_branch hr).2.1; simp at this; omega)
      (by simpa using hRC) (by simpa using hRR) (by simpa using hrt) (by simpa using hrw)⟩
  · rw [et, eg, p2 x]
    have q1 := @sd_mem_one α lh LC [] (LR ++ [rl]) li [] cl x hLC rfl
    have q2 := @sd_mem_one α rh [] RC (rf :: RR) [] (first :: RI) cf x rfl (by simpa using hRC)
    have q3 := sd_mem_mk RI rh RC RR x (by simpa using hRC)
    simp only [List.append_nil, List.nil_append] at q1 q2
    rw [q1, q2, q3]
    simp only [List.mem_cons, List.not_mem_nil, false_and, exists_false, or_false, false_or]
    exact Iff.of_eq (by ac_rfl)

theorem sd_rotr_case {h i ht : Nat} {A B : List (Node α)} {R : List Rect} {S T : List α}
    {l r : Node α} {sep : α} (hA : A.length = i) (hS : S.length = i)
    (hl : STight cfg dims itemrect (h + 2) l) (hr : STight cfg dims itemrect (h + 2) r)
    (hrm : MINITEMS cfg ≤ r.items.length + 1) (hlen : r.items.length + 1 ≤ MAXITEMS cfg)
    (hlm : MINITEMS cfg + 1 ≤ l.items.length) :
    ∃ l2 r2 sep2,
      rotate_right dims itemrect (Node.mk (S ++ sep :: T) ht false (A ++ l :: r :: B) R) i =
        Node.mk (S ++ sep2 :: T) ht false (A ++ l2 :: r2 :: B) R ∧
      (MINITEMS cfg ≤ l2.items.length ∧ STight cfg dims itemrect (h + 2) l2) ∧
      (MINITEMS cfg ≤ r2.items.length ∧ STight cfg dims itemrect (h + 2) r2) ∧
      ∀ x, (x ∈ flat l2 ∨ x = sep2 ∨ x ∈ flat r2) ↔ (x ∈ flat l ∨ x = sep ∨ x ∈ flat r) := by
  have hmin := min_pos cfg
  obtain ⟨li, lh, LC1, cl, LR1, rl, rfl, hLC1, hLR1⟩ := sd_parts_snoc hl
  obtain ⟨ri, rh, cf, RC, rf, RR, rfl, hRC, hRR⟩ := sd_parts_cons hr
  simp only [sd_items_mk] at hlm hlen hrm
  obtain ⟨LI, last, rfl⟩ := sd_snoc li (by omega)
  obtain ⟨LC, cp, rfl⟩ := sd_snoc LC1 (by simp at hLC1; omega)
  obtain ⟨LR, rp, rfl⟩ := sd_snoc LR1 (by simp at hLR1; omega)
  have hLC : LC.length = LI.length := by simpa using hLC1
  have hLR : LR.length = LI.length := by simpa using hLR1
  obtain ⟨_, _, _, hlmax, hlt, _, hlw, hclw, hcp, _⟩ :=
    @sd_stight_one_inv α cfg dims itemrect h LI.length lh LC [cl] LR [rl] LI [last] cp rp false
      hLC rfl hLR (by simpa using hl)
  have hcl := hclw cl (by simp)
  obtain ⟨_, hrmax, _, _, hrt, hrw⟩ := sd_stight_branch hr
  simp only [sd_items_mk, sd_children_mk, sd_rects_mk] at hrmax hrt hrw
  have eg : rotate_right_giver dims itemrect
      (Node.mk (LI ++ [last]) lh false (LC ++ [cp] ++ [cl]) (LR ++ [rp] ++ [rl])) =
      Node.mk (LI ++ []) lh false (LC ++ cp :: [])
        (LR ++ rect_calc dims itemrect (Node.mk LI lh false (LC ++ [cp]) (LR ++ [rp])) LI.length ::
          []) := by
    simp only [rotate_right_giver, Node.len, sd_items_mk, sd_height_mk, sd_isleaf_mk,
      sd_children_mk, sd_rects_mk, Node.setRect, List.length_append, List.length_singleton,
      Nat.add_sub_cancel, List.append_nil]
    rw [app_take rfl, app_take (by simp [hLC]), app_take (by simp [hLR]), app_set hLR]
  have et : rotate_right_taker dims itemrect
      (Node.mk (LI ++ [last]) lh false (LC ++ [cp] ++ [cl]) (LR ++ [rp] ++ [rl]))
      (Node.mk ri rh false (cf :: RC) (rf :: RR)) sep =
      Node.mk ([] ++ sep :: ri) rh false ([] ++ cl :: (cf :: RC))
        ([] ++ rect_calc dims itemrect
          (Node.mk (sep :: ri) rh false (cl :: cf :: RC) (rf :: rf :: RR)) 0 :: (rf :: RR)) := by
    have hc : (Node.mk (LI ++ [last]) lh false (LC ++ [cp] ++ [cl]) (LR ++ [rp] ++ [rl])).child
        (Node.mk (LI ++ [last]) lh false (LC ++ [cp] ++ [cl]) (LR ++ [rp] ++ [rl])).len = cl :=
      sd_child_at (by simp [Node.len, hLC])
    unfold rotate_right_taker
    rw [hc]
    simp [shift_right, Node.setChild, Node.setRect]
  have hb1 := @sd_rect_calc α cfg dims itemrect h LI.length
    (Node.mk LI lh false (LC ++ [cp]) (LR ++ [rp])) cp (sd_child_at hLC) hcp.2 (by omega)
  rw [sd_items_mk, show LI[LI.length]? = none from by simp] at hb1
  have hb2 := @sd_rect_calc α cfg dims itemrect h 0
    (Node.mk (sep :: ri) rh false (cl :: cf :: RC) (rf :: rf :: RR)) cl
    (by simp [Node.child]) hcl.2 (by omega)
  rw [sd_items_mk] at hb2
  refine ⟨_, _, _, sd_rotate_right_eq hA hS (show _ = some last from by simp), ?_, ?_,
    fun x => ?_⟩
  · rw [eg]
    refine ⟨by simp at hlm ⊢; omega, ?_⟩
    exact sd_stight_one hLC rfl hLR rfl rfl (by simp at hlmax ⊢; omega) hlt (by simp [TightL]) hlw
      (by simp) hcp (by simpa using hb1)
  · rw [et]
    refine ⟨by simp; omega, ?_⟩
    exact @sd_stight_one α cfg dims itemrect h 0 rh [] (cf :: RC) [] (rf :: RR) [] (sep :: ri) cl _
      rfl rfl rfl (by simpa using hRC) (by simpa using hRR) (by simpa using hlen)
      (by simp [TightL]) (by simpa using hrt) (by simp) hrw hcl (by simpa using hb2)
  · rw [eg, et]
    have q0 := @sd_mem_pair α lh LC [] (LR ++ [rp] ++ [rl]) LI [] cp cl last x hLC rfl
    have q1 := @sd_mem_one α lh LC []
      (LR ++ rect_calc dims itemrect (Node.mk LI lh false (LC ++ [cp]) (LR ++ [rp])) LI.length ::
          []) LI [] cp x hLC rfl
    have q2 := @sd_mem_one α rh [] (cf :: RC)
      ([] ++ rect_calc dims itemrect
          (Node.mk (sep :: ri) rh false (cl :: cf :: RC) (rf :: rf :: RR)) 0 :: (rf :: RR))
      [] (sep :: ri) cl x rfl (by simpa using hRC)
    have q3 := sd_mem_mk ri rh (cf :: RC) (rf :: RR) x (by simpa using hRC)
    rw [show LC ++ [cp] ++ [cl] = LC ++ cp :: cl :: [] from by simp, q0, q1, q2, q3]
    simp only [List.mem_cons, List.not_mem_nil, false_and, exists_false, or_false, false_or]
    exact Iff.of_eq (by ac_rfl)

end sdrot

end Spatial

namespace Spatial

section sdreb
variable {cfg : Config} {dims : Nat} {itemrect : α → List Int × List Int}

theorem sd_rebalance_at_spec {h i ht : Nat} {A B : List (Node α)} {RA RB : List Rect}
    {S T : List α} {l r : Node α} {sep : α} {rl rr : Rect}
    (hA : A.length = i) (hS : S.length = i) (hRA : RA.length = i)
    (hB : B.length = T.length) (hRB : RB.length = T.length)
    (hlen : (S ++ sep :: T).length ≤ MAXITEMS cfg)
    (hAt : TightL dims itemrect A RA S) (hBt : TightL dims itemrect B RB T.tail)
    (hAw : ∀ c ∈ A, MINITEMS cfg ≤ c.items.length ∧ STight cfg dims itemrect (h + 1) c)
    (hBw : ∀ c ∈ B, MINITEMS cfg ≤ c.items.length ∧ STight cfg dims itemrect (h + 1) c)
    (hl : STight cfg dims itemrect (h + 1) l) (hr : STight cfg dims itemrect (h + 1) r)
    (hdef : (l.items.length + 1 = MINITEMS cfg ∧ MINITEMS cfg ≤ r.items.length) ∨
      (r.items.length + 1 = MINITEMS cfg ∧ MINITEMS cfg ≤ l.items.length)) :
    STight cfg dims itemrect (h + 2)
      (rebalance_at cfg dims itemrect
        (Node.mk (S ++ sep :: T) ht false (A ++ l :: r :: B) (RA ++ rl :: rr :: RB)) i) ∧
    (∀ x, x ∈ flat (rebalance_at cfg dims itemrect
        (Node.mk (S ++ sep :: T) ht false (A ++ l :: r :: B) (RA ++ rl :: rr :: RB)) i) ↔
      x ∈ flat (Node.mk (S ++ sep :: T) ht false (A ++ l :: r :: B) (RA ++ rl :: rr :: RB))) ∧
    (S ++ sep :: T).length ≤
      (rebalance_at cfg dims itemrect
        (Node.mk (S ++ sep :: T) ht false (A ++ l :: r :: B) (RA ++ rl :: rr :: RB)) i).items.length
        + 1 := by
  have hmax := max_eq cfg
  have hmin := min_pos cfg
  have hll : l.items.length ≤ MAXITEMS cfg := by
    cases h with
    | zero => exact (sd_stight_leaf hl).2
    | succ h => exact (sd_stight_branch hl).2.1
  have hrl : r.items.length ≤ MAXITEMS cfg := by
    cases h with
    | zero => exact (sd_stight_leaf hr).2
    | succ h => exact (sd_stight_branch hr).2.1
  unfold rebalance_at
  rw [sd_child_at hA, sd_child_at1 hA]
  simp only [Node.len]
  by_cases hsum : l.items.length + r.items.length < MAXITEMS cfg
  · rw [if_pos hsum]
    exact sd_merge_spec hA hS hRA hB hRB hlen hAt hBt hAw hBw hl hr hsum (by omega)
  rw [if_neg hsum]
  have hfin : ∀ (l2 r2 : Node α) (sep2 : α),
      (MINITEMS cfg ≤ l2.items.length ∧ STight cfg dims itemrect (h + 1) l2) →
      (MINITEMS cfg ≤ r2.items.length ∧ STight cfg dims itemrect (h + 1) r2) →
      (∀ x, (x ∈ flat l2 ∨ x = sep2 ∨ x ∈ flat r2) ↔ (x ∈ flat l ∨ x = sep ∨ x ∈ flat r)) →
      STight cfg dims itemrect (h + 2)
        (recalc_pair dims itemrect
          (Node.mk (S ++ sep2 :: T) ht false (A ++ l2 :: r2 :: B) (RA ++ rl :: rr :: RB)) i) ∧
      (∀ x, x ∈ flat (recalc_pair dims itemrect
          (Node.mk (S ++ sep2 :: T) ht false (A ++ l2 :: r2 :: B) (RA ++ rl :: rr :: RB)) i) ↔
        x ∈ flat (Node.mk (S ++ sep :: T) ht false (A ++ l :: r :: B) (RA ++ rl :: rr :: RB))) ∧
      (S ++ sep :: T).length ≤
        (recalc_pair dims itemrect
          (Node.mk (S ++ sep2 :: T) ht false (A ++ l2 :: r2 :: B)
            (RA ++ rl :: rr :: RB)) i).items.length + 1 := by
    intro l2 r2 sep2 h1 h2 h3
    obtain ⟨p1, p2, p3⟩ := @sd_pair_update α cfg dims itemrect h i ht A B RA RB S T l2 r2 sep2
      rl rr hA hS hRA hB hRB (by simpa using hlen) hAt hBt hAw hBw h1 h2
    refine ⟨p1, fun x => ?_, by rw [p3]; simp⟩
    rw [p2 x, sd_mem_pair x (hA.trans hS.symm) hB, h3 x]
  cases h with
  | zero =>
    rw [if_pos (sd_stight_leaf hl).1]
    by_cases hlt : l.items.length < r.items.length
    · rw [if_pos hlt]
      obtain ⟨l2, r2, sep2, e, h1, h2, h3⟩ :=
        @sd_give_left_leaf α cfg dims itemrect i ht A B (RA ++ rl :: rr :: RB) S T l r sep hA hS hl
          hr (by omega) (by omega)
      rw [e]
      exact hfin l2 r2 sep2 h1 h2 h3
    · rw [if_neg hlt]
      obtain ⟨l2, r2, sep2, e, h1, h2, h3⟩ :=
        @sd_give_right_leaf α cfg dims itemrect i ht A B (RA ++ rl :: rr :: RB) S T l r sep hA hS hl
          hr (by omega) (by omega)
      rw [e]
      exact hfin l2 r2 sep2 h1 h2 h3
  | succ h =>
    rw [if_neg (by rw [(sd_stight_branch hl).1]; simp)]
    by_cases hlt : l.items.length < r.items.length
    · rw [if_pos hlt]
      obtain ⟨l2, r2, sep2, e, h1, h2, h3⟩ :=
        @sd_rotl_case α cfg dims itemrect h i ht A B (RA ++ rl :: rr :: RB) S T l r sep hA hS hl
          hr (by omega) (by omega) (by omega)
      rw [e]
      exact hfin l2 r2 sep2 h1 h2 h3
    · rw [if_neg hlt]
      obtain ⟨l2, r2, sep2, e, h1, h2, h3⟩ :=
        @sd_rotr_case α cfg dims itemrect h i ht A B (RA ++ rl :: rr :: RB) S T l r sep hA hS hl
          hr (by omega) (by omega) (by omega)
      rw [e]
      exact hfin l2 r2 sep2 h1 h2 h3

theorem sd_rebalance_spec {h i ht : Nat} {A B : List (Node α)} {RA RB : List Rect}
    {S T : List α} {c : Node α} {rc : Rect}
    (hA : A.length = i) (hS : S.length = i) (hRA : RA.length = i)
    (hB : B.length = T.length) (hRB : RB.length = T.length)
    (hlen : (S ++ T).length ≤ MAXITEMS cfg) (hpos : 1 ≤ (S ++ T).length)
    (hAt : TightL dims itemrect A RA S) (hBt : TightL dims itemrect B RB T.tail)
    (hAw : ∀ c ∈ A, MINITEMS cfg ≤ c.items.length ∧ STight cfg dims itemrect (h + 1) c)
    (hBw : ∀ c ∈ B, MINITEMS cfg ≤ c.items.length ∧ STight cfg dims itemrect (h + 1) c)
    (hc : STight cfg dims itemrect (h + 1) c) (hdef : c.items.length + 1 = MINITEMS cfg) :
    STight cfg dims itemrect (h + 2)
      (rebalance cfg dims itemrect
        (Node.mk (S ++ T) ht false (A ++ c :: B) (RA ++ rc :: RB)) i) ∧
    (∀ x, x ∈ flat (rebalance cfg dims itemrect
        (Node.mk (S ++ T) ht false (A ++ c :: B) (RA ++ rc :: RB)) i) ↔
      x ∈ flat (Node.mk (S ++ T) ht false (A ++ c :: B) (RA ++ rc :: RB))) ∧
    (S ++ T).length ≤
      (rebalance cfg dims itemrect
        (Node.mk (S ++ T) ht false (A ++ c :: B) (RA ++ rc :: RB)) i).items.length + 1 := by
  unfold rebalance
  simp only [Node.len, sd_items_mk]
  by_cases hi : i = (S ++ T).length
  · rw [if_pos hi]
    have hT : T = [] := List.eq_nil_of_length_eq_zero (by simp at hi; omega)
    subst hT
    have hB0 : B = [] := List.eq_nil_of_length_eq_zero (by simpa using hB)
    have hRB0 : RB = [] := List.eq_nil_of_length_eq_zero (by simpa using hRB)
    subst hB0 hRB0
    obtain ⟨S1, sep, rfl⟩ := sd_snoc S (by simpa using hpos)
    obtain ⟨A1, l, rfl⟩ := sd_snoc A (by simp at hS; omega)
    obtain ⟨RA1, rl, rfl⟩ := sd_snoc RA (by simp at hS; omega)
    have hA1 : A1.length = i - 1 := by simp at hA; omega
    have hS1 : S1.length = i - 1 := by simp at hS; omega
    have hRA1 : RA1.length = i - 1 := by simp at hRA; omega
    have htl := (sd_tightL_append A1 RA1 S1 [l] [rl] [sep] (hA1.trans hS1.symm)
      (hA1.trans hRA1.symm)).1 hAt
    have hlw := hAw l (by simp)
    have := @sd_rebalance_at_spec α cfg dims itemrect h (i - 1) ht A1 [] RA1 [] S1 [] l c sep rl rc
      hA1 hS1 hRA1 rfl rfl (by simpa using hlen) htl.1 (by simp [TightL])
      (fun x hx => hAw x (by simp [hx])) (by simp) hlw.2 hc (Or.inr ⟨hdef, hlw.1⟩)
    simpa using this
  · rw [if_neg hi]
    obtain ⟨sep, T1, rfl⟩ : ∃ sep T1, T = sep :: T1 := by
      cases T with
      | nil => simp at hi; omega
      | cons a t => exact ⟨a, t, rfl⟩
    obtain ⟨r, B1, rfl⟩ : ∃ r B1, B = r :: B1 := by
      cases B with
      | nil => simp at hB
      | cons a t => exact ⟨a, t, rfl⟩
    obtain ⟨rr, RB1, rfl⟩ : ∃ rr RB1, RB = rr :: RB1 := by
      cases RB with
      | nil => simp at hRB
      | cons a t => exact ⟨a, t, rfl⟩
    have hrw := hBw r (by simp)
    have hBt2 : TightL dims itemrect (r :: B1) (rr :: RB1) T1 := hBt
    unfold TightL at hBt2
    exact sd_rebalance_at_spec hA hS hRA (by simpa using hB) (by simpa using hRB) hlen hAt
      hBt2.2 hAw (fun x hx => hBw x (by simp [hx])) hc hrw.2 (Or.inl ⟨hdef, hrw.1⟩)

theorem sd_delete1_fix_spec {h i ht : Nat} {A B : List (Node α)} {RA RB : List Rect}
    {S T : List α} {c : Node α} {rc : Rect} (popmax : Bool) (prev : Option α)
    (hA : A.length = i) (hS : S.length = i) (hRA : RA.length = i)
    (hB : B.length = T.length) (hRB : RB.length = T.length)
    (hlen : (S ++ T).length ≤ MAXITEMS cfg) (hpos : 1 ≤ (S ++ T).length)
    (hAt : TightL dims itemrect A RA S) (hBt : TightL dims itemrect B RB T.tail)
    (hAw : ∀ c ∈ A, MINITEMS cfg ≤ c.items.length ∧ STight cfg dims itemrect (h + 1) c)
    (hBw : ∀ c ∈ B, MINITEMS cfg ≤ c.items.length ∧ STight cfg dims itemrect (h + 1) c)
    (hc : STight cfg dims itemrect (h + 1) c) (hdef : MINITEMS cfg ≤ c.items.length + 1)
    (hslot : delete1_recalc dims itemrect
        (Node.mk (S ++ T) ht false (A ++ c :: B) (RA ++ rc :: RB)) i popmax prev = false →
      IsBox dims itemrect (flat c ++ T.head?.toList) rc) :
    STight cfg dims itemrect (h + 2)
      (delete1_fix cfg dims itemrect
        (Node.mk (S ++ T) ht false (A ++ c :: B) (RA ++ rc :: RB)) i popmax prev) ∧
    (∀ x, x ∈ flat (delete1_fix cfg dims itemrect
        (Node.mk (S ++ T) ht false (A ++ c :: B) (RA ++ rc :: RB)) i popmax prev) ↔
      x ∈ flat (Node.mk (S ++ T) ht false (A ++ c :: B) (RA ++ rc :: RB))) ∧
    (S ++ T).length ≤
      (delete1_fix cfg dims itemrect
        (Node.mk (S ++ T) ht false (A ++ c :: B) (RA ++ rc :: RB)) i popmax prev).items.length
        + 1 := by
  have hmin := min_pos cfg
  obtain ⟨rc2, hx1, hbox⟩ : ∃ rc2,
      (if delete1_recalc dims itemrect
          (Node.mk (S ++ T) ht false (A ++ c :: B) (RA ++ rc :: RB)) i popmax prev then
        (Node.mk (S ++ T) ht false (A ++ c :: B) (RA ++ rc :: RB)).setRect i
          (rect_calc dims itemrect
            (Node.mk (S ++ T) ht false (A ++ c :: B) (RA ++ rc :: RB)) i)
       else Node.mk (S ++ T) ht false (A ++ c :: B) (RA ++ rc :: RB)) =
        Node.mk (S ++ T) ht false (A ++ c :: B) (RA ++ rc2 :: RB) ∧
      (MINITEMS cfg ≤ c.items.length → IsBox dims itemrect (flat c ++ T.head?.toList) rc2) := by
    cases hk : delete1_recalc dims itemrect
        (Node.mk (S ++ T) ht false (A ++ c :: B) (RA ++ rc :: RB)) i popmax prev
    · exact ⟨rc, by simp, fun _ => hslot hk⟩
    · refine ⟨rect_calc dims itemrect
        (Node.mk (S ++ T) ht false (A ++ c :: B) (RA ++ rc :: RB)) i, ?_, fun hm => ?_⟩
      · simp only [if_true, Node.setRect, sd_items_mk, sd_height_mk, sd_isleaf_mk,
          sd_children_mk, sd_rects_mk]
        rw [app_set hRA]
      · have := @sd_rect_calc α cfg dims itemrect h i
          (Node.mk (S ++ T) ht false (A ++ c :: B) (RA ++ rc :: RB)) c (sd_child_at hA) hc
          (by omega)
        rwa [sd_items_mk, sd_get_head hS] at this
  have hflat : ∀ x, x ∈ flat (Node.mk (S ++ T) ht false (A ++ c :: B) (RA ++ rc2 :: RB)) ↔
      x ∈ flat (Node.mk (S ++ T) ht false (A ++ c :: B) (RA ++ rc :: RB)) := by
    intro x
    rw [sd_mem_one x (hA.trans hS.symm) hB, sd_mem_one x (hA.trans hS.symm) hB]
  unfold delete1_fix
  rw [hx1, sd_child_at hA]
  simp only [Node.len]
  by_cases hlow : c.items.length < MINITEMS cfg
  · rw [if_pos hlow]
    obtain ⟨p1, p2, p3⟩ := @sd_rebalance_spec α cfg dims itemrect h i ht A B RA RB S T c rc2
      hA hS hRA hB hRB hlen hpos hAt hBt hAw hBw hc (by omega)
    exact ⟨p1, fun x => (p2 x).trans (hflat x), p3⟩
  · rw [if_neg hlow]
    exact ⟨sd_stight_one hA hS hRA hB hRB hlen hAt hBt hAw hBw ⟨by omega, hc⟩ (hbox (by omega)),
      hflat, by simp⟩

end sdreb

end Spatial

namespace Spatial

section sddel
variable {cfg : Config} {dims : Nat} {itemrect : α → List Int × List Int}

theorem sd_flat_mk_leaf (items : List α) (ht : Nat) (ch : List (Node α)) (r : List Rect) :
    flat (Node.mk items ht true ch r) = items := by
  simp [flat]

theorem sd_search_lt (cmp : α → α → Int) (l : List α) (key : α) :
    (search_linear cmp l key).1 ≤ l.length ∧
      ((search_linear cmp l key).2 = true → (search_linear cmp l key).1 < l.length) := by
  obtain ⟨S, T, e, h1, _, h2, _⟩ := search_linear_spec cmp l key
  rw [← h1]
  constructor
  · rw [e]; simp
  · intro hf
    obtain ⟨y, T1, rfl, _⟩ := h2 hf
    rw [e]; simp

theorem sd_index_walk (n : Node α) : ∀ (k i index : Nat),
    (index_walk n k i index).1 ≤ i + k ∧
      ((index_walk n k i index).2.1 = true → (index_walk n k i index).1 < i + k)
  | 0, i, index => by simp [index_walk]
  | k + 1, i, index => by
    rw [index_walk]
    split
    · exact ⟨by simp, fun _ => by simp⟩
    · have := sd_index_walk n k (i + 1) (index - (node_count n i + 1))
      exact ⟨by omega, fun hf => by have := this.2 hf; omega⟩

theorem sd_locate_leaf (cmp : α → α → Int) {n : Node α} (hl : n.isleaf = true)
    (hm : 1 ≤ n.items.length) (act : DelAct) (key : α) (index : Nat)
    (hf : (delete1_locate cmp n act key index).2.1 = true) :
    (delete1_locate cmp n act key index).1 < n.items.length := by
  cases act <;> simp only [delete1_locate, search, hl, if_true, Node.len] at hf ⊢
  · exact (sd_search_lt cmp n.items key).2 hf
  · omega
  · omega
  · omega
  · split at hf
    · rw [if_pos (by assumption)]; assumption
    · simp at hf

theorem sd_locate_branch (cmp : α → α → Int) {n : Node α} (hl : n.isleaf = false)
    (act : DelAct) (key : α) (index : Nat) :
    (delete1_locate cmp n act key index).1 ≤ n.items.length ∧
      ((delete1_locate cmp n act key index).2.1 = true → act ≠ DelAct.POPMAX →
        (delete1_locate cmp n act key index).1 < n.items.length) := by
  cases act <;> simp only [delete1_locate, search, hl, Bool.false_eq_true, if_false, Node.len]
  · exact ⟨(sd_search_lt cmp n.items key).1, fun h _ => (sd_search_lt cmp n.items key).2 h⟩
  · exact ⟨le_refl _, fun _ h => absurd rfl h⟩
  · exact ⟨Nat.zero_le _, fun h => by cases h⟩
  · exact ⟨le_refl _, fun h => by cases h⟩
  · have := sd_index_walk n n.items.length 0 index
    exact ⟨by omega, fun h _ => by have := this.2 h; omega⟩

theorem sd_delete1_leaf (cmp : α → α → Int) (key : α) {n : Node α}
    (hs : STight cfg dims itemrect 1 n) (hm : 1 ≤ n.items.length) (act : DelAct) (index : Nat)
    (fuel : Nat) :
    DelTight cfg dims itemrect 0 n (delete1 cfg cmp dims itemrect key (fuel + 1) n act index) := by
  obtain ⟨hl, hmax⟩ := sd_stight_leaf hs
  have hloc := sd_locate_leaf cmp hl hm act key index
  rw [delete1]
  generalize delete1_locate cmp n act key index = loc at hloc ⊢
  obtain ⟨i, found, index1⟩ := loc
  simp only [hl, if_true] at hloc ⊢
  cases found with
  | false =>
    simp only [Bool.false_eq_true, if_false]
    exact ⟨Or.inr rfl, fun h => by cases h⟩
  | true =>
    simp only [if_true]
    have hi := hloc rfl
    obtain ⟨ni, nh, nf, nc, nr⟩ := n
    simp only [sd_isleaf_mk, sd_items_mk] at hl hi hmax
    subst hl
    obtain ⟨A, d, B, rfl, hA⟩ := split_at_lt ni i hi
    have e : shift_left (Node.mk (A ++ d :: B) nh true nc nr) i false =
        Node.mk (A ++ B) nh true nc nr := by
      simp only [shift_left, sd_isleaf_mk, if_true, Node.setItems, sd_items_mk, sd_height_mk,
        sd_children_mk, sd_rects_mk, Node.len]
      rw [sd_close hA (by simp)]
    rw [e]
    refine ⟨Or.inl rfl, fun _ => ⟨sd_stight_mk_leaf rfl (by simp at hmax ⊢; omega),
      by simp; omega, d, ?_, ?_, ?_, ?_⟩⟩
    · simp only [sd_items_mk]; exact app_get hA
    · rw [sd_flat_mk_leaf]; simp
    · intro x hx
      rw [sd_flat_mk_leaf] at hx ⊢
      simp only [List.mem_append, List.mem_cons] at hx ⊢
      rcases hx with hx | hx
      · exact Or.inl hx
      · exact Or.inr (Or.inr hx)
    · intro x hx
      rw [sd_flat_mk_leaf] at hx ⊢
      simp only [List.mem_append, List.mem_cons] at hx ⊢
      rcases hx with hx | hx | hx
      · exact Or.inr (Or.inl hx)
      · exact Or.inl hx
      · exact Or.inr (Or.inr hx)

end sddel

end Spatial

namespace Spatial

section sddel1
variable {cfg : Config} {dims : Nat} {itemrect : α → List Int × List Int}

theorem sd_branch_at {h : Nat} {n : Node α} (hs : STight cfg dims itemrect (h + 2) n) {i : Nat}
    (hi : i ≤ n.items.length) :
    ∃ ht A c B RA rc RB S T, n = Node.mk (S ++ T) ht false (A ++ c :: B) (RA ++ rc :: RB) ∧
      A.length = i ∧ S.length = i ∧ RA.length = i := by
  obtain ⟨e, _, hc, hr, _, _⟩ := sd_stight_branch hs
  obtain ⟨ni, nh, nf, nc, nr⟩ := n
  simp only [sd_isleaf_mk, sd_items_mk, sd_children_mk, sd_rects_mk] at e hc hr hi
  subst e
  obtain ⟨A, c, B, rfl, hA⟩ := split_at_lt nc i (by omega)
  obtain ⟨RA, rc, RB, rfl, hRA⟩ := split_at_lt nr i (by omega)
  obtain ⟨S, T, rfl, hS⟩ := split_at_le ni i hi
  exact ⟨nh, A, c, B, RA, rc, RB, S, T, rfl, hA, hS, hRA⟩

theorem sd_delete1_spec (cmp : α → α → Int) (key : α) :
    ∀ (h fuel : Nat) (n : Node α) (act : DelAct) (index : Nat),
      STight cfg dims itemrect (h + 1) n → 1 ≤ n.items.length → h + 1 ≤ fuel →
      DelTight cfg dims itemrect h n (delete1 cfg cmp dims itemrect key fuel n act index)
  | 0, fuel, n, act, index, hs, hm, hf => by
    obtain ⟨f, rfl⟩ : ∃ f, fuel = f + 1 := ⟨fuel - 1, by omega⟩
    exact sd_delete1_leaf cmp key hs hm act index f
  | h + 1, fuel, n, act, index, hs, hm, hf => by
    obtain ⟨f, rfl⟩ : ∃ f, fuel = f + 1 := ⟨fuel - 1, by omega⟩
    have hmin := min_pos cfg
    have hl := (sd_stight_branch hs).1
    have hloc := sd_locate_branch cmp hl act key index
    rw [delete1]
    generalize delete1_locate cmp n act key index = loc at hloc ⊢
    obtain ⟨i, found, index1⟩ := loc
    simp only [hl, Bool.false_eq_true, if_false] at hloc ⊢
    obtain ⟨ht, A, c, B, RA, rc, RB, S, T, rfl, hA, hS, hRA⟩ := sd_branch_at hs hloc.1
    obtain ⟨_, hB, hRB, hlen, hAt, hBt, hAw, hBw, hc, hbox⟩ := sd_stight_one_inv hA hS hRA hs
    simp only [sd_items_mk] at hm hloc
    rw [sd_child_at hA]
    by_cases hsep : found = true ∧ act ≠ DelAct.POPMAX
    · rw [if_pos hsep]
      have hi := hloc.2 hsep.1 hsep.2
      obtain ⟨sep, T1, rfl⟩ : ∃ sep T1, T = sep :: T1 := by
        cases T with
        | nil => simp at hi; omega
        | cons a t => exact ⟨a, t, rfl⟩
      have ih := sd_delete1_spec cmp key h f c DelAct.POPMAX index1 hc.2 (by omega) (by omega)
      generalize delete1 cfg cmp dims itemrect key f c DelAct.POPMAX index1 = res at ih ⊢
      obtain ⟨ret, c2, popped⟩ := res
      simp only []
      by_cases hret : ret = Status.DELETED
      · subst hret
        rw [if_neg (by simp)]
        obtain ⟨hc2, hlen2, m, hpm, hmc, hsub, hsup⟩ := ih.2 rfl
        simp only at hpm hc2 hlen2 hsub hsup
        subst hpm
        simp only []
        have e : ((Node.mk (S ++ sep :: T1) ht false (A ++ c :: B) (RA ++ rc :: RB)).setItems
            ((Node.mk (S ++ sep :: T1) ht false (A ++ c :: B) (RA ++ rc :: RB)).items.set i
              m)).setChild i c2 =
            Node.mk (S ++ m :: T1) ht false (A ++ c2 :: B) (RA ++ rc :: RB) := by
          simp only [Node.setItems, Node.setChild, sd_items_mk, sd_height_mk, sd_isleaf_mk,
            sd_children_mk, sd_rects_mk]
          rw [app_set hS, app_set hA]
        rw [e]
        obtain ⟨p1, p2, p3⟩ := @sd_delete1_fix_spec α cfg dims itemrect h i ht A B RA RB S
          (m :: T1) c2 rc true (some m) hA hS hRA (by simpa using hB) (by simpa using hRB)
          (by simpa using hlen) (by simp; omega) hAt hBt hAw hBw hc2 (by omega)
          (fun hk => by simp [delete1_recalc] at hk)
        refine ⟨Or.inl rfl, fun _ => ⟨p1, by simpa using p3, sep, ?_, ?_, ?_, ?_⟩⟩
        · simp only [sd_items_mk]; exact app_get hS
        · rw [sd_mem_one _ (hA.trans hS.symm) hB]; simp
        · intro x hx
          rw [p2 x, sd_mem_one x (hA.trans hS.symm) (by simpa using hB)] at hx
          rw [sd_mem_one x (hA.trans hS.symm) hB]
          simp only [List.mem_cons] at hx ⊢
          rcases hx with (hx | (hx | hx) | hx | hx) | hx
          · exact Or.inl (Or.inl hx)
          · subst hx; exact Or.inr hmc
          · exact Or.inl (Or.inr (Or.inl (Or.inr hx)))
          · exact Or.inl (Or.inr (Or.inr (Or.inl hx)))
          · exact Or.inl (Or.inr (Or.inr (Or.inr hx)))
          · exact Or.inr (hsub x hx)
        · intro x hx
          rw [p2 x, sd_mem_one x (hA.trans hS.symm) (by simpa using hB)]
          rw [sd_mem_one x (hA.trans hS.symm) hB] at hx
          simp only [List.mem_cons] at hx ⊢
          rcases hx with (hx | (hx | hx) | hx | hx) | hx
          · exact Or.inr (Or.inl (Or.inl hx))
          · exact Or.inl hx
          · exact Or.inr (Or.inl (Or.inr (Or.inl (Or.inr hx))))
          · exact Or.inr (Or.inl (Or.inr (Or.inr (Or.inl hx))))
          · exact Or.inr (Or.inl (Or.inr (Or.inr (Or.inr hx))))
          · rcases hsup x hx with hx | hx
            · exact Or.inr (Or.inl (Or.inr (Or.inl (Or.inl hx))))
            · exact Or.inr (Or.inr hx)
      · rw [if_pos hret]
        refine ⟨?_, fun hd => absurd hd hret⟩
        rcases ih.1 with h1 | h1
        · exact absurd h1 hret
        · exact Or.inr h1
    · rw [if_neg hsep]
      have ih := sd_delete1_spec cmp key h f c act index1 hc.2 (by omega) (by omega)
      generalize delete1 cfg cmp dims itemrect key f c act index1 = res at ih ⊢
      obtain ⟨ret, c2, popped⟩ := res
      simp only []
      by_cases hret : ret = Status.DELETED
      · subst hret
        rw [if_neg (by simp)]
        obtain ⟨hc2, hlen2, d, hpm, hmc, hsub, hsup⟩ := ih.2 rfl
        simp only at hpm hc2 hlen2 hsub hsup
        subst hpm
        have e : (Node.mk (S ++ T) ht false (A ++ c :: B) (RA ++ rc :: RB)).setChild i c2 =
            Node.mk (S ++ T) ht false (A ++ c2 :: B) (RA ++ rc :: RB) := by
          simp only [Node.setChild, sd_items_mk, sd_height_mk, sd_isleaf_mk,
            sd_children_mk, sd_rects_mk]
          rw [app_set hA]
        rw [e]
        obtain ⟨p1, p2, p3⟩ := @sd_delete1_fix_spec α cfg dims itemrect h i ht A B RA RB S
          T c2 rc (decide (act = DelAct.POPMAX)) (some d) hA hS hRA hB hRB
          hlen hm hAt hBt hAw hBw hc2 (by omega)
          (fun hk => by
            simp only [delete1_recalc, Bool.or_eq_false_iff, Node.rect, sd_rects_mk] at hk
            rw [app_getD hRA] at hk
            refine sd_isBox_remove hbox (d := d) ?_ ?_ hk.2
            · intro x hx
              simp only [List.mem_append] at hx ⊢
              rcases hx with hx | hx
              · exact Or.inl (hsub x hx)
              · exact Or.inr hx
            · intro x hx
              simp only [List.mem_append] at hx ⊢
              rcases hx with hx | hx
              · rcases hsup x hx with hx | hx
                · exact Or.inl hx
                · exact Or.inr (Or.inl hx)
              · exact Or.inr (Or.inr hx))
        refine ⟨Or.inl rfl, fun _ => ⟨p1, by simpa using p3, d, rfl, ?_, ?_, ?_⟩⟩
        · rw [sd_mem_one _ (hA.trans hS.symm) hB]; exact Or.inr hmc
        · intro x hx
          rw [p2 x, sd_mem_one x (hA.trans hS.symm) hB] at hx
          rw [sd_mem_one x (hA.trans hS.symm) hB]
          rcases hx with hx | hx
          · exact Or.inl hx
          · exact Or.inr (hsub x hx)
        · intro x hx
          rw [p2 x, sd_mem_one x (hA.trans hS.symm) hB]
          rw [sd_mem_one x (hA.trans hS.symm) hB] at hx
          rcases hx with hx | hx
          · exact Or.inr (Or.inl hx)
          · rcases hsup x hx with hx | hx
            · exact Or.inl hx
            · exact Or.inr (Or.inr hx)
      · rw [if_pos hret]
        refine ⟨?_, fun hd => absurd hd hret⟩
        rcases ih.1 with h1 | h1
        · exact absurd h1 hret
        · exact Or.inr h1

end sddel1

end Spatial

namespace Spatial

section sddel0
variable {cfg : Config} {dims : Nat} {itemrect : α → List Int × List Int}

theorem sd_depthL_const (cs : List (Node α)) (h : Nat) (hne : cs ≠ [])
    (hall : ∀ c ∈ cs, depth c = h) : depthL cs = h := by
  induction cs with
  | nil => exact absurd rfl hne
  | cons c cs ih =>
    cases cs with
    | nil => simp [depthL, hall c (by simp)]
    | cons d ds =>
      have := ih (by simp) (fun x hx => hall x (by simp [hx]))
      rw [depthL, this, hall c (by simp)]
      simp

theorem sd_depth : ∀ (h : Nat) (n : Node α), STight cfg dims itemrect (h + 1) n →
    depth n = h + 1
  | 0, n, hs => by
    have := (sd_stight_leaf hs).1
    cases n; simp_all [depth]
  | h + 1, n, hs => by
    obtain ⟨hl, _, hc, _, _, hch⟩ := sd_stight_branch hs
    have ih : ∀ c ∈ n.children, depth c = h + 1 := fun c hc => sd_depth h c (hch c hc).2
    have hne : n.children ≠ [] := by
      intro h0; rw [h0] at hc; simp at hc
    have := sd_depthL_const n.children (h + 1) hne ih
    cases n; simp_all [depth]; omega

theorem sd_delete0_spec (cmp : α → α → Int) (act : DelAct) (key : α) (index : Nat)
    (root : Option (Node α)) (hinv : SInv cfg dims itemrect root) :
    ((delete0 cfg cmp dims itemrect root act key index).ret = Status.DELETED ∨
      (delete0 cfg cmp dims itemrect root act key index).ret = Status.NOTFOUND) ∧
    ((delete0 cfg cmp dims itemrect root act key index).ret = Status.DELETED →
      SInv cfg dims itemrect (delete0 cfg cmp dims itemrect root act key index).root ∧
      ∃ d, (delete0 cfg cmp dims itemrect root act key index).old = some d ∧
        d ∈ items_of root ∧
        (∀ x ∈ items_of (delete0 cfg cmp dims itemrect root act key index).root,
          x ∈ items_of root) ∧
        ∀ x ∈ items_of root,
          x = d ∨ x ∈ items_of (delete0 cfg cmp dims itemrect root act key index).root) := by
  have hmin := min_pos cfg
  cases root with
  | none => exact ⟨Or.inr rfl, fun h => by cases h⟩
  | some r =>
    obtain ⟨hm, h, hs⟩ := hinv
    have hd := sd_depth h r hs
    have ih := sd_delete1_spec cmp key h (depth r) r act index hs hm (by omega)
    unfold delete0
    simp only []
    generalize delete1 cfg cmp dims itemrect key (depth r) r act index = res at ih ⊢
    obtain ⟨ret, node, prev⟩ := res
    simp only []
    by_cases hret : ret = Status.DELETED
    · subst hret
      rw [if_neg (by simp)]
      obtain ⟨hn, _, d, hp, hmem, hsub, hsup⟩ := ih.2 rfl
      simp only at hn hp hsub hsup
      subst hp
      by_cases h0 : node.len = 0
      · rw [if_pos h0]
        refine ⟨Or.inl rfl, fun _ => ?_⟩
        simp only []
        have hi0 : node.items = [] := List.eq_nil_of_length_eq_zero h0
        cases h with
        | zero =>
          have hl := (sd_stight_leaf hn).1
          rw [if_pos hl]
          refine ⟨trivial, d, rfl, hmem, fun x hx => by simp [items_of] at hx, fun x hx => ?_⟩
          have := hsup x hx
          rw [sd_flat_leaf node hl, hi0] at this
          simpa [items_of] using this
        | succ h =>
          obtain ⟨hl, _, hc, _, _, hch⟩ := sd_stight_branch hn
          rw [if_neg (by rw [hl]; simp)]
          obtain ⟨c, hcs⟩ : ∃ c, node.children = [c] := by
            rw [hi0] at hc
            exact List.length_eq_one.1 (by simpa using hc)
          have hfl : flat node = flat c := by
            rw [sd_flat_branch node hl, hcs, hi0]
            simp [flatL]
          have hcw := hch c (by rw [hcs]; simp)
          rw [hcs]
          refine ⟨⟨by have := hcw.1; omega, h, hcw.2⟩, d, rfl, hmem, fun x hx => ?_,
            fun x hx => ?_⟩
          · exact hsub x (by rw [hfl]; exact hx)
          · have := hsup x hx
            rw [hfl] at this
            exact this
      · rw [if_neg h0]
        refine ⟨Or.inl rfl, fun _ => ⟨⟨by
          have : node.len = node.items.length := rfl
          omega, h, hn⟩, d, rfl, hmem, hsub, hsup⟩⟩
    · rw [if_pos hret]
      refine ⟨?_, fun hd2 => absurd hd2 hret⟩
      rcases ih.1 with h1 | h1
      · exact absurd h1 hret
      · exact Or.inr h1

theorem sd_copy_spare (t : TreeRes α) :
    (copy_spare t).ret = t.ret ∧ (copy_spare t).root = t.root ∧
      (t.ret = Status.DELETED → (copy_spare t).old = t.old) := by
  unfold copy_spare
  by_cases h : t.ret = Status.DELETED
  · rw [if_pos h]; exact ⟨rfl, rfl, fun _ => rfl⟩
  · rw [if_neg h]; exact ⟨rfl, rfl, fun h2 => absurd h2 h⟩

end sddel0

end Spatial

namespace Spatial

theorem treeT_sinv : SInv cfgS 1 lineW (some treeT) := by
  refine ⟨by decide, 1, ?_⟩
  refine sd_stight_mk_branch rfl (by decide) rfl rfl ?_ ?_
  · simp [TightL, IsBox, treeT, leafS, flat, item_rect, lineW, Rect.lo, Rect.hi]
  · intro c hc
    simp only [treeT, sd_children_mk, List.mem_cons, List.mem_singleton, List.not_mem_nil,
      or_false] at hc
    rcases hc with rfl | rfl
    · exact ⟨by decide, sd_stight_mk_leaf rfl (by decide)⟩
    · exact ⟨by decide, sd_stight_mk_leaf rfl (by decide)⟩

/-- C32: on a spatial build, for every tree that is well shaped and whose
stored rectangles are tight covers at every branch (`SInv`), each of `delete`,
`delete_at`, `pop_front` and `pop_back` returns `DELETED` or `NOTFOUND`, and
after `DELETED` the tree is again well shaped with every branch slot's
rectangle the tight cover of the items of its child subtree and of its
separator; the value written through the output parameter is an item `d` of
the old tree, and the new tree holds the old items without `d`.  The code
computes the rectangle of a slot on the path anew only when a maximum was
popped (`BGEN_POPMAX`) or the rectangle of the removed item touches an edge of
the stored rectangle (`delete1_recalc`), and `rebalance` computes the two slots
it touches anew. -/
theorem delete_keeps_rects_tight (cfg : Config) (cmp : α → α → Int) (dims : Nat)
    (itemrect : α → List Int × List Int) (root : Option (Node α)) (key : α) (index : Nat)
    (hinv : SInv cfg dims itemrect root) :
    ∀ t ∈ [delete cfg cmp dims itemrect root key,
        delete_at cfg cmp dims itemrect root index key,
        pop_front cfg cmp dims itemrect root key,
        pop_back cfg cmp dims itemrect root key],
      (t.ret = Status.DELETED ∨ t.ret = Status.NOTFOUND) ∧
      (t.ret = Status.DELETED →
        SInv cfg dims itemrect t.root ∧
        ∃ d, t.old = some d ∧ d ∈ items_of root ∧
          (∀ x ∈ items_of t.root, x ∈ items_of root) ∧
          ∀ x ∈ items_of root, x = d ∨ x ∈ items_of t.root) := by
  have key0 : ∀ (act : DelAct) (idx : Nat),
      ((copy_spare (delete0 cfg cmp dims itemrect root act key idx)).ret = Status.DELETED ∨
        (copy_spare (delete0 cfg cmp dims itemrect root act key idx)).ret = Status.NOTFOUND) ∧
      ((copy_spare (delete0 cfg cmp dims itemrect root act key idx)).ret = Status.DELETED →
        SInv cfg dims itemrect (copy_spare (delete0 cfg cmp dims itemrect root act key idx)).root ∧
        ∃ d, (copy_spare (delete0 cfg cmp dims itemrect root act key idx)).old = some d ∧
          d ∈ items_of root ∧
          (∀ x ∈ items_of (copy_spare (delete0 cfg cmp dims itemrect root act key idx)).root,
            x ∈ items_of root) ∧
          ∀ x ∈ items_of root,
            x = d ∨ x ∈ items_of (copy_spare (delete0 cfg cmp dims itemrect root act key idx)).root)
      := by
    intro act idx
    obtain ⟨c1, c2, c3⟩ := sd_copy_spare (delete0 cfg cmp dims itemrect root act key idx)
    obtain ⟨d1, d2⟩ := sd_delete0_spec cmp act key idx root hinv
    rw [c1, c2]
    refine ⟨d1, fun hd => ?_⟩
    rw [c3 hd]
    exact d2 hd
  intro t ht
  simp only [List.mem_cons, List.mem_singleton, List.not_mem_nil, or_false] at ht
  rcases ht with rfl | rfl | rfl | rfl
  · exact key0 DelAct.DELKEY 0
  · exact key0 DelAct.DELAT index
  · exact key0 DelAct.POPFRONT 0
  · exact key0 DelAct.POPBACK 0

theorem delete_keeps_rects_tight_witness :
    SInv cfgS 1 lineW (some treeT) ∧
      (delete cfgS icmp 1 lineW (some treeT) 35).ret = Status.DELETED ∧
      SInv cfgS 1 lineW (delete cfgS icmp 1 lineW (some treeT) 35).root ∧
      (pop_front cfgS icmp 1 lineW (some treeT) 0).ret = Status.DELETED ∧
      SInv cfgS 1 lineW (pop_front cfgS icmp 1 lineW (some treeT) 0).root :=
  ⟨treeT_sinv, by decide,
    ((delete_keeps_rects_tight cfgS icmp 1 lineW (some treeT) 35 0 treeT_sinv _
      (List.mem_cons_self _ _)).2 (by decide)).1,
    by decide,
    ((delete_keeps_rects_tight cfgS icmp 1 lineW (some treeT) 0 0 treeT_sinv _
      (List.mem_cons_of_mem _ (List.mem_cons_of_mem _ (List.mem_cons_self _ _)))).2
        (by decide)).1⟩

end Spatial

section rebalancedetail
variable {cfg : Config}

theorem rebalance_at_detail {y l r : Node α} {A B : List (Node α)} {S T : List α} {sep : α}
    {i h : Nat} (hb : BranchOf cfg y (h + 2) (S ++ sep :: T) (A ++ l :: r :: B))
    (hA : A.length = i) (hS : S.length = i) (hBT : B.length = T.length)
    (hlw : WF cfg (h + 1) l) (hrw : WF cfg (h + 1) r)
    (hdef : (l.items.length + 1 = MINITEMS cfg ∧ MINITEMS cfg ≤ r.items.length) ∨
      (r.items.length + 1 = MINITEMS cfg ∧ MINITEMS cfg ≤ l.items.length)) :
    (l.items.length + r.items.length < MAXITEMS cfg →
      ∃ m, (rebalance_at cfg y i).items = S ++ T ∧
        (rebalance_at cfg y i).children = A ++ m :: B ∧
        m.items.length = l.items.length + 1 + r.items.length) ∧
    (MAXITEMS cfg ≤ l.items.length + r.items.length →
      ∃ l1 r1 s1, (rebalance_at cfg y i).items = S ++ s1 :: T ∧
        (rebalance_at cfg y i).children = A ++ l1 :: r1 :: B ∧
        l1.items.length + r1.items.length = l.items.length + r.items.length ∧
        MINITEMS cfg ≤ l1.items.length ∧ l1.items.length ≤ MAXITEMS cfg ∧
        MINITEMS cfg ≤ r1.items.length ∧ r1.items.length ≤ MAXITEMS cfg ∧
        (l.items.length < r.items.length → l.items.length < l1.items.length) ∧
        (r.items.length ≤ l.items.length → r.items.length < r1.items.length)) := by
  have hmax := max_eq cfg
  have hmin := min_pos cfg
  have hll := wf_len_le hlw
  have hrl := wf_len_le hrw
  unfold rebalance_at
  rw [hb.child hA, hb.child1 hA]
  by_cases hsum : l.len + r.len < MAXITEMS cfg
  · rw [if_pos hsum]
    refine ⟨fun _ => ?_, fun h2 => absurd hsum (by
      have : l.len = l.items.length := rfl
      have : r.len = r.items.length := rfl
      omega)⟩
    obtain ⟨m, hb1, _, _, hml⟩ := merge_children_spec hb hA hS hBT hlw hrw hsum
    exact ⟨m, hb1.items_eq, hb1.children_eq, hml⟩
  rw [if_neg hsum]
  have hsum2 : MAXITEMS cfg ≤ l.items.length + r.items.length := Nat.le_of_not_lt hsum
  refine ⟨fun h1 => absurd h1 (by omega), fun _ => ?_⟩
  cases h with
  | zero =>
    rw [if_pos (wf_leaf hlw).1]
    by_cases hlt : l.len < r.len
    · rw [if_pos hlt]
      have hlt1 : l.items.length < r.items.length := hlt
      obtain ⟨k, hk⟩ : ∃ k, give_n true r.len l.len = k + 1 :=
        ⟨(r.items.length - l.items.length) / 2 - 1, by
          show (r.items.length - l.items.length) / 2 = _
          omega⟩
      have hkv : k + 1 = (r.items.length - l.items.length) / 2 := hk.symm
      obtain ⟨lf1, c1, newsep, hb1, hw1, hw2, hf, hl1, hl2⟩ :=
        give_left_leaf hb hA hS hlw hrw true hk (by omega) (by omega)
      have hb2 := recount_spec hb1.height_eq hb1.isleaf_eq hb1.items_eq hb1.children_eq
        (fun hc => ⟨(flat lf1).length, (flat c1).length, by rw [hb1.counts_eq hc]; simp⟩) hA hw1 hw2
      exact ⟨lf1, c1, newsep, hb2.items_eq, hb2.children_eq, by omega, by omega, by omega,
        by omega, by omega, fun _ => by omega, fun _ => by omega⟩
    · rw [if_neg hlt]
      have hlt1 : ¬ l.items.length < r.items.length := hlt
      obtain ⟨k, hk⟩ : ∃ k, give_n true l.len r.len = k + 1 :=
        ⟨(l.items.length - r.items.length) / 2 - 1, by
          show (l.items.length - r.items.length) / 2 = _
          omega⟩
      have hkv : k + 1 = (l.items.length - r.items.length) / 2 := hk.symm
      obtain ⟨lf1, c1, newsep, hb1, hw1, hw2, hf, hl1, hl2⟩ :=
        give_right_leaf hb hA hS hlw hrw true hk (by omega) (by omega)
      have hb2 := recount_spec hb1.height_eq hb1.isleaf_eq hb1.items_eq hb1.children_eq
        (fun hc => ⟨(flat lf1).length, (flat c1).length, by rw [hb1.counts_eq hc]; simp⟩) hA hw1 hw2
      exact ⟨lf1, c1, newsep, hb2.items_eq, hb2.children_eq, by omega, by omega, by omega,
        by omega, by omega, fun _ => by omega, fun _ => by omega⟩
  | succ h =>
    rw [if_neg (by rw [(wf_branch hlw).1]; simp)]
    by_cases hlt : l.len < r.len
    · rw [if_pos hlt]
      have hlt1 : l.items.length < r.items.length := hlt
      obtain ⟨l1, r1, s1, hb1, hw1, hw2, hf, hl1, hl2⟩ :=
        rotate_left_spec hb hA hS hlw hrw (by omega) (by omega)
      exact ⟨l1, r1, s1, hb1.items_eq, hb1.children_eq, by omega, by omega, by omega,
        by omega, by omega, fun _ => by omega, fun _ => by omega⟩
    · rw [if_neg hlt]
      have hlt1 : ¬ l.items.length < r.items.length := hlt
      obtain ⟨l1, r1, s1, hb1, hw1, hw2, hf, hl1, hl2⟩ :=
        rotate_right_spec hb hA hS hlw hrw (by omega) (by omega)
      exact ⟨l1, r1, s1, hb1.items_eq, hb1.children_eq, by omega, by omega, by omega,
        by omega, by omega, fun _ => by omega, fun _ => by omega⟩

end rebalancedetail

section rebalancedetail2
variable {cfg : Config}

theorem child_of_children {n : Node α} {A B : List (Node α)} {c : Node α} {i : Nat}
    (h : n.children = A ++ c :: B) (hA : A.length = i) : n.child i = c := by
  unfold Node.child; rw [h]; exact app_getD hA

theorem child1_of_children {n : Node α} {A B : List (Node α)} {c d : Node α} {i : Nat}
    (h : n.children = A ++ c :: d :: B) (hA : A.length = i) : n.child (i + 1) = d := by
  unfold Node.child; rw [h]; exact app_getD1 hA

theorem rebalance_pair_detail {y l r : Node α} {A B : List (Node α)} {S T : List α} {sep : α}
    {i h : Nat} (hb : BranchOf cfg y (h + 2) (S ++ sep :: T) (A ++ l :: r :: B))
    (hA : A.length = i) (hS : S.length = i) (hBT : B.length = T.length)
    (hlw : WF cfg (h + 1) l) (hrw : WF cfg (h + 1) r)
    (hdef : (l.items.length + 1 = MINITEMS cfg ∧ MINITEMS cfg ≤ r.items.length) ∨
      (r.items.length + 1 = MINITEMS cfg ∧ MINITEMS cfg ≤ l.items.length)) :
    ((y.child i).len + (y.child (i + 1)).len < MAXITEMS cfg →
      (rebalance_at cfg y i).items.length + 1 = y.items.length ∧
      ((rebalance_at cfg y i).child i).len = (y.child i).len + 1 + (y.child (i + 1)).len) ∧
    (MAXITEMS cfg ≤ (y.child i).len + (y.child (i + 1)).len →
      (rebalance_at cfg y i).items.length = y.items.length ∧
      ((rebalance_at cfg y i).child i).len + ((rebalance_at cfg y i).child (i + 1)).len =
        (y.child i).len + (y.child (i + 1)).len ∧
      MINITEMS cfg ≤ ((rebalance_at cfg y i).child i).len ∧
      ((rebalance_at cfg y i).child i).len ≤ MAXITEMS cfg ∧
      MINITEMS cfg ≤ ((rebalance_at cfg y i).child (i + 1)).len ∧
      ((rebalance_at cfg y i).child (i + 1)).len ≤ MAXITEMS cfg ∧
      ((y.child i).len < (y.child (i + 1)).len →
        (y.child i).len < ((rebalance_at cfg y i).child i).len) ∧
      ((y.child (i + 1)).len ≤ (y.child i).len →
        (y.child (i + 1)).len < ((rebalance_at cfg y i).child (i + 1)).len)) := by
  obtain ⟨d1, d2⟩ := rebalance_at_detail hb hA hS hBT hlw hrw hdef
  rw [hb.child hA, hb.child1 hA]
  have hyl : y.items.length = (S ++ sep :: T).length := by rw [hb.items_eq]
  refine ⟨fun h1 => ?_, fun h1 => ?_⟩
  · obtain ⟨m, e1, e2, e3⟩ := d1 h1
    rw [child_of_children e2 hA, e1, hyl]
    exact ⟨by simp; omega, e3⟩
  · obtain ⟨l1, r1, s1, e1, e2, e3, e4, e5, e6, e7, e8, e9⟩ := d2 h1
    rw [child_of_children e2 hA, child1_of_children e2 hA, e1, hyl]
    exact ⟨by simp, e3, e4, e5, e6, e7, e8, e9⟩

theorem rebalance_detail {y c1 : Node α} {A B : List (Node α)} {S T : List α}
    {i h : Nat} (hb : BranchOf cfg y (h + 2) (S ++ T) (A ++ c1 :: B))
    (hA : A.length = i) (hS : S.length = i) (hBT : B.length = T.length)
    (hpos : 1 ≤ (S ++ T).length)
    (hAw : ∀ x ∈ A, MINITEMS cfg ≤ x.items.length ∧ WF cfg (h + 1) x)
    (hBw : ∀ x ∈ B, MINITEMS cfg ≤ x.items.length ∧ WF cfg (h + 1) x)
    (hcw : WF cfg (h + 1) c1) (hdef : c1.items.length + 1 = MINITEMS cfg) :
    ((y.child (rebalance_index y i)).len + (y.child (rebalance_index y i + 1)).len
        < MAXITEMS cfg →
      (rebalance cfg y i).items.length + 1 = y.items.length ∧
      ((rebalance cfg y i).child (rebalance_index y i)).len =
        (y.child (rebalance_index y i)).len + 1 + (y.child (rebalance_index y i + 1)).len) ∧
    (MAXITEMS cfg ≤ (y.child (rebalance_index y i)).len + (y.child (rebalance_index y i + 1)).len →
      (rebalance cfg y i).items.length = y.items.length ∧
      ((rebalance cfg y i).child (rebalance_index y i)).len +
          ((rebalance cfg y i).child (rebalance_index y i + 1)).len =
        (y.child (rebalance_index y i)).len + (y.child (rebalance_index y i + 1)).len ∧
      MINITEMS cfg ≤ ((rebalance cfg y i).child (rebalance_index y i)).len ∧
      ((rebalance cfg y i).child (rebalance_index y i)).len ≤ MAXITEMS cfg ∧
      MINITEMS cfg ≤ ((rebalance cfg y i).child (rebalance_index y i + 1)).len ∧
      ((rebalance cfg y i).child (rebalance_index y i + 1)).len ≤ MAXITEMS cfg ∧
      ((y.child (rebalance_index y i)).len < (y.child (rebalance_index y i + 1)).len →
        (y.child (rebalance_index y i)).len <
          ((rebalance cfg y i).child (rebalance_index y i)).len) ∧
      ((y.child (rebalance_index y i + 1)).len ≤ (y.child (rebalance_index y i)).len →
        (y.child (rebalance_index y i + 1)).len <
          ((rebalance cfg y i).child (rebalance_index y i + 1)).len)) := by
  have hyl : y.len = (S ++ T).length := by show y.items.length = _; rw [hb.items_eq]
  unfold rebalance rebalance_index
  by_cases hi : i = y.len
  · rw [if_pos hi]
    have hT : T = [] := List.eq_nil_of_length_eq_zero (by
      rw [hyl] at hi; simp at hi; omega)
    subst hT
    have hB : B = [] := List.eq_nil_of_length_eq_zero (by simpa using hBT)
    subst hB
    obtain ⟨A1, l, rfl⟩ : ∃ A1 l, A = A1 ++ [l] := by
      rcases List.eq_nil_or_concat A with e | ⟨L, b, e⟩
      · subst e
        simp at hA hpos
        omega
      · exact ⟨L, b, by rw [e, List.concat_eq_append]⟩
    obtain ⟨S1, sep, rfl⟩ : ∃ S1 sep, S = S1 ++ [sep] := by
      rcases List.eq_nil_or_concat S with e | ⟨L, b, e⟩
      · subst e; simp at hpos
      · exact ⟨L, b, by rw [e, List.concat_eq_append]⟩
    have hA1 : A1.length = i - 1 := by simp at hA; omega
    have hS1 : S1.length = i - 1 := by simp at hS; omega
    have hb0 : BranchOf cfg y (h + 2) (S1 ++ sep :: []) (A1 ++ l :: c1 :: []) := by
      simpa using hb
    have hlw := hAw l (by simp)
    exact rebalance_pair_detail hb0 hA1 hS1 rfl hlw.2 hcw (Or.inr ⟨hdef, hlw.1⟩)
  · rw [if_neg hi]
    obtain ⟨sep, T1, rfl⟩ : ∃ sep T1, T = sep :: T1 := by
      cases T with
      | nil => rw [hyl] at hi; simp at hi; omega
      | cons a t => exact ⟨a, t, rfl⟩
    obtain ⟨r, B1, rfl⟩ : ∃ r B1, B = r :: B1 := by
      cases B with
      | nil => simp at hBT
      | cons a t => exact ⟨a, t, rfl⟩
    have hrw := hBw r (by simp)
    exact rebalance_pair_detail hb hA hS (by simpa using hBT) hcw hrw.2 (Or.inl ⟨hdef, hrw.1⟩)

end rebalancedetail2

/-- C37: `rebalance(parent, i)` on a parent whose child `i` is one item short of
`MINITEMS` while all other children hold at least `MINITEMS` items.  With the
pair `(j, j + 1)` of children that `rebalance` works on (`j = rebalance_index`):
the parent is well shaped again (every child holds between `MINITEMS` and
`MAXITEMS` items, and on a counted tree every count is the size of its child),
the in-order item sequence of the parent's subtree is unchanged, the pair is
merged (the parent loses one item, the merged child holds both children and
the separator) when `left.len + right.len < MAXITEMS`, and otherwise the parent
keeps its length, the two children keep their total and the shorter one gains
items from the fuller one.  On the spatial build the parent is well shaped
again with the stored rectangle of every slot, the two touched ones included,
the tight cover of its child subtree and separator, and its subtree holds the
same items. -/
theorem rebalance_restores_pair (cfg : Config) (dims : Nat)
    (itemrect : α → List Int × List Int)
    (y c1 : Node α) (A B : List (Node α)) (S T : List α) (i h : Nat)
    (hb : BranchOf cfg y (h + 2) (S ++ T) (A ++ c1 :: B))
    (hA : A.length = i) (hS : S.length = i) (hBT : B.length = T.length)
    (hlen : (S ++ T).length ≤ MAXITEMS cfg) (hpos : 1 ≤ (S ++ T).length)
    (hAw : ∀ x ∈ A, MINITEMS cfg ≤ x.items.length ∧ WF cfg (h + 1) x)
    (hBw : ∀ x ∈ B, MINITEMS cfg ≤ x.items.length ∧ WF cfg (h + 1) x)
    (hcw : WF cfg (h + 1) c1) (hdef : c1.items.length + 1 = MINITEMS cfg)
    (ht : Nat) (sc : Spatial.Node α) (sA sB : List (Spatial.Node α))
    (RA RB : List Spatial.Rect) (rc : Spatial.Rect)
    (gA : sA.length = i) (gRA : RA.length = i) (gB : sB.length = T.length)
    (gRB : RB.length = T.length)
    (gAt : Spatial.TightL dims itemrect sA RA S)
    (gBt : Spatial.TightL dims itemrect sB RB T.tail)
    (gAw : ∀ c ∈ sA, MINITEMS cfg ≤ c.items.length ∧ Spatial.STight cfg dims itemrect (h + 1) c)
    (gBw : ∀ c ∈ sB, MINITEMS cfg ≤ c.items.length ∧ Spatial.STight cfg dims itemrect (h + 1) c)
    (gc : Spatial.STight cfg dims itemrect (h + 1) sc)
    (gdef : sc.items.length + 1 = MINITEMS cfg) :
    (WF cfg (h + 2) (rebalance cfg y i) ∧ flat (rebalance cfg y i) = flat y ∧
      (cfg.counted = true →
        (rebalance cfg y i).counts =
          (rebalance cfg y i).children.map (fun c => (flat c).length)) ∧
      ((y.child (rebalance_index y i)).len + (y.child (rebalance_index y i + 1)).len
          < MAXITEMS cfg →
        (rebalance cfg y i).items.length + 1 = y.items.length ∧
        ((rebalance cfg y i).child (rebalance_index y i)).len =
          (y.child (rebalance_index y i)).len + 1 + (y.child (rebalance_index y i + 1)).len) ∧
      (MAXITEMS cfg ≤
          (y.child (rebalance_index y i)).len + (y.child (rebalance_index y i + 1)).len →
        (rebalance cfg y i).items.length = y.items.length ∧
        ((rebalance cfg y i).child (rebalance_index y i)).len +
            ((rebalance cfg y i).child (rebalance_index y i + 1)).len =
          (y.child (rebalance_index y i)).len + (y.child (rebalance_index y i + 1)).len ∧
        MINITEMS cfg ≤ ((rebalance cfg y i).child (rebalance_index y i)).len ∧
        ((rebalance cfg y i).child (rebalance_index y i)).len ≤ MAXITEMS cfg ∧
        MINITEMS cfg ≤ ((rebalance cfg y i).child (rebalance_index y i + 1)).len ∧
        ((rebalance cfg y i).child (rebalance_index y i + 1)).len ≤ MAXITEMS cfg ∧
        ((y.child (rebalance_index y i)).len < (y.child (rebalance_index y i + 1)).len →
          (y.child (rebalance_index y i)).len <
            ((rebalance cfg y i).child (rebalance_index y i)).len) ∧
        ((y.child (rebalance_index y i + 1)).len ≤ (y.child (rebalance_index y i)).len →
          (y.child (rebalance_index y i + 1)).len <
            ((rebalance cfg y i).child (rebalance_index y i + 1)).len))) ∧
    (Spatial.STight cfg dims itemrect (h + 2)
        (Spatial.rebalance cfg dims itemrect
          (Spatial.Node.mk (S ++ T) ht false (sA ++ sc :: sB) (RA ++ rc :: RB)) i) ∧
      ∀ x, x ∈ Spatial.flat (Spatial.rebalance cfg dims itemrect
          (Spatial.Node.mk (S ++ T) ht false (sA ++ sc :: sB) (RA ++ rc :: RB)) i) ↔
        x ∈ Spatial.flat (Spatial.Node.mk (S ++ T) ht false (sA ++ sc :: sB) (RA ++ rc :: RB))) := by
  obtain ⟨w1, w2, _⟩ := rebalance_spec hb hA hS hBT hlen hpos hAw hBw hcw hdef
  obtain ⟨d1, d2⟩ := rebalance_detail hb hA hS hBT hpos hAw hBw hcw hdef
  obtain ⟨s1, s2, _⟩ := @Spatial.sd_rebalance_spec α cfg dims itemrect h i ht sA sB RA RB S T sc rc
    gA hS gRA gB gRB hlen hpos gAt gBt gAw gBw gc gdef
  exact ⟨⟨w1, w2, (wf_branch w1).2.2.2.2.1, d1, d2⟩, s1, s2⟩

theorem rebalance_restores_pair_witness :
    WF cfgW 2 (rebalance cfgW treeR 0) ∧ flat (rebalance cfgW treeR 0) = [20, 30, 40, 50] ∧
      ((rebalance cfgW treeR 0).child 0).items = [20] ∧
      (rebalance cfgW treeR 0).items = [30] ∧
      ((rebalance cfgW treeR 0).child 1).items = [40, 50] ∧
      Spatial.STight cfgW 1 Spatial.lineW 2 (Spatial.rebalance cfgW 1 Spatial.lineW
        Spatial.treeRS 0) ∧
      (Spatial.rebalance cfgW 1 Spatial.lineW Spatial.treeRS 0).rects =
        [Spatial.Rect.mk [20] [30], Spatial.Rect.mk [40] [50]] :=
  have hw : ∀ l : List Int, l.length ≤ 3 → WF cfgW 1 (leafW l) := fun l hl => by
    simp only [WF, leafW]
    exact ⟨rfl, hl, by simp, by simp⟩
  have hs : ∀ l : List Int, l.length ≤ 3 →
      Spatial.STight cfgW 1 Spatial.lineW 1 (Spatial.leafS l) := fun l hl =>
    Spatial.sd_stight_mk_leaf rfl hl
  have key := rebalance_restores_pair cfgW 1 Spatial.lineW treeR (leafW []) []
    [leafW [30, 40, 50]] [] [20] 0 0 ⟨rfl, rfl, rfl, rfl, fun _ => rfl⟩ rfl rfl rfl
    (by decide) (by decide) (by simp)
    (fun x hx => by
      rw [List.mem_singleton.1 hx]
      exact ⟨by decide, hw _ (by decide)⟩)
    (hw _ (by decide)) (by decide)
    2 (Spatial.leafS []) [] [Spatial.leafS [30, 40, 50]] [] [Spatial.Rect.mk [30] [50]]
    (Spatial.Rect.mk [10] [20]) rfl rfl rfl rfl (by simp [Spatial.TightL])
    (by simp [Spatial.TightL, Spatial.IsBox, Spatial.leafS, Spatial.flat, Spatial.item_rect,
      Spatial.lineW, Spatial.Rect.lo, Spatial.Rect.hi])
    (by simp)
    (fun x hx => by
      rw [List.mem_singleton.1 hx]
      exact ⟨by decide, hs _ (by decide)⟩)
    (hs _ (by decide)) (by decide)
  ⟨key.1.1, key.1.2.1.trans (by decide), by decide, by decide, by decide, key.2.1, by decide⟩

namespace Spatial

section spsane
variable {cfg : Config} {cmp : α → α → Int} {dims : Nat} {itemrect : α → List Int × List Int}

theorem fg_forgetL (cs : List (Node α)) : forgetL cs = cs.map forget := by
  induction cs with
  | nil => rfl
  | cons c cs ih => simp [forgetL, ih]

@[simp] theorem fg_items (n : Node α) : (forget n).items = n.items := by
  cases n; rfl

@[simp] theorem fg_height (n : Node α) : (forget n).height = n.height := by
  cases n; rfl

@[simp] theorem fg_isleaf (n : Node α) : (forget n).isleaf = n.isleaf := by
  cases n; rfl

@[simp] theorem fg_children (n : Node α) : (forget n).children = n.children.map forget := by
  cases n; simp [forget, fg_forgetL]

@[simp] theorem fg_counts (n : Node α) : (forget n).counts = [] := by
  cases n; rfl

@[simp] theorem fg_len (n : Node α) : (forget n).len = n.len := by
  cases n; rfl

theorem fg_mk (n : Node α) :
    forget n = Bgen.Node.mk n.items n.height n.isleaf (n.children.map forget) [] := by
  cases n; simp [forget, fg_forgetL]

mutual
theorem fg_deepheight : ∀ (n : Node α), Bgen.deepheight (forget n) = deepheight n
  | Node.mk items height isleaf children rects => by
    simp only [forget, Bgen.deepheight, deepheight]
    rw [fg_deepheightL children]
theorem fg_deepheightL : ∀ (cs : List (Node α)),
    Bgen.deepheightL (forgetL cs) = deepheightL cs
  | [] => rfl
  | c :: cs => by
    simp only [forgetL, Bgen.deepheightL, deepheightL]
    exact fg_deepheight c
end

mutual
theorem fg_flat : ∀ (n : Node α), Bgen.flat (forget n) = flat n
  | Node.mk items height isleaf children rects => by
    simp only [forget, Bgen.flat, flat]
    rw [fg_flatL children items]
theorem fg_flatL : ∀ (cs : List (Node α)) (ss : List α),
    Bgen.flatL (forgetL cs) ss = flatL cs ss
  | [], _ => by simp [forgetL, Bgen.flatL, flatL]
  | c :: _, [] => by
    simp only [forgetL, Bgen.flatL, flatL]
    exact fg_flat c
  | c :: cs, s :: ss => by
    simp only [forgetL, Bgen.flatL, flatL]
    rw [fg_flat c, fg_flatL cs ss]
end

theorem fg_seps : ∀ (cs : List (Node α)) (xs : List α),
    Bgen.seps_ordered cfg cmp (forgetL cs) xs = seps_ordered cfg cmp cs xs
  | [], _ => by simp [forgetL, Bgen.seps_ordered, seps_ordered]
  | [_], _ => by simp [forgetL, Bgen.seps_ordered, seps_ordered]
  | _ :: _ :: _, [] => by simp [forgetL, Bgen.seps_ordered, seps_ordered]
  | c0 :: c1 :: cs, x :: xs => by
    have ih := fg_seps (c1 :: cs) xs
    simp only [forgetL] at ih
    simp only [forgetL, Bgen.seps_ordered, seps_ordered, fg_len, fg_items, ih]

mutual
theorem fg_subnodes : ∀ (n : Node α), Bgen.subnodes (forget n) = (subnodes n).map forget
  | Node.mk items height isleaf children rects => by
    simp only [forget, Bgen.subnodes, subnodes, List.map_cons]
    rw [fg_subnodesL children (items.length + 1)]
    cases isleaf <;> simp
theorem fg_subnodesL : ∀ (cs : List (Node α)) (n : Nat),
    Bgen.subnodesL (forgetL cs) n = (subnodesL cs n).map forget
  | _, 0 => by simp [Bgen.subnodesL, subnodesL]
  | [], _ + 1 => by simp [forgetL, Bgen.subnodesL, subnodesL]
  | c :: cs, n + 1 => by
    simp only [forgetL, Bgen.subnodesL, subnodesL, List.map_append]
    rw [fg_subnodes c, fg_subnodesL cs n]
end

theorem sp_recteq_iff (a b : Rect) :
    recteq dims a b = true ↔ ∀ k, k < dims → a.lo k = b.lo k ∧ a.hi k = b.hi k := by
  unfold recteq
  rw [List.all_eq_true]
  constructor
  · intro h k hk
    have := h k (List.mem_range.2 hk)
    simp only [feq, Bool.and_eq_true, Bool.not_eq_true', Bool.or_eq_false_iff,
      decide_eq_false_iff_not, not_lt] at this
    omega
  · intro h k hk
    have := h k (List.mem_range.1 hk)
    simp only [feq, Bool.and_eq_true, Bool.not_eq_true', Bool.or_eq_false_iff,
      decide_eq_false_iff_not, not_lt]
    omega

/-- The rectangle that the loop of `sane0` computes for slot `i` of the child
array `cs` with the separators `xs`. -/
theorem sp_slot_mk (items : List α) (ht : Nat) (lf : Bool) (children : List (Node α))
    (rects : List Rect) (i : Nat) :
    slot_rect cfg dims itemrect (Node.mk items ht lf children rects) i =
      (match items[i]? with
        | some s => rect_join dims
            (deeprect cfg dims itemrect (children.getD i (Node.mk [] 0 true [] [])))
            (item_rect dims itemrect s)
        | none => deeprect cfg dims itemrect (children.getD i (Node.mk [] 0 true [] []))) := rfl

mutual
theorem sp_sane0_fwd (hc : cfg.counted = false) : ∀ (n : Node α) (d : Nat),
    sane0 cfg cmp dims itemrect n d = true →
    Bgen.sane0 cfg cmp (forget n) d = true ∧
      ∀ x ∈ subnodes n, RectChecked cfg dims itemrect x
  | Node.mk items height isleaf children rects, d, h => by
    rw [sane0] at h
    rw [forget, Bgen.sane0]
    have e1 := fg_deepheight (Node.mk items height isleaf children rects)
    rw [forget] at e1
    rw [e1, fg_seps]
    cases isleaf with
    | true =>
      simp only [Bool.or_true, Bool.and_true, Bool.true_or] at h ⊢
      refine ⟨h, fun x hx => ?_⟩
      simp only [subnodes, if_true, List.mem_singleton] at hx
      subst hx
      intro hl
      cases hl
    | false =>
      simp only [Bool.false_or, Bool.and_eq_true] at h ⊢
      obtain ⟨h1, h2, h3⟩ := h
      obtain ⟨k1, k2, k3⟩ := sp_sane0L_fwd hc children rects items (items.length + 1) (d + 1) h3
      refine ⟨⟨h1, h2, k1⟩, fun x hx => ?_⟩
      simp only [subnodes, Bool.false_eq_true, if_false, List.mem_cons] at hx
      rcases hx with rfl | hx
      · intro _ i hi k hk
        rw [sp_slot_mk]
        have := k3 i (by simp only [Node.len, sd_items_mk] at hi; omega) k hk
        simpa [Node.rect] using this
      · exact k2 x hx
theorem sp_sane0L_fwd (hc : cfg.counted = false) :
    ∀ (cs : List (Node α)) (rs : List Rect) (xs : List α) (n d : Nat),
    sane0L cfg cmp dims itemrect cs rs xs n d = true →
    Bgen.sane0L cfg cmp (forgetL cs) [] n d = true ∧
      (∀ x ∈ subnodesL cs n, RectChecked cfg dims itemrect x) ∧
      ∀ i, i < n → ∀ k, k < dims →
        (rs.getD i (Rect.mk [] [])).lo k =
          (match xs[i]? with
            | some s => rect_join dims
                (deeprect cfg dims itemrect (cs.getD i (Node.mk [] 0 true [] [])))
                (item_rect dims itemrect s)
            | none => deeprect cfg dims itemrect (cs.getD i (Node.mk [] 0 true [] []))).lo k ∧
        (rs.getD i (Rect.mk [] [])).hi k =
          (match xs[i]? with
            | some s => rect_join dims
                (deeprect cfg dims itemrect (cs.getD i (Node.mk [] 0 true [] [])))
                (item_rect dims itemrect s)
            | none => deeprect cfg dims itemrect (cs.getD i (Node.mk [] 0 true [] []))).hi k
  | _, _, _, 0, _, _ => ⟨by simp [Bgen.sane0L], fun x hx => by simp [subnodesL] at hx,
      fun i hi => absurd hi (Nat.not_lt_zero _)⟩
  | [], _, _, _ + 1, _, h => by simp [sane0L] at h
  | c :: cs, rs, xs, n + 1, d, h => by
    rw [sane0L] at h
    simp only [Bool.and_eq_true] at h
    obtain ⟨⟨h1, h2⟩, h3⟩ := h
    obtain ⟨a1, a2⟩ := sp_sane0_fwd hc c d h2
    obtain ⟨b1, b2, b3⟩ := sp_sane0L_fwd hc cs rs.tail xs.tail n d h3
    rw [sp_recteq_iff] at h1
    refine ⟨?_, fun x hx => ?_, fun i hi k hk => ?_⟩
    · rw [forgetL, Bgen.sane0L, a1]
      simp only [List.tail_nil] at b1 ⊢
      rw [b1, hc]
      rfl
    · simp only [subnodesL, List.mem_append] at hx
      rcases hx with hx | hx
      · exact a2 x hx
      · exact b2 x hx
    · cases i with
      | zero =>
        have := h1 k hk
        cases rs <;> cases xs <;> simpa using this
      | succ j =>
        have := b3 j (by omega) k hk
        cases rs <;> cases xs <;> simpa using this
end

mutual
theorem sp_sane0_bwd : ∀ (n : Node α) (d : Nat),
    Bgen.sane0 cfg cmp (forget n) d = true →
    (∀ x ∈ subnodes n, RectChecked cfg dims itemrect x) →
    sane0 cfg cmp dims itemrect n d = true
  | Node.mk items height isleaf children rects, d, h, hr => by
    rw [forget, Bgen.sane0] at h
    rw [sane0]
    have e1 := fg_deepheight (Node.mk items height isleaf children rects)
    rw [forget] at e1
    rw [e1, fg_seps] at h
    cases isleaf with
    | true =>
      simp only [Bool.or_true, Bool.and_true, Bool.true_or] at h ⊢
      exact h
    | false =>
      simp only [Bool.false_or, Bool.and_eq_true] at h ⊢
      obtain ⟨h1, h2, h3⟩ := h
      refine ⟨h1, h2, sp_sane0L_bwd children rects items (items.length + 1) (d + 1) h3
        (fun x hx => hr x (by simp [subnodes, hx])) (fun i hi k hk => ?_)⟩
      have := hr (Node.mk items height false children rects) (by simp [subnodes]) rfl i
        (by simp only [Node.len, sd_items_mk]; omega) k hk
      rw [sp_slot_mk] at this
      simpa [Node.rect] using this
theorem sp_sane0L_bwd :
    ∀ (cs : List (Node α)) (rs : List Rect) (xs : List α) (n d : Nat),
    Bgen.sane0L cfg cmp (forgetL cs) [] n d = true →
    (∀ x ∈ subnodesL cs n, RectChecked cfg dims itemrect x) →
    (∀ i, i < n → ∀ k, k < dims →
        (rs.getD i (Rect.mk [] [])).lo k =
          (match xs[i]? with
            | some s => rect_join dims
                (deeprect cfg dims itemrect (cs.getD i (Node.mk [] 0 true [] [])))
                (item_rect dims itemrect s)
            | none => deeprect cfg dims itemrect (cs.getD i (Node.mk [] 0 true [] []))).lo k ∧
        (rs.getD i (Rect.mk [] [])).hi k =
          (match xs[i]? with
            | some s => rect_join dims
                (deeprect cfg dims itemrect (cs.getD i (Node.mk [] 0 true [] [])))
                (item_rect dims itemrect s)
            | none => deeprect cfg dims itemrect (cs.getD i (Node.mk [] 0 true [] []))).hi k) →
    sane0L cfg cmp dims itemrect cs rs xs n d = true
  | _, _, _, 0, _, _, _, _ => by simp [sane0L]
  | [], _, _, _ + 1, _, h, _, _ => by simp [forgetL, Bgen.sane0L] at h
  | c :: cs, rs, xs, n + 1, d, h, hr, hs => by
    rw [forgetL, Bgen.sane0L] at h
    simp only [Bool.and_eq_true, List.tail_nil] at h
    obtain ⟨⟨_, h2⟩, h3⟩ := h
    rw [sane0L]
    simp only [Bool.and_eq_true]
    refine ⟨⟨?_, sp_sane0_bwd c d h2 (fun x hx => hr x (by simp [subnodesL, hx]))⟩,
      sp_sane0L_bwd cs rs.tail xs.tail n d h3 (fun x hx => hr x (by simp [subnodesL, hx]))
        (fun i hi k hk => ?_)⟩
    · rw [sp_recteq_iff]
      intro k hk
      have := hs 0 (by omega) k hk
      cases rs <;> cases xs <;> simpa using this
    · have := hs (i + 1) (by omega) k hk
      cases rs <;> cases xs <;> simpa using this
end

end spsane

end Spatial

namespace Spatial

section spsane2
variable {cfg : Config} {cmp : α → α → Int} {dims : Nat} {itemrect : α → List Int × List Int}

theorem sp_box_unique {l : List α} {r q : Rect} (h1 : IsBox dims itemrect l r)
    (h2 : IsBox dims itemrect l q) :
    ∀ k, k < dims → r.lo k = q.lo k ∧ r.hi k = q.hi k := by
  intro k hk
  obtain ⟨a1, ⟨x1, m1, e1⟩, ⟨y1, n1, f1⟩⟩ := h1 k hk
  obtain ⟨a2, ⟨x2, m2, e2⟩, ⟨y2, n2, f2⟩⟩ := h2 k hk
  have b1 := a1 x2 m2
  have b2 := a2 x1 m1
  have b3 := a1 y2 n2
  have b4 := a2 y1 n1
  constructor <;> omega

theorem sp_deeprectL_box : ∀ (cs : List (Node α)) (L : List α) (acc : Rect),
    IsBox dims itemrect L acc →
    (∀ c ∈ cs, IsBox dims itemrect (flat c) (deeprect cfg dims itemrect c)) →
    ∃ L2, IsBox dims itemrect L2 (deeprectL cfg dims itemrect cs cs.length acc) ∧
      ∀ x, x ∈ L2 ↔ x ∈ L ∨ ∃ c ∈ cs, x ∈ flat c
  | [], L, acc, h, _ => ⟨L, by simpa [deeprectL] using h, fun x => by simp⟩
  | c :: cs, L, acc, h, hall => by
    obtain ⟨L2, b, m⟩ := sp_deeprectL_box cs (L ++ flat c) _
      (isBox_join h (hall c (by simp))) (fun x hx => hall x (List.mem_cons_of_mem _ hx))
    refine ⟨L2, by simpa [deeprectL] using b, fun x => ?_⟩
    rw [m x]
    simp only [List.mem_append, List.mem_cons, exists_eq_or_imp]
    exact Iff.of_eq (by ac_rfl)

theorem sp_items_box (items : List α) (h : 1 ≤ items.length) :
    IsBox dims itemrect items
      (join_all dims
        (match items.head? with
          | some x => item_rect dims itemrect x
          | none => Rect.mk [] [])
        (items.map (item_rect dims itemrect))) := by
  cases items with
  | nil => simp at h
  | cons x xs =>
    have := @join_all_items α dims itemrect (x :: xs) [x] _ (isBox_single dims itemrect x)
    refine sd_isBox_iff (fun y => ?_) this
    simp only [List.head?_cons, List.mem_append, List.mem_singleton, List.mem_cons]
    constructor
    · intro hy; exact Or.inr hy
    · rintro (hy | hy)
      · exact Or.inl (by simpa using hy)
      · exact hy

theorem sp_deeprect_box : ∀ (h : Nat) (c : Node α), STight cfg dims itemrect (h + 1) c →
    1 ≤ c.items.length → IsBox dims itemrect (flat c) (deeprect cfg dims itemrect c)
  | 0, c, hs, hm => by
    obtain ⟨hl, hlen⟩ := sd_stight_leaf hs
    obtain ⟨items, ht, lf, ch, rs⟩ := c
    simp only [sd_isleaf_mk, sd_items_mk] at hl hlen hm
    subst hl
    rw [sd_flat_mk_leaf]
    simp only [deeprect, if_pos hlen, if_true]
    exact sp_items_box items hm
  | h + 1, c, hs, hm => by
    obtain ⟨hl, hlen, hc, _, _, hch⟩ := sd_stight_branch hs
    obtain ⟨items, ht, lf, ch, rs⟩ := c
    simp only [sd_isleaf_mk, sd_items_mk, sd_children_mk] at hl hlen hm hc hch
    subst hl
    simp only [deeprect, if_pos hlen, Bool.false_eq_true, if_false]
    have hmin := min_pos cfg
    obtain ⟨L2, b, m⟩ := @sp_deeprectL_box α cfg dims itemrect ch items _
      (sp_items_box items hm)
      (fun x hx => sp_deeprect_box h x (hch x hx).2 (by have := (hch x hx).1; omega))
    rw [hc] at b
    refine sd_isBox_iff (fun y => ?_) b
    rw [m y, sd_mem_mk _ _ _ _ _ hc]

theorem sp_mem_subnodesL : ∀ (cs : List (Node α)) (n : Nat) (x : Node α),
    x ∈ subnodesL cs n → ∃ c ∈ cs, x ∈ subnodes c
  | _, 0, _, h => by simp [subnodesL] at h
  | [], _ + 1, _, h => by simp [subnodesL] at h
  | c :: cs, n + 1, x, h => by
    simp only [subnodesL, List.mem_append] at h
    rcases h with h | h
    · exact ⟨c, by simp, h⟩
    · obtain ⟨c2, h1, h2⟩ := sp_mem_subnodesL cs n x h
      exact ⟨c2, List.mem_cons_of_mem _ h1, h2⟩

theorem sp_rects_of_tight : ∀ (h : Nat) (n : Node α), STight cfg dims itemrect (h + 1) n →
    ∀ x ∈ subnodes n, RectChecked cfg dims itemrect x
  | 0, n, hs, x, hx => by
    obtain ⟨hl, _⟩ := sd_stight_leaf hs
    obtain ⟨items, ht, lf, ch, rs⟩ := n
    simp only [sd_isleaf_mk] at hl
    subst hl
    simp only [subnodes, if_true, List.mem_singleton] at hx
    subst hx
    intro e
    cases e
  | h + 1, n, hs, x, hx => by
    obtain ⟨hl, hlen, hc, _, _, hch⟩ := sd_stight_branch hs
    have hmin := min_pos cfg
    have hsub : x = n ∨ ∃ c ∈ n.children, x ∈ subnodes c := by
      obtain ⟨items, ht, lf, ch, rs⟩ := n
      simp only [sd_isleaf_mk] at hl
      subst hl
      simp only [subnodes, Bool.false_eq_true, if_false, List.mem_cons] at hx
      rcases hx with hx | hx
      · exact Or.inl hx
      · exact Or.inr (sp_mem_subnodesL _ _ _ hx)
    rcases hsub with rfl | ⟨c, hcm, hxc⟩
    · intro _ i hi k hk
      obtain ⟨ht, A, c, B, RA, rc, RB, S, T, rfl, hA, hS, hRA⟩ := sd_branch_at hs hi
      obtain ⟨_, _, _, _, _, _, _, _, hcw, hbox⟩ := sd_stight_one_inv hA hS hRA hs
      have e1 : (Node.mk (S ++ T) ht false (A ++ c :: B) (RA ++ rc :: RB)).rect i = rc := by
        simp only [Node.rect, sd_rects_mk, List.getD_eq_getElem?_getD, app_get hRA]
        rfl
      have e2 : (Node.mk (S ++ T) ht false (A ++ c :: B) (RA ++ rc :: RB)).child i = c :=
        sd_child_at hA
      have e3 : (S ++ T)[i]? = T.head? := sd_get_head hS
      have hd := sp_deeprect_box h c hcw.2 (by have := hcw.1; omega)
      have hb2 : IsBox dims itemrect (flat c ++ T.head?.toList)
          (slot_rect cfg dims itemrect
            (Node.mk (S ++ T) ht false (A ++ c :: B) (RA ++ rc :: RB)) i) := by
        unfold slot_rect
        rw [e2]
        simp only [sd_items_mk, e3]
        cases T.head? with
        | none => simpa using hd
        | some s => exact isBox_join hd (isBox_single dims itemrect s)
      rw [e1]
      exact sp_box_unique hbox hb2 k hk
    · exact sp_rects_of_tight h c (hch c hcm).2 x hxc

theorem sp_sane_of_inv {root : Option (Node α)}
    (hinv : SpatialInv cfg cmp dims itemrect root) :
    sane cfg cmp dims itemrect root = true := by
  cases root with
  | none => rfl
  | some r =>
    obtain ⟨h1, _, h, hs⟩ := hinv
    have h2 : Bgen.sane cfg cmp (some (forget r)) = true := sane_of_inv h1
    exact sp_sane0_bwd r 0 h2 (sp_rects_of_tight h r hs)

theorem sp_sane_checks (hc : cfg.counted = false) {r : Node α}
    (h : sane cfg cmp dims itemrect (some r) = true) :
    1 ≤ r.len ∧
      ∀ x ∈ subnodes r, NodeChecked cfg cmp (forget x) ∧ RectChecked cfg dims itemrect x := by
  obtain ⟨h1, h2⟩ := sp_sane0_fwd hc r 0 h
  obtain ⟨a1, _, a3⟩ := sane0_checks (forget r) 0 h1
  simp only [if_true, fg_len] at a1
  refine ⟨a1, fun x hx => ⟨a3 (forget x) ?_, h2 x hx⟩⟩
  rw [fg_subnodes]
  exact List.mem_map_of_mem _ hx

end spsane2

end Spatial

namespace Spatial

section fgbasic
variable {cfg : Config} {cmp : α → α → Int} {dims : Nat} {itemrect : α → List Int × List Int}

theorem fg_fresh (lf : Bool) : forget (fresh lf : Node α) = Bgen.Node.fresh lf := rfl

theorem fg_child (n : Node α) (i : Nat) : (forget n).child i = forget (n.child i) := by
  simp only [Bgen.Node.child, Node.child, fg_children, List.getD_eq_getElem?_getD,
    List.getElem?_map]
  cases n.children[i]? <;> rfl

theorem fg_setItems (n : Node α) (l : List α) :
    forget (n.setItems l) = (forget n).setItems l := by
  cases n; simp [Node.setItems, Bgen.Node.setItems, forget]

theorem fg_setChild (n : Node α) (i : Nat) (c : Node α) :
    forget (n.setChild i c) = (forget n).setChild i (forget c) := by
  cases n
  simp [Node.setChild, Bgen.Node.setChild, Bgen.Node.setChildren, forget, fg_forgetL,
    List.map_set]

@[simp] theorem fg_setRect (n : Node α) (i : Nat) (r : Rect) :
    forget (n.setRect i r) = forget n := by
  cases n; rfl

theorem fg_search (n : Node α) (key : α) :
    Bgen.search cmp (forget n) key = search cmp n key := by
  simp [Bgen.search, search]

theorem fg_shift_right (hc : cfg.counted = false) (n : Node α) (i : Nat) (x : α) :
    forget (shift_right n i x) = Bgen.shift_right cfg (forget n) i x := by
  obtain ⟨items, ht, lf, ch, rs⟩ := n
  cases lf <;>
    simp [shift_right, Bgen.shift_right, forget, fg_forgetL, hc, Node.setItems,
      Bgen.Node.setItems, List.map_take, List.map_drop]

theorem fg_recalc_pair (n : Node α) (i : Nat) :
    forget (recalc_pair dims itemrect n i) = forget n := by
  simp [recalc_pair]

theorem fg_alloc (lf : Bool) (mem : List Bool) :
    (Bgen.alloc_node lf mem : Option (Bgen.Node α) × List Bool) =
      ((alloc_node lf mem : Option (Node α) × List Bool).1.map forget,
        (alloc_node lf mem : Option (Node α) × List Bool).2) := by
  cases mem with
  | nil => rfl
  | cons b rest => cases b <;> rfl

theorem fg_split (hc : cfg.counted = false) (n : Node α) (mem : List Bool) :
    Bgen.split cfg (forget n) mem =
      ((split cfg dims itemrect n mem).1.map (fun p => (forget p.1, p.2.1, forget p.2.2)),
        (split cfg dims itemrect n mem).2) := by
  obtain ⟨items, ht, lf, ch, rs⟩ := n
  unfold split Bgen.split
  rw [fg_alloc]
  simp only [forget, Bgen.Node.isleaf_mk, sd_isleaf_mk, Bgen.Node.items_mk, sd_items_mk]
  cases mem with
  | nil =>
    simp only [alloc_node, Option.map_some']
    cases hd : items.drop (MAXITEMS cfg / 2) with
    | nil => rfl
    | cons m ritems =>
      cases lf <;>
        simp [hc, fresh, Bgen.Node.fresh, forget, fg_forgetL, Node.setItems, Bgen.Node.setItems,
          Node.setRect, List.map_take, List.map_drop, forgetL]
  | cons b rest =>
    cases b
    · rfl
    · simp only [alloc_node, Option.map_some']
      cases hd : items.drop (MAXITEMS cfg / 2) with
      | nil => rfl
      | cons m ritems =>
        cases lf <;>
          simp [hc, fresh, Bgen.Node.fresh, forget, fg_forgetL, Node.setItems,
            Bgen.Node.setItems, Node.setRect, List.map_take, List.map_drop, forgetL]

theorem fg_split_child_at (hc : cfg.counted = false) (n : Node α) (i : Nat)
    (mem : List Bool) :
    Bgen.split_child_at cfg (forget n) i mem =
      ((split_child_at cfg dims itemrect n i mem).1.map forget,
        (split_child_at cfg dims itemrect n i mem).2) := by
  unfold split_child_at Bgen.split_child_at
  rw [fg_child, fg_split hc]
  cases hs : split cfg dims itemrect (n.child i) mem with
  | mk o mem1 =>
    cases o with
    | none => rfl
    | some p =>
      obtain ⟨l, m, r⟩ := p
      simp only [Option.map_some', hc, Bool.false_eq_true, if_false, fg_recalc_pair,
        fg_setChild, fg_shift_right hc]

theorem fg_split_root (hc : cfg.counted = false) (n : Node α) (mem : List Bool) :
    Bgen.split_root cfg (forget n) mem =
      ((split_root cfg dims itemrect n mem).1.map forget,
        (split_root cfg dims itemrect n mem).2) := by
  unfold split_root Bgen.split_root
  rw [fg_alloc]
  cases ha : (alloc_node false mem : Option (Node α) × List Bool) with
  | mk o mem1 =>
    cases o with
    | none => rfl
    | some nr =>
      simp only [Option.map_some']
      rw [fg_split hc]
      cases hs : split cfg dims itemrect n mem1 with
      | mk o2 mem2 =>
        cases o2 with
        | none => rfl
        | some p =>
          obtain ⟨l, m, r⟩ := p
          have hnr : nr = fresh false := by
            cases mem with
            | nil => simp [alloc_node] at ha; exact ha.1.symm
            | cons b rest =>
              cases b
              · simp [alloc_node] at ha
              · simp [alloc_node] at ha; exact ha.1.symm
          subst hnr
          simp only [Option.map_some', hc, Bool.false_eq_true, if_false, fg_recalc_pair,
            fg_height]
          rfl

theorem fg_give_left (hc : cfg.counted = false) (n : Node α) (i : Nat) (b : Bool) :
    forget (give_left n i b) = Bgen.give_left cfg (forget n) i b := by
  unfold give_left Bgen.give_left
  simp only [fg_child, fg_items, fg_len, hc, Bool.false_eq_true, if_false]
  cases n.items[i - 1]? with
  | none => rfl
  | some sep =>
    cases (n.child i).items[give_n b (n.child i).len (n.child (i - 1)).len - 1]? with
    | none => rfl
    | some newsep =>
      simp only [fg_setChild, fg_setItems, fg_child]

mutual
theorem fg_depth : ∀ (n : Node α), Bgen.depth (forget n) = depth n
  | Node.mk items height isleaf children rects => by
    simp only [forget, Bgen.depth, depth]
    rw [fg_depthL children]
theorem fg_depthL : ∀ (cs : List (Node α)), Bgen.depthL (forgetL cs) = depthL cs
  | [] => rfl
  | c :: cs => by
    simp only [forgetL, Bgen.depthL, depthL]
    rw [fg_depth c, fg_depthL cs]
end

mutual
theorem fg_deepcount : ∀ (n : Node α), Bgen.deepcount (forget n) = deepcount n
  | Node.mk items height isleaf children rects => by
    simp only [forget, Bgen.deepcount, deepcount]
    rw [fg_deepcountL children]
theorem fg_deepcountL : ∀ (cs : List (Node α)) (k : Nat),
    Bgen.deepcountL (forgetL cs) k = deepcountL cs k
  | [], _ => by simp [forgetL, Bgen.deepcountL, deepcountL]
  | _ :: _, 0 => by simp [forgetL, Bgen.deepcountL, deepcountL]
  | c :: cs, k + 1 => by
    simp only [forgetL, Bgen.deepcountL, deepcountL]
    rw [fg_deepcount c, fg_deepcountL cs k]
end

theorem fg_node_count (hc : cfg.counted = false) (n : Node α) (i : Nat) :
    Bgen.node_count cfg (forget n) i = node_count n i := by
  simp [Bgen.node_count, node_count, hc, count0, fg_child, fg_deepcount]

theorem fg_index_walk (hc : cfg.counted = false) (n : Node α) : ∀ (k i index : Nat),
    Bgen.index_walk cfg (forget n) k i index = index_walk n k i index
  | 0, _, _ => rfl
  | k + 1, i, index => by
    simp only [Bgen.index_walk, index_walk, fg_node_count hc]
    rw [fg_index_walk hc n k]

mutual
theorem fg_last_leaf : ∀ (n : Node α), Bgen.last_leaf (forget n) = forget (last_leaf n)
  | Node.mk items height isleaf children rects => by
    simp only [forget, Bgen.last_leaf, last_leaf]
    rw [fg_last_leafL children]
    cases isleaf <;> simp [forget]
theorem fg_last_leafL : ∀ (cs : List (Node α)) (k : Nat),
    Bgen.last_leafL (forgetL cs) k = forget (last_leafL cs k)
  | [], _ => rfl
  | c :: _, 0 => by
    simp only [forgetL, Bgen.last_leafL, last_leafL]
    exact fg_last_leaf c
  | _ :: cs, k + 1 => by
    simp only [forgetL, Bgen.last_leafL, last_leafL]
    exact fg_last_leafL cs k
end

mutual
theorem fg_first_leaf : ∀ (n : Node α), Bgen.first_leaf (forget n) = forget (first_leaf n)
  | Node.mk items height isleaf children rects => by
    simp only [forget, Bgen.first_leaf, first_leaf]
    rw [fg_first_leafL children]
    cases isleaf <;> simp [forget]
theorem fg_first_leafL : ∀ (cs : List (Node α)),
    Bgen.first_leafL (forgetL cs) = forget (first_leafL cs)
  | [] => rfl
  | c :: _ => by
    simp only [forgetL, Bgen.first_leafL, first_leafL]
    exact fg_first_leaf c
end

theorem fg_order (n : Node α) (act : InsAct) (i : Nat) (found : Bool) (item : α) :
    Bgen.insert1_order cmp (forget n) act i found item = insert1_order cmp n act i found item := by
  simp only [Bgen.insert1_order, insert1_order, fg_isleaf, fg_child, fg_last_leaf,
    fg_first_leaf, fg_items, fg_len]

theorem fg_locate (hc : cfg.counted = false) (n : Node α) (act : InsAct) (index : Nat)
    (item : α) :
    Bgen.insert1_locate cfg cmp (forget n) act index item =
      insert1_locate cfg cmp n act index item := by
  cases act <;>
    simp only [Bgen.insert1_locate, insert1_locate, fg_isleaf, fg_items, fg_len, fg_search,
      fg_index_walk hc, fg_order]

end fgbasic

end Spatial

namespace Spatial

section fgloop
variable {cfg : Config} {cmp : α → α → Int} {dims : Nat} {itemrect : α → List Int × List Int}

theorem fg_wrap (hc : cfg.counted = false) (n : Node α) (i : Nat) (item : α)
    (rb : Bgen.InsRes α) (rs : InsRes α) (h : InsSim rb rs) :
    InsSim (Bgen.insert1_wrap cfg (forget n) i rb) (insert1_wrap dims itemrect n i item rs) := by
  obtain ⟨h1, h2, h3⟩ := h
  unfold Bgen.insert1_wrap insert1_wrap InsSim
  rw [if_neg (by rw [hc]; simp)]
  split_ifs <;> simp [h1, h2, h3, fg_setChild]

theorem fg_act_tail (hc : cfg.counted = false) (act : InsAct) (item : α) (fuel : Nat)
    (ih : ∀ (n : Node α) (index oindex i : Nat) (found : Bool) (mem : List Bool),
      InsSim (Bgen.insert1_loop cfg cmp act item fuel (forget n) index oindex i found mem)
        (insert1_act_loop cfg cmp dims itemrect act item fuel n index oindex i found mem))
    (n : Node α) (index oindex i : Nat) (rb : Bgen.InsRes α) (rs : InsRes α)
    (h : InsSim rb rs) :
    InsSim
      (if rb.ret ≠ Status.MUSTSPLIT ∨ (forget n).len = MAXITEMS cfg then
        Bgen.insert1_wrap cfg (forget n) i rb
      else
        match Bgen.split_child_at cfg ((forget n).setChild i rb.node) i rb.mem with
        | (none, mem1) => Bgen.InsRes.mk Status.NOMEM ((forget n).setChild i rb.node) rb.old mem1
        | (some node1, mem1) =>
          if act = InsAct.INSITEM then
            match node1.items[i]? with
            | some s =>
              if cmp item s ≤ 0 then
                Bgen.insert1_loop cfg cmp act item fuel node1 index oindex i
                  (decide (cmp item s = 0)) mem1
              else Bgen.insert1_loop cfg cmp act item fuel node1 index oindex (i + 1) false mem1
            | none => Bgen.InsRes.mk Status.FUEL node1 rb.old mem1
          else
            match Bgen.insert1_locate cfg cmp node1 act
                (if act = InsAct.INSAT then oindex else index) item with
            | Locate.exit ret => Bgen.InsRes.mk ret node1 rb.old mem1
            | Locate.slot ci cfound cindex =>
              Bgen.insert1_loop cfg cmp act item fuel node1 cindex
                (if act = InsAct.INSAT then oindex else index) ci cfound mem1)
      (if rs.ret ≠ Status.MUSTSPLIT ∨ n.len = MAXITEMS cfg then
        insert1_wrap dims itemrect n i item rs
      else
        match split_child_at cfg dims itemrect (n.setChild i rs.node) i rs.mem with
        | (none, mem1) => InsRes.mk Status.NOMEM (n.setChild i rs.node) none mem1
        | (some node1, mem1) =>
          if act = InsAct.INSITEM then
            match node1.items[i]? with
            | some s =>
              if cmp item s ≤ 0 then
                insert1_act_loop cfg cmp dims itemrect act item fuel node1 index oindex i
                  (decide (cmp item s = 0)) mem1
              else
                insert1_act_loop cfg cmp dims itemrect act item fuel node1 index oindex (i + 1)
                  false mem1
            | none => InsRes.mk Status.FUEL node1 none mem1
          else
            match insert1_locate cfg cmp node1 act
                (if act = InsAct.INSAT then oindex else index) item with
            | Locate.exit ret => InsRes.mk ret node1 none mem1
            | Locate.slot ci cfound cindex =>
              insert1_act_loop cfg cmp dims itemrect act item fuel node1 cindex
                (if act = InsAct.INSAT then oindex else index) ci cfound mem1) := by
  obtain ⟨bret, bnode, bold, bmem⟩ := rb
  obtain ⟨sret, snode, sold, smem⟩ := rs
  obtain ⟨k1, k2, k3⟩ := h
  simp only at k1 k2 k3
  subst k1 k2 k3
  simp only [fg_len]
  by_cases hsp : bret ≠ Status.MUSTSPLIT ∨ n.len = MAXITEMS cfg
  · rw [if_pos hsp, if_pos hsp]
    exact fg_wrap hc n i item _ _ ⟨rfl, rfl, rfl⟩
  · rw [if_neg hsp, if_neg hsp]
    rw [← fg_setChild, fg_split_child_at hc]
    cases hs : split_child_at cfg dims itemrect (n.setChild i snode) i bmem with
    | mk o mem1 =>
      cases o with
      | none => exact ⟨rfl, rfl, rfl⟩
      | some node1 =>
        simp only [Option.map_some', fg_items]
        by_cases ha : act = InsAct.INSITEM
        · rw [if_pos ha, if_pos ha]
          cases node1.items[i]? with
          | none => exact ⟨rfl, rfl, rfl⟩
          | some s =>
            simp only []
            split_ifs
            · exact ih node1 index oindex i _ mem1
            · exact ih node1 index oindex (i + 1) false mem1
        · rw [if_neg ha, if_neg ha]
          rw [fg_locate hc]
          cases insert1_locate cfg cmp node1 act
              (if act = InsAct.INSAT then oindex else index) item with
          | exit ret => exact ⟨rfl, rfl, rfl⟩
          | slot ci cfound cindex => exact ih node1 cindex _ ci cfound mem1

theorem fg_act_loop (hc : cfg.counted = false) (act : InsAct) (item : α) :
    ∀ (fuel : Nat) (n : Node α) (index oindex i : Nat) (found : Bool) (mem : List Bool),
    InsSim (Bgen.insert1_loop cfg cmp act item fuel (forget n) index oindex i found mem)
      (insert1_act_loop cfg cmp dims itemrect act item fuel n index oindex i found mem)
  | 0, n, index, oindex, i, found, mem => ⟨rfl, rfl, rfl⟩
  | fuel + 1, n, index, oindex, i, found, mem => by
    rw [Bgen.insert1_loop, insert1_act_loop]
    by_cases hf : found = true
    · rw [if_pos hf, if_pos hf]
      refine ⟨rfl, ?_, rfl⟩
      cases hl : n.isleaf
      · simp [fg_setItems]
      · simp [fg_setItems]
    · rw [if_neg hf, if_neg hf]
      by_cases hl : n.isleaf = true
      · rw [if_pos (by simpa using hl), if_pos hl]
        simp only [fg_len]
        split_ifs
        · exact ⟨rfl, rfl, rfl⟩
        · exact ⟨rfl, (fg_shift_right hc n i item).symm, rfl⟩
      · rw [if_neg (by simpa using hl), if_neg hl]
        rw [fg_child, fg_locate hc]
        cases hloc : insert1_locate cfg cmp (n.child i) act index item with
        | exit ret =>
          exact fg_act_tail hc act item fuel (fun a b c d e f => fg_act_loop hc act item fuel a b c d e f)
            n index oindex i (Bgen.InsRes.mk ret (forget (n.child i)) none mem)
            (InsRes.mk ret (n.child i) none mem) ⟨rfl, rfl, rfl⟩
        | slot ci cfound cindex =>
          exact fg_act_tail hc act item fuel (fun a b c d e f => fg_act_loop hc act item fuel a b c d e f)
            n index oindex i _ _ (fg_act_loop hc act item fuel (n.child i) cindex index ci cfound mem)

theorem fg_insert1_act (hc : cfg.counted = false) (act : InsAct) (item : α) (fuel : Nat)
    (n : Node α) (index : Nat) (mem : List Bool) :
    InsSim (Bgen.insert1 cfg cmp fuel (forget n) act index item mem)
      (insert1_act cfg cmp dims itemrect fuel n act index item mem) := by
  unfold Bgen.insert1 insert1_act
  rw [fg_locate hc]
  cases insert1_locate cfg cmp n act index item with
  | exit ret => exact ⟨rfl, rfl, rfl⟩
  | slot ci cfound cindex => exact fg_act_loop hc act item fuel n cindex index ci cfound mem

theorem fg_insert0_act_loop (hc : cfg.counted = false) (act : InsAct) (index : Nat) (item : α) :
    ∀ (k : Nat) (n : Node α) (mem : List Bool),
    TreeSim (Bgen.insert0_loop cfg cmp act index item k (forget n) mem)
      (insert0_act_loop cfg cmp dims itemrect act index item k n mem)
  | 0, n, mem => ⟨rfl, rfl, rfl⟩
  | k + 1, n, mem => by
    rw [Bgen.insert0_loop, insert0_act_loop, fg_depth]
    have key := @fg_insert1_act α cfg cmp dims itemrect hc act item (2 * depth n) n index mem
    generalize Bgen.insert1 cfg cmp (2 * depth n) (forget n) act index item mem = rb at key ⊢
    generalize insert1_act cfg cmp dims itemrect (2 * depth n) n act index item mem = rs
      at key ⊢
    obtain ⟨bret, bnode, bold, bmem⟩ := rb
    obtain ⟨sret, snode, sold, smem⟩ := rs
    obtain ⟨k1, k2, k3⟩ := key
    simp only at k1 k2 k3
    subst k1 k2 k3
    simp only []
    by_cases hr : bret ≠ Status.MUSTSPLIT
    · rw [if_pos hr, if_pos hr]
      exact ⟨rfl, rfl, rfl⟩
    · rw [if_neg hr, if_neg hr, fg_split_root hc]
      cases hs : split_root cfg dims itemrect snode bmem with
      | mk o mem2 =>
        cases o with
        | none => exact ⟨rfl, rfl, rfl⟩
        | some nr => exact fg_insert0_act_loop hc act index item k nr mem2

theorem fg_insert0_act (hc : cfg.counted = false) (act : InsAct) (index : Nat) (item : α)
    (root : Option (Node α)) (mem : List Bool) :
    TreeSim (Bgen.insert0 cfg cmp (forget_root root) act index item mem)
      (insert0_act cfg cmp dims itemrect root act index item mem) := by
  cases root with
  | none =>
    simp only [forget_root, Bgen.insert0, insert0_act]
    split_ifs
    · exact ⟨rfl, rfl, rfl⟩
    · rw [fg_alloc]
      cases (alloc_node true mem : Option (Node α) × List Bool) with
      | mk o mem1 =>
        cases o with
        | none => exact ⟨rfl, rfl, rfl⟩
        | some nd =>
          obtain ⟨a, b, c, d, e⟩ := nd
          exact ⟨rfl, rfl, rfl⟩
  | some r => exact fg_insert0_act_loop hc act index item 2 r mem

end fgloop

end Spatial

namespace Spatial

section fgfast
variable {cfg : Config} {cmp : α → α → Int} {dims : Nat} {itemrect : α → List Int × List Int}

theorem sp_act_loop_insitem (item : α) :
    ∀ (fuel : Nat) (n : Node α) (index oindex i : Nat) (found : Bool) (mem : List Bool),
    insert1_act_loop cfg cmp dims itemrect InsAct.INSITEM item fuel n index oindex i found mem =
      insert1_loop cfg cmp dims itemrect item fuel n i found mem
  | 0, _, _, _, _, _, _ => rfl
  | fuel + 1, n, index, oindex, i, found, mem => by
    rw [insert1_act_loop, insert1_loop]
    simp only [insert1_locate, if_true, sp_act_loop_insitem item fuel]

theorem sp_insert1_act_insitem (item : α) (fuel : Nat) (n : Node α) (index : Nat)
    (mem : List Bool) :
    insert1_act cfg cmp dims itemrect fuel n InsAct.INSITEM index item mem =
      insert1 cfg cmp dims itemrect fuel n item mem := by
  simp only [insert1_act, insert1, insert1_locate, sp_act_loop_insitem]

theorem sp_insert0_act_loop_insitem (item : α) (index : Nat) :
    ∀ (k : Nat) (n : Node α) (mem : List Bool),
    insert0_act_loop cfg cmp dims itemrect InsAct.INSITEM index item k n mem =
      insert0_loop cfg cmp dims itemrect item k n mem
  | 0, _, _ => rfl
  | k + 1, n, mem => by
    rw [insert0_act_loop, insert0_loop]
    simp only [sp_insert1_act_insitem, sp_insert0_act_loop_insitem item index k]

theorem sp_insert0_act_insitem (item : α) (index : Nat) (root : Option (Node α))
    (mem : List Bool) :
    insert0_act cfg cmp dims itemrect root InsAct.INSITEM index item mem =
      insert0 cfg cmp dims itemrect root item mem := by
  cases root with
  | none =>
    simp only [insert0_act, insert0]
    rw [if_neg (by simp)]
  | some r => exact sp_insert0_act_loop_insitem item index 2 r mem

theorem fg_inc_count (hc : cfg.counted = false) (n : Bgen.Node α) (i : Nat) :
    inc_count cfg n i = n := by
  simp [inc_count, hc]

theorem fg_dec_count (hc : cfg.counted = false) (n : Bgen.Node α) (i : Nat) :
    dec_count cfg n i = n := by
  simp [dec_count, hc]

mutual
theorem fg_fast_loop (hc : cfg.counted = false) (item : α) :
    ∀ (fuel : Nat) (n : Node α) (mem : List Bool),
    FastSim (Bgen.insert_fast_loop cfg cmp item fuel (forget n) mem)
      (insert_fast_loop cfg cmp dims itemrect item fuel n mem)
  | 0, n, mem => ⟨rfl, rfl, rfl, rfl⟩
  | fuel + 1, n, mem => by
    rw [Bgen.insert_fast_loop, insert_fast_loop]
    simp only [fg_search, fg_isleaf, fg_len, fg_items]
    split_ifs
    · exact ⟨rfl, (fg_setItems _ _).symm, rfl, rfl⟩
    · trivial
    · exact ⟨rfl, (fg_shift_right hc _ _ _).symm, rfl, rfl⟩
    · exact fg_fast_down hc item fuel n _ mem
theorem fg_fast_down (hc : cfg.counted = false) (item : α) :
    ∀ (fuel : Nat) (n : Node α) (i : Nat) (mem : List Bool),
    FastSim (Bgen.insert_fast_down cfg cmp item fuel (forget n) i mem)
      (insert_fast_down cfg cmp dims itemrect item fuel n i mem)
  | 0, n, i, mem => ⟨rfl, rfl, rfl, rfl⟩
  | fuel + 1, n, i, mem => by
    rw [Bgen.insert_fast_down, insert_fast_down]
    simp only [fg_inc_count hc, fg_dec_count hc, fg_len]
    have e1 : (forget n).child i = forget
        ((n.setRect i (rect_join dims (n.rect i) (item_rect dims itemrect item))).child i) := by
      rw [fg_child]; rfl
    rw [e1]
    have ih := fg_fast_loop hc item fuel
      ((n.setRect i (rect_join dims (n.rect i) (item_rect dims itemrect item))).child i) mem
    generalize Bgen.insert_fast_loop cfg cmp item fuel (forget
      ((n.setRect i (rect_join dims (n.rect i) (item_rect dims itemrect item))).child i)) mem = rb
      at ih ⊢
    generalize insert_fast_loop cfg cmp dims itemrect item fuel
      ((n.setRect i (rect_join dims (n.rect i) (item_rect dims itemrect item))).child i) mem = rs
      at ih ⊢
    cases rb with
    | done bret bnode bold bmem =>
      cases rs with
      | done ret nd old m =>
        obtain ⟨h1, h2, h3, h4⟩ := ih
        subst h1 h2 h3 h4
        exact ⟨rfl, by simp [fg_setChild], rfl, rfl⟩
      | brk _ _ _ _ => exact absurd ih (by simp [FastSim])
      | full => exact absurd ih (by simp [FastSim])
    | brk bret bnode bold bmem =>
      cases rs with
      | done _ _ _ _ => exact absurd ih (by simp [FastSim])
      | brk ret nd old m =>
        obtain ⟨h1, h2, h3, h4⟩ := ih
        subst h1 h2 h3 h4
        exact ⟨rfl, by simp [fg_setChild], rfl, rfl⟩
      | full => exact absurd ih (by simp [FastSim])
    | full =>
      cases rs with
      | done _ _ _ _ => exact absurd ih (by simp [FastSim])
      | brk _ _ _ _ => exact absurd ih (by simp [FastSim])
      | full =>
        simp only []
        have e2 : ∀ k, ((n.setRect i (rect_join dims (n.rect i)
            (item_rect dims itemrect item))).setRect i (n.rect i)).child k = n.child k :=
          fun k => rfl
        by_cases hfull : n.len = MAXITEMS cfg
        · rw [if_pos hfull, if_pos hfull]
          exact ⟨rfl, by simp, rfl, rfl⟩
        · rw [if_neg hfull, if_neg hfull]
          simp only [fg_child, fg_len, e2]
          by_cases hg : 0 < i ∧ (n.child (i - 1)).len < MINITEMS cfg + 1
          · rw [if_pos hg, if_pos hg]
            have := fg_fast_loop hc item fuel
              (recalc_pair dims itemrect
                (give_left
                  ((n.setRect i (rect_join dims (n.rect i)
                    (item_rect dims itemrect item))).setRect i (n.rect i)) i false) (i - 1)) mem
            rw [fg_recalc_pair, fg_give_left hc, fg_setRect, fg_setRect] at this
            exact this
          · rw [if_neg hg, if_neg hg]
            have e3 : forget n = forget ((n.setRect i (rect_join dims (n.rect i)
                (item_rect dims itemrect item))).setRect i (n.rect i)) := by simp
            rw [e3, fg_split_child_at hc]
            cases hs : split_child_at cfg dims itemrect
                ((n.setRect i (rect_join dims (n.rect i)
                  (item_rect dims itemrect item))).setRect i (n.rect i)) i mem with
            | mk o mem1 =>
              cases o with
              | none => exact ⟨rfl, rfl, rfl, rfl⟩
              | some node1 =>
                simp only [Option.map_some', fg_items]
                cases node1.items[i]? with
                | none => exact ⟨rfl, rfl, rfl, rfl⟩
                | some s => exact fg_fast_down hc item fuel node1 _ mem1
end

theorem fg_fastpath (hc : cfg.counted = false) (item : α) (root : Option (Node α))
    (mem : List Bool) :
    TreeSim (Bgen.insert_fastpath cfg cmp (forget_root root) item mem)
      (insert_fastpath cfg cmp dims itemrect root item mem) := by
  cases root with
  | none => exact ⟨rfl, rfl, rfl⟩
  | some r =>
    simp only [forget_root, Bgen.insert_fastpath, insert_fastpath, fg_depth]
    have ih := @fg_fast_loop α cfg cmp dims itemrect hc item (2 * depth r + 2 * FANOUTUSED cfg) r
      mem
    generalize Bgen.insert_fast_loop cfg cmp item (2 * depth r + 2 * FANOUTUSED cfg) (forget r)
      mem = rb at ih ⊢
    generalize insert_fast_loop cfg cmp dims itemrect item (2 * depth r + 2 * FANOUTUSED cfg) r
      mem = rs at ih ⊢
    cases rb <;> cases rs <;> simp only [FastSim] at ih
    · obtain ⟨h1, h2, h3, h4⟩ := ih
      subst h1 h2 h3 h4
      exact ⟨rfl, rfl, rfl⟩
    · obtain ⟨h1, h2, h3, h4⟩ := ih
      subst h1 h2 h3 h4
      exact ⟨rfl, rfl, rfl⟩
    · exact ⟨rfl, rfl, rfl⟩

theorem fg_insert (hc : cfg.counted = false) (item : α) (root : Option (Node α))
    (mem : List Bool) :
    TreeSim (Bgen.insert cfg cmp (forget_root root) item mem)
      (insert cfg cmp dims itemrect root item mem) := by
  unfold Bgen.insert insert
  cases hno : cfg.noorder
  · simp only [Bool.false_eq_true, if_false]
    have ih := @fg_fastpath α cfg cmp dims itemrect hc item root mem
    generalize Bgen.insert_fastpath cfg cmp (forget_root root) item mem = rb at ih ⊢
    generalize insert_fastpath cfg cmp dims itemrect root item mem = rs at ih ⊢
    obtain ⟨bret, broot, bold, bmem⟩ := rb
    obtain ⟨sret, sroot, sold, smem⟩ := rs
    obtain ⟨k1, k2, k3⟩ := ih
    simp only at k1 k2 k3
    subst k1 k2 k3
    simp only []
    by_cases hr : bret ≠ Status.NONE
    · rw [if_pos hr, if_pos hr]
      exact ⟨rfl, rfl, rfl⟩
    · rw [if_neg hr, if_neg hr, ← sp_insert0_act_insitem item 0]
      exact fg_insert0_act hc InsAct.INSITEM 0 item sroot bmem
  · simp only [if_true]
    exact ⟨rfl, rfl, rfl⟩

end fgfast

end Spatial

namespace Spatial

section snsplit
variable {cfg : Config} {dims : Nat} {itemrect : α → List Int × List Int}

theorem sn_replace_child {h i : Nat} {n c2 : Node α}
    (hs : STight cfg dims itemrect (h + 2) n) (hi : i ≤ n.items.length)
    (hc2 : STight cfg dims itemrect (h + 1) c2)
    (hmem : ∀ x, x ∈ flat c2 ↔ x ∈ flat (n.child i))
    (hlen : (n.child i).items.length ≤ c2.items.length) :
    STight cfg dims itemrect (h + 2) (n.setChild i c2) ∧
      (∀ x, x ∈ flat (n.setChild i c2) ↔ x ∈ flat n) ∧
      (n.setChild i c2).items = n.items ∧ (n.setChild i c2).child i = c2 := by
  obtain ⟨ht, A, c, B, RA, rc, RB, S, T, rfl, hA, hS, hRA⟩ := sd_branch_at hs hi
  obtain ⟨_, hB, hRB, hlen2, hAt, hBt, hAw, hBw, hcw, hbox⟩ := sd_stight_one_inv hA hS hRA hs
  rw [sd_child_at hA] at hmem hlen
  have e : (Node.mk (S ++ T) ht false (A ++ c :: B) (RA ++ rc :: RB)).setChild i c2 =
      Node.mk (S ++ T) ht false (A ++ c2 :: B) (RA ++ rc :: RB) := by
    simp only [Node.setChild, sd_items_mk, sd_height_mk, sd_isleaf_mk, sd_children_mk,
      sd_rects_mk]
    rw [app_set hA]
  rw [e]
  refine ⟨?_, fun x => ?_, rfl, sd_child_at hA⟩
  · refine sd_stight_one hA hS hRA hB hRB hlen2 hAt hBt hAw hBw ⟨by omega, hc2⟩ ?_
    refine sd_isBox_iff (fun x => ?_) hbox
    simp only [List.mem_append, hmem x]
  · rw [sd_mem_one x (hA.trans hS.symm) hB, sd_mem_one x (hA.trans hS.symm) hB, hmem x]

theorem sn_alloc (lf : Bool) (mem : List Bool) :
    (alloc_node lf mem : Option (Node α) × List Bool).1 = none ∨
      (alloc_node lf mem : Option (Node α) × List Bool).1 = some (fresh lf) := by
  cases mem with
  | nil => exact Or.inr rfl
  | cons b rest => cases b <;> simp [alloc_node]

theorem sn_split {h : Nat} {c : Node α} (hs : STight cfg dims itemrect (h + 1) c)
    (hfull : c.items.length = MAXITEMS cfg) (mem : List Bool) :
    (split cfg dims itemrect c mem).1 = none ∨
      ∃ l m r, (split cfg dims itemrect c mem).1 = some (l, m, r) ∧
        STight cfg dims itemrect (h + 1) l ∧ STight cfg dims itemrect (h + 1) r ∧
        l.items.length = MINITEMS cfg ∧ r.items.length = MINITEMS cfg ∧
        ∀ x, x ∈ flat c ↔ x ∈ flat l ∨ x = m ∨ x ∈ flat r := by
  have hmax := max_eq cfg
  have hmin := min_pos cfg
  unfold split
  rcases sn_alloc c.isleaf mem with ha | ha
  · left
    cases hal : (alloc_node c.isleaf mem : Option (Node α) × List Bool) with
    | mk o mem1 =>
      rw [hal] at ha
      simp only at ha
      subst ha
      rfl
  · right
    cases hal : (alloc_node c.isleaf mem : Option (Node α) × List Bool) with
    | mk o mem1 =>
      rw [hal] at ha
      simp only at ha
      subst ha
      simp only []
      rw [half_lt]
      cases h with
      | zero =>
        obtain ⟨hl, _⟩ := sd_stight_leaf hs
        obtain ⟨items, ht, lf, ch, rs⟩ := c
        simp only [sd_isleaf_mk, sd_items_mk] at hl hfull ⊢
        subst hl
        obtain ⟨S, m, R, rfl, hS⟩ := split_at_lt items (MINITEMS cfg) (by omega)
        have hR : R.length = MINITEMS cfg := by simp at hfull; omega
        rw [app_drop hS]
        simp only [if_true, Node.setItems, sd_items_mk, sd_height_mk, sd_isleaf_mk,
          sd_children_mk, sd_rects_mk, app_take hS, fresh]
        refine ⟨_, _, _, rfl, sd_stight_mk_leaf rfl (by simp; omega),
          sd_stight_mk_leaf rfl (by simp; omega), by simpa using hS, by simpa using hR,
          fun x => ?_⟩
        simp only [sd_flat_mk_leaf, List.mem_append, List.mem_cons]
      | succ h =>
        obtain ⟨ht, A, x, B, RA, rx, RB, S, T, rfl, hA, hS, hRA⟩ :=
          sd_branch_at hs (show MINITEMS cfg ≤ c.items.length by omega)
        obtain ⟨_, hB, hRB, hlen2, hAt, hBt, hAw, hBw, hxw, hbox⟩ :=
          sd_stight_one_inv hA hS hRA hs
        simp only [sd_items_mk, List.length_append] at hfull
        cases T with
        | nil => simp at hfull; omega
        | cons m R =>
          simp only [List.length_cons] at hfull hB hRB
          simp only [sd_isleaf_mk, sd_items_mk, sd_children_mk, sd_rects_mk, sd_height_mk,
            app_drop hS, app_take hS, app_take1 hA, app_drop1 hA, app_take1 hRA, app_drop1 hRA,
            Bool.false_eq_true, if_false, fresh]
          have e1 : (Node.mk S ht false (A ++ [x]) (RA ++ [rx])).setRect (MINITEMS cfg)
              (rect_calc dims itemrect (Node.mk S ht false (A ++ [x]) (RA ++ [rx]))
                (MINITEMS cfg)) =
              Node.mk (S ++ []) ht false (A ++ x :: []) (RA ++
                rect_calc dims itemrect (Node.mk S ht false (A ++ [x]) (RA ++ [rx]))
                  (MINITEMS cfg) :: []) := by
            simp only [Node.setRect, sd_items_mk, sd_height_mk, sd_isleaf_mk, sd_children_mk,
              sd_rects_mk, List.append_nil]
            rw [app_set hRA]
          have hb1 := @sd_rect_calc α cfg dims itemrect h (MINITEMS cfg)
            (Node.mk S ht false (A ++ [x]) (RA ++ [rx])) x (sd_child_at hA) hxw.2 (by omega)
          have e2 : S[MINITEMS cfg]? = none := by
            rw [List.getElem?_eq_none]; omega
          rw [sd_items_mk, e2] at hb1
          simp only [List.tail_cons] at hBt
          simp only [List.head?_cons, Option.toList_some] at hbox
          refine ⟨_, _, _, rfl, ?_, ?_, ?_, ?_, fun y => ?_⟩
          · rw [e1]
            exact sd_stight_one hA hS hRA rfl rfl (by simp; omega) hAt (by simp [TightL]) hAw
              (fun c hc => by simp at hc) hxw (by simpa using hb1)
          · exact sd_stight_mk_branch rfl (by simp; omega) (by simp; omega) (by simp; omega)
              (by simpa using hBt) (by simpa using hBw)
          · rw [e1]; simp; omega
          · simp; omega
          · rw [e1, sd_mem_one y (hA.trans hS.symm) (by simp; omega),
              sd_mem_one y (hA.trans hS.symm) rfl, sd_mem_mk _ _ _ _ _ (by omega)]
            simp only [List.mem_cons, List.not_mem_nil, false_or, or_false, exists_false,
              false_and]
            constructor
            · rintro ((h1 | (h1 | h1) | h1 | h1) | h1)
              · exact Or.inl (Or.inl (Or.inl h1))
              · exact Or.inr (Or.inl h1)
              · exact Or.inr (Or.inr (Or.inl h1))
              · exact Or.inl (Or.inl (Or.inr h1))
              · exact Or.inr (Or.inr (Or.inr h1))
              · exact Or.inl (Or.inr h1)
            · rintro (((h1 | h1) | h1) | h1 | h1 | h1)
              · exact Or.inl (Or.inl h1)
              · exact Or.inl (Or.inr (Or.inr (Or.inl h1)))
              · exact Or.inr h1
              · exact Or.inl (Or.inr (Or.inl (Or.inl h1)))
              · exact Or.inl (Or.inr (Or.inl (Or.inr h1)))
              · exact Or.inl (Or.inr (Or.inr (Or.inr h1)))

theorem sn_shift_eq {i ht : Nat} {A B : List (Node α)} {RA RB : List Rect} {S T : List α}
    {c l r : Node α} {rc : Rect} (m : α) (hA : A.length = i) (hS : S.length = i)
    (hRA : RA.length = i) :
    ((shift_right (Node.mk (S ++ T) ht false (A ++ c :: B) (RA ++ rc :: RB)) i m).setChild i
        l).setChild (i + 1) r =
      Node.mk (S ++ m :: T) ht false (A ++ l :: r :: B) (RA ++ rc :: rc :: RB) := by
  simp only [shift_right, Node.setChild, sd_items_mk, sd_height_mk, sd_isleaf_mk,
    sd_children_mk, sd_rects_mk, Bool.false_eq_true, if_false, app_take hS, app_drop hS,
    app_take1 hA, app_drop hA, app_take1 hRA, app_drop hRA, List.append_assoc,
    List.singleton_append]
  rw [app_set hA, app_set1 hA]

theorem sn_split_child_at {h i : Nat} {n : Node α}
    (hs : STight cfg dims itemrect (h + 2) n) (hi : i ≤ n.items.length)
    (hfull : (n.child i).items.length = MAXITEMS cfg)
    (hroom : n.items.length < MAXITEMS cfg) (mem : List Bool) :
    (split_child_at cfg dims itemrect n i mem).1 = none ∨
      ∃ n1, (split_child_at cfg dims itemrect n i mem).1 = some n1 ∧
        STight cfg dims itemrect (h + 2) n1 ∧ (∀ x, x ∈ flat n1 ↔ x ∈ flat n) ∧
        n1.items.length = n.items.length + 1 := by
  obtain ⟨ht, A, c, B, RA, rc, RB, S, T, rfl, hA, hS, hRA⟩ := sd_branch_at hs hi
  obtain ⟨_, hB, hRB, hlen2, hAt, hBt, hAw, hBw, hcw, hbox⟩ := sd_stight_one_inv hA hS hRA hs
  rw [sd_child_at hA] at hfull
  simp only [sd_items_mk] at hroom
  unfold split_child_at
  rw [sd_child_at hA]
  rcases sn_split hcw.2 hfull mem with hn | ⟨l, m, r, hsp, hl, hr, hll, hrl, hmem⟩
  · left
    cases hsplit : split cfg dims itemrect c mem with
    | mk o mem1 =>
      rw [hsplit] at hn
      simp only at hn
      subst hn
      rfl
  · right
    cases hsplit : split cfg dims itemrect c mem with
    | mk o mem1 =>
      rw [hsplit] at hsp
      simp only at hsp
      subst hsp
      simp only []
      rw [sn_shift_eq m hA hS hRA]
      obtain ⟨k1, k2, k3⟩ := @sd_pair_update α cfg dims itemrect h i ht A B RA RB S T l r m rc rc
        hA hS hRA hB hRB (by simp at hroom ⊢; omega) hAt hBt hAw hBw ⟨by omega, hl⟩
        ⟨by omega, hr⟩
      refine ⟨_, rfl, k1, fun x => ?_, by rw [k3]; simp; omega⟩
      rw [k2 x, sd_mem_one x (hA.trans hS.symm) hB, hmem x]

theorem sn_split_root {h : Nat} {root : Node α}
    (hs : STight cfg dims itemrect (h + 1) root)
    (hfull : root.items.length = MAXITEMS cfg) (mem : List Bool) :
    (split_root cfg dims itemrect root mem).1 = none ∨
      ∃ nr, (split_root cfg dims itemrect root mem).1 = some nr ∧
        STight cfg dims itemrect (h + 2) nr ∧ (∀ x, x ∈ flat nr ↔ x ∈ flat root) ∧
        nr.items.length = 1 := by
  have hmax := max_eq cfg
  have hmin := min_pos cfg
  unfold split_root
  rcases sn_alloc false mem with ha | ha
  · left
    cases hal : (alloc_node false mem : Option (Node α) × List Bool) with
    | mk o mem1 =>
      rw [hal] at ha
      simp only at ha
      subst ha
      rfl
  · cases hal : (alloc_node false mem : Option (Node α) × List Bool) with
    | mk o mem1 =>
      rw [hal] at ha
      simp only at ha
      subst ha
      simp only []
      rcases sn_split hs hfull mem1 with hn | ⟨l, m, r, hsp, hl, hr, hll, hrl, hmem⟩
      · left
        cases hsplit : split cfg dims itemrect root mem1 with
        | mk o mem2 =>
          rw [hsplit] at hn
          simp only at hn
          subst hn
          rfl
      · right
        cases hsplit : split cfg dims itemrect root mem1 with
        | mk o mem2 =>
          rw [hsplit] at hsp
          simp only at hsp
          subst hsp
          simp only [fresh, sd_isleaf_mk]
          obtain ⟨k1, k2, k3⟩ := @sd_pair_update α cfg dims itemrect h 0 (root.height + 1)
            [] [] [] [] [] [] l r m (Rect.mk [] []) (Rect.mk [] []) rfl rfl rfl rfl rfl
            (by simp; omega) (by simp [TightL]) (by simp [TightL])
            (fun c hc => by simp at hc) (fun c hc => by simp at hc) ⟨by omega, hl⟩
            ⟨by omega, hr⟩
          simp only [List.nil_append] at k1 k2 k3
          refine ⟨_, rfl, k1, fun x => ?_, by rw [k3]; simp⟩
          rw [k2 x, hmem x]
          simp

end snsplit

end Spatial

namespace Spatial

section sngive
variable {cfg : Config} {cmp : α → α → Int} {dims : Nat} {itemrect : α → List Int × List Int}

theorem sn_give_left_eq {i ht : Nat} {A B : List (Node α)} {R : List Rect} {S T : List α}
    {l r : Node α} {sep newsep : α} (b : Bool) (hA : A.length = i) (hS : S.length = i)
    (hn : r.items[give_n b r.len l.len - 1]? = some newsep) :
    give_left (Node.mk (S ++ sep :: T) ht false (A ++ l :: r :: B) R) (i + 1) b =
      Node.mk (S ++ newsep :: T) ht false
        (A ++ l.setItems (l.items ++ sep :: r.items.take (give_n b r.len l.len - 1)) ::
          r.setItems (r.items.drop (give_n b r.len l.len)) :: B) R := by
  unfold give_left
  simp only [Nat.add_sub_cancel]
  rw [sd_child_at hA, sd_child_at1 hA]
  simp only [sd_items_mk]
  rw [app_get hS, hn]
  simp only [Node.setItems, Node.setChild, sd_items_mk, sd_height_mk, sd_isleaf_mk,
    sd_children_mk, sd_rects_mk]
  rw [app_set hS, app_set hA, app_set1 hA]

theorem sn_give_left {i : Nat} {n : Node α} (hs : STight cfg dims itemrect 2 n)
    (hi0 : 0 < i) (hi : i ≤ n.items.length)
    (hl : (n.child (i - 1)).len < MINITEMS cfg + 1)
    (hr : (n.child i).len = MAXITEMS cfg) :
    STight cfg dims itemrect 2 (recalc_pair dims itemrect (give_left n i false) (i - 1)) ∧
      (∀ x, x ∈ flat (recalc_pair dims itemrect (give_left n i false) (i - 1)) ↔ x ∈ flat n) ∧
      (recalc_pair dims itemrect (give_left n i false) (i - 1)).items.length =
        n.items.length := by
  have hmax := max_eq cfg
  have hmin := min_pos cfg
  obtain ⟨j, rfl⟩ : ∃ j, i = j + 1 := ⟨i - 1, by omega⟩
  simp only [Nat.add_sub_cancel] at hl ⊢
  obtain ⟨ht, A, l, B, RA, rl, RB, S, T, rfl, hA, hS, hRA⟩ :=
    sd_branch_at hs (show j ≤ n.items.length by omega)
  obtain ⟨_, hB, hRB, hlen2, hAt, hBt, hAw, hBw, hlw, hbox⟩ := sd_stight_one_inv hA hS hRA hs
  simp only [sd_items_mk, List.length_append] at hi
  cases T with
  | nil => simp at hi; omega
  | cons sep T =>
    cases B with
    | nil => simp at hB
    | cons r B =>
      cases RB with
      | nil => simp at hRB
      | cons rr RB =>
        rw [sd_child_at hA] at hl
        rw [sd_child_at1 hA] at hr
        simp only [Node.len] at hl hr
        have hrw := hBw r (by simp)
        obtain ⟨e1, _⟩ := sd_stight_leaf hlw.2
        obtain ⟨e2, _⟩ := sd_stight_leaf hrw.2
        obtain ⟨li, lh, lf, lc, lr⟩ := l
        obtain ⟨ri, rh, rf, rc, rrs⟩ := r
        simp only [sd_isleaf_mk, sd_items_mk] at e1 e2 hl hr hlw hrw
        subst e1 e2
        have hll : li.length = MINITEMS cfg := by omega
        have hk : give_n false (Node.mk ri rh true rc rrs).len (Node.mk li lh true lc lr).len =
            MINITEMS cfg + 1 := by
          simp [give_n, Node.len]; omega
        have hlt : MINITEMS cfg < ri.length := by omega
        have hn : ri[MINITEMS cfg]? = some ri[MINITEMS cfg] := List.getElem?_eq_getElem hlt
        have hsplit := take_get_drop hn
        have hge := @sn_give_left_eq α j ht A B (RA ++ rl :: rr :: RB) S T
          (Node.mk li lh true lc lr) (Node.mk ri rh true rc rrs) sep ri[MINITEMS cfg] false hA hS
          (by rw [hk, sd_items_mk]; simp)
        rw [hge, hk]
        simp only [Node.setItems, sd_items_mk, sd_height_mk, sd_isleaf_mk, sd_children_mk,
          sd_rects_mk, Nat.add_sub_cancel]
        simp only [List.tail_cons, List.length_cons] at hBt hB hRB
        have hBt2 : TightL dims itemrect B RB T.tail := by
          unfold TightL at hBt
          exact hBt.2
        obtain ⟨k1, k2, k3⟩ := @sd_pair_update α cfg dims itemrect 0 j ht A B RA RB S T
          (Node.mk (li ++ sep :: List.take (MINITEMS cfg) ri) lh true lc lr)
          (Node.mk (List.drop (MINITEMS cfg + 1) ri) rh true rc rrs) ri[MINITEMS cfg] rl rr
          hA hS hRA (by omega) (by omega) (by simpa using hlen2) hAt hBt2 hAw
          (fun c hc => hBw c (List.mem_cons_of_mem _ hc))
          ⟨by simp; omega, sd_stight_mk_leaf rfl (by simp; omega)⟩
          ⟨by simp; omega, sd_stight_mk_leaf rfl (by simp; omega)⟩
        refine ⟨k1, fun x => ?_, by rw [k3]; simp⟩
        rw [k2 x, sd_mem_pair x (hA.trans hS.symm) (by omega)]
        simp only [sd_flat_mk_leaf, List.mem_append, List.mem_cons]
        conv_rhs => rw [hsplit]
        simp only [List.mem_append, List.mem_cons]
        constructor
        · rintro (h1 | (h1 | h1 | h1) | h1 | h1)
          · exact Or.inl h1
          · exact Or.inr (Or.inl h1)
          · exact Or.inr (Or.inr (Or.inl h1))
          · exact Or.inr (Or.inr (Or.inr (Or.inl h1)))
          · exact Or.inr (Or.inr (Or.inr (Or.inr (Or.inl h1))))
          · exact Or.inr (Or.inr (Or.inr (Or.inr (Or.inr h1))))
        · rintro (h1 | h1 | h1 | h1 | h1 | h1)
          · exact Or.inl h1
          · exact Or.inr (Or.inl (Or.inl h1))
          · exact Or.inr (Or.inl (Or.inr (Or.inl h1)))
          · exact Or.inr (Or.inl (Or.inr (Or.inr h1)))
          · exact Or.inr (Or.inr (Or.inl h1))
          · exact Or.inr (Or.inr (Or.inr h1))

theorem sn_set_back {β : Type} (l : List β) (i : Nat) (a d : β) :
    (l.set i a).set i (l.getD i d) = l := by
  by_cases hi : i < l.length
  · obtain ⟨A, c, B, rfl, hA⟩ := split_at_lt l i hi
    rw [app_set hA, app_set hA, app_getD hA]
  · have hle : l.length ≤ i := by omega
    rw [List.set_eq_of_length_le (by simpa using hle), List.set_eq_of_length_le hle]

theorem sn_restore (n : Node α) (i : Nat) (r : Rect) :
    (n.setRect i r).setRect i (n.rect i) = n := by
  obtain ⟨items, ht, lf, ch, rs⟩ := n
  simp only [Node.setRect, Node.rect, sd_items_mk, sd_height_mk, sd_isleaf_mk, sd_children_mk,
    sd_rects_mk, sn_set_back]

theorem sn_restore_child (n : Node α) (i : Nat) (r : Rect) (c : Node α) :
    ((n.setRect i r).setChild i c).setRect i (n.rect i) = n.setChild i c := by
  obtain ⟨items, ht, lf, ch, rs⟩ := n
  simp only [Node.setRect, Node.setChild, Node.rect, sd_items_mk, sd_height_mk, sd_isleaf_mk,
    sd_children_mk, sd_rects_mk, sn_set_back]

theorem sn_setRect_child (n : Node α) (i k : Nat) (r : Rect) :
    (n.setRect i r).child k = n.child k := by
  cases n; rfl

theorem sn_walk_le (n : Node α) (act : InsAct) (index : Nat) (item : α) {ci cx : Nat}
    {cf : Bool}
    (h : (if n.isleaf = true ∧
          (index > n.len ∨ (index = n.len ∧ act = InsAct.REPAT)) then
        Locate.exit Status.NOTFOUND
      else
        if cfg.noorder = false ∧ insert1_order cmp n act
            (if n.isleaf then (index, true, index) else index_walk n n.len 0 index).1
            (if n.isleaf then (index, true, index) else index_walk n n.len 0 index).2.1
            item = false then
          Locate.exit Status.OUTOFORDER
        else Locate.slot
          (if n.isleaf then (index, true, index) else index_walk n n.len 0 index).1
          (if act = InsAct.INSAT then false
            else (if n.isleaf then (index, true, index) else index_walk n n.len 0 index).2.1)
          (if n.isleaf then (index, true, index) else index_walk n n.len 0 index).2.2) =
      Locate.slot ci cf cx) :
    ci ≤ n.items.length := by
  by_cases h1 : n.isleaf = true ∧ (index > n.len ∨ (index = n.len ∧ act = InsAct.REPAT))
  · rw [if_pos h1] at h; cases h
  · rw [if_neg h1] at h
    by_cases h2 : cfg.noorder = false ∧ insert1_order cmp n act
        (if n.isleaf then (index, true, index) else index_walk n n.len 0 index).1
        (if n.isleaf then (index, true, index) else index_walk n n.len 0 index).2.1
        item = false
    · rw [if_pos h2] at h; cases h
    · rw [if_neg h2] at h
      simp only [Locate.slot.injEq] at h
      rw [← h.1]
      by_cases hl : n.isleaf = true
      · simp only [hl, if_true]
        simp only [hl, true_and, not_or, not_lt, Node.len] at h1
        exact h1.1
      · simp only [hl, Bool.false_eq_true, if_false]
        have := sd_index_walk n n.len 0 index
        simp only [Node.len] at this ⊢
        omega

theorem sn_locate_le (n : Node α) (act : InsAct) (index : Nat) (item : α) {ci cx : Nat}
    {cf : Bool} (h : insert1_locate cfg cmp n act index item = Locate.slot ci cf cx) :
    ci ≤ n.items.length := by
  cases act
  · simp only [insert1_locate, Locate.slot.injEq] at h
    rw [← h.1]
    exact (sd_search_lt cmp n.items item).1
  · exact sn_walk_le n InsAct.INSAT index item h
  · exact sn_walk_le n InsAct.REPAT index item h
  · simp only [insert1_locate] at h
    split at h
    · cases h
    · simp only [Locate.slot.injEq] at h
      omega
  · simp only [insert1_locate] at h
    split at h
    · cases h
    · simp only [Locate.slot.injEq, Node.len] at h
      omega

end sngive

end Spatial

namespace Spatial

section snloop
variable {cfg : Config} {cmp : α → α → Int} {dims : Nat} {itemrect : α → List Int × List Int}

theorem sn_locate_exit (n : Node α) (act : InsAct) (index : Nat) (item : α) {ret : Status}
    (h : insert1_locate cfg cmp n act index item = Locate.exit ret) :
    ret ≠ Status.MUSTSPLIT ∧ ret ≠ Status.NOMEM := by
  have key : ret = Status.OUTOFORDER ∨ ret = Status.NOTFOUND := by
    cases act <;> simp only [insert1_locate] at h
    · cases h
    · split_ifs at h
      all_goals (simp only [Locate.exit.injEq] at h; simp [← h])
    · split_ifs at h
      all_goals (simp only [Locate.exit.injEq] at h; simp [← h])
    · split_ifs at h
      all_goals (simp only [Locate.exit.injEq] at h; simp [← h])
    · split_ifs at h
      all_goals (simp only [Locate.exit.injEq] at h; simp [← h])
  rcases key with e | e <;> subst e <;> exact ⟨by decide, by decide⟩

theorem sn_child_tight {h i : Nat} {n : Node α} (hs : STight cfg dims itemrect (h + 2) n)
    (hi : i ≤ n.items.length) :
    STight cfg dims itemrect (h + 1) (n.child i) ∧ MINITEMS cfg ≤ (n.child i).items.length := by
  obtain ⟨ht, A, c, B, RA, rc, RB, S, T, rfl, hA, hS, hRA⟩ := sd_branch_at hs hi
  obtain ⟨_, _, _, _, _, _, _, _, hcw, _⟩ := sd_stight_one_inv hA hS hRA hs
  rw [sd_child_at hA]
  exact ⟨hcw.2, hcw.1⟩

theorem sn_wrap_ret (n : Node α) (i : Nat) (item : α) (r : InsRes α) :
    (insert1_wrap dims itemrect n i item r).ret = r.ret := by
  unfold insert1_wrap
  split_ifs <;> rfl

theorem sn_wrap_node (n : Node α) (i : Nat) (item : α) (r : InsRes α)
    (h : r.ret = Status.MUSTSPLIT ∨ r.ret = Status.NOMEM) :
    (insert1_wrap dims itemrect n i item r).node = n.setChild i r.node := by
  unfold insert1_wrap
  rw [if_neg (by rcases h with e | e <;> rw [e] <;> decide),
    if_neg (by rcases h with e | e <;> rw [e] <;> decide)]

theorem sn_trans {h : Nat} {n n1 : Node α} {ret : Status} {node : Node α}
    (hm : ∀ x, x ∈ flat n1 ↔ x ∈ flat n) (hl : n.items.length ≤ n1.items.length)
    (ht : InsTight cfg dims itemrect h n1 ret node) :
    InsTight cfg dims itemrect h n ret node := by
  intro hr
  obtain ⟨a, b, c, d⟩ := ht hr
  exact ⟨a, fun x => (b x).trans (hm x), by omega, d⟩

theorem sn_act_tail (act : InsAct) (item : α) (fuel : Nat) (h : Nat)
    (ih : ∀ (n : Node α) (index oindex i : Nat) (found : Bool) (mem : List Bool),
      STight cfg dims itemrect (h + 2) n → i ≤ n.items.length →
      InsTight cfg dims itemrect (h + 1) n
        (insert1_act_loop cfg cmp dims itemrect act item fuel n index oindex i found mem).ret
        (insert1_act_loop cfg cmp dims itemrect act item fuel n index oindex i found mem).node)
    (n : Node α) (index oindex i : Nat) (rs : InsRes α)
    (hs : STight cfg dims itemrect (h + 2) n) (hi : i ≤ n.items.length)
    (hr : InsTight cfg dims itemrect h (n.child i) rs.ret rs.node) :
    InsTight cfg dims itemrect (h + 1) n
      (if rs.ret ≠ Status.MUSTSPLIT ∨ n.len = MAXITEMS cfg then
        insert1_wrap dims itemrect n i item rs
      else
        match split_child_at cfg dims itemrect (n.setChild i rs.node) i rs.mem with
        | (none, mem1) => InsRes.mk Status.NOMEM (n.setChild i rs.node) none mem1
        | (some node1, mem1) =>
          if act = InsAct.INSITEM then
            match node1.items[i]? with
            | some s =>
              if cmp item s ≤ 0 then
                insert1_act_loop cfg cmp dims itemrect act item fuel node1 index oindex i
                  (decide (cmp item s = 0)) mem1
              else
                insert1_act_loop cfg cmp dims itemrect act item fuel node1 index oindex (i + 1)
                  false mem1
            | none => InsRes.mk Status.FUEL node1 none mem1
          else
            match insert1_locate cfg cmp node1 act
                (if act = InsAct.INSAT then oindex else index) item with
            | Locate.exit ret => InsRes.mk ret node1 none mem1
            | Locate.slot ci cfound cindex =>
              insert1_act_loop cfg cmp dims itemrect act item fuel node1 cindex
                (if act = InsAct.INSAT then oindex else index) ci cfound mem1).ret
      (if rs.ret ≠ Status.MUSTSPLIT ∨ n.len = MAXITEMS cfg then
        insert1_wrap dims itemrect n i item rs
      else
        match split_child_at cfg dims itemrect (n.setChild i rs.node) i rs.mem with
        | (none, mem1) => InsRes.mk Status.NOMEM (n.setChild i rs.node) none mem1
        | (some node1, mem1) =>
          if act = InsAct.INSITEM then
            match node1.items[i]? with
            | some s =>
              if cmp item s ≤ 0 then
                insert1_act_loop cfg cmp dims itemrect act item fuel node1 index oindex i
                  (decide (cmp item s = 0)) mem1
              else
                insert1_act_loop cfg cmp dims itemrect act item fuel node1 index oindex (i + 1)
                  false mem1
            | none => InsRes.mk Status.FUEL node1 none mem1
          else
            match insert1_locate cfg cmp node1 act
                (if act = InsAct.INSAT then oindex else index) item with
            | Locate.exit ret => InsRes.mk ret node1 none mem1
            | Locate.slot ci cfound cindex =>
              insert1_act_loop cfg cmp dims itemrect act item fuel node1 cindex
                (if act = InsAct.INSAT then oindex else index) ci cfound mem1).node := by
  have hlenmax := (sd_stight_branch hs).2.1
  by_cases hsp : rs.ret ≠ Status.MUSTSPLIT ∨ n.len = MAXITEMS cfg
  · rw [if_pos hsp]
    rw [sn_wrap_ret]
    intro hret
    rw [sn_wrap_node n i item rs hret]
    obtain ⟨a, b, c, d⟩ := hr hret
    obtain ⟨k1, k2, k3, _⟩ := sn_replace_child hs hi a b c
    refine ⟨k1, k2, by rw [k3], fun e => ?_⟩
    rw [k3]
    rcases hsp with hsp | hsp
    · exact absurd e hsp
    · exact hsp
  · rw [if_neg hsp]
    simp only [not_or, not_not] at hsp
    obtain ⟨a, b, c, d⟩ := hr (Or.inl hsp.1)
    obtain ⟨k1, k2, k3, k4⟩ := sn_replace_child hs hi a b c
    have hroom : (n.setChild i rs.node).items.length < MAXITEMS cfg := by
      rw [k3]
      have := hsp.2
      simp only [Node.len] at this
      omega
    have hfull : ((n.setChild i rs.node).child i).items.length = MAXITEMS cfg := by
      rw [k4]; exact d hsp.1
    have hi2 : i ≤ (n.setChild i rs.node).items.length := by rw [k3]; exact hi
    rcases sn_split_child_at k1 hi2 hfull hroom rs.mem with hn | ⟨n1, hn, s1, s2, s3⟩
    · cases hsplit : split_child_at cfg dims itemrect (n.setChild i rs.node) i rs.mem with
      | mk o mem1 =>
        rw [hsplit] at hn
        simp only at hn
        subst hn
        simp only []
        intro _
        exact ⟨k1, k2, by rw [k3], fun e => by cases e⟩
    · cases hsplit : split_child_at cfg dims itemrect (n.setChild i rs.node) i rs.mem with
      | mk o mem1 =>
        rw [hsplit] at hn
        simp only at hn
        subst hn
        simp only []
        have hm1 : ∀ x, x ∈ flat n1 ↔ x ∈ flat n := fun x => (s2 x).trans (k2 x)
        have hl1 : n.items.length ≤ n1.items.length := by rw [s3, k3]; omega
        have hl2 : n1.items.length = n.items.length + 1 := by rw [s3, k3]
        by_cases ha : act = InsAct.INSITEM
        · rw [if_pos ha]
          cases hget : n1.items[i]? with
          | none =>
            simp only []
            intro e
            rcases e with e | e <;> cases e
          | some s =>
            simp only []
            split_ifs
            · exact sn_trans hm1 hl1 (ih n1 index oindex i _ mem1 s1 (by omega))
            · exact sn_trans hm1 hl1 (ih n1 index oindex (i + 1) false mem1 s1 (by omega))
        · rw [if_neg ha]
          cases hloc : insert1_locate cfg cmp n1 act
              (if act = InsAct.INSAT then oindex else index) item with
          | exit ret =>
            simp only []
            intro e
            have := sn_locate_exit n1 act _ item hloc
            rcases e with e | e
            · exact absurd e this.1
            · exact absurd e this.2
          | slot ci cfound cindex =>
            simp only []
            exact sn_trans hm1 hl1 (ih n1 cindex _ ci cfound mem1 s1
              (sn_locate_le n1 act _ item hloc))

theorem sn_act_loop (act : InsAct) (item : α) :
    ∀ (fuel h : Nat) (n : Node α) (index oindex i : Nat) (found : Bool) (mem : List Bool),
    STight cfg dims itemrect (h + 1) n → i ≤ n.items.length →
    InsTight cfg dims itemrect h n
      (insert1_act_loop cfg cmp dims itemrect act item fuel n index oindex i found mem).ret
      (insert1_act_loop cfg cmp dims itemrect act item fuel n index oindex i found mem).node
  | 0, h, n, index, oindex, i, found, mem, hs, hi => by
    intro e
    rcases e with e | e <;> cases e
  | fuel + 1, h, n, index, oindex, i, found, mem, hs, hi => by
    rw [insert1_act_loop]
    by_cases hf : found = true
    · rw [if_pos hf]
      intro e
      rcases e with e | e <;> cases e
    · rw [if_neg hf]
      by_cases hl : n.isleaf = true
      · rw [if_pos hl]
        by_cases hfull : n.len = MAXITEMS cfg
        · rw [if_pos hfull]
          intro _
          exact ⟨hs, fun x => Iff.rfl, le_refl _, fun _ => hfull⟩
        · rw [if_neg hfull]
          intro e
          rcases e with e | e <;> cases e
      · rw [if_neg hl]
        cases h with
        | zero => exact absurd (sd_stight_leaf hs).1 hl
        | succ h =>
          obtain ⟨hct, _⟩ := sn_child_tight hs hi
          cases hloc : insert1_locate cfg cmp (n.child i) act index item with
          | exit ret =>
            exact sn_act_tail act item fuel h
              (fun a b c d e f => sn_act_loop act item fuel (h + 1) a b c d e f) n index oindex i
              (InsRes.mk ret (n.child i) none mem) hs hi
              (fun e => by
                have := sn_locate_exit (n.child i) act index item hloc
                rcases e with e | e
                · exact absurd e this.1
                · exact absurd e this.2)
          | slot ci cfound cindex =>
            exact sn_act_tail act item fuel h
              (fun a b c d e f => sn_act_loop act item fuel (h + 1) a b c d e f) n index oindex i _
              hs hi
              (sn_act_loop act item fuel h (n.child i) cindex index ci cfound mem hct
                (sn_locate_le (n.child i) act index item hloc))

theorem sn_insert1_act (act : InsAct) (item : α) (fuel h : Nat) (n : Node α) (index : Nat)
    (mem : List Bool) (hs : STight cfg dims itemrect (h + 1) n) :
    InsTight cfg dims itemrect h n
      (insert1_act cfg cmp dims itemrect fuel n act index item mem).ret
      (insert1_act cfg cmp dims itemrect fuel n act index item mem).node := by
  unfold insert1_act
  cases hloc : insert1_locate cfg cmp n act index item with
  | exit ret =>
    simp only []
    intro e
    have := sn_locate_exit n act index item hloc
    rcases e with e | e
    · exact absurd e this.1
    · exact absurd e this.2
  | slot ci cfound cindex =>
    exact sn_act_loop act item fuel h n cindex index ci cfound mem hs
      (sn_locate_le n act index item hloc)

theorem sn_insert0_act_loop (act : InsAct) (index : Nat) (item : α) :
    ∀ (k h : Nat) (n : Node α) (mem : List Bool),
    STight cfg dims itemrect (h + 1) n → 1 ≤ n.items.length →
    (insert0_act_loop cfg cmp dims itemrect act index item k n mem).ret = Status.NOMEM →
    ∃ rt, (insert0_act_loop cfg cmp dims itemrect act index item k n mem).root = some rt ∧
      1 ≤ rt.items.length ∧ (∃ h2, STight cfg dims itemrect (h2 + 1) rt) ∧
      ∀ x, x ∈ flat rt ↔ x ∈ flat n
  | 0, h, n, mem, hs, hm, hr => by
    simp [insert0_act_loop] at hr
  | k + 1, h, n, mem, hs, hm, hr => by
    rw [insert0_act_loop] at hr ⊢
    have key := @sn_insert1_act α cfg cmp dims itemrect act item (2 * depth n) h n index mem hs
    generalize insert1_act cfg cmp dims itemrect (2 * depth n) n act index item mem = rs
      at key hr ⊢
    obtain ⟨sret, snode, sold, smem⟩ := rs
    simp only [] at key hr ⊢
    by_cases hret : sret ≠ Status.MUSTSPLIT
    · rw [if_pos hret] at hr ⊢
      simp only at hr
      obtain ⟨a, b, c, _⟩ := key (Or.inr hr)
      exact ⟨snode, rfl, by omega, ⟨h, a⟩, b⟩
    · rw [if_neg hret] at hr ⊢
      simp only [not_not] at hret
      obtain ⟨a, b, c, d⟩ := key (Or.inl hret)
      rcases sn_split_root a (d hret) smem with hn | ⟨nr, hn, s1, s2, s3⟩
      · cases hsplit : split_root cfg dims itemrect snode smem with
        | mk o mem2 =>
          rw [hsplit] at hn
          simp only at hn
          subst hn
          exact ⟨snode, rfl, by omega, ⟨h, a⟩, b⟩
      · cases hsplit : split_root cfg dims itemrect snode smem with
        | mk o mem2 =>
          rw [hsplit] at hn hr
          simp only at hn hr
          subst hn
          simp only []
          obtain ⟨rt, e1, e2, e3, e4⟩ := sn_insert0_act_loop act index item k (h + 1) nr mem2 s1
            (by omega) hr
          exact ⟨rt, e1, e2, e3, fun x => (e4 x).trans ((s2 x).trans (b x))⟩

theorem sn_insert0_act (act : InsAct) (index : Nat) (item : α) (root : Option (Node α))
    (mem : List Bool) (hinv : SInv cfg dims itemrect root)
    (hr : (insert0_act cfg cmp dims itemrect root act index item mem).ret = Status.NOMEM) :
    SInv cfg dims itemrect (insert0_act cfg cmp dims itemrect root act index item mem).root := by
  cases root with
  | none =>
    unfold insert0_act at hr ⊢
    simp only [] at hr ⊢
    by_cases hc : act = InsAct.REPAT ∨ (act = InsAct.INSAT ∧ index > 0)
    · rw [if_pos hc] at hr
      simp at hr
    · rw [if_neg hc] at hr ⊢
      cases hal : (alloc_node true mem : Option (Node α) × List Bool) with
      | mk o mem1 =>
        rw [hal] at hr
        cases o with
        | none => trivial
        | some nd => cases hr
  | some r =>
    obtain ⟨hm, h, hs⟩ := hinv
    obtain ⟨rt, e1, e2, e3, _⟩ := sn_insert0_act_loop act index item 2 h r mem hs hm hr
    show SInv cfg dims itemrect (insert0_act_loop cfg cmp dims itemrect act index item 2 r mem).root
    rw [e1]
    exact ⟨e2, e3⟩

end snloop

end Spatial

namespace Spatial

section snfast
variable {cfg : Config} {cmp : α → α → Int} {dims : Nat} {itemrect : α → List Int × List Int}

theorem sn_fast_trans {h : Nat} {n n1 : Node α} {res : FastRes α}
    (hm : ∀ x, x ∈ flat n1 ↔ x ∈ flat n) (hl : n.items.length ≤ n1.items.length)
    (hb : n1.isleaf = false) (ht : FastTight cfg dims itemrect h n1 res) :
    FastTight cfg dims itemrect h n res := by
  cases res with
  | done ret node old mem => exact ht
  | brk ret node old mem =>
    intro hr
    obtain ⟨a, b, c⟩ := ht hr
    exact ⟨a, fun x => (b x).trans (hm x), by omega⟩
  | full =>
    have := ht.1
    rw [hb] at this
    cases this

mutual
theorem sn_fast_loop (item : α) :
    ∀ (fuel h : Nat) (n : Node α) (mem : List Bool), STight cfg dims itemrect (h + 1) n →
    FastTight cfg dims itemrect h n (insert_fast_loop cfg cmp dims itemrect item fuel n mem)
  | 0, h, n, mem, hs => by
    intro e
    rcases e with e | e <;> cases e
  | fuel + 1, h, n, mem, hs => by
    rw [insert_fast_loop]
    by_cases hf : (search cmp n item).2 = true
    · rw [if_pos hf]
      intro e
      rcases e with e | e <;> cases e
    · rw [if_neg hf]
      by_cases hl : n.isleaf = true
      · rw [if_pos hl]
        by_cases hfull : n.len = MAXITEMS cfg
        · rw [if_pos hfull]
          exact ⟨hl, hfull⟩
        · rw [if_neg hfull]
          rfl
      · rw [if_neg hl]
        cases h with
        | zero => exact absurd (sd_stight_leaf hs).1 hl
        | succ h =>
          exact sn_fast_down item fuel h n _ mem hs (sd_search_lt cmp n.items item).1
theorem sn_fast_down (item : α) :
    ∀ (fuel h : Nat) (n : Node α) (i : Nat) (mem : List Bool),
    STight cfg dims itemrect (h + 2) n → i ≤ n.items.length →
    FastTight cfg dims itemrect (h + 1) n
      (insert_fast_down cfg cmp dims itemrect item fuel n i mem)
  | 0, h, n, i, mem, hs, hi => by
    intro e
    rcases e with e | e <;> cases e
  | fuel + 1, h, n, i, mem, hs, hi => by
    rw [insert_fast_down]
    obtain ⟨hct, _⟩ := sn_child_tight hs hi
    have hnl := (sd_stight_branch hs).1
    have hlenmax := (sd_stight_branch hs).2.1
    rw [sn_setRect_child]
    have ih := sn_fast_loop item fuel h (n.child i) mem hct
    generalize insert_fast_loop cfg cmp dims itemrect item fuel (n.child i) mem = res at ih ⊢
    cases res with
    | done ret c old m => exact ih
    | brk ret c old m =>
      simp only []
      rw [sn_restore_child]
      intro hr
      obtain ⟨a, b, c2⟩ := ih hr
      obtain ⟨k1, k2, k3, _⟩ := sn_replace_child hs hi a b c2
      exact ⟨k1, k2, by rw [k3]⟩
    | full =>
      simp only []
      rw [sn_restore]
      obtain ⟨cl, cfull⟩ := ih
      have h0 : h = 0 := by
        cases h with
        | zero => rfl
        | succ h =>
          have := (sd_stight_branch hct).1
          rw [cl] at this
          cases this
      subst h0
      by_cases hfull : n.len = MAXITEMS cfg
      · rw [if_pos hfull]
        intro _
        exact ⟨hs, fun x => Iff.rfl, le_refl _⟩
      · rw [if_neg hfull]
        by_cases hg : 0 < i ∧ (n.child (i - 1)).len < MINITEMS cfg + 1
        · rw [if_pos hg]
          obtain ⟨g1, g2, g3⟩ := @sn_give_left α cfg dims itemrect i n hs hg.1 hi hg.2 cfull
          exact sn_fast_trans g2 (by omega) (sd_stight_branch g1).1
            (sn_fast_loop item fuel 1 _ mem g1)
        · rw [if_neg hg]
          have hroom : n.items.length < MAXITEMS cfg := by
            simp only [Node.len] at hfull
            omega
          rcases sn_split_child_at hs hi cfull hroom mem with hn | ⟨n1, hn, s1, s2, s3⟩
          · cases hsplit : split_child_at cfg dims itemrect n i mem with
            | mk o mem1 =>
              rw [hsplit] at hn
              simp only at hn
              subst hn
              simp only []
              intro _
              exact ⟨hs, fun x => Iff.rfl, le_refl _⟩
          · cases hsplit : split_child_at cfg dims itemrect n i mem with
            | mk o mem1 =>
              rw [hsplit] at hn
              simp only at hn
              subst hn
              simp only []
              cases hget : n1.items[i]? with
              | none =>
                simp only []
                intro e
                rcases e with e | e <;> cases e
              | some s =>
                simp only []
                refine sn_fast_trans s2 (by omega) (sd_stight_branch s1).1
                  (sn_fast_down item fuel 0 n1 _ mem1 s1 ?_)
                split_ifs <;> omega
end

theorem sn_fastpath (item : α) (root : Option (Node α)) (mem : List Bool)
    (hinv : SInv cfg dims itemrect root)
    (hr : (insert_fastpath cfg cmp dims itemrect root item mem).ret = Status.NOMEM ∨
      (insert_fastpath cfg cmp dims itemrect root item mem).ret = Status.NONE) :
    SInv cfg dims itemrect (insert_fastpath cfg cmp dims itemrect root item mem).root := by
  cases root with
  | none => trivial
  | some r =>
    obtain ⟨hm, h, hs⟩ := hinv
    unfold insert_fastpath at hr ⊢
    simp only [] at hr ⊢
    have ih := @sn_fast_loop α cfg cmp dims itemrect item (2 * depth r + 2 * FANOUTUSED cfg) h r
      mem hs
    generalize insert_fast_loop cfg cmp dims itemrect item (2 * depth r + 2 * FANOUTUSED cfg) r
      mem = res at ih hr ⊢
    cases res with
    | done ret c old m =>
      simp only [] at hr ⊢
      have : ret = Status.INSERTED := ih
      subst this
      rcases hr with e | e <;> cases e
    | brk ret c old m =>
      simp only [] at hr ⊢
      obtain ⟨a, _, c2⟩ := ih hr
      exact ⟨by omega, h, a⟩
    | full => exact ⟨hm, h, hs⟩

theorem sn_insert (item : α) (root : Option (Node α)) (mem : List Bool)
    (hinv : SInv cfg dims itemrect root)
    (hr : (insert cfg cmp dims itemrect root item mem).ret = Status.NOMEM) :
    SInv cfg dims itemrect (insert cfg cmp dims itemrect root item mem).root := by
  unfold insert at hr ⊢
  cases hno : cfg.noorder
  · simp only [hno, Bool.false_eq_true, if_false] at hr ⊢
    have key := @sn_fastpath α cfg cmp dims itemrect item root mem hinv
    generalize insert_fastpath cfg cmp dims itemrect root item mem = t at key hr ⊢
    obtain ⟨ret, root1, old, mem1⟩ := t
    simp only [] at key hr ⊢
    by_cases hret : ret ≠ Status.NONE
    · rw [if_pos hret] at hr ⊢
      simp only at hr
      exact key (Or.inl hr)
    · rw [if_neg hret] at hr ⊢
      simp only [not_not] at hret
      rw [← sp_insert0_act_insitem item 0] at hr ⊢
      exact sn_insert0_act InsAct.INSITEM 0 item root1 mem1 (key (Or.inr hret)) hr
  · simp only [hno, if_true] at hr
    cases hr

end snfast

end Spatial

namespace Spatial

section snfinal
variable {cfg : Config} {cmp : α → α → Int} {dims : Nat} {itemrect : α → List Int × List Int}

theorem fg_items_of (t : Option (Node α)) : Bgen.items_of (forget_root t) = items_of t := by
  cases t with
  | none => rfl
  | some r => exact fg_flat r

theorem sn_final {act : InsAct} {idx : Nat} {root : Option (Node α)} {item : α}
    {mem : List Bool} {tb : Bgen.TreeRes α} {ts : InsTree α}
    (hinv : Inv cfg cmp (forget_root root))
    (hout : TreeOut cfg cmp act item idx (forget_root root) mem tb)
    (hsim : TreeSim tb ts) (hr : ts.ret = Status.NOMEM)
    (hs : SInv cfg dims itemrect ts.root) :
    SpatialInv cfg cmp dims itemrect ts.root ∧ sane cfg cmp dims itemrect ts.root = true ∧
      (scan ts.root (fun y (acc : List α) => (true, acc ++ [y])) []).2 =
        (scan root (fun y (acc : List α) => (true, acc ++ [y])) []).2 := by
  obtain ⟨k1, k2, _⟩ := hsim
  obtain ⟨h1, _, h3, _⟩ := treeOut_nomem hinv hout (k1.trans hr)
  rw [k2] at h1 h3
  have hsp : SpatialInv cfg cmp dims itemrect ts.root := ⟨h1, hs⟩
  refine ⟨hsp, sp_sane_of_inv hsp, ?_⟩
  rw [scan_items_of, scan_items_of, ← fg_items_of, h3, fg_items_of]

/-- On a spatial build: when `insert`, `push_front`, `push_back`, `insert_at`
or `replace_at` returns `NOMEM` on a tree satisfying the invariants, the tree
satisfies them again, rectangles included, `sane` returns `true` and the scan
emits the sequence it emitted before. -/
theorem sn_nomem (hc : cfg.counted = false) (ho : OrdOK cfg cmp) (item : α) (index : Nat)
    (mem : List Bool) (root : Option (Node α))
    (hinv : SpatialInv cfg cmp dims itemrect root) (ts : InsTree α)
    (ht : ts = insert cfg cmp dims itemrect root item mem ∨
      ts = push_front cfg cmp dims itemrect root item mem ∨
      ts = push_back cfg cmp dims itemrect root item mem ∨
      ts = insert_at cfg cmp dims itemrect root index item mem ∨
      ts = replace_at cfg cmp dims itemrect root index item mem)
    (hr : ts.ret = Status.NOMEM) :
    SpatialInv cfg cmp dims itemrect ts.root ∧ sane cfg cmp dims itemrect ts.root = true ∧
      (scan ts.root (fun y (acc : List α) => (true, acc ++ [y])) []).2 =
        (scan root (fun y (acc : List α) => (true, acc ++ [y])) []).2 := by
  obtain ⟨hi1, hi2⟩ := hinv
  rcases ht with rfl | rfl | rfl | rfl | rfl
  · cases hno : cfg.noorder
    · exact sn_final hi1 (insert_spec ho hno item (forget_root root) mem hi1)
        (fg_insert hc item root mem) hr (sn_insert item root mem hi2 hr)
    · simp [insert, hno] at hr
  · exact sn_final hi1 (insert0_spec ho (fun h => by cases h) 0 (forget_root root) mem hi1)
      (fg_insert0_act hc InsAct.PUSHFRONT 0 item root mem) hr
      (sn_insert0_act InsAct.PUSHFRONT 0 item root mem hi2 hr)
  · exact sn_final hi1 (insert0_spec ho (fun h => by cases h) 0 (forget_root root) mem hi1)
      (fg_insert0_act hc InsAct.PUSHBACK 0 item root mem) hr
      (sn_insert0_act InsAct.PUSHBACK 0 item root mem hi2 hr)
  · exact sn_final hi1 (insert0_spec ho (fun h => by cases h) index (forget_root root) mem hi1)
      (fg_insert0_act hc InsAct.INSAT index item root mem) hr
      (sn_insert0_act InsAct.INSAT index item root mem hi2 hr)
  · exact sn_final hi1 (insert0_spec ho (fun h => by cases h) index (forget_root root) mem hi1)
      (fg_insert0_act hc InsAct.REPAT index item root mem) hr
      (sn_insert0_act InsAct.REPAT index item root mem hi2 hr)

theorem treeN_spinv : SpatialInv cfgS icmp 1 lineW (some treeN) := by
  refine ⟨⟨?_, by decide, fun _ => ?_⟩, by decide, 1, ?_⟩
  · simp [treeN, leafS, forget, forgetL, WF, cfgS, MAXITEMS, MINITEMS, FANOUTUSED]
  · simp [treeN, leafS, forget, forgetL, Bgen.flat, Bgen.flatL, lt, icmp]
  · refine sd_stight_mk_branch rfl (by decide) rfl rfl ?_ ?_
    · simp [TightL, IsBox, treeN, leafS, flat, item_rect, lineW, Rect.lo, Rect.hi]
    · intro c hc
      simp only [treeN, sd_children_mk, List.mem_cons, List.mem_singleton, List.not_mem_nil,
        or_false] at hc
      rcases hc with rfl | rfl
      · exact ⟨by decide, sd_stight_mk_leaf rfl (by decide)⟩
      · exact ⟨by decide, sd_stight_mk_leaf rfl (by decide)⟩

end snfinal

end Spatial

theorem treeN_inv : Inv cfgW icmp (some treeN) := by
  refine ⟨?_, by decide, fun _ => ?_⟩
  · simp [treeN, leafW, WF, cfgW, MAXITEMS, MINITEMS, FANOUTUSED, flat]
  · simp [treeN, leafW, flat, flatL, lt, icmp]

/-- C29: for every tree satisfying the invariants (consistent comparator), every
item and every allocator script: if `insert`, `push_front` or `push_back`
returns `NOMEM` (as `insert_at` and `replace_at`), the resulting tree satisfies
the invariants, `sane` returns `true` on it (counts included), the scan emits
exactly the sequence it emitted before the call, the count is unchanged and no
old item is written.  The same on a build with `BGEN_SPATIAL` (not counted): for
every spatial tree that satisfies the invariants and whose stored rectangles
are tight covers, after `NOMEM` the tree satisfies the invariants again, every
stored rectangle is the tight cover of the items below it again (what
`insert_fastpath` had joined to the rectangles on its way down is undone), the
`sane` of the spatial build, which compares every stored rectangle with the
recomputed one, returns `true`, and the scan emits the sequence it emitted
before. -/
theorem nomem_leaves_tree (cfg : Config) (cmp : α → α → Int) (root : Option (Node α))
    (item : α) (index : Nat) (mem : List Bool) (ho : OrdOK cfg cmp)
    (hinv : Inv cfg cmp root) :
    (∀ t : TreeRes α,
      t = insert cfg cmp root item mem ∨ t = push_front cfg cmp root item mem ∨
        t = push_back cfg cmp root item mem ∨ t = insert_at cfg cmp root index item mem ∨
        t = replace_at cfg cmp root index item mem →
      t.ret = Status.NOMEM →
      Inv cfg cmp t.root ∧ sane cfg cmp t.root = true ∧
      (scan t.root (fun y (acc : List α) => (true, acc ++ [y])) []).2 =
        (scan root (fun y (acc : List α) => (true, acc ++ [y])) []).2 ∧
      count cfg t.root = count cfg root ∧ t.old = none) ∧
    ∀ (scfg : Config) (dims : Nat) (itemrect : α → List Int × List Int)
      (sroot : Option (Spatial.Node α)) (ts : Spatial.InsTree α),
      scfg.counted = false → OrdOK scfg cmp →
      Spatial.SpatialInv scfg cmp dims itemrect sroot →
      ts = Spatial.insert scfg cmp dims itemrect sroot item mem ∨
        ts = Spatial.push_front scfg cmp dims itemrect sroot item mem ∨
        ts = Spatial.push_back scfg cmp dims itemrect sroot item mem ∨
        ts = Spatial.insert_at scfg cmp dims itemrect sroot index item mem ∨
        ts = Spatial.replace_at scfg cmp dims itemrect sroot index item mem →
      ts.ret = Status.NOMEM →
      Spatial.SpatialInv scfg cmp dims itemrect ts.root ∧
      Spatial.sane scfg cmp dims itemrect ts.root = true ∧
      (Spatial.scan ts.root (fun y (acc : List α) => (true, acc ++ [y])) []).2 =
        (Spatial.scan sroot (fun y (acc : List α) => (true, acc ++ [y])) []).2 := by
  refine ⟨?_, fun scfg dims itemrect sroot ts hc hso hsi hts hr =>
    Spatial.sn_nomem hc hso item index mem sroot hsi ts hts hr⟩
  intro t ht hr
  have key : ∀ {act : InsAct} {idx : Nat}, TreeOut cfg cmp act item idx root mem t →
      Inv cfg cmp t.root ∧ sane cfg cmp t.root = true ∧
      (scan t.root (fun y (acc : List α) => (true, acc ++ [y])) []).2 =
        (scan root (fun y (acc : List α) => (true, acc ++ [y])) []).2 ∧
      count cfg t.root = count cfg root ∧ t.old = none := by
    intro act idx h
    obtain ⟨h1, h2, h3, h4, h5, _⟩ := treeOut_nomem hinv h hr
    exact ⟨h1, h2, by rw [scan_all, scan_all, h3], h4, h5⟩
  rcases ht with rfl | rfl | rfl | rfl | rfl
  · cases hno : cfg.noorder
    · exact key (insert_spec ho hno item root mem hinv)
    · simp [insert, hno] at hr
  · exact key (push_front_spec ho item root mem hinv)
  · exact key (push_back_spec ho item root mem hinv)
  · exact key (insert0_spec ho (fun h => by cases h) index root mem hinv)
  · exact key (insert0_spec ho (fun h => by cases h) index root mem hinv)

/-- C29 on the trees `[10, 15] 20 [30, 40, 50]` of the two builds, with an
allocator that fails: the descent of `insert_fastpath` into child 1 raises the
count of slot 1 to 4 (counted build) and widens the rectangle of slot 1 to
`[30, 60]` (spatial build); the leaf is full, `split_child_at` fails, and the
tree comes back with the count 3 and the rectangle `[30, 50]`. -/
theorem nomem_leaves_tree_witness :
    OrdOK cfgW icmp ∧ Inv cfgW icmp (some treeN) ∧
      (inc_count cfgW treeN 1).count 1 = 4 ∧
      insert_fast_down cfgW icmp 60 11 treeN 1 [false] =
        FastRes.brk Status.NOMEM treeN none [] ∧
      (insert cfgW icmp (some treeN) 60 [false]).ret = Status.NOMEM ∧
      (insert cfgW icmp (some treeN) 60 [false]).root = some treeN ∧
      sane cfgW icmp (insert cfgW icmp (some treeN) 60 [false]).root = true ∧
      (scan (insert cfgW icmp (some treeN) 60 [false]).root
        (fun y (acc : List Int) => (true, acc ++ [y])) []).2 = [10, 15, 20, 30, 40, 50] ∧
      Spatial.SpatialInv Spatial.cfgS icmp 1 Spatial.lineW (some Spatial.treeN) ∧
      (Spatial.treeN.setRect 1 (Spatial.rect_join 1 (Spatial.treeN.rect 1)
        (Spatial.item_rect 1 Spatial.lineW (60 : Int)))).rect 1 = Spatial.Rect.mk [30] [60] ∧
      Spatial.insert_fast_down Spatial.cfgS icmp 1 Spatial.lineW 60 11 Spatial.treeN 1 [false] =
        Spatial.FastRes.brk Status.NOMEM Spatial.treeN none [] ∧
      (Spatial.insert Spatial.cfgS icmp 1 Spatial.lineW (some Spatial.treeN) 60 [false]).ret =
        Status.NOMEM ∧
      (Spatial.insert Spatial.cfgS icmp 1 Spatial.lineW (some Spatial.treeN) 60 [false]).root =
        some Spatial.treeN ∧
      Spatial.sane Spatial.cfgS icmp 1 Spatial.lineW
        (Spatial.insert Spatial.cfgS icmp 1 Spatial.lineW (some Spatial.treeN) 60
          [false]).root = true ∧
      (Spatial.push_back Spatial.cfgS icmp 1 Spatial.lineW (some Spatial.treeN) 70
        [false]).ret = Status.NOMEM ∧
      Spatial.sane Spatial.cfgS icmp 1 Spatial.lineW
        (Spatial.push_back Spatial.cfgS icmp 1 Spatial.lineW (some Spatial.treeN) 70
          [false]).root = true :=
  ⟨fun _ => icmp_ord, treeN_inv, by decide, rfl, by decide, rfl,
    ((nomem_leaves_tree cfgW icmp (some treeN) 60 0 [false] (fun _ => icmp_ord)
      treeN_inv).1 _ (Or.inl rfl) (by decide)).2.1,
    ((nomem_leaves_tree cfgW icmp (some treeN) 60 0 [false] (fun _ => icmp_ord)
      treeN_inv).1 _ (Or.inl rfl) (by decide)).2.2.1.trans (by decide),
    Spatial.treeN_spinv, by decide, rfl, by decide, rfl,
    ((nomem_leaves_tree cfgW icmp (some treeN) 60 0 [false] (fun _ => icmp_ord)
      treeN_inv).2 Spatial.cfgS 1 Spatial.lineW (some Spatial.treeN) _ rfl (fun _ => icmp_ord)
      Spatial.treeN_spinv (Or.inl rfl) (by decide)).2.1, by decide,
    ((nomem_leaves_tree cfgW icmp (some treeN) 70 0 [false] (fun _ => icmp_ord)
      treeN_inv).2 Spatial.cfgS 1 Spatial.lineW (some Spatial.treeN) _ rfl (fun _ => icmp_ord)
      Spatial.treeN_spinv (Or.inr (Or.inr (Or.inl rfl))) (by decide)).2.1⟩

/-- C26 (as the code has it): when `sane` returns `true` on a tree with root
`r`, the root holds at least one item and every node that `sane0` visits
satisfies `NodeChecked`: at most `BGEN_MAXITEMS` items (and at least
`BGEN_MINITEMS` below the root), height field 1 in a leaf, at least 2 in a
branch and equal to the length of the leftmost path, adjacent items of a node
strictly ascending and every separator strictly between the boundary items of
its two child nodes (ordered trees), every stored count equal to the size of
the child subtree (counted trees); so `sane` returns `false` when one of these
fails at a visited node.  Every tree satisfying the invariants passes `sane`,
and so does the empty tree.  On a build with `BGEN_SPATIAL` (not counted) the
same holds of the `sane` of that build, and in addition every visited branch
satisfies `RectChecked`: the stored rectangle of every slot agrees in every
coordinate with `deeprect` of the child of the slot joined with the rectangle of
the separator of the slot; `sane` returns `false` when that fails at a visited
node, and `true` on every spatial tree that satisfies the invariants and whose
stored rectangles are tight covers. -/
theorem sane_checks_nodes (cfg : Config) (cmp : α → α → Int) (r : Node α)
    (h : sane cfg cmp (some r) = true) :
    1 ≤ r.len ∧ (∀ x ∈ subnodes r, NodeChecked cfg cmp x) ∧
    (∀ t : Node α, (t.len = 0 ∨ ∃ x ∈ subnodes t, ¬ NodeChecked cfg cmp x) →
      sane cfg cmp (some t) = false) ∧
    (∀ t : Option (Node α), Inv cfg cmp t → sane cfg cmp t = true) ∧
    sane cfg cmp (none : Option (Node α)) = true ∧
    (∀ (scfg : Config) (dims : Nat) (itemrect : α → List Int × List Int)
      (sr : Spatial.Node α), scfg.counted = false →
      Spatial.sane scfg cmp dims itemrect (some sr) = true →
      1 ≤ sr.len ∧
        ∀ x ∈ Spatial.subnodes sr,
          NodeChecked scfg cmp (Spatial.forget x) ∧ Spatial.RectChecked scfg dims itemrect x) ∧
    (∀ (scfg : Config) (dims : Nat) (itemrect : α → List Int × List Int)
      (st : Spatial.Node α), scfg.counted = false →
      (st.len = 0 ∨ ∃ x ∈ Spatial.subnodes st,
        ¬ (NodeChecked scfg cmp (Spatial.forget x) ∧
          Spatial.RectChecked scfg dims itemrect x)) →
      Spatial.sane scfg cmp dims itemrect (some st) = false) ∧
    (∀ (scfg : Config) (dims : Nat) (itemrect : α → List Int × List Int)
      (t : Option (Spatial.Node α)), Spatial.SpatialInv scfg cmp dims itemrect t →
      Spatial.sane scfg cmp dims itemrect t = true) ∧
    ∀ (scfg : Config) (dims : Nat) (itemrect : α → List Int × List Int),
      Spatial.sane scfg cmp dims itemrect (none : Option (Spatial.Node α)) = true := by
  have key : ∀ t : Node α, sane cfg cmp (some t) = true →
      1 ≤ t.len ∧ ∀ x ∈ subnodes t, NodeChecked cfg cmp x := by
    intro t ht
    obtain ⟨a1, _, a3⟩ := sane0_checks t 0 ht
    exact ⟨by simpa using a1, a3⟩
  refine ⟨(key r h).1, (key r h).2, fun t ht => ?_, fun t ht => sane_of_inv ht, rfl,
    fun scfg dims itemrect sr hc hs => Spatial.sp_sane_checks hc hs,
    fun scfg dims itemrect st hc ht => ?_,
    fun scfg dims itemrect t ht => Spatial.sp_sane_of_inv ht, fun _ _ _ => rfl⟩
  · cases hs : sane cfg cmp (some t)
    · rfl
    · obtain ⟨b1, b2⟩ := key t hs
      rcases ht with ht | ⟨x, hx, hn⟩
      · omega
      · exact absurd (b2 x hx) hn
  · cases hs : Spatial.sane scfg cmp dims itemrect (some st)
    · rfl
    · obtain ⟨b1, b2⟩ := Spatial.sp_sane_checks hc hs
      rcases ht with ht | ⟨x, hx, hn⟩
      · omega
      · exact absurd (b2 x hx) hn

theorem sane_checks_nodes_witness :
    sane cfgW icmp (some treeW) = true ∧ 1 ≤ treeW.len ∧
      (∀ x ∈ subnodes treeW, NodeChecked cfgW icmp x) ∧
      Spatial.sane Spatial.cfgS icmp 1 Spatial.lineW (some Spatial.treeN) = true ∧
      (∀ x ∈ Spatial.subnodes Spatial.treeN,
        NodeChecked Spatial.cfgS icmp (Spatial.forget x) ∧
          Spatial.RectChecked Spatial.cfgS 1 Spatial.lineW x) ∧
      Spatial.sane Spatial.cfgS icmp 1 Spatial.lineW
        (some (Spatial.treeN.setRect 1 (Spatial.Rect.mk [30] [60]))) = false :=
  ⟨by decide, (sane_checks_nodes cfgW icmp treeW (by decide)).1,
    (sane_checks_nodes cfgW icmp treeW (by decide)).2.1, by decide,
    ((sane_checks_nodes cfgW icmp treeW (by decide)).2.2.2.2.2.1 Spatial.cfgS 1 Spatial.lineW
      Spatial.treeN rfl (by decide)).2, by decide⟩

end Bgen
